import Mathlib

/-!
# sortinglowerbounds: a verification development

A shallow embedding of the core of the sorting-lower-bound search engine
(`src/src/*.cpp`, `src/src/*.h`) together with theorems about it.

Conventions of the embedding.

* Machine words are natural numbers; an operation that can wrap is written with an
  explicit `% 2 ^ w`.  `BitS` is the 32-bit vertex-set word of `config.h`.
* The compile-time constant `NUMEL` (`MAXN`) is an explicit parameter.
* Arrays that the C++ code allocates with `malloc` and never initialises are functions
  `Nat → Nat` whose initial contents are an arbitrary parameter of the model.
* A failed `assert(false)` guard is the result `none`.
-/

set_option autoImplicit false

/-! ## config.h -/

/-- Width in bits of `LinExtT` (`config.h`): `uint64_t` for `NUMEL ≤ 20`,
`unsigned __int128` for `NUMEL ≤ 33`, a 256-bit integer otherwise. -/
def linExtTBits (NUMEL : Nat) : Nat :=
  if NUMEL ≤ 20 then 64 else if NUMEL ≤ 33 then 128 else 256

/-- The macro `LINEXT_TABLE_EXP` of `linExtCalculator.cpp`: `1` when `NUMEL < 25`. -/
def LINEXT_TABLE_EXP (NUMEL : Nat) : Bool := decide (NUMEL < 25)

/-! ## sortableStatus.h, posetObjCore.h, posetObj.h -/

/-- The three values of `SortableStatus`. -/
inductive SortableStatus where
  | UNFINISHED
  | YES
  | NO
deriving DecidableEq, Repr

/-- The record `PosetObjCore` / `PosetObj`.  The byte array `graphMain` followed by the bit
field `graphLastBits` is kept as the single number `graph` whose bit `i` is `graphGet(i)`:
byte `k` of `graphMain` is `(graph >>> (8 * k)) % 256`. -/
structure PosetObj where
  graph : Nat
  status : SortableStatus
  selfdualId : Bool
  uniqueGraph : Bool
  mark : Bool
deriving DecidableEq, Repr

/-- The table `jOffset` built by `fill_array` in `posetObj.h`:
`jOffset[0] = 0`, `jOffset[f] = jOffset[f-1] + (MAXN - f)`. -/
def jOffset (MAXN : Nat) : Nat → Nat
  | 0 => 0
  | f + 1 => jOffset MAXN f + (MAXN - (f + 1))

/-- Model of `PosetObjCore::graphGet`. -/
def PosetObj.graphGet (p : PosetObj) (i : Nat) : Bool := p.graph.testBit i

/-- Model of `PosetObj::is_edge` (and `isEdge`): no edge unless `j < k`, otherwise the bit at
position `k + jOffset[j] - j - 1`. -/
def PosetObj.is_edge (MAXN : Nat) (p : PosetObj) (j k : Nat) : Bool :=
  if j ≥ k then false else p.graphGet (k + jOffset MAXN j - j - 1)

/-! ## linExtCalculator.cpp: the downset dynamic programme -/

/-- The set bits of a 32-bit word in increasing order: the order in which the
`__builtin_ctz` / shift loops of `calculateLinExtensionsNew` visit them. -/
def bitsOf (x : Nat) : List Nat := (List.range 32).filter (fun i => x.testBit i)

/-- Bitwise complement of a `BitS` word (`~x` on `uint32_t`). -/
def bnot32 (x : Nat) : Nat := (2 ^ 32 - 1) ^^^ (x % 2 ^ 32)

/-- The loop that builds `inVertexMask[i]` / `outVertexMask[i]`:
`mask = 0; for (j = n-1; j >= 0; j--) { mask <<= 1; mask |= edge(j); }`. -/
def vertexMask (n : Nat) (edge : Nat → Bool) : Nat :=
  (List.range n).reverse.foldl (fun m j => (m <<< 1) ||| (if edge j then 1 else 0)) 0

/-- Model of `inVertexMask[i]`: bit `j` is `poset.isEdge(j, i)`. -/
def inVertexMask (MAXN : Nat) (p : PosetObj) (n i : Nat) : Nat :=
  vertexMask n (fun j => p.is_edge MAXN j i)

/-- Model of `outVertexMask[i]`: bit `j` is `poset.isEdge(i, j)`. -/
def outVertexMask (MAXN : Nat) (p : PosetObj) (n i : Nat) : Nat :=
  vertexMask n (fun j => p.is_edge MAXN i j)

/-- Overwrite one cell of an array modelled as a function. -/
def setCell (f : Nat → Nat) (a v : Nat) : Nat → Nat := fun x => if x = a then v else f x

/-- State of the forward sweep: the written prefix `udSetVectorSet[0 .. writeIndex)` and the
column `udSetVectorVal[·].downVal`, indexed by the set itself (`LINEXT_TABLE_EXP` build). -/
structure FwdState where
  sets : List Nat
  down : Nat → Nat

/-- The `while (curSetShift)` loop of the forward sweep for one freshly created `curSet`:
every set bit `i` of `curSet` except the highest is visited in increasing order; when
`curSet` without `i` does not meet `outVertexMask[i]`, its `downVal` is added. -/
def addPredecessors (w : Nat) (outM : Nat → Nat) (curSet : Nat) (down : Nat → Nat) : Nat → Nat :=
  (bitsOf curSet).dropLast.foldl (fun d i =>
    let preCurSet := curSet &&& bnot32 (1 <<< i)
    if preCurSet &&& outM i = 0 then
      setCell d curSet ((d curSet + d preCurSet) % 2 ^ w)
    else d) down

/-- Body of `for (j = 0; j < lastEnd; j++)` for the entry `s = udSetVectorSet[j]`. -/
def fwdVisit (w : Nat) (inM outM : Nat → Nat) (endNode : Nat) (st : FwdState) (s : Nat) :
    FwdState :=
  if s ||| inM endNode = s then
    let curSet := s ||| (1 <<< endNode)
    { sets := st.sets ++ [curSet],
      down := addPredecessors w outM curSet (setCell st.down curSet (st.down s)) }
  else st

/-- How the forward sweep ends. -/
inductive FwdResult where
  | aborted
  | overflow
  | done (st : FwdState)

/-- The loop `for (endNode = 0; endNode < n; endNode++)`, given the list of end nodes still
to do.  `allocatedMemorySize` guards the set array (`assert(false)` when
`lastEnd >= allocatedMemorySize / 2`); with `overflowCheck` the sweep returns `0` as soon as
the last `downVal` written exceeds `UINT32_MAX / MAXN`. -/
def fwdLoop (w MAXN allocatedMemorySize : Nat) (overflowCheck : Bool) (inM outM : Nat → Nat) :
    List Nat → FwdState → FwdResult
  | [], st => FwdResult.done st
  | endNode :: rest, st =>
    if st.sets.length ≥ allocatedMemorySize / 2 then FwdResult.aborted
    else if overflowCheck && decide (st.down (st.sets.getLastD 0) > (2 ^ 32 - 1) / MAXN) then
      FwdResult.overflow
    else
      fwdLoop w MAXN allocatedMemorySize overflowCheck inM outM rest
        (st.sets.foldl (fwdVisit w inM outM endNode) st)

/-- State of the backward sweep: the column `upVal` and the table `t`. -/
structure BwdState where
  up : Nat → Nat
  t : Nat → Nat → Nat

/-- The innermost loop `for (k = i + 1; k < n; k++) if (!(preCurSet & k_mask)) t[i][k] += product`
(the `BRANCHLESS` variant adds `product & mask` with the same effect). -/
def addProduct (w n i preCurSet product : Nat) (t : Nat → Nat → Nat) : Nat → Nat → Nat :=
  fun a b =>
    if a = i ∧ i < b ∧ b < n ∧ preCurSet.testBit b = false then (t a b + product) % 2 ^ w
    else t a b

/-- Body of the backward sweep for one vertex `i` outside `curSet`. -/
def bwdVertex (w n : Nat) (inM : Nat → Nat) (down : Nat → Nat) (curSet : Nat)
    (st : BwdState) (i : Nat) : BwdState :=
  let preCurSet := curSet ||| (1 <<< i)
  if curSet ||| inM i = curSet then
    let up1 := setCell st.up curSet ((st.up curSet + st.up preCurSet) % 2 ^ w)
    let product := (down curSet * up1 preCurSet) % 2 ^ w
    { up := up1, t := addProduct w n i preCurSet product st.t }
  else st

/-- Body of `for (curWriteIndex = lastSet - 1; curWriteIndex >= 0; curWriteIndex--)`. -/
def bwdVisit (w n : Nat) (inM : Nat → Nat) (down : Nat → Nat) (set1 : Nat)
    (st : BwdState) (curSet : Nat) : BwdState :=
  (bitsOf (bnot32 curSet &&& set1)).foldl (bwdVertex w n inM down curSet)
    { up := setCell st.up curSet 0, t := st.t }

/-- Model of `LinearExtensionCalculatorInternal::calculateLinExtensionsNew` in the
`LINEXT_TABLE_EXP` build.  `w` is the width of the value type, `down0` and `up0` are the
contents of the scratch table on entry.  The result is `none` when the capacity guard
fires, otherwise `e_p` and the table `t` (all zero when `fillTable` is off; only the upper
triangle is written). -/
def calculateLinExtensionsNew (w MAXN allocatedMemorySize : Nat) (overflowCheck : Bool)
    (down0 up0 : Nat → Nat) (poset : PosetObj) (fillTable : Bool) (n : Nat) :
    Option (Nat × (Nat → Nat → Nat)) :=
  let inM := inVertexMask MAXN poset n
  let outM := outVertexMask MAXN poset n
  let set1 := ((1 <<< n) % 2 ^ 32 + 2 ^ 32 - 1) % 2 ^ 32
  match fwdLoop w MAXN allocatedMemorySize overflowCheck inM outM (List.range n)
      { sets := [0], down := setCell down0 0 (1 % 2 ^ w) } with
  | FwdResult.aborted => none
  | FwdResult.overflow => some (0, fun _ _ => 0)
  | FwdResult.done st =>
    if fillTable then
      let bw := st.sets.dropLast.reverse.foldl (bwdVisit w n inM st.down set1)
        { up := setCell up0 set1 (1 % 2 ^ w), t := fun _ _ => 0 }
      some (st.down set1, bw.t)
    else some (st.down set1, fun _ _ => 0)

/-- Model of `fillFullTable<fixN>(t, e_p, n)`: the lower triangle is `e_p - t[j][i]`. -/
def fillFullTable (w : Nat) (t : Nat → Nat → Nat) (e_p n : Nat) : Nat → Nat → Nat :=
  fun i j => if j < i ∧ i < n then (e_p + 2 ^ w - t j i % 2 ^ w) % 2 ^ w else t i j

/-! ## The brute-force enumerator -/

/-- A sequence of vertices respects the edges: nothing is placed before one of its
predecessors. -/
def isLinExt (edge : Nat → Nat → Bool) : List Nat → Bool
  | [] => true
  | x :: xs => xs.all (fun y => !edge y x) && isLinExt edge xs

/-- Brute force: run through all `n!` orderings of the vertices and count those that are
topological orderings. -/
def bruteForceLinExt (edge : Nat → Nat → Bool) (n : Nat) : Nat :=
  ((List.range n).permutations.filter (isLinExt edge)).length

/-- Brute force: the number of topological orderings in which `i` comes before `j`. -/
def bruteForcePrecedes (edge : Nat → Nat → Bool) (n i j : Nat) : Nat :=
  ((List.range n).permutations.filter
    (fun l => isLinExt edge l && decide (l.indexOf i < l.indexOf j))).length

/-! ## Notions used to state and prove the properties of the counter -/

/-- Number of orderings of the vertex list `vs` that respect the edges. -/
def extCount (edge : Nat → Nat → Bool) (vs : List Nat) : Nat :=
  (vs.permutations.filter (isLinExt edge)).length

/-- Maximal in `vs`: no other member of `vs` is a successor of `v`. -/
def isMaximalIn (edge : Nat → Nat → Bool) (vs : List Nat) (v : Nat) : Bool :=
  vs.all (fun x => x == v || !edge v x)

/-- What the masks built by `inVertexMask` / `outVertexMask` say about the edge relation. -/
structure MaskSpec (edge : Nat → Nat → Bool) (n : Nat) (inM outM : Nat → Nat) : Prop where
  hin : ∀ v u, (inM v).testBit u = (decide (u < n) && edge u v)
  hout : ∀ v u, (outM v).testBit u = (decide (u < n) && edge v u)
  hfwd : ∀ j k, edge j k = true → j < k
  hn : n < 32

/-- The sets the forward sweep has written when it starts with end node `e`: every set
already known, followed by each known set that contains `inVertexMask[e]`, extended by `e`. -/
def downSets (inM : Nat → Nat) : Nat → List Nat
  | 0 => [0]
  | e + 1 => downSets inM e ++
      ((downSets inM e).filter (fun s => s ||| inM e = s)).map (fun s => s ||| (1 <<< e))

/-- Closed under predecessors. -/
def ClosedSet (edge : Nat → Nat → Bool) (m : Nat) : Prop :=
  ∀ u v, edge u v = true → m.testBit v = true → m.testBit u = true

/-- Is `m` closed under predecessors among the vertices below `e`? -/
def isDownSet (edge : Nat → Nat → Bool) (e m : Nat) : Bool :=
  (List.range e).all (fun v =>
    !m.testBit v || (List.range v).all (fun u => !edge u v || m.testBit u))

/-- The number of downsets of the poset restricted to the vertices below `e`. -/
def downSetCount (edge : Nat → Nat → Bool) (e : Nat) : Nat :=
  ((List.range (2 ^ e)).filter (isDownSet edge e)).length

/-- Minimal in `vs`: no other member of `vs` is a predecessor of `v`. -/
def isMinimalIn (edge : Nat → Nat → Bool) (vs : List Nat) (v : Nat) : Bool :=
  vs.all (fun x => x == v || !edge x v)

/-- What the visit of the downset `S` adds to `t[a][b]`: the orderings of `S`, then `a`,
then an ordering of the rest, when `a` can follow `S` directly and `b` comes later. -/
def contrib (edge : Nat → Nat → Bool) (n : Nat) (inM : Nat → Nat) (S a b : Nat) : Nat :=
  if (bnot32 S &&& (2 ^ n - 1)).testBit a = true ∧ S ||| inM a = S ∧ a < b ∧ b < n ∧
      (S ||| (1 <<< a)).testBit b = false then
    extCount edge (bitsOf S) * extCount edge (bitsOf (bnot32 (S ||| (1 <<< a)) &&& (2 ^ n - 1)))
  else 0

/-- The set of the members of a list, as a bit mask. -/
def maskOf (l : List Nat) : Nat := l.foldr (fun x m => m ||| (1 <<< x)) 0

/-- The set of the vertices placed before `a` in the ordering `l`. -/
def prefixMask (a : Nat) (l : List Nat) : Nat := maskOf (l.takeWhile (fun x => x != a))

/-- The wide path of `calculateLinExtensionsSingleton` for a poset with at most one
singleton when the table is wanted:
`e_p = internalCalcFull->calculateLinExtensionsNew<false>(*poset, fillTable, n);`
`fillFullTable<false>(linExtTable, e_p, n);`. -/
def calcFullWithTable (NUMEL allocatedMemorySize : Nat) (down0 up0 : Nat → Nat)
    (poset : PosetObj) (n : Nat) : Option (Nat × (Nat → Nat → Nat)) :=
  match calculateLinExtensionsNew (linExtTBits NUMEL) NUMEL allocatedMemorySize false down0 up0
      poset true n with
  | none => none
  | some r => some (r.1, fillFullTable (linExtTBits NUMEL) r.2 r.1 n)

/-! ## posetInfo.h -/

/-- The run parameters `NCT::N`, `NCT::C` and the compile-time `MAXN`. -/
structure NCT where
  MAXN : Nat
  N : Nat
  C : Nat
deriving DecidableEq, Repr

/-- Model of `PosetInfo`: the number of singletons and of pairs. -/
structure PosetInfo where
  numSingletons : Nat
  numPairs : Nat
deriving DecidableEq, Repr

/-- Model of `PosetInfo::GetReducedN` (unsigned 32-bit arithmetic). -/
def PosetInfo.GetReducedN (cfg : NCT) (i : PosetInfo) : Nat :=
  (cfg.N + 2 * 2 ^ 32 - (2 * i.numPairs) % 2 ^ 32 - i.numSingletons % 2 ^ 32) % 2 ^ 32

/-- Model of `PosetInfo::GetFirstSingleton`. -/
def PosetInfo.GetFirstSingleton (cfg : NCT) (i : PosetInfo) : Nat :=
  (cfg.N + 2 ^ 32 - i.numSingletons % 2 ^ 32) % 2 ^ 32

/-- Model of `PosetInfo::GetFirstInPair`. -/
def PosetInfo.GetFirstInPair (cfg : NCT) (i : PosetInfo) : Nat := i.GetReducedN cfg

/-- Model of `PosetInfo::isSingleton`. -/
def PosetInfo.isSingleton (cfg : NCT) (i : PosetInfo) (v : Nat) : Bool :=
  decide (v ≥ i.GetFirstSingleton cfg)

/-- Model of `PosetInfo::isInBigPart`. -/
def PosetInfo.isInBigPart (cfg : NCT) (i : PosetInfo) (v : Nat) : Bool :=
  decide (v < i.GetFirstInPair cfg)

/-- Model of `PosetInfo::isInPair`. -/
def PosetInfo.isInPair (cfg : NCT) (i : PosetInfo) (v : Nat) : Bool :=
  decide (v < i.GetFirstSingleton cfg) && decide (v ≥ i.GetFirstInPair cfg)

/-! ## niceGraph.h, niceGraph.cpp -/

/-- Model of `AdjacencyMatrix`: the rows `data[0 .. n)`; bit `t` of row `s` is the edge `s → t`. -/
abbrev AdjacencyMatrix := List Nat

/-- Model of `AdjacencyMatrix::get`. -/
def AdjacencyMatrix.get (m : AdjacencyMatrix) (source target : Nat) : Bool :=
  (m.getD source 0).testBit target

/-- Model of `AdjacencyMatrix::set`. -/
def AdjacencyMatrix.setEdge (m : AdjacencyMatrix) (source target : Nat) : AdjacencyMatrix :=
  m.set source (m.getD source 0 ||| (1 <<< target))

/-- Model of `AdjacencyMatrix::deleteEdge`. -/
def AdjacencyMatrix.deleteEdge (m : AdjacencyMatrix) (source target : Nat) : AdjacencyMatrix :=
  m.set source (m.getD source 0 &&& bnot32 (1 <<< target))

/-- Model of `AdjacencyMatrix::TransitiveClosure`: for `k`, for `i`: when bit `k` of row `i` is set,
row `i` is or-ed with row `k`. -/
def AdjacencyMatrix.TransitiveClosure (n : Nat) (m : AdjacencyMatrix) : AdjacencyMatrix :=
  (List.range n).foldl (fun d k =>
    (List.range n).foldl (fun d i =>
      if (d.getD i 0).testBit k then d.set i (d.getD i 0 ||| d.getD k 0) else d) d) m

/-- Model of `AdjacencyMatrix::reverse`. -/
def AdjacencyMatrix.reverse (n : Nat) (m : AdjacencyMatrix) : AdjacencyMatrix :=
  (List.range n).map (fun i => vertexMask n (fun j => m.get j i))

/-- Model of `VertexList::extendPermutation`. -/
def extendPermutation (perm : List Nat) (n : Nat) : List Nat :=
  perm ++ (List.range n).drop perm.length

/-- Model of `AdjacencyMatrix::reorder`: bit `j` of the new row `i` is the old edge
`permutation[i] → permutation[j]`, the permutation being extended by the identity. -/
def AdjacencyMatrix.reorder (n : Nat) (m : AdjacencyMatrix) (permutation : List Nat) :
    AdjacencyMatrix :=
  let p := extendPermutation permutation n
  (List.range n).map (fun i =>
    vertexMask n (fun j => (m.getD (p.getD i 0) 0).testBit (p.getD j 0)))

/-- One round of the `while (availableMask)` loop of `getLayerStructureRev`: the vertices
`j < reduced_N` that are available and have no available out-neighbour. -/
def layerOf (m : AdjacencyMatrix) (reduced_N availableMask : Nat) : List Nat :=
  (List.range reduced_N).filter (fun j =>
    decide (availableMask &&& (m.getD j 0 ||| (1 <<< j)) = (1 <<< j)))

/-- Model of `AdjacencyMatrix::getLayerStructureRev`; `fuel` bounds the number of layers (the array
`layers` has `MAXN` entries). -/
def getLayerStructureRevAux (m : AdjacencyMatrix) (reduced_N : Nat) :
    Nat → Nat → List (List Nat)
  | 0, _ => []
  | fuel + 1, availableMask =>
    if availableMask = 0 then []
    else
      let layer := layerOf m reduced_N availableMask
      layer :: getLayerStructureRevAux m reduced_N fuel (availableMask &&& bnot32 (maskOf layer))

/-- Model of `AdjacencyMatrix::getLayerStructureRev(reduced_N)`. -/
def AdjacencyMatrix.getLayerStructureRev (MAXN : Nat) (m : AdjacencyMatrix) (reduced_N : Nat) :
    List (List Nat) :=
  getLayerStructureRevAux m reduced_N MAXN ((1 <<< reduced_N) - 1)

/-- Model of `NiceGraph`: the adjacency lists written by `AdjacencyMatrix::writeToGraph`. -/
structure NiceGraph where
  outLists : List (List Nat)
  inLists : List (List Nat)
deriving DecidableEq, Repr

/-- Model of `AdjacencyMatrix::writeToGraph`: out-neighbours and in-neighbours in increasing order. -/
def AdjacencyMatrix.writeToGraph (n : Nat) (m : AdjacencyMatrix) : NiceGraph :=
  { outLists := (List.range n).map (fun j => bitsOf (m.getD j 0)),
    inLists := (List.range n).map (fun k => (List.range n).filter (fun j => m.get j k)) }

/-- Model of `AdjacencyMatrix::transReduction`. -/
def AdjacencyMatrix.transReduction (m : AdjacencyMatrix) (newsource newtarget : Nat)
    (g : NiceGraph) : AdjacencyMatrix :=
  let outs := g.outLists.getD newtarget []
  let ins := g.inLists.getD newsource []
  let m1 := outs.foldl (fun d o => AdjacencyMatrix.deleteEdge d newsource o) m
  let m2 := ins.foldl (fun d i => AdjacencyMatrix.deleteEdge d i newtarget) m1
  outs.foldl (fun d o => ins.foldl (fun d i => AdjacencyMatrix.deleteEdge d i o) d) m2

/-- One pass of the inner `while` loop of `insertionSort` (niceGraph.h).  The sorted prefix
is kept in reverse; `val` moves left past every element `x` with `less val x`. -/
def insertionStep (less : Nat → Nat → Bool) (sortedRev : List Nat) (val : Nat) : List Nat :=
  sortedRev.takeWhile (less val) ++ val :: sortedRev.dropWhile (less val)

/-- Model of `insertionSort` of niceGraph.h. -/
def insertionSort (less : Nat → Nat → Bool) (l : List Nat) : List Nat :=
  (l.foldl (insertionStep less) []).reverse

/-- The four output lists of `LayerStructure::sortLayersAndGetPermutation`. -/
structure SortedLayers where
  permutation : List Nat
  flipIsos : List Nat
  cycleIsoStarts : List Nat
  cycleIsoLengths : List Nat
deriving DecidableEq, Repr

/-- The state of the inner `for (j = 1; ...)` loop of `sortLayersAndGetPermutation`. -/
structure LayerScan where
  out : SortedLayers
  last : Nat
  lastIndex : Nat
  numTotal : Nat

/-- One iteration `j` of the inner loop of `sortLayersAndGetPermutation` on the sorted
layer `layer`. -/
def layerScanStep (idSeq : List Nat) (layer : List Nat) (s : LayerScan) (j : Nat) : LayerScan :=
  let v := layer.getD j 0
  let s1 : LayerScan :=
    if idSeq.getD s.last 0 = idSeq.getD v 0 then
      if s.lastIndex = j - 1 then
        { s with out := { s.out with flipIsos := s.out.flipIsos ++ [s.numTotal] } }
      else if j + 1 = layer.length ∨ idSeq.getD s.last 0 ≠ idSeq.getD (layer.getD (j + 1) 0) 0 then
        { s with out := { s.out with
            cycleIsoStarts := s.out.cycleIsoStarts ++ [s.numTotal],
            cycleIsoLengths := s.out.cycleIsoLengths ++ [j + 1 - s.lastIndex] } }
      else s
    else { s with last := v, lastIndex := j }
  { s1 with out := { s1.out with permutation := s1.out.permutation ++ [v] },
            numTotal := s1.numTotal + 1 }

/-- The body of the outer loop of `sortLayersAndGetPermutation` for one layer. -/
def sortLayer (idSeq : List Nat) (acc : SortedLayers × Nat) (layer0 : List Nat) :
    SortedLayers × Nat :=
  let layer := insertionSort (fun i j => decide (idSeq.getD i 0 < idSeq.getD j 0)) layer0
  let first := layer.getD 0 0
  let s0 : LayerScan :=
    { out := { acc.1 with permutation := acc.1.permutation ++ [first] },
      last := first, lastIndex := 0, numTotal := acc.2 + 1 }
  let s := ((List.range layer.length).drop 1).foldl (layerScanStep idSeq layer) s0
  (s.out, s.numTotal)

/-- Model of `LayerStructure::sortLayersAndGetPermutation` with the comparison
`less(i, j) = idSeq[i] < idSeq[j]` that both call sites pass. -/
def sortLayersAndGetPermutation (idSeq : List Nat) (layers : List (List Nat)) : SortedLayers :=
  (layers.foldl (sortLayer idSeq) (⟨[], [], [], []⟩, 0)).1

/-! ## posetObj.cpp, posetObjCore.cpp: graph bits and fingerprints -/

/-- The constant `PRIME1` of config.h. -/
def PRIME1 : Nat := 3835324147
/-- The constant `PRIME2` of config.h. -/
def PRIME2 : Nat := 2662418543
/-- The constant `PRIME3` of config.h. -/
def PRIME3 : Nat := 3672298121
/-- The constant `MULT1` of config.h. -/
def MULT1 : Nat := 2232306541
/-- The constant `MULT2` of config.h. -/
def MULT2 : Nat := 1267922251

/-- Left shift of a `uint64_t`.  (A shift count of 64 or more is undefined in C++; the
model then yields `0`.) -/
def shl64 (x k : Nat) : Nat := (x <<< k) % 2 ^ 64

/-- The record `PosetObjCore()` built by the default constructor. -/
def PosetObj.new : PosetObj :=
  { graph := 0, status := SortableStatus.UNFINISHED, selfdualId := true, uniqueGraph := false,
    mark := false }

/-- Model of `PosetObj::add_edge`: sets the bit `k + jOffset[j] - j - 1`. -/
def PosetObj.add_edge (MAXN : Nat) (p : PosetObj) (j k : Nat) : PosetObj :=
  { p with graph := p.graph ||| (1 <<< (k + jOffset MAXN j - j - 1)) }

/-- Model of `PosetObj::add_edgeCond`. -/
def PosetObj.add_edgeCond (MAXN : Nat) (p : PosetObj) (j k : Nat) (val : Bool) : PosetObj :=
  if val then p.add_edge MAXN j k else p

/-- Model of `PosetObj::GetAdMatrix`: row `j` holds the bits `k > j` with `is_edge(j, k)`. -/
def PosetObj.GetAdMatrix (cfg : NCT) (p : PosetObj) : AdjacencyMatrix :=
  (List.range cfg.N).map (fun j =>
    ((List.range cfg.N).drop (j + 1)).foldl
      (fun row k => if p.is_edge cfg.MAXN j k then row ||| (1 <<< k) else row) 0)

/-- The double loop shared by `SetgraphPermutation` and `SetgraphPermutationReverse`:
bit `(i, j)`, `i < j < numPermuted`, is set when `edge i j` holds. -/
def setGraphLoop (MAXN numPermuted : Nat) (edge : Nat → Nat → Bool) (p : PosetObj) : PosetObj :=
  (List.range numPermuted).foldl (fun p i =>
    ((List.range numPermuted).drop (i + 1)).foldl
      (fun p j => p.add_edgeCond MAXN i j (edge i j)) p) p

/-- The tail of `SetgraphPermutation` / `SetgraphPermutationReverse`: the pair edges. -/
def setPairEdges (cfg : NCT) (info : PosetInfo) (p : PosetObj) : PosetObj :=
  let f := info.GetFirstInPair cfg
  let p1 := if info.numPairs ≥ 1 then p.add_edge cfg.MAXN f (f + 1) else p
  if info.numPairs = 2 then p1.add_edge cfg.MAXN (f + 2) (f + 3) else p1

/-- Model of `PosetObj::SetgraphPermutation`. -/
def PosetObj.SetgraphPermutation (cfg : NCT) (p : PosetObj) (adMatrix : AdjacencyMatrix)
    (permutation : List Nat) (info : PosetInfo) : PosetObj :=
  setPairEdges cfg info
    (setGraphLoop cfg.MAXN permutation.length
      (fun i j => adMatrix.get (permutation.getD i 0) (permutation.getD j 0))
      { p with graph := 0 })

/-- Model of `PosetObj::SetgraphPermutationReverse`. -/
def PosetObj.SetgraphPermutationReverse (cfg : NCT) (p : PosetObj) (adMatrix : AdjacencyMatrix)
    (permutation : List Nat) (info : PosetInfo) : PosetObj :=
  setPairEdges cfg info
    (setGraphLoop cfg.MAXN permutation.length
      (fun i j => adMatrix.get (permutation.getD j 0) (permutation.getD i 0))
      { p with graph := 0 })

/-- Model of `PosetObjCore::numGraphBits`. -/
def numGraphBits (MAXN : Nat) : Nat := MAXN * (MAXN - 1) / 2

/-- Model of `PosetObjCore::numMainGraphChars`. -/
def numMainGraphChars (MAXN : Nat) : Nat := (numGraphBits MAXN - 1) / 8

/-- The mixing step `hash ^= (hash << 17) ^ word ^ ((hash >> 5) & 0x4F0F0F0F0F0F0F0F)` of
`hashFromGraph`. -/
def hashMix (hash word : Nat) : Nat :=
  hash ^^^ (shl64 hash 17 ^^^ word ^^^ ((hash >>> 5) &&& 0x4F0F0F0F0F0F0F0F))

/-- Model of `PosetObjCore::hashFromGraph`: the main bytes are consumed eight at a time as
little-endian 64-bit words, then byte by byte, then `graphLastBits`. -/
def hashFromGraph (MAXN : Nat) (p : PosetObj) : Nat :=
  let numUint64 := numMainGraphChars MAXN / 8
  let numMoreChars := numMainGraphChars MAXN - 8 * numUint64
  let h1 := (List.range numUint64).foldl
    (fun h i => hashMix h ((p.graph >>> (64 * i)) % 2 ^ 64)) 0
  let h2 := (List.range numMoreChars).foldl
    (fun h i => hashMix h ((p.graph >>> (8 * (i + 8 * numUint64))) % 256)) h1
  let graphLastBits := (p.graph >>> (8 * numMainGraphChars MAXN)) %
    2 ^ (numGraphBits MAXN - 8 * numMainGraphChars MAXN)
  let h3 := h2 ^^^ ((shl64 graphLastBits 47 + graphLastBits) % 2 ^ 64)
  let h4 := (h3 * 123456789) % 2 ^ 64
  h4 ^^^ ((h4 >>> 50) ^^^ (h4 >>> 25) ^^^ ((h4 >>> 5) &&& 0x4F0F0F0F0F0F0F0F))

/-- The first assignment to `idSeq1[node]` in `fullFastHash` for out-degree `a` and in-degree
`b` (with the roles swapped it is `idSeq1Rev[node]`), including `+= degreeSequence[node]`. -/
def hashIdInit (a b : Nat) : Nat :=
  (((shl64 1 (2 * a + 5) + (shl64 1 (3 * b) * MULT1) % 2 ^ 64) % 2 ^ 64) % PRIME1
    + (23 * a + b)) % 2 ^ 64

/-- The accumulation `idSeq1A[node] = idSeq1[node] * mult + Σ idSeq1[out] + Σ idSeq1[in]`. -/
def idAccumulate (mult : Nat) (g : NiceGraph) (ids : List Nat) (node : Nat) : Nat :=
  let a0 := (ids.getD node 0 * mult) % 2 ^ 64
  let a1 := (g.outLists.getD node []).foldl (fun a o => (a + ids.getD o 0) % 2 ^ 64) a0
  (g.inLists.getD node []).foldl (fun a i => (a + ids.getD i 0) % 2 ^ 64) a1

/-- One round of the refinement loop of `fullFastHash`. -/
def hashRound (n : Nat) (g : NiceGraph) (deg : List Nat) (ids : List Nat) : List Nat :=
  (List.range n).map (fun node =>
    let a := idAccumulate 9 g ids node
    a ^^^ (((shl64 a 25 &&& 0xF1F1FFFF00001111) + deg.getD node 0 + (a >>> 2)) % 2 ^ 64))

/-- The state `(id, mult3)` of the final folding loop of `fullFastHash`. -/
def hashFold (sorted : List Nat) : Nat :=
  ((List.range sorted.length).foldl (fun (s : Nat × Nat) node =>
    let x := sorted.getD node 0
    (s.1 ^^^ (shl64 x node ^^^ ((x * s.2) % 2 ^ 64) ^^^ ((s.1 &&& 0xF1F1FFFF00001111) >>> 2)
        ^^^ shl64 s.1 17),
      (s.2 * 0x1001) % 2 ^ 64 % PRIME1)) (11, 13453)).1

/-- Model of `std::sort` on `uint64_t` values: the sorted rearrangement. -/
def sortIds (l : List Nat) : List Nat := l.insertionSort (fun a b => a ≤ b)

/-- Model of `PosetObj::fullFastHash`. -/
def fullFastHash (cfg : NCT) (p : PosetObj) : Nat :=
  let n := cfg.N
  let g := AdjacencyMatrix.writeToGraph n (p.GetAdMatrix cfg)
  let outDeg := fun node => (g.outLists.getD node []).length
  let inDeg := fun node => (g.inLists.getD node []).length
  let ids0 := (List.range n).map (fun node => hashIdInit (outDeg node) (inDeg node))
  let idsRev0 := (List.range n).map (fun node => hashIdInit (inDeg node) (outDeg node))
  let deg := (List.range n).map (fun node => 23 * outDeg node + inDeg node)
  let degRev := (List.range n).map (fun node => 23 * inDeg node + outDeg node)
  let ids := (List.range (n / 4)).foldl (fun ids _ => hashRound n g deg ids) ids0
  let idsRev := (List.range (n / 4)).foldl (fun ids _ => hashRound n g degRev ids) idsRev0
  min (hashFold (sortIds ids)) (hashFold (sortIds idsRev))

/-- Model of `PosetObj::computeHash`. -/
def computeHash (cfg : NCT) (p : PosetObj) : Nat :=
  if p.uniqueGraph then hashFromGraph cfg.MAXN p else fullFastHash cfg p

/-! ## expandedPoset.cpp: PosetInfo update and the canonicalizer -/

/-- The static function `addEdge` of expandedPoset.cpp: the `PosetInfo` of the child
obtained by adding the edge `k1 → k2` (unsigned arithmetic, fields stored in `uint8_t`). -/
def addEdge (cfg : NCT) (parent : PosetInfo) (k1 k2 : Nat) : PosetInfo :=
  let b := fun (x : Bool) => if x then 1 else 0
  let numSingletons := (parent.numSingletons + 2 * 2 ^ 32 - b (parent.isSingleton cfg k1)
    - b (parent.isSingleton cfg k2)) % 2 ^ 32
  let numPairs :=
    if parent.isSingleton cfg k1 && parent.isSingleton cfg k2 then
      (parent.numPairs + 1) % 2 ^ 32
    else (parent.numPairs + 2 * 2 ^ 32 - b (parent.isInPair cfg k1)
      - b (parent.isInPair cfg k2)) % 2 ^ 32
  { numSingletons := numSingletons % 256, numPairs := numPairs % 256 }

/-- The first assignment to `idSeq1[node]` in `reorderGraphCanonically` for out-degree `a`
and in-degree `b`, including `+= degreeSequence[node]`. -/
def canonIdInit (a b : Nat) : Nat :=
  (((shl64 1 (2 * a + 5) + ((shl64 1 (3 * b) % PRIME1) * MULT1) % 2 ^ 64) % 2 ^ 64) % PRIME1
    + (23 * a + b)) % 2 ^ 64

/-- One round of the refinement loop of `reorderGraphCanonically`. -/
def canonRound (reduced_n : Nat) (g : NiceGraph) (deg : List Nat) (ids : List Nat) : List Nat :=
  (List.range reduced_n).map (fun node =>
    let a := idAccumulate MULT1 g ids node
    a ^^^ (((shl64 a 5 &&& ((deg.getD node 0 + 0x0101FFFF00001111) % 2 ^ 64)) + (a >>> 2))
      % 2 ^ 64))

/-- Exchange of the entries at positions `i` and `i - 1` (`std::swap`). -/
def swapAt (l : List Nat) (i : Nat) : List Nat :=
  (l.set i (l.getD (i - 1) 0)).set (i - 1) (l.getD i 0)

/-- The rotation applied to `cycleIsoPermutation`: the entry at `endIndex` is moved to
position `endIndex - len + 1` and the entries in between move one place up.  The indices are
`int` in the source; a run never starts before position `0`, so `len ≤ endIndex + 1` and the
target position is written `endIndex + 1 - len`. -/
def cycleAt (l : List Nat) (endIndex len : Nat) : List Nat :=
  let temp := l.getD endIndex 0
  let l1 := ((List.range len).drop 1).foldl
    (fun cur j => cur.set (endIndex - j + 1) (cur.getD (endIndex - j) 0)) l
  l1.set (endIndex + 1 - len) temp

/-- The test run for one stream inside the `else` branch that sets `ambiguousGraph`: every
flip and every cycle must leave the reordered closure unchanged. -/
def flipsOk (n : Nat) (closure : AdjacencyMatrix) (perm : List Nat) (flips : List Nat) : Bool :=
  flips.all (fun f =>
    decide (AdjacencyMatrix.reorder n closure (swapAt perm f) =
      AdjacencyMatrix.reorder n closure perm))

/-- The cycle tests of one stream. -/
def cyclesOk (n : Nat) (closure : AdjacencyMatrix) (perm : List Nat)
    (starts lengths : List Nat) : Bool :=
  (List.range starts.length).all (fun i =>
    decide (AdjacencyMatrix.reorder n closure
        (cycleAt perm (starts.getD i 0) (lengths.getD i 0)) =
      AdjacencyMatrix.reorder n closure perm))

/-- Model of `reorderIds`. -/
def reorderIds (ids : List Nat) (permutation : List Nat) : List Nat :=
  permutation.map (fun v => ids.getD v 0)

/-- Model of `std::lexicographical_compare` on two ranges. -/
def lexicographical_compare : List Nat → List Nat → Bool
  | [], [] => false
  | [], _ :: _ => true
  | _ :: _, [] => false
  | a :: as, b :: bs =>
    if a < b then true else if b < a then false else lexicographical_compare as bs

/-- Model of `reorderGraphCanonically<isFullN>`: from the reduced matrix `adMatrix`, its closure and
the closure's adjacency lists to the canonical record. -/
def reorderGraphCanonically (cfg : NCT) (adMatrix adMatrixClosure : AdjacencyMatrix)
    (info : PosetInfo) (poset : PosetObj) (niceGraphClosure : NiceGraph) : PosetObj :=
  let n := cfg.N
  let reduced_n := info.GetReducedN cfg
  let outDeg := fun node => (niceGraphClosure.outLists.getD node []).length
  let inDeg := fun node => (niceGraphClosure.inLists.getD node []).length
  let ids0 := (List.range reduced_n).map (fun node => canonIdInit (outDeg node) (inDeg node))
  let idsRev0 := (List.range reduced_n).map (fun node => canonIdInit (inDeg node) (outDeg node))
  let deg := (List.range reduced_n).map (fun node => 23 * outDeg node + inDeg node)
  let degRev := (List.range reduced_n).map (fun node => 23 * inDeg node + outDeg node)
  let idSeq1 := (List.range (n / 3)).foldl
    (fun ids _ => canonRound reduced_n niceGraphClosure deg ids) ids0
  let idSeq1Rev := (List.range (n / 3)).foldl
    (fun ids _ => canonRound reduced_n niceGraphClosure degRev ids) idsRev0
  let adMatrixClosureRev := AdjacencyMatrix.reverse n adMatrixClosure
  let layersStructure := AdjacencyMatrix.getLayerStructureRev cfg.MAXN adMatrixClosureRev reduced_n
  let layersStructureRev := AdjacencyMatrix.getLayerStructureRev cfg.MAXN adMatrixClosure reduced_n
  let fw := sortLayersAndGetPermutation idSeq1 layersStructure
  let bw := sortLayersAndGetPermutation idSeq1Rev layersStructureRev
  let ambiguousGraph : Bool :=
    if fw.flipIsos.length = 0 ∧ bw.flipIsos.length = 0 ∧ fw.cycleIsoLengths.length = 0 ∧
        bw.cycleIsoLengths.length = 0 then false
    else !(flipsOk n adMatrixClosure fw.permutation fw.flipIsos &&
      flipsOk n adMatrixClosureRev bw.permutation bw.flipIsos &&
      cyclesOk n adMatrixClosure fw.permutation fw.cycleIsoStarts fw.cycleIsoLengths &&
      cyclesOk n adMatrixClosureRev bw.permutation bw.cycleIsoStarts bw.cycleIsoLengths)
  let p1 : PosetObj := { poset with selfdualId := false, uniqueGraph := !ambiguousGraph }
  let s := reorderIds idSeq1 fw.permutation
  let sRev := reorderIds idSeq1Rev bw.permutation
  let reverse := lexicographical_compare s sRev
  let p2 : PosetObj :=
    if reverse then p1
    else if s = sRev then
      if ambiguousGraph then { p1 with selfdualId := true, uniqueGraph := false }
      else if AdjacencyMatrix.reorder n adMatrixClosure fw.permutation ≠
          AdjacencyMatrix.reorder n adMatrixClosureRev bw.permutation then
        { p1 with selfdualId := true, uniqueGraph := false }
      else p1
    else p1
  if reverse then p2.SetgraphPermutationReverse cfg adMatrix bw.permutation info
  else p2.SetgraphPermutation cfg adMatrix fw.permutation info

/-- The record, the `PosetInfo` and the closure lists held by an `ExpandedPosetChild`. -/
structure ExpandedPosetChild where
  niceGraphClosure : NiceGraph
  poset : PosetObj
  info : PosetInfo
  linExt : Nat
deriving DecidableEq, Repr

/-- The constructor `ExpandedPosetChild(PosetHandle &parent, LinExtT linExt, int kk1, int kk2)`:
the child of `parent` by the edge `kk1 → kk2`. -/
def ExpandedPosetChild.ofParent (cfg : NCT) (parent : PosetObj) (parentInfo : PosetInfo)
    (linExt kk1 kk2 : Nat) : ExpandedPosetChild :=
  let info := addEdge cfg parentInfo kk1 kk2
  let adMatrix := AdjacencyMatrix.setEdge (parent.GetAdMatrix cfg) kk1 kk2
  let adMatrixClosure := AdjacencyMatrix.TransitiveClosure cfg.N adMatrix
  let niceGraphClosure := AdjacencyMatrix.writeToGraph cfg.N adMatrixClosure
  let reduced := AdjacencyMatrix.transReduction adMatrix kk1 kk2 niceGraphClosure
  { niceGraphClosure := niceGraphClosure,
    poset := reorderGraphCanonically cfg reduced adMatrixClosure info PosetObj.new
      niceGraphClosure,
    info := info, linExt := linExt }

/-- The constructor `ExpandedPosetChild(const AdjacencyMatrix& p, const PosetInfo& info,
LinExtT linExt)`: canonicalization of a matrix without prior reduction. -/
def ExpandedPosetChild.ofMatrix (cfg : NCT) (p : AdjacencyMatrix) (info : PosetInfo)
    (linExt : Nat) : ExpandedPosetChild :=
  let adMatrixClosure := AdjacencyMatrix.TransitiveClosure cfg.N p
  let niceGraphClosure := AdjacencyMatrix.writeToGraph cfg.N adMatrixClosure
  { niceGraphClosure := niceGraphClosure,
    poset := reorderGraphCanonically cfg p adMatrixClosure info PosetObj.new niceGraphClosure,
    info := info, linExt := linExt }

/-- Model of `ExpandedPosetChild::isEasilySortableUnrelatedPairs` (the subtraction is unsigned, the
result is stored in an `int` and compared with the unsigned `cLeft`). -/
def ExpandedPosetChild.isEasilySortableUnrelatedPairs (cfg : NCT) (c : ExpandedPosetChild)
    (cLeft : Nat) : Bool :=
  if cLeft ≤ 6 then
    let n := cfg.N
    let totalOut := ((List.range n).map
      (fun i => (c.niceGraphClosure.outLists.getD i []).length)).sum
    let numUnrelated := (n * (n - 1) / 2 + 2 ^ 32 - totalOut % 2 ^ 32) % 2 ^ 32
    decide (numUnrelated ≤ cLeft)
  else false

/-! ## posetObj.cpp, isoTest.cpp: the structural tests of the equality cascade -/

/-- Model of `PosetObj::isSingletonsAbove`. -/
def PosetObj.isSingletonsAbove (cfg : NCT) (p : PosetObj) (startSingletons : Nat) : Bool :=
  (List.range startSingletons).all (fun j =>
    ((List.range cfg.N).drop startSingletons).all (fun k => !p.is_edge cfg.MAXN j k)) &&
  ((List.range cfg.N).drop startSingletons).all (fun j =>
    ((List.range cfg.N).drop (j + 1)).all (fun k => !p.is_edge cfg.MAXN j k))

/-- Model of `PosetObj::isPairs`. -/
def PosetObj.isPairs (cfg : NCT) (p : PosetObj) (startPairs numPairs : Nat) : Bool :=
  let e := p.is_edge cfg.MAXN
  let endPairs := startPairs + 2 * numPairs
  if numPairs ≥ 1 then
    if !e startPairs (startPairs + 1) then false
    else if numPairs ≥ 2 && !e (startPairs + 2) (startPairs + 3) then false
    else if numPairs ≥ 2 && (e startPairs (startPairs + 2) || e startPairs (startPairs + 3) ||
        e (startPairs + 1) (startPairs + 2) || e (startPairs + 1) (startPairs + 3)) then false
    else
      (List.range startPairs).all (fun j =>
        ((List.range endPairs).drop startPairs).all (fun k => !e j k)) &&
      ((List.range endPairs).drop startPairs).all (fun j =>
        ((List.range cfg.N).drop endPairs).all (fun k => !e j k))
  else true

/-- All arrangements of a list: the candidate vertex correspondences of the isomorphism
search. -/
def arrangements : List Nat → List (List Nat)
  | [] => [[]]
  | x :: xs => (arrangements xs).flatMap (fun l =>
      (List.range (l.length + 1)).map (fun i => l.take i ++ x :: l.drop i))

/-- The decision `boost::vf2_graph_iso(g1, g2, callback)` on two graphs with vertex set
`0 .. m-1`, taken as an exact isomorphism test: some bijection `f` maps the edges of the
first graph exactly onto the edges of the second. -/
def vf2_graph_iso (m : Nat) (e1 e2 : Nat → Nat → Bool) : Bool :=
  (arrangements (List.range m)).any (fun f =>
    (List.range m).all (fun u => (List.range m).all (fun v =>
      e1 u v == e2 (f.getD u 0) (f.getD v 0))))

/-- Model of `boost_is_isomorphic`: the graphs are those of `GetReducedBoostgraph(reduced_n)`. -/
def boost_is_isomorphic (cfg : NCT) (first second : PosetObj) (reduced_n : Nat) : Bool :=
  vf2_graph_iso reduced_n (first.is_edge cfg.MAXN) (second.is_edge cfg.MAXN)

/-- Model of `boost_is_rev_isomorphic`: the second graph is that of `GetRevReducedBoostgraph`. -/
def boost_is_rev_isomorphic (cfg : NCT) (first second : PosetObj) (reduced_n : Nat) : Bool :=
  vf2_graph_iso reduced_n (first.is_edge cfg.MAXN) (fun u v => second.is_edge cfg.MAXN v u)

/-- Model of `AnnotatedPosetObj`: a `PosetObj` with its `PosetInfoFull` (info and hash), the edge-list
index `elIndex` and the number of linear extensions. -/
structure AnnotatedPosetObj where
  poset : PosetObj
  info : PosetInfo
  hash : Nat
  elIndex : Nat
  linExt : Nat
deriving DecidableEq, Repr

/-- Model of `PosetInfoFull::GetLockHash`. -/
def AnnotatedPosetObj.GetLockHash (a : AnnotatedPosetObj) : Nat := (a.hash % PRIME2) % 2 ^ 32

/-- Model of `PosetInfoFull::GetPointerHash`. -/
def AnnotatedPosetObj.GetPointerHash (a : AnnotatedPosetObj) (width : Nat) : Nat :=
  (a.hash % PRIME3) &&& ((1 <<< width) % 2 ^ 64 + 2 ^ 64 - 1) % 2 ^ 64

/-- Model of `ExpandedPosetChild::getHandle`. -/
def ExpandedPosetChild.getHandle (cfg : NCT) (c : ExpandedPosetChild) : AnnotatedPosetObj :=
  { poset := c.poset, info := c.info, hash := computeHash cfg c.poset, elIndex := 0,
    linExt := c.linExt }

/-- Model of `PosetObjCore::SameGraph`: equality of the `numGraphBits` stored graph bits. -/
def PosetObj.SameGraph (MAXN : Nat) (p other : PosetObj) : Bool :=
  decide (p.graph % 2 ^ numGraphBits MAXN = other.graph % 2 ^ numGraphBits MAXN)

/-- The part of `MyHashmap::testEquality` and of `OldGenMap::find` after the hash
comparison: flags, bitwise equality, the unique-graph shortcut, the tail layout and the
isomorphism tests. -/
def equalityCascade (cfg : NCT) (candidate : AnnotatedPosetObj) (entry : PosetObj) : Bool :=
  if candidate.poset.uniqueGraph != entry.uniqueGraph ||
      candidate.poset.selfdualId != entry.selfdualId then false
  else if candidate.poset.SameGraph cfg.MAXN entry then true
  else if candidate.poset.uniqueGraph && !candidate.poset.selfdualId then false
  else
    let reduced_n := candidate.info.GetReducedN cfg
    if !entry.isSingletonsAbove cfg (candidate.info.GetFirstSingleton cfg) then false
    else if !entry.isPairs cfg reduced_n candidate.info.numPairs then false
    else if candidate.poset.selfdualId then
      boost_is_isomorphic cfg candidate.poset entry reduced_n ||
        boost_is_rev_isomorphic cfg candidate.poset entry reduced_n
    else boost_is_isomorphic cfg candidate.poset entry reduced_n

/-! ## posetPointer.h, myHashmap.h -/

/-- The template parameters of `PosetPointer`: the widths of its three bit fields. -/
structure PtrWidths where
  posetRefIndexWidth : Nat
  pointerHashWidth : Nat
  pointerGenWidth : Nat
deriving DecidableEq, Repr

/-- Model of `PosetPointer<24, 7, 1>`, used by `PosetMap`. -/
def ptrSmall : PtrWidths := ⟨24, 7, 1⟩

/-- Model of `PosetPointer<64, 32, 32>`, used by `PosetMapExt`. -/
def ptrExt : PtrWidths := ⟨64, 32, 32⟩

/-- Model of `PosetPointer::posetRefIndexInvalid`. -/
def PtrWidths.posetRefIndexInvalid (w : PtrWidths) : Nat := 2 ^ w.posetRefIndexWidth - 1

/-- Model of `PosetPointer::posetGenMAX`. -/
def PtrWidths.posetGenMAX (w : PtrWidths) : Nat := 2 ^ w.pointerGenWidth - 1

/-- Model of `PosetPointer`. -/
structure PosetPointer where
  posetRefIndex : Nat
  pointerHash : Nat
  pointerGen : Nat
deriving DecidableEq, Repr

/-- The constructor `PosetPointer(hash, posRefIndex, gen)`: each value is stored in its bit
field. -/
def PosetPointer.make (w : PtrWidths) (hash posRefIndex gen : Nat) : PosetPointer :=
  { posetRefIndex := posRefIndex % 2 ^ w.posetRefIndexWidth,
    pointerHash := hash % 2 ^ w.pointerHashWidth,
    pointerGen := gen % 2 ^ w.pointerGenWidth }

/-- The default constructor `PosetPointer()`. -/
def PosetPointer.invalid (w : PtrWidths) : PosetPointer :=
  { posetRefIndex := w.posetRefIndexInvalid, pointerHash := 0, pointerGen := 0 }

/-- Model of `PosetPointer::isValid`. -/
def PosetPointer.isValid (w : PtrWidths) (p : PosetPointer) (gen : Nat) : Bool :=
  p.posetRefIndex != w.posetRefIndexInvalid && p.pointerGen == gen

/-- The floating-point decisions of `MyHashmap`, kept as parameters of the model:
`needRehash numElements c capacity` is the test
`static_cast<float>(numElements) >= loadFactor * static_cast<float>(capacity)` for
`loadFactor = computeLoadFactor(c)`, and `grow capacity` is the product of `capacity` with
`1.7`, `1.5` or `1.3` computed in `double` and truncated, which `rehash()` uses for
capacities from `3 << 9`. -/
structure FloatOps where
  needRehash : Nat → Nat → Nat → Bool
  grow : Nat → Nat

/-- Model of `MyHashmap`: the slot array `data`, `capacity`, `numElements` and the generation.  The
member `loadFactor` always is `computeLoadFactor(c)` for some capacity `c` (`0.45f`, its
default, is `computeLoadFactor(0)`); the field `loadFactorCap` holds that `c`. -/
structure MyHashmap where
  data : Nat → PosetPointer
  capacity : Nat
  numElements : Nat
  loadFactorCap : Nat
  gen : Nat

/-- Update of one slot of the array `data`. -/
def setSlot (f : Nat → PosetPointer) (a : Nat) (v : PosetPointer) : Nat → PosetPointer :=
  fun x => if x = a then v else f x

/-- The constructor `MyHashmap(container, initialCapacity)`. -/
def MyHashmap.new (w : PtrWidths) (initialCapacity : Nat) : MyHashmap :=
  { data := fun _ => PosetPointer.invalid w, capacity := initialCapacity, numElements := 0,
    loadFactorCap := initialCapacity, gen := 0 }

/-- The move constructor `MyHashmap(MyHashmap &&)`: `loadFactor` and `gen` are not copied
and take their default values. -/
def MyHashmap.moved (m : MyHashmap) : MyHashmap := { m with loadFactorCap := 0, gen := 0 }

/-- Model of `PosetPointer::posetRefIndexMAX`. -/
def PtrWidths.posetRefIndexMAX (w : PtrWidths) : Nat := w.posetRefIndexInvalid - 1

/-- Model of `PosetPointer::moreHashMAX`. -/
def PtrWidths.moreHashMAX (w : PtrWidths) : Nat := 2 ^ w.pointerHashWidth - 1

/-- The constructor `PosetPointer(hash, posRefIndex, gen)` together with its three assertions:
`none` when one of them fails. -/
def PosetPointer.ofArgs (w : PtrWidths) (hash posRefIndex gen : Nat) : Option PosetPointer :=
  if posRefIndex ≤ w.posetRefIndexMAX ∧ hash ≤ w.moreHashMAX ∧ gen ≤ w.posetGenMAX then
    some (PosetPointer.make w hash posRefIndex gen)
  else none

/-- Model of `MyHashmap::clear`: the generation is increased; when it reaches `posetGenMAX` it is
set to `0` and every slot is filled with `Ptr{0, Ptr::posetRefIndexInvalid, 0}`, a value built
by the three-argument constructor. -/
def MyHashmap.clear (w : PtrWidths) (m : MyHashmap) : Option MyHashmap :=
  if m.gen + 1 ≥ w.posetGenMAX then
    match PosetPointer.ofArgs w 0 w.posetRefIndexInvalid 0 with
    | none => none
    | some p => some { m with gen := 0, data := fun _ => p, numElements := 0 }
  else some { m with gen := m.gen + 1, numElements := 0 }

/-- The probe step `index += i; if (index >= capacity) index -= capacity;`. -/
def nextIndex (capacity index i : Nat) : Nat :=
  if index + i ≥ capacity then index + i - capacity else index + i

/-- Model of `MyHashmap::testEquality`: the pointer-hash comparison followed by the cascade on the
stored record. -/
def testEquality {E : Type} (cfg : NCT) (w : PtrWidths) (toPoset : E → PosetObj)
    (dflt : E) (container : List E) (candidate : AnnotatedPosetObj) (entryPointer : PosetPointer) :
    Bool :=
  if candidate.GetPointerHash w.pointerHashWidth != entryPointer.pointerHash then false
  else equalityCascade cfg candidate (toPoset (container.getD entryPointer.posetRefIndex dflt))

/-- The `while (data[index].isValid(gen))` loop of `MyHashmap::find`; at most `capacity`
slots are visited, `fuel` counts them. -/
def findLoop {E : Type} (cfg : NCT) (w : PtrWidths) (toPoset : E → PosetObj) (dflt : E)
    (container : List E) (m : MyHashmap) (candidate : AnnotatedPosetObj) :
    Nat → Nat → Nat → Option Nat
  | 0, _, _ => none
  | fuel + 1, index, i =>
    if (m.data index).isValid w m.gen then
      if testEquality cfg w toPoset dflt container candidate (m.data index) then
        some (m.data index).posetRefIndex
      else if i + 1 ≥ m.capacity then none
      else findLoop cfg w toPoset dflt container m candidate fuel
        (nextIndex m.capacity index (i + 1)) (i + 1)
    else none

/-- Model of `MyHashmap::find`: the record-store index of the stored record equal to the candidate,
if one is met on the probe path. -/
def MyHashmap.find {E : Type} (cfg : NCT) (w : PtrWidths) (toPoset : E → PosetObj) (dflt : E)
    (container : List E) (m : MyHashmap) (candidate : AnnotatedPosetObj) : Option Nat :=
  findLoop cfg w toPoset dflt container m candidate m.capacity (candidate.hash % m.capacity) 0

/-- The inner `while (temp[index].isValid(gen))` loop of `rehashInternal`: the first free
slot on the probe path; `none` when `assert(i < capacity)` fails. -/
def freeSlot (w : PtrWidths) (temp : Nat → PosetPointer) (gen capacity : Nat) :
    Nat → Nat → Nat → Option Nat
  | 0, _, _ => none
  | fuel + 1, index, i =>
    if (temp index).isValid w gen then
      if i + 1 < capacity then freeSlot w temp gen capacity fuel
        (nextIndex capacity index (i + 1)) (i + 1)
      else none
    else some index

/-- Model of `MyHashmap::rehashInternal` for the new capacity: every valid pointer of the old array,
in slot order, is placed at the first free slot of its probe path; the hash is recomputed
from the stored record by `hashOf` (`PosetHandleFull::fromPoset(poset).GetHash()`). -/
def rehashInternal {E : Type} (w : PtrWidths) (hashOf : E → Nat) (dflt : E)
    (container : List E) (m : MyHashmap) (capacity : Nat) : Option MyHashmap :=
  ((List.range m.capacity).foldl (fun (acc : Option (Nat → PosetPointer)) slot =>
    match acc with
    | none => none
    | some temp =>
      let pointer := m.data slot
      if pointer.isValid w m.gen then
        match freeSlot w temp m.gen capacity capacity
            (hashOf (container.getD pointer.posetRefIndex dflt) % capacity) 0 with
        | none => none
        | some index => some (setSlot temp index pointer)
      else some temp) (some (fun _ => PosetPointer.invalid w))).map
    (fun temp => { m with data := temp, capacity := capacity, loadFactorCap := capacity })

/-- The new capacity computed by `MyHashmap::rehash`. -/
def growCapacity (fl : FloatOps) (capacity : Nat) : Nat :=
  let c1 := if capacity < 2 ^ 5 then capacity * 5
    else if capacity < 3 * 2 ^ 9 then capacity * 2
    else fl.grow capacity
  let c2 := if c1 % 2 = 0 then c1 + 1 else c1
  if c2 % 3 = 0 then c2 + 2 else c2

/-- Model of `MyHashmap::rehash`. -/
def MyHashmap.rehash {E : Type} (w : PtrWidths) (fl : FloatOps) (hashOf : E → Nat) (dflt : E)
    (container : List E) (m : MyHashmap) : Option MyHashmap :=
  rehashInternal w hashOf dflt container m (growCapacity fl m.capacity)

/-- How the probe loop of `findAndInsert` ends. -/
inductive ProbeResult where
  | found (posetRefIndex : Nat)
  | free (index : Nat)
  | full
deriving DecidableEq, Repr

/-- The `while (data[index].isValid(gen))` loop of `MyHashmap::findAndInsert`. -/
def insertLoop {E : Type} (cfg : NCT) (w : PtrWidths) (toPoset : E → PosetObj) (dflt : E)
    (container : List E) (m : MyHashmap) (candidate : AnnotatedPosetObj) :
    Nat → Nat → Nat → ProbeResult
  | 0, _, _ => ProbeResult.full
  | fuel + 1, index, i =>
    if (m.data index).isValid w m.gen then
      if testEquality cfg w toPoset dflt container candidate (m.data index) then
        ProbeResult.found (m.data index).posetRefIndex
      else if i + 1 ≥ m.capacity ∨ i + 1 ≥ 2 ^ 16 then ProbeResult.full
      else insertLoop cfg w toPoset dflt container m candidate fuel
        (nextIndex m.capacity index (i + 1)) (i + 1)
    else ProbeResult.free index

/-- Model of `MyHashmap::findAndInsert`.  `retries` bounds the number of passes through the label
`beginning`; the result is the new map, the new record store and the returned index, and
`none` when a rehash fails or the new index does not pass the assertion
`posRefIndex <= posetRefIndexMAX` of the `PosetPointer` constructor. -/
def MyHashmap.findAndInsert {E : Type} (cfg : NCT) (w : PtrWidths) (fl : FloatOps)
    (toPoset : E → PosetObj) (hashOf : E → Nat) (ofCandidate : AnnotatedPosetObj → E) (dflt : E)
    (candidate : AnnotatedPosetObj) :
    Nat → MyHashmap → List E → Option (MyHashmap × List E × Nat)
  | 0, _, _ => none
  | retries + 1, m, container =>
    match (if fl.needRehash m.numElements m.loadFactorCap m.capacity then
        m.rehash w fl hashOf dflt container else some m) with
    | none => none
    | some m1 =>
      match insertLoop cfg w toPoset dflt container m1 candidate m1.capacity
          (candidate.hash % m1.capacity) 0 with
      | ProbeResult.found idx => some (m1, container, idx)
      | ProbeResult.full =>
        match m1.rehash w fl hashOf dflt container with
        | none => none
        | some m2 =>
          MyHashmap.findAndInsert cfg w fl toPoset hashOf ofCandidate dflt candidate retries m2
            container
      | ProbeResult.free index =>
        let pointer := container.length
        if pointer ≥ w.posetRefIndexInvalid then none
        else some ({ m1 with
            data := setSlot m1.data index
              (PosetPointer.make w (candidate.GetPointerHash w.pointerHashWidth) pointer m1.gen),
            numElements := m1.numElements + 1 },
          container ++ [ofCandidate candidate], pointer)

/-! ## posetMap.cpp -/

/-- Model of `PosetMap`: `numLocks` shards, each a `MyHashmap` over its own `PosetContainerTemplate`. -/
structure PosetMap where
  numLocks : Nat
  SposetMap : List MyHashmap
  Scontainers : List (List PosetObj)

/-- The constructor `PosetMap(initialCapacity)`; the shard count and the per-shard capacity
come from `double` arithmetic and are parameters. -/
def PosetMap.new (numLocks hmap_initial_capacity : Nat) : PosetMap :=
  { numLocks := numLocks,
    SposetMap := List.replicate numLocks (MyHashmap.new ptrSmall hmap_initial_capacity),
    Scontainers := List.replicate numLocks [] }

/-- Model of `PosetMap::find`: the shard and the record-store index of the record found. -/
def PosetMap.find (cfg : NCT) (pm : PosetMap) (candidate : AnnotatedPosetObj) :
    Option (Nat × Nat) :=
  let shard := candidate.GetLockHash % pm.numLocks
  (MyHashmap.find cfg ptrSmall id PosetObj.new (pm.Scontainers.getD shard [])
    (pm.SposetMap.getD shard (MyHashmap.new ptrSmall 0)) candidate).map (fun i => (shard, i))

/-- Model of `PosetMap::findAndInsert`: the new map, and the shard and record-store index of the
record the returned reference points to.  `hashOf` is the hash that `rehashInternal` obtains
from a stored record through `PosetHandleFull::fromPoset` (posetHandle.h is not part of the
sources, so it is a parameter). -/
def PosetMap.findAndInsert (cfg : NCT) (fl : FloatOps) (hashOf : PosetObj → Nat)
    (retries : Nat) (pm : PosetMap) (candidate : AnnotatedPosetObj) :
    Option (PosetMap × (Nat × Nat)) :=
  let shard := candidate.GetLockHash % pm.numLocks
  match MyHashmap.findAndInsert cfg ptrSmall fl id hashOf
      (fun c => c.poset) PosetObj.new candidate retries
      (pm.SposetMap.getD shard (MyHashmap.new ptrSmall 0)) (pm.Scontainers.getD shard []) with
  | none => none
  | some (m, container, index) =>
    some ({ pm with SposetMap := pm.SposetMap.set shard m,
                    Scontainers := pm.Scontainers.set shard container }, (shard, index))

/-- Model of `PosetMap::countPosets`. -/
def PosetMap.countPosets (pm : PosetMap) : Nat :=
  ((List.range pm.numLocks).map (fun lockId => (pm.Scontainers.getD lockId []).length)).sum

/-- Model of `PosetMapExt`: shards over one shared record store (the search's `posetList`). -/
structure PosetMapExt where
  numLocks : Nat
  SposetMap : List MyHashmap

/-- The constructor `PosetMapExt(container, initialCapacity)`.  The shard vector is not
reserved, so shards relocated by its growth went through the move constructor; `relocated`
tells which. -/
def PosetMapExt.new (numLocks hmap_initial_capacity : Nat) (relocated : Nat → Bool) :
    PosetMapExt :=
  { numLocks := numLocks,
    SposetMap := (List.range numLocks).map (fun i =>
      if relocated i then (MyHashmap.new ptrExt hmap_initial_capacity).moved
      else MyHashmap.new ptrExt hmap_initial_capacity) }

/-- The record an `AnnotatedPosetObj()` default constructor builds. -/
def AnnotatedPosetObj.new : AnnotatedPosetObj :=
  { poset := PosetObj.new, info := ⟨0, 0⟩, hash := 0, elIndex := 0, linExt := 0 }

/-- Model of `PosetMapExt::findAndInsert`. -/
def PosetMapExt.findAndInsert (cfg : NCT) (fl : FloatOps) (hashOf : PosetObj → Nat)
    (retries : Nat) (pm : PosetMapExt) (container : List AnnotatedPosetObj)
    (candidate : AnnotatedPosetObj) : Option (PosetMapExt × List AnnotatedPosetObj × Nat) :=
  let shard := candidate.GetLockHash % pm.numLocks
  match MyHashmap.findAndInsert cfg ptrExt fl (fun a => a.poset) (fun a => hashOf a.poset)
      id AnnotatedPosetObj.new candidate retries
      (pm.SposetMap.getD shard (MyHashmap.new ptrExt 0)) container with
  | none => none
  | some (m, container1, index) =>
    some ({ pm with SposetMap := pm.SposetMap.set shard m }, container1, index)

/-- Model of `PosetMapExt::clear`. -/
def PosetMapExt.clear (pm : PosetMapExt) : Option PosetMapExt :=
  (pm.SposetMap.foldr (fun m acc =>
    match MyHashmap.clear ptrExt m, acc with
    | some m', some l => some (m' :: l)
    | _, _ => none) (some [])).map (fun l => { pm with SposetMap := l })

/-! ## Notions used to state and prove the properties of the hash map -/

/-- The slot visited after `k` steps of the probe sequence that starts at `h % capacity`. -/
def probe (capacity h : Nat) : Nat → Nat
  | 0 => h % capacity
  | k + 1 => nextIndex capacity (probe capacity h k) (k + 1)

/-- The pointer hash that belongs to the 64-bit hash `h` (`GetPointerHash`). -/
def ptrHashOf (w : PtrWidths) (h : Nat) : Nat :=
  (h % PRIME3) &&& ((1 <<< w.pointerHashWidth) % 2 ^ 64 + 2 ^ 64 - 1) % 2 ^ 64

/-- The shape of a `MyHashmap` whose record store has the hashes `hashes`: the valid
pointers correspond one to one to the records, each sits on the probe sequence of its
record's hash behind valid slots only, and carries the record's pointer hash. -/
structure MapInv (w : PtrWidths) (m : MyHashmap) (hashes : List Nat) : Prop where
  cap_pos : 0 < m.capacity
  gen_lt : m.gen < 2 ^ w.pointerGenWidth
  slot_lt : ∀ s, (m.data s).isValid w m.gen = true → s < m.capacity
  ref_lt : ∀ s, (m.data s).isValid w m.gen = true → (m.data s).posetRefIndex < hashes.length
  inj : ∀ s s', (m.data s).isValid w m.gen = true → (m.data s').isValid w m.gen = true →
    (m.data s).posetRefIndex = (m.data s').posetRefIndex → s = s'
  surj : ∀ i, i < hashes.length →
    ∃ s, (m.data s).isValid w m.gen = true ∧ (m.data s).posetRefIndex = i
  onpath : ∀ s, (m.data s).isValid w m.gen = true →
    ∃ k, k < m.capacity ∧
      probe m.capacity (hashes.getD (m.data s).posetRefIndex 0) k = s ∧
      ∀ j, j < k →
        (m.data (probe m.capacity (hashes.getD (m.data s).posetRefIndex 0) j)).isValid w m.gen
          = true
  ptrhash : ∀ s, (m.data s).isValid w m.gen = true →
    (m.data s).pointerHash = ptrHashOf w (hashes.getD (m.data s).posetRefIndex 0)

/-- The shape of the array `temp` of `rehashInternal` once the first `cnt` slots of the old
array have been moved to the new capacity `capacity`. -/
structure RehashInv (w : PtrWidths) (m : MyHashmap) (hashes : List Nat) (capacity cnt : Nat)
    (temp : Nat → PosetPointer) : Prop where
  slot_lt : ∀ s, (temp s).isValid w m.gen = true → s < capacity
  src : ∀ s, (temp s).isValid w m.gen = true →
    ∃ s0, s0 < cnt ∧ (m.data s0).isValid w m.gen = true ∧ temp s = m.data s0
  inj : ∀ s s', (temp s).isValid w m.gen = true → (temp s').isValid w m.gen = true →
    (temp s).posetRefIndex = (temp s').posetRefIndex → s = s'
  moved : ∀ s0, s0 < cnt → (m.data s0).isValid w m.gen = true → ∃ s, temp s = m.data s0
  onpath : ∀ s, (temp s).isValid w m.gen = true →
    ∃ k, k < capacity ∧
      probe capacity (hashes.getD (temp s).posetRefIndex 0) k = s ∧
      ∀ j, j < k →
        (temp (probe capacity (hashes.getD (temp s).posetRefIndex 0) j)).isValid w m.gen = true

/-- What the hash map relies on for the records `xs` it is given: the hash recomputed from
a stored record is the hash the record came with, records that the equality cascade
accepts as equal have the same hash, and the cascade is an equivalence on `xs` (it is
reflexive by construction; this is the Euclidean property). -/
structure HashCompatible (cfg : NCT) (hashOf : PosetObj → Nat) (xs : List AnnotatedPosetObj) :
    Prop where
  stored : ∀ x, x ∈ xs → hashOf x.poset = x.hash
  hash_eq : ∀ x y, x ∈ xs → y ∈ xs → equalityCascade cfg x y.poset = true → x.hash = y.hash
  euclid : ∀ x y z, x ∈ xs → y ∈ xs → z ∈ xs → equalityCascade cfg x z.poset = true →
    equalityCascade cfg y z.poset = true → equalityCascade cfg x y.poset = true

/-- A sequence of `PosetMap::findAndInsert` calls: the final map and what each call
returned (shard and record-store index). -/
def PosetMap.insertAll (cfg : NCT) (fl : FloatOps) (hashOf : PosetObj → Nat) (retries : Nat) :
    List AnnotatedPosetObj → PosetMap → Option (PosetMap × List (Nat × Nat))
  | [], pm => some (pm, [])
  | x :: xs, pm =>
    match pm.findAndInsert cfg fl hashOf retries x with
    | none => none
    | some (pm1, r) =>
      (PosetMap.insertAll cfg fl hashOf retries xs pm1).map (fun q => (q.1, r :: q.2))

/-- One step of the greedy list of pairwise non-equal records: `x` is kept unless the
equality cascade identifies it with a record already kept. -/
def addDistinct (cfg : NCT) (kept : List AnnotatedPosetObj) (x : AnnotatedPosetObj) :
    List AnnotatedPosetObj :=
  if kept.any (fun o => equalityCascade cfg x o.poset) then kept else kept ++ [x]

/-- The pairwise non-equal records of a sequence: each record that the equality cascade
does not identify with a record kept before it. -/
def distinctRecords (cfg : NCT) (xs : List AnnotatedPosetObj) : List AnnotatedPosetObj :=
  xs.foldl (addDistinct cfg) []

/-- The kept records that belong to the shard `s` of a map with `numLocks` shards. -/
def keptOf (numLocks s : Nat) (kept : List AnnotatedPosetObj) : List AnnotatedPosetObj :=
  kept.filter (fun o => decide (o.GetLockHash % numLocks = s))

/-- Where the record equal to `x` is stored: the shard of `x` and the position of the first
kept record of that shard which the equality cascade identifies with `x`. -/
def representative (cfg : NCT) (numLocks : Nat) (kept : List AnnotatedPosetObj)
    (x : AnnotatedPosetObj) : Nat × Nat :=
  (x.GetLockHash % numLocks,
    (keptOf numLocks (x.GetLockHash % numLocks) kept).findIdx
      (fun o => equalityCascade cfg x o.poset))

/-- The shape of a `PosetMap` that holds the pairwise non-equal records `kept`: every shard
is a well-formed hash map over its own record store, which holds the kept records of that
shard in the order of their insertion. -/
structure PosetMapInv (cfg : NCT) (hashOf : PosetObj → Nat) (pm : PosetMap)
    (kept : List AnnotatedPosetObj) : Prop where
  locks_pos : 0 < pm.numLocks
  len_maps : pm.SposetMap.length = pm.numLocks
  len_cont : pm.Scontainers.length = pm.numLocks
  shard : ∀ s, s < pm.numLocks →
    MapInv ptrSmall (pm.SposetMap.getD s (MyHashmap.new ptrSmall 0))
      ((pm.Scontainers.getD s []).map hashOf) ∧
    pm.Scontainers.getD s [] = (keptOf pm.numLocks s kept).map (fun o => o.poset)
  distinct : kept.Pairwise (fun a b =>
    equalityCascade cfg a b.poset = false ∧ equalityCascade cfg b a.poset = false)

/-! ## oldGenMap.cpp -/

/-- Model of `OldGenMap`: a direct-mapped table of `size` slots; `hashArray[i] = 0xFFFF` marks an
empty slot. -/
structure OldGenMap where
  size : Nat
  hashArray : Nat → Nat
  posetArray : Nat → PosetObj
  empty : Bool

/-- The constructor `OldGenMap(segment_manager, size)`; the records of `posetArray` are
uninitialised memory, here `garbage`. -/
def OldGenMap.new (size : Nat) (garbage : Nat → PosetObj) : OldGenMap :=
  { size := size, hashArray := fun _ => 2 ^ 16 - 1, posetArray := garbage, empty := true }

/-- The slot `(hash * MULT1) % size` of a record. -/
def OldGenMap.slot (m : OldGenMap) (a : AnnotatedPosetObj) : Nat :=
  ((a.hash * MULT1) % 2 ^ 64) % m.size

/-- The 16-bit tag `(hash * MULT2) % 0xFFFF` of a record. -/
def hash16 (a : AnnotatedPosetObj) : Nat := (((a.hash * MULT2) % 2 ^ 64) % (2 ^ 16 - 1)) % 2 ^ 16

/-- Model of `OldGenMap::insert`: the slot is overwritten when it is empty or the record is `YES`. -/
def OldGenMap.insert (m : OldGenMap) (a : AnnotatedPosetObj) : OldGenMap :=
  let index := m.slot a
  if m.hashArray index = 2 ^ 16 - 1 ∨ a.poset.status = SortableStatus.YES then
    { m with hashArray := setCell m.hashArray index (hash16 a),
             posetArray := fun x => if x = index then a.poset else m.posetArray x,
             empty := false }
  else { m with empty := false }

/-- Model of `OldGenMap::find`. -/
def OldGenMap.find (cfg : NCT) (m : OldGenMap) (a : AnnotatedPosetObj) : Option PosetObj :=
  if m.empty then none
  else
    let index := m.slot a
    if m.hashArray index ≠ hash16 a then none
    else if equalityCascade cfg a (m.posetArray index) then some (m.posetArray index)
    else none

/-! ## utils.h and the singleton-aware counter of linExtCalculator.cpp -/

/-- Model of `factorial` of utils.h, in `LinExtT` arithmetic of width `W`. -/
def factorialT (W n : Nat) : Nat :=
  ((List.range (n + 1)).drop 2).foldl (fun res i => (res * i) % 2 ^ W) (1 % 2 ^ W)

/-- Model of `fallingfactorial(n, stop)` of utils.h: the product of `n, n-1, ..., stop+1`. -/
def fallingfactorial (W n stop : Nat) : Nat :=
  ((List.range (n + 1)).drop (stop + 1)).reverse.foldl (fun res i => (res * i) % 2 ^ W)
    (1 % 2 ^ W)

/-- Model of `isEasilySortableLinExt`. -/
def isEasilySortableLinExt (cLeft linExt : Nat) : Bool :=
  let c := if cLeft > 3 then 3 else cLeft
  decide (linExt ≤ 7 ∧ linExt ≤ 2 ^ c)

/-- Model of `remainingComparisonsChild`: `NCT::C - c - 1` in unsigned arithmetic. -/
def remainingComparisonsChild (cfg : NCT) (c : Nat) : Nat :=
  (cfg.C + 2 * 2 ^ 32 - c % 2 ^ 32 - 1) % 2 ^ 32

/-- Model of `fillFullTable<true, uint32_t>(target, source, e_p)`: for `j < i < n` the cell `[j][i]`
is copied from the 32-bit table and the cell `[i][j]` is `e_p - source[j][i]`. -/
def fillFullTableFrom (W : Nat) (target source : Nat → Nat → Nat) (e_p n : Nat) :
    Nat → Nat → Nat :=
  fun i j =>
    if i < j ∧ j < n then source i j
    else if j < i ∧ i < n then (e_p + 2 ^ W - source j i % 2 ^ W) % 2 ^ W
    else target i j

/-- The final double loop of `calculateLinExtensionsSingleton` for `k ≥ 2` singletons: rows
and columns of the further singletons are copies of those of the first one, and two
singletons are compared with `e_p / 2`. -/
def singletonTable (t : Nat → Nat → Nat) (e_p n k : Nat) : Nat → Nat → Nat :=
  fun i j =>
    if i < n ∧ j < n then
      if i ≤ n - k ∧ j ≤ n - k then t i j
      else if i < n - k ∧ j > n - k then t i (n - k)
      else if i > n - k ∧ j < n - k then t (n - k) j
      else if i ≥ n - k ∧ j ≥ n - k then (if i ≠ j then e_p / 2 else 0)
      else t i j
    else t i j

/-- Model of `LinearExtensionCalculator::calculateLinExtensionsSingleton`.  `linExtTable` is the
table member before the call, `scratch` the content of the scratch memory; the result is
the count and the table after the call, `none` when the capacity guard of the sweep fails. -/
def calculateLinExtensionsSingleton (cfg : NCT) (allocatedMemorySize : Nat)
    (scratch : Nat → Nat) (linExtTable : Nat → Nat → Nat) (poset : PosetObj) (info : PosetInfo)
    (c : Nat) (fillTable overflowCheck : Bool) : Option (Nat × (Nat → Nat → Nat)) :=
  let W := linExtTBits cfg.MAXN
  let n := cfg.N
  let left := (cfg.C + 2 ^ 32 - c % 2 ^ 32) % 2 ^ 32
  let wide := fun (m : Nat) =>
    (calculateLinExtensionsNew W cfg.MAXN allocatedMemorySize false scratch scratch poset
      fillTable m).map (fun r => (r.1, if fillTable then fillFullTable W r.2 r.1 m else r.2))
  if info.numSingletons ≤ 1 then
    if overflowCheck && decide (left < 27) then
      match calculateLinExtensionsNew 32 cfg.MAXN allocatedMemorySize true scratch scratch
          poset fillTable n with
      | none => none
      | some r =>
        if r.1 = 0 then wide n
        else some (r.1, if fillTable then fillFullTableFrom W linExtTable r.2 r.1 n
          else linExtTable)
    else if !overflowCheck && decide (left < 32) then
      (calculateLinExtensionsNew 32 cfg.MAXN allocatedMemorySize false scratch scratch poset
        fillTable n).map (fun r =>
          (r.1, if fillTable then fillFullTableFrom W linExtTable r.2 r.1 n else linExtTable))
    else wide n
  else
    let reduced_n := (n + 2 ^ 32 - info.numSingletons + 1) % 2 ^ 32
    (wide reduced_n).map (fun r =>
      let fac := fallingfactorial W n reduced_n
      let e_p := (r.1 * fac) % 2 ^ W
      let t1 := fun i j =>
        if i < reduced_n ∧ j < reduced_n then (r.2 i j * fac) % 2 ^ W else r.2 i j
      (e_p, singletonTable t1 e_p n info.numSingletons))

/-! ## state.h, forwardSearch.cpp -/

/-- Model of `LayerState`. -/
structure LayerState where
  posetListBegin : Nat
  posetListEnd : Nat
  parentsBegin : Nat
  parentsEnd : Nat
  parentsSliceBegin : Nat
  parentsSliceEnd : Nat
  elBegin : Nat
  phase : Nat
deriving DecidableEq, Repr

/-- A value-initialised `LayerState` (all indices `0`, `phase = 1`). -/
def LayerState.new : LayerState := ⟨0, 0, 0, 0, 0, 0, 0, 1⟩

/-- The enumeration `ComparisonStatus` local to `processFWThread`. -/
inductive ComparisonStatus where
  | SORTABLE
  | UNSORTABLE
  | INDETERMINATE
deriving DecidableEq, Repr

/-- The record `ComparisonTuple` local to `processFWThread`. -/
structure ComparisonTuple where
  k1 : Nat
  k2 : Nat
  lin1 : Nat
  lin2 : Nat
  singletonComp : Bool
deriving DecidableEq, Repr

/-- The parameters of a run that the search reads but does not change: the batch size of
`searchParams.h`, the two child limits, the size of the counter's scratch memory, its
content, the floating-point decisions of the hash maps, the hash recomputed on rehash and
the bound on rehash retries. -/
structure SearchParams where
  batchSize : Nat
  childPosetLimit : Nat
  childEdgeLimit : Nat
  allocatedMemorySize : Nat
  scratch : Nat → Nat
  fl : FloatOps
  hashOf : PosetObj → Nat
  retries : Nat

/-- Update of the record at position `i` of the poset list. -/
def modifyPoset (l : List AnnotatedPosetObj) (i : Nat) (f : AnnotatedPosetObj → AnnotatedPosetObj) :
    List AnnotatedPosetObj :=
  l.set i (f (l.getD i AnnotatedPosetObj.new))

/-- Model of `PosetObj::SetSortable`: `none` when its assertion
`GetStatus() == SortableStatus::UNFINISHED` fails. -/
def PosetObj.SetSortable (p : PosetObj) : Option PosetObj :=
  if p.status = SortableStatus.UNFINISHED then some { p with status := SortableStatus.YES }
  else none

/-- Model of `PosetObj::SetUnsortable`: `none` when its assertion
`GetStatus() == SortableStatus::UNFINISHED` fails. -/
def PosetObj.SetUnsortable (p : PosetObj) : Option PosetObj :=
  if p.status = SortableStatus.UNFINISHED then some { p with status := SortableStatus.NO }
  else none

/-- A call of `SetSortable` on the record at position `i` of the poset list. -/
def setSortableAt (l : List AnnotatedPosetObj) (i : Nat) : Option (List AnnotatedPosetObj) :=
  ((l.getD i AnnotatedPosetObj.new).poset.SetSortable).map
    (fun p => modifyPoset l i (fun a => { a with poset := p }))

/-- A call of `SetUnsortable` on the record at position `i` of the poset list. -/
def setUnsortableAt (l : List AnnotatedPosetObj) (i : Nat) : Option (List AnnotatedPosetObj) :=
  ((l.getD i AnnotatedPosetObj.new).poset.SetUnsortable).map
    (fun p => modifyPoset l i (fun a => { a with poset := p }))

/-- Model of `setMark` on the record at position `i`. -/
def setMarkAt (l : List AnnotatedPosetObj) (i : Nat) (m : Bool) : List AnnotatedPosetObj :=
  modifyPoset l i (fun a => { a with poset := { a.poset with mark := m } })

/-- The lambda `addComparisonIfFeasible`. -/
def addComparisonIfFeasible (table : Nat → Nat → Nat) (limit : Nat)
    (vec : List ComparisonTuple) (j k : Nat) (singletonComp : Bool) : List ComparisonTuple :=
  let p_1 := table j k
  let p_2 := table k j
  if p_1 = 0 ∨ p_2 = 0 then vec
  else if p_1 > limit ∨ p_2 > limit then vec
  else if p_1 ≥ p_2 then vec ++ [⟨j, k, p_1, p_2, singletonComp⟩]
  else vec ++ [⟨k, j, p_2, p_1, singletonComp⟩]

/-- The lambda `enumerateComparisons`. -/
def enumerateComparisons (cfg : NCT) (info : PosetInfo) (table : Nat → Nat → Nat)
    (limit : Nat) : List ComparisonTuple :=
  let n := cfg.N
  let add := fun (vec : List ComparisonTuple) (jk : Nat × Nat) =>
    addComparisonIfFeasible table limit vec jk.1 jk.2 false
  let fs := info.GetFirstSingleton cfg
  let fp := info.GetFirstInPair cfg
  if info.numPairs = 2 then
    [(fp, fp + 1), (fp, fp + 2), (fp, fp + 3), (fp + 1, fp + 2), (fp + 1, fp + 3),
      (fp + 2, fp + 3)].foldl add []
  else
    let v0 := if info.numSingletons ≥ 2 then
      addComparisonIfFeasible table limit [] fs (fs + 1) true else []
    if info.numPairs = 1 then
      let v1 := if info.numSingletons ≥ 1 then [(fp, fs), (fp + 1, fs)].foldl add v0 else v0
      (List.range fp).foldl (fun vec j => add (add vec (j, fp)) (j, fp + 1)) v1
    else
      let endNode := min ((n + 2 ^ 32 - info.numSingletons + 1) % 2 ^ 32) n
      (List.range (endNode - 1)).foldl (fun vec j =>
        ((List.range endNode).drop (j + 1)).foldl (fun vec k => add vec (j, k)) vec) v0

/-- The lambda `checkChild`.  An `UNFINISHED` record in the old-gen map is excluded by an
assertion in the source; here it yields `INDETERMINATE`. -/
def checkChild (cfg : NCT) (childLayerCompleteAbove : Nat) (childMapBW : PosetMap)
    (childMapOld : OldGenMap) (child : AnnotatedPosetObj) (linExt : Nat) : ComparisonStatus :=
  let old :=
    match childMapOld.find cfg child with
    | some r =>
      if r.status = SortableStatus.NO then ComparisonStatus.UNSORTABLE
      else if r.status = SortableStatus.YES then ComparisonStatus.SORTABLE
      else ComparisonStatus.INDETERMINATE
    | none => ComparisonStatus.INDETERMINATE
  if linExt ≥ childLayerCompleteAbove then
    match childMapBW.find cfg child with
    | none => ComparisonStatus.UNSORTABLE
    | some (shard, index) =>
      let r := (childMapBW.Scontainers.getD shard []).getD index PosetObj.new
      if r.status = SortableStatus.NO then ComparisonStatus.UNSORTABLE
      else if r.status = SortableStatus.YES then ComparisonStatus.SORTABLE
      else old
  else old

/-- What the lambdas of `processFWThread` share and change: the poset list, the child map
and the thread-local edge list. -/
structure Phase1State where
  posetList : List AnnotatedPosetObj
  childMap : PosetMapExt
  localEdgeList : List Nat

/-- The lambda `createChildEntrySingleton`. -/
def createChildEntrySingleton (cfg : NCT) (sp : SearchParams) (st : Phase1State)
    (child : AnnotatedPosetObj) : Option Phase1State :=
  (st.childMap.findAndInsert cfg sp.fl sp.hashOf sp.retries st.posetList child).map
    (fun r => { posetList := r.2.1, childMap := r.1,
                localEdgeList := st.localEdgeList ++ [r.2.2, r.2.2] })

/-- The lambda `createChildEntry`. -/
def createChildEntry (cfg : NCT) (sp : SearchParams) (st : Phase1State)
    (first second : AnnotatedPosetObj) : Option Phase1State :=
  match st.childMap.findAndInsert cfg sp.fl sp.hashOf sp.retries st.posetList first with
  | none => none
  | some r1 =>
    (r1.1.findAndInsert cfg sp.fl sp.hashOf sp.retries r1.2.1 second).map
      (fun r2 => { posetList := r2.2.1, childMap := r2.1,
                   localEdgeList := st.localEdgeList ++ [r1.2.2, r2.2.2] })

/-- The second half of the lambda `exploreComparison`, from the declaration of `secondChild`
on: `firstSortable`, `secondSortable` and `firstChild` are the values reached there. -/
def exploreSecond (cfg : NCT) (sp : SearchParams) (parentC : Nat)
    (childLayerCompleteAbove : Nat) (childMapBW : PosetMap) (childMapOld : OldGenMap)
    (parent : AnnotatedPosetObj) (comparison : ComparisonTuple)
    (firstSortable secondSortable : Bool) (firstChild : AnnotatedPosetObj)
    (st : Phase1State) : Option (ComparisonStatus × Phase1State) :=
  let rc := remainingComparisonsChild cfg parentC
  let finish := fun (fS sS : Bool) (secondChild : AnnotatedPosetObj) =>
    if !fS && !sS then
      (createChildEntry cfg sp st firstChild secondChild).map
        (fun s => (ComparisonStatus.INDETERMINATE, s))
    else if !fS then
      (createChildEntrySingleton cfg sp st firstChild).map
        (fun s => (ComparisonStatus.INDETERMINATE, s))
    else if !sS then
      (createChildEntrySingleton cfg sp st secondChild).map
        (fun s => (ComparisonStatus.INDETERMINATE, s))
    else some (ComparisonStatus.SORTABLE, st)
  if !secondSortable then
    let new_poset_p2 := ExpandedPosetChild.ofParent cfg parent.poset parent.info
      comparison.lin2 comparison.k2 comparison.k1
    let sS := new_poset_p2.isEasilySortableUnrelatedPairs cfg rc
    if firstSortable && sS then some (ComparisonStatus.SORTABLE, st)
    else if !sS then
      let secondChild := new_poset_p2.getHandle cfg
      match checkChild cfg childLayerCompleteAbove childMapBW childMapOld secondChild
          comparison.lin2 with
      | ComparisonStatus.UNSORTABLE => some (ComparisonStatus.UNSORTABLE, st)
      | ComparisonStatus.SORTABLE => finish firstSortable true secondChild
      | ComparisonStatus.INDETERMINATE => finish firstSortable false secondChild
    else finish firstSortable sS AnnotatedPosetObj.new
  else finish firstSortable secondSortable AnnotatedPosetObj.new

/-- The lambda `exploreComparison`. -/
def exploreComparison (cfg : NCT) (sp : SearchParams) (parentC : Nat)
    (childLayerCompleteAbove : Nat) (childMapBW : PosetMap) (childMapOld : OldGenMap)
    (parent : AnnotatedPosetObj) (comparison : ComparisonTuple) (st : Phase1State) :
    Option (ComparisonStatus × Phase1State) :=
  let rc := remainingComparisonsChild cfg parentC
  let firstSortable := isEasilySortableLinExt rc comparison.lin1
  let secondSortable := isEasilySortableLinExt rc comparison.lin2
  let second := exploreSecond cfg sp parentC childLayerCompleteAbove childMapBW childMapOld
    parent comparison
  if firstSortable && secondSortable then some (ComparisonStatus.SORTABLE, st)
  else if !firstSortable then
    let new_poset_p1 := ExpandedPosetChild.ofParent cfg parent.poset parent.info
      comparison.lin1 comparison.k1 comparison.k2
    let fS := new_poset_p1.isEasilySortableUnrelatedPairs cfg rc
    if comparison.singletonComp || isEasilySortableLinExt rc comparison.lin2 then
      if fS then some (ComparisonStatus.SORTABLE, st)
      else
        let firstChild := new_poset_p1.getHandle cfg
        match checkChild cfg childLayerCompleteAbove childMapBW childMapOld firstChild
            comparison.lin1 with
        | ComparisonStatus.INDETERMINATE =>
          (createChildEntrySingleton cfg sp st firstChild).map
            (fun s => (ComparisonStatus.INDETERMINATE, s))
        | status => some (status, st)
    else if fS && secondSortable then some (ComparisonStatus.SORTABLE, st)
    else if !fS then
      let firstChild := new_poset_p1.getHandle cfg
      match checkChild cfg childLayerCompleteAbove childMapBW childMapOld firstChild
          comparison.lin1 with
      | ComparisonStatus.UNSORTABLE => some (ComparisonStatus.UNSORTABLE, st)
      | ComparisonStatus.SORTABLE =>
        if secondSortable then some (ComparisonStatus.SORTABLE, st)
        else second true secondSortable firstChild st
      | ComparisonStatus.INDETERMINATE => second false secondSortable firstChild st
    else second fS secondSortable AnnotatedPosetObj.new st
  else second firstSortable secondSortable AnnotatedPosetObj.new st

/-- The state of the `for (item : comparisonVector)` loop of `processPoset`: `solved` once a
comparison returned `SORTABLE`, `unsortable` while none returned `INDETERMINATE`. -/
structure CompareLoop where
  st : Phase1State
  solved : Bool
  unsortable : Bool

/-- The `for (item : comparisonVector)` loop of `processPoset`. -/
def compareLoop (cfg : NCT) (sp : SearchParams) (parentC : Nat)
    (childLayerCompleteAbove : Nat) (childMapBW : PosetMap) (childMapOld : OldGenMap)
    (parent : AnnotatedPosetObj) : List ComparisonTuple → CompareLoop → Option CompareLoop
  | [], acc => some acc
  | item :: rest, acc =>
    match exploreComparison cfg sp parentC childLayerCompleteAbove childMapBW childMapOld
        parent item acc.st with
    | none => none
    | some (ComparisonStatus.SORTABLE, s) => some { acc with st := s, solved := true }
    | some (ComparisonStatus.INDETERMINATE, s) =>
      compareLoop cfg sp parentC childLayerCompleteAbove childMapBW childMapOld parent rest
        { acc with st := s, unsortable := false }
    | some (ComparisonStatus.UNSORTABLE, s) =>
      compareLoop cfg sp parentC childLayerCompleteAbove childMapBW childMapOld parent rest
        { acc with st := s }

/-- The state of phase 1 of `doForwardStep` between two parents. -/
structure Phase1 where
  posetList : List AnnotatedPosetObj
  edgeList : List Nat
  childMap : PosetMapExt
  linExtTable : Nat → Nat → Nat

/-- The lambda `processPoset` of phase 1 for the parent at position `entryIdx` of the poset
list. -/
def processPoset (cfg : NCT) (sp : SearchParams) (parentC limit : Nat)
    (childLayerCompleteAbove : Nat) (childMapBW : PosetMap) (childMapOld : OldGenMap)
    (s : Phase1) (entryIdx : Nat) : Option Phase1 :=
  let poset := s.posetList.getD entryIdx AnnotatedPosetObj.new
  match calculateLinExtensionsSingleton cfg sp.allocatedMemorySize sp.scratch s.linExtTable
      poset.poset poset.info parentC true false with
  | none => none
  | some (linExt, table) =>
    if linExt > (limit * 2) % 2 ^ linExtTBits cfg.MAXN then
      (setUnsortableAt s.posetList entryIdx).map
        (fun pl => { s with posetList := pl, linExtTable := table })
    else
      match compareLoop cfg sp parentC childLayerCompleteAbove childMapBW childMapOld poset
          (enumerateComparisons cfg poset.info table limit)
          { st := { posetList := s.posetList, childMap := s.childMap, localEdgeList := [0] },
            solved := false, unsortable := true } with
      | none => none
      | some r =>
        if r.solved then
          (setSortableAt r.st.posetList entryIdx).map
            (fun pl => { posetList := modifyPoset pl entryIdx
                           (fun a => { a with elIndex := 2 ^ 64 - 1 }),
                         edgeList := s.edgeList, childMap := r.st.childMap,
                         linExtTable := table })
        else if r.unsortable then
          (setUnsortableAt r.st.posetList entryIdx).map
            (fun pl => { posetList := pl, edgeList := s.edgeList, childMap := r.st.childMap,
                         linExtTable := table })
        else
          let elSize := r.st.localEdgeList.length - 1
          some { posetList := modifyPoset r.st.posetList entryIdx
                   (fun a => { a with elIndex := s.edgeList.length }),
                 edgeList := s.edgeList ++ (r.st.localEdgeList.set 0 elSize),
                 childMap := r.st.childMap, linExtTable := table }

/-- The `for (index = beginIndex; index < endIndex; index++)` loop of a phase-1 batch. -/
def processBatch (cfg : NCT) (sp : SearchParams) (parentC limit : Nat)
    (childLayerCompleteAbove : Nat) (childMapBW : PosetMap) (childMapOld : OldGenMap) :
    List Nat → Phase1 → Option Phase1
  | [], s => some s
  | index :: rest, s =>
    let entryIdx := s.edgeList.getD index 0
    let parent := (s.posetList.getD entryIdx AnnotatedPosetObj.new).poset
    if !parent.mark || parent.status != SortableStatus.UNFINISHED then
      processBatch cfg sp parentC limit childLayerCompleteAbove childMapBW childMapOld rest s
    else
      match processPoset cfg sp parentC limit childLayerCompleteAbove childMapBW childMapOld
          s entryIdx with
      | none => none
      | some s1 =>
        processBatch cfg sp parentC limit childLayerCompleteAbove childMapBW childMapOld rest s1

/-- The `while` loop of `processFWThread`, run by one thread: batches of `batchSize` parents
are taken from `parentIndex` while both child limits hold; the result carries the final
value of the shared counter `parentIndex`. -/
def phase1Loop (cfg : NCT) (sp : SearchParams) (parentC limit : Nat)
    (childLayerCompleteAbove : Nat) (childMapBW : PosetMap) (childMapOld : OldGenMap)
    (parentState : LayerState) : Nat → Nat → Phase1 → Option (Phase1 × Nat)
  | 0, parentIndex, s => some (s, parentIndex)
  | fuel + 1, parentIndex, s =>
    if s.edgeList.length - parentState.elBegin < sp.childEdgeLimit ∧
        s.posetList.length - parentState.posetListBegin < sp.childPosetLimit then
      let beginIndex := parentIndex
      let endIndex := min parentState.parentsEnd (beginIndex + sp.batchSize)
      if endIndex ≤ beginIndex then some (s, parentIndex + sp.batchSize)
      else
        match processBatch cfg sp parentC limit childLayerCompleteAbove childMapBW childMapOld
            ((List.range endIndex).drop beginIndex) s with
        | none => none
        | some s1 =>
          phase1Loop cfg sp parentC limit childLayerCompleteAbove childMapBW childMapOld
            parentState fuel (parentIndex + sp.batchSize) s1
    else some (s, parentIndex)

/-- The marking loop at the end of phase 1 for one parent: of each child pair the first is
marked unless the second or the first already is. -/
def markChildren (edgeList : List Nat) (posetList : List AnnotatedPosetObj) (elIndex : Nat) :
    List AnnotatedPosetObj :=
  let elSize := edgeList.getD elIndex 0
  ((List.range (elSize + 1)).filter (fun index => decide (index % 2 = 1))).foldl
    (fun pl index =>
      let idFirst := edgeList.getD (elIndex + index) 0
      let idSecond := edgeList.getD (elIndex + index + 1) 0
      if !(pl.getD idSecond AnnotatedPosetObj.new).poset.mark &&
          !(pl.getD idFirst AnnotatedPosetObj.new).poset.mark then setMarkAt pl idFirst true
      else pl) posetList

/-- The state of the phase-2 / phase-3 pass over the parents of the slice. -/
structure Phase2 where
  posetList : List AnnotatedPosetObj
  edgeList : List Nat
  hasUnfinished : Bool

/-- The scan of one parent's child pairs in phase 2: `none` when a pair has both children
sortable, otherwise the new local edge list and the flag `unsortable`. -/
def scanPairs (posetList : List AnnotatedPosetObj) (edgeList : List Nat) (elIndex : Nat) :
    List Nat → List Nat × Bool → Option (List Nat × Bool)
  | [], acc => some acc
  | i :: rest, acc =>
    let idxFirst := edgeList.getD (elIndex + i) 0
    let idxSecond := edgeList.getD (elIndex + i + 1) 0
    let first := (posetList.getD idxFirst AnnotatedPosetObj.new).poset.status
    let second := (posetList.getD idxSecond AnnotatedPosetObj.new).poset.status
    if first = SortableStatus.YES ∧ second = SortableStatus.YES then none
    else if first = SortableStatus.NO ∨ second = SortableStatus.NO then
      scanPairs posetList edgeList elIndex rest acc
    else if first = SortableStatus.YES then
      scanPairs posetList edgeList elIndex rest (acc.1 ++ [idxSecond, idxSecond], false)
    else if second = SortableStatus.YES then
      scanPairs posetList edgeList elIndex rest (acc.1 ++ [idxFirst, idxFirst], false)
    else scanPairs posetList edgeList elIndex rest acc

/-- The lambda `processPoset` of phase 2 / phase 3 for the parent at position `entryIdx`. -/
def processPoset2 (s : Phase2) (entryIdx : Nat) : Option Phase2 :=
  let entry := s.posetList.getD entryIdx AnnotatedPosetObj.new
  let elSize := s.edgeList.getD entry.elIndex 0
  let elIndex := entry.elIndex + 1
  match scanPairs s.posetList s.edgeList elIndex
      ((List.range elSize).filter (fun i => decide (i % 2 = 0))) ([], true) with
  | none => (setSortableAt s.posetList entryIdx).map (fun pl => { s with posetList := pl })
  | some (localEdgeList, unsortable) =>
    if unsortable then
      (setUnsortableAt s.posetList entryIdx).map (fun pl => { s with posetList := pl })
    else
      let el1 := s.edgeList.set (elIndex - 1) localEdgeList.length
      let r := (List.range localEdgeList.length).foldl
        (fun (acc : List Nat × List AnnotatedPosetObj) i =>
          (acc.1.set (elIndex + i) (localEdgeList.getD i 0),
            setMarkAt acc.2 (localEdgeList.getD i 0) true)) (el1, s.posetList)
      some { posetList := r.2, edgeList := r.1, hasUnfinished := true }

/-- The `for (index = beginIndex; index < endIndex; index++)` loop of phase 2 / phase 3. -/
def processBatch2 : List Nat → Phase2 → Option Phase2
  | [], s => some s
  | index :: rest, s =>
    let entryIdx := s.edgeList.getD index 0
    let parent := (s.posetList.getD entryIdx AnnotatedPosetObj.new).poset
    if !parent.mark || parent.status != SortableStatus.UNFINISHED then processBatch2 rest s
    else
      match processPoset2 s entryIdx with
      | none => none
      | some s1 => processBatch2 rest s1

/-- The pass of phase 2 / phase 3 over the slice, run by one thread. -/
def phase2Loop (parentState : LayerState) (s : Phase2) : Option Phase2 :=
  processBatch2
    ((List.range parentState.parentsSliceEnd).drop parentState.parentsSliceBegin) s

/-- Stable sort of indices by a key: the order `__gnu_parallel::sort` produces for keys
that are pairwise different (the order of equal keys is unspecified in the source). -/
def sortByKey (key : Nat → Nat) (l : List Nat) : List Nat :=
  l.foldr (fun x sorted =>
    sorted.takeWhile (fun y => decide (key y < key x)) ++
      x :: sorted.dropWhile (fun y => decide (key y < key x))) []

/-- Everything `doForwardStep` reads and writes through its reference parameters. -/
structure StepState where
  posetList : List AnnotatedPosetObj
  edgeList : List Nat
  parentState : LayerState
  childState : LayerState
  parentC : Nat
  childMap : PosetMapExt
  parentMapOld : OldGenMap

/-- The branch `if (parentState.phase == 1)` of `doForwardStep`. -/
def forwardPhase1 (cfg : NCT) (sp : SearchParams) (childLayerCompleteAbove : Nat)
    (childMapBW : PosetMap) (childMapOld : OldGenMap) (limit : Nat) (st : StepState) :
    Option StepState :=
  let childListBegin := st.posetList.length
  let ps1 : LayerState := { st.parentState with
    elBegin := st.edgeList.length, parentsSliceBegin := st.parentState.parentsSliceEnd }
  match phase1Loop cfg sp st.parentC limit childLayerCompleteAbove childMapBW childMapOld ps1
      (ps1.parentsEnd + 2) ps1.parentsSliceBegin
      { posetList := st.posetList, edgeList := st.edgeList, childMap := st.childMap,
        linExtTable := fun _ _ => 0 } with
  | none => none
  | some (r, parentIndex) =>
    let ps2 : LayerState := { ps1 with parentsSliceEnd := min parentIndex ps1.parentsEnd }
    match r.childMap.clear with
    | none => none
    | some childMap =>
    if ps2.elBegin = r.edgeList.length then
      some { st with
        posetList := r.posetList.take ps2.posetListEnd,
        edgeList := r.edgeList.take ps2.parentsBegin,
        parentState := ps2, childMap := childMap,
        parentC := if st.parentC > 0 then st.parentC - 1 else st.parentC }
    else
      let marked := ((List.range ps2.parentsSliceEnd).drop ps2.parentsSliceBegin).foldl
        (fun pl i =>
          let poset := pl.getD (r.edgeList.getD i 0) AnnotatedPosetObj.new
          if poset.poset.mark && poset.poset.status == SortableStatus.UNFINISHED then
            markChildren r.edgeList pl poset.elIndex
          else pl) r.posetList
      some { st with
        posetList := marked, edgeList := r.edgeList,
        parentState := { ps2 with phase := 2 },
        childState := { st.childState with
          posetListBegin := childListBegin, posetListEnd := marked.length, phase := 0 },
        childMap := childMap, parentC := st.parentC + 1 }

/-- The branch `if (parentState.phase == 0)` of `doForwardStep`: the marked records of the
layer, ordered by their number of linear extensions, become the parents. -/
def forwardPhase0 (st : StepState) : StepState :=
  let ps := st.parentState
  let tempVec := sortByKey (fun a => (st.posetList.getD a AnnotatedPosetObj.new).linExt)
    (((List.range ps.posetListEnd).drop ps.posetListBegin).filter
      (fun i => (st.posetList.getD i AnnotatedPosetObj.new).poset.mark))
  let edgeList := st.edgeList ++ tempVec
  { st with edgeList := edgeList,
            parentState := { ps with
              parentsBegin := st.edgeList.length, parentsEnd := edgeList.length,
              parentsSliceBegin := st.edgeList.length, parentsSliceEnd := st.edgeList.length,
              phase := 1 } }

/-- The storing of the resolved parents of a finished layer in the old-gen map
(`parentMapOld`), as in the branch `parentsSliceEnd == parentsEnd` of phase 2. -/
def storeParents (st : StepState) : StepState :=
  let ps := st.parentState
  let r := ((List.range ps.parentsEnd).drop ps.parentsBegin).foldl
    (fun (acc : List Nat × List AnnotatedPosetObj) i =>
      let id := st.edgeList.getD i 0
      let poset := (acc.2.getD id AnnotatedPosetObj.new).poset
      if poset.mark && poset.status != SortableStatus.UNFINISHED then
        (acc.1 ++ [id], setMarkAt acc.2 id false)
      else acc) ([], st.posetList)
  let tempVec := sortByKey
    (fun a => st.parentMapOld.slot (r.2.getD a AnnotatedPosetObj.new)) r.1
  { st with
    posetList := r.2,
    parentMapOld := tempVec.foldl
      (fun m id => m.insert (r.2.getD id AnnotatedPosetObj.new)) st.parentMapOld,
    edgeList := st.edgeList.take ps.parentsBegin,
    parentC := if st.parentC > 0 then st.parentC - 1 else st.parentC }

/-- Model of `doForwardStep`, run by one thread. -/
def doForwardStep (cfg : NCT) (sp : SearchParams) (childLayerCompleteAbove : Nat)
    (childMapBW : PosetMap) (childMapOld : OldGenMap) (limit : Nat) (st : StepState) :
    Option StepState :=
  let phase01 := fun (st : StepState) =>
    let st0 := if st.parentState.phase = 0 then forwardPhase0 st else st
    if st0.parentState.phase = 1 then
      forwardPhase1 cfg sp childLayerCompleteAbove childMapBW childMapOld limit st0
    else some st0
  if st.parentState.phase ≥ 2 then
    match phase2Loop st.parentState
      { posetList := st.posetList, edgeList := st.edgeList, hasUnfinished := false } with
    | none => none
    | some r =>
    if r.hasUnfinished then
      some { st with
        posetList := r.posetList, edgeList := r.edgeList,
        parentState := { st.parentState with phase := 3 },
        childState := { st.childState with
          posetListBegin := st.parentState.posetListEnd, phase := 0 },
        parentC := st.parentC + 1 }
    else
      let st1 : StepState := { st with
        posetList := r.posetList.take st.parentState.posetListEnd,
        edgeList := r.edgeList.take st.parentState.elBegin }
      if st.parentState.parentsSliceEnd = st.parentState.parentsEnd then
        some (storeParents st1)
      else phase01 { st1 with parentState := { st1.parentState with phase := 1 } }
  else phase01 st

/-- Modelled from the spec: `PosetInfo::fromPoset`, whose body is not part of the sources.
K is the number of singletons (vertices without any edge) and P the number of pairs
(components of two vertices joined by one edge). -/
def PosetInfo.fromPoset (cfg : NCT) (p : PosetObj) : PosetInfo :=
  let e := fun u v => p.is_edge cfg.MAXN u v || p.is_edge cfg.MAXN v u
  let deg := fun u => ((List.range cfg.N).filter (fun v => e u v)).length
  { numSingletons := ((List.range cfg.N).filter (fun u => deg u == 0)).length,
    numPairs := ((List.range cfg.N).filter (fun u =>
      deg u == 1 && (List.range cfg.N).any (fun v => e u v && deg v == 1))).length / 2 }

/-- Model of `createInitialPosetFW`: the marked antichain with `N!` linear extensions becomes the
only record of layer 0. -/
def createInitialPosetFW (cfg : NCT) : List AnnotatedPosetObj × LayerState :=
  let posetObj : PosetObj := { PosetObj.new with mark := true }
  ([{ poset := posetObj, info := PosetInfo.fromPoset cfg posetObj,
      hash := computeHash cfg posetObj, elIndex := 0,
      linExt := factorialT (linExtTBits cfg.MAXN) cfg.N }],
    { LayerState.new with posetListBegin := 0, posetListEnd := 1, phase := 0 })

/-- The state of the forward part of `Search::run`. -/
structure Search where
  posetList : List AnnotatedPosetObj
  edgeList : List Nat
  layerState : List LayerState
  oldGenMap : List OldGenMap
  posetMapBW : List PosetMap
  childMap : PosetMapExt
  forwardC : Nat

/-- The sizes of the old-gen maps chosen by `Search::run` from `oldGenEntries`; `none` when
`NCT::C` is zero, where `oldGenEntries / 100 / NCT::C` divides by zero. -/
def oldGenSize (cfg : NCT) (oldGenEntries i : Nat) : Option Nat :=
  let C := cfg.C
  if C = 0 then none
  else
    let small0 := oldGenEntries / 100 / C
    let medium0 := small0 + (oldGenEntries / 100 * 49) / (C * 2 / 5 + 1)
    let big := medium0 + (oldGenEntries / 100 * 50) / (C * 2 / 5 / 4 + 1)
    let mBegin := if cfg.N = 18 then 30 else C * 2 / 5 + 3
    let mEnd := if cfg.N = 18 then 40 else C * 4 / 5
    let small := if cfg.N = 18 then oldGenEntries / 10000 / C else small0
    let medium := if cfg.N = 18 then small + (oldGenEntries / 100 * 99) / (mEnd - mBegin)
      else medium0
    if i < mBegin ∨ i ≥ mEnd then some small
    else if (i - mBegin) % 4 = 3 ∧ cfg.N ≠ 18 then some big
    else some medium

/-! ## bidirSearch.cpp: the forward-only run -/

/-- The set-up of the forward search in `Search::run` when no backward search is done:
`C + 1` layer states, old-gen maps and (empty) backward maps, the child map and the initial
poset.  `numLocks`, `hmapCapacity` and `relocated` describe the child map that
`PosetMapExt childMap{posetList, childPosetLimit}` builds, `threads` is
`NCT::num_threads_glob`, and `garbage` the uninitialised records of the old-gen maps.  The
result is `none` when the computation of the old-gen sizes divides by zero. -/
def Search.init (cfg : NCT) (oldGenEntries numLocks hmapCapacity threads : Nat)
    (relocated : Nat → Bool) (garbage : Nat → PosetObj) : Option Search :=
  let init := createInitialPosetFW cfg
  match oldGenSize cfg oldGenEntries 0 with
  | none => none
  | some _ =>
    some
      { posetList := init.1,
        edgeList := [],
        layerState := (List.replicate (cfg.C + 1) LayerState.new).set 0 init.2,
        oldGenMap := (List.range (cfg.C + 1)).map
          (fun i => OldGenMap.new ((oldGenSize cfg oldGenEntries i).getD 0) garbage),
        posetMapBW := List.replicate (cfg.C + 1) (PosetMap.new threads 993),
        childMap := PosetMapExt.new numLocks hmapCapacity relocated,
        forwardC := 0 }

/-- One pass through the body of the `while (true)` loop of `Search::run` up to the
termination check: the call of `doForwardStep` on the layers `forwardC` and `forwardC + 1`
with `limit = 1 << (C - forwardC - 1)` and `completeAbove` the largest `LinExtT` value. -/
def Search.step (cfg : NCT) (sp : SearchParams) (s : Search) : Option Search :=
  let W := linExtTBits cfg.MAXN
  let limit := (1 <<< ((cfg.C + 2 * 2 ^ 32 - s.forwardC - 1) % 2 ^ 32)) % 2 ^ W
  let completeAbove := 2 ^ W - 1
  let c := s.forwardC
  match doForwardStep cfg sp completeAbove
      (s.posetMapBW.getD (c + 1) (PosetMap.new 1 993))
      (s.oldGenMap.getD (c + 1) (OldGenMap.new 0 (fun _ => PosetObj.new))) limit
      { posetList := s.posetList, edgeList := s.edgeList,
        parentState := s.layerState.getD c LayerState.new,
        childState := s.layerState.getD (c + 1) LayerState.new,
        parentC := c, childMap := s.childMap,
        parentMapOld := s.oldGenMap.getD c (OldGenMap.new 0 (fun _ => PosetObj.new)) } with
  | none => none
  | some r =>
    some { s with
      posetList := r.posetList, edgeList := r.edgeList,
      layerState := (s.layerState.set c r.parentState).set (c + 1) r.childState,
      oldGenMap := s.oldGenMap.set c r.parentMapOld,
      childMap := r.childMap, forwardC := r.parentC }

/-- The `while (true)` loop of the forward part of `Search::run`: the verdict is the status
of the record at position 0 once it is `YES` or `NO` after a step that ends on layer 0;
`fuel` bounds the number of steps. -/
def Search.run (cfg : NCT) (sp : SearchParams) : Nat → Search → Option SortableStatus
  | 0, _ => none
  | fuel + 1, s =>
    match Search.step cfg sp s with
    | none => none
    | some s1 =>
      let status := (s1.posetList.getD 0 AnnotatedPosetObj.new).poset.status
      if s1.forwardC = 0 ∧ status ≠ SortableStatus.UNFINISHED then some status
      else Search.run cfg sp fuel s1

/-- The load-factor test and the growth rule of `MyHashmap` in exact arithmetic: the
thresholds `0.45`, `0.52`, `0.6`, `0.68`, `0.75` and the factors `1.7`, `1.5`, `1.3` as
fractions. -/
def exactFloatOps : FloatOps :=
  { needRehash := fun numElements c capacity =>
      let pct := if c < 2 ^ 8 then 45 else if c < 2 ^ 12 then 52
        else if c < 2 ^ 16 then 60 else if c < 3 * 2 ^ 17 then 68 else 75
      decide (100 * numElements ≥ pct * capacity),
    grow := fun capacity =>
      if capacity < 3 * 2 ^ 12 then capacity * 17 / 10
      else if capacity < 3 * 2 ^ 15 then capacity * 15 / 10
      else capacity * 13 / 10 }

/-- The parameters of a run with the default memory options (`--active-poset-mem 0.25`,
`--old-poset-mem 0.25`): `childPosetLimit = 2^28 / (sizeof(AnnotatedPosetObj) + 80) / 3` for
a 40-byte record, `childEdgeLimit` nine times as much, the scratch size
`pow(1.74, N + 4)` truncated, and the load-factor and growth rules of the hash maps in exact
arithmetic. -/
def defaultParams (cfg : NCT) (allocatedMemorySize : Nat) : SearchParams :=
  { batchSize := 1024,
    childPosetLimit := 2 ^ 28 / (40 + 80) / 3,
    childEdgeLimit := 2 ^ 28 / (40 + 80) / 3 * 9,
    allocatedMemorySize := allocatedMemorySize,
    scratch := fun _ => 0,
    fl := exactFloatOps,
    hashOf := computeHash cfg,
    retries := 64 }

/-- The forward part of `Search::run` in forward-only mode: set-up, then steps until the
record at position 0 is resolved. -/
def Search.forward (cfg : NCT) (sp : SearchParams)
    (oldGenEntries numLocks hmapCapacity threads : Nat) (relocated : Nat → Bool)
    (garbage : Nat → PosetObj) (fuel : Nat) : Option SortableStatus :=
  (Search.init cfg oldGenEntries numLocks hmapCapacity threads relocated garbage).bind
    (Search.run cfg sp fuel)

/-- The forward-only run for `N` elements and `C` comparisons with the default options on a
build with `NUMEL = N`: 182 child-map shards of capacity 7169, of which the first 128 were
relocated, one thread, and old-gen maps with `2^27` entries in total. -/
def forwardVerdict (N C allocatedMemorySize fuel : Nat) : Option SortableStatus :=
  let cfg : NCT := ⟨N, N, C⟩
  Search.forward cfg (defaultParams cfg allocatedMemorySize) (2 ^ 27) 182 7169 1
    (fun i => decide (i < 128)) (fun _ => PosetObj.new) fuel

/-! ## Sample records -/

/-- A record for the graph bits `g` on a build with `NUMEL = N = 4`, flagged as unique, with
its computed hash. -/
def sampleRecord (g : Nat) : AnnotatedPosetObj :=
  let p : PosetObj := PosetObj.mk g SortableStatus.UNFINISHED false true false
  { poset := p, info := ⟨0, 0⟩, hash := computeHash ⟨4, 4, 5⟩ p, elIndex := 0, linExt := 0 }

/-! ## Notions used to state and prove the properties of the canonicalizer -/

/-- A matrix on `n` vertices is well formed when it has `n` rows and every row has bits below
`n` only. -/
def AdjacencyMatrix.wf (n : Nat) (m : AdjacencyMatrix) : Bool :=
  decide (m.length = n) && (List.range n).all (fun i => decide (m.getD i 0 < 2 ^ n))

/-- A relabelling of the reduced vertices: `f` permutes `0 .. r-1` and fixes every other
vertex. -/
structure Relabel (r : Nat) (f : Nat → Nat) : Prop where
  permLow : ((List.range r).map f).Perm (List.range r)
  high : ∀ u, r ≤ u → f u = u

/-- The refined ids of one stream of the canonicalizer (`idSeq1` for `rev = false`,
`idSeq1Rev` for `rev = true`) before they are reordered. -/
def streamIds (n reduced_n : Nat) (g : NiceGraph) (rev : Bool) : List Nat :=
  let outDeg := fun node => (g.outLists.getD node []).length
  let inDeg := fun node => (g.inLists.getD node []).length
  let a := fun node => if rev then inDeg node else outDeg node
  let b := fun node => if rev then outDeg node else inDeg node
  let ids0 := (List.range reduced_n).map (fun node => canonIdInit (a node) (b node))
  let deg := (List.range reduced_n).map (fun node => 23 * a node + b node)
  (List.range (n / 3)).foldl (fun ids _ => canonRound reduced_n g deg ids) ids0

/-- The layer chosen from the list of the available vertices: those that have no available
out-neighbour other than themselves. -/
def layerSem (R : Nat → Nat → Bool) (avail : List Nat) : List Nat :=
  avail.filter (fun j => avail.all (fun u => !R j u || decide (u = j)))

/-- The layer decomposition of `getLayerStructureRev` on lists of available vertices. -/
def layersSem (R : Nat → Nat → Bool) : Nat → List Nat → List (List Nat)
  | 0, _ => []
  | fuel + 1, avail =>
    if avail = [] then []
    else
      layerSem R avail ::
        layersSem R fuel (avail.filter (fun u => !(layerSem R avail).contains u))

/-- The positions `p` and `p + 1` lie in a run of equal ids that the scan has recorded: the run
occupies the positions `a .. a + m - 1`, its flip is listed and, when the run has three or more
members, so is its cycle. -/
def RunRecorded (flips starts lengths : List Nat) (bound p : Nat) : Prop :=
  ∃ a m, a ≤ p ∧ p + 1 < a + m ∧ a + m ≤ bound ∧ a + 1 ∈ flips ∧
    (m = 2 ∨ ∃ i, i < starts.length ∧ i < lengths.length ∧
      starts.getD i 0 = a + m - 1 ∧ lengths.getD i 0 = m)

/-- One list of outputs extends another. -/
def SortedLayers.le (o o' : SortedLayers) : Prop :=
  o.flipIsos <+: o'.flipIsos ∧ o.cycleIsoStarts <+: o'.cycleIsoStarts ∧
    o.cycleIsoLengths <+: o'.cycleIsoLengths ∧ o.permutation.length ≤ o'.permutation.length

/-- The invariant of the inner loop of `sortLayersAndGetPermutation` after the entry `j` of
the sorted layer `L` has been processed; `off` is the number of vertices placed before the
layer. -/
structure ScanInv (idSeq L : List Nat) (off j : Nat) (s : LayerScan) : Prop where
  num : s.numTotal = off + j + 1
  plen : s.out.permutation.length = off + j + 1
  clen : s.out.cycleIsoStarts.length = s.out.cycleIsoLengths.length
  le : s.lastIndex ≤ j
  run : ∀ t, s.lastIndex ≤ t → t ≤ j →
    idSeq.getD (L.getD t 0) 0 = idSeq.getD (L.getD s.lastIndex 0) 0
  last : idSeq.getD s.last 0 = idSeq.getD (L.getD s.lastIndex 0) 0
  flip : s.lastIndex < j → off + s.lastIndex + 1 ∈ s.out.flipIsos
  done : ∀ i, i + 1 ≤ s.lastIndex →
    idSeq.getD (L.getD i 0) 0 = idSeq.getD (L.getD (i + 1) 0) 0 →
    RunRecorded s.out.flipIsos s.out.cycleIsoStarts s.out.cycleIsoLengths (off + j + 1) (off + i)
  cyc : s.lastIndex + 2 ≤ j →
    (j + 1 = L.length ∨
      idSeq.getD (L.getD (j + 1) 0) 0 ≠ idSeq.getD (L.getD s.lastIndex 0) 0) →
    ∃ i, i < s.out.cycleIsoStarts.length ∧ s.out.cycleIsoStarts.getD i 0 = off + j ∧
      s.out.cycleIsoLengths.getD i 0 = j + 1 - s.lastIndex

/-- Every pair of neighbouring equal ids inside a block is recorded; `off` is the position of
the first block. -/
def BlocksRecorded (key : Nat → Nat) (flips starts lengths : List Nat) (bound : Nat) :
    Nat → List (List Nat) → Prop
  | _, [] => True
  | off, B :: rest =>
    (∀ i, i + 1 < B.length → key (B.getD i 0) = key (B.getD (i + 1) 0) →
      RunRecorded flips starts lengths bound (off + i)) ∧
    BlocksRecorded key flips starts lengths bound (off + B.length) rest

/-- The transposition of `a` and `b`. -/
def tp (a b : Nat) : Nat → Nat := fun z => if z = a then b else if z = b then a else z

/-- The positions read by `cycleAt` on the run `a .. a + m - 1`: position `a` reads the last
position of the run, every other position of the run reads its predecessor. -/
def rot (a m : Nat) : Nat → Nat :=
  fun z => if z = a then a + m - 1 else if a < z ∧ z < a + m then z - 1 else z

/-- The inverse of `rot`. -/
def rotInv (a m : Nat) : Nat → Nat :=
  fun z => if z = a + m - 1 then a else if a ≤ z ∧ z + 1 < a + m then z + 1 else z

/-- The rearrangement `τ` of the positions leaves the reordered matrix unchanged. -/
def PosAut (n : Nat) (c : AdjacencyMatrix) (perm : List Nat) (τ : Nat → Nat) : Prop :=
  ∀ x y, x < n → y < n →
    c.get ((extendPermutation perm n).getD (τ x) 0) ((extendPermutation perm n).getD (τ y) 0) =
      c.get ((extendPermutation perm n).getD x 0) ((extendPermutation perm n).getD y 0)

/-- The map `g` of the vertices is an automorphism of the matrix. -/
def VAut (n : Nat) (c : AdjacencyMatrix) (g : Nat → Nat) : Prop :=
  ∀ u v, u < n → v < n → c.get (g u) (g v) = c.get u v


/-! ## Notions used to state the properties of `MyHashmap::clear` -/

/-- Every slot that holds a record index carries a generation not above the current one. -/
def GenBound (w : PtrWidths) (m : MyHashmap) : Prop :=
  ∀ s, (m.data s).posetRefIndex ≠ w.posetRefIndexInvalid → (m.data s).pointerGen ≤ m.gen

/-! ## config.h, main.cpp: the default number of comparisons -/

/-- The table `NCT::cTableITLB` of config.h. -/
def cTableITLB : List Nat :=
  [0, 0, 1, 3, 5, 7, 10, 13, 16, 19,
   22, 26, 29, 33, 37, 41, 45, 49, 53, 57,
   62, 66, 70, 75, 80, 84, 89, 94, 98, 103,
   108, 113, 118, 123, 128, 133, 139, 144, 149, 154,
   160, 165, 170, 176, 181, 187, 192, 198]

/-- The value `NCT::Cglob = NCT::cTableITLB[NCT::N]` that `main` takes when the option
`--num-comparisons` is not given; `none` when the index is outside the table. -/
def defaultC (N : Nat) : Option Nat := cTableITLB[N]?

/-- The check that `c` is the least exponent with `N! ≤ 2^c`. -/
def isCeilLog2Factorial (N c : Nat) : Bool :=
  decide (N.factorial ≤ 2 ^ c) && (c == 0 || decide (2 ^ (c - 1) < N.factorial))

/-! ## Notions used to state the properties of the graphs -/

/-- The graph is acyclic: its transitive closure has no loop. -/
def AdjacencyMatrix.isDag (n : Nat) (m : AdjacencyMatrix) : Bool :=
  (List.range n).all (fun i => !(AdjacencyMatrix.TransitiveClosure n m).get i i)

/-- The graph is transitively reduced: no edge `a → b` is implied by a path through a third
vertex `w`. -/
def AdjacencyMatrix.isReduced (n : Nat) (m : AdjacencyMatrix) : Bool :=
  (List.range n).all (fun a => (List.range n).all (fun b => (List.range n).all (fun w =>
    !(m.get a b && (AdjacencyMatrix.TransitiveClosure n m).get a w &&
      (AdjacencyMatrix.TransitiveClosure n m).get w b))))

/-! ## Notions used to state the properties of `addEdge` -/

/-- Model of `PosetInfo::isPairComp`. -/
def PosetInfo.isPairComp (cfg : NCT) (i : PosetInfo) (a b : Nat) : Bool :=
  i.isInPair cfg a && i.isInPair cfg b

/-- The five assertions of the static function `addEdge` of expandedPoset.cpp, in the order of
the source; `info` is the child `PosetInfo` that the function has just built. -/
def addEdgeAsserts (cfg : NCT) (parent : PosetInfo) (k1 k2 : Nat) : Bool :=
  let info := addEdge cfg parent k1 k2
  (parent.isPairComp cfg k1 k2 == decide (parent.numPairs = 2)) &&
  decide (k1 ≠ k2) &&
  (decide (k1 < (parent.GetFirstSingleton cfg + 2) % 2 ^ 32) &&
    decide (k2 < (parent.GetFirstSingleton cfg + 2) % 2 ^ 32)) &&
  (decide (k1 < info.GetFirstSingleton cfg) && decide (k2 < info.GetFirstSingleton cfg)) &&
  decide (info.numPairs ≤ 2)

/-- What C17 asks of the child of a comparison `(k1, k2)`. -/
def addEdgeGood (cfg : NCT) (parent : PosetInfo) (k1 k2 : Nat) : Prop :=
  2 * (addEdge cfg parent k1 k2).numPairs + (addEdge cfg parent k1 k2).numSingletons ≤ cfg.N ∧
  (addEdge cfg parent k1 k2).numPairs ≤ 2 ∧
  addEdgeAsserts cfg parent k1 k2 = true ∧
  k1 < cfg.N - (addEdge cfg parent k1 k2).numSingletons ∧
  k2 < cfg.N - (addEdge cfg parent k1 k2).numSingletons

/-- The status of the record at position `i` of the poset list. -/
def statusAt (l : List AnnotatedPosetObj) (i : Nat) : SortableStatus :=
  (l.getD i AnnotatedPosetObj.new).poset.status

/-- The records at the positions below `n` stay in the list, and those among them that are
resolved (`YES` or `NO`) keep their status. -/
def StatusKept (n : Nat) (l l' : List AnnotatedPosetObj) : Prop :=
  ∀ i, i < n → i < l.length →
    i < l'.length ∧ (statusAt l i ≠ SortableStatus.UNFINISHED → statusAt l' i = statusAt l i)

/-- A state of `doForwardStep` in phase 2: the marked parent at position 0 has one child pair,
the records 1 and 2, both sortable; the record at position 3 is resolved as `NO`. -/
def sampleStep : StepState :=
  let rec_ := fun (s : SortableStatus) (mark : Bool) =>
    ({ poset := PosetObj.mk 0 s true false mark, info := ⟨0, 0⟩, hash := 0, elIndex := 0,
       linExt := 1 } : AnnotatedPosetObj)
  { posetList := [rec_ SortableStatus.UNFINISHED true, rec_ SortableStatus.YES false,
      rec_ SortableStatus.YES false, rec_ SortableStatus.NO false],
    edgeList := [2, 1, 2, 0],
    parentState := ⟨0, 4, 3, 4, 3, 4, 0, 2⟩,
    childState := LayerState.new,
    parentC := 0,
    childMap := PosetMapExt.new 1 1 (fun _ => false),
    parentMapOld := OldGenMap.new 1 (fun _ => PosetObj.new) }

/-! ## The semi-offline vector (`semiOfflineVector.h`) -/

/-- An array with the cell `i` overwritten by `x`. -/
def writeAt {T : Type} (a : Nat → T) (i : Nat) (x : T) : Nat → T :=
  fun j => if j = i then x else a j

/-- Model of `SemiOfflineVector<T>`: the arrays `onlineVec` and `offlineVec` as maps from the
position to the element, and the `size_t` members. -/
structure SemiOfflineVector (T : Type) where
  onlineCapacity : Nat
  offlineCapacity : Nat
  onlineVec : Nat → T
  offlineVec : Nat → T
  required_online : Nat
  sizeTotal : Nat
  sizeOffline : Nat

/-- The constructor; `online` and `offline` are the contents of the memory it allocates. -/
def SemiOfflineVector.new {T : Type} (onlineCapacity offlineCapacity : Nat)
    (online offline : Nat → T) : SemiOfflineVector T :=
  { onlineCapacity := onlineCapacity, offlineCapacity := offlineCapacity,
    onlineVec := online, offlineVec := offline, required_online := 0, sizeTotal := 0,
    sizeOffline := 0 }

/-- Whether the two assertions of `operator[]` hold for `pos`. -/
def SemiOfflineVector.inWindow {T : Type} (v : SemiOfflineVector T) (pos : Nat) : Bool :=
  decide (pos ≥ v.sizeOffline) && decide (pos < (v.onlineCapacity + v.sizeOffline) % 2 ^ 64)

/-- Model of a read through `operator[]`: `none` when one of its assertions fails. -/
def SemiOfflineVector.get {T : Type} (v : SemiOfflineVector T) (pos : Nat) : Option T :=
  if v.inWindow pos then some (v.onlineVec (pos % v.onlineCapacity)) else none

/-- Model of a write through the reference `operator[]` returns: `none` when one of its
assertions fails. -/
def SemiOfflineVector.set {T : Type} (v : SemiOfflineVector T) (pos : Nat) (x : T) :
    Option (SemiOfflineVector T) :=
  if v.inWindow pos then
    some { v with onlineVec := writeAt v.onlineVec (pos % v.onlineCapacity) x }
  else none

/-- Model of `insert(const T &element)`: `none` when `assert(false)` is reached. -/
def SemiOfflineVector.insert {T : Type} (v : SemiOfflineVector T) (element : T) :
    Option (SemiOfflineVector T × Nat) :=
  let pos := v.sizeTotal
  if pos ≥ (v.onlineCapacity + v.sizeOffline) % 2 ^ 64 then none
  else
    some ({ v with sizeTotal := (v.sizeTotal + 1) % 2 ^ 64,
                   onlineVec := writeAt v.onlineVec (pos % v.onlineCapacity) element }, pos)

/-- The loop `for (int i = 0; i < len; i++) onlineVec[(pos + i) % onlineCapacity] = ...` of
the range `insert`; `pos` is the position of the first element left to copy. -/
def copyRange {T : Type} (onlineCapacity : Nat) : Nat → List T → (Nat → T) → (Nat → T)
  | _, [], a => a
  | pos, x :: xs, a =>
    copyRange onlineCapacity (pos + 1) xs (writeAt a ((pos % 2 ^ 64) % onlineCapacity) x)

/-- Model of `insert(iter begin, iter end)` for the elements `xs`: `none` when
`assert(false)` is reached, and for `2^31` elements or more, where the `int` loop counter
overflows. -/
def SemiOfflineVector.insertRange {T : Type} (v : SemiOfflineVector T) (xs : List T) :
    Option (SemiOfflineVector T × Nat) :=
  let pos := v.sizeTotal
  if pos ≥ (v.onlineCapacity + v.sizeOffline) % 2 ^ 64 then none
  else if xs.length ≥ 2 ^ 31 then none
  else
    some ({ v with sizeTotal := (v.sizeTotal + xs.length) % 2 ^ 64,
                   onlineVec := copyRange v.onlineCapacity pos xs v.onlineVec }, pos)

/-- The loop `offlineVec[i] = this->operator[](i)` of `ensureOnlineAvailable` over the
positions of the list. -/
def SemiOfflineVector.spill {T : Type} :
    List Nat → SemiOfflineVector T → Option (SemiOfflineVector T)
  | [], v => some v
  | i :: rest, v =>
    match v.get i with
    | none => none
    | some x => SemiOfflineVector.spill rest { v with offlineVec := writeAt v.offlineVec i x }

/-- Model of `ensureOnlineAvailable`: `none` when an assertion fails. -/
def SemiOfflineVector.ensureOnlineAvailable {T : Type} (v : SemiOfflineVector T)
    (requiredAvailable : Nat) : Option (SemiOfflineVector T) :=
  let used := (v.sizeTotal + 2 ^ 64 - v.sizeOffline) % 2 ^ 64
  let avail := (v.onlineCapacity + 2 ^ 64 - used) % 2 ^ 64
  if avail < requiredAvailable then
    let count := (requiredAvailable + 2 ^ 64 - avail) % 2 ^ 64
    let end_ := (v.sizeOffline + count) % 2 ^ 64
    if ¬ end_ ≤ v.required_online then none
    else if ¬ v.offlineCapacity ≥ end_ then none
    else
      (SemiOfflineVector.spill (List.range' v.sizeOffline (end_ - v.sizeOffline)) v).map
        (fun v1 => { v1 with sizeOffline := end_ })
  else some v

/-- Model of `resize`. -/
def SemiOfflineVector.resize {T : Type} (v : SemiOfflineVector T) (new_size : Nat) :
    Option (SemiOfflineVector T) :=
  let v1 := if new_size < v.sizeOffline then
    { v with sizeTotal := new_size, sizeOffline := new_size } else v
  let v2 := if new_size > (v1.sizeOffline + v1.onlineCapacity) % 2 ^ 64 then
    v1.ensureOnlineAvailable ((new_size + 2 ^ 64 - v1.sizeTotal) % 2 ^ 64) else some v1
  v2.map (fun v3 => { v3 with sizeTotal := new_size })

/-- The loop `this->operator[](i) = offlineVec[i]` of `ensureOnlineFrom` over the positions
of the list. -/
def SemiOfflineVector.pageIn {T : Type} :
    List Nat → SemiOfflineVector T → Option (SemiOfflineVector T)
  | [], v => some v
  | i :: rest, v =>
    match v.set i (v.offlineVec i) with
    | none => none
    | some v1 => SemiOfflineVector.pageIn rest v1

/-- Model of `ensureOnlineFrom`: `none` when an assertion fails. -/
def SemiOfflineVector.ensureOnlineFrom {T : Type} (v : SemiOfflineVector T) (begin_ : Nat) :
    Option (SemiOfflineVector T) :=
  if begin_ < v.sizeOffline then
    if ¬ v.onlineCapacity ≥ (v.sizeTotal + 2 ^ 64 - begin_) % 2 ^ 64 then none
    else
      let end_ := v.sizeOffline
      (SemiOfflineVector.pageIn (List.range' begin_ (end_ - begin_))
        { v with sizeOffline := begin_ }).map (fun v1 => { v1 with required_online := begin_ })
  else some { v with required_online := begin_ }

/-- The operations of a `SemiOfflineVector`; `write pos x` is the assignment
`v[pos] = x`. -/
inductive SovOp (T : Type) where
  | insert (x : T)
  | insertRange (xs : List T)
  | write (pos : Nat) (x : T)
  | resize (new_size : Nat)
  | ensureOnlineAvailable (requiredAvailable : Nat)
  | ensureOnlineFrom (begin_ : Nat)

/-- One operation on the vector. -/
def SemiOfflineVector.apply {T : Type} (v : SemiOfflineVector T) :
    SovOp T → Option (SemiOfflineVector T)
  | SovOp.insert x => (v.insert x).map (fun r => r.1)
  | SovOp.insertRange xs => (v.insertRange xs).map (fun r => r.1)
  | SovOp.write pos x => v.set pos x
  | SovOp.resize n => v.resize n
  | SovOp.ensureOnlineAvailable r => v.ensureOnlineAvailable r
  | SovOp.ensureOnlineFrom b => v.ensureOnlineFrom b

/-- A sequence of operations; `none` when an assertion fails on the way. -/
def SemiOfflineVector.run {T : Type} :
    List (SovOp T) → SemiOfflineVector T → Option (SemiOfflineVector T)
  | [], v => some v
  | op :: rest, v =>
    match v.apply op with
    | none => none
    | some v1 => SemiOfflineVector.run rest v1

/-- What a sequence of operations says about the elements: the content of a plain vector
after the same operations, `some x` for an element last written as `x` and `none` for an
element that `resize` created and nothing wrote since. -/
def SovOp.step {T : Type} (l : List (Option T)) : SovOp T → List (Option T)
  | SovOp.insert x => l ++ [some x]
  | SovOp.insertRange xs => l ++ xs.map some
  | SovOp.write pos x => l.set pos (some x)
  | SovOp.resize n => l.take n ++ List.replicate (n - l.length) none
  | _ => l

/-- The content of a plain vector after a sequence of operations on the empty one. -/
def lastWritten {T : Type} (ops : List (SovOp T)) : List (Option T) :=
  ops.foldl SovOp.step []

/-- The conditions on an operation that no assertion checks: the arguments are `size_t`
values, a range `insert` fits into the free part of the online window, and
`ensureOnlineAvailable` asks for no more than the online capacity. -/
def SovOp.fits {T : Type} (v : SemiOfflineVector T) : SovOp T → Bool
  | SovOp.insert _ => true
  | SovOp.insertRange xs =>
    decide (v.sizeTotal + xs.length ≤ v.sizeOffline + v.onlineCapacity)
  | SovOp.write pos _ => decide (pos < 2 ^ 64)
  | SovOp.resize n => decide (n < 2 ^ 64)
  | SovOp.ensureOnlineAvailable r => decide (r ≤ v.onlineCapacity)
  | SovOp.ensureOnlineFrom b => decide (b < 2 ^ 64)

/-- Every operation of the sequence fits the state it is applied to. -/
def SemiOfflineVector.fitsAll {T : Type} :
    List (SovOp T) → SemiOfflineVector T → Bool
  | [], _ => true
  | op :: rest, v =>
    op.fits v &&
      match v.apply op with
      | none => true
      | some v1 => SemiOfflineVector.fitsAll rest v1

/-- The invariant of a `SemiOfflineVector` next to the content `l` its operations denote: the
sizes bound the window, every written element of the window is in its cell of `onlineVec`,
every written element below the window is in `offlineVec`. -/
structure SovInv {T : Type} (v : SemiOfflineVector T) (l : List (Option T)) : Prop where
  off_le : v.sizeOffline ≤ v.sizeTotal
  tot_le : v.sizeTotal ≤ v.sizeOffline + v.onlineCapacity
  len : l.length = v.sizeTotal
  online : ∀ i x, v.sizeOffline ≤ i → i < v.sizeTotal → l.getD i none = some x →
    v.onlineVec (i % v.onlineCapacity) = x
  offline : ∀ i x, i < v.sizeOffline → l.getD i none = some x → v.offlineVec i = x
  off_cap : v.sizeOffline ≤ v.offlineCapacity
  caps : v.onlineCapacity + v.offlineCapacity < 2 ^ 64

/-- The poset on 16 vertices in which vertex 15 lies above each of the vertices 0 to 14 and
nothing else is related: the bits of the edges `(j, 15)`, `j < 15`, on a build with
`NUMEL = 16`. -/
def hubPoset16 : PosetObj :=
  PosetObj.mk 1091051979207454757222107396637212672 SortableStatus.UNFINISHED true false false


/-! ## Notions used to state the properties of the comparison enumeration -/

/-- The assertions of the lambda `addComparisonIfFeasible`, in the order of the source:
`parentC == 0 || p_1 <= 2 * limit`, the same for `p_2`, and, when the comparison is recorded
as a comparison of two singletons, `lin1 == lin2 && k2 == k1 + 1`.  `W` is the width of
`LinExtT`. -/
def addComparisonAsserts (W parentC : Nat) (table : Nat → Nat → Nat) (limit j k : Nat)
    (singletonComp : Bool) : Bool :=
  let p_1 := table j k
  let p_2 := table k j
  (decide (parentC = 0) || decide (p_1 ≤ (2 * limit) % 2 ^ W)) &&
  (decide (parentC = 0) || decide (p_2 ≤ (2 * limit) % 2 ^ W)) &&
  (if p_1 = 0 ∨ p_2 = 0 then true
   else if p_1 > limit ∨ p_2 > limit then true
   else if singletonComp then
     (if p_1 ≥ p_2 then decide (p_1 = p_2) && decide (k = (j + 1) % 2 ^ 32)
      else decide (p_2 = p_1) && decide (j = (k + 1) % 2 ^ 32))
   else true)

/-- The calls of `addComparisonIfFeasible` made by `enumerateComparisons`, in the order of the
source: the arguments `(j, k, singletonComp)` of each call. -/
def comparisonCandidates (cfg : NCT) (info : PosetInfo) : List (Nat × Nat × Bool) :=
  let n := cfg.N
  let fs := info.GetFirstSingleton cfg
  let fp := info.GetFirstInPair cfg
  if info.numPairs = 2 then
    [(fp, fp + 1, false), (fp, fp + 2, false), (fp, fp + 3, false), (fp + 1, fp + 2, false),
      (fp + 1, fp + 3, false), (fp + 2, fp + 3, false)]
  else
    let v0 := if info.numSingletons ≥ 2 then [(fs, fs + 1, true)] else []
    if info.numPairs = 1 then
      let v1 := if info.numSingletons ≥ 1 then [(fp, fs, false), (fp + 1, fs, false)] else []
      v0 ++ v1 ++ (List.range fp).flatMap (fun j => [(j, fp, false), (j, fp + 1, false)])
    else
      let endNode := min ((n + 2 ^ 32 - info.numSingletons + 1) % 2 ^ 32) n
      v0 ++ (List.range (endNode - 1)).flatMap (fun j =>
        ((List.range endNode).drop (j + 1)).map (fun k => (j, k, false)))

/-- The table of the poset `0 < 1 < 2` with the singleton `3` on four elements: the entry
`[i][j]` is the number of its four linear extensions in which `i` precedes `j`. -/
def chainTable : Nat → Nat → Nat := fun i j =>
  if i = 3 then (if j = 0 then 1 else if j = 1 then 2 else if j = 2 then 3 else 0)
  else if j = 3 then (if i = 0 then 3 else if i = 1 then 2 else if i = 2 then 1 else 0)
  else if i < j ∧ j < 3 then 4 else 0

/-! ## Notions used to state the properties of the graph bits -/

/-- The bit position `k + jOffset[j] - j - 1` that `add_edge`, `add_edgeCond` and `is_edge`
compute for the pair `(j, k)`. -/
def edgeBit (MAXN j k : Nat) : Nat := k + jOffset MAXN j - j - 1

/-! ## posetMap.cpp: the constructors -/

/-- The shard count computed by the constructors `PosetMap(initialCapacity)` and
`PosetMapExt(container, initialCapacity)`: `initialCapacity / 4096` stored in the `uint32_t`
member `numLocks`, raised to `NCT::num_threads_glob` and capped at `1 << 16`. -/
def shardCount (threads initialCapacity : Nat) : Nat :=
  min (2 ^ 16) (max threads ((initialCapacity / 4096) % 2 ^ 32))

/-- The per-shard capacity computed by both constructors:
`(initialCapacity / numLocks) * multiplier`, with the multiplier `1.96` below `2^12` items per
shard and `1.75` from there, truncated and raised to `993`.  The `double` product is taken in
exact arithmetic. -/
def hmapInitialCapacity (initialCapacity numLocks : Nat) : Nat :=
  let scaled :=
    if initialCapacity < 2 ^ 12 * numLocks then initialCapacity * 196 / (100 * numLocks)
    else initialCapacity * 175 / (100 * numLocks)
  max 993 scaled

/-- The constructor `PosetMap(initialCapacity)` on a build with `threads` threads. -/
def PosetMap.ofCapacity (threads initialCapacity : Nat) : PosetMap :=
  PosetMap.new (shardCount threads initialCapacity)
    (hmapInitialCapacity initialCapacity (shardCount threads initialCapacity))

/-- The constructor `PosetMapExt(container, initialCapacity)` on a build with `threads`
threads. -/
def PosetMapExt.ofCapacity (threads initialCapacity : Nat) (relocated : Nat → Bool) :
    PosetMapExt :=
  PosetMapExt.new (shardCount threads initialCapacity)
    (hmapInitialCapacity initialCapacity (shardCount threads initialCapacity)) relocated

/-- A capacity is odd and not a multiple of 3. -/
def capacityGood (c : Nat) : Bool := decide (c % 2 = 1) && decide (c % 3 ≠ 0)

/-! ## Notions used to state the property of the unrelated-pairs test -/

/-- The number of unordered pairs `{i, j}` of vertices below `n` that the closure matrix
relates in neither direction. -/
def numUnrelatedPairs (n : Nat) (closure : AdjacencyMatrix) : Nat :=
  ((List.range n).map (fun j =>
    ((List.range j).filter (fun i => !closure.get i j && !closure.get j i)).length)).sum

/-! ## Notions used to state the choice between the two streams of the canonicalizer -/

/-- The permutation that `sortLayersAndGetPermutation` builds for one stream of
`reorderGraphCanonically`: `permutation` for `rev = false`, `Revpermutation` for
`rev = true`. -/
def streamPermutation (cfg : NCT) (adMatrixClosure : AdjacencyMatrix) (info : PosetInfo)
    (g : NiceGraph) (rev : Bool) : List Nat :=
  (sortLayersAndGetPermutation (streamIds cfg.N (info.GetReducedN cfg) g rev)
    (AdjacencyMatrix.getLayerStructureRev cfg.MAXN
      (if rev then adMatrixClosure else AdjacencyMatrix.reverse cfg.N adMatrixClosure)
      (info.GetReducedN cfg))).permutation

/-- The reordered refined-id sequence of one stream: `idSeq1` for `rev = false` and
`idSeq1Rev` for `rev = true`, after `reorderIds`. -/
def streamSeq (cfg : NCT) (adMatrixClosure : AdjacencyMatrix) (info : PosetInfo)
    (g : NiceGraph) (rev : Bool) : List Nat :=
  reorderIds (streamIds cfg.N (info.GetReducedN cfg) g rev)
    (streamPermutation cfg adMatrixClosure info g rev)

/-- The graph bits that serialize one stream: those written by `SetgraphPermutation` with
the forward permutation, or by `SetgraphPermutationReverse` with the reverse one. -/
def streamGraph (cfg : NCT) (adMatrix adMatrixClosure : AdjacencyMatrix) (info : PosetInfo)
    (g : NiceGraph) (rev : Bool) : Nat :=
  if rev then
    (PosetObj.new.SetgraphPermutationReverse cfg adMatrix
      (streamPermutation cfg adMatrixClosure info g true) info).graph
  else
    (PosetObj.new.SetgraphPermutation cfg adMatrix
      (streamPermutation cfg adMatrixClosure info g false) info).graph

/-! ## Notions used to state the properties of phase 2 and phase 3 -/

/-- The child pairs `(a, b)` of the edge-list entry whose size cell is at position `e0`. -/
def entryPairs (edgeList : List Nat) (e0 : Nat) : List (Nat × Nat) :=
  ((List.range (edgeList.getD e0 0)).filter (fun i => decide (i % 2 = 0))).map
    (fun i => (edgeList.getD (e0 + 1 + i) 0, edgeList.getD (e0 + 1 + i + 1) 0))

/-- Some child pair has both children resolved as `YES`. -/
def bothSortable (posetList : List AnnotatedPosetObj) (pairs : List (Nat × Nat)) : Bool :=
  pairs.any (fun ab => decide (statusAt posetList ab.1 = SortableStatus.YES) &&
    decide (statusAt posetList ab.2 = SortableStatus.YES))

/-- The unresolved children of the child pairs that survive: a pair with a `NO` child is
discarded, and a pair with one `YES` child leaves its other child. -/
def survivors (posetList : List AnnotatedPosetObj) (pairs : List (Nat × Nat)) : List Nat :=
  pairs.filterMap (fun ab =>
    if statusAt posetList ab.1 = SortableStatus.NO ∨
        statusAt posetList ab.2 = SortableStatus.NO then none
    else if statusAt posetList ab.1 = SortableStatus.YES then some ab.2
    else some ab.1)

/-- A state of phase 2: the marked parent at position 0 has the three child pairs `(1, 2)`,
`(3, 4)` and `(2, 1)`; the record 1 is sortable, the record 3 is not, and the records 2
and 4 are unresolved. -/
def samplePhase2 : Phase2 :=
  let rec_ := fun (s : SortableStatus) (mark : Bool) =>
    ({ poset := PosetObj.mk 0 s true false mark, info := ⟨0, 0⟩, hash := 0, elIndex := 0,
       linExt := 1 } : AnnotatedPosetObj)
  { posetList := [rec_ SortableStatus.UNFINISHED true, rec_ SortableStatus.YES false,
      rec_ SortableStatus.UNFINISHED false, rec_ SortableStatus.NO false,
      rec_ SortableStatus.UNFINISHED false],
    edgeList := [6, 1, 2, 3, 4, 2, 1],
    hasUnfinished := false }

/-! ## Notions used to state the properties of phase 1 -/

/-- The outcome of the second half of `exploreComparison` apart from the child map: the
status it returns and the unresolved children that it enters (none, one by
`createChildEntrySingleton`, or two by `createChildEntry`). -/
def verdictSecond (cfg : NCT) (parentC : Nat)
    (childLayerCompleteAbove : Nat) (childMapBW : PosetMap) (childMapOld : OldGenMap)
    (parent : AnnotatedPosetObj) (comparison : ComparisonTuple)
    (firstSortable secondSortable : Bool) (firstChild : AnnotatedPosetObj) :
    ComparisonStatus × List AnnotatedPosetObj :=
  let rc := remainingComparisonsChild cfg parentC
  let finish := fun (fS sS : Bool) (secondChild : AnnotatedPosetObj) =>
    if !fS && !sS then (ComparisonStatus.INDETERMINATE, [firstChild, secondChild])
    else if !fS then (ComparisonStatus.INDETERMINATE, [firstChild])
    else if !sS then (ComparisonStatus.INDETERMINATE, [secondChild])
    else (ComparisonStatus.SORTABLE, [])
  if !secondSortable then
    let new_poset_p2 := ExpandedPosetChild.ofParent cfg parent.poset parent.info
      comparison.lin2 comparison.k2 comparison.k1
    let sS := new_poset_p2.isEasilySortableUnrelatedPairs cfg rc
    if firstSortable && sS then (ComparisonStatus.SORTABLE, [])
    else if !sS then
      let secondChild := new_poset_p2.getHandle cfg
      match checkChild cfg childLayerCompleteAbove childMapBW childMapOld secondChild
          comparison.lin2 with
      | ComparisonStatus.UNSORTABLE => (ComparisonStatus.UNSORTABLE, [])
      | ComparisonStatus.SORTABLE => finish firstSortable true secondChild
      | ComparisonStatus.INDETERMINATE => finish firstSortable false secondChild
    else finish firstSortable sS AnnotatedPosetObj.new
  else finish firstSortable secondSortable AnnotatedPosetObj.new

/-- The outcome of `exploreComparison` apart from the child map: the status it returns for the
comparison and the unresolved children that it enters. -/
def comparisonVerdict (cfg : NCT) (parentC : Nat)
    (childLayerCompleteAbove : Nat) (childMapBW : PosetMap) (childMapOld : OldGenMap)
    (parent : AnnotatedPosetObj) (comparison : ComparisonTuple) :
    ComparisonStatus × List AnnotatedPosetObj :=
  let rc := remainingComparisonsChild cfg parentC
  let firstSortable := isEasilySortableLinExt rc comparison.lin1
  let secondSortable := isEasilySortableLinExt rc comparison.lin2
  let second := verdictSecond cfg parentC childLayerCompleteAbove childMapBW childMapOld
    parent comparison
  if firstSortable && secondSortable then (ComparisonStatus.SORTABLE, [])
  else if !firstSortable then
    let new_poset_p1 := ExpandedPosetChild.ofParent cfg parent.poset parent.info
      comparison.lin1 comparison.k1 comparison.k2
    let fS := new_poset_p1.isEasilySortableUnrelatedPairs cfg rc
    if comparison.singletonComp || isEasilySortableLinExt rc comparison.lin2 then
      if fS then (ComparisonStatus.SORTABLE, [])
      else
        let firstChild := new_poset_p1.getHandle cfg
        match checkChild cfg childLayerCompleteAbove childMapBW childMapOld firstChild
            comparison.lin1 with
        | ComparisonStatus.INDETERMINATE => (ComparisonStatus.INDETERMINATE, [firstChild])
        | status => (status, [])
    else if fS && secondSortable then (ComparisonStatus.SORTABLE, [])
    else if !fS then
      let firstChild := new_poset_p1.getHandle cfg
      match checkChild cfg childLayerCompleteAbove childMapBW childMapOld firstChild
          comparison.lin1 with
      | ComparisonStatus.UNSORTABLE => (ComparisonStatus.UNSORTABLE, [])
      | ComparisonStatus.SORTABLE =>
        if secondSortable then (ComparisonStatus.SORTABLE, [])
        else second true secondSortable firstChild
      | ComparisonStatus.INDETERMINATE => second false secondSortable firstChild
    else second fS secondSortable AnnotatedPosetObj.new
  else second firstSortable secondSortable AnnotatedPosetObj.new

/-- The entry of the unresolved children of one comparison into the child map and the local
edge list: nothing for no child, `createChildEntrySingleton` for one and
`createChildEntry` for two. -/
def insertChildren (cfg : NCT) (sp : SearchParams) (st : Phase1State) :
    List AnnotatedPosetObj → Option Phase1State
  | [] => some st
  | [c] => createChildEntrySingleton cfg sp st c
  | [c1, c2] => createChildEntry cfg sp st c1 c2
  | _ => none

/-- The entries of the children of a series of comparisons, one after the other. -/
def insertAll (cfg : NCT) (sp : SearchParams) :
    Phase1State → List (List AnnotatedPosetObj) → Option Phase1State
  | st, [] => some st
  | st, cs :: rest =>
    match insertChildren cfg sp st cs with
    | none => none
    | some st1 => insertAll cfg sp st1 rest

/-- A state of phase 1 for three elements and three comparisons: the poset list holds the
initial antichain, which is the only parent. -/
def samplePhase1 : Phase1 :=
  { posetList := (createInitialPosetFW ⟨3, 3, 3⟩).1,
    edgeList := [0],
    childMap := PosetMapExt.new 1 993 (fun _ => false),
    linExtTable := fun _ _ => 0 }

/-- The table of the poset with the pair `0 < 1` and the two singletons `2`, `3` on four
elements: the entry `[i][j]` is the number of its twelve linear extensions in which `i`
precedes `j`. -/
def pairTable : Nat → Nat → Nat := fun i j =>
  if i = j ∨ 4 ≤ i ∨ 4 ≤ j then 0
  else if i = 0 ∧ j = 1 then 12 else if i = 1 ∧ j = 0 then 0
  else if 2 ≤ i ∧ 2 ≤ j then 6
  else if i = 0 then 8 else if j = 0 then 4
  else if i = 1 then 4 else 8

/-! ## isoTest.cpp, myHashmap.h: the assertions of the isomorphism tests -/

/-- Model of `boost_is_isomorphic` together with its assertions: the result is `none` when
`assert(first.GetSelfdualId() == second.GetSelfdualId())` fails or when the branch
`if (result && first.isUniqueGraph())`, which ends in `assert(false)`, is entered. -/
def boost_is_isomorphic_asserted (cfg : NCT) (first second : PosetObj) (reduced_n : Nat) :
    Option Bool :=
  if first.selfdualId != second.selfdualId then none
  else
    let result := vf2_graph_iso reduced_n (first.is_edge cfg.MAXN) (second.is_edge cfg.MAXN)
    if result && first.uniqueGraph then none else some result

/-- Model of `boost_is_rev_isomorphic` together with its assertion
`assert(first.GetSelfdualId() && second.GetSelfdualId())`. -/
def boost_is_rev_isomorphic_asserted (cfg : NCT) (first second : PosetObj) (reduced_n : Nat) :
    Option Bool :=
  if first.selfdualId && second.selfdualId then
    some (vf2_graph_iso reduced_n (first.is_edge cfg.MAXN)
      (fun u v => second.is_edge cfg.MAXN v u))
  else none

/-- Whether the cascade of `MyHashmap::testEquality` and `OldGenMap::find` gets as far as
the call `boost_is_isomorphic(candidate, entry, reduced_n)`, the VF2 test. -/
def cascadeCallsVF2 (cfg : NCT) (candidate : AnnotatedPosetObj) (entry : PosetObj) : Bool :=
  if candidate.poset.uniqueGraph != entry.uniqueGraph ||
      candidate.poset.selfdualId != entry.selfdualId then false
  else if candidate.poset.SameGraph cfg.MAXN entry then false
  else if candidate.poset.uniqueGraph && !candidate.poset.selfdualId then false
  else
    if !entry.isSingletonsAbove cfg (candidate.info.GetFirstSingleton cfg) then false
    else if !entry.isPairs cfg (candidate.info.GetReducedN cfg) candidate.info.numPairs then
      false
    else true

/-- The cascade of `MyHashmap::testEquality` and `OldGenMap::find` with the assertions of the
functions it calls: `none` when one of them fires. -/
def equalityCascadeAsserted (cfg : NCT) (candidate : AnnotatedPosetObj) (entry : PosetObj) :
    Option Bool :=
  if candidate.poset.uniqueGraph != entry.uniqueGraph ||
      candidate.poset.selfdualId != entry.selfdualId then some false
  else if candidate.poset.SameGraph cfg.MAXN entry then
    if candidate.poset.uniqueGraph == entry.uniqueGraph then some true else none
  else if candidate.poset.uniqueGraph && !candidate.poset.selfdualId then some false
  else
    let reduced_n := candidate.info.GetReducedN cfg
    if !entry.isSingletonsAbove cfg (candidate.info.GetFirstSingleton cfg) then some false
    else if !entry.isPairs cfg reduced_n candidate.info.numPairs then some false
    else if candidate.poset.selfdualId then
      match boost_is_isomorphic_asserted cfg candidate.poset entry reduced_n with
      | none => none
      | some true => some true
      | some false => boost_is_rev_isomorphic_asserted cfg candidate.poset entry reduced_n
    else boost_is_isomorphic_asserted cfg candidate.poset entry reduced_n

/-! ## forwardSearch.cpp, oldGenMap.cpp: what the old-gen maps hold -/

/-- The records handed to `parentMapOld.insert` by the storing loop of `doForwardStep`
(`for (auto id: tempVec) parentMapOld.insert(posetList[id])`), in the order of the calls. -/
def spilledRecords (st : StepState) : List AnnotatedPosetObj :=
  let ps := st.parentState
  let r := ((List.range ps.parentsEnd).drop ps.parentsBegin).foldl
    (fun (acc : List Nat × List AnnotatedPosetObj) i =>
      let id := st.edgeList.getD i 0
      let poset := (acc.2.getD id AnnotatedPosetObj.new).poset
      if poset.mark && poset.status != SortableStatus.UNFINISHED then
        (acc.1 ++ [id], setMarkAt acc.2 id false)
      else acc) ([], st.posetList)
  (sortByKey (fun a => st.parentMapOld.slot (r.2.getD a AnnotatedPosetObj.new)) r.1).map
    (fun id => r.2.getD id AnnotatedPosetObj.new)

/-- Every occupied slot of the old-gen map (`hashArray[i] != 0xFFFF`) holds a record whose
status is not `UNFINISHED`. -/
def OldGenMap.resolved (m : OldGenMap) : Prop :=
  ∀ i, m.hashArray i ≠ 2 ^ 16 - 1 → (m.posetArray i).status ≠ SortableStatus.UNFINISHED

/-- The state after `k` passes through the loop of `Search::run`. -/
def Search.iterate (cfg : NCT) (sp : SearchParams) : Nat → Search → Option Search
  | 0, s => some s
  | k + 1, s =>
    match Search.step cfg sp s with
    | none => none
    | some s1 => Search.iterate cfg sp k s1

/-- The `assert(false)` that follows the old-gen lookup of the lambda `checkChild`: the
value is `false` when the run of `checkChild` reaches it, that is when the lookup in
`childMapOld` is made and returns a record that is neither `NO` nor `YES`. -/
def checkChildAssert (cfg : NCT) (childLayerCompleteAbove : Nat) (childMapBW : PosetMap)
    (childMapOld : OldGenMap) (child : AnnotatedPosetObj) (linExt : Nat) : Bool :=
  let old :=
    match childMapOld.find cfg child with
    | some r =>
      if r.status = SortableStatus.NO then true
      else if r.status = SortableStatus.YES then true
      else false
    | none => true
  if linExt ≥ childLayerCompleteAbove then
    match childMapBW.find cfg child with
    | none => true
    | some (shard, index) =>
      let r := (childMapBW.Scontainers.getD shard []).getD index PosetObj.new
      if r.status = SortableStatus.NO then true
      else if r.status = SortableStatus.YES then true
      else old
  else old

/-- The set-up of the forward-only run for `N = 4`, `C = 5` with the default options. -/
def sampleSearchInit : Search :=
  (Search.init ⟨4, 4, 5⟩ (2 ^ 27) 182 7169 1 (fun i => decide (i < 128))
    (fun _ => PosetObj.new)).getD
    ⟨[], [], [], [], [], PosetMapExt.new 1 1 (fun _ => false), 0⟩

/-- The state of the forward-only run for `N = 4`, `C = 5` after three passes of the loop. -/
def sampleSearch : Search :=
  (Search.iterate ⟨4, 4, 5⟩ (defaultParams ⟨4, 4, 5⟩ 84) 3 sampleSearchInit).getD
    ⟨[], [], [], [], [], PosetMapExt.new 1 1 (fun _ => false), 0⟩

/-! ## posetObj.cpp: the tail layout of a record -/

/-- The tail layout of a record for the `PosetInfo` with `K` singletons and `P` pairs: no
edge is incident to one of the last `K` vertices; each of the `P` pairs at the positions
`N - K - 2P + 2q`, `N - K - 2P + 2q + 1` has its edge from the lower to the higher position
and no other edge touches its two vertices; and the tests `isSingletonsAbove` and `isPairs`
of the equality cascade succeed. -/
def TailLayout (cfg : NCT) (info : PosetInfo) (p : PosetObj) : Prop :=
  (∀ a b, a < cfg.N → b < cfg.N →
    (cfg.N - info.numSingletons ≤ a ∨ cfg.N - info.numSingletons ≤ b) →
    p.is_edge cfg.MAXN a b = false) ∧
  (∀ q, q < info.numPairs →
    p.is_edge cfg.MAXN (cfg.N - info.numSingletons - 2 * info.numPairs + 2 * q)
      (cfg.N - info.numSingletons - 2 * info.numPairs + 2 * q + 1) = true ∧
    ∀ a b, a < cfg.N → b < cfg.N → p.is_edge cfg.MAXN a b = true →
      (a = cfg.N - info.numSingletons - 2 * info.numPairs + 2 * q ∨
        a = cfg.N - info.numSingletons - 2 * info.numPairs + 2 * q + 1 ∨
        b = cfg.N - info.numSingletons - 2 * info.numPairs + 2 * q ∨
        b = cfg.N - info.numSingletons - 2 * info.numPairs + 2 * q + 1) →
      a = cfg.N - info.numSingletons - 2 * info.numPairs + 2 * q ∧
        b = cfg.N - info.numSingletons - 2 * info.numPairs + 2 * q + 1) ∧
  p.isSingletonsAbove cfg (info.GetFirstSingleton cfg) = true ∧
  p.isPairs cfg (info.GetReducedN cfg) info.numPairs = true

/-! ## Notions used to state that the canonicalizer stores an isomorphic copy -/

/-- The number of edges of a graph on the vertices `0 .. n-1`. -/
def countEdges (n : Nat) (e : Nat → Nat → Bool) : Nat :=
  (((List.range n).product (List.range n)).filter (fun x => e x.1 x.2)).length

/-- The graphs `e1` and `e2` on the vertices `0 .. n-1` are isomorphic: some one-to-one
relabelling `σ` of the vertices carries the edges of `e1` exactly onto the edges of `e2`. -/
def GraphIso (n : Nat) (e1 e2 : Nat → Nat → Bool) : Prop :=
  ∃ σ : Nat → Nat, (∀ i, i < n → σ i < n) ∧ (∀ i j, i < n → j < n → σ i = σ j → i = j) ∧
    ∀ i j, i < n → j < n → e1 i j = e2 (σ i) (σ j)

/-- The layout of the matrices handed to the canonicalizer for the `PosetInfo` with `K`
singletons and `P` pairs: the only edges that touch a vertex outside the reduced part
`0 .. N - K - 2P - 1` are the pair edges `f → f + 1` and, for two pairs, `f + 2 → f + 3`,
where `f = N - K - 2P`. -/
def InputLayout (cfg : NCT) (info : PosetInfo) (adMatrix : AdjacencyMatrix) : Prop :=
  ∀ u v, u < cfg.N → v < cfg.N →
    (cfg.N - info.numSingletons - 2 * info.numPairs ≤ u ∨
      cfg.N - info.numSingletons - 2 * info.numPairs ≤ v) →
    (adMatrix.get u v = true ↔
      (1 ≤ info.numPairs ∧ u = cfg.N - info.numSingletons - 2 * info.numPairs ∧
        v = cfg.N - info.numSingletons - 2 * info.numPairs + 1) ∨
      (info.numPairs = 2 ∧ u = cfg.N - info.numSingletons - 2 * info.numPairs + 2 ∧
        v = cfg.N - info.numSingletons - 2 * info.numPairs + 3))

/-! ## backwardSearch.cpp: the predecessor of a poset along one of its edges -/

/-- Model of the part of `BackwardSearch::exploreComparison` before the comment `// check`:
from the matrix of the child, the edge `k1 → k2` is deleted, `transClosure` is the closure
of what is left, and the edges `i → k2` (`i < k1` an in-neighbour of `k1` that does not reach
`k2` any more) and `k1 → i` (`i > k2` an out-neighbour of `k2` that `k1` does not reach any
more) are added.  The result is the matrix `parent` and the list `transEdges`. -/
def BackwardSearch.exploreComparison (N : Nat) (child : AdjacencyMatrix) (k1 k2 : Nat) :
    AdjacencyMatrix × List (Nat × Nat) :=
  let adjMat := child.deleteEdge k1 k2
  let transClosure := AdjacencyMatrix.TransitiveClosure N adjMat
  let s1 := (List.range k1).foldl
    (fun (acc : AdjacencyMatrix × List (Nat × Nat)) i =>
      if adjMat.get i k1 && !transClosure.get i k2 then
        (acc.1.setEdge i k2, acc.2 ++ [(i, k2)])
      else acc) (adjMat, [])
  ((List.range N).drop (k2 + 1)).foldl
    (fun (acc : AdjacencyMatrix × List (Nat × Nat)) i =>
      if adjMat.get k2 i && !transClosure.get k1 i then
        (acc.1.setEdge k1 i, acc.2 ++ [(k1, i)])
      else acc) s1

/-! ## Notions used to state the properties of the tie-breaks of the canonicalizer -/

/-- The output of `sortLayersAndGetPermutation` for one stream of `reorderGraphCanonically`:
the forward stream (`rev = false`) sorts the layers of the reversed closure by `idSeq1`, the
reverse stream those of the closure by `idSeq1Rev`. -/
def streamSorted (cfg : NCT) (adMatrixClosure : AdjacencyMatrix) (info : PosetInfo)
    (g : NiceGraph) (rev : Bool) : SortedLayers :=
  sortLayersAndGetPermutation (streamIds cfg.N (info.GetReducedN cfg) g rev)
    (AdjacencyMatrix.getLayerStructureRev cfg.MAXN
      (if rev then adMatrixClosure else AdjacencyMatrix.reverse cfg.N adMatrixClosure)
      (info.GetReducedN cfg))

/-- The sorted layers of one stream of `reorderGraphCanonically`; their concatenation is the
permutation of the stream. -/
def streamBlocks (cfg : NCT) (adMatrixClosure : AdjacencyMatrix) (info : PosetInfo)
    (g : NiceGraph) (rev : Bool) : List (List Nat) :=
  (AdjacencyMatrix.getLayerStructureRev cfg.MAXN
    (if rev then adMatrixClosure else AdjacencyMatrix.reverse cfg.N adMatrixClosure)
    (info.GetReducedN cfg)).map
    (insertionSort (fun i j =>
      decide ((streamIds cfg.N (info.GetReducedN cfg) g rev).getD i 0 <
        (streamIds cfg.N (info.GetReducedN cfg) g rev).getD j 0)))

/-- The matrix that the flip and cycle tests of one stream reorder: `adMatrixClosure` for
the forward stream and `adMatrixClosureRev` for the reverse stream. -/
def streamClosure (cfg : NCT) (adMatrixClosure : AdjacencyMatrix) (rev : Bool) :
    AdjacencyMatrix :=
  if rev then AdjacencyMatrix.reverse cfg.N adMatrixClosure else adMatrixClosure

/-- The layers `blocks'` are a tie-break rearrangement of the sorted layers `blocks`: layer
by layer they hold the same vertices with the same sequence of keys, so that only vertices
inside a run of equal keys of one layer have changed places. -/
def TieRearranged (key : Nat → Nat) (blocks' blocks : List (List Nat)) : Prop :=
  List.Forall₂ (fun B' B => B'.Perm B ∧ B'.map key = B.map key) blocks' blocks

/-- The flag `ambiguousGraph` of `reorderGraphCanonically` once the flip and cycle tests are
done: it is clear when nothing was recorded for either stream, and otherwise when all the
recorded flips and cycles of both streams leave the reordered closure unchanged. -/
def canonAmbiguous (cfg : NCT) (adMatrixClosure : AdjacencyMatrix) (info : PosetInfo)
    (g : NiceGraph) : Bool :=
  if (streamSorted cfg adMatrixClosure info g false).flipIsos.length = 0 ∧
      (streamSorted cfg adMatrixClosure info g true).flipIsos.length = 0 ∧
      (streamSorted cfg adMatrixClosure info g false).cycleIsoLengths.length = 0 ∧
      (streamSorted cfg adMatrixClosure info g true).cycleIsoLengths.length = 0 then false
  else !(flipsOk cfg.N (streamClosure cfg adMatrixClosure false)
        (streamSorted cfg adMatrixClosure info g false).permutation
        (streamSorted cfg adMatrixClosure info g false).flipIsos &&
      flipsOk cfg.N (streamClosure cfg adMatrixClosure true)
        (streamSorted cfg adMatrixClosure info g true).permutation
        (streamSorted cfg adMatrixClosure info g true).flipIsos &&
      cyclesOk cfg.N (streamClosure cfg adMatrixClosure false)
        (streamSorted cfg adMatrixClosure info g false).permutation
        (streamSorted cfg adMatrixClosure info g false).cycleIsoStarts
        (streamSorted cfg adMatrixClosure info g false).cycleIsoLengths &&
      cyclesOk cfg.N (streamClosure cfg adMatrixClosure true)
        (streamSorted cfg adMatrixClosure info g true).permutation
        (streamSorted cfg adMatrixClosure info g true).cycleIsoStarts
        (streamSorted cfg adMatrixClosure info g true).cycleIsoLengths)

/-! ## The dual of a stored graph -/

/-- The dual of a graph in the layout handed to the canonicalizer: every edge among the
vertices below `reduced_n` is reversed; the edges that touch another vertex (the pair edges)
are kept. -/
def AdjacencyMatrix.reverseReduced (n reduced_n : Nat) (m : AdjacencyMatrix) :
    AdjacencyMatrix :=
  (List.range n).map (fun i =>
    vertexMask n (fun j => if i < reduced_n ∧ j < reduced_n then m.get j i else m.get i j))


/-! ## Notions used to state the classification of the children in phase 1 -/

/-- The resolution of a child following the specification.  When the child has at least
`childLayerCompleteAbove` linear extensions the BW map is authoritative: a missing child
counts as resolved `NO`, and a BW record resolved `YES` or `NO` decides.  Otherwise, and when
the BW record is `UNFINISHED`, a record of the old-gen map resolved `YES` or `NO` decides.
In every other case the child is not yet known. -/
def childResolution (cfg : NCT) (childLayerCompleteAbove : Nat) (childMapBW : PosetMap)
    (childMapOld : OldGenMap) (child : AnnotatedPosetObj) (linExt : Nat) : ComparisonStatus :=
  let bw : Option SortableStatus :=
    if linExt ≥ childLayerCompleteAbove then
      match childMapBW.find cfg child with
      | none => some SortableStatus.NO
      | some (shard, index) =>
        some ((childMapBW.Scontainers.getD shard []).getD index PosetObj.new).status
    else none
  let oldGen : Option SortableStatus := (childMapOld.find cfg child).map (fun r => r.status)
  if bw = some SortableStatus.NO then ComparisonStatus.UNSORTABLE
  else if bw = some SortableStatus.YES then ComparisonStatus.SORTABLE
  else if oldGen = some SortableStatus.NO then ComparisonStatus.UNSORTABLE
  else if oldGen = some SortableStatus.YES then ComparisonStatus.SORTABLE
  else ComparisonStatus.INDETERMINATE

/-- The class of the child of `parent` by the edge `k1 → k2` with `lin` linear extensions:
sortable when one of the two early-exit heuristics applies, else its resolution in the BW
map and the old-gen map. -/
def childClass (cfg : NCT) (parentC : Nat) (childLayerCompleteAbove : Nat)
    (childMapBW : PosetMap) (childMapOld : OldGenMap) (parent : AnnotatedPosetObj)
    (lin k1 k2 : Nat) : ComparisonStatus :=
  let rc := remainingComparisonsChild cfg parentC
  let child := ExpandedPosetChild.ofParent cfg parent.poset parent.info lin k1 k2
  if isEasilySortableLinExt rc lin || child.isEasilySortableUnrelatedPairs cfg rc then
    ComparisonStatus.SORTABLE
  else childResolution cfg childLayerCompleteAbove childMapBW childMapOld
    (child.getHandle cfg) lin

/-- The classification of a comparison following the specification, together with the
children that are entered into the child map: `UNSORTABLE` when a child is resolved `NO`,
`SORTABLE` when both children are sortable, and `INDETERMINATE` otherwise, with the children
that are not yet known.  For a comparison of two singletons whose first child is not sortable
by its number of linear extensions the two children are isomorphic and only the first is
examined. -/
def comparisonClass (cfg : NCT) (parentC : Nat) (childLayerCompleteAbove : Nat)
    (childMapBW : PosetMap) (childMapOld : OldGenMap) (parent : AnnotatedPosetObj)
    (c : ComparisonTuple) : ComparisonStatus × List AnnotatedPosetObj :=
  let rc := remainingComparisonsChild cfg parentC
  let first := childClass cfg parentC childLayerCompleteAbove childMapBW childMapOld parent
    c.lin1 c.k1 c.k2
  let second :=
    if c.singletonComp && !isEasilySortableLinExt rc c.lin1 then ComparisonStatus.SORTABLE
    else childClass cfg parentC childLayerCompleteAbove childMapBW childMapOld parent
      c.lin2 c.k2 c.k1
  let firstChild :=
    (ExpandedPosetChild.ofParent cfg parent.poset parent.info c.lin1 c.k1 c.k2).getHandle cfg
  let secondChild :=
    (ExpandedPosetChild.ofParent cfg parent.poset parent.info c.lin2 c.k2 c.k1).getHandle cfg
  if first = ComparisonStatus.UNSORTABLE ∨ second = ComparisonStatus.UNSORTABLE then
    (ComparisonStatus.UNSORTABLE, [])
  else if first = ComparisonStatus.SORTABLE ∧ second = ComparisonStatus.SORTABLE then
    (ComparisonStatus.SORTABLE, [])
  else
    (ComparisonStatus.INDETERMINATE,
      (if first = ComparisonStatus.INDETERMINATE then [firstChild] else []) ++
      (if second = ComparisonStatus.INDETERMINATE then [secondChild] else []))

/-- A state of phase 1 for four elements and five comparisons: the poset list holds the
initial antichain, which is the only parent. -/
def samplePhase1Four : Phase1 :=
  { posetList := (createInitialPosetFW ⟨4, 4, 5⟩).1,
    edgeList := [0],
    childMap := PosetMapExt.new 1 993 (fun _ => false),
    linExtTable := fun _ _ => 0 }

/-- The child of the antichain on four elements by its only feasible comparison, the edge
`0 → 1`: a pair and two singletons, with twelve linear extensions. -/
def sampleChildFour : AnnotatedPosetObj :=
  (ExpandedPosetChild.ofParent ⟨4, 4, 5⟩
    (samplePhase1Four.posetList.getD 0 AnnotatedPosetObj.new).poset
    (samplePhase1Four.posetList.getD 0 AnnotatedPosetObj.new).info 12 0 1).getHandle ⟨4, 4, 5⟩

/-- An old-gen map with one slot that holds `sampleChildFour` resolved as `YES`. -/
def sampleOldGenFour : OldGenMap :=
  (OldGenMap.new 1 (fun _ => PosetObj.new)).insert
    { sampleChildFour with
      poset := { sampleChildFour.poset with status := SortableStatus.YES } }

/-- The counter's result for the antichain on four elements. -/
def sampleCalcFour : Nat × (Nat → Nat → Nat) :=
  (calculateLinExtensionsSingleton ⟨4, 4, 5⟩ 84 (fun _ => 0) (fun _ _ => 0)
    (samplePhase1Four.posetList.getD 0 AnnotatedPosetObj.new).poset
    (samplePhase1Four.posetList.getD 0 AnnotatedPosetObj.new).info 0 true false).getD
      (0, fun _ _ => 0)

/-! ## Theorems -/

theorem isLinExt_iff (edge : Nat → Nat → Bool) (l : List Nat) :
    isLinExt edge l = true ↔ l.Pairwise (fun x y => edge y x = false) := by
  induction l with
  | nil => simp [isLinExt]
  | cons x xs ih =>
    simp only [isLinExt, Bool.and_eq_true, List.all_eq_true, Bool.not_eq_true', List.pairwise_cons, ih]

theorem isLinExt_append (edge : Nat → Nat → Bool) (l1 l2 : List Nat) :
    isLinExt edge (l1 ++ l2) = true ↔
      isLinExt edge l1 = true ∧ isLinExt edge l2 = true ∧
        ∀ x ∈ l1, ∀ y ∈ l2, edge y x = false := by
  simp only [isLinExt_iff, List.pairwise_append]

theorem ext_nodup (edge : Nat → Nat → Bool) (vs : List Nat) (h : vs.Nodup) :
    (vs.permutations.filter (isLinExt edge)).Nodup :=
  (List.nodup_permutations vs h).filter _

theorem mem_ext (edge : Nat → Nat → Bool) (vs l : List Nat) :
    l ∈ vs.permutations.filter (isLinExt edge) ↔ l.Perm vs ∧ isLinExt edge l = true := by
  simp [List.mem_filter, List.mem_permutations]

theorem extCount_eq_card (edge : Nat → Nat → Bool) (vs : List Nat) (h : vs.Nodup) :
    extCount edge vs = (vs.permutations.filter (isLinExt edge)).toFinset.card := by
  rw [List.toFinset_card_of_nodup (ext_nodup edge vs h)]; rfl

theorem ext_last_decomp (edge : Nat → Nat → Bool) (vs : List Nat) (hnd : vs.Nodup)
    (hne : vs ≠ []) :
    (vs.permutations.filter (isLinExt edge)).toFinset =
      (vs.toFinset.filter (fun v => isMaximalIn edge vs v = true)).biUnion
        (fun v => ((vs.erase v).permutations.filter (isLinExt edge)).toFinset.image
          (fun l => l ++ [v])) := by
  ext l
  simp only [List.mem_toFinset, mem_ext, Finset.mem_biUnion, Finset.mem_filter,
    Finset.mem_image]
  constructor
  · rintro ⟨hp, hv⟩
    have hl : l ≠ [] := by
      intro h; subst h; exact hne (List.Perm.nil_eq hp).symm
    obtain ⟨l', v, rfl⟩ : ∃ l' v, l = l' ++ [v] :=
      ⟨l.dropLast, l.getLast hl, (List.dropLast_append_getLast hl).symm⟩
    have hvmem : v ∈ vs := hp.subset (by simp)
    have hp' : l'.Perm (vs.erase v) := by
      have h1 : (v :: l').Perm vs := (List.perm_append_singleton v l').symm.trans hp
      have := h1.erase v
      simpa using this
    rw [isLinExt_append] at hv
    refine ⟨v, ⟨hvmem, ?_⟩, l', ⟨hp', hv.1⟩, rfl⟩
    simp only [isMaximalIn, List.all_eq_true, Bool.or_eq_true, beq_iff_eq, Bool.not_eq_true']
    intro x hx
    by_cases hxv : x = v
    · exact Or.inl hxv
    · right
      have : x ∈ l' := hp'.symm.subset ((List.mem_erase_of_ne hxv).2 hx)
      exact hv.2.2 x this v (by simp)
  · rintro ⟨v, ⟨hvmem, hmax⟩, l', ⟨hp', hv'⟩, rfl⟩
    constructor
    · have h1 : (v :: l').Perm (v :: vs.erase v) := List.Perm.cons v hp'
      exact (List.perm_append_singleton v l').trans (h1.trans (List.perm_cons_erase hvmem).symm)
    · rw [isLinExt_append]
      refine ⟨hv', by simp [isLinExt], ?_⟩
      intro x hx y hy
      simp only [List.mem_singleton] at hy
      subst hy
      simp only [isMaximalIn, List.all_eq_true, Bool.or_eq_true, beq_iff_eq,
        Bool.not_eq_true'] at hmax
      have hxe : x ∈ vs.erase y := hp'.subset hx
      have hxvs : x ∈ vs := List.mem_of_mem_erase hxe
      rcases hmax x hxvs with h | h
      · subst h
        exact absurd hxe (List.Nodup.not_mem_erase hnd)
      · exact h

theorem extCount_last (edge : Nat → Nat → Bool) (vs : List Nat) (hnd : vs.Nodup)
    (hne : vs ≠ []) :
    extCount edge vs =
      ((vs.filter (fun v => isMaximalIn edge vs v)).map
        (fun v => extCount edge (vs.erase v))).sum := by
  rw [extCount_eq_card edge vs hnd, ext_last_decomp edge vs hnd hne, Finset.card_biUnion]
  · rw [← List.toFinset_filter, List.sum_toFinset _ (hnd.filter _)]
    congr 1
    apply List.map_congr_left
    intro v _
    rw [Finset.card_image_of_injective _ (fun a b h => by simpa using h)]
    exact (extCount_eq_card edge _ (hnd.erase v)).symm
  · intro a _ b _ hab
    show Disjoint _ _
    rw [Finset.disjoint_left]
    intro l h1 h2
    simp only [Finset.mem_image] at h1 h2
    obtain ⟨l1, _, rfl⟩ := h1
    obtain ⟨l2, _, h⟩ := h2
    have := List.append_inj' h rfl
    exact hab (by simpa using this.2.symm)

theorem testBit_bool (b : Bool) (j : Nat) :
    (if b then 1 else 0 : Nat).testBit j = (b && decide (j = 0)) := by
  cases b <;> cases j <;> simp [Nat.testBit_succ]

theorem vertexMask_aux (edge : Nat → Bool) (k : Nat) :
    ∀ (s a j : Nat),
      ((List.range' s k).reverse.foldl
        (fun m j => (m <<< 1) ||| (if edge j then 1 else 0)) a).testBit j =
      if j < k then edge (s + j) else a.testBit (j - k) := by
  induction k with
  | zero => intro s a j; simp
  | succ k ih =>
    intro s a j
    rw [List.range'_succ, List.reverse_cons, List.foldl_append, List.foldl_cons, List.foldl_nil,
      Nat.testBit_or, Nat.testBit_shiftLeft, testBit_bool, ih]
    rcases Nat.eq_zero_or_pos j with h0 | hpos
    · subst h0; simp
    · have h1 : j ≠ 0 := by omega
      have h2 : decide (j ≥ 1) = true := by simpa using hpos
      simp only [h1, h2, decide_False, Bool.and_false, Bool.or_false, Bool.true_and]
      by_cases hj : j - 1 < k
      · have : j < k + 1 := by omega
        simp only [hj, this, if_true]
        congr 1; omega
      · have : ¬ j < k + 1 := by omega
        simp only [hj, this, if_false]
        congr 1; omega

theorem vertexMask_testBit (n : Nat) (edge : Nat → Bool) (j : Nat) :
    (vertexMask n edge).testBit j = (decide (j < n) && edge j) := by
  unfold vertexMask
  rw [List.range_eq_range', vertexMask_aux]
  by_cases h : j < n <;> simp [h]

theorem mem_bitsOf (x i : Nat) : i ∈ bitsOf x ↔ i < 32 ∧ x.testBit i = true := by
  simp [bitsOf, List.mem_filter]

theorem bitsOf_nodup (x : Nat) : (bitsOf x).Nodup :=
  (List.nodup_range 32).filter _

theorem bnot32_testBit (x i : Nat) :
    (bnot32 x).testBit i = (decide (i < 32) && !x.testBit i) := by
  unfold bnot32
  rw [Nat.testBit_xor, Nat.testBit_two_pow_sub_one, Nat.testBit_mod_two_pow]
  by_cases h : i < 32 <;> simp [h]

theorem and_eq_zero_iff_testBit (a b : Nat) :
    a &&& b = 0 ↔ ∀ i, ¬ (a.testBit i = true ∧ b.testBit i = true) := by
  constructor
  · intro h i ⟨h1, h2⟩
    have : (a &&& b).testBit i = true := by rw [Nat.testBit_and, h1, h2]; rfl
    rw [h] at this
    simp at this
  · intro h
    apply Nat.eq_of_testBit_eq
    intro i
    rw [Nat.testBit_and, Nat.zero_testBit]
    have := h i
    cases h1 : a.testBit i <;> cases h2 : b.testBit i <;> simp_all

theorem or_eq_self_iff_testBit (s m : Nat) :
    s ||| m = s ↔ ∀ i, m.testBit i = true → s.testBit i = true := by
  constructor
  · intro h i hi
    rw [← h, Nat.testBit_or, hi]; simp
  · intro h
    apply Nat.eq_of_testBit_eq
    intro i
    rw [Nat.testBit_or]
    have := h i
    cases h1 : s.testBit i <;> cases h2 : m.testBit i <;> simp_all

theorem bitsOf_lt (m e : Nat) (he : e ≤ 32) (hm : m < 2 ^ e) :
    bitsOf m = (List.range e).filter (fun i => m.testBit i) := by
  unfold bitsOf
  obtain ⟨d, hd⟩ : ∃ d, 32 = e + d := ⟨32 - e, by omega⟩
  rw [hd, List.range_add, List.filter_append]
  have : List.filter (fun i => m.testBit i) (List.map (fun x => e + x) (List.range d)) = [] := by
    rw [List.filter_eq_nil_iff]
    intro a ha
    simp only [List.mem_map, List.mem_range] at ha
    obtain ⟨x, _, rfl⟩ := ha
    have : m < 2 ^ (e + x) := lt_of_lt_of_le hm (Nat.pow_le_pow_right (by norm_num) (by omega))
    simp [Nat.testBit_lt_two_pow this]
  rw [this, List.append_nil]

theorem bitsOf_or_two_pow (b e : Nat) (he : e < 32) (hb : b < 2 ^ e) :
    bitsOf (b ||| (1 <<< e)) = bitsOf b ++ [e] := by
  have hlt : b ||| (1 <<< e) < 2 ^ (e + 1) := by
    apply Nat.or_lt_two_pow
    · exact lt_of_lt_of_le hb (Nat.pow_le_pow_right (by norm_num) (by omega))
    · rw [Nat.shiftLeft_eq, one_mul]; exact Nat.pow_lt_pow_right (by norm_num) (by omega)
  rw [bitsOf_lt _ (e + 1) (by omega) hlt, bitsOf_lt b e (by omega) hb, List.range_succ,
    List.filter_append]
  congr 1
  · apply List.filter_congr
    intro x hx
    rw [List.mem_range] at hx
    rw [Nat.testBit_or, Nat.shiftLeft_eq, one_mul, Nat.testBit_two_pow]
    have : ¬ e = x := by omega
    simp [this]
  · simp [Nat.testBit_or, Nat.shiftLeft_eq, Nat.testBit_two_pow]

theorem or_two_pow_eq_add (b e : Nat) (hb : b < 2 ^ e) : b ||| (1 <<< e) = 2 ^ e + b := by
  rw [Nat.shiftLeft_eq, one_mul, Nat.lor_comm]
  have := Nat.mul_add_lt_is_or hb 1
  simpa using this.symm

theorem downSets_lt (inM : Nat → Nat) (e m : Nat) (h : m ∈ downSets inM e) : m < 2 ^ e := by
  induction e generalizing m with
  | zero => simp [downSets] at h; simp [h]
  | succ e ih =>
    simp only [downSets, List.mem_append, List.mem_map, List.mem_filter] at h
    rcases h with h | ⟨s, ⟨hs, _⟩, rfl⟩
    · exact lt_of_lt_of_le (ih m h) (Nat.pow_le_pow_right (by norm_num) (by omega))
    · rw [or_two_pow_eq_add s e (ih s hs), Nat.pow_succ]
      have := ih s hs
      omega

theorem downSets_sorted (inM : Nat → Nat) (e : Nat) :
    (downSets inM e).Pairwise (fun a b => a < b) := by
  induction e with
  | zero => simp [downSets]
  | succ e ih =>
    simp only [downSets]
    rw [List.pairwise_append]
    refine ⟨ih, ?_, ?_⟩
    · rw [List.pairwise_map]
      apply (ih.filter _).imp_of_mem
      intro a b ha hb hab
      have ha' := downSets_lt inM e a (List.mem_of_mem_filter ha)
      have hb' := downSets_lt inM e b (List.mem_of_mem_filter hb)
      rw [or_two_pow_eq_add a e ha', or_two_pow_eq_add b e hb']
      omega
    · intro a ha b hb
      simp only [List.mem_map, List.mem_filter] at hb
      obtain ⟨s, ⟨hs, _⟩, rfl⟩ := hb
      rw [or_two_pow_eq_add s e (downSets_lt inM e s hs)]
      have := downSets_lt inM e a ha
      omega

theorem downSets_nodup (inM : Nat → Nat) (e : Nat) : (downSets inM e).Nodup :=
  (downSets_sorted inM e).imp (fun h => Nat.ne_of_lt h)

theorem mem_downSets {edge : Nat → Nat → Bool} {n : Nat} {inM outM : Nat → Nat}
    (hs : MaskSpec edge n inM outM) (e : Nat) (he : e ≤ n) (m : Nat) :
    m ∈ downSets inM e ↔ m < 2 ^ e ∧ ClosedSet edge m := by
  induction e generalizing m with
  | zero =>
    simp only [downSets, List.mem_singleton, pow_zero, Nat.lt_one_iff]
    constructor
    · rintro rfl; exact ⟨rfl, fun u v _ h => by simp at h⟩
    · exact fun h => h.1
  | succ e ih =>
    have he' : e ≤ n := by omega
    simp only [downSets, List.mem_append, List.mem_map, List.mem_filter, decide_eq_true_eq]
    constructor
    · rintro (h | ⟨s, ⟨hs1, hs2⟩, rfl⟩)
      · have := (ih he' m).1 h
        exact ⟨lt_of_lt_of_le this.1 (Nat.pow_le_pow_right (by norm_num) (by omega)), this.2⟩
      · have hsl := ((ih he' s).1 hs1)
        refine ⟨downSets_lt inM (e + 1) _ ?_, ?_⟩
        · simp only [downSets, List.mem_append, List.mem_map, List.mem_filter,
            decide_eq_true_eq]
          exact Or.inr ⟨s, ⟨hs1, hs2⟩, rfl⟩
        · intro u v huv hv
          rw [Nat.testBit_or, Nat.shiftLeft_eq, one_mul, Nat.testBit_two_pow] at hv ⊢
          rw [Bool.or_eq_true] at hv ⊢
          rcases hv with hv | hv
          · exact Or.inl (hsl.2 u v huv hv)
          · left
            have hev : e = v := by simpa using hv
            subst hev
            apply (or_eq_self_iff_testBit s (inM e)).1 hs2
            rw [hs.hin]
            have := hs.hfwd u e huv
            simp [huv]; omega
    · rintro ⟨hlt, hcl⟩
      by_cases hb : m.testBit e = true
      · right
        refine ⟨m % 2 ^ e, ⟨(ih he' _).2 ⟨Nat.mod_lt _ (by positivity), ?_⟩, ?_⟩, ?_⟩
        · intro u v huv hv
          rw [Nat.testBit_mod_two_pow] at hv ⊢
          simp only [Bool.and_eq_true, decide_eq_true_eq] at hv ⊢
          have := hs.hfwd u v huv
          exact ⟨by omega, hcl u v huv hv.2⟩
        · rw [or_eq_self_iff_testBit]
          intro i hi
          rw [hs.hin] at hi
          simp only [Bool.and_eq_true, decide_eq_true_eq] at hi
          rw [Nat.testBit_mod_two_pow]
          have := hs.hfwd i e hi.2
          simp only [Bool.and_eq_true, decide_eq_true_eq]
          exact ⟨this, hcl i e hi.2 hb⟩
        · apply Nat.eq_of_testBit_eq
          intro i
          rw [Nat.testBit_or, Nat.testBit_mod_two_pow, Nat.shiftLeft_eq, one_mul,
            Nat.testBit_two_pow]
          by_cases hie : i < e
          · have : ¬ e = i := by omega
            simp [hie, this]
          · by_cases hie2 : e = i
            · subst hie2; simp [hb]
            · have : m < 2 ^ i := lt_of_lt_of_le hlt (Nat.pow_le_pow_right (by norm_num) (by omega))
              simp [hie, hie2, Nat.testBit_lt_two_pow this]
      · left
        apply (ih he' m).2
        refine ⟨?_, hcl⟩
        apply Nat.lt_pow_two_of_testBit
        intro i hi
        by_cases hie : i = e
        · subst hie; simpa using hb
        · exact Nat.testBit_lt_two_pow
            (lt_of_lt_of_le hlt (Nat.pow_le_pow_right (by norm_num) (by omega)))

theorem testBit_one_shiftLeft (i x : Nat) : (1 <<< i).testBit x = decide (i = x) := by
  rw [Nat.shiftLeft_eq, one_mul, Nat.testBit_two_pow]

theorem testBit_clear (cur i x : Nat) :
    (cur &&& bnot32 (1 <<< i)).testBit x = (cur.testBit x && (decide (x < 32) && decide (x ≠ i))) := by
  rw [Nat.testBit_and, bnot32_testBit, testBit_one_shiftLeft]
  by_cases h : i = x
  · subst h; simp
  · have : x ≠ i := fun h' => h h'.symm
    simp [h, this]

theorem extCount_congr (edge : Nat → Nat → Bool) (vs vs' : List Nat) (h : vs.Perm vs') :
    extCount edge vs = extCount edge vs' := by
  unfold extCount
  apply List.Perm.length_eq
  exact (List.Perm.permutations h).filter _

theorem extCount_nil (edge : Nat → Nat → Bool) : extCount edge [] = 1 := by
  simp [extCount, isLinExt]

theorem extCount_of_mem_iff (edge : Nat → Nat → Bool) (vs vs' : List Nat) (h1 : vs.Nodup)
    (h2 : vs'.Nodup) (h : ∀ x, x ∈ vs ↔ x ∈ vs') : extCount edge vs = extCount edge vs' :=
  extCount_congr edge vs vs' ((List.perm_ext_iff_of_nodup h1 h2).2 h)

theorem extCount_bits_step {edge : Nat → Nat → Bool} {n : Nat} {inM outM : Nat → Nat}
    (hs : MaskSpec edge n inM outM) (b e : Nat) (he : e < n) (hb : b < 2 ^ e) :
    extCount edge (bitsOf (b ||| (1 <<< e))) =
      extCount edge (bitsOf b) +
        (((bitsOf b).filter (fun i =>
            decide (((b ||| (1 <<< e)) &&& bnot32 (1 <<< i)) &&& outM i = 0))).map
          (fun i => extCount edge (bitsOf ((b ||| (1 <<< e)) &&& bnot32 (1 <<< i))))).sum := by
  have he32 : e < 32 := lt_trans he hs.hn
  have hvs := bitsOf_or_two_pow b e he32 hb
  have hnd : (bitsOf b ++ [e]).Nodup := hvs ▸ bitsOf_nodup _
  have hmemb : ∀ x, x ∈ bitsOf b → x < e := by
    intro x hx
    rw [bitsOf_lt b e (by omega) hb, List.mem_filter, List.mem_range] at hx
    exact hx.1
  have hcur : ∀ x, x ∈ bitsOf b ++ [e] ↔ x < 32 ∧ (b ||| (1 <<< e)).testBit x = true := by
    intro x; rw [← hvs, mem_bitsOf]
  rw [hvs, extCount_last edge _ hnd (by simp), List.filter_append, List.map_append,
    List.sum_append]
  have hmax_e : isMaximalIn edge (bitsOf b ++ [e]) e = true := by
    simp only [isMaximalIn, List.all_eq_true, Bool.or_eq_true, beq_iff_eq, Bool.not_eq_true']
    intro x hx
    rw [List.mem_append, List.mem_singleton] at hx
    rcases hx with hx | hx
    · right
      have := hmemb x hx
      cases h : edge e x
      · rfl
      · have := hs.hfwd e x h; omega
    · exact Or.inl hx
  have herase_e : (bitsOf b ++ [e]).erase e = bitsOf b := by
    have hnot : e ∉ bitsOf b := fun h => by have := hmemb e h; omega
    rw [List.erase_append_right _ hnot]; simp
  simp only [List.filter_cons, hmax_e, if_true, List.filter_nil, List.map_cons, List.map_nil,
    List.sum_cons, List.sum_nil, add_zero, herase_e]
  rw [Nat.add_comm]
  congr 1
  have hfilter : (bitsOf b).filter (fun v => isMaximalIn edge (bitsOf b ++ [e]) v) =
      (bitsOf b).filter (fun i =>
        decide (((b ||| (1 <<< e)) &&& bnot32 (1 <<< i)) &&& outM i = 0)) := by
    apply List.filter_congr
    intro i hi
    have hie := hmemb i hi
    rw [Bool.eq_iff_iff, decide_eq_true_eq, and_eq_zero_iff_testBit]
    unfold isMaximalIn
    rw [List.all_eq_true]
    constructor
    · intro h x hx
      obtain ⟨hx1, hx2⟩ := hx
      rw [testBit_clear] at hx1
      rw [hs.hout] at hx2
      simp only [Bool.and_eq_true, decide_eq_true_eq] at hx1 hx2
      have := h x ((hcur x).2 ⟨hx1.2.1, hx1.1⟩)
      simp only [Bool.or_eq_true, beq_iff_eq, Bool.not_eq_true'] at this
      rcases this with h' | h'
      · exact hx1.2.2 h'
      · rw [h'] at hx2; exact Bool.false_ne_true hx2.2
    · intro h x hx
      simp only [Bool.or_eq_true, beq_iff_eq, Bool.not_eq_true']
      by_cases hxi : x = i
      · exact Or.inl hxi
      · right
        have hx' := (hcur x).1 hx
        have hxn : x < n := by
          rw [List.mem_append, List.mem_singleton] at hx
          rcases hx with hx | hx
          · have := hmemb x hx; omega
          · omega
        cases hed : edge i x
        · rfl
        · exfalso
          apply h x
          rw [testBit_clear, hs.hout]
          simp only [Bool.and_eq_true, decide_eq_true_eq]
          exact ⟨⟨hx'.2, hx'.1, hxi⟩, hxn, hed⟩
  rw [hfilter]
  congr 1
  apply List.map_congr_left
  intro i hi
  have hi' := List.mem_of_mem_filter hi
  apply extCount_of_mem_iff edge _ _ (hnd.erase i) (bitsOf_nodup _)
  intro x
  rw [hnd.mem_erase_iff, hcur, mem_bitsOf, testBit_clear]
  simp only [Bool.and_eq_true, decide_eq_true_eq]
  tauto

theorem fwdVisit_fold_sets (w : Nat) (inM outM : Nat → Nat) (e : Nat) (bs : List Nat) :
    ∀ st : FwdState, (bs.foldl (fwdVisit w inM outM e) st).sets =
      st.sets ++ (bs.filter (fun s => s ||| inM e = s)).map (fun s => s ||| (1 <<< e)) := by
  induction bs with
  | nil => intro st; simp
  | cons b bs ih =>
    intro st
    rw [List.foldl_cons, ih]
    by_cases hb : b ||| inM e = b
    · simp [fwdVisit, hb, List.filter_cons]
    · simp [fwdVisit, hb, List.filter_cons]

/-- The inner `while` loop only changes the cell of `curSet`. -/
theorem addPredecessors_fold (w : Nat) (outM : Nat → Nat) (curSet : Nat) (is : List Nat)
    (hne : ∀ i ∈ is, curSet &&& bnot32 (1 <<< i) ≠ curSet) :
    ∀ d : Nat → Nat, d curSet < 2 ^ w →
      (is.foldl (fun d i =>
        let preCurSet := curSet &&& bnot32 (1 <<< i)
        if preCurSet &&& outM i = 0 then
          setCell d curSet ((d curSet + d preCurSet) % 2 ^ w)
        else d) d) =
      setCell d curSet ((d curSet +
        ((is.filter (fun i => decide ((curSet &&& bnot32 (1 <<< i)) &&& outM i = 0))).map
          (fun i => d (curSet &&& bnot32 (1 <<< i)))).sum) % 2 ^ w) := by
  induction is with
  | nil =>
    intro d hd
    funext x
    simp only [List.foldl_nil, List.filter_nil, List.map_nil, List.sum_nil, add_zero, setCell]
    split
    · next h => subst h; exact (Nat.mod_eq_of_lt hd).symm
    · rfl
  | cons i is ih =>
    intro d hd
    have hne' : ∀ j ∈ is, curSet &&& bnot32 (1 <<< j) ≠ curSet :=
      fun j hj => hne j (List.mem_cons_of_mem _ hj)
    have hi := hne i (List.mem_cons_self _ _)
    rw [List.foldl_cons]
    by_cases ht : (curSet &&& bnot32 (1 <<< i)) &&& outM i = 0
    · simp only [ht, if_true]
      rw [ih hne' _ (by simp only [setCell, if_true]; exact Nat.mod_lt _ (by positivity))]
      funext x
      simp only [setCell, List.filter_cons, ht, decide_True, if_true, List.map_cons,
        List.sum_cons]
      split
      · have hmap : (List.map (fun j => if curSet &&& bnot32 (1 <<< j) = curSet then
              (d curSet + d (curSet &&& bnot32 (1 <<< i))) % 2 ^ w
              else d (curSet &&& bnot32 (1 <<< j)))
            (List.filter (fun i => decide ((curSet &&& bnot32 (1 <<< i)) &&& outM i = 0)) is)) =
            (List.map (fun j => d (curSet &&& bnot32 (1 <<< j)))
            (List.filter (fun i => decide ((curSet &&& bnot32 (1 <<< i)) &&& outM i = 0)) is)) := by
          apply List.map_congr_left
          intro j hj
          rw [if_neg (hne' j (List.mem_of_mem_filter hj))]
        rw [hmap, Nat.add_mod, Nat.mod_mod, ← Nat.add_mod, Nat.add_assoc]
      · rfl
    · simp only [ht, if_false]
      rw [ih hne' d hd]
      simp [List.filter_cons, ht]

theorem clear_props {edge : Nat → Nat → Bool} {n : Nat} {inM outM : Nat → Nat}
    (hs : MaskSpec edge n inM outM) (e : Nat) (he : e < n) (b : Nat)
    (hb : b ∈ downSets inM e) (htb : b ||| inM e = b) (i : Nat) (hi : i ∈ bitsOf b)
    (hti : ((b ||| (1 <<< e)) &&& bnot32 (1 <<< i)) &&& outM i = 0) :
    (b ||| (1 <<< e)) &&& bnot32 (1 <<< i) = (b &&& bnot32 (1 <<< i)) ||| (1 <<< e) ∧
    (b &&& bnot32 (1 <<< i)) ∈ downSets inM e ∧
    (b &&& bnot32 (1 <<< i)) ||| inM e = b &&& bnot32 (1 <<< i) ∧
    b &&& bnot32 (1 <<< i) < b := by
  have he32 : e < 32 := lt_trans he hs.hn
  have hbl := downSets_lt inM e b hb
  have hbc := ((mem_downSets hs e (by omega) b).1 hb).2
  have hib : b.testBit i = true := ((mem_bitsOf b i).1 hi).2
  have hie : i < e := by
    rw [bitsOf_lt b e (by omega) hbl, List.mem_filter, List.mem_range] at hi
    exact hi.1
  rw [and_eq_zero_iff_testBit] at hti
  have hno : ∀ x, x < n → edge i x = true → x ≠ i →
      (b ||| (1 <<< e)).testBit x = true → False := by
    intro x hxn hed hxi hx
    apply hti x
    rw [testBit_clear, hs.hout]
    have hx32 : x < 32 := by have := hs.hn; omega
    simp [hx, hxn, hed, hxi, hx32]
  have hlt : b &&& bnot32 (1 <<< i) < 2 ^ e := lt_of_le_of_lt Nat.and_le_left hbl
  refine ⟨?_, ?_, ?_, ?_⟩
  · apply Nat.eq_of_testBit_eq
    intro x
    rw [testBit_clear, Nat.testBit_or, Nat.testBit_or, testBit_clear, testBit_one_shiftLeft]
    by_cases hxe : e = x
    · subst hxe
      have : e ≠ i := by omega
      simp [he32, this]
    · simp [hxe]
  · rw [mem_downSets hs e (by omega)]
    refine ⟨hlt, ?_⟩
    intro u v huv hv
    rw [testBit_clear] at hv ⊢
    simp only [Bool.and_eq_true, decide_eq_true_eq] at hv ⊢
    have huv' := hs.hfwd u v huv
    refine ⟨hbc u v huv hv.1, by omega, ?_⟩
    intro hui
    subst hui
    have hvn : v < n := by
      have : v < e := by
        by_contra hc
        have : b < 2 ^ v := lt_of_lt_of_le hbl (Nat.pow_le_pow_right (by norm_num) (by omega))
        rw [Nat.testBit_lt_two_pow this] at hv
        exact Bool.false_ne_true hv.1
      omega
    exact hno v hvn huv hv.2.2 (by rw [Nat.testBit_or, hv.1]; rfl)
  · rw [or_eq_self_iff_testBit] at htb ⊢
    intro u hu
    have hbu := htb u hu
    rw [hs.hin] at hu
    simp only [Bool.and_eq_true, decide_eq_true_eq] at hu
    rw [testBit_clear]
    simp only [Bool.and_eq_true, decide_eq_true_eq]
    have hue := hs.hfwd u e hu.2
    refine ⟨hbu, by omega, ?_⟩
    intro hui
    subst hui
    exact hno e he hu.2 (by omega) (by rw [Nat.testBit_or, testBit_one_shiftLeft]; simp)
  · apply lt_of_le_of_ne Nat.and_le_left
    intro h
    have : (b &&& bnot32 (1 <<< i)).testBit i = true := by rw [h]; exact hib
    rw [testBit_clear] at this
    simp at this

theorem mem_prefix_of_sorted (done rest : List Nat) (b b' : Nat)
    (hsorted : (done ++ b :: rest).Pairwise (fun x y => x < y))
    (hmem : b' ∈ done ++ b :: rest) (hlt : b' < b) : b' ∈ done := by
  rw [List.mem_append, List.mem_cons] at hmem
  rcases hmem with h | h | h
  · exact h
  · omega
  · rw [List.pairwise_append] at hsorted
    have := (List.pairwise_cons.1 hsorted.2.1).1 b' h
    omega

theorem sum_map_mod (l : List Nat) (f : Nat → Nat) (k : Nat) :
    (l.map (fun i => f i % k)).sum % k = (l.map f).sum % k := by
  induction l with
  | nil => rfl
  | cons a l ih =>
    simp only [List.map_cons, List.sum_cons]
    rw [Nat.add_mod, ih, Nat.mod_mod, ← Nat.add_mod]

/-- One pass of `for (j = 0; j < lastEnd; j++)`: every `downVal` written is the number of
orderings of the set, reduced modulo `2 ^ w`. -/
theorem fwd_block {edge : Nat → Nat → Bool} {n : Nat} {inM outM : Nat → Nat}
    (hs : MaskSpec edge n inM outM) (w e : Nat) (he : e < n) :
    ∀ (rest done : List Nat) (st : FwdState),
      done ++ rest = downSets inM e →
      st.sets = downSets inM e ++
        (done.filter (fun s => s ||| inM e = s)).map (fun s => s ||| (1 <<< e)) →
      (∀ m ∈ st.sets, st.down m = extCount edge (bitsOf m) % 2 ^ w) →
      ∀ m ∈ (rest.foldl (fwdVisit w inM outM e) st).sets,
        (rest.foldl (fwdVisit w inM outM e) st).down m = extCount edge (bitsOf m) % 2 ^ w := by
  have he32 : e < 32 := lt_trans he hs.hn
  intro rest
  induction rest with
  | nil => intro done st _ _ hd; simpa using hd
  | cons b rest ih =>
    intro done st hsplit hsets hd
    rw [List.foldl_cons]
    have hsplit' : (done ++ [b]) ++ rest = downSets inM e := by simpa using hsplit
    have hbD : b ∈ downSets inM e := by rw [← hsplit]; simp
    have hbl := downSets_lt inM e b hbD
    by_cases htb : b ||| inM e = b
    · apply ih (done ++ [b]) _ hsplit'
      · simp [fwdVisit, htb, hsets, List.filter_append]
      · have hsorted := downSets_sorted inM e
        rw [← hsplit] at hsorted
        have hnd := downSets_nodup inM e
        rw [← hsplit] at hnd
        have hbdone : b ∉ done := by
          intro hc
          have := (List.nodup_append.1 hnd).2.2
          exact this hc (List.mem_cons_self _ _)
        have hfresh : b ||| (1 <<< e) ∉ st.sets := by
          rw [hsets, List.mem_append]
          rintro (hc | hc)
          · have := downSets_lt inM e _ hc
            rw [or_two_pow_eq_add b e hbl] at this
            omega
          · simp only [List.mem_map, List.mem_filter] at hc
            obtain ⟨s, ⟨hs1, _⟩, hs3⟩ := hc
            have hsl : s < 2 ^ e := downSets_lt inM e s (by rw [← hsplit]; simp [hs1])
            rw [or_two_pow_eq_add b e hbl, or_two_pow_eq_add s e hsl] at hs3
            have : s = b := by omega
            exact hbdone (this ▸ hs1)
        have hbst : b ∈ st.sets := by rw [hsets]; simp [hbD]
        have hpre : ∀ i ∈ (bitsOf b).filter (fun i =>
            decide (((b ||| (1 <<< e)) &&& bnot32 (1 <<< i)) &&& outM i = 0)),
            (b ||| (1 <<< e)) &&& bnot32 (1 <<< i) ∈ st.sets := by
          intro i hi
          rw [List.mem_filter, decide_eq_true_eq] at hi
          obtain ⟨h1, h2, h3, h4⟩ := clear_props hs e he b hbD htb i hi.1 hi.2
          rw [h1, hsets, List.mem_append]
          right
          simp only [List.mem_map, List.mem_filter, decide_eq_true_eq]
          refine ⟨_, ⟨?_, h3⟩, rfl⟩
          exact mem_prefix_of_sorted done rest b _ hsorted (by rw [hsplit]; exact h2) h4
        have hne : ∀ i ∈ bitsOf b, (b ||| (1 <<< e)) &&& bnot32 (1 <<< i) ≠ b ||| (1 <<< e) := by
          intro i hi hc
          have hie : i < e := by
            rw [bitsOf_lt b e (by omega) hbl, List.mem_filter, List.mem_range] at hi
            exact hi.1
          have : ((b ||| (1 <<< e)) &&& bnot32 (1 <<< i)).testBit i = true := by
            rw [hc, Nat.testBit_or, ((mem_bitsOf b i).1 hi).2]; rfl
          rw [testBit_clear] at this
          simp at this
        have hdl : (bitsOf (b ||| (1 <<< e))).dropLast = bitsOf b := by
          rw [bitsOf_or_two_pow b e he32 hbl, List.dropLast_concat]
        intro m hm
        simp only [fwdVisit, htb, if_true] at hm ⊢
        unfold addPredecessors
        rw [hdl, addPredecessors_fold w outM _ (bitsOf b) hne _ (by
          simp only [setCell, if_true]; rw [hd b hbst]; exact Nat.mod_lt _ (by positivity))]
        rw [List.mem_append, List.mem_singleton] at hm
        by_cases hmc : m = b ||| (1 <<< e)
        · subst hmc
          simp only [setCell, if_true]
          have hmap : (List.map (fun i =>
              if (b ||| (1 <<< e)) &&& bnot32 (1 <<< i) = b ||| (1 <<< e) then st.down b
              else st.down ((b ||| (1 <<< e)) &&& bnot32 (1 <<< i)))
              ((bitsOf b).filter (fun i =>
                decide (((b ||| (1 <<< e)) &&& bnot32 (1 <<< i)) &&& outM i = 0)))) =
              (List.map (fun i =>
                extCount edge (bitsOf ((b ||| (1 <<< e)) &&& bnot32 (1 <<< i))) % 2 ^ w)
              ((bitsOf b).filter (fun i =>
                decide (((b ||| (1 <<< e)) &&& bnot32 (1 <<< i)) &&& outM i = 0)))) := by
            apply List.map_congr_left
            intro i hi
            rw [if_neg (hne i (List.mem_of_mem_filter hi))]
            exact hd _ (hpre i hi)
          rw [hmap, hd b hbst, Nat.add_mod, Nat.mod_mod, sum_map_mod, ← Nat.add_mod,
            extCount_bits_step hs b e he hbl]
        · rcases hm with hm | hm
          · simp only [setCell, if_neg hmc]
            exact hd m hm
          · exact absurd hm hmc
    · apply ih (done ++ [b]) _ hsplit'
      · simp [fwdVisit, htb, hsets, List.filter_append]
      · simpa [fwdVisit, htb] using hd

theorem fwdLoop_spec {edge : Nat → Nat → Bool} {n : Nat} {inM outM : Nat → Nat}
    (hs : MaskSpec edge n inM outM) (w MAXN alloc : Nat) :
    ∀ (k e : Nat) (st : FwdState), e + k = n → st.sets = downSets inM e →
      (∀ m ∈ st.sets, st.down m = extCount edge (bitsOf m) % 2 ^ w) →
      ((∃ e', e ≤ e' ∧ e' < n ∧ alloc / 2 ≤ (downSets inM e').length) ∧
        fwdLoop w MAXN alloc false inM outM (List.range' e k) st = FwdResult.aborted) ∨
      ((∀ e', e ≤ e' → e' < n → (downSets inM e').length < alloc / 2) ∧
        ∃ st', fwdLoop w MAXN alloc false inM outM (List.range' e k) st = FwdResult.done st' ∧
          st'.sets = downSets inM n ∧
          ∀ m ∈ st'.sets, st'.down m = extCount edge (bitsOf m) % 2 ^ w) := by
  intro k
  induction k with
  | zero =>
    intro e st hek hsets hd
    right
    have : e = n := by omega
    subst this
    exact ⟨fun e' h1 h2 => by omega, st, rfl, hsets, hd⟩
  | succ k ih =>
    intro e st hek hsets hd
    have he : e < n := by omega
    rw [List.range'_succ]
    by_cases hg : alloc / 2 ≤ (downSets inM e).length
    · left
      refine ⟨⟨e, le_refl _, he, hg⟩, ?_⟩
      simp only [fwdLoop, hsets, ge_iff_le, hg, if_true]
    · have hstep : fwdLoop w MAXN alloc false inM outM (e :: List.range' (e + 1) k) st =
          fwdLoop w MAXN alloc false inM outM (List.range' (e + 1) k)
            (st.sets.foldl (fwdVisit w inM outM e) st) := by
        simp only [fwdLoop, hsets, ge_iff_le, hg, if_false, Bool.false_and]
        rfl
      rw [hstep]
      have hsets' : (st.sets.foldl (fwdVisit w inM outM e) st).sets = downSets inM (e + 1) := by
        rw [fwdVisit_fold_sets, hsets]; rfl
      have hd' := fwd_block hs w e he st.sets [] st (by simp [hsets]) (by simp [hsets]) hd
      rcases ih (e + 1) _ (by omega) hsets' hd' with ⟨⟨e', h1, h2, h3⟩, h4⟩ | ⟨h1, h2⟩
      · left
        exact ⟨⟨e', by omega, h2, h3⟩, h4⟩
      · right
        refine ⟨?_, h2⟩
        intro e' h3 h4
        rcases Nat.eq_or_lt_of_le h3 with h5 | h5
        · subst h5; omega
        · exact h1 e' h5 h4

theorem is_edge_lt (MAXN : Nat) (p : PosetObj) (j k : Nat) (h : p.is_edge MAXN j k = true) :
    j < k := by
  unfold PosetObj.is_edge at h
  by_contra hc
  have : j ≥ k := by omega
  simp [this] at h

theorem maskSpec_poset (MAXN : Nat) (p : PosetObj) (n : Nat) (hn : n < 32) :
    MaskSpec (p.is_edge MAXN) n (inVertexMask MAXN p n) (outVertexMask MAXN p n) where
  hin := fun v u => by unfold inVertexMask; rw [vertexMask_testBit]
  hout := fun v u => by unfold outVertexMask; rw [vertexMask_testBit]
  hfwd := is_edge_lt MAXN p
  hn := hn

theorem isDownSet_iff {edge : Nat → Nat → Bool} (hfwd : ∀ j k, edge j k = true → j < k)
    (e m : Nat) (hm : m < 2 ^ e) : isDownSet edge e m = true ↔ ClosedSet edge m := by
  unfold isDownSet ClosedSet
  simp only [List.all_eq_true, List.mem_range, Bool.or_eq_true, Bool.not_eq_true']
  constructor
  · intro h u v huv hv
    have hve : v < e := by
      by_contra hc
      have : m < 2 ^ v := lt_of_lt_of_le hm (Nat.pow_le_pow_right (by norm_num) (by omega))
      rw [Nat.testBit_lt_two_pow this] at hv
      exact Bool.false_ne_true hv
    rcases h v hve with h1 | h1
    · rw [h1] at hv; exact absurd hv Bool.false_ne_true
    · rcases h1 u (hfwd u v huv) with h2 | h2
      · rw [h2] at huv; exact absurd huv Bool.false_ne_true
      · exact h2
  · intro h v _
    cases hv : m.testBit v
    · exact Or.inl rfl
    · right
      intro u _
      cases huv : edge u v
      · exact Or.inl rfl
      · exact Or.inr (h u v huv hv)

theorem downSets_length {edge : Nat → Nat → Bool} {n : Nat} {inM outM : Nat → Nat}
    (hs : MaskSpec edge n inM outM) (e : Nat) (he : e ≤ n) :
    (downSets inM e).length = downSetCount edge e := by
  unfold downSetCount
  apply List.Perm.length_eq
  rw [List.perm_ext_iff_of_nodup (downSets_nodup inM e) ((List.nodup_range _).filter _)]
  intro m
  rw [mem_downSets hs e he, List.mem_filter, List.mem_range]
  constructor
  · rintro ⟨h1, h2⟩; exact ⟨h1, (isDownSet_iff hs.hfwd e m h1).2 h2⟩
  · rintro ⟨h1, h2⟩; exact ⟨h1, (isDownSet_iff hs.hfwd e m h1).1 h2⟩

theorem extCount_le_factorial (edge : Nat → Nat → Bool) (vs : List Nat) :
    extCount edge vs ≤ vs.length.factorial := by
  unfold extCount
  calc (vs.permutations.filter (isLinExt edge)).length
      ≤ vs.permutations.length := List.length_filter_le _ _
    _ = vs.length.factorial := List.length_permutations vs

theorem bitsOf_full (n : Nat) (hn : n ≤ 32) : bitsOf (2 ^ n - 1) = List.range n := by
  rw [bitsOf_lt (2 ^ n - 1) n hn (Nat.sub_lt (by positivity) (by norm_num))]
  rw [List.filter_eq_self]
  intro a ha
  rw [List.mem_range] at ha
  simp [ha]

theorem set1_eq (n : Nat) (hn : n < 32) :
    ((1 <<< n) % 2 ^ 32 + 2 ^ 32 - 1) % 2 ^ 32 = 2 ^ n - 1 := by
  rw [Nat.shiftLeft_eq, one_mul]
  have h1 : 2 ^ n < 2 ^ 32 := Nat.pow_lt_pow_right (by norm_num) hn
  have h2 : 0 < 2 ^ n := by positivity
  rw [Nat.mod_eq_of_lt h1]
  have : 2 ^ n + 2 ^ 32 - 1 = (2 ^ n - 1) + 2 ^ 32 := by omega
  rw [this, Nat.add_mod_right, Nat.mod_eq_of_lt (by omega)]

theorem full_mem_downSets {edge : Nat → Nat → Bool} {n : Nat} {inM outM : Nat → Nat}
    (hs : MaskSpec edge n inM outM) : 2 ^ n - 1 ∈ downSets inM n := by
  rw [mem_downSets hs n (le_refl _)]
  refine ⟨Nat.sub_lt (by positivity) (by norm_num), ?_⟩
  intro u v huv hv
  rw [Nat.testBit_two_pow_sub_one] at hv ⊢
  have := hs.hfwd u v huv
  simp only [decide_eq_true_eq] at hv ⊢
  omega

theorem factorial_lt_linExtT (NUMEL n : Nat) (hn : n ≤ NUMEL) (hN : NUMEL ≤ 32) :
    n.factorial < 2 ^ linExtTBits NUMEL := by
  unfold linExtTBits
  by_cases h : NUMEL ≤ 20
  · rw [if_pos h]
    calc n.factorial ≤ (20 : Nat).factorial := Nat.factorial_le (by omega)
      _ < 2 ^ 64 := by decide
  · rw [if_neg h, if_pos (by omega : NUMEL ≤ 33)]
    calc n.factorial ≤ (32 : Nat).factorial := Nat.factorial_le (by omega)
      _ < 2 ^ 128 := by decide

/-- The forward sweep started by `calculateLinExtensionsNew`: it aborts exactly when some
end node finds the set array half full, and otherwise leaves in `downVal` of every downset
its number of orderings modulo `2 ^ w`. -/
theorem fwdLoop_poset (w MAXN alloc : Nat) (down0 : Nat → Nat) (poset : PosetObj) (n : Nat)
    (hn : n < 32) :
    ((¬ ∀ e, e < n → downSetCount (poset.is_edge MAXN) e < alloc / 2) ∧
      fwdLoop w MAXN alloc false (inVertexMask MAXN poset n) (outVertexMask MAXN poset n)
        (List.range n) { sets := [0], down := setCell down0 0 (1 % 2 ^ w) } =
          FwdResult.aborted) ∨
    ((∀ e, e < n → downSetCount (poset.is_edge MAXN) e < alloc / 2) ∧
      ∃ st', fwdLoop w MAXN alloc false (inVertexMask MAXN poset n)
          (outVertexMask MAXN poset n) (List.range n)
          { sets := [0], down := setCell down0 0 (1 % 2 ^ w) } = FwdResult.done st' ∧
        st'.sets = downSets (inVertexMask MAXN poset n) n ∧
        ∀ m ∈ st'.sets, st'.down m = extCount (poset.is_edge MAXN) (bitsOf m) % 2 ^ w) := by
  have hs := maskSpec_poset MAXN poset n hn
  have h0 : ∀ m ∈ ({ sets := [0], down := setCell down0 0 (1 % 2 ^ w) } : FwdState).sets,
      ({ sets := [0], down := setCell down0 0 (1 % 2 ^ w) } : FwdState).down m =
        extCount (poset.is_edge MAXN) (bitsOf m) % 2 ^ w := by
    intro m hm
    simp only [List.mem_singleton] at hm
    subst hm
    have : bitsOf 0 = [] := by
      unfold bitsOf; rw [List.filter_eq_nil_iff]; intro a _; simp
    simp [setCell, this, extCount_nil]
  rw [List.range_eq_range']
  rcases fwdLoop_spec hs w MAXN alloc n 0 _ (by omega) rfl h0 with
    ⟨⟨e', _, h2, h3⟩, h4⟩ | ⟨h1, h2⟩
  · left
    refine ⟨?_, h4⟩
    intro hc
    have := hc e' h2
    rw [← downSets_length hs e' (by omega)] at this
    omega
  · right
    refine ⟨?_, h2⟩
    intro e he
    rw [← downSets_length hs e (by omega)]
    exact h1 e (by omega) he

theorem calc_fst (w MAXN alloc : Nat) (down0 up0 : Nat → Nat) (poset : PosetObj)
    (fillTable : Bool) (n : Nat) (hn : n < 32) :
    (calculateLinExtensionsNew w MAXN alloc false down0 up0 poset fillTable n).map Prod.fst =
      if ∀ e, e < n → downSetCount (poset.is_edge MAXN) e < alloc / 2 then
        some (bruteForceLinExt (poset.is_edge MAXN) n % 2 ^ w)
      else none := by
  have hs := maskSpec_poset MAXN poset n hn
  unfold calculateLinExtensionsNew
  simp only [set1_eq n hn]
  rcases fwdLoop_poset w MAXN alloc down0 poset n hn with ⟨h1, h2⟩ | ⟨h1, st', h2, h3, h4⟩
  · rw [h2, if_neg h1]; rfl
  · rw [h2, if_pos h1]
    have hfull : st'.down (2 ^ n - 1) = bruteForceLinExt (poset.is_edge MAXN) n % 2 ^ w := by
      rw [h4 _ (h3 ▸ full_mem_downSets hs), bitsOf_full n (by omega)]; rfl
    cases fillTable <;> simp [hfull]

/-- Claim C3 (amended): on a build with `NUMEL < 25`, for `n ≤ NUMEL` vertices and any content
of the scratch memory, `calculateLinExtensionsNew` on the wide value type returns exactly the
number of topological orderings that the brute-force enumerator counts for the DAG stored in
the `PosetObj`, provided that for every `e < n` the number of downsets of the first `e`
vertices is below `allocatedMemorySize / 2`; otherwise the capacity guard stops the call. -/
theorem calculateLinExtensionsNew_count (NUMEL alloc : Nat) (down0 up0 : Nat → Nat)
    (poset : PosetObj) (fillTable : Bool) (n : Nat) (hn : n ≤ NUMEL) (hN : NUMEL < 25) :
    (calculateLinExtensionsNew (linExtTBits NUMEL) NUMEL alloc false down0 up0 poset fillTable
        n).map Prod.fst =
      if ∀ e, e < n → downSetCount (poset.is_edge NUMEL) e < alloc / 2 then
        some (bruteForceLinExt (poset.is_edge NUMEL) n)
      else none := by
  rw [calc_fst _ _ _ _ _ _ _ _ (by omega)]
  have hb : bruteForceLinExt (poset.is_edge NUMEL) n < 2 ^ linExtTBits NUMEL := by
    calc bruteForceLinExt (poset.is_edge NUMEL) n
        ≤ (List.range n).length.factorial := extCount_le_factorial _ _
      _ = n.factorial := by rw [List.length_range]
      _ < 2 ^ linExtTBits NUMEL := factorial_lt_linExtT NUMEL n hn (by omega)
  rw [Nat.mod_eq_of_lt hb]

theorem ext_first_decomp (edge : Nat → Nat → Bool) (vs : List Nat) (hnd : vs.Nodup)
    (hne : vs ≠ []) :
    (vs.permutations.filter (isLinExt edge)).toFinset =
      (vs.toFinset.filter (fun v => isMinimalIn edge vs v = true)).biUnion
        (fun v => ((vs.erase v).permutations.filter (isLinExt edge)).toFinset.image
          (fun l => v :: l)) := by
  ext l
  simp only [List.mem_toFinset, mem_ext, Finset.mem_biUnion, Finset.mem_filter,
    Finset.mem_image]
  constructor
  · rintro ⟨hp, hv⟩
    cases l with
    | nil => exact absurd (List.Perm.nil_eq hp).symm hne
    | cons v l' =>
      have hvmem : v ∈ vs := hp.subset (by simp)
      have hp' : l'.Perm (vs.erase v) := by
        have := hp.erase v
        simpa using this
      simp only [isLinExt, Bool.and_eq_true, List.all_eq_true, Bool.not_eq_true'] at hv
      refine ⟨v, ⟨hvmem, ?_⟩, l', ⟨hp', hv.2⟩, rfl⟩
      simp only [isMinimalIn, List.all_eq_true, Bool.or_eq_true, beq_iff_eq,
        Bool.not_eq_true']
      intro x hx
      by_cases hxv : x = v
      · exact Or.inl hxv
      · right
        have : x ∈ l' := hp'.symm.subset ((List.mem_erase_of_ne hxv).2 hx)
        exact hv.1 x this
  · rintro ⟨v, ⟨hvmem, hmin⟩, l', ⟨hp', hv'⟩, rfl⟩
    constructor
    · exact (List.Perm.cons v hp').trans (List.perm_cons_erase hvmem).symm
    · simp only [isLinExt, Bool.and_eq_true, List.all_eq_true, Bool.not_eq_true']
      refine ⟨?_, hv'⟩
      intro x hx
      simp only [isMinimalIn, List.all_eq_true, Bool.or_eq_true, beq_iff_eq,
        Bool.not_eq_true'] at hmin
      have hxe : x ∈ vs.erase v := hp'.subset hx
      rcases hmin x (List.mem_of_mem_erase hxe) with h | h
      · subst h
        exact absurd hxe (List.Nodup.not_mem_erase hnd)
      · exact h

theorem extCount_first (edge : Nat → Nat → Bool) (vs : List Nat) (hnd : vs.Nodup)
    (hne : vs ≠ []) :
    extCount edge vs =
      ((vs.filter (fun v => isMinimalIn edge vs v)).map
        (fun v => extCount edge (vs.erase v))).sum := by
  rw [extCount_eq_card edge vs hnd, ext_first_decomp edge vs hnd hne, Finset.card_biUnion]
  · rw [← List.toFinset_filter, List.sum_toFinset _ (hnd.filter _)]
    congr 1
    apply List.map_congr_left
    intro v _
    rw [Finset.card_image_of_injective _ (fun a b h => by simpa using h)]
    exact (extCount_eq_card edge _ (hnd.erase v)).symm
  · intro a _ b _ hab
    show Disjoint _ _
    rw [Finset.disjoint_left]
    intro l h1 h2
    simp only [Finset.mem_image] at h1 h2
    obtain ⟨l1, _, rfl⟩ := h1
    obtain ⟨l2, _, h⟩ := h2
    exact hab (by simpa using (List.cons_eq_cons.1 h).1.symm)

theorem testBit_comp (n S x : Nat) (hn : n ≤ 32) :
    (bnot32 S &&& (2 ^ n - 1)).testBit x = (decide (x < n) && !S.testBit x) := by
  rw [Nat.testBit_and, bnot32_testBit, Nat.testBit_two_pow_sub_one]
  by_cases h : x < n
  · have : x < 32 := by omega
    simp [h, this]
  · simp [h]

theorem mem_bitsOf_comp (n S x : Nat) (hn : n ≤ 32) :
    x ∈ bitsOf (bnot32 S &&& (2 ^ n - 1)) ↔ x < n ∧ S.testBit x = false := by
  rw [mem_bitsOf, testBit_comp n S x hn]
  simp only [Bool.and_eq_true, decide_eq_true_eq, Bool.not_eq_true']
  constructor
  · rintro ⟨_, h⟩; exact h
  · intro h; exact ⟨by omega, h⟩

theorem comp_ne_nil (n S : Nat) (hn : n ≤ 32) (hS : S < 2 ^ n) (hne : S ≠ 2 ^ n - 1) :
    bitsOf (bnot32 S &&& (2 ^ n - 1)) ≠ [] := by
  intro hnil
  apply hne
  apply Nat.eq_of_testBit_eq
  intro x
  rw [Nat.testBit_two_pow_sub_one]
  by_cases hx : x < n
  · have : x ∉ bitsOf (bnot32 S &&& (2 ^ n - 1)) := by rw [hnil]; simp
    rw [mem_bitsOf_comp n S x hn] at this
    simp only [hx, true_and, Bool.not_eq_false] at this
    simp [hx, this]
  · have : S < 2 ^ x := lt_of_lt_of_le hS (Nat.pow_le_pow_right (by norm_num) (by omega))
    simp [hx, Nat.testBit_lt_two_pow this]

theorem upCount_step {edge : Nat → Nat → Bool} {n : Nat} {inM outM : Nat → Nat}
    (hs : MaskSpec edge n inM outM) (S : Nat) (hS : S < 2 ^ n) (hne : S ≠ 2 ^ n - 1) :
    extCount edge (bitsOf (bnot32 S &&& (2 ^ n - 1))) =
      (((bitsOf (bnot32 S &&& (2 ^ n - 1))).filter (fun i => decide (S ||| inM i = S))).map
        (fun i => extCount edge (bitsOf (bnot32 (S ||| (1 <<< i)) &&& (2 ^ n - 1))))).sum := by
  have hn32 : n ≤ 32 := le_of_lt hs.hn
  rw [extCount_first edge _ (bitsOf_nodup _) (comp_ne_nil n S hn32 hS hne)]
  have hfilter : (bitsOf (bnot32 S &&& (2 ^ n - 1))).filter
        (fun v => isMinimalIn edge (bitsOf (bnot32 S &&& (2 ^ n - 1))) v) =
      (bitsOf (bnot32 S &&& (2 ^ n - 1))).filter (fun i => decide (S ||| inM i = S)) := by
    apply List.filter_congr
    intro i hi
    rw [Bool.eq_iff_iff, decide_eq_true_eq, or_eq_self_iff_testBit]
    unfold isMinimalIn
    rw [List.all_eq_true]
    constructor
    · intro h u hu
      rw [hs.hin] at hu
      simp only [Bool.and_eq_true, decide_eq_true_eq] at hu
      by_contra hc
      have hmem : u ∈ bitsOf (bnot32 S &&& (2 ^ n - 1)) := by
        rw [mem_bitsOf_comp n S u hn32]
        exact ⟨hu.1, by simpa using hc⟩
      have := h u hmem
      simp only [Bool.or_eq_true, beq_iff_eq, Bool.not_eq_true'] at this
      rcases this with h' | h'
      · subst h'
        have := hs.hfwd u u hu.2
        omega
      · rw [h'] at hu; exact Bool.false_ne_true hu.2
    · intro h x hx
      simp only [Bool.or_eq_true, beq_iff_eq, Bool.not_eq_true']
      by_cases hxi : x = i
      · exact Or.inl hxi
      · right
        rw [mem_bitsOf_comp n S x hn32] at hx
        cases hed : edge x i
        · rfl
        · exfalso
          have := h x (by rw [hs.hin]; simp [hx.1, hed])
          rw [hx.2] at this
          exact Bool.false_ne_true this
  rw [hfilter]
  congr 1
  apply List.map_congr_left
  intro i _
  apply extCount_of_mem_iff edge _ _ ((bitsOf_nodup _).erase i) (bitsOf_nodup _)
  intro x
  rw [(bitsOf_nodup _).mem_erase_iff, mem_bitsOf_comp n S x hn32, mem_bitsOf_comp n _ x hn32,
    Nat.testBit_or, testBit_one_shiftLeft]
  simp only [Bool.or_eq_false_iff, decide_eq_false_iff_not]
  constructor
  · rintro ⟨h1, h2, h3⟩; exact ⟨h2, h3, fun h => h1 h.symm⟩
  · rintro ⟨h1, h2, h3⟩; exact ⟨fun h => h3 h.symm, h1, h2⟩

theorem setCell_same (f : Nat → Nat) (a v : Nat) : setCell f a v a = v := by
  unfold setCell; exact if_pos rfl

theorem setCell_other (f : Nat → Nat) (a v x : Nat) (h : x ≠ a) : setCell f a v x = f x := by
  unfold setCell; exact if_neg h

theorem bwdVertex_fold (w n : Nat) (inM down : Nat → Nat) (S : Nat) :
    ∀ (is : List Nat) (st : BwdState), is.Nodup → (∀ i ∈ is, S ||| (1 <<< i) ≠ S) →
      st.up S < 2 ^ w →
      (is.foldl (bwdVertex w n inM down S) st).up =
        setCell st.up S ((st.up S +
          ((is.filter (fun i => decide (S ||| inM i = S))).map
            (fun i => st.up (S ||| (1 <<< i)))).sum) % 2 ^ w) ∧
      ∀ a b, (is.foldl (bwdVertex w n inM down S) st).t a b =
        if a ∈ is ∧ S ||| inM a = S ∧ a < b ∧ b < n ∧ (S ||| (1 <<< a)).testBit b = false then
          (st.t a b + (down S * st.up (S ||| (1 <<< a))) % 2 ^ w) % 2 ^ w
        else st.t a b := by
  intro is
  induction is with
  | nil =>
    intro st _ _ hup
    refine ⟨?_, fun a b => by simp⟩
    funext x
    simp only [List.foldl_nil, List.filter_nil, List.map_nil, List.sum_nil, add_zero, setCell]
    split
    · next h => subst h; exact (Nat.mod_eq_of_lt hup).symm
    · rfl
  | cons i is ih =>
    intro st hnd hne hup
    have hnd' := (List.nodup_cons.1 hnd).2
    have hi_not : i ∉ is := (List.nodup_cons.1 hnd).1
    have hne' : ∀ j ∈ is, S ||| (1 <<< j) ≠ S := fun j hj => hne j (List.mem_cons_of_mem _ hj)
    have hi := hne i (List.mem_cons_self _ _)
    rw [List.foldl_cons]
    by_cases ht : S ||| inM i = S
    · have hst1 : bwdVertex w n inM down S st i =
          { up := setCell st.up S ((st.up S + st.up (S ||| (1 <<< i))) % 2 ^ w),
            t := addProduct w n i (S ||| (1 <<< i))
              ((down S * st.up (S ||| (1 <<< i))) % 2 ^ w) st.t } := by
        unfold bwdVertex
        simp only [if_pos ht]
        have hcell : setCell st.up S ((st.up S + st.up (S ||| (1 <<< i))) % 2 ^ w)
            (S ||| (1 <<< i)) = st.up (S ||| (1 <<< i)) := by
          unfold setCell; exact if_neg hi
        rw [hcell]
      rw [hst1]
      obtain ⟨h1, h2⟩ := ih (BwdState.mk
            (setCell st.up S ((st.up S + st.up (S ||| (1 <<< i))) % 2 ^ w))
            (addProduct w n i (S ||| (1 <<< i))
              ((down S * st.up (S ||| (1 <<< i))) % 2 ^ w) st.t)) hnd' hne' (by
        show setCell st.up S _ S < 2 ^ w
        rw [setCell_same]; exact Nat.mod_lt _ (by positivity))
      refine ⟨?_, ?_⟩
      · rw [h1]
        funext x
        simp only [setCell, List.filter_cons, ht, decide_True, if_true, List.map_cons,
          List.sum_cons]
        split
        · have hmap : (List.map (fun j => if S ||| (1 <<< j) = S then
                (st.up S + st.up (S ||| (1 <<< i))) % 2 ^ w else st.up (S ||| (1 <<< j)))
              (List.filter (fun i => decide (S ||| inM i = S)) is)) =
              (List.map (fun j => st.up (S ||| (1 <<< j)))
              (List.filter (fun i => decide (S ||| inM i = S)) is)) := by
            apply List.map_congr_left
            intro j hj
            rw [if_neg (hne' j (List.mem_of_mem_filter hj))]
          rw [hmap, Nat.add_mod, Nat.mod_mod, ← Nat.add_mod, Nat.add_assoc]
        · rfl
      · intro a b
        rw [h2]
        by_cases hai : a = i
        · subst hai
          have : ¬ (a ∈ is ∧ S ||| inM a = S ∧ a < b ∧ b < n ∧
              (S ||| (1 <<< a)).testBit b = false) := fun h => hi_not h.1
          rw [if_neg this]
          simp only [addProduct, List.mem_cons, true_or, true_and, ht]
        · have hmem : (a ∈ i :: is) ↔ a ∈ is := by simp [hai]
          simp only [addProduct, hai, false_and, if_false, hmem, setCell,
            if_neg (show ¬ (S ||| (1 <<< a) = S ∧ a ∈ is) from fun h => hne' a h.2 h.1)]
          by_cases hc : a ∈ is
          · simp only [hc, true_and, if_neg (hne' a hc)]
          · simp only [hc, false_and, if_false]
    · have hst1 : bwdVertex w n inM down S st i = st := by
        unfold bwdVertex
        simp only [if_neg ht]
      rw [hst1]
      obtain ⟨h1, h2⟩ := ih st hnd' hne' hup
      refine ⟨?_, ?_⟩
      · rw [h1]; simp [List.filter_cons, ht]
      · intro a b
        rw [h2]
        by_cases hai : a = i
        · subst hai
          simp [hi_not, ht]
        · simp [hai]

theorem mod_arith (A B X m : Nat) :
    (X % m + (A % m * (B % m)) % m) % m = (A * B + X) % m := by
  rw [← Nat.mul_mod, Nat.add_comm]
  exact (Nat.add_mod _ _ _).symm

theorem mem_suffix_of_sorted (front back : List Nat) (S p : Nat)
    (hsorted : (front ++ S :: back).Pairwise (fun x y => x < y))
    (hmem : p ∈ front ++ S :: back) (hlt : S < p) : p ∈ back := by
  rw [List.mem_append, List.mem_cons] at hmem
  rcases hmem with h | h | h
  · rw [List.pairwise_append] at hsorted
    have := hsorted.2.2 p h S (List.mem_cons_self _ _)
    omega
  · omega
  · exact h

theorem succ_mem_downSets {edge : Nat → Nat → Bool} {n : Nat} {inM outM : Nat → Nat}
    (hs : MaskSpec edge n inM outM) (S i : Nat) (hS : S ∈ downSets inM n)
    (hi : i ∈ bitsOf (bnot32 S &&& (2 ^ n - 1))) (ht : S ||| inM i = S) :
    S ||| (1 <<< i) ∈ downSets inM n ∧ S < S ||| (1 <<< i) := by
  have hn32 : n ≤ 32 := le_of_lt hs.hn
  rw [mem_bitsOf_comp n S i hn32] at hi
  have hSp := (mem_downSets hs n (le_refl _) S).1 hS
  constructor
  · rw [mem_downSets hs n (le_refl _)]
    constructor
    · apply Nat.or_lt_two_pow hSp.1
      rw [Nat.shiftLeft_eq, one_mul]
      exact Nat.pow_lt_pow_right (by norm_num) hi.1
    · intro u v huv hv
      rw [Nat.testBit_or, testBit_one_shiftLeft] at hv ⊢
      rw [Bool.or_eq_true] at hv ⊢
      left
      rcases hv with hv | hv
      · exact hSp.2 u v huv hv
      · have hiv : i = v := by simpa using hv
        subst hiv
        apply (or_eq_self_iff_testBit S (inM i)).1 ht
        rw [hs.hin]
        have := hs.hfwd u i huv
        simp [huv]; omega
  · apply Nat.lt_of_testBit i hi.2
    · rw [Nat.testBit_or, testBit_one_shiftLeft]; simp
    · intro j hj
      rw [Nat.testBit_or, testBit_one_shiftLeft]
      have : ¬ i = j := by omega
      simp [this]

theorem contrib_cond_iff (n S a : Nat) (hn : n ≤ 32) :
    a ∈ bitsOf (bnot32 S &&& (2 ^ n - 1)) ↔ (bnot32 S &&& (2 ^ n - 1)).testBit a = true := by
  rw [mem_bitsOf]
  constructor
  · exact fun h => h.2
  · intro h
    refine ⟨?_, h⟩
    rw [testBit_comp n S a hn] at h
    simp only [Bool.and_eq_true, decide_eq_true_eq] at h
    omega

theorem bwd_visit_inv {edge : Nat → Nat → Bool} {n : Nat} {inM outM : Nat → Nat}
    (hs : MaskSpec edge n inM outM) (w : Nat) (down : Nat → Nat)
    (hdown : ∀ m ∈ downSets inM n, down m = extCount edge (bitsOf m) % 2 ^ w)
    (front back : List Nat) (S : Nat) (st : BwdState)
    (hsplit : front ++ S :: back = downSets inM n) (hfull : 2 ^ n - 1 ∈ back)
    (hup : ∀ T ∈ back, st.up T = extCount edge (bitsOf (bnot32 T &&& (2 ^ n - 1))) % 2 ^ w)
    (ht : ∀ a b, st.t a b = (back.map (fun T => contrib edge n inM T a b)).sum % 2 ^ w) :
    (∀ T ∈ S :: back, (bwdVisit w n inM down (2 ^ n - 1) st S).up T =
        extCount edge (bitsOf (bnot32 T &&& (2 ^ n - 1))) % 2 ^ w) ∧
    ∀ a b, (bwdVisit w n inM down (2 ^ n - 1) st S).t a b =
      ((S :: back).map (fun T => contrib edge n inM T a b)).sum % 2 ^ w := by
  have hn32 : n ≤ 32 := le_of_lt hs.hn
  have hsorted := downSets_sorted inM n
  rw [← hsplit] at hsorted
  have hnd := downSets_nodup inM n
  rw [← hsplit] at hnd
  have hSD : S ∈ downSets inM n := by rw [← hsplit]; simp
  have hSlt := downSets_lt inM n S hSD
  have hSback : S ∉ back := by
    have := (List.nodup_append.1 hnd).2.1
    exact (List.nodup_cons.1 this).1
  have hSne : S ≠ 2 ^ n - 1 := fun h => hSback (h ▸ hfull)
  have hne : ∀ i ∈ bitsOf (bnot32 S &&& (2 ^ n - 1)), S ||| (1 <<< i) ≠ S := by
    intro i hi h
    rw [mem_bitsOf_comp n S i hn32] at hi
    have : (S ||| (1 <<< i)).testBit i = true := by
      rw [Nat.testBit_or, testBit_one_shiftLeft]; simp
    rw [h, hi.2] at this
    exact Bool.false_ne_true this
  have hpre : ∀ i ∈ bitsOf (bnot32 S &&& (2 ^ n - 1)), S ||| inM i = S →
      S ||| (1 <<< i) ∈ back := by
    intro i hi hti
    obtain ⟨h1, h2⟩ := succ_mem_downSets hs S i hSD hi hti
    exact mem_suffix_of_sorted front back S _ hsorted (by rw [hsplit]; exact h1) h2
  obtain ⟨h1, h2⟩ := bwdVertex_fold w n inM down S (bitsOf (bnot32 S &&& (2 ^ n - 1)))
    (BwdState.mk (setCell st.up S 0) st.t) (bitsOf_nodup _) hne (by
      show setCell st.up S 0 S < 2 ^ w
      rw [setCell_same]; positivity)
  have hv : bwdVisit w n inM down (2 ^ n - 1) st S =
      (bitsOf (bnot32 S &&& (2 ^ n - 1))).foldl (bwdVertex w n inM down S)
        (BwdState.mk (setCell st.up S 0) st.t) := rfl
  rw [hv]
  constructor
  · intro T hT
    rw [h1]
    by_cases hTS : T = S
    · subst hTS
      rw [setCell_same]
      simp only [setCell_same, zero_add]
      have hmap : (List.map (fun i => setCell st.up T 0 (T ||| (1 <<< i)))
          ((bitsOf (bnot32 T &&& (2 ^ n - 1))).filter (fun i => decide (T ||| inM i = T)))) =
          (List.map (fun i =>
            extCount edge (bitsOf (bnot32 (T ||| (1 <<< i)) &&& (2 ^ n - 1))) % 2 ^ w)
          ((bitsOf (bnot32 T &&& (2 ^ n - 1))).filter (fun i => decide (T ||| inM i = T)))) := by
        apply List.map_congr_left
        intro i hi
        rw [List.mem_filter, decide_eq_true_eq] at hi
        rw [setCell_other _ _ _ _ (hne i hi.1)]
        exact hup _ (hpre i hi.1 hi.2)
      rw [hmap, sum_map_mod, upCount_step hs T hSlt hSne]
    · rw [setCell_other _ _ _ _ hTS]
      rcases List.mem_cons.1 hT with h | h
      · exact absurd h hTS
      · show setCell st.up S 0 T = _
        rw [setCell_other _ _ _ _ hTS]
        exact hup T h
  · intro a b
    rw [h2, List.map_cons, List.sum_cons]
    show (if a ∈ bitsOf (bnot32 S &&& (2 ^ n - 1)) ∧ S ||| inM a = S ∧ a < b ∧ b < n ∧
        (S ||| (1 <<< a)).testBit b = false then
        (st.t a b + (down S * setCell st.up S 0 (S ||| (1 <<< a))) % 2 ^ w) % 2 ^ w
      else st.t a b) = _
    have hcS : contrib edge n inM S a b =
        if (bnot32 S &&& (2 ^ n - 1)).testBit a = true ∧ S ||| inM a = S ∧ a < b ∧ b < n ∧
            (S ||| (1 <<< a)).testBit b = false then
          extCount edge (bitsOf S) *
            extCount edge (bitsOf (bnot32 (S ||| (1 <<< a)) &&& (2 ^ n - 1)))
        else 0 := rfl
    rw [hcS]
    simp only [contrib_cond_iff n S a hn32]
    by_cases hc : (bnot32 S &&& (2 ^ n - 1)).testBit a = true ∧ S ||| inM a = S ∧ a < b ∧
        b < n ∧ (S ||| (1 <<< a)).testBit b = false
    · rw [if_pos hc, if_pos hc]
      have hamem := (contrib_cond_iff n S a hn32).2 hc.1
      rw [setCell_other _ _ _ _ (hne a hamem), hup _ (hpre a hamem hc.2.1), hdown S hSD, ht a b]
      exact mod_arith _ _ _ _
    · rw [if_neg hc, if_neg hc, zero_add]
      exact ht a b

theorem bwd_loop {edge : Nat → Nat → Bool} {n : Nat} {inM outM : Nat → Nat}
    (hs : MaskSpec edge n inM outM) (w : Nat) (down : Nat → Nat)
    (hdown : ∀ m ∈ downSets inM n, down m = extCount edge (bitsOf m) % 2 ^ w) :
    ∀ (front back : List Nat) (st : BwdState),
      front ++ back = downSets inM n → 2 ^ n - 1 ∈ back →
      (∀ T ∈ back, st.up T = extCount edge (bitsOf (bnot32 T &&& (2 ^ n - 1))) % 2 ^ w) →
      (∀ a b, st.t a b = (back.map (fun T => contrib edge n inM T a b)).sum % 2 ^ w) →
      ∀ a b, (front.reverse.foldl (bwdVisit w n inM down (2 ^ n - 1)) st).t a b =
        ((downSets inM n).map (fun T => contrib edge n inM T a b)).sum % 2 ^ w := by
  intro front
  induction front using List.reverseRecOn with
  | nil =>
    intro back st hsplit _ _ ht a b
    simp only [List.nil_append] at hsplit
    rw [← hsplit]
    exact ht a b
  | append_singleton front S ih =>
    intro back st hsplit hfull hup ht
    have hsplit' : front ++ S :: back = downSets inM n := by simpa using hsplit
    obtain ⟨h1, h2⟩ := bwd_visit_inv hs w down hdown front back S st hsplit' hfull hup ht
    rw [List.reverse_append, List.reverse_singleton, List.singleton_append, List.foldl_cons]
    exact ih (S :: back) _ hsplit' (List.mem_cons_of_mem _ hfull) h1 h2

theorem downSets_getLast {edge : Nat → Nat → Bool} {n : Nat} {inM outM : Nat → Nat}
    (hs : MaskSpec edge n inM outM) :
    (downSets inM n).dropLast ++ [2 ^ n - 1] = downSets inM n := by
  have hne : downSets inM n ≠ [] := List.ne_nil_of_mem (full_mem_downSets hs)
  have hlast : (downSets inM n).getLast hne = 2 ^ n - 1 := by
    have hmem := full_mem_downSets hs
    have hsorted := downSets_sorted inM n
    have hl := List.getLast_mem hne
    have hl_lt := downSets_lt inM n _ hl
    by_contra hc
    have hlt : (downSets inM n).getLast hne < 2 ^ n - 1 := by omega
    rw [← List.dropLast_append_getLast hne] at hsorted hmem
    rw [List.mem_append, List.mem_singleton] at hmem
    rcases hmem with h | h
    · rw [List.pairwise_append] at hsorted
      have := hsorted.2.2 _ h _ (List.mem_singleton_self _)
      omega
    · omega
  conv_rhs => rw [← List.dropLast_append_getLast hne, hlast]

theorem contrib_full (edge : Nat → Nat → Bool) (n : Nat) (inM : Nat → Nat) (a b : Nat)
    (hn : n ≤ 32) : contrib edge n inM (2 ^ n - 1) a b = 0 := by
  unfold contrib
  rw [if_neg]
  intro h
  have := h.1
  rw [testBit_comp n _ a hn, Nat.testBit_two_pow_sub_one] at this
  simp at this

/-- The table left by the backward sweep, entry by entry. -/
theorem calc_table (w MAXN alloc : Nat) (down0 up0 : Nat → Nat) (poset : PosetObj) (n : Nat)
    (hn : n < 32) (r : Nat × (Nat → Nat → Nat))
    (hr : calculateLinExtensionsNew w MAXN alloc false down0 up0 poset true n = some r) :
    ∀ a b, r.2 a b =
      ((downSets (inVertexMask MAXN poset n) n).map
        (fun T => contrib (poset.is_edge MAXN) n (inVertexMask MAXN poset n) T a b)).sum %
          2 ^ w := by
  have hs := maskSpec_poset MAXN poset n hn
  unfold calculateLinExtensionsNew at hr
  simp only [set1_eq n hn] at hr
  rcases fwdLoop_poset w MAXN alloc down0 poset n hn with ⟨_, h2⟩ | ⟨_, st', h2, h3, h4⟩
  · rw [h2] at hr; exact absurd hr (by simp)
  · rw [h2] at hr
    simp only [if_true, Option.some.injEq] at hr
    subst hr
    intro a b
    simp only
    rw [h3]
    apply bwd_loop hs w st'.down (fun m hm => h4 m (h3 ▸ hm)) _ [2 ^ n - 1] _
      (downSets_getLast hs) (List.mem_singleton_self _)
    · intro T hT
      rw [List.mem_singleton] at hT
      subst hT
      show setCell up0 (2 ^ n - 1) (1 % 2 ^ w) (2 ^ n - 1) = _
      rw [setCell_same]
      have : bitsOf (bnot32 (2 ^ n - 1) &&& (2 ^ n - 1)) = [] := by
        rw [List.eq_nil_iff_forall_not_mem]
        intro x hx
        rw [mem_bitsOf_comp n _ x (by omega), Nat.testBit_two_pow_sub_one] at hx
        simp at hx
        omega
      rw [this, extCount_nil]
    · intro a b
      simp [contrib_full _ _ _ _ _ (show n ≤ 32 by omega)]

theorem maskOf_testBit (l : List Nat) (x : Nat) : (maskOf l).testBit x = decide (x ∈ l) := by
  induction l with
  | nil => simp [maskOf]
  | cons y l ih =>
    have : maskOf (y :: l) = maskOf l ||| (1 <<< y) := rfl
    rw [this, Nat.testBit_or, ih, testBit_one_shiftLeft]
    by_cases h1 : x ∈ l <;> by_cases h2 : y = x
    · simp [h1, h2]
    · simp [h1, h2]
    · subst h2; simp [h1]
    · have : ¬ x = y := fun h => h2 h.symm
      simp [h1, h2, this]

theorem split_at_first (a : Nat) (l : List Nat) (ha : a ∈ l) :
    ∃ l2, l = l.takeWhile (fun x => x != a) ++ a :: l2 := by
  induction l with
  | nil => simp at ha
  | cons y l ih =>
    by_cases hy : y = a
    · subst hy
      exact ⟨l, by simp⟩
    · have hmem : a ∈ l := by
        rcases List.mem_cons.1 ha with h | h
        · exact absurd h.symm hy
        · exact h
      obtain ⟨l2, hl2⟩ := ih hmem
      refine ⟨l2, ?_⟩
      have : (y != a) = true := by simpa using hy
      rw [List.takeWhile_cons, this]
      simp only [if_true, List.cons_append]
      rw [← hl2]

theorem not_mem_takeWhile (a : Nat) (l : List Nat) :
    a ∉ l.takeWhile (fun x => x != a) := by
  intro h
  have := List.mem_takeWhile_imp h
  simp at this

theorem takeWhile_split (a : Nat) (l1 l2 : List Nat) (h : a ∉ l1) :
    (l1 ++ a :: l2).takeWhile (fun x => x != a) = l1 := by
  induction l1 with
  | nil => simp
  | cons y l1 ih =>
    have hy : y ≠ a := fun hc => h (hc ▸ List.mem_cons_self _ _)
    have h' : a ∉ l1 := fun hc => h (List.mem_cons_of_mem _ hc)
    have : (y != a) = true := by simpa using hy
    rw [List.cons_append, List.takeWhile_cons, this]
    simp only [if_true]
    rw [ih h']

theorem indexOf_split_lt (a b : Nat) (l1 l2 : List Nat) (ha : a ∉ l1) (hab : a ≠ b) :
    (l1 ++ a :: l2).indexOf a < (l1 ++ a :: l2).indexOf b ↔ b ∉ l1 := by
  rw [List.indexOf_append_of_not_mem ha, List.indexOf_cons_self, add_zero]
  constructor
  · intro h hb
    rw [List.indexOf_append_of_mem hb] at h
    have := List.indexOf_lt_length.2 hb
    omega
  · intro hb
    rw [List.indexOf_append_of_not_mem hb, List.indexOf_cons_ne _ hab]
    omega

theorem mem_bitsOf_of_lt (T x n : Nat) (hn : n ≤ 32) (hT : T < 2 ^ n) :
    x ∈ bitsOf T ↔ T.testBit x = true := by
  rw [mem_bitsOf]
  constructor
  · exact fun h => h.2
  · intro h
    refine ⟨?_, h⟩
    by_contra hc
    have : T < 2 ^ x := lt_of_lt_of_le hT (Nat.pow_le_pow_right (by norm_num) (by omega))
    rw [Nat.testBit_lt_two_pow this] at h
    exact Bool.false_ne_true h

theorem fiber_props {edge : Nat → Nat → Bool} {n : Nat} {inM outM : Nat → Nat}
    (hs : MaskSpec edge n inM outM) (a b : Nat) (ha : a < n) (hab : a ≠ b)
    (l : List Nat) (hp : l.Perm (List.range n)) (hv : isLinExt edge l = true)
    (hidx : l.indexOf a < l.indexOf b) :
    prefixMask a l ∈ downSets inM n ∧ (prefixMask a l).testBit a = false ∧
    (prefixMask a l).testBit b = false ∧ prefixMask a l ||| inM a = prefixMask a l ∧
    ∃ l2, l = l.takeWhile (fun x => x != a) ++ a :: l2 ∧
      (l.takeWhile (fun x => x != a)).Perm (bitsOf (prefixMask a l)) ∧
      isLinExt edge (l.takeWhile (fun x => x != a)) = true ∧
      l2.Perm (bitsOf (bnot32 (prefixMask a l ||| (1 <<< a)) &&& (2 ^ n - 1))) ∧
      isLinExt edge l2 = true := by
  have hn32 : n ≤ 32 := le_of_lt hs.hn
  have hmem : ∀ x, x ∈ l ↔ x < n := fun x => by rw [hp.mem_iff, List.mem_range]
  have hnd : l.Nodup := hp.nodup_iff.2 (List.nodup_range n)
  obtain ⟨l2, hl2⟩ := split_at_first a l ((hmem a).2 ha)
  have hnot := not_mem_takeWhile a l
  generalize hl1 : l.takeWhile (fun x => x != a) = l1 at hl2 hnot
  have hT : prefixMask a l = maskOf l1 := by unfold prefixMask; rw [hl1]
  rw [hT]
  rw [hl2] at hnd hv hidx
  have hmem' : ∀ x, x ∈ l1 ∨ x = a ∨ x ∈ l2 ↔ x < n := by
    intro x; rw [← hmem x, hl2]; simp
  rw [isLinExt_append] at hv
  obtain ⟨hv1, hv2, hv3⟩ := hv
  have hv2' := hv2
  simp only [isLinExt, Bool.and_eq_true, List.all_eq_true, Bool.not_eq_true'] at hv2'
  have hb1 : b ∉ l1 := (indexOf_split_lt a b l1 l2 hnot hab).1 hidx
  have hnd1 : l1.Nodup := (List.nodup_append.1 hnd).1
  have hnd2 : l2.Nodup := (List.nodup_cons.1 (List.nodup_append.1 hnd).2.1).2
  have ha2 : a ∉ l2 := (List.nodup_cons.1 (List.nodup_append.1 hnd).2.1).1
  have hdisj : ∀ x, x ∈ l1 → x ∉ l2 := fun x h1 h2 =>
    (List.nodup_append.1 hnd).2.2 h1 (List.mem_cons_of_mem _ h2)
  have hTlt : maskOf l1 < 2 ^ n := by
    apply Nat.lt_pow_two_of_testBit
    intro i hi
    rw [maskOf_testBit]
    simp only [decide_eq_false_iff_not]
    intro hc
    have := (hmem' i).1 (Or.inl hc)
    omega
  have hcl : ClosedSet edge (maskOf l1) := by
    intro u v huv hv'
    rw [maskOf_testBit] at hv' ⊢
    simp only [decide_eq_true_eq] at hv' ⊢
    by_contra hu
    have hun : u < n := by
      have := hs.hfwd u v huv
      have := (hmem' v).1 (Or.inl hv')
      omega
    have := hv3 v hv' u (by
      rcases (hmem' u).2 hun with h | h | h
      · exact absurd h hu
      · rw [h]; exact List.mem_cons_self _ _
      · exact List.mem_cons_of_mem _ h)
    rw [this] at huv
    exact Bool.false_ne_true huv
  refine ⟨(mem_downSets hs n (le_refl _) _).2 ⟨hTlt, hcl⟩, ?_, ?_, ?_, l2, hl2, ?_, hv1, ?_,
    hv2'.2⟩
  · rw [maskOf_testBit]; simpa using hnot
  · rw [maskOf_testBit]; simpa using hb1
  · rw [or_eq_self_iff_testBit]
    intro u hu
    rw [hs.hin] at hu
    simp only [Bool.and_eq_true, decide_eq_true_eq] at hu
    rw [maskOf_testBit]
    simp only [decide_eq_true_eq]
    rcases (hmem' u).2 hu.1 with h | h | h
    · exact h
    · subst h
      have := hs.hfwd u u hu.2
      omega
    · have := hv2'.1 u h
      rw [this] at hu
      exact absurd hu.2 Bool.false_ne_true
  · rw [List.perm_ext_iff_of_nodup hnd1 (bitsOf_nodup _)]
    intro x
    rw [mem_bitsOf_of_lt _ x n hn32 hTlt, maskOf_testBit]
    simp
  · rw [List.perm_ext_iff_of_nodup hnd2 (bitsOf_nodup _)]
    intro x
    rw [mem_bitsOf_comp n _ x hn32, Nat.testBit_or, maskOf_testBit, testBit_one_shiftLeft]
    simp only [Bool.or_eq_false_iff, decide_eq_false_iff_not]
    constructor
    · intro hx
      exact ⟨(hmem' x).1 (Or.inr (Or.inr hx)), fun h => hdisj x h hx,
        fun h => ha2 (h ▸ hx)⟩
    · rintro ⟨h1, h2, h3⟩
      rcases (hmem' x).2 h1 with h | h | h
      · exact absurd h h2
      · exact absurd h.symm h3
      · exact h

theorem fiber_build {edge : Nat → Nat → Bool} {n : Nat} {inM outM : Nat → Nat}
    (hs : MaskSpec edge n inM outM) (a b : Nat) (ha : a < n) (hab : a ≠ b)
    (T : Nat) (hT : T ∈ downSets inM n) (hTa : T.testBit a = false)
    (hTb : T.testBit b = false) (hin : T ||| inM a = T) (l1 l2 : List Nat)
    (hp1 : l1.Perm (bitsOf T)) (hv1 : isLinExt edge l1 = true)
    (hp2 : l2.Perm (bitsOf (bnot32 (T ||| (1 <<< a)) &&& (2 ^ n - 1))))
    (hv2 : isLinExt edge l2 = true) :
    (l1 ++ a :: l2).Perm (List.range n) ∧ isLinExt edge (l1 ++ a :: l2) = true ∧
    (l1 ++ a :: l2).indexOf a < (l1 ++ a :: l2).indexOf b ∧
    prefixMask a (l1 ++ a :: l2) = T := by
  have hn32 : n ≤ 32 := le_of_lt hs.hn
  obtain ⟨hTlt, hcl⟩ := (mem_downSets hs n (le_refl _) T).1 hT
  have hm1 : ∀ x, x ∈ l1 ↔ T.testBit x = true := fun x => by
    rw [hp1.mem_iff, mem_bitsOf_of_lt T x n hn32 hTlt]
  have hm2 : ∀ x, x ∈ l2 ↔ x < n ∧ T.testBit x = false ∧ a ≠ x := fun x => by
    rw [hp2.mem_iff, mem_bitsOf_comp n _ x hn32, Nat.testBit_or, testBit_one_shiftLeft]
    simp only [Bool.or_eq_false_iff, decide_eq_false_iff_not]
  have ha1 : a ∉ l1 := fun h => by rw [hm1, hTa] at h; exact Bool.false_ne_true h
  have hb1 : b ∉ l1 := fun h => by rw [hm1, hTb] at h; exact Bool.false_ne_true h
  have hlt1 : ∀ x, x ∈ l1 → x < n := by
    intro x hx
    rw [hm1] at hx
    by_contra hc
    have : T < 2 ^ x := lt_of_lt_of_le hTlt (Nat.pow_le_pow_right (by norm_num) (by omega))
    rw [Nat.testBit_lt_two_pow this] at hx
    exact Bool.false_ne_true hx
  refine ⟨?_, ?_, (indexOf_split_lt a b l1 l2 ha1 hab).2 hb1, ?_⟩
  · rw [List.perm_ext_iff_of_nodup _ (List.nodup_range n)]
    · intro x
      rw [List.mem_append, List.mem_cons, hm1, hm2, List.mem_range]
      constructor
      · rintro (h | h | h)
        · exact hlt1 x ((hm1 x).2 h)
        · omega
        · exact h.1
      · intro hx
        by_cases h1 : T.testBit x = true
        · exact Or.inl h1
        · by_cases h2 : x = a
          · exact Or.inr (Or.inl h2)
          · exact Or.inr (Or.inr ⟨hx, by simpa using h1, fun h => h2 h.symm⟩)
    · rw [List.nodup_append]
      refine ⟨hp1.nodup_iff.2 (bitsOf_nodup _), ?_, ?_⟩
      · rw [List.nodup_cons]
        refine ⟨fun h => ((hm2 a).1 h).2.2 rfl, hp2.nodup_iff.2 (bitsOf_nodup _)⟩
      · intro x h1 h2
        rcases List.mem_cons.1 h2 with h | h
        · exact ha1 (h ▸ h1)
        · rw [hm1] at h1
          rw [hm2, h1] at h
          exact Bool.noConfusion h.2.1
  · rw [isLinExt_append]
    refine ⟨hv1, ?_, ?_⟩
    · simp only [isLinExt, Bool.and_eq_true, List.all_eq_true, Bool.not_eq_true']
      refine ⟨?_, hv2⟩
      intro y hy
      rw [hm2] at hy
      cases hed : edge y a
      · rfl
      · exfalso
        have := (or_eq_self_iff_testBit T (inM a)).1 hin y (by rw [hs.hin]; simp [hy.1, hed])
        rw [hy.2.1] at this
        exact Bool.false_ne_true this
    · intro x hx y hy
      rw [hm1] at hx
      cases hed : edge y x
      · rfl
      · exfalso
        have hyT := hcl y x hed hx
        rcases List.mem_cons.1 hy with h | h
        · rw [h, hTa] at hyT; exact Bool.false_ne_true hyT
        · rw [hm2] at h
          rw [h.2.1] at hyT; exact Bool.false_ne_true hyT
  · unfold prefixMask
    rw [takeWhile_split a l1 l2 ha1]
    apply Nat.eq_of_testBit_eq
    intro x
    rw [maskOf_testBit]
    by_cases h : T.testBit x = true
    · rw [h]; simpa using (hm1 x).2 h
    · have h' : T.testBit x = false := by simpa using h
      rw [h']
      simp only [decide_eq_false_iff_not]
      exact fun hc => h ((hm1 x).1 hc)

theorem bruteForcePrecedes_eq_card (edge : Nat → Nat → Bool) (n a b : Nat) :
    bruteForcePrecedes edge n a b =
      (((List.range n).permutations.filter (isLinExt edge)).toFinset.filter
        (fun l => l.indexOf a < l.indexOf b)).card := by
  unfold bruteForcePrecedes
  rw [← List.toFinset_card_of_nodup
    ((List.nodup_permutations _ (List.nodup_range n)).filter _)]
  congr 1
  ext l
  simp only [List.mem_toFinset, List.mem_filter, Finset.mem_filter, Bool.and_eq_true,
    decide_eq_true_eq]
  tauto

theorem contrib_of_cond (edge : Nat → Nat → Bool) (n : Nat) (inM : Nat → Nat) (T a b : Nat)
    (hn : n ≤ 32) (hab : a < b) (hb : b < n) :
    contrib edge n inM T a b =
      if T.testBit a = false ∧ T.testBit b = false ∧ T ||| inM a = T then
        extCount edge (bitsOf T) *
          extCount edge (bitsOf (bnot32 (T ||| (1 <<< a)) &&& (2 ^ n - 1)))
      else 0 := by
  unfold contrib
  have hiff : ((bnot32 T &&& (2 ^ n - 1)).testBit a = true ∧ T ||| inM a = T ∧ a < b ∧ b < n ∧
      (T ||| (1 <<< a)).testBit b = false) ↔
      (T.testBit a = false ∧ T.testBit b = false ∧ T ||| inM a = T) := by
    rw [testBit_comp n T a hn, Nat.testBit_or, testBit_one_shiftLeft]
    have h1 : a < n := by omega
    have h2 : ¬ a = b := by omega
    simp only [h1, h2, hab, hb, decide_True, decide_False, Bool.true_and, Bool.or_false,
      Bool.not_eq_true', true_and]
    tauto
  by_cases h : T.testBit a = false ∧ T.testBit b = false ∧ T ||| inM a = T
  · rw [if_pos h, if_pos (hiff.2 h)]
  · rw [if_neg h, if_neg (fun hc => h (hiff.1 hc))]

theorem fiber_card {edge : Nat → Nat → Bool} {n : Nat} {inM outM : Nat → Nat}
    (hs : MaskSpec edge n inM outM) (a b : Nat) (hab : a < b) (hb : b < n)
    (T : Nat) (hT : T ∈ downSets inM n) :
    ((((List.range n).permutations.filter (isLinExt edge)).toFinset.filter
        (fun l => l.indexOf a < l.indexOf b)).filter (fun l => prefixMask a l = T)).card =
      contrib edge n inM T a b := by
  have hn32 : n ≤ 32 := le_of_lt hs.hn
  have ha : a < n := by omega
  have hne : a ≠ b := by omega
  rw [contrib_of_cond edge n inM T a b hn32 hab hb]
  by_cases hc : T.testBit a = false ∧ T.testBit b = false ∧ T ||| inM a = T
  · rw [if_pos hc]
    have himg : ((((List.range n).permutations.filter (isLinExt edge)).toFinset.filter
        (fun l => l.indexOf a < l.indexOf b)).filter (fun l => prefixMask a l = T)) =
        (((bitsOf T).permutations.filter (isLinExt edge)).toFinset ×ˢ
          ((bitsOf (bnot32 (T ||| (1 <<< a)) &&& (2 ^ n - 1))).permutations.filter
            (isLinExt edge)).toFinset).image (fun p => p.1 ++ a :: p.2) := by
      ext l
      simp only [Finset.mem_filter, List.mem_toFinset, mem_ext, Finset.mem_image,
        Finset.mem_product, Prod.exists]
      constructor
      · rintro ⟨⟨⟨hp, hv⟩, hidx⟩, hpm⟩
        obtain ⟨_, _, _, _, l2, h1, h2, h3, h4, h5⟩ := fiber_props hs a b ha hne l hp hv hidx
        rw [hpm] at h2 h4
        exact ⟨_, l2, ⟨⟨h2, h3⟩, ⟨h4, h5⟩⟩, h1.symm⟩
      · rintro ⟨l1, l2, ⟨⟨h2, h3⟩, ⟨h4, h5⟩⟩, rfl⟩
        obtain ⟨g1, g2, g3, g4⟩ :=
          fiber_build hs a b ha hne T hT hc.1 hc.2.1 hc.2.2 l1 l2 h2 h3 h4 h5
        exact ⟨⟨⟨g1, g2⟩, g3⟩, g4⟩
    rw [himg, Finset.card_image_of_injOn, Finset.card_product,
      ← extCount_eq_card edge _ (bitsOf_nodup _), ← extCount_eq_card edge _ (bitsOf_nodup _)]
    intro p hp q hq hpq
    simp only [Finset.coe_product, Set.mem_prod, Finset.mem_coe, List.mem_toFinset,
      mem_ext] at hp hq
    have hlen : p.1.length = q.1.length := by
      rw [hp.1.1.length_eq, hq.1.1.length_eq]
    have := List.append_inj hpq hlen
    exact Prod.ext this.1 (List.cons_eq_cons.1 this.2).2
  · rw [if_neg hc]
    rw [Finset.card_eq_zero, Finset.filter_eq_empty_iff]
    intro l hl hpm
    simp only [Finset.mem_filter, List.mem_toFinset, mem_ext] at hl
    obtain ⟨h1, h2, h3, h4, _⟩ := fiber_props hs a b ha hne l hl.1.1 hl.1.2 hl.2
    rw [hpm] at h1 h2 h3 h4
    exact hc ⟨h2, h3, h4⟩

/-- The number of linear extensions in which `a` precedes `b` is the sum, over the
downsets `T` that `a` can follow directly and that do not hold `b`, of the orderings of `T`
times the orderings of what is left after `a`. -/
theorem precedes_sum {edge : Nat → Nat → Bool} {n : Nat} {inM outM : Nat → Nat}
    (hs : MaskSpec edge n inM outM) (a b : Nat) (hab : a < b) (hb : b < n) :
    bruteForcePrecedes edge n a b =
      ((downSets inM n).map (fun T => contrib edge n inM T a b)).sum := by
  have ha : a < n := by omega
  have hne : a ≠ b := by omega
  rw [bruteForcePrecedes_eq_card,
    Finset.card_eq_sum_card_fiberwise (f := prefixMask a) (t := (downSets inM n).toFinset)]
  · rw [← List.sum_toFinset _ (downSets_nodup inM n)]
    apply Finset.sum_congr rfl
    intro T hT
    exact fiber_card hs a b hab hb T (List.mem_toFinset.1 hT)
  · intro l hl
    simp only [Finset.mem_filter, List.mem_toFinset, mem_ext] at hl
    rw [List.mem_toFinset]
    exact (fiber_props hs a b ha hne l hl.1.1 hl.1.2 hl.2).1

theorem before_of_edge (edge : Nat → Nat → Bool) (l : List Nat) (hv : isLinExt edge l = true)
    (i j : Nat) (hi : i ∈ l) (hj : j ∈ l) (hed : edge i j = true) (hij : i ≠ j) :
    l.indexOf i < l.indexOf j := by
  obtain ⟨l2, hl2⟩ := split_at_first j l hj
  have hnot := not_mem_takeWhile j l
  generalize l.takeWhile (fun x => x != j) = l1 at hl2 hnot
  subst hl2
  rw [isLinExt_append] at hv
  have hv2 := hv.2.1
  simp only [isLinExt, Bool.and_eq_true, List.all_eq_true, Bool.not_eq_true'] at hv2
  have hi1 : i ∈ l1 := by
    rcases List.mem_append.1 hi with h | h
    · exact h
    · rcases List.mem_cons.1 h with h | h
      · exact absurd h hij
      · have := hv2.1 i h
        rw [this] at hed
        exact absurd hed Bool.false_ne_true
  rw [List.indexOf_append_of_mem hi1, List.indexOf_append_of_not_mem hnot,
    List.indexOf_cons_self, add_zero]
  exact List.indexOf_lt_length.2 hi1

theorem before_of_path (edge : Nat → Nat → Bool) (hfwd : ∀ j k, edge j k = true → j < k)
    (n : Nat) (l : List Nat) (hp : l.Perm (List.range n)) (hv : isLinExt edge l = true)
    (i j : Nat) (hpath : Relation.TransGen (fun u v => edge u v = true) i j) (hj : j < n) :
    i < j ∧ l.indexOf i < l.indexOf j := by
  have hmem : ∀ x, x ∈ l ↔ x < n := fun x => by rw [hp.mem_iff, List.mem_range]
  induction hpath with
  | single h =>
    have := hfwd _ _ h
    exact ⟨this, before_of_edge edge l hv i _ ((hmem i).2 (by omega)) ((hmem _).2 hj) h
      (by omega)⟩
  | tail _ h ih =>
    have h1 := hfwd _ _ h
    have h2 := ih (by omega)
    have h3 := before_of_edge edge l hv _ _ ((hmem _).2 (by omega)) ((hmem _).2 hj) h
      (by omega)
    exact ⟨by omega, by omega⟩

theorem precedes_add (edge : Nat → Nat → Bool) (n i j : Nat) (hi : i < n) (hij : i ≠ j) :
    bruteForcePrecedes edge n i j + bruteForcePrecedes edge n j i = bruteForceLinExt edge n := by
  rw [bruteForcePrecedes_eq_card, bruteForcePrecedes_eq_card]
  have hE : bruteForceLinExt edge n =
      ((List.range n).permutations.filter (isLinExt edge)).toFinset.card :=
    extCount_eq_card edge _ (List.nodup_range n)
  have hsplit := Finset.filter_card_add_filter_neg_card_eq_card
    (s := ((List.range n).permutations.filter (isLinExt edge)).toFinset)
    (fun l : List Nat => l.indexOf i < l.indexOf j)
  rw [hE]
  refine Eq.trans ?_ hsplit
  congr 1
  apply congrArg
  apply Finset.filter_congr
  intro l hl
  rw [List.mem_toFinset, mem_ext] at hl
  have hmem : i ∈ l := by rw [hl.1.mem_iff, List.mem_range]; exact hi
  constructor
  · intro h; omega
  · intro h
    have hne : l.indexOf i ≠ l.indexOf j := by
      intro hc
      have h1 := List.indexOf_lt_length.2 hmem
      have hjm : j ∈ l := List.indexOf_lt_length.1 (hc ▸ h1)
      have := List.indexOf_inj hmem hjm |>.1 hc
      exact hij this
    omega

theorem precedes_le (edge : Nat → Nat → Bool) (n i j : Nat) :
    bruteForcePrecedes edge n i j ≤ bruteForceLinExt edge n := by
  rw [bruteForcePrecedes_eq_card]
  have hE : bruteForceLinExt edge n =
      ((List.range n).permutations.filter (isLinExt edge)).toFinset.card :=
    extCount_eq_card edge _ (List.nodup_range n)
  rw [hE]
  exact Finset.card_filter_le _ _

theorem precedes_zero_of_path (edge : Nat → Nat → Bool)
    (hfwd : ∀ j k, edge j k = true → j < k) (n i j : Nat) (hj : j < n)
    (hpath : Relation.TransGen (fun u v => edge u v = true) i j) :
    bruteForcePrecedes edge n j i = 0 := by
  rw [bruteForcePrecedes_eq_card, Finset.card_eq_zero, Finset.filter_eq_empty_iff]
  intro l hl
  rw [List.mem_toFinset, mem_ext] at hl
  have := (before_of_path edge hfwd n l hl.1 hl.2 i j hpath hj).2
  omega

theorem sub_mod_arith (E P Q m : Nat) (hm : 0 < m) (hE : E = P + Q) :
    (E % m + m - P % m) % m = Q % m := by
  subst hE
  have hx := Nat.mod_lt P hm
  have hy := Nat.mod_lt Q hm
  rw [Nat.add_mod P Q m]
  by_cases h : P % m + Q % m < m
  · rw [Nat.mod_eq_of_lt h]
    have : P % m + Q % m + m - P % m = Q % m + m := by omega
    rw [this, Nat.add_mod_right, Nat.mod_mod]
  · have h1 : (P % m + Q % m) % m = P % m + Q % m - m := by
      rw [Nat.mod_eq_sub_mod (by omega), Nat.mod_eq_of_lt (by omega)]
    rw [h1]
    have : P % m + Q % m - m + m - P % m = Q % m := by omega
    rw [this, Nat.mod_mod]

/-- After the backward sweep and `fillFullTable` every off-diagonal entry of the table is
the number of linear extensions in which the row vertex precedes the column vertex, reduced
modulo `2 ^ w`. -/
theorem calc_table_full (w MAXN alloc : Nat) (down0 up0 : Nat → Nat) (poset : PosetObj)
    (n : Nat) (hn : n < 32) (r : Nat × (Nat → Nat → Nat))
    (hr : calculateLinExtensionsNew w MAXN alloc false down0 up0 poset true n = some r) :
    r.1 = bruteForceLinExt (poset.is_edge MAXN) n % 2 ^ w ∧
    ∀ i j, i < n → j < n → i ≠ j →
      fillFullTable w r.2 r.1 n i j = bruteForcePrecedes (poset.is_edge MAXN) n i j % 2 ^ w := by
  have hs := maskSpec_poset MAXN poset n hn
  have hfst := calc_fst w MAXN alloc down0 up0 poset true n hn
  rw [hr] at hfst
  have he : r.1 = bruteForceLinExt (poset.is_edge MAXN) n % 2 ^ w := by
    by_cases hg : ∀ e, e < n → downSetCount (poset.is_edge MAXN) e < alloc / 2
    · rw [if_pos hg] at hfst
      simpa using hfst
    · rw [if_neg hg] at hfst
      simp at hfst
  refine ⟨he, ?_⟩
  have ht := calc_table w MAXN alloc down0 up0 poset n hn r hr
  intro i j hi hj hij
  unfold fillFullTable
  by_cases hji : j < i
  · rw [if_pos ⟨hji, hi⟩, ht j i, ← precedes_sum hs j i hji hi, Nat.mod_mod, he]
    exact sub_mod_arith _ _ _ _ (by positivity)
      (precedes_add (poset.is_edge MAXN) n j i hj (by omega)).symm
  · rw [if_neg (fun h => hji h.1), ht i j, ← precedes_sum hs i j (by omega) hj]

/-- Claim C4: when `calculateLinExtensionsNew` with `fillTable` followed by `fillFullTable` has
returned the count `e_p` and the table `t` (wide value type, build with `NUMEL < 25`,
`n ≤ NUMEL`), then for all distinct `i, j < n` the entry `t[i][j]` is the number of linear
extensions in which `i` precedes `j`, `t[i][j] + t[j][i] = e_p`, and a directed path from
`i` to `j` forces `t[j][i] = 0` and `t[i][j] = e_p`. -/
theorem calcFullWithTable_spec (NUMEL alloc : Nat) (down0 up0 : Nat → Nat) (poset : PosetObj)
    (n : Nat) (hn : n ≤ NUMEL) (hN : NUMEL < 25) (e_p : Nat) (t : Nat → Nat → Nat)
    (h : calcFullWithTable NUMEL alloc down0 up0 poset n = some (e_p, t)) :
    e_p = bruteForceLinExt (poset.is_edge NUMEL) n ∧
    ∀ i j, i < n → j < n → i ≠ j →
      t i j = bruteForcePrecedes (poset.is_edge NUMEL) n i j ∧
      t i j + t j i = e_p ∧
      (Relation.TransGen (fun u v => poset.is_edge NUMEL u v = true) i j →
        t j i = 0 ∧ t i j = e_p) := by
  unfold calcFullWithTable at h
  cases hc : calculateLinExtensionsNew (linExtTBits NUMEL) NUMEL alloc false down0 up0 poset
      true n with
  | none => rw [hc] at h; simp at h
  | some r =>
    rw [hc] at h
    simp only [Option.some.injEq, Prod.mk.injEq] at h
    obtain ⟨h1, h2⟩ := h
    obtain ⟨g1, g2⟩ := calc_table_full _ NUMEL alloc down0 up0 poset n (by omega) r hc
    have hb : bruteForceLinExt (poset.is_edge NUMEL) n < 2 ^ linExtTBits NUMEL := by
      calc bruteForceLinExt (poset.is_edge NUMEL) n
          ≤ (List.range n).length.factorial := extCount_le_factorial _ _
        _ = n.factorial := by rw [List.length_range]
        _ < 2 ^ linExtTBits NUMEL := factorial_lt_linExtT NUMEL n hn (by omega)
    have hP : ∀ i j, bruteForcePrecedes (poset.is_edge NUMEL) n i j % 2 ^ linExtTBits NUMEL =
        bruteForcePrecedes (poset.is_edge NUMEL) n i j := fun i j =>
      Nat.mod_eq_of_lt (lt_of_le_of_lt (precedes_le _ n i j) hb)
    have he : e_p = bruteForceLinExt (poset.is_edge NUMEL) n := by
      rw [← h1, g1, Nat.mod_eq_of_lt hb]
    have ht : ∀ i j, i < n → j < n → i ≠ j →
        t i j = bruteForcePrecedes (poset.is_edge NUMEL) n i j := by
      intro i j hi hj hij
      rw [← h2, g2 i j hi hj hij, hP]
    refine ⟨he, ?_⟩
    intro i j hi hj hij
    refine ⟨ht i j hi hj hij, ?_, ?_⟩
    · rw [ht i j hi hj hij, ht j i hj hi (Ne.symm hij), he]
      exact precedes_add _ n i j hi hij
    · intro hpath
      have hz := precedes_zero_of_path (poset.is_edge NUMEL) (is_edge_lt NUMEL poset) n i j hj
        hpath
      refine ⟨by rw [ht j i hj hi (Ne.symm hij), hz], ?_⟩
      have := precedes_add (poset.is_edge NUMEL) n i j hi hij
      rw [ht i j hi hj hij, he]
      omega

theorem is_edge_zero (MAXN : Nat) (p : PosetObj) (hp : p.graph = 0) (j k : Nat) :
    p.is_edge MAXN j k = false := by
  unfold PosetObj.is_edge PosetObj.graphGet
  rw [hp]
  split <;> simp

theorem downSetCount_antichain (edge : Nat → Nat → Bool) (h : ∀ j k, edge j k = false)
    (e : Nat) : downSetCount edge e = 2 ^ e := by
  unfold downSetCount
  have : (List.range (2 ^ e)).filter (isDownSet edge e) = List.range (2 ^ e) := by
    apply List.filter_eq_self.mpr
    intro m _
    unfold isDownSet
    simp [h]
  rw [this, List.length_range]

/-- Claim C3, as stated, fails at the antichain on 16 vertices of a build with `NUMEL = 16`:
with the scratch size `pow(1.74, 20) = 64712` the capacity guard stops the call, which
therefore does not return the `16!` orderings. -/
theorem calculateLinExtensionsNew_antichain16 :
    calculateLinExtensionsNew (linExtTBits 16) 16 64712 false (fun _ => 0) (fun _ => 0)
      PosetObj.new false 16 = none := by
  have h := calc_fst (linExtTBits 16) 16 64712 (fun _ => 0) (fun _ => 0) PosetObj.new false 16
    (by decide)
  have hcond : ¬ ∀ e, e < 16 → downSetCount (PosetObj.new.is_edge 16) e < 64712 / 2 := by
    intro hall
    have h15 := hall 15 (by decide)
    rw [downSetCount_antichain _ (is_edge_zero 16 PosetObj.new rfl) 15] at h15
    exact absurd h15 (by decide)
  rw [if_neg hcond] at h
  exact Option.map_eq_none'.mp h

theorem calculateLinExtensionsNew_count_witness :
    3 ≤ 3 ∧ 3 < 25 ∧
    (calculateLinExtensionsNew (linExtTBits 3) 3 48 false (fun _ => 0) (fun _ => 0)
        (PosetObj.mk 1 SortableStatus.UNFINISHED true false false) false 3).map Prod.fst =
      if ∀ e : Nat, e < 3 → downSetCount (PosetObj.is_edge 3 (PosetObj.mk 1 SortableStatus.UNFINISHED true false false)) e
          < 48 / 2 then
        some (bruteForceLinExt (PosetObj.is_edge 3 (PosetObj.mk 1 SortableStatus.UNFINISHED true false false)) 3)
      else none :=
  ⟨by decide, by decide,
    calculateLinExtensionsNew_count 3 48 (fun _ => 0) (fun _ => 0)
      (PosetObj.mk 1 SortableStatus.UNFINISHED true false false) false 3 (by decide) (by decide)⟩

theorem calcFullWithTable_spec_witness :
    ∃ e_p t, calcFullWithTable 3 48 (fun _ => 0) (fun _ => 0)
        (PosetObj.mk 1 SortableStatus.UNFINISHED true false false) 3 = some (e_p, t) ∧
      e_p = bruteForceLinExt (PosetObj.is_edge 3 (PosetObj.mk 1 SortableStatus.UNFINISHED true false false)) 3 ∧
      ∀ i j, i < 3 → j < 3 → i ≠ j →
        t i j = bruteForcePrecedes (PosetObj.is_edge 3 (PosetObj.mk 1 SortableStatus.UNFINISHED true false false)) 3 i j ∧
        t i j + t j i = e_p ∧
        (Relation.TransGen
            (fun u v => PosetObj.is_edge 3 (PosetObj.mk 1 SortableStatus.UNFINISHED true false false) u v = true) i j →
          t j i = 0 ∧ t i j = e_p) := by
  have hsome : (calcFullWithTable 3 48 (fun _ => 0) (fun _ => 0)
      (PosetObj.mk 1 SortableStatus.UNFINISHED true false false) 3).isSome = true := by decide
  obtain ⟨r, hr⟩ := Option.isSome_iff_exists.mp hsome
  exact ⟨r.1, r.2, hr,
    calcFullWithTable_spec 3 48 (fun _ => 0) (fun _ => 0) (PosetObj.mk 1 SortableStatus.UNFINISHED true false false) 3
      (by decide) (by decide) r.1 r.2 hr⟩

/-- Claim C2: in forward-only mode, with the default options, the run for
`(N, C) = (2, 1)`, `(3, 3)`, `(4, 5)` and `(5, 7)` ends with the verdict SORTABLE (the
record of the antichain gets the status `YES`) after 1, 1, 3 and 9 forward steps, and the
run for `(5, 6)` ends with the verdict NOT SORTABLE after one step. -/
theorem forwardVerdict_table :
    forwardVerdict 2 1 27 1 = some SortableStatus.YES ∧
    forwardVerdict 3 3 48 1 = some SortableStatus.YES ∧
    forwardVerdict 4 5 84 3 = some SortableStatus.YES ∧
    forwardVerdict 5 7 146 9 = some SortableStatus.YES ∧
    forwardVerdict 5 6 146 1 = some SortableStatus.NO := by decide!

/-- Claim C1 fails for the budget `C = 0`: whatever the number of elements and the other
parameters of the run, the set-up of the forward search divides by `NCT::C` when it sizes
the old-gen maps, so the run yields no verdict, in particular not the verdict `NO` that the
claim requires for `N ≥ 2`. -/
theorem forward_zero_budget_no_verdict (MAXN N : Nat) (sp : SearchParams)
    (oldGenEntries numLocks hmapCapacity threads : Nat) (relocated : Nat → Bool)
    (garbage : Nat → PosetObj) (fuel : Nat) :
    Search.forward ⟨MAXN, N, 0⟩ sp oldGenEntries numLocks hmapCapacity threads relocated
      garbage fuel = none := rfl


theorem nextIndex_lt (capacity index i : Nat) (h1 : index < capacity) (h2 : i ≤ capacity) :
    nextIndex capacity index i < capacity := by
  unfold nextIndex
  split <;> omega

theorem probe_lt (capacity h : Nat) (hc : 0 < capacity) (k : Nat) (hk : k ≤ capacity) :
    probe capacity h k < capacity := by
  induction k with
  | zero => exact Nat.mod_lt _ hc
  | succ k ih =>
    show nextIndex capacity (probe capacity h k) (k + 1) < capacity
    exact nextIndex_lt _ _ _ (ih (by omega)) hk

theorem findLoop_found {E : Type} (cfg : NCT) (w : PtrWidths) (toPoset : E → PosetObj)
    (dflt : E) (container : List E) (m : MyHashmap) (candidate : AnnotatedPosetObj) (h k : Nat)
    (hk : k < m.capacity)
    (hvalid : ∀ j, j ≤ k → (m.data (probe m.capacity h j)).isValid w m.gen = true)
    (hne : ∀ j, j < k →
      testEquality cfg w toPoset dflt container candidate (m.data (probe m.capacity h j)) = false)
    (heq : testEquality cfg w toPoset dflt container candidate (m.data (probe m.capacity h k))
      = true) :
    ∀ fuel i, i ≤ k → k < i + fuel →
      findLoop cfg w toPoset dflt container m candidate fuel (probe m.capacity h i) i =
        some (m.data (probe m.capacity h k)).posetRefIndex := by
  intro fuel
  induction fuel with
  | zero => intro i h1 h2; omega
  | succ fuel ih =>
    intro i h1 h2
    unfold findLoop
    rw [if_pos (hvalid i h1)]
    by_cases hik : i = k
    · subst hik
      rw [if_pos heq]
    · have hlt : i < k := by omega
      rw [if_neg (by rw [hne i hlt]; simp)]
      rw [if_neg (by omega)]
      exact ih (i + 1) (by omega) (by omega)

theorem insertLoop_inv {E : Type} (cfg : NCT) (w : PtrWidths) (toPoset : E → PosetObj)
    (dflt : E) (container : List E) (m : MyHashmap) (candidate : AnnotatedPosetObj) (h : Nat) :
    ∀ fuel i, i < m.capacity →
      (∀ j, j < i → (m.data (probe m.capacity h j)).isValid w m.gen = true ∧
        testEquality cfg w toPoset dflt container candidate (m.data (probe m.capacity h j))
          = false) →
      match insertLoop cfg w toPoset dflt container m candidate fuel (probe m.capacity h i) i with
      | ProbeResult.found idx =>
        ∃ k, (m.data (probe m.capacity h k)).isValid w m.gen = true ∧
          testEquality cfg w toPoset dflt container candidate (m.data (probe m.capacity h k))
            = true ∧ idx = (m.data (probe m.capacity h k)).posetRefIndex
      | ProbeResult.free index =>
        ∃ k, k < m.capacity ∧ index = probe m.capacity h k ∧
          (m.data (probe m.capacity h k)).isValid w m.gen = false ∧
          ∀ j, j < k → (m.data (probe m.capacity h j)).isValid w m.gen = true ∧
            testEquality cfg w toPoset dflt container candidate (m.data (probe m.capacity h j))
              = false
      | ProbeResult.full => True := by
  intro fuel
  induction fuel with
  | zero => intro i _ _; simp [insertLoop]
  | succ fuel ih =>
    intro i hi hprev
    unfold insertLoop
    by_cases hv : (m.data (probe m.capacity h i)).isValid w m.gen = true
    · rw [if_pos hv]
      by_cases ht : testEquality cfg w toPoset dflt container candidate
          (m.data (probe m.capacity h i)) = true
      · rw [if_pos ht]
        exact ⟨i, hv, ht, rfl⟩
      · rw [if_neg ht]
        by_cases hfull : i + 1 ≥ m.capacity ∨ i + 1 ≥ 2 ^ 16
        · rw [if_pos hfull]; trivial
        · rw [if_neg hfull]
          have := ih (i + 1) (by omega) (by
            intro j hj
            by_cases hji : j = i
            · subst hji; exact ⟨hv, by simpa using ht⟩
            · exact hprev j (by omega))
          exact this
    · rw [if_neg hv]
      exact ⟨i, hi, rfl, by simpa using hv, hprev⟩

theorem freeSlot_inv (w : PtrWidths) (temp : Nat → PosetPointer) (gen capacity h : Nat) :
    ∀ fuel i index, i < capacity →
      (∀ j, j < i → (temp (probe capacity h j)).isValid w gen = true) →
      freeSlot w temp gen capacity fuel (probe capacity h i) i = some index →
      ∃ k, k < capacity ∧ index = probe capacity h k ∧
        (temp (probe capacity h k)).isValid w gen = false ∧
        ∀ j, j < k → (temp (probe capacity h j)).isValid w gen = true := by
  intro fuel
  induction fuel with
  | zero => intro i index _ _ h0; simp [freeSlot] at h0
  | succ fuel ih =>
    intro i index hi hprev h0
    unfold freeSlot at h0
    by_cases hv : (temp (probe capacity h i)).isValid w gen = true
    · rw [if_pos hv] at h0
      by_cases hc : i + 1 < capacity
      · rw [if_pos hc] at h0
        exact ih (i + 1) index hc (by
          intro j hj
          by_cases hji : j = i
          · subst hji; exact hv
          · exact hprev j (by omega)) h0
      · rw [if_neg hc] at h0; simp at h0
    · rw [if_neg hv] at h0
      simp only [Option.some.injEq] at h0
      exact ⟨i, hi, h0.symm, by simpa using hv, hprev⟩


theorem setSlot_same (f : Nat → PosetPointer) (a : Nat) (v : PosetPointer) :
    setSlot f a v a = v := by
  simp [setSlot]

theorem setSlot_other (f : Nat → PosetPointer) (a : Nat) (v : PosetPointer) (x : Nat)
    (h : x ≠ a) : setSlot f a v x = f x := by
  simp [setSlot, h]

theorem invalid_not_valid (w : PtrWidths) (gen : Nat) :
    (PosetPointer.invalid w).isValid w gen = false := by
  simp [PosetPointer.invalid, PosetPointer.isValid]

theorem getD_map_hash {E : Type} (hashOf : E → Nat) (dflt : E) (container : List E) (i : Nat)
    (hi : i < container.length) :
    (container.map hashOf).getD i 0 = hashOf (container.getD i dflt) := by
  rw [List.getD_eq_getElem _ _ (by simpa using hi), List.getD_eq_getElem _ _ hi]
  simp

theorem rehash_step {E : Type} (w : PtrWidths) (hashOf : E → Nat) (dflt : E)
    (container : List E) (m : MyHashmap) (capacity cnt : Nat)
    (hm : MapInv w m (container.map hashOf)) (temp temp' : Nat → PosetPointer)
    (ht : RehashInv w m (container.map hashOf) capacity cnt temp)
    (hstep : (if (m.data cnt).isValid w m.gen then
        match freeSlot w temp m.gen capacity capacity
            (hashOf (container.getD (m.data cnt).posetRefIndex dflt) % capacity) 0 with
        | none => none
        | some index => some (setSlot temp index (m.data cnt))
      else some temp) = some temp') :
    RehashInv w m (container.map hashOf) capacity (cnt + 1) temp' := by
  by_cases hv : (m.data cnt).isValid w m.gen = true
  · rw [if_pos hv] at hstep
    cases hf : freeSlot w temp m.gen capacity capacity
        (hashOf (container.getD (m.data cnt).posetRefIndex dflt) % capacity) 0 with
    | none => rw [hf] at hstep; simp at hstep
    | some index =>
      rw [hf] at hstep
      simp only [Option.some.injEq] at hstep
      subst hstep
      have href := hm.ref_lt cnt hv
      have hlen : (m.data cnt).posetRefIndex < container.length := by simpa using href
      have hh : (container.map hashOf).getD (m.data cnt).posetRefIndex 0 =
          hashOf (container.getD (m.data cnt).posetRefIndex dflt) :=
        getD_map_hash hashOf dflt container _ hlen
      by_cases hcap : 0 < capacity
      · obtain ⟨k, hk, hidx, hfree, hprev⟩ := freeSlot_inv w temp m.gen capacity
          (hashOf (container.getD (m.data cnt).posetRefIndex dflt)) capacity 0 index hcap
          (by intro j hj; omega) hf
        have hidxlt : index < capacity := by
          rw [hidx]; exact probe_lt _ _ hcap k (by omega)
        -- the new pointer's record is not yet referenced in temp
        have hfresh : ∀ s, (temp s).isValid w m.gen = true →
            (temp s).posetRefIndex ≠ (m.data cnt).posetRefIndex := by
          intro s hs heq
          obtain ⟨s0, hs0, hv0, he0⟩ := ht.src s hs
          rw [he0] at heq
          have := hm.inj s0 cnt hv0 hv heq
          omega
        have hvalid_new : ∀ s, (setSlot temp index (m.data cnt) s).isValid w m.gen = true ↔
            (s = index ∨ (temp s).isValid w m.gen = true) := by
          intro s
          by_cases hs : s = index
          · subst hs; rw [setSlot_same]; simp [hv]
          · rw [setSlot_other _ _ _ _ hs]; simp [hs]
        refine ⟨?_, ?_, ?_, ?_, ?_⟩
        · intro s hs
          rcases (hvalid_new s).mp hs with h1 | h1
          · subst h1; exact hidxlt
          · exact ht.slot_lt s h1
        · intro s hs
          by_cases hsi : s = index
          · subst hsi
            exact ⟨cnt, by omega, hv, setSlot_same _ _ _⟩
          · rw [setSlot_other _ _ _ _ hsi] at hs ⊢
            obtain ⟨s0, hs0, hv0, he0⟩ := ht.src s hs
            exact ⟨s0, by omega, hv0, he0⟩
        · intro s s' hs hs' heq
          by_cases hsi : s = index
          · by_cases hsi' : s' = index
            · rw [hsi, hsi']
            · exfalso
              rw [hsi, setSlot_same, setSlot_other _ _ _ _ hsi'] at heq
              rw [setSlot_other _ _ _ _ hsi'] at hs'
              exact hfresh s' hs' heq.symm
          · by_cases hsi' : s' = index
            · exfalso
              rw [hsi', setSlot_same, setSlot_other _ _ _ _ hsi] at heq
              rw [setSlot_other _ _ _ _ hsi] at hs
              exact hfresh s hs heq
            · rw [setSlot_other _ _ _ _ hsi] at hs heq
              rw [setSlot_other _ _ _ _ hsi'] at hs' heq
              exact ht.inj s s' hs hs' heq
        · intro s0 hs0 hv0
          by_cases hc : s0 = cnt
          · subst hc; exact ⟨index, setSlot_same _ _ _⟩
          · obtain ⟨s, hs⟩ := ht.moved s0 (by omega) hv0
            refine ⟨s, ?_⟩
            have hsv : (temp s).isValid w m.gen = true := by rw [hs]; exact hv0
            have hne : s ≠ index := by
              intro h; subst h
              rw [hidx] at hsv
              rw [hsv] at hfree; simp at hfree
            rw [setSlot_other _ _ _ _ hne]; exact hs
        · intro s hs
          by_cases hsi : s = index
          · subst hsi
            rw [setSlot_same, hh]
            refine ⟨k, hk, hidx.symm, ?_⟩
            intro j hj
            apply (hvalid_new _).mpr
            right; exact hprev j hj
          · rw [setSlot_other _ _ _ _ hsi] at hs ⊢
            obtain ⟨k', hk', hp', hprev'⟩ := ht.onpath s hs
            refine ⟨k', hk', hp', ?_⟩
            intro j hj
            apply (hvalid_new _).mpr
            right; exact hprev' j hj
      · -- capacity = 0: freeSlot has no fuel
        have : capacity = 0 := by omega
        subst this
        simp [freeSlot] at hf
  · rw [if_neg hv] at hstep
    simp only [Option.some.injEq] at hstep
    subst hstep
    refine ⟨ht.slot_lt, ?_, ht.inj, ?_, ht.onpath⟩
    · intro s hs
      obtain ⟨s0, hs0, hv0, he0⟩ := ht.src s hs
      exact ⟨s0, by omega, hv0, he0⟩
    · intro s0 hs0 hv0
      by_cases hc : s0 = cnt
      · subst hc; exact absurd hv0 hv
      · exact ht.moved s0 (by omega) hv0


theorem rehash_fold {E : Type} (w : PtrWidths) (hashOf : E → Nat) (dflt : E)
    (container : List E) (m : MyHashmap) (capacity : Nat)
    (hm : MapInv w m (container.map hashOf)) :
    ∀ n temp,
      (List.range n).foldl (fun (acc : Option (Nat → PosetPointer)) slot =>
        match acc with
        | none => none
        | some temp =>
          let pointer := m.data slot
          if pointer.isValid w m.gen then
            match freeSlot w temp m.gen capacity capacity
                (hashOf (container.getD pointer.posetRefIndex dflt) % capacity) 0 with
            | none => none
            | some index => some (setSlot temp index pointer)
          else some temp) (some (fun _ => PosetPointer.invalid w)) = some temp →
      RehashInv w m (container.map hashOf) capacity n temp := by
  intro n
  induction n with
  | zero =>
    intro temp h
    simp only [List.range_zero, List.foldl_nil, Option.some.injEq] at h
    subst h
    refine ⟨?_, ?_, ?_, ?_, ?_⟩
    · intro s hs; rw [invalid_not_valid] at hs; simp at hs
    · intro s hs; rw [invalid_not_valid] at hs; simp at hs
    · intro s s' hs; rw [invalid_not_valid] at hs; simp at hs
    · intro s0 hs0; omega
    · intro s hs; rw [invalid_not_valid] at hs; simp at hs
  | succ n ih =>
    intro temp h
    rw [List.range_succ, List.foldl_append] at h
    simp only [List.foldl_cons, List.foldl_nil] at h
    cases hprev : (List.range n).foldl (fun (acc : Option (Nat → PosetPointer)) slot =>
        match acc with
        | none => none
        | some temp =>
          let pointer := m.data slot
          if pointer.isValid w m.gen then
            match freeSlot w temp m.gen capacity capacity
                (hashOf (container.getD pointer.posetRefIndex dflt) % capacity) 0 with
            | none => none
            | some index => some (setSlot temp index pointer)
          else some temp) (some (fun _ => PosetPointer.invalid w)) with
    | none => rw [hprev] at h; simp at h
    | some temp0 =>
      rw [hprev] at h
      exact rehash_step w hashOf dflt container m capacity n hm temp0 temp (ih temp0 hprev) h

theorem rehashInternal_inv {E : Type} (w : PtrWidths) (hashOf : E → Nat) (dflt : E)
    (container : List E) (m m' : MyHashmap) (capacity : Nat) (hc : 0 < capacity)
    (hm : MapInv w m (container.map hashOf))
    (h : rehashInternal w hashOf dflt container m capacity = some m') :
    MapInv w m' (container.map hashOf) ∧ m'.numElements = m.numElements ∧ m'.gen = m.gen := by
  unfold rehashInternal at h
  rw [Option.map_eq_some'] at h
  obtain ⟨temp, hfold, hm'⟩ := h
  have ht := rehash_fold w hashOf dflt container m capacity hm m.capacity temp hfold
  subst hm'
  refine ⟨⟨hc, hm.gen_lt, ht.slot_lt, ?_, ht.inj, ?_, ht.onpath, ?_⟩, rfl, rfl⟩
  · intro s hs
    obtain ⟨s0, _, hv0, he0⟩ := ht.src s hs
    show (temp s).posetRefIndex < _
    rw [he0]; exact hm.ref_lt s0 hv0
  · intro i hi
    obtain ⟨s0, hv0, hr0⟩ := hm.surj i hi
    obtain ⟨s, hs⟩ := ht.moved s0 (hm.slot_lt s0 hv0) hv0
    refine ⟨s, ?_, ?_⟩
    · show (temp s).isValid w m.gen = true
      rw [hs]; exact hv0
    · show (temp s).posetRefIndex = i
      rw [hs]; exact hr0
  · intro s hs
    obtain ⟨s0, _, hv0, he0⟩ := ht.src s hs
    show (temp s).pointerHash = ptrHashOf w (List.getD _ (temp s).posetRefIndex 0)
    rw [he0]; exact hm.ptrhash s0 hv0

theorem growCapacity_pos (fl : FloatOps) (capacity : Nat) : 0 < growCapacity fl capacity := by
  unfold growCapacity
  generalize (if capacity < 2 ^ 5 then capacity * 5
    else if capacity < 3 * 2 ^ 9 then capacity * 2 else fl.grow capacity) = c1
  show 0 < (if (if c1 % 2 = 0 then c1 + 1 else c1) % 3 = 0 then
    (if c1 % 2 = 0 then c1 + 1 else c1) + 2 else (if c1 % 2 = 0 then c1 + 1 else c1))
  by_cases h2 : c1 % 2 = 0
  · rw [if_pos h2]; split <;> omega
  · rw [if_neg h2]; split <;> omega

theorem rehash_inv {E : Type} (w : PtrWidths) (fl : FloatOps) (hashOf : E → Nat) (dflt : E)
    (container : List E) (m m' : MyHashmap)
    (hm : MapInv w m (container.map hashOf))
    (h : m.rehash w fl hashOf dflt container = some m') :
    MapInv w m' (container.map hashOf) ∧ m'.numElements = m.numElements ∧ m'.gen = m.gen :=
  rehashInternal_inv w hashOf dflt container m m' _ (growCapacity_pos fl m.capacity) hm h


theorem getPointerHash_eq (w : PtrWidths) (x : AnnotatedPosetObj) :
    x.GetPointerHash w.pointerHashWidth = ptrHashOf w x.hash := rfl

theorem prime3_lt : PRIME3 < 2 ^ 64 := by decide

theorem ptrHashOf_lt (w : PtrWidths) (h : Nat) : ptrHashOf w h < 2 ^ w.pointerHashWidth := by
  unfold ptrHashOf
  by_cases hw : w.pointerHashWidth < 64
  · have h1 : (1 <<< w.pointerHashWidth) % 2 ^ 64 = 2 ^ w.pointerHashWidth := by
      rw [Nat.one_shiftLeft]
      exact Nat.mod_eq_of_lt (Nat.pow_lt_pow_right (by decide) hw)
    rw [h1]
    have hpos : 0 < 2 ^ w.pointerHashWidth := Nat.two_pow_pos _
    have h2 : (2 ^ w.pointerHashWidth + 2 ^ 64 - 1) % 2 ^ 64 = 2 ^ w.pointerHashWidth - 1 := by
      have h3 : 2 ^ w.pointerHashWidth + 2 ^ 64 - 1 = (2 ^ w.pointerHashWidth - 1) + 2 ^ 64 := by
        omega
      rw [h3, Nat.add_mod_right]
      apply Nat.mod_eq_of_lt
      have := Nat.pow_lt_pow_right (a := 2) (by decide) hw
      omega
    rw [h2]
    exact Nat.lt_of_le_of_lt Nat.and_le_right (by omega)
  · have hle : 2 ^ 64 ≤ 2 ^ w.pointerHashWidth :=
      Nat.pow_le_pow_right (by decide) (by omega)
    have h1 : h % PRIME3 < 2 ^ 64 :=
      Nat.lt_trans (Nat.mod_lt _ (by decide)) prime3_lt
    exact Nat.lt_of_le_of_lt Nat.and_le_left (Nat.lt_of_lt_of_le h1 hle)

theorem make_valid (w : PtrWidths) (hash ref gen : Nat) (hr : ref < w.posetRefIndexInvalid)
    (hg : gen < 2 ^ w.pointerGenWidth) :
    (PosetPointer.make w hash ref gen).isValid w gen = true ∧
      (PosetPointer.make w hash ref gen).posetRefIndex = ref := by
  have hr' : ref < 2 ^ w.posetRefIndexWidth := by
    unfold PtrWidths.posetRefIndexInvalid at hr; omega
  have h1 : ref % 2 ^ w.posetRefIndexWidth = ref := Nat.mod_eq_of_lt hr'
  have h2 : gen % 2 ^ w.pointerGenWidth = gen := Nat.mod_eq_of_lt hg
  refine ⟨?_, h1⟩
  simp only [PosetPointer.make, PosetPointer.isValid, h1, h2, Bool.and_eq_true, bne_iff_ne,
    ne_eq, beq_self_eq_true, and_true]
  omega

theorem testEquality_iff {E : Type} (cfg : NCT) (w : PtrWidths) (toPoset : E → PosetObj)
    (dflt : E) (container : List E) (x : AnnotatedPosetObj) (p : PosetPointer) :
    testEquality cfg w toPoset dflt container x p = true ↔
      (ptrHashOf w x.hash = p.pointerHash ∧
        equalityCascade cfg x (toPoset (container.getD p.posetRefIndex dflt)) = true) := by
  unfold testEquality
  rw [getPointerHash_eq]
  by_cases h : ptrHashOf w x.hash = p.pointerHash
  · simp [h]
  · simp [h]


theorem insert_free_inv {E : Type} (cfg : NCT) (w : PtrWidths) (toPoset : E → PosetObj)
    (hashOf : E → Nat) (ofCandidate : AnnotatedPosetObj → E) (dflt : E) (c : List E)
    (m : MyHashmap) (x : AnnotatedPosetObj) (k index : Nat)
    (hm : MapInv w m (c.map hashOf)) (hx : hashOf (ofCandidate x) = x.hash)
    (hk : k < m.capacity) (hidx : index = probe m.capacity x.hash k)
    (hfree : (m.data (probe m.capacity x.hash k)).isValid w m.gen = false)
    (hprev : ∀ j, j < k → (m.data (probe m.capacity x.hash j)).isValid w m.gen = true ∧
      testEquality cfg w toPoset dflt c x (m.data (probe m.capacity x.hash j)) = false)
    (hlen : c.length < w.posetRefIndexInvalid) :
    MapInv w { m with
        data := setSlot m.data index
          (PosetPointer.make w (x.GetPointerHash w.pointerHashWidth) c.length m.gen),
        numElements := m.numElements + 1 } ((c ++ [ofCandidate x]).map hashOf) ∧
      ∀ i, i < c.length → hashOf (c.getD i dflt) = x.hash →
        equalityCascade cfg x (toPoset (c.getD i dflt)) = false := by
  obtain ⟨hmv, hmr⟩ := make_valid w (x.GetPointerHash w.pointerHashWidth) c.length m.gen hlen
    hm.gen_lt
  have hhashes : (c ++ [ofCandidate x]).map hashOf = c.map hashOf ++ [x.hash] := by
    simp [hx]
  have hvalid_new : ∀ s, (setSlot m.data index
      (PosetPointer.make w (x.GetPointerHash w.pointerHashWidth) c.length m.gen) s).isValid w
        m.gen = true ↔ (s = index ∨ (m.data s).isValid w m.gen = true) := by
    intro s
    by_cases hs : s = index
    · subst hs; rw [setSlot_same]; simp [hmv]
    · rw [setSlot_other _ _ _ _ hs]; simp [hs]
  have hold_ne : ∀ s, (m.data s).isValid w m.gen = true → s ≠ index := by
    intro s hs h
    rw [h, hidx, hfree] at hs; simp at hs
  have hgetD_old : ∀ i, i < c.length →
      (c.map hashOf ++ [x.hash]).getD i 0 = (c.map hashOf).getD i 0 := by
    intro i hi
    rw [List.getD_eq_getElem _ _ (by simp; omega), List.getD_eq_getElem _ _ (by simpa using hi)]
    rw [List.getElem_append_left (by simpa using hi)]
  have hgetD_new : (c.map hashOf ++ [x.hash]).getD c.length 0 = x.hash := by
    rw [List.getD_eq_getElem _ _ (by simp)]
    rw [List.getElem_append_right (by simp)]
    simp
  refine ⟨?_, ?_⟩
  · rw [hhashes]
    refine ⟨hm.cap_pos, hm.gen_lt, ?_, ?_, ?_, ?_, ?_, ?_⟩
    · intro s hs
      rcases (hvalid_new s).mp hs with h1 | h1
      · rw [h1, hidx]; exact probe_lt _ _ hm.cap_pos k (by omega)
      · exact hm.slot_lt s h1
    · intro s hs
      simp only [List.length_append, List.length_map, List.length_singleton]
      by_cases hsi : s = index
      · show (setSlot _ _ _ s).posetRefIndex < _
        rw [hsi, setSlot_same, hmr]; omega
      · rcases (hvalid_new s).mp hs with h1 | h1
        · exact absurd h1 hsi
        · show (setSlot _ _ _ s).posetRefIndex < _
          rw [setSlot_other _ _ _ _ hsi]
          have := hm.ref_lt s h1
          simp only [List.length_map] at this
          omega
    · intro s s' hs hs' heq
      change (setSlot _ _ _ s).posetRefIndex = (setSlot _ _ _ s').posetRefIndex at heq
      by_cases hsi : s = index
      · by_cases hsi' : s' = index
        · rw [hsi, hsi']
        · exfalso
          rcases (hvalid_new s').mp hs' with h1 | h1
          · exact hsi' h1
          · rw [hsi, setSlot_same, hmr, setSlot_other _ _ _ _ hsi'] at heq
            have := hm.ref_lt s' h1
            simp only [List.length_map] at this
            omega
      · by_cases hsi' : s' = index
        · exfalso
          rcases (hvalid_new s).mp hs with h1 | h1
          · exact hsi h1
          · rw [hsi', setSlot_same, hmr, setSlot_other _ _ _ _ hsi] at heq
            have := hm.ref_lt s h1
            simp only [List.length_map] at this
            omega
        · rcases (hvalid_new s).mp hs with h1 | h1
          · exact absurd h1 hsi
          · rcases (hvalid_new s').mp hs' with h2 | h2
            · exact absurd h2 hsi'
            · rw [setSlot_other _ _ _ _ hsi, setSlot_other _ _ _ _ hsi'] at heq
              exact hm.inj s s' h1 h2 heq
    · intro i hi
      simp only [List.length_append, List.length_map, List.length_singleton] at hi
      by_cases hic : i = c.length
      · refine ⟨index, (hvalid_new index).mpr (Or.inl rfl), ?_⟩
        show (setSlot _ _ _ index).posetRefIndex = i
        rw [setSlot_same, hmr, hic]
      · obtain ⟨s, hs, hr⟩ := hm.surj i (by simp only [List.length_map]; omega)
        refine ⟨s, (hvalid_new s).mpr (Or.inr hs), ?_⟩
        show (setSlot _ _ _ s).posetRefIndex = i
        rw [setSlot_other _ _ _ _ (hold_ne s hs)]; exact hr
    · intro s hs
      show ∃ k', k' < m.capacity ∧
        probe m.capacity ((c.map hashOf ++ [x.hash]).getD (setSlot _ _ _ s).posetRefIndex 0) k'
          = s ∧ ∀ j, j < k' → (setSlot _ _ _ (probe m.capacity
            ((c.map hashOf ++ [x.hash]).getD (setSlot _ _ _ s).posetRefIndex 0) j)).isValid w
              m.gen = true
      by_cases hsi : s = index
      · rw [hsi, setSlot_same, hmr, hgetD_new]
        refine ⟨k, hk, hidx.symm, ?_⟩
        intro j hj
        exact (hvalid_new _).mpr (Or.inr (hprev j hj).1)
      · rcases (hvalid_new s).mp hs with h1 | h1
        · exact absurd h1 hsi
        · rw [setSlot_other _ _ _ _ hsi]
          have hrl := hm.ref_lt s h1
          simp only [List.length_map] at hrl
          rw [hgetD_old _ hrl]
          obtain ⟨k', hk', hp', hprev'⟩ := hm.onpath s h1
          refine ⟨k', hk', hp', ?_⟩
          intro j hj
          exact (hvalid_new _).mpr (Or.inr (hprev' j hj))
    · intro s hs
      show (setSlot _ _ _ s).pointerHash =
        ptrHashOf w ((c.map hashOf ++ [x.hash]).getD (setSlot _ _ _ s).posetRefIndex 0)
      by_cases hsi : s = index
      · rw [hsi, setSlot_same, hmr, hgetD_new]
        show (x.GetPointerHash w.pointerHashWidth) % 2 ^ w.pointerHashWidth = _
        rw [getPointerHash_eq]
        exact Nat.mod_eq_of_lt (ptrHashOf_lt w x.hash)
      · rcases (hvalid_new s).mp hs with h1 | h1
        · exact absurd h1 hsi
        · rw [setSlot_other _ _ _ _ hsi]
          have hrl := hm.ref_lt s h1
          simp only [List.length_map] at hrl
          rw [hgetD_old _ hrl]
          exact hm.ptrhash s h1
  · intro i hi hhash
    obtain ⟨s, hs, hr⟩ := hm.surj i (by simpa using hi)
    obtain ⟨ki, hki, hpi, hprevi⟩ := hm.onpath s hs
    rw [hr, getD_map_hash hashOf dflt c i hi, hhash] at hpi hprevi
    have hklt : ki < k := by
      rcases Nat.lt_trichotomy ki k with h | h | h
      · exact h
      · exfalso; rw [h] at hpi; rw [hpi, hs] at hfree; simp at hfree
      · exfalso; have := hprevi k h; rw [this] at hfree; simp at hfree
    have htest := (hprev ki hklt).2
    rw [hpi] at htest
    by_contra hcas
    have hcas' : equalityCascade cfg x (toPoset (c.getD i dflt)) = true := by
      simpa using hcas
    have : testEquality cfg w toPoset dflt c x (m.data s) = true := by
      rw [testEquality_iff]
      refine ⟨?_, ?_⟩
      · rw [hm.ptrhash s hs, hr, getD_map_hash hashOf dflt c i hi, hhash]
      · rw [hr]; exact hcas'
    rw [this] at htest; simp at htest


theorem findAndInsert_inv {E : Type} (cfg : NCT) (w : PtrWidths) (fl : FloatOps)
    (toPoset : E → PosetObj) (hashOf : E → Nat) (ofCandidate : AnnotatedPosetObj → E)
    (dflt : E) (x : AnnotatedPosetObj) (c : List E)
    (hx : hashOf (ofCandidate x) = x.hash) :
    ∀ retries m m' c' idx, MapInv w m (c.map hashOf) →
      MyHashmap.findAndInsert cfg w fl toPoset hashOf ofCandidate dflt x retries m c =
        some (m', c', idx) →
      MapInv w m' (c'.map hashOf) ∧
      ((c' = c ∧ m'.numElements = m.numElements ∧ idx < c.length ∧
          equalityCascade cfg x (toPoset (c.getD idx dflt)) = true) ∨
        (c' = c ++ [ofCandidate x] ∧ m'.numElements = m.numElements + 1 ∧ idx = c.length ∧
          ∀ i, i < c.length → hashOf (c.getD i dflt) = x.hash →
            equalityCascade cfg x (toPoset (c.getD i dflt)) = false)) := by
  intro retries
  induction retries with
  | zero => intro m m' c' idx _ h; simp [MyHashmap.findAndInsert] at h
  | succ retries ih =>
    intro m m' c' idx hm h
    unfold MyHashmap.findAndInsert at h
    -- the optional rehash at the label `beginning`
    have hfirst : ∀ m1, (if fl.needRehash m.numElements m.loadFactorCap m.capacity then
        m.rehash w fl hashOf dflt c else some m) = some m1 →
        MapInv w m1 (c.map hashOf) ∧ m1.numElements = m.numElements := by
      intro m1 h1
      by_cases hr : fl.needRehash m.numElements m.loadFactorCap m.capacity = true
      · rw [if_pos hr] at h1
        have := rehash_inv w fl hashOf dflt c m m1 hm h1
        exact ⟨this.1, this.2.1⟩
      · rw [if_neg hr] at h1
        simp only [Option.some.injEq] at h1
        subst h1; exact ⟨hm, rfl⟩
    cases h1 : (if fl.needRehash m.numElements m.loadFactorCap m.capacity then
        m.rehash w fl hashOf dflt c else some m) with
    | none => rw [h1] at h; simp at h
    | some m1 =>
      rw [h1] at h
      obtain ⟨hm1, hn1⟩ := hfirst m1 h1
      simp only at h
      have hloop := insertLoop_inv cfg w toPoset dflt c m1 x x.hash m1.capacity 0 hm1.cap_pos
        (by intro j hj; omega)
      have hstart : probe m1.capacity x.hash 0 = x.hash % m1.capacity := rfl
      rw [hstart] at hloop
      cases hl : insertLoop cfg w toPoset dflt c m1 x m1.capacity (x.hash % m1.capacity) 0 with
      | found i0 =>
        rw [hl] at h hloop
        simp only [Option.some.injEq, Prod.mk.injEq] at h
        obtain ⟨h1', h2', h3'⟩ := h
        subst h1' h2' h3'
        obtain ⟨k, hv, ht, hi0⟩ := hloop
        rw [testEquality_iff] at ht
        refine ⟨hm1, Or.inl ⟨rfl, hn1, ?_, ?_⟩⟩
        · rw [hi0]; simpa using hm1.ref_lt _ hv
        · rw [hi0]; exact ht.2
      | full =>
        rw [hl] at h
        simp only at h
        cases h2 : m1.rehash w fl hashOf dflt c with
        | none => rw [h2] at h; simp at h
        | some m2 =>
          rw [h2] at h
          simp only at h
          obtain ⟨hm2, hn2, _⟩ := rehash_inv w fl hashOf dflt c m1 m2 hm1 h2
          have := ih m2 m' c' idx hm2 h
          rw [hn2, hn1] at this
          exact this
      | free index =>
        rw [hl] at h hloop
        simp only at h
        obtain ⟨k, hk, hidx, hfree, hprev⟩ := hloop
        by_cases hlen : c.length ≥ w.posetRefIndexInvalid
        · rw [if_pos hlen] at h; simp at h
        · rw [if_neg hlen] at h
          simp only [Option.some.injEq, Prod.mk.injEq] at h
          obtain ⟨h1', h2', h3'⟩ := h
          subst h1' h2' h3'
          obtain ⟨hinv, hnone⟩ := insert_free_inv cfg w toPoset hashOf ofCandidate dflt c m1 x k
            index hm1 hx hk hidx hfree hprev (by omega)
          exact ⟨hinv, Or.inr ⟨rfl, by show m1.numElements + 1 = _; rw [hn1], rfl, hnone⟩⟩

theorem find_spec {E : Type} (cfg : NCT) (w : PtrWidths) (toPoset : E → PosetObj)
    (hashOf : E → Nat) (dflt : E) (c : List E) (m : MyHashmap) (y : AnnotatedPosetObj) (i : Nat)
    (hm : MapInv w m (c.map hashOf)) (hi : i < c.length)
    (hhash : hashOf (c.getD i dflt) = y.hash)
    (heq : equalityCascade cfg y (toPoset (c.getD i dflt)) = true)
    (huniq : ∀ i', i' < c.length → equalityCascade cfg y (toPoset (c.getD i' dflt)) = true →
      i' = i) :
    MyHashmap.find cfg w toPoset dflt c m y = some i := by
  obtain ⟨s, hs, hr⟩ := hm.surj i (by simpa using hi)
  obtain ⟨ki, hki, hpi, hprevi⟩ := hm.onpath s hs
  rw [hr, getD_map_hash hashOf dflt c i hi, hhash] at hpi hprevi
  have hti : testEquality cfg w toPoset dflt c y (m.data (probe m.capacity y.hash ki)) = true := by
    rw [hpi, testEquality_iff]
    refine ⟨?_, ?_⟩
    · rw [hm.ptrhash s hs, hr, getD_map_hash hashOf dflt c i hi, hhash]
    · rw [hr]; exact heq
  -- the first step at which the test succeeds
  have hex : ∃ k, testEquality cfg w toPoset dflt c y (m.data (probe m.capacity y.hash k))
      = true := ⟨ki, hti⟩
  classical
  let k0 := Nat.find hex
  have hk0 : testEquality cfg w toPoset dflt c y (m.data (probe m.capacity y.hash k0)) = true :=
    Nat.find_spec hex
  have hk0le : k0 ≤ ki := Nat.find_min' hex hti
  have hmin : ∀ j, j < k0 →
      testEquality cfg w toPoset dflt c y (m.data (probe m.capacity y.hash j)) = false := by
    intro j hj
    have := Nat.find_min hex hj
    simpa using this
  have hvalid : ∀ j, j ≤ k0 → (m.data (probe m.capacity y.hash j)).isValid w m.gen = true := by
    intro j hj
    by_cases hjk : j = ki
    · rw [hjk, hpi]; exact hs
    · exact hprevi j (by omega)
  have hfound := findLoop_found cfg w toPoset dflt c m y y.hash k0 (by omega) hvalid hmin hk0
    m.capacity 0 (by omega) (by omega)
  unfold MyHashmap.find
  have hstart : probe m.capacity y.hash 0 = y.hash % m.capacity := rfl
  rw [hstart] at hfound
  rw [hfound]
  congr 1
  have hv0 := hvalid k0 (Nat.le_refl _)
  have hlt := hm.ref_lt _ hv0
  rw [testEquality_iff] at hk0
  exact huniq _ (by simpa using hlt) hk0.2


theorem equalityCascade_self (cfg : NCT) (x : AnnotatedPosetObj) :
    equalityCascade cfg x x.poset = true := by
  unfold equalityCascade
  simp [PosetObj.SameGraph]

theorem cascade_symm (cfg : NCT) (hashOf : PosetObj → Nat) (all : List AnnotatedPosetObj)
    (hc : HashCompatible cfg hashOf all) (x y : AnnotatedPosetObj) (hx : x ∈ all) (hy : y ∈ all)
    (h : equalityCascade cfg x y.poset = true) : equalityCascade cfg y x.poset = true :=
  hc.euclid y x y hy hx hy (equalityCascade_self cfg y) h

theorem cascade_trans (cfg : NCT) (hashOf : PosetObj → Nat) (all : List AnnotatedPosetObj)
    (hc : HashCompatible cfg hashOf all) (x y z : AnnotatedPosetObj) (hx : x ∈ all)
    (hy : y ∈ all) (hz : z ∈ all) (h1 : equalityCascade cfg x y.poset = true)
    (h2 : equalityCascade cfg y z.poset = true) : equalityCascade cfg x z.poset = true :=
  hc.euclid x z y hx hz hy h1 (cascade_symm cfg hashOf all hc y z hy hz h2)

/-- Two kept records that the cascade identifies with one record are the same entry. -/
theorem kept_unique (cfg : NCT) (hashOf : PosetObj → Nat) (all : List AnnotatedPosetObj)
    (hc : HashCompatible cfg hashOf all) (l : List AnnotatedPosetObj)
    (hsub : ∀ o, o ∈ l → o ∈ all)
    (hd : l.Pairwise (fun a b =>
      equalityCascade cfg a b.poset = false ∧ equalityCascade cfg b a.poset = false))
    (y : AnnotatedPosetObj) (hy : y ∈ all) (i j : Nat) (hi : i < l.length) (hj : j < l.length)
    (h1 : equalityCascade cfg y (l.get ⟨i, hi⟩).poset = true)
    (h2 : equalityCascade cfg y (l.get ⟨j, hj⟩).poset = true) : i = j := by
  have hmi := hsub _ (List.get_mem l i hi)
  have hmj := hsub _ (List.get_mem l j hj)
  have hij : equalityCascade cfg (l.get ⟨i, hi⟩) (l.get ⟨j, hj⟩).poset = true :=
    cascade_trans cfg hashOf all hc _ y _ hmi hy hmj
      (cascade_symm cfg hashOf all hc y _ hy hmi h1) h2
  rcases Nat.lt_trichotomy i j with h | h | h
  · have := (List.pairwise_iff_get.mp hd ⟨i, hi⟩ ⟨j, hj⟩ h).1
    rw [this] at hij; simp at hij
  · exact h
  · have := (List.pairwise_iff_get.mp hd ⟨j, hj⟩ ⟨i, hi⟩ h).2
    rw [this] at hij; simp at hij

theorem keptOf_append (numLocks s : Nat) (kept : List AnnotatedPosetObj)
    (x : AnnotatedPosetObj) :
    keptOf numLocks s (kept ++ [x]) =
      if x.GetLockHash % numLocks = s then keptOf numLocks s kept ++ [x]
      else keptOf numLocks s kept := by
  unfold keptOf
  rw [List.filter_append]
  by_cases h : x.GetLockHash % numLocks = s
  · simp [h]
  · simp [h]

theorem keptOf_pairwise (cfg : NCT) (numLocks s : Nat) (kept : List AnnotatedPosetObj)
    (hd : kept.Pairwise (fun a b =>
      equalityCascade cfg a b.poset = false ∧ equalityCascade cfg b a.poset = false)) :
    (keptOf numLocks s kept).Pairwise (fun a b =>
      equalityCascade cfg a b.poset = false ∧ equalityCascade cfg b a.poset = false) :=
  hd.filter _

theorem keptOf_sub (numLocks s : Nat) (kept : List AnnotatedPosetObj) (o : AnnotatedPosetObj)
    (h : o ∈ keptOf numLocks s kept) : o ∈ kept ∧ o.GetLockHash % numLocks = s := by
  unfold keptOf at h
  rw [List.mem_filter] at h
  exact ⟨h.1, by simpa using h.2⟩

theorem mem_keptOf (numLocks : Nat) (kept : List AnnotatedPosetObj) (o : AnnotatedPosetObj)
    (h : o ∈ kept) : o ∈ keptOf numLocks (o.GetLockHash % numLocks) kept := by
  unfold keptOf
  rw [List.mem_filter]
  exact ⟨h, by simp⟩

theorem lockHash_eq (x y : AnnotatedPosetObj) (h : x.hash = y.hash) :
    x.GetLockHash = y.GetLockHash := by
  unfold AnnotatedPosetObj.GetLockHash
  rw [h]

theorem findIdx_unique (p : AnnotatedPosetObj → Bool) (l : List AnnotatedPosetObj) (i : Nat)
    (hi : i < l.length) (hp : p (l.get ⟨i, hi⟩) = true)
    (hu : ∀ j (hj : j < l.length), p (l.get ⟨j, hj⟩) = true → j = i) :
    l.findIdx p = i := by
  have hlt : l.findIdx p < l.length := List.findIdx_lt_length_of_exists ⟨_, List.get_mem l i hi, hp⟩
  have hsat := List.findIdx_getElem (w := hlt)
  exact hu _ hlt hsat


theorem getD_set_same {α : Type} (l : List α) (i : Nat) (v d : α) (hi : i < l.length) :
    (l.set i v).getD i d = v := by
  rw [List.getD_eq_getElem _ _ (by simpa using hi)]
  simp

theorem getD_set_other {α : Type} (l : List α) (i j : Nat) (v d : α) (hij : i ≠ j) :
    (l.set i v).getD j d = l.getD j d := by
  simp [List.getD_eq_getElem?_getD, List.getElem?_set_ne hij]

theorem getD_map_poset (l : List AnnotatedPosetObj) (i : Nat) (hi : i < l.length) :
    (l.map (fun o => o.poset)).getD i PosetObj.new = (l.get ⟨i, hi⟩).poset := by
  rw [List.getD_eq_getElem _ _ (by simpa using hi)]
  simp

theorem any_keptOf (cfg : NCT) (hashOf : PosetObj → Nat) (all : List AnnotatedPosetObj)
    (hc : HashCompatible cfg hashOf all) (numLocks : Nat) (kept : List AnnotatedPosetObj)
    (hsub : ∀ o, o ∈ kept → o ∈ all) (x : AnnotatedPosetObj) (hx : x ∈ all) :
    kept.any (fun o => equalityCascade cfg x o.poset) =
      (keptOf numLocks (x.GetLockHash % numLocks) kept).any
        (fun o => equalityCascade cfg x o.poset) := by
  rw [Bool.eq_iff_iff, List.any_eq_true, List.any_eq_true]
  constructor
  · rintro ⟨o, ho, heq⟩
    refine ⟨o, ?_, heq⟩
    have hh := hc.hash_eq x o hx (hsub o ho) heq
    rw [lockHash_eq x o hh]
    exact mem_keptOf numLocks kept o ho
  · rintro ⟨o, ho, heq⟩
    exact ⟨o, (keptOf_sub _ _ _ o ho).1, heq⟩

theorem posetMap_insert_inv (cfg : NCT) (fl : FloatOps) (hashOf : PosetObj → Nat)
    (retries : Nat) (all : List AnnotatedPosetObj) (hc : HashCompatible cfg hashOf all)
    (pm pm' : PosetMap) (kept : List AnnotatedPosetObj) (x : AnnotatedPosetObj) (r : Nat × Nat)
    (hsub : ∀ o, o ∈ kept → o ∈ all) (hx : x ∈ all) (hinv : PosetMapInv cfg hashOf pm kept)
    (h : pm.findAndInsert cfg fl hashOf retries x = some (pm', r)) :
    PosetMapInv cfg hashOf pm' (addDistinct cfg kept x) ∧ pm'.numLocks = pm.numLocks ∧
    r = representative cfg pm.numLocks (addDistinct cfg kept x) x ∧
    (kept.any (fun o => equalityCascade cfg x o.poset) = true →
      pm'.Scontainers = pm.Scontainers ∧
      pm'.SposetMap.map (fun m => m.numElements) = pm.SposetMap.map (fun m => m.numElements)) ∧
    (kept.any (fun o => equalityCascade cfg x o.poset) = false →
      pm'.Scontainers = pm.Scontainers.set (x.GetLockHash % pm.numLocks)
        (pm.Scontainers.getD (x.GetLockHash % pm.numLocks) [] ++ [x.poset]) ∧
      r.2 = (pm.Scontainers.getD (x.GetLockHash % pm.numLocks) []).length ∧
      (pm'.SposetMap.getD (x.GetLockHash % pm.numLocks) (MyHashmap.new ptrSmall 0)).numElements =
        (pm.SposetMap.getD (x.GetLockHash % pm.numLocks) (MyHashmap.new ptrSmall 0)).numElements
          + 1) := by
  unfold PosetMap.findAndInsert at h
  simp only at h
  have hs : x.GetLockHash % pm.numLocks < pm.numLocks := Nat.mod_lt _ hinv.locks_pos
  generalize hsdef : x.GetLockHash % pm.numLocks = s at h hs ⊢
  obtain ⟨hmap, hcont⟩ := hinv.shard s hs
  cases hfi : MyHashmap.findAndInsert cfg ptrSmall fl id hashOf (fun c => c.poset) PosetObj.new x
      retries (pm.SposetMap.getD s (MyHashmap.new ptrSmall 0)) (pm.Scontainers.getD s []) with
  | none => rw [hfi] at h; simp at h
  | some res =>
    obtain ⟨m', c', idx⟩ := res
    rw [hfi] at h
    simp only [Option.some.injEq, Prod.mk.injEq] at h
    obtain ⟨hpm', hr⟩ := h
    subst hpm' hr
    obtain ⟨hm', hcase⟩ := findAndInsert_inv cfg ptrSmall fl id hashOf (fun c => c.poset)
      PosetObj.new x (pm.Scontainers.getD s []) (hc.stored x hx) retries _ m' c' idx hmap hfi
    have hany := any_keptOf cfg hashOf all hc pm.numLocks kept hsub x hx
    rw [hsdef] at hany
    have hlenK : (pm.Scontainers.getD s []).length = (keptOf pm.numLocks s kept).length := by
      rw [hcont]; simp
    have hshard_other : ∀ s', s' < pm.numLocks → s' ≠ s →
        MapInv ptrSmall ((pm.SposetMap.set s m').getD s' (MyHashmap.new ptrSmall 0))
          (((pm.Scontainers.set s c').getD s' []).map hashOf) ∧
        (pm.Scontainers.set s c').getD s' [] =
          (keptOf pm.numLocks s' kept).map (fun o => o.poset) := by
      intro s' hs' hne
      rw [getD_set_other _ _ _ _ _ (Ne.symm hne), getD_set_other _ _ _ _ _ (Ne.symm hne)]
      exact hinv.shard s' hs'
    rcases hcase with ⟨hc', hnum, hidx, heq⟩ | ⟨hc', hnum, hidx, hnone⟩
    · -- the record was found
      subst hc'
      have hidxK : idx < (keptOf pm.numLocks s kept).length := by omega
      have heq' : equalityCascade cfg x ((keptOf pm.numLocks s kept).get ⟨idx, hidxK⟩).poset
          = true := by
        have := heq
        simp only [id] at this
        rw [hcont, getD_map_poset _ _ hidxK] at this
        exact this
      have hanyT : kept.any (fun o => equalityCascade cfg x o.poset) = true := by
        rw [hany, List.any_eq_true]
        exact ⟨_, List.get_mem _ idx hidxK, heq'⟩
      have hadd : addDistinct cfg kept x = kept := by
        unfold addDistinct; rw [if_pos hanyT]
      rw [hadd]
      refine ⟨⟨hinv.locks_pos, ?_, ?_, ?_, hinv.distinct⟩, rfl, ?_, ?_, ?_⟩
      · show (pm.SposetMap.set s m').length = pm.numLocks
        rw [List.length_set]; exact hinv.len_maps
      · show (pm.Scontainers.set s _).length = pm.numLocks
        rw [List.length_set]; exact hinv.len_cont
      · intro s' hs'
        by_cases hne : s' = s
        · subst hne
          show MapInv ptrSmall ((pm.SposetMap.set s' m').getD s' _)
            (((pm.Scontainers.set s' _).getD s' []).map hashOf) ∧
            (pm.Scontainers.set s' _).getD s' [] = _
          rw [getD_set_same _ _ _ _ (by rw [hinv.len_maps]; exact hs'),
            getD_set_same _ _ _ _ (by rw [hinv.len_cont]; exact hs')]
          exact ⟨hm', hcont⟩
        · exact hshard_other s' hs' hne
      · unfold representative
        rw [hsdef]
        congr 1
        symm
        apply findIdx_unique _ _ idx hidxK heq'
        intro j hj hjeq
        exact kept_unique cfg hashOf all hc (keptOf pm.numLocks s kept)
          (fun o ho => hsub o (keptOf_sub _ _ _ o ho).1) (keptOf_pairwise cfg _ _ _ hinv.distinct)
          x hx j idx hj hidxK hjeq heq'
      · intro _
        refine ⟨?_, ?_⟩
        · show pm.Scontainers.set s (pm.Scontainers.getD s []) = pm.Scontainers
          apply List.ext_getElem
          · simp
          · intro i h1 h2
            by_cases his : s = i
            · subst his
              rw [List.getElem_set_self]
              rw [List.getD_eq_getElem _ _ h2]
            · rw [List.getElem_set_ne his]
        · show (pm.SposetMap.set s m').map (fun m => m.numElements) = _
          apply List.ext_getElem
          · simp
          · intro i h1 h2
            simp only [List.getElem_map]
            by_cases his : s = i
            · subst his
              rw [List.getElem_set_self, hnum]
              rw [List.getD_eq_getElem _ _ (by simpa using h2)]
            · rw [List.getElem_set_ne his]
      · intro hf; rw [hanyT] at hf; simp at hf
    · -- the record is new
      subst hc' hidx
      have hanyF : kept.any (fun o => equalityCascade cfg x o.poset) = false := by
        rw [hany]
        rw [Bool.eq_false_iff]
        intro hT
        rw [List.any_eq_true] at hT
        obtain ⟨o, ho, heq⟩ := hT
        obtain ⟨i, hio⟩ := List.mem_iff_get.mp ho
        have hmem := (keptOf_sub _ _ _ o ho).1
        have hh := hc.hash_eq x o hx (hsub o hmem) heq
        have hi' : (i : Nat) < (pm.Scontainers.getD s []).length := by omega
        have := hnone i hi' (by
          rw [hcont, getD_map_poset _ _ i.2]
          show hashOf ((keptOf pm.numLocks s kept).get i).poset = x.hash
          rw [hio, hc.stored o (hsub o hmem), hh])
        simp only [id] at this
        rw [hcont, getD_map_poset _ _ i.2] at this
        have hio' : (keptOf pm.numLocks s kept).get ⟨i, i.2⟩ = o := hio
        rw [hio', heq] at this
        simp at this
      have hadd : addDistinct cfg kept x = kept ++ [x] := by
        unfold addDistinct; rw [if_neg (by rw [hanyF]; simp)]
      rw [hadd]
      have hnoneK : ∀ o, o ∈ kept → equalityCascade cfg x o.poset = false := by
        intro o ho
        rw [List.any_eq_false] at hanyF
        simpa using hanyF o ho
      refine ⟨⟨hinv.locks_pos, ?_, ?_, ?_, ?_⟩, rfl, ?_, ?_, ?_⟩
      · show (pm.SposetMap.set s m').length = pm.numLocks
        rw [List.length_set]; exact hinv.len_maps
      · show (pm.Scontainers.set s _).length = pm.numLocks
        rw [List.length_set]; exact hinv.len_cont
      · intro s' hs'
        show MapInv ptrSmall ((pm.SposetMap.set s m').getD s' _)
          (((pm.Scontainers.set s _).getD s' []).map hashOf) ∧
          (pm.Scontainers.set s _).getD s' [] =
            (keptOf pm.numLocks s' (kept ++ [x])).map (fun o => o.poset)
        rw [keptOf_append]
        by_cases hne : s' = s
        · subst hne
          rw [getD_set_same _ _ _ _ (by rw [hinv.len_maps]; exact hs'),
            getD_set_same _ _ _ _ (by rw [hinv.len_cont]; exact hs'), if_pos hsdef]
          refine ⟨hm', ?_⟩
          rw [hcont]; simp
        · rw [if_neg (by rw [hsdef]; exact Ne.symm hne)]
          exact hshard_other s' hs' hne
      · rw [List.pairwise_append]
        refine ⟨hinv.distinct, List.pairwise_singleton _ _, ?_⟩
        intro a ha b hb
        rw [List.mem_singleton] at hb
        subst hb
        have h1 := hnoneK a ha
        refine ⟨?_, h1⟩
        rw [Bool.eq_false_iff]
        intro hT
        have := cascade_symm cfg hashOf all hc a b (hsub a ha) hx hT
        rw [h1] at this; simp at this
      · unfold representative
        rw [hsdef, keptOf_append, if_pos hsdef]
        congr 1
        rw [hlenK]
        symm
        apply findIdx_unique _ _ (keptOf pm.numLocks s kept).length (by simp)
        · simp only [List.get_eq_getElem, List.getElem_append_right (Nat.le_refl _)]
          simp [equalityCascade_self]
        · intro j hj hjeq
          by_contra hne
          have hjlt : j < (keptOf pm.numLocks s kept).length := by
            simp only [List.length_append, List.length_singleton] at hj
            omega
          simp only [List.get_eq_getElem, List.getElem_append_left hjlt] at hjeq
          have := hnoneK _ (keptOf_sub _ _ _ _ (List.getElem_mem hjlt)).1
          rw [this] at hjeq; simp at hjeq
      · intro hT; rw [hanyF] at hT; simp at hT
      · intro _
        refine ⟨rfl, rfl, ?_⟩
        show ((pm.SposetMap.set s m').getD s _).numElements = _
        rw [getD_set_same _ _ _ _ (by rw [hinv.len_maps]; exact hs)]
        exact hnum


theorem posetMap_find_spec (cfg : NCT) (hashOf : PosetObj → Nat)
    (all : List AnnotatedPosetObj) (hc : HashCompatible cfg hashOf all) (pm : PosetMap)
    (kept : List AnnotatedPosetObj) (y : AnnotatedPosetObj)
    (hsub : ∀ o, o ∈ kept → o ∈ all) (hy : y ∈ all) (hinv : PosetMapInv cfg hashOf pm kept)
    (hex : kept.any (fun o => equalityCascade cfg y o.poset) = true) :
    pm.find cfg y = some (representative cfg pm.numLocks kept y) := by
  have hs : y.GetLockHash % pm.numLocks < pm.numLocks := Nat.mod_lt _ hinv.locks_pos
  rw [any_keptOf cfg hashOf all hc pm.numLocks kept hsub y hy, List.any_eq_true] at hex
  obtain ⟨o, ho, heq⟩ := hex
  obtain ⟨i, hio⟩ := List.mem_iff_get.mp ho
  unfold PosetMap.find representative
  simp only
  generalize hsdef : y.GetLockHash % pm.numLocks = s at hs ho i hio ⊢
  obtain ⟨hmap, hcont⟩ := hinv.shard s hs
  have hmem := (keptOf_sub _ _ _ o ho).1
  have hpair := keptOf_pairwise cfg pm.numLocks s kept hinv.distinct
  have hsubK : ∀ o, o ∈ keptOf pm.numLocks s kept → o ∈ all :=
    fun o ho => hsub o (keptOf_sub _ _ _ o ho).1
  have heqi : equalityCascade cfg y ((keptOf pm.numLocks s kept).get i).poset = true := by
    rw [hio]; exact heq
  have hidx : (keptOf pm.numLocks s kept).findIdx (fun o => equalityCascade cfg y o.poset)
      = i := by
    apply findIdx_unique _ _ i i.2 heqi
    intro j hj hjeq
    exact kept_unique cfg hashOf all hc _ hsubK hpair y hy j i hj i.2 hjeq heqi
  rw [hidx]
  have hlen : (i : Nat) < (pm.Scontainers.getD s []).length := by
    rw [hcont]; simp
  have hfind := find_spec cfg ptrSmall id hashOf PosetObj.new (pm.Scontainers.getD s [])
    (pm.SposetMap.getD s (MyHashmap.new ptrSmall 0)) y i hmap hlen
    (by
      rw [hcont, getD_map_poset _ _ i.2]
      show hashOf ((keptOf pm.numLocks s kept).get i).poset = y.hash
      rw [hio, hc.stored o (hsub o hmem)]
      exact (hc.hash_eq y o hy (hsub o hmem) heq).symm)
    (by
      simp only [id]
      rw [hcont, getD_map_poset _ _ i.2]
      exact heqi)
    (by
      intro i' hi' heq'
      have hi'K : i' < (keptOf pm.numLocks s kept).length := by
        rw [hcont] at hi'; simpa using hi'
      simp only [id] at heq'
      rw [hcont, getD_map_poset _ _ hi'K] at heq'
      exact kept_unique cfg hashOf all hc _ hsubK hpair y hy i' i hi'K i.2 heq' heqi)
  rw [hfind]
  rfl

theorem new_mapInv (w : PtrWidths) (capacity : Nat) (hc : 0 < capacity) :
    MapInv w (MyHashmap.new w capacity) [] := by
  refine ⟨hc, Nat.two_pow_pos _, ?_, ?_, ?_, ?_, ?_, ?_⟩
  · intro s hs; simp [MyHashmap.new, invalid_not_valid] at hs
  · intro s hs; simp [MyHashmap.new, invalid_not_valid] at hs
  · intro s s' hs; simp [MyHashmap.new, invalid_not_valid] at hs
  · intro i hi; simp at hi
  · intro s hs; simp [MyHashmap.new, invalid_not_valid] at hs
  · intro s hs; simp [MyHashmap.new, invalid_not_valid] at hs

theorem getD_replicate {α : Type} (n i : Nat) (v d : α) (hi : i < n) :
    (List.replicate n v).getD i d = v := by
  rw [List.getD_eq_getElem _ _ (by simpa using hi)]
  simp

theorem new_posetMapInv (cfg : NCT) (hashOf : PosetObj → Nat) (numLocks capacity : Nat)
    (hl : 0 < numLocks) (hc : 0 < capacity) :
    PosetMapInv cfg hashOf (PosetMap.new numLocks capacity) [] := by
  refine ⟨hl, by simp [PosetMap.new], by simp [PosetMap.new], ?_, List.Pairwise.nil⟩
  intro s hs
  have hs' : s < numLocks := hs
  show MapInv ptrSmall ((List.replicate numLocks _).getD s _)
    (((List.replicate numLocks ([] : List PosetObj)).getD s []).map hashOf) ∧
    (List.replicate numLocks ([] : List PosetObj)).getD s [] = _
  rw [getD_replicate _ _ _ _ hs', getD_replicate _ _ _ _ hs']
  exact ⟨new_mapInv ptrSmall capacity hc, by simp [keptOf]⟩

theorem addDistinct_sub (cfg : NCT) (all kept : List AnnotatedPosetObj) (x : AnnotatedPosetObj)
    (hsub : ∀ o, o ∈ kept → o ∈ all) (hx : x ∈ all) :
    ∀ o, o ∈ addDistinct cfg kept x → o ∈ all := by
  intro o ho
  unfold addDistinct at ho
  split at ho
  · exact hsub o ho
  · rw [List.mem_append, List.mem_singleton] at ho
    rcases ho with h | h
    · exact hsub o h
    · rw [h]; exact hx

theorem addDistinct_prefix (cfg : NCT) (kept : List AnnotatedPosetObj) (x : AnnotatedPosetObj) :
    ∃ extra, addDistinct cfg kept x = kept ++ extra := by
  unfold addDistinct
  split
  · exact ⟨[], by simp⟩
  · exact ⟨[x], rfl⟩

theorem foldl_addDistinct_prefix (cfg : NCT) (ys : List AnnotatedPosetObj) :
    ∀ kept, ∃ extra, ys.foldl (addDistinct cfg) kept = kept ++ extra := by
  induction ys with
  | nil => intro kept; exact ⟨[], by simp⟩
  | cons y ys ih =>
    intro kept
    obtain ⟨e1, h1⟩ := addDistinct_prefix cfg kept y
    obtain ⟨e2, h2⟩ := ih (addDistinct cfg kept y)
    refine ⟨e1 ++ e2, ?_⟩
    rw [List.foldl_cons, h2, h1, List.append_assoc]

theorem addDistinct_any (cfg : NCT) (kept : List AnnotatedPosetObj) (x : AnnotatedPosetObj) :
    (addDistinct cfg kept x).any (fun o => equalityCascade cfg x o.poset) = true := by
  unfold addDistinct
  split
  · assumption
  · rw [List.any_append]
    simp [equalityCascade_self]

theorem representative_append (cfg : NCT) (numLocks : Nat) (kept extra : List AnnotatedPosetObj)
    (y : AnnotatedPosetObj)
    (hex : kept.any (fun o => equalityCascade cfg y o.poset) = true)
    (hall : ∀ o, o ∈ kept → equalityCascade cfg y o.poset = true →
      o.GetLockHash % numLocks = y.GetLockHash % numLocks) :
    representative cfg numLocks (kept ++ extra) y = representative cfg numLocks kept y := by
  unfold representative keptOf
  congr 1
  rw [List.filter_append]
  rw [List.any_eq_true] at hex
  obtain ⟨o, ho, heq⟩ := hex
  have hmem : o ∈ kept.filter (fun o => decide (o.GetLockHash % numLocks
      = y.GetLockHash % numLocks)) := by
    rw [List.mem_filter]
    exact ⟨ho, by simpa using hall o ho heq⟩
  rw [List.findIdx_append]
  rw [if_pos (List.findIdx_lt_length_of_exists ⟨o, hmem, heq⟩)]


theorem insertAll_spec (cfg : NCT) (fl : FloatOps) (hashOf : PosetObj → Nat) (retries : Nat)
    (all : List AnnotatedPosetObj) (hc : HashCompatible cfg hashOf all) :
    ∀ (ys : List AnnotatedPosetObj) (pm : PosetMap) (kept : List AnnotatedPosetObj)
      (pm' : PosetMap) (refs : List (Nat × Nat)),
      (∀ y, y ∈ ys → y ∈ all) → (∀ o, o ∈ kept → o ∈ all) → PosetMapInv cfg hashOf pm kept →
      PosetMap.insertAll cfg fl hashOf retries ys pm = some (pm', refs) →
      PosetMapInv cfg hashOf pm' (ys.foldl (addDistinct cfg) kept) ∧
      pm'.numLocks = pm.numLocks ∧ refs.length = ys.length ∧
      ∀ k (hk : k < ys.length),
        refs.get? k = some (representative cfg pm.numLocks (ys.foldl (addDistinct cfg) kept)
          (ys.get ⟨k, hk⟩)) ∧
        (ys.foldl (addDistinct cfg) kept).any
          (fun o => equalityCascade cfg (ys.get ⟨k, hk⟩) o.poset) = true := by
  intro ys
  induction ys with
  | nil =>
    intro pm kept pm' refs _ _ hinv h
    simp only [PosetMap.insertAll, Option.some.injEq, Prod.mk.injEq] at h
    obtain ⟨h1, h2⟩ := h
    subst h1 h2
    exact ⟨hinv, rfl, rfl, fun k hk => absurd hk (by simp)⟩
  | cons x xs ih =>
    intro pm kept pm' refs hys hsub hinv h
    unfold PosetMap.insertAll at h
    cases h1 : pm.findAndInsert cfg fl hashOf retries x with
    | none => rw [h1] at h; simp at h
    | some res =>
      obtain ⟨pm1, r⟩ := res
      rw [h1] at h
      simp only [Option.map_eq_some'] at h
      obtain ⟨q, hq, hq'⟩ := h
      simp only [Prod.mk.injEq] at hq'
      obtain ⟨hq1, hq2⟩ := hq'
      have hx : x ∈ all := hys x (List.mem_cons_self _ _)
      obtain ⟨hinv1, hnl1, hr, _, _⟩ := posetMap_insert_inv cfg fl hashOf retries all hc pm pm1
        kept x r hsub hx hinv h1
      have hsub1 := addDistinct_sub cfg all kept x hsub hx
      have hq0 : PosetMap.insertAll cfg fl hashOf retries xs pm1 = some (q.1, q.2) := hq
      obtain ⟨hinv', hnl', hlen', hrefs'⟩ := ih pm1 (addDistinct cfg kept x) q.1 q.2
        (fun y hy => hys y (List.mem_cons_of_mem _ hy)) hsub1 hinv1 hq0
      subst hq1 hq2
      rw [List.foldl_cons]
      refine ⟨hinv', by rw [hnl', hnl1], by simp [hlen'], ?_⟩
      intro k hk
      obtain ⟨extra, hextra⟩ := foldl_addDistinct_prefix cfg xs (addDistinct cfg kept x)
      cases k with
      | zero =>
        simp only [List.get?_cons_zero, List.get_eq_getElem, List.getElem_cons_zero]
        have hany := addDistinct_any cfg kept x
        refine ⟨?_, ?_⟩
        · rw [hr, hextra]
          congr 1
          symm
          apply representative_append cfg pm.numLocks _ extra x hany
          intro o ho heq
          rw [lockHash_eq x o (hc.hash_eq x o hx (hsub1 o ho) heq)]
        · rw [hextra, List.any_append, hany]; rfl
      | succ k =>
        have hk' : k < xs.length := by simpa using hk
        have := hrefs' k hk'
        rw [hnl1] at this
        simpa using this

theorem foldl_addDistinct_sub (cfg : NCT) (ys : List AnnotatedPosetObj) :
    ∀ kept o, o ∈ ys.foldl (addDistinct cfg) kept → o ∈ kept ∨ o ∈ ys := by
  induction ys with
  | nil => intro kept o h; exact Or.inl h
  | cons y ys ih =>
    intro kept o h
    rw [List.foldl_cons] at h
    rcases ih _ o h with h1 | h1
    · unfold addDistinct at h1
      split at h1
      · exact Or.inl h1
      · rw [List.mem_append, List.mem_singleton] at h1
        rcases h1 with h2 | h2
        · exact Or.inl h2
        · exact Or.inr (by rw [h2]; exact List.mem_cons_self _ _)
    · exact Or.inr (List.mem_cons_of_mem _ h1)

theorem sum_indicator (n v : Nat) (hv : v < n) :
    ((List.range n).map (fun s => if v = s then 1 else 0)).sum = 1 := by
  induction n with
  | zero => omega
  | succ n ih =>
    rw [List.range_succ, List.map_append, List.sum_append]
    by_cases h : v = n
    · subst h
      have : ((List.range v).map (fun s => if v = s then 1 else 0)).sum = 0 := by
        apply List.sum_eq_zero
        intro x hx
        rw [List.mem_map] at hx
        obtain ⟨s, hs, hx⟩ := hx
        rw [List.mem_range] at hs
        rw [← hx, if_neg (by omega)]
      rw [this]; simp
    · rw [ih (by omega)]
      simp [h]

theorem sum_keptOf_length (numLocks : Nat) (hl : 0 < numLocks)
    (kept : List AnnotatedPosetObj) :
    ((List.range numLocks).map (fun s => (keptOf numLocks s kept).length)).sum = kept.length := by
  induction kept with
  | nil => simp [keptOf]
  | cons o kept ih =>
    have hstep : ∀ s, (keptOf numLocks s (o :: kept)).length =
        (if o.GetLockHash % numLocks = s then 1 else 0) + (keptOf numLocks s kept).length := by
      intro s
      unfold keptOf
      rw [List.filter_cons]
      by_cases h : o.GetLockHash % numLocks = s
      · simp [h]; omega
      · simp [h]
    simp only [hstep]
    rw [List.sum_map_add, ih, sum_indicator numLocks _ (Nat.mod_lt _ hl)]
    simp; omega

theorem countPosets_eq (cfg : NCT) (hashOf : PosetObj → Nat) (pm : PosetMap)
    (kept : List AnnotatedPosetObj) (hinv : PosetMapInv cfg hashOf pm kept) :
    pm.countPosets = kept.length := by
  unfold PosetMap.countPosets
  rw [← sum_keptOf_length pm.numLocks hinv.locks_pos kept]
  congr 1
  apply List.map_congr_left
  intro s hs
  rw [List.mem_range] at hs
  rw [(hinv.shard s hs).2]
  simp


/-- Claim C9: let the records `xs` be passed one after the other to `findAndInsert` of a fresh
`PosetMap` (any shard count and capacity, any load-factor and growth rule, so any number of
rehashes, no `clear`), the calls returning the references `refs`.  If the hash map's
contract holds for `xs` (the hash recomputed from a stored record is the record's hash,
records equal under the equality cascade have equal hashes, the cascade is an equivalence),
then `find` on the final map returns for every record of the sequence exactly the shard and
record-store index that its `findAndInsert` call returned. -/
theorem posetMap_find_after_insert (cfg : NCT) (fl : FloatOps) (hashOf : PosetObj → Nat)
    (retries numLocks capacity : Nat) (xs : List AnnotatedPosetObj) (hl : 0 < numLocks)
    (hcap : 0 < capacity) (hc : HashCompatible cfg hashOf xs) (pm : PosetMap)
    (refs : List (Nat × Nat))
    (hrun : PosetMap.insertAll cfg fl hashOf retries xs (PosetMap.new numLocks capacity)
      = some (pm, refs)) :
    ∀ k (hk : k < xs.length), pm.find cfg (xs.get ⟨k, hk⟩) = refs.get? k := by
  intro k hk
  obtain ⟨hinv, hnl, _, hrefs⟩ := insertAll_spec cfg fl hashOf retries xs hc xs
    (PosetMap.new numLocks capacity) [] pm refs (fun y hy => hy) (by simp)
    (new_posetMapInv cfg hashOf numLocks capacity hl hcap) hrun
  obtain ⟨hr, hany⟩ := hrefs k hk
  have hsub : ∀ o, o ∈ xs.foldl (addDistinct cfg) [] → o ∈ xs := by
    intro o ho
    rcases foldl_addDistinct_sub cfg xs [] o ho with h | h
    · simp at h
    · exact h
  rw [posetMap_find_spec cfg hashOf xs hc pm _ _ hsub (List.get_mem xs k hk) hinv hany, hr, hnl]

/-- Claim C10: on the map `pm` reached from a fresh `PosetMap` by inserting the records `xs`
(the hash map's contract holding for `xs` and `x`), `countPosets` is the number of pairwise
non-equal records inserted, and `findAndInsert(x)` behaves as follows.  If `x` is equal
under the equality cascade to an inserted record, the call returns the reference that the
insertion of that record returned, the reference points to a stored record equal to `x`,
and the record stores and every shard's `numElements` are unchanged.  Otherwise exactly one
record, that of `x`, is appended to the store of the shard of `x`, its new index is
returned, and `numElements` of that shard and `countPosets` grow by one. -/
theorem posetMap_dedup (cfg : NCT) (fl : FloatOps) (hashOf : PosetObj → Nat)
    (retries numLocks capacity : Nat) (xs : List AnnotatedPosetObj) (x : AnnotatedPosetObj)
    (hl : 0 < numLocks) (hcap : 0 < capacity) (hc : HashCompatible cfg hashOf (xs ++ [x]))
    (pm : PosetMap) (refs : List (Nat × Nat))
    (hrun : PosetMap.insertAll cfg fl hashOf retries xs (PosetMap.new numLocks capacity)
      = some (pm, refs))
    (pm' : PosetMap) (r : Nat × Nat)
    (hins : pm.findAndInsert cfg fl hashOf retries x = some (pm', r)) :
    pm.countPosets = (distinctRecords cfg xs).length ∧
    pm'.countPosets = (distinctRecords cfg (xs ++ [x])).length ∧
    (∀ k (hk : k < xs.length), equalityCascade cfg x (xs.get ⟨k, hk⟩).poset = true →
      refs.get? k = some r ∧
      r.2 < (pm.Scontainers.getD r.1 []).length ∧
      equalityCascade cfg x ((pm.Scontainers.getD r.1 []).getD r.2 PosetObj.new) = true ∧
      pm'.Scontainers = pm.Scontainers ∧
      pm'.SposetMap.map (fun m => m.numElements) = pm.SposetMap.map (fun m => m.numElements) ∧
      pm'.countPosets = pm.countPosets) ∧
    ((∀ k (hk : k < xs.length), equalityCascade cfg x (xs.get ⟨k, hk⟩).poset = false) →
      pm'.Scontainers = pm.Scontainers.set (x.GetLockHash % pm.numLocks)
        (pm.Scontainers.getD (x.GetLockHash % pm.numLocks) [] ++ [x.poset]) ∧
      r = (x.GetLockHash % pm.numLocks,
        (pm.Scontainers.getD (x.GetLockHash % pm.numLocks) []).length) ∧
      (pm'.SposetMap.getD (x.GetLockHash % pm.numLocks) (MyHashmap.new ptrSmall 0)).numElements =
        (pm.SposetMap.getD (x.GetLockHash % pm.numLocks) (MyHashmap.new ptrSmall 0)).numElements
          + 1 ∧
      pm'.countPosets = pm.countPosets + 1) := by
  have hxs : ∀ y, y ∈ xs → y ∈ xs ++ [x] := fun y hy => List.mem_append_left _ hy
  have hx : x ∈ xs ++ [x] := by simp
  obtain ⟨hinv, hnl, _, hrefs⟩ := insertAll_spec cfg fl hashOf retries (xs ++ [x]) hc xs
    (PosetMap.new numLocks capacity) [] pm refs hxs (by simp)
    (new_posetMapInv cfg hashOf numLocks capacity hl hcap) hrun
  have hkept : xs.foldl (addDistinct cfg) [] = distinctRecords cfg xs := rfl
  rw [hkept] at hinv hrefs
  have hsub : ∀ o, o ∈ distinctRecords cfg xs → o ∈ xs ++ [x] := by
    intro o ho
    rcases foldl_addDistinct_sub cfg xs [] o ho with h | h
    · simp at h
    · exact hxs o h
  obtain ⟨hinv', hnl', hr, hold, hnew⟩ := posetMap_insert_inv cfg fl hashOf retries (xs ++ [x])
    hc pm pm' (distinctRecords cfg xs) x r hsub hx hinv hins
  have hkept' : addDistinct cfg (distinctRecords cfg xs) x = distinctRecords cfg (xs ++ [x]) := by
    unfold distinctRecords
    rw [List.foldl_append]; rfl
  have hcount := countPosets_eq cfg hashOf pm _ hinv
  have hcount' := countPosets_eq cfg hashOf pm' _ hinv'
  rw [hkept'] at hcount'
  refine ⟨hcount, hcount', ?_, ?_⟩
  · intro k hk heq
    have hmk : xs.get ⟨k, hk⟩ ∈ xs ++ [x] := hxs _ (List.get_mem xs k hk)
    obtain ⟨hrk, hanyk⟩ := hrefs k hk
    -- a kept record equal to `xs[k]`, hence to `x`
    rw [List.any_eq_true] at hanyk
    obtain ⟨o, ho, hoeq⟩ := hanyk
    have hxo : equalityCascade cfg x o.poset = true :=
      cascade_trans cfg hashOf _ hc x _ o hx hmk (hsub o ho) heq hoeq
    have hanyT : (distinctRecords cfg xs).any (fun o => equalityCascade cfg x o.poset) = true := by
      rw [List.any_eq_true]; exact ⟨o, ho, hxo⟩
    have hadd : addDistinct cfg (distinctRecords cfg xs) x = distinctRecords cfg xs := by
      unfold addDistinct; rw [if_pos hanyT]
    obtain ⟨hcont, hnum⟩ := hold hanyT
    -- both `x` and `xs[k]` have the kept record `o` as their representative
    have hshard : (xs.get ⟨k, hk⟩).GetLockHash = x.GetLockHash :=
      lockHash_eq _ _ (hc.hash_eq x _ hx hmk heq).symm
    have hpair := keptOf_pairwise cfg pm.numLocks (x.GetLockHash % pm.numLocks)
      (distinctRecords cfg xs) hinv.distinct
    have hsubK : ∀ o, o ∈ keptOf pm.numLocks (x.GetLockHash % pm.numLocks)
        (distinctRecords cfg xs) → o ∈ xs ++ [x] :=
      fun o ho => hsub o (keptOf_sub _ _ _ o ho).1
    have hoK : o ∈ keptOf pm.numLocks (x.GetLockHash % pm.numLocks) (distinctRecords cfg xs) := by
      rw [lockHash_eq x o (hc.hash_eq x o hx (hsub o ho) hxo)]
      exact mem_keptOf _ _ _ ho
    obtain ⟨i, hio⟩ := List.mem_iff_get.mp hoK
    have hrepx : representative cfg pm.numLocks (distinctRecords cfg xs) x =
        (x.GetLockHash % pm.numLocks, (i : Nat)) := by
      unfold representative
      congr 1
      apply findIdx_unique _ _ i i.2 (by rw [hio]; exact hxo)
      intro j hj hjeq
      exact kept_unique cfg hashOf _ hc _ hsubK hpair x hx j i hj i.2 hjeq
        (by rw [hio]; exact hxo)
    have hrepk : representative cfg pm.numLocks (distinctRecords cfg xs) (xs.get ⟨k, hk⟩) =
        (x.GetLockHash % pm.numLocks, (i : Nat)) := by
      unfold representative
      rw [hshard]
      congr 1
      apply findIdx_unique _ _ i i.2 (by rw [hio]; exact hoeq)
      intro j hj hjeq
      exact kept_unique cfg hashOf _ hc _ hsubK hpair _ hmk j i hj i.2 hjeq
        (by rw [hio]; exact hoeq)
    have hrval : r = (x.GetLockHash % pm.numLocks, (i : Nat)) := by
      rw [hr, hadd, hrepx]
    have hsh : x.GetLockHash % pm.numLocks < pm.numLocks := Nat.mod_lt _ hinv.locks_pos
    have hcontK := (hinv.shard _ hsh).2
    refine ⟨?_, ?_, ?_, hcont, hnum, ?_⟩
    · rw [hrk, ← hnl, hrepk, hrval]
    · rw [hrval]; simp only
      rw [hcontK]; simp
    · rw [hrval]; simp only
      rw [hcontK, getD_map_poset _ _ i.2]
      show equalityCascade cfg x ((keptOf _ _ _).get i).poset = true
      rw [hio]; exact hxo
    · rw [hcount', hcount, ← hkept', hadd]
  · intro hnone
    have hanyF : (distinctRecords cfg xs).any (fun o => equalityCascade cfg x o.poset)
        = false := by
      rw [List.any_eq_false]
      intro o ho
      rcases foldl_addDistinct_sub cfg xs [] o ho with h | h
      · simp at h
      · obtain ⟨k, hk⟩ := List.mem_iff_get.mp h
        have := hnone k k.2
        rw [show xs.get ⟨k, k.2⟩ = o from hk] at this
        simp [this]
    obtain ⟨hcont, hr2, hnum⟩ := hnew hanyF
    have hadd : addDistinct cfg (distinctRecords cfg xs) x = distinctRecords cfg xs ++ [x] := by
      unfold addDistinct; rw [if_neg (by rw [hanyF]; simp)]
    refine ⟨hcont, ?_, hnum, ?_⟩
    · have h1 : r.1 = x.GetLockHash % pm.numLocks := by rw [hr]; rfl
      exact Prod.ext h1 hr2
    · rw [hcount', hcount, ← hkept', hadd]; simp


theorem sample_compatible (xs : List AnnotatedPosetObj)
    (h1 : ∀ x ∈ xs, computeHash ⟨4, 4, 5⟩ x.poset = x.hash)
    (h2 : ∀ x ∈ xs, ∀ y ∈ xs, equalityCascade ⟨4, 4, 5⟩ x y.poset = true → x.hash = y.hash)
    (h3 : ∀ x ∈ xs, ∀ y ∈ xs, ∀ z ∈ xs, equalityCascade ⟨4, 4, 5⟩ x z.poset = true →
      equalityCascade ⟨4, 4, 5⟩ y z.poset = true → equalityCascade ⟨4, 4, 5⟩ x y.poset = true) :
    HashCompatible ⟨4, 4, 5⟩ (computeHash ⟨4, 4, 5⟩) xs :=
  ⟨h1, fun x y hx hy => h2 x hx y hy, fun x y z hx hy hz => h3 x hx y hy z hz⟩

theorem posetMap_find_after_insert_witness :
    ∃ pm refs,
      PosetMap.insertAll ⟨4, 4, 5⟩ exactFloatOps (computeHash ⟨4, 4, 5⟩) 4
        [sampleRecord 1, sampleRecord 3, sampleRecord 1] (PosetMap.new 2 993) = some (pm, refs) ∧
      ∀ k (hk : k < [sampleRecord 1, sampleRecord 3, sampleRecord 1].length),
        pm.find ⟨4, 4, 5⟩ ([sampleRecord 1, sampleRecord 3, sampleRecord 1].get ⟨k, hk⟩)
          = refs.get? k := by
  have hsome : (PosetMap.insertAll ⟨4, 4, 5⟩ exactFloatOps (computeHash ⟨4, 4, 5⟩) 4
      [sampleRecord 1, sampleRecord 3, sampleRecord 1] (PosetMap.new 2 993)).isSome = true := by
    decide
  obtain ⟨q, hq⟩ := Option.isSome_iff_exists.mp hsome
  exact ⟨q.1, q.2, hq,
    posetMap_find_after_insert ⟨4, 4, 5⟩ exactFloatOps (computeHash ⟨4, 4, 5⟩) 4 2 993
      [sampleRecord 1, sampleRecord 3, sampleRecord 1] (by decide) (by decide)
      (sample_compatible _ (by decide) (by decide) (by decide)) q.1 q.2 hq⟩

theorem getD_of_isSome {α : Type} (o : Option α) (d : α) (h : o.isSome = true) :
    o = some (o.getD d) := by
  cases o with
  | none => simp at h
  | some v => rfl

theorem posetMap_dedup_witness :
    ∃ pm refs pm' r,
      PosetMap.insertAll ⟨4, 4, 5⟩ exactFloatOps (computeHash ⟨4, 4, 5⟩) 4
        [sampleRecord 1, sampleRecord 3] (PosetMap.new 2 993) = some (pm, refs) ∧
      pm.findAndInsert ⟨4, 4, 5⟩ exactFloatOps (computeHash ⟨4, 4, 5⟩) 4 (sampleRecord 1)
        = some (pm', r) ∧
      pm.countPosets = (distinctRecords ⟨4, 4, 5⟩ [sampleRecord 1, sampleRecord 3]).length ∧
      pm'.countPosets =
        (distinctRecords ⟨4, 4, 5⟩ ([sampleRecord 1, sampleRecord 3] ++ [sampleRecord 1])).length := by
  have hsome : (PosetMap.insertAll ⟨4, 4, 5⟩ exactFloatOps (computeHash ⟨4, 4, 5⟩) 4
      [sampleRecord 1, sampleRecord 3] (PosetMap.new 2 993)).isSome = true := by
    decide
  have hsome2 : ((((PosetMap.insertAll ⟨4, 4, 5⟩ exactFloatOps (computeHash ⟨4, 4, 5⟩) 4
      [sampleRecord 1, sampleRecord 3] (PosetMap.new 2 993)).getD
        (PosetMap.new 2 993, [])).1).findAndInsert
        ⟨4, 4, 5⟩ exactFloatOps (computeHash ⟨4, 4, 5⟩) 4 (sampleRecord 1)).isSome = true := by
    decide
  have h1 := getD_of_isSome _ (PosetMap.new 2 993, []) hsome
  have h2 := getD_of_isSome _ ((PosetMap.new 2 993, (0, 0))) hsome2
  have hc : HashCompatible ⟨4, 4, 5⟩ (computeHash ⟨4, 4, 5⟩)
      ([sampleRecord 1, sampleRecord 3] ++ [sampleRecord 1]) :=
    sample_compatible _ (by decide) (by decide) (by decide)
  have h := posetMap_dedup ⟨4, 4, 5⟩ exactFloatOps (computeHash ⟨4, 4, 5⟩) 4 2 993
    [sampleRecord 1, sampleRecord 3] (sampleRecord 1) (by decide) (by decide)
    hc _ _ h1 _ _ h2
  exact ⟨_, _, _, _, h1, h2, h.1, h.2.1⟩


theorem getD_map_range (n : Nat) (F : Nat → Nat) (i : Nat) :
    ((List.range n).map F).getD i 0 = if i < n then F i else 0 := by
  by_cases h : i < n
  · rw [if_pos h, List.getD_eq_getElem _ _ (by simpa using h)]
    simp
  · rw [if_neg h, List.getD_eq_default _ _ (by simpa using h)]

theorem reverse_get (n : Nat) (m : AdjacencyMatrix) (i j : Nat) :
    (AdjacencyMatrix.reverse n m).get i j = (decide (i < n) && (decide (j < n) && m.get j i)) := by
  unfold AdjacencyMatrix.reverse AdjacencyMatrix.get
  rw [getD_map_range]
  by_cases h : i < n
  · rw [if_pos h, vertexMask_testBit]; simp [h, AdjacencyMatrix.get]
  · rw [if_neg h]; simp [h]

theorem reverse_length (n : Nat) (m : AdjacencyMatrix) :
    (AdjacencyMatrix.reverse n m).length = n := by
  simp [AdjacencyMatrix.reverse]

theorem extendPermutation_getD (perm : List Nat) (n i : Nat) :
    (extendPermutation perm n).getD i 0 =
      if i < perm.length then perm.getD i 0 else if i < n then i else 0 := by
  unfold extendPermutation
  by_cases h : i < perm.length
  · rw [if_pos h, List.getD_append _ _ _ _ h]
  · rw [if_neg h, List.getD_append_right _ _ _ _ (by omega)]
    by_cases h2 : i < n
    · rw [if_pos h2, List.getD_eq_getElem _ _ (by simp; omega)]
      simp; omega
    · rw [if_neg h2, List.getD_eq_default _ _ (by simp; omega)]

theorem reorder_get (n : Nat) (m : AdjacencyMatrix) (p : List Nat) (i j : Nat) :
    (AdjacencyMatrix.reorder n m p).get i j =
      (decide (i < n) && (decide (j < n) &&
        m.get ((extendPermutation p n).getD i 0) ((extendPermutation p n).getD j 0))) := by
  unfold AdjacencyMatrix.reorder AdjacencyMatrix.get
  simp only []
  rw [getD_map_range]
  by_cases h : i < n
  · rw [if_pos h, vertexMask_testBit]; simp [h]
  · rw [if_neg h]; simp [h]

theorem reorder_length (n : Nat) (m : AdjacencyMatrix) (p : List Nat) :
    (AdjacencyMatrix.reorder n m p).length = n := by
  simp [AdjacencyMatrix.reorder]

theorem vertexMask_lt (n : Nat) (edge : Nat → Bool) : vertexMask n edge < 2 ^ n := by
  apply Nat.lt_pow_two_of_testBit
  intro i hi
  rw [vertexMask_testBit]
  simp; omega

theorem vertexMask_congr (n : Nat) (e1 e2 : Nat → Bool) :
    vertexMask n e1 = vertexMask n e2 ↔ ∀ j, j < n → e1 j = e2 j := by
  constructor
  · intro h j hj
    have := congrArg (fun x => x.testBit j) h
    simpa [vertexMask_testBit, hj] using this
  · intro h
    apply Nat.eq_of_testBit_eq
    intro j
    rw [vertexMask_testBit, vertexMask_testBit]
    by_cases hj : j < n
    · simp [hj, h j hj]
    · simp [hj]

theorem map_range_congr (n : Nat) (F G : Nat → Nat) :
    (List.range n).map F = (List.range n).map G ↔ ∀ i, i < n → F i = G i := by
  constructor
  · intro h i hi
    have := congrArg (fun l => l.getD i 0) h
    simpa [getD_map_range, hi] using this
  · intro h
    apply List.map_congr_left
    intro i hi
    exact h i (List.mem_range.mp hi)

/-- Two reorderings agree exactly when they agree entry by entry. -/
theorem reorder_eq_iff (n : Nat) (m m' : AdjacencyMatrix) (p q : List Nat) :
    AdjacencyMatrix.reorder n m p = AdjacencyMatrix.reorder n m' q ↔
      ∀ i j, i < n → j < n →
        m.get ((extendPermutation p n).getD i 0) ((extendPermutation p n).getD j 0) =
          m'.get ((extendPermutation q n).getD i 0) ((extendPermutation q n).getD j 0) := by
  unfold AdjacencyMatrix.reorder
  simp only []
  rw [map_range_congr]
  constructor
  · intro h i j hi hj
    exact (vertexMask_congr n _ _).mp (h i hi) j hj
  · intro h i hi
    exact (vertexMask_congr n _ _).mpr (fun j hj => h i j hi hj)


theorem wf_iff (n : Nat) (m : AdjacencyMatrix) :
    AdjacencyMatrix.wf n m = true ↔ m.length = n ∧ ∀ i, i < n → m.getD i 0 < 2 ^ n := by
  simp [AdjacencyMatrix.wf, List.all_eq_true]

theorem wf_get_lt (n : Nat) (m : AdjacencyMatrix) (h : AdjacencyMatrix.wf n m = true) (i j : Nat)
    (hg : m.get i j = true) : i < n ∧ j < n := by
  obtain ⟨hl, hr⟩ := (wf_iff n m).mp h
  unfold AdjacencyMatrix.get at hg
  have hi : i < n := by
    by_contra hc
    rw [List.getD_eq_default _ _ (by omega)] at hg
    simp at hg
  refine ⟨hi, ?_⟩
  by_contra hc
  have := Nat.testBit_lt_two_pow (lt_of_lt_of_le (hr i hi) (Nat.pow_le_pow_right (by decide) (not_lt.mp hc)))
  rw [this] at hg
  exact Bool.noConfusion hg

/-- The inner loop of the closure computation for one `k`. -/
theorem closure_inner (n k : Nat) (d : AdjacencyMatrix) (hl : d.length = n) :
    ∀ t, t ≤ n →
      ((List.range t).foldl (fun d i =>
        if (d.getD i 0).testBit k then d.set i (d.getD i 0 ||| d.getD k 0) else d) d).length = n ∧
      ∀ i, ((List.range t).foldl (fun d i =>
        if (d.getD i 0).testBit k then d.set i (d.getD i 0 ||| d.getD k 0) else d) d).getD i 0 =
        if i < t ∧ (d.getD i 0).testBit k = true then d.getD i 0 ||| d.getD k 0 else d.getD i 0 := by
  intro t
  induction t with
  | zero => intro _; simp [hl]
  | succ t ih =>
    intro ht
    obtain ⟨ihl, ihg⟩ := ih (by omega)
    rw [List.range_succ, List.foldl_append]
    simp only [List.foldl_cons, List.foldl_nil]
    generalize hd' : (List.range t).foldl (fun d i =>
        if (d.getD i 0).testBit k then d.set i (d.getD i 0 ||| d.getD k 0) else d) d = d' at ihl ihg
    have hkk : d'.getD k 0 = d.getD k 0 := by
      rw [ihg]
      split
      · rw [Nat.or_self]
      · rfl
    have htt : d'.getD t 0 = d.getD t 0 := by
      rw [ihg, if_neg (by omega)]
    rw [htt, hkk]
    by_cases hb : (d.getD t 0).testBit k = true
    · rw [if_pos hb]
      refine ⟨by simp [ihl], ?_⟩
      intro i
      by_cases hit : i = t
      · subst hit
        rw [if_pos ⟨by omega, hb⟩, List.getD_eq_getElem _ _ (by simp; omega)]
        simp
      · rw [List.getD_eq_getElem?_getD, List.getElem?_set_ne (Ne.symm hit),
          ← List.getD_eq_getElem?_getD, ihg]
        have : (i < t + 1 ∧ (d.getD i 0).testBit k = true) ↔ (i < t ∧ (d.getD i 0).testBit k = true) := by
          constructor
          · rintro ⟨h1, h2⟩; exact ⟨by omega, h2⟩
          · rintro ⟨h1, h2⟩; exact ⟨by omega, h2⟩
        simp only [this]
    · rw [if_neg hb]
      refine ⟨ihl, ?_⟩
      intro i
      rw [ihg]
      by_cases hit : i = t
      · subst hit
        rw [if_neg (by tauto), if_neg (by tauto)]
      · have : (i < t + 1 ∧ (d.getD i 0).testBit k = true) ↔ (i < t ∧ (d.getD i 0).testBit k = true) := by
          constructor
          · rintro ⟨h1, h2⟩; exact ⟨by omega, h2⟩
          · rintro ⟨h1, h2⟩; exact ⟨by omega, h2⟩
        simp only [this]

/-- One round `k` of the closure computation, entry by entry. -/
theorem closure_round (n k : Nat) (d : AdjacencyMatrix) (hw : AdjacencyMatrix.wf n d = true) :
    AdjacencyMatrix.wf n ((List.range n).foldl (fun d i =>
        if (d.getD i 0).testBit k then d.set i (d.getD i 0 ||| d.getD k 0) else d) d) = true ∧
    ∀ i j, AdjacencyMatrix.get ((List.range n).foldl (fun d i =>
        if (d.getD i 0).testBit k then d.set i (d.getD i 0 ||| d.getD k 0) else d) d) i j =
      (d.get i j || (d.get i k && d.get k j)) := by
  obtain ⟨hl, hr⟩ := (wf_iff n d).mp hw
  obtain ⟨h1, h2⟩ := closure_inner n k d hl n le_rfl
  constructor
  · rw [wf_iff]
    refine ⟨h1, ?_⟩
    intro i hi
    rw [h2]
    split
    · by_cases hk : k < n
      · exact Nat.or_lt_two_pow (hr i hi) (hr k hk)
      · rw [List.getD_eq_default d 0 (show d.length ≤ k by omega), Nat.or_zero]
        exact hr i hi
    · exact hr i hi
  · intro i j
    unfold AdjacencyMatrix.get
    rw [h2]
    by_cases hi : i < n
    · by_cases hb : (d.getD i 0).testBit k = true
      · rw [if_pos ⟨hi, hb⟩, Nat.testBit_or, hb]; simp
      · rw [if_neg (by tauto)]
        simp only [Bool.not_eq_true] at hb
        rw [hb]; simp
    · rw [if_neg (by tauto), List.getD_eq_default _ _ (by omega)]
      simp


theorem closure_outer (n : Nat) (m : AdjacencyMatrix) (hw : AdjacencyMatrix.wf n m = true) :
    ∀ K,
      AdjacencyMatrix.wf n ((List.range K).foldl (fun d k =>
        (List.range n).foldl (fun d i =>
          if (d.getD i 0).testBit k then d.set i (d.getD i 0 ||| d.getD k 0) else d) d) m) = true ∧
      (∀ i j, m.get i j = true → AdjacencyMatrix.get ((List.range K).foldl (fun d k =>
        (List.range n).foldl (fun d i =>
          if (d.getD i 0).testBit k then d.set i (d.getD i 0 ||| d.getD k 0) else d) d) m) i j = true) ∧
      (∀ i j, AdjacencyMatrix.get ((List.range K).foldl (fun d k =>
        (List.range n).foldl (fun d i =>
          if (d.getD i 0).testBit k then d.set i (d.getD i 0 ||| d.getD k 0) else d) d) m) i j = true →
          Relation.TransGen (fun u v => m.get u v = true) i j) ∧
      (∀ i j c, c < K → AdjacencyMatrix.get ((List.range K).foldl (fun d k =>
        (List.range n).foldl (fun d i =>
          if (d.getD i 0).testBit k then d.set i (d.getD i 0 ||| d.getD k 0) else d) d) m) i c = true →
        AdjacencyMatrix.get ((List.range K).foldl (fun d k =>
        (List.range n).foldl (fun d i =>
          if (d.getD i 0).testBit k then d.set i (d.getD i 0 ||| d.getD k 0) else d) d) m) c j = true →
        AdjacencyMatrix.get ((List.range K).foldl (fun d k =>
        (List.range n).foldl (fun d i =>
          if (d.getD i 0).testBit k then d.set i (d.getD i 0 ||| d.getD k 0) else d) d) m) i j = true) := by
  intro K
  induction K with
  | zero =>
    refine ⟨hw, fun _ _ h => h, fun _ _ h => Relation.TransGen.single h, ?_⟩
    intro i j c hc
    omega
  | succ K ih =>
    rw [List.range_succ, List.foldl_append]
    simp only [List.foldl_cons, List.foldl_nil]
    generalize (List.range K).foldl (fun d k =>
        (List.range n).foldl (fun d i =>
          if (d.getD i 0).testBit k then d.set i (d.getD i 0 ||| d.getD k 0) else d) d) m = d at ih
    obtain ⟨hwd, hM, hS, hQ⟩ := ih
    obtain ⟨hw', hg⟩ := closure_round n K d hwd
    refine ⟨hw', ?_, ?_, ?_⟩
    · intro i j h
      rw [hg, hM i j h]; rfl
    · intro i j h
      rw [hg] at h
      simp only [Bool.or_eq_true, Bool.and_eq_true] at h
      rcases h with h | ⟨h1, h2⟩
      · exact hS i j h
      · exact Relation.TransGen.trans (hS _ _ h1) (hS _ _ h2)
    · intro i j c hc h1 h2
      rw [hg] at h1 h2 ⊢
      simp only [Bool.or_eq_true, Bool.and_eq_true] at h1 h2 ⊢
      by_cases hck : c = K
      · subst hck
        have a1 : d.get i c = true := by tauto
        have a2 : d.get c j = true := by tauto
        exact Or.inr ⟨a1, a2⟩
      · have hc' : c < K := by omega
        rcases h1 with h1 | ⟨h1, h1'⟩
        · rcases h2 with h2 | ⟨h2, h2'⟩
          · exact Or.inl (hQ i j c hc' h1 h2)
          · exact Or.inr ⟨hQ i K c hc' h1 h2, h2'⟩
        · rcases h2 with h2 | ⟨h2, h2'⟩
          · exact Or.inr ⟨h1, hQ K j c hc' h1' h2⟩
          · exact Or.inr ⟨h1, h2'⟩

theorem closure_wf (n : Nat) (m : AdjacencyMatrix) (hw : AdjacencyMatrix.wf n m = true) :
    AdjacencyMatrix.wf n (AdjacencyMatrix.TransitiveClosure n m) = true :=
  (closure_outer n m hw n).1

/-- The computed closure is the transitive closure of the edge relation. -/
theorem closure_spec (n : Nat) (m : AdjacencyMatrix) (hw : AdjacencyMatrix.wf n m = true)
    (i j : Nat) :
    (AdjacencyMatrix.TransitiveClosure n m).get i j = true ↔
      Relation.TransGen (fun u v => m.get u v = true) i j := by
  obtain ⟨hwd, hM, hS, hQ⟩ := closure_outer n m hw n
  constructor
  · exact hS i j
  · intro h
    induction h with
    | single h => exact hM _ _ h
    | tail _ h2 ih =>
      have h2' := hM _ _ h2
      exact hQ _ _ _ (wf_get_lt n _ hwd _ _ ih).2 ih h2'


theorem getD_map_range_gen {α : Type} (n : Nat) (F : Nat → α) (i : Nat) (d : α) :
    ((List.range n).map F).getD i d = if i < n then F i else d := by
  by_cases h : i < n
  · rw [if_pos h, List.getD_eq_getElem _ _ (by simpa using h)]
    simp
  · rw [if_neg h, List.getD_eq_default _ _ (by simpa using h)]

theorem relabel_lt {r : Nat} {f : Nat → Nat} (hf : Relabel r f) (u : Nat) (hu : u < r) :
    f u < r := by
  have : f u ∈ (List.range r).map f := List.mem_map.mpr ⟨u, List.mem_range.mpr hu, rfl⟩
  exact List.mem_range.mp (hf.permLow.mem_iff.mp this)

theorem relabel_lt_iff {r : Nat} {f : Nat → Nat} (hf : Relabel r f) (u : Nat) :
    f u < r ↔ u < r := by
  constructor
  · intro h
    by_contra hc
    rw [hf.high u (by omega)] at h
    exact hc h
  · exact relabel_lt hf u

theorem relabel_inj {r : Nat} {f : Nat → Nat} (hf : Relabel r f) (u v : Nat)
    (h : f u = f v) : u = v := by
  by_cases hu : u < r
  · have hv : v < r := by
      rw [← relabel_lt_iff hf, ← h]; exact relabel_lt hf u hu
    have hnd : ((List.range r).map f).Nodup := hf.permLow.nodup_iff.mpr (List.nodup_range r)
    exact List.inj_on_of_nodup_map hnd (List.mem_range.mpr hu) (List.mem_range.mpr hv) h
  · have hv : ¬ v < r := by
      rw [← relabel_lt_iff hf, ← h, relabel_lt_iff hf]; exact hu
    rw [hf.high u (by omega), hf.high v (by omega)] at h
    exact h

theorem relabel_surj {r : Nat} {f : Nat → Nat} (hf : Relabel r f) (v : Nat) :
    ∃ u, f u = v ∧ (u < r ↔ v < r) := by
  by_cases hv : v < r
  · have : v ∈ (List.range r).map f := hf.permLow.mem_iff.mpr (List.mem_range.mpr hv)
    obtain ⟨u, hu, rfl⟩ := List.mem_map.mp this
    exact ⟨u, rfl, by simp [List.mem_range.mp hu, hv]⟩
  · exact ⟨v, hf.high v (by omega), Iff.rfl⟩

/-- A relabelling of the reduced vertices permutes all `n` vertices. -/
theorem relabel_perm {r : Nat} {f : Nat → Nat} (hf : Relabel r f) (n : Nat) (hn : r ≤ n) :
    ((List.range n).map f).Perm (List.range n) := by
  obtain ⟨d, rfl⟩ : ∃ d, n = r + d := ⟨n - r, by omega⟩
  rw [List.range_add, List.map_append]
  have : List.map f (List.map (fun x => r + x) (List.range d)) =
      List.map (fun x => r + x) (List.range d) := by
    rw [List.map_map]
    apply List.map_congr_left
    intro x _
    exact hf.high _ (by simp)
  rw [this]
  exact hf.permLow.append_right _

theorem filter_map_perm (n : Nat) (f : Nat → Nat) (P P' : Nat → Bool)
    (hp : ((List.range n).map f).Perm (List.range n))
    (h : ∀ u, u < n → P' u = P (f u)) :
    (((List.range n).filter P').map f).Perm ((List.range n).filter P) := by
  have : (List.range n).filter P' = (List.range n).filter (P ∘ f) := by
    apply List.filter_congr
    intro u hu
    exact h u (List.mem_range.mp hu)
  rw [this, ← List.filter_map]
  exact hp.filter P

theorem writeToGraph_out (n : Nat) (m : AdjacencyMatrix) (hw : AdjacencyMatrix.wf n m = true)
    (hn : n ≤ 32) (v : Nat) :
    (AdjacencyMatrix.writeToGraph n m).outLists.getD v [] =
      (List.range n).filter (fun u => m.get v u) := by
  obtain ⟨hl, hr⟩ := (wf_iff n m).mp hw
  unfold AdjacencyMatrix.writeToGraph
  simp only []
  rw [getD_map_range_gen]
  by_cases hv : v < n
  · rw [if_pos hv, bitsOf_lt _ n hn (hr v hv)]
    rfl
  · rw [if_neg hv]
    symm
    rw [List.filter_eq_nil_iff]
    intro u _
    unfold AdjacencyMatrix.get
    rw [List.getD_eq_default _ _ (by omega)]
    simp

theorem writeToGraph_in (n : Nat) (m : AdjacencyMatrix) (hw : AdjacencyMatrix.wf n m = true)
    (v : Nat) :
    (AdjacencyMatrix.writeToGraph n m).inLists.getD v [] =
      (List.range n).filter (fun u => m.get u v) := by
  unfold AdjacencyMatrix.writeToGraph
  simp only []
  rw [getD_map_range_gen]
  by_cases hv : v < n
  · rw [if_pos hv]
  · rw [if_neg hv]
    symm
    rw [List.filter_eq_nil_iff]
    intro u _
    intro hc
    exact hv (wf_get_lt n m hw u v hc).2

theorem foldl_add_mod (M : Nat) (F : Nat → Nat) (l : List Nat) :
    ∀ a, l.foldl (fun a o => (a + F o) % M) a % M = (a + (l.map F).sum) % M := by
  induction l with
  | nil => intro a; simp
  | cons x l ih =>
    intro a
    simp only [List.foldl_cons, List.map_cons, List.sum_cons]
    rw [ih, Nat.mod_add_mod]
    congr 1
    omega

theorem foldl_add_mod_lt (M : Nat) (F : Nat → Nat) (l : List Nat) (a : Nat) (ha : a < M) :
    l.foldl (fun a o => (a + F o) % M) a = (a + (l.map F).sum) % M := by
  rw [← foldl_add_mod]
  symm
  apply Nat.mod_eq_of_lt
  cases l with
  | nil => exact ha
  | cons x l =>
    have hM : 0 < M := by omega
    have : ∀ (l : List Nat) b, b < M → l.foldl (fun a o => (a + F o) % M) b < M := by
      intro l
      induction l with
      | nil => intro b hb; exact hb
      | cons y l ih => intro b _; exact ih _ (Nat.mod_lt _ hM)
    exact this _ _ ha

/-- The accumulated value is the id times the multiplier plus the sum of the ids over the
out- and in-neighbours, modulo `2^64`. -/
theorem idAccumulate_eq (mult : Nat) (g : NiceGraph) (ids : List Nat) (node : Nat) :
    idAccumulate mult g ids node =
      (ids.getD node 0 * mult +
        ((g.outLists.getD node [] ++ g.inLists.getD node []).map (fun o => ids.getD o 0)).sum)
        % 2 ^ 64 := by
  unfold idAccumulate
  simp only []
  rw [foldl_add_mod_lt (2 ^ 64) (fun o => ids.getD o 0) (g.outLists.getD node [])
    _ (Nat.mod_lt _ (by decide))]
  rw [foldl_add_mod_lt (2 ^ 64) (fun o => ids.getD o 0) (g.inLists.getD node [])
    _ (Nat.mod_lt _ (by decide))]
  rw [List.map_append, List.sum_append, Nat.mod_add_mod, Nat.add_assoc, Nat.mod_add_mod]

theorem idAccumulate_equiv (mult : Nat) (f : Nat → Nat) (g g' : NiceGraph) (ids ids' : List Nat)
    (v : Nat)
    (hnb : ((g'.outLists.getD v [] ++ g'.inLists.getD v []).map f).Perm
      (g.outLists.getD (f v) [] ++ g.inLists.getD (f v) []))
    (hids : ∀ u, ids'.getD u 0 = ids.getD (f u) 0) :
    idAccumulate mult g' ids' v = idAccumulate mult g ids (f v) := by
  rw [idAccumulate_eq, idAccumulate_eq, hids v]
  congr 2
  have : (g'.outLists.getD v [] ++ g'.inLists.getD v []).map (fun o => ids'.getD o 0) =
      ((g'.outLists.getD v [] ++ g'.inLists.getD v []).map f).map (fun o => ids.getD o 0) := by
    rw [List.map_map]
    apply List.map_congr_left
    intro u _
    exact hids u
  rw [this]
  exact (hnb.map _).sum_eq

theorem canonRound_equiv (r : Nat) (f : Nat → Nat) (hf : Relabel r f) (g g' : NiceGraph)
    (deg deg' ids ids' : List Nat)
    (hnb : ∀ v, v < r → ((g'.outLists.getD v [] ++ g'.inLists.getD v []).map f).Perm
      (g.outLists.getD (f v) [] ++ g.inLists.getD (f v) []))
    (hdeg : ∀ v, v < r → deg'.getD v 0 = deg.getD (f v) 0)
    (hids : ∀ u, ids'.getD u 0 = ids.getD (f u) 0) :
    ∀ u, (canonRound r g' deg' ids').getD u 0 = (canonRound r g deg ids).getD (f u) 0 := by
  intro u
  unfold canonRound
  rw [getD_map_range, getD_map_range]
  by_cases hu : u < r
  · rw [if_pos hu, if_pos (relabel_lt hf u hu)]
    simp only []
    rw [idAccumulate_equiv MULT1 f g g' ids ids' u (hnb u hu) hids, hdeg u hu]
  · rw [if_neg hu, if_neg (by rw [relabel_lt_iff hf]; exact hu)]

/-- The ids of a stream are carried along by a relabelling that preserves the degrees the
stream sees and the neighbourhoods. -/
theorem streamIds_equiv (n r : Nat) (f : Nat → Nat) (hf : Relabel r f) (g g' : NiceGraph)
    (rev rev' : Bool)
    (hnb : ∀ v, v < r → ((g'.outLists.getD v [] ++ g'.inLists.getD v []).map f).Perm
      (g.outLists.getD (f v) [] ++ g.inLists.getD (f v) []))
    (ha : ∀ v, v < r →
      (if rev' then (g'.inLists.getD v []).length else (g'.outLists.getD v []).length) =
      (if rev then (g.inLists.getD (f v) []).length else (g.outLists.getD (f v) []).length))
    (hb : ∀ v, v < r →
      (if rev' then (g'.outLists.getD v []).length else (g'.inLists.getD v []).length) =
      (if rev then (g.outLists.getD (f v) []).length else (g.inLists.getD (f v) []).length)) :
    ∀ u, (streamIds n r g' rev').getD u 0 = (streamIds n r g rev).getD (f u) 0 := by
  unfold streamIds
  simp only []
  induction (n / 3) with
  | zero =>
    intro u
    simp only [List.range_zero, List.foldl_nil]
    rw [getD_map_range, getD_map_range]
    by_cases hu : u < r
    · rw [if_pos hu, if_pos (relabel_lt hf u hu), ha u hu, hb u hu]
    · rw [if_neg hu, if_neg (by rw [relabel_lt_iff hf]; exact hu)]
  | succ k ih =>
    rw [List.range_succ, List.foldl_append, List.foldl_append]
    simp only [List.foldl_cons, List.foldl_nil]
    apply canonRound_equiv r f hf g g' _ _ _ _ hnb _ ih
    intro v hv
    rw [getD_map_range, getD_map_range, if_pos hv, if_pos (relabel_lt hf v hv), ha v hv, hb v hv]


theorem layer_cond (row mask j : Nat) :
    mask &&& (row ||| (1 <<< j)) = 1 <<< j ↔
      mask.testBit j = true ∧ ∀ u, mask.testBit u = true → row.testBit u = true → u = j := by
  constructor
  · intro h
    have hb : ∀ i, (mask.testBit i && (row.testBit i || decide (j = i))) = decide (j = i) := by
      intro i
      rw [← testBit_one_shiftLeft, ← Nat.testBit_or, ← Nat.testBit_and, h]
    constructor
    · have := hb j
      simpa using this
    · intro u hu hr
      have := hb u
      rw [hu, hr] at this
      simp at this
      exact this.symm
  · rintro ⟨h1, h2⟩
    apply Nat.eq_of_testBit_eq
    intro i
    rw [Nat.testBit_and, Nat.testBit_or, testBit_one_shiftLeft]
    by_cases hij : j = i
    · subst hij
      simp [h1]
    · simp only [hij, decide_False, Bool.or_false]
      by_cases hm : mask.testBit i = true
      · by_cases hr : row.testBit i = true
        · exact absurd (h2 i hm hr).symm hij
        · simp only [Bool.not_eq_true] at hr
          rw [hr]; simp
      · simp only [Bool.not_eq_true] at hm
        rw [hm]; simp

theorem mem_avail (r mask u : Nat) (hm : mask < 2 ^ r) :
    u ∈ (List.range r).filter (fun u => mask.testBit u) ↔ mask.testBit u = true := by
  rw [List.mem_filter, List.mem_range]
  constructor
  · exact fun h => h.2
  · intro h
    refine ⟨?_, h⟩
    by_contra hc
    rw [Nat.testBit_lt_two_pow (lt_of_lt_of_le hm (Nat.pow_le_pow_right (by decide) (not_lt.mp hc)))] at h
    exact Bool.noConfusion h

theorem layerOf_eq (m : AdjacencyMatrix) (r mask : Nat) (hm : mask < 2 ^ r) :
    layerOf m r mask =
      layerSem (fun j u => m.get j u) ((List.range r).filter (fun u => mask.testBit u)) := by
  unfold layerOf layerSem
  rw [List.filter_filter]
  apply List.filter_congr
  intro j _
  rw [Bool.eq_iff_iff]
  simp only [decide_eq_true_eq, Bool.and_eq_true, List.all_eq_true, Bool.or_eq_true,
    Bool.not_eq_true']
  rw [layer_cond]
  constructor
  · rintro ⟨h1, h2⟩
    refine ⟨?_, h1⟩
    intro u hu
    by_cases hg : m.get j u = true
    · right
      exact h2 u ((mem_avail r mask u hm).mp hu) hg
    · left
      simpa using hg
  · rintro ⟨h2, h1⟩
    refine ⟨h1, ?_⟩
    intro u hu hr
    rcases h2 u ((mem_avail r mask u hm).mpr hu) with h | h
    · unfold AdjacencyMatrix.get at h
      rw [hr] at h
      exact Bool.noConfusion h
    · exact h

theorem avail_nil_iff (r mask : Nat) (hm : mask < 2 ^ r) :
    (List.range r).filter (fun u => mask.testBit u) = [] ↔ mask = 0 := by
  constructor
  · intro h
    apply Nat.eq_of_testBit_eq
    intro i
    rw [Nat.zero_testBit]
    by_contra hc
    simp only [Bool.not_eq_false] at hc
    have := (mem_avail r mask i hm).mpr hc
    rw [h] at this
    simp at this
  · intro h
    subst h
    simp

theorem layers_eq (m : AdjacencyMatrix) (r : Nat) (hr : r ≤ 32) :
    ∀ fuel mask, mask < 2 ^ r →
      getLayerStructureRevAux m r fuel mask =
        layersSem (fun j u => m.get j u) fuel ((List.range r).filter (fun u => mask.testBit u)) := by
  intro fuel
  induction fuel with
  | zero => intro mask _; rfl
  | succ fuel ih =>
    intro mask hm
    unfold getLayerStructureRevAux layersSem
    by_cases h0 : mask = 0
    · rw [if_pos h0, if_pos ((avail_nil_iff r mask hm).mpr h0)]
    · rw [if_neg h0, if_neg (fun h => h0 ((avail_nil_iff r mask hm).mp h))]
      simp only []
      have hle : mask &&& bnot32 (maskOf (layerOf m r mask)) < 2 ^ r :=
        lt_of_le_of_lt Nat.and_le_left hm
      rw [ih _ hle, layerOf_eq m r mask hm]
      congr 2
      rw [List.filter_filter]
      apply List.filter_congr
      intro u hu
      have hu32 : u < 32 := by
        have := List.mem_range.mp hu
        omega
      rw [Nat.testBit_and, bnot32_testBit, maskOf_testBit]
      simp [hu32, Bool.and_comm]


theorem contains_iff (l : List Nat) (u : Nat) : l.contains u = true ↔ u ∈ l := by simp

theorem layerSem_sub (R : Nat → Nat → Bool) (avail : List Nat) (v : Nat)
    (h : v ∈ layerSem R avail) : v ∈ avail :=
  (List.mem_filter.mp h).1

theorem layerSem_equiv (f : Nat → Nat) (hinj : ∀ u v, f u = f v → u = v)
    (R R' : Nat → Nat → Bool) (avail avail' : List Nat)
    (hR : ∀ u v, u ∈ avail' → v ∈ avail' → R' u v = R (f u) (f v))
    (hp : (avail'.map f).Perm avail) :
    ((layerSem R' avail').map f).Perm (layerSem R avail) := by
  unfold layerSem
  have : avail'.filter (fun j => avail'.all (fun u => !R' j u || decide (u = j))) =
      avail'.filter ((fun w => avail.all (fun u => !R w u || decide (u = w))) ∘ f) := by
    apply List.filter_congr
    intro j hj
    rw [Bool.eq_iff_iff]
    simp only [Function.comp, List.all_eq_true, Bool.or_eq_true, Bool.not_eq_true',
      decide_eq_true_eq]
    constructor
    · intro h w hw
      obtain ⟨u, hu, rfl⟩ := List.mem_map.mp (hp.mem_iff.mpr hw)
      rcases h u hu with h1 | h1
      · left; rw [← hR j u hj hu]; exact h1
      · right; rw [h1]
    · intro h u hu
      rcases h (f u) (hp.mem_iff.mp (List.mem_map.mpr ⟨u, hu, rfl⟩)) with h1 | h1
      · left; rw [hR j u hj hu]; exact h1
      · right; exact hinj _ _ h1
  rw [this, ← List.filter_map]
  exact hp.filter _

theorem rest_equiv (f : Nat → Nat) (hinj : ∀ u v, f u = f v → u = v)
    (avail avail' layer layer' : List Nat)
    (hp : (avail'.map f).Perm avail) (hl : (layer'.map f).Perm layer) :
    ((avail'.filter (fun u => !layer'.contains u)).map f).Perm
      (avail.filter (fun u => !layer.contains u)) := by
  have : avail'.filter (fun u => !layer'.contains u) =
      avail'.filter ((fun w => !layer.contains w) ∘ f) := by
    apply List.filter_congr
    intro u _
    simp only [Function.comp]
    congr 1
    rw [Bool.eq_iff_iff]
    rw [contains_iff, contains_iff]
    constructor
    · intro h
      exact hl.mem_iff.mp (List.mem_map.mpr ⟨u, h, rfl⟩)
    · intro h
      obtain ⟨u', hu', he⟩ := List.mem_map.mp (hl.mem_iff.mpr h)
      rw [← hinj _ _ he]; exact hu'
  rw [this, ← List.filter_map]
  exact hp.filter _

/-- The layer decomposition is carried along by a relabelling. -/
theorem layersSem_equiv (f : Nat → Nat) (hinj : ∀ u v, f u = f v → u = v)
    (R R' : Nat → Nat → Bool) :
    ∀ fuel (avail avail' : List Nat),
      (∀ u v, u ∈ avail' → v ∈ avail' → R' u v = R (f u) (f v)) →
      (avail'.map f).Perm avail →
      List.Forall₂ (fun l' l => (l'.map f).Perm l)
        (layersSem R' fuel avail') (layersSem R fuel avail) := by
  intro fuel
  induction fuel with
  | zero => intro _ _ _ _; exact List.Forall₂.nil
  | succ fuel ih =>
    intro avail avail' hR hp
    unfold layersSem
    by_cases h0 : avail' = []
    · subst h0
      have : avail = [] := by simpa using hp.symm
      subst this
      simp
    · have h1 : avail ≠ [] := by
        intro h
        subst h
        have := hp.length_eq
        simp at this
        exact h0 this
      rw [if_neg h0, if_neg h1]
      have hl := layerSem_equiv f hinj R R' avail avail' hR hp
      refine List.Forall₂.cons hl ?_
      apply ih
      · intro u v hu hv
        exact hR u v (List.mem_filter.mp hu).1 (List.mem_filter.mp hv).1
      · exact rest_equiv f hinj avail avail' _ _ hp hl

/-- Structure of the layer decomposition: layers are sublists of the available vertices, no
vertex blocks another one of its layer, and no vertex of a later layer blocks one of an earlier
layer. -/
theorem layersSem_pairwise (R : Nat → Nat → Bool) :
    ∀ fuel (avail : List Nat), avail.Nodup →
      (∀ l ∈ layersSem R fuel avail, l.Nodup ∧ (∀ v ∈ l, v ∈ avail) ∧
        ∀ a ∈ l, ∀ b ∈ l, a ≠ b → R a b = false) ∧
      (layersSem R fuel avail).Pairwise
        (fun l1 l2 => ∀ a ∈ l1, ∀ b ∈ l2, a ≠ b ∧ R a b = false) := by
  intro fuel
  induction fuel with
  | zero => intro avail _; simp [layersSem]
  | succ fuel ih =>
    intro avail hnd
    unfold layersSem
    by_cases h0 : avail = []
    · rw [if_pos h0]; simp
    · rw [if_neg h0]
      have hrest : (avail.filter (fun u => !(layerSem R avail).contains u)).Nodup :=
        hnd.filter _
      obtain ⟨ih1, ih2⟩ := ih _ hrest
      have hlayer : ∀ a ∈ layerSem R avail, ∀ b ∈ avail, a ≠ b → R a b = false := by
        intro a ha b hb hab
        have := (List.mem_filter.mp ha).2
        rw [List.all_eq_true] at this
        have := this b hb
        simp only [Bool.or_eq_true, Bool.not_eq_true', decide_eq_true_eq] at this
        rcases this with h | h
        · exact h
        · exact absurd h.symm hab
      constructor
      · intro l hl
        rcases List.mem_cons.mp hl with h | h
        · subst h
          refine ⟨hnd.filter _, fun v hv => layerSem_sub R avail v hv, ?_⟩
          intro a ha b hb hab
          exact hlayer a ha b (layerSem_sub R avail b hb) hab
        · obtain ⟨h1, h2, h3⟩ := ih1 l h
          exact ⟨h1, fun v hv => (List.mem_filter.mp (h2 v hv)).1, h3⟩
      · rw [List.pairwise_cons]
        refine ⟨?_, ih2⟩
        intro l2 hl2 a ha b hb
        have hb' := (ih1 l2 hl2).2.1 b hb
        have hbm := List.mem_filter.mp hb'
        have hne : a ≠ b := by
          intro h
          subst h
          have h2 := hbm.2
          rw [(contains_iff _ _).mpr ha] at h2
          exact Bool.noConfusion h2
        exact ⟨hne, hlayer a ha b hbm.1 hne⟩


theorem exists_sink (R : Nat → Nat → Bool)
    (htrans : ∀ a b c, R a b = true → R b c = true → R a c = true)
    (hirr : ∀ a, R a a = false) :
    ∀ (l : List Nat), l ≠ [] → ∃ j ∈ l, ∀ u ∈ l, R j u = false := by
  intro l
  induction l with
  | nil => intro h; exact absurd rfl h
  | cons x t ih =>
    intro _
    by_cases ht : t = []
    · subst ht
      refine ⟨x, List.mem_cons_self _ _, ?_⟩
      intro u hu
      rw [List.mem_singleton.mp hu]
      exact hirr x
    · obtain ⟨m, hm, hs⟩ := ih ht
      by_cases hmx : R m x = true
      · refine ⟨x, List.mem_cons_self _ _, ?_⟩
        intro u hu
        rcases List.mem_cons.mp hu with h | h
        · rw [h]; exact hirr x
        · by_contra hc
          simp only [Bool.not_eq_false] at hc
          have := htrans m x u hmx hc
          rw [hs u h] at this
          exact Bool.noConfusion this
      · refine ⟨m, List.mem_cons_of_mem _ hm, ?_⟩
        intro u hu
        rcases List.mem_cons.mp hu with h | h
        · rw [h]; simpa using hmx
        · exact hs u h

theorem layerSem_ne_nil (R : Nat → Nat → Bool)
    (htrans : ∀ a b c, R a b = true → R b c = true → R a c = true)
    (hirr : ∀ a, R a a = false) (avail : List Nat) (h : avail ≠ []) :
    layerSem R avail ≠ [] := by
  obtain ⟨j, hj, hs⟩ := exists_sink R htrans hirr avail h
  intro hc
  have : j ∈ layerSem R avail := by
    unfold layerSem
    rw [List.mem_filter]
    refine ⟨hj, ?_⟩
    rw [List.all_eq_true]
    intro u hu
    rw [hs u hu]; rfl
  rw [hc] at this
  exact List.not_mem_nil _ this

theorem rest_eq (R : Nat → Nat → Bool) (avail : List Nat) :
    avail.filter (fun u => !(layerSem R avail).contains u) =
      avail.filter (fun j => !avail.all (fun u => !R j u || decide (u = j))) := by
  apply List.filter_congr
  intro u hu
  congr 1
  rw [Bool.eq_iff_iff, contains_iff]
  unfold layerSem
  rw [List.mem_filter]
  constructor
  · exact fun h => h.2
  · exact fun h => ⟨hu, h⟩

/-- With enough rounds the layers of an acyclic transitive relation are non-empty and list
every available vertex exactly once. -/
theorem layersSem_cover (R : Nat → Nat → Bool)
    (htrans : ∀ a b c, R a b = true → R b c = true → R a c = true)
    (hirr : ∀ a, R a a = false) :
    ∀ fuel (avail : List Nat), avail.length ≤ fuel →
      (layersSem R fuel avail).flatten.Perm avail ∧
      ∀ l ∈ layersSem R fuel avail, l ≠ [] := by
  intro fuel
  induction fuel with
  | zero =>
    intro avail h
    have : avail = [] := List.length_eq_zero.mp (by omega)
    subst this
    simp [layersSem]
  | succ fuel ih =>
    intro avail h
    unfold layersSem
    by_cases h0 : avail = []
    · rw [if_pos h0]; subst h0; simp
    · rw [if_neg h0]
      have hne := layerSem_ne_nil R htrans hirr avail h0
      have hlen : (layerSem R avail).length +
          (avail.filter (fun u => !(layerSem R avail).contains u)).length = avail.length := by
        rw [rest_eq]
        unfold layerSem
        have := (List.filter_append_perm
          (fun j => avail.all (fun u => !R j u || decide (u = j))) avail).length_eq
        rw [List.length_append] at this
        exact this
      have hpos : 0 < (layerSem R avail).length := List.length_pos.mpr hne
      obtain ⟨ih1, ih2⟩ := ih (avail.filter (fun u => !(layerSem R avail).contains u)) (by omega)
      constructor
      · rw [List.flatten_cons]
        refine (List.Perm.append_left _ ih1).trans ?_
        rw [rest_eq]
        exact List.filter_append_perm _ avail
      · intro l hl
        rcases List.mem_cons.mp hl with h | h
        · rw [h]; exact hne
        · exact ih2 l h


theorem insertionStep_cons (less : Nat → Nat → Bool) (x : Nat) (t : List Nat) (val : Nat) :
    insertionStep less (x :: t) val =
      if less val x then x :: insertionStep less t val else val :: x :: t := by
  unfold insertionStep
  by_cases h : less val x = true
  · simp [List.takeWhile, List.dropWhile, h]
  · simp only [Bool.not_eq_true] at h
    simp [List.takeWhile, List.dropWhile, h]

theorem insertionStep_perm (less : Nat → Nat → Bool) (l : List Nat) (val : Nat) :
    (insertionStep less l val).Perm (val :: l) := by
  unfold insertionStep
  refine List.perm_middle.trans ?_
  rw [List.takeWhile_append_dropWhile]

theorem insertionFold_perm (less : Nat → Nat → Bool) (l : List Nat) :
    ∀ acc, (l.foldl (insertionStep less) acc).Perm (l ++ acc) := by
  induction l with
  | nil => intro acc; exact List.Perm.refl _
  | cons x l ih =>
    intro acc
    simp only [List.foldl_cons]
    refine (ih _).trans ?_
    refine (List.Perm.append_left l (insertionStep_perm less acc x)).trans ?_
    simp only [List.cons_append]
    exact List.perm_middle

theorem insertionSort_perm (less : Nat → Nat → Bool) (l : List Nat) :
    (insertionSort less l).Perm l := by
  unfold insertionSort
  refine (List.reverse_perm _).trans ?_
  simpa using insertionFold_perm less l []

theorem insertionStep_sorted (key : Nat → Nat) (l : List Nat) (val : Nat)
    (h : l.Pairwise (fun a b => key b ≤ key a)) :
    (insertionStep (fun i j => decide (key i < key j)) l val).Pairwise
      (fun a b => key b ≤ key a) := by
  induction l with
  | nil => simp [insertionStep]
  | cons x t ih =>
    rw [insertionStep_cons]
    rw [List.pairwise_cons] at h
    by_cases hx : key val < key x
    · simp only [hx, decide_True, if_true]
      rw [List.pairwise_cons]
      refine ⟨?_, ih h.2⟩
      intro b hb
      rcases List.mem_cons.mp ((insertionStep_perm _ t val).mem_iff.mp hb) with hb | hb
      · rw [hb]; omega
      · exact h.1 b hb
    · simp only [hx, decide_False, Bool.false_eq_true, if_false]
      rw [List.pairwise_cons, List.pairwise_cons]
      refine ⟨?_, h.1, h.2⟩
      intro b hb
      rcases List.mem_cons.mp hb with hb | hb
      · rw [hb]; omega
      · have := h.1 b hb
        omega

theorem insertionFold_sorted (key : Nat → Nat) (l : List Nat) :
    ∀ acc, acc.Pairwise (fun a b => key b ≤ key a) →
      (l.foldl (insertionStep (fun i j => decide (key i < key j))) acc).Pairwise
        (fun a b => key b ≤ key a) := by
  induction l with
  | nil => intro acc h; exact h
  | cons x l ih =>
    intro acc h
    simp only [List.foldl_cons]
    exact ih _ (insertionStep_sorted key acc x h)

/-- The sorted layer is ordered by non-decreasing key. -/
theorem insertionSort_sorted (key : Nat → Nat) (l : List Nat) :
    (insertionSort (fun i j => decide (key i < key j)) l).Pairwise
      (fun a b => key a ≤ key b) := by
  unfold insertionSort
  rw [List.pairwise_reverse]
  exact insertionFold_sorted key l [] List.Pairwise.nil

theorem insertionFold_id (key : Nat → Nat) (l : List Nat) :
    ∀ acc, l.Pairwise (fun a b => key a ≤ key b) →
      (∀ x ∈ acc, ∀ y ∈ l, key x ≤ key y) →
      l.foldl (insertionStep (fun i j => decide (key i < key j))) acc = l.reverse ++ acc := by
  induction l with
  | nil => intro acc _ _; rfl
  | cons x l ih =>
    intro acc hp hacc
    simp only [List.foldl_cons]
    rw [List.pairwise_cons] at hp
    have hstep : insertionStep (fun i j => decide (key i < key j)) acc x = x :: acc := by
      cases acc with
      | nil => simp [insertionStep]
      | cons y t =>
        rw [insertionStep_cons]
        have := hacc y (List.mem_cons_self _ _) x (List.mem_cons_self _ _)
        have hn : ¬ key x < key y := by omega
        simp [hn]
    rw [hstep, ih _ hp.2]
    · simp
    · intro a ha y hy
      rcases List.mem_cons.mp ha with h | h
      · rw [h]; exact hp.1 y hy
      · exact hacc a h y (List.mem_cons_of_mem _ hy)

/-- A layer that is already ordered by non-decreasing key is left unchanged. -/
theorem insertionSort_id (key : Nat → Nat) (l : List Nat)
    (h : l.Pairwise (fun a b => key a ≤ key b)) :
    insertionSort (fun i j => decide (key i < key j)) l = l := by
  unfold insertionSort
  rw [insertionFold_id key l [] h (by simp)]
  simp

/-- Two sorted layers that correspond under a key-preserving map have the same key sequence. -/
theorem sorted_keys_eq (key key' : Nat → Nat) (f : Nat → Nat) (l l' : List Nat)
    (hk : ∀ u, key' u = key (f u)) (hp : (l'.map f).Perm l) :
    (insertionSort (fun i j => decide (key' i < key' j)) l').map key' =
      (insertionSort (fun i j => decide (key i < key j)) l).map key := by
  apply List.eq_of_perm_of_sorted (r := fun a b => a ≤ b)
  · have h1 := (insertionSort_perm (fun i j => decide (key' i < key' j)) l').map key'
    have h2 := (insertionSort_perm (fun i j => decide (key i < key j)) l).map key
    refine h1.trans (List.Perm.trans ?_ h2.symm)
    have : l'.map key' = (l'.map f).map key := by
      rw [List.map_map]
      apply List.map_congr_left
      intro u _
      exact hk u
    rw [this]
    exact hp.map key
  · exact (List.pairwise_map.mpr (insertionSort_sorted key' l'))
  · exact (List.pairwise_map.mpr (insertionSort_sorted key l))


theorem scanFold_perm (idSeq layer : List Nat) (js : List Nat) :
    ∀ s : LayerScan,
      (js.foldl (layerScanStep idSeq layer) s).out.permutation =
        s.out.permutation ++ js.map (fun j => layer.getD j 0) ∧
      (js.foldl (layerScanStep idSeq layer) s).numTotal = s.numTotal + js.length := by
  induction js with
  | nil => intro s; simp
  | cons j js ih =>
    intro s
    simp only [List.foldl_cons, List.map_cons, List.length_cons]
    obtain ⟨h1, h2⟩ := ih (layerScanStep idSeq layer s j)
    rw [h1, h2]
    have hp : (layerScanStep idSeq layer s j).out.permutation =
        s.out.permutation ++ [layer.getD j 0] := by
      unfold layerScanStep
      simp only []
      split_ifs <;> rfl
    have hn : (layerScanStep idSeq layer s j).numTotal = s.numTotal + 1 := by
      unfold layerScanStep
      simp only []
      split_ifs <;> rfl
    rw [hp, hn]
    constructor
    · simp
    · omega

theorem drop_one_map_getD (l : List Nat) :
    ((List.range l.length).drop 1).map (fun j => l.getD j 0) = l.drop 1 := by
  apply List.ext_getElem
  · simp
  · intro i h1 h2
    simp only [List.length_drop, List.length_map, List.length_range] at h1 h2
    simp only [List.getElem_map, List.getElem_drop, List.getElem_range]
    rw [List.getD_eq_getElem _ _ (by omega)]

/-- The permutation produced for one non-empty layer is the sorted layer appended to what was
there, and the position counter grows by the size of the layer. -/
theorem sortLayer_perm (idSeq : List Nat) (acc : SortedLayers × Nat) (layer0 : List Nat)
    (h : layer0 ≠ []) :
    (sortLayer idSeq acc layer0).1.permutation = acc.1.permutation ++
      insertionSort (fun i j => decide (idSeq.getD i 0 < idSeq.getD j 0)) layer0 ∧
    (sortLayer idSeq acc layer0).2 = acc.2 + layer0.length := by
  unfold sortLayer
  simp only []
  generalize hL : insertionSort (fun i j => decide (idSeq.getD i 0 < idSeq.getD j 0)) layer0 = L
  have hlen : L.length = layer0.length := by
    rw [← hL]; exact (insertionSort_perm _ layer0).length_eq
  have hpos : 0 < L.length := by
    rw [hlen]; exact List.length_pos.mpr h
  obtain ⟨h1, h2⟩ := scanFold_perm idSeq L ((List.range L.length).drop 1)
    { out := { acc.1 with permutation := acc.1.permutation ++ [L.getD 0 0] },
      last := L.getD 0 0, lastIndex := 0, numTotal := acc.2 + 1 }
  rw [h1, h2, drop_one_map_getD]
  constructor
  · simp only [List.append_assoc]
    congr 1
    cases L with
    | nil => simp at hpos
    | cons x t => simp
  · simp only [List.length_drop, List.length_range]
    omega

theorem scanStep_sim (idSeq idSeq' L L' : List Nat) (s s' : LayerScan) (j : Nat)
    (hlen : L.length = L'.length) (hj : j < L.length)
    (hk : ∀ i, i < L.length → idSeq.getD (L.getD i 0) 0 = idSeq'.getD (L'.getD i 0) 0)
    (h1 : s.out.flipIsos = s'.out.flipIsos)
    (h2 : s.out.cycleIsoStarts = s'.out.cycleIsoStarts)
    (h3 : s.out.cycleIsoLengths = s'.out.cycleIsoLengths)
    (h4 : idSeq.getD s.last 0 = idSeq'.getD s'.last 0)
    (h5 : s.lastIndex = s'.lastIndex) (h6 : s.numTotal = s'.numTotal) :
    (layerScanStep idSeq L s j).out.flipIsos = (layerScanStep idSeq' L' s' j).out.flipIsos ∧
    (layerScanStep idSeq L s j).out.cycleIsoStarts =
      (layerScanStep idSeq' L' s' j).out.cycleIsoStarts ∧
    (layerScanStep idSeq L s j).out.cycleIsoLengths =
      (layerScanStep idSeq' L' s' j).out.cycleIsoLengths ∧
    idSeq.getD (layerScanStep idSeq L s j).last 0 =
      idSeq'.getD (layerScanStep idSeq' L' s' j).last 0 ∧
    (layerScanStep idSeq L s j).lastIndex = (layerScanStep idSeq' L' s' j).lastIndex ∧
    (layerScanStep idSeq L s j).numTotal = (layerScanStep idSeq' L' s' j).numTotal := by
  unfold layerScanStep
  simp only []
  rw [← hk j hj, ← h4, ← h5, ← h6, ← hlen]
  by_cases hlast : j + 1 = L.length
  · simp only [hlast, true_or, if_true]
    split_ifs <;> simp_all
  · have hk1 := hk (j + 1) (by omega)
    rw [← hk1]
    split_ifs <;> simp_all

theorem scanFold_sim (idSeq idSeq' L L' : List Nat) (hlen : L.length = L'.length)
    (hk : ∀ i, i < L.length → idSeq.getD (L.getD i 0) 0 = idSeq'.getD (L'.getD i 0) 0)
    (js : List Nat) (hjs : ∀ j ∈ js, j < L.length) :
    ∀ (s s' : LayerScan),
      s.out.flipIsos = s'.out.flipIsos →
      s.out.cycleIsoStarts = s'.out.cycleIsoStarts →
      s.out.cycleIsoLengths = s'.out.cycleIsoLengths →
      idSeq.getD s.last 0 = idSeq'.getD s'.last 0 →
      s.lastIndex = s'.lastIndex → s.numTotal = s'.numTotal →
      (js.foldl (layerScanStep idSeq L) s).out.flipIsos =
        (js.foldl (layerScanStep idSeq' L') s').out.flipIsos ∧
      (js.foldl (layerScanStep idSeq L) s).out.cycleIsoStarts =
        (js.foldl (layerScanStep idSeq' L') s').out.cycleIsoStarts ∧
      (js.foldl (layerScanStep idSeq L) s).out.cycleIsoLengths =
        (js.foldl (layerScanStep idSeq' L') s').out.cycleIsoLengths := by
  induction js with
  | nil => intro s s' h1 h2 h3 _ _ _; exact ⟨h1, h2, h3⟩
  | cons j js ih =>
    intro s s' h1 h2 h3 h4 h5 h6
    simp only [List.foldl_cons]
    obtain ⟨a1, a2, a3, a4, a5, a6⟩ := scanStep_sim idSeq idSeq' L L' s s' j hlen
      (hjs j (List.mem_cons_self _ _)) hk h1 h2 h3 h4 h5 h6
    exact ih (fun j hj => hjs j (List.mem_cons_of_mem _ hj)) _ _ a1 a2 a3 a4 a5 a6


theorem map_getD_eq (key : Nat → Nat) (L : List Nat) (i : Nat) (hi : i < L.length) :
    key (L.getD i 0) = (L.map key).getD i 0 := by
  rw [List.getD_eq_getElem _ _ hi, List.getD_eq_getElem _ _ (by simpa using hi)]
  simp

theorem sortedScan_sim (idSeq idSeq' : List Nat) (L L' : List Nat)
    (hkeys : L'.map (fun v => idSeq'.getD v 0) = L.map (fun v => idSeq.getD v 0))
    (hpos : 0 < L.length) (o o' : SortedLayers) (n : Nat)
    (h1 : o.flipIsos = o'.flipIsos) (h2 : o.cycleIsoStarts = o'.cycleIsoStarts)
    (h3 : o.cycleIsoLengths = o'.cycleIsoLengths) :
    (((List.range L.length).drop 1).foldl (layerScanStep idSeq L)
        { out := { o with permutation := o.permutation ++ [L.getD 0 0] },
          last := L.getD 0 0, lastIndex := 0, numTotal := n + 1 }).out.flipIsos =
      (((List.range L'.length).drop 1).foldl (layerScanStep idSeq' L')
        { out := { o' with permutation := o'.permutation ++ [L'.getD 0 0] },
          last := L'.getD 0 0, lastIndex := 0, numTotal := n + 1 }).out.flipIsos ∧
    (((List.range L.length).drop 1).foldl (layerScanStep idSeq L)
        { out := { o with permutation := o.permutation ++ [L.getD 0 0] },
          last := L.getD 0 0, lastIndex := 0, numTotal := n + 1 }).out.cycleIsoStarts =
      (((List.range L'.length).drop 1).foldl (layerScanStep idSeq' L')
        { out := { o' with permutation := o'.permutation ++ [L'.getD 0 0] },
          last := L'.getD 0 0, lastIndex := 0, numTotal := n + 1 }).out.cycleIsoStarts ∧
    (((List.range L.length).drop 1).foldl (layerScanStep idSeq L)
        { out := { o with permutation := o.permutation ++ [L.getD 0 0] },
          last := L.getD 0 0, lastIndex := 0, numTotal := n + 1 }).out.cycleIsoLengths =
      (((List.range L'.length).drop 1).foldl (layerScanStep idSeq' L')
        { out := { o' with permutation := o'.permutation ++ [L'.getD 0 0] },
          last := L'.getD 0 0, lastIndex := 0, numTotal := n + 1 }).out.cycleIsoLengths := by
  have hlen : L.length = L'.length := by
    have := congrArg List.length hkeys
    simpa using this.symm
  have hkk : ∀ i, i < L.length → idSeq.getD (L.getD i 0) 0 = idSeq'.getD (L'.getD i 0) 0 := by
    intro i hi
    rw [map_getD_eq (fun v => idSeq.getD v 0) L i hi,
      map_getD_eq (fun v => idSeq'.getD v 0) L' i (by omega), hkeys]
  rw [← hlen]
  exact scanFold_sim idSeq idSeq' L L' hlen hkk ((List.range L.length).drop 1)
    (fun j hj => List.mem_range.mp (List.mem_of_mem_drop hj)) _ _ h1 h2 h3 (hkk 0 hpos) rfl rfl

theorem sortLayer_sim (idSeq idSeq' : List Nat) (f : Nat → Nat)
    (hk : ∀ u, idSeq'.getD u 0 = idSeq.getD (f u) 0)
    (acc acc' : SortedLayers × Nat) (l l' : List Nat) (hp : (l'.map f).Perm l) (hne : l ≠ [])
    (h1 : acc.1.flipIsos = acc'.1.flipIsos)
    (h2 : acc.1.cycleIsoStarts = acc'.1.cycleIsoStarts)
    (h3 : acc.1.cycleIsoLengths = acc'.1.cycleIsoLengths) (h4 : acc.2 = acc'.2) :
    (sortLayer idSeq acc l).1.flipIsos = (sortLayer idSeq' acc' l').1.flipIsos ∧
    (sortLayer idSeq acc l).1.cycleIsoStarts = (sortLayer idSeq' acc' l').1.cycleIsoStarts ∧
    (sortLayer idSeq acc l).1.cycleIsoLengths = (sortLayer idSeq' acc' l').1.cycleIsoLengths ∧
    (sortLayer idSeq acc l).2 = (sortLayer idSeq' acc' l').2 := by
  have hne' : l' ≠ [] := by
    intro h
    subst h
    have := hp.length_eq
    simp at this
    exact hne (List.length_eq_zero.mp this.symm)
  have hkeys := sorted_keys_eq (fun v => idSeq.getD v 0) (fun v => idSeq'.getD v 0) f l l' hk hp
  have hpos : 0 < (insertionSort (fun i j => decide (idSeq.getD i 0 < idSeq.getD j 0)) l).length := by
    rw [(insertionSort_perm _ l).length_eq]
    exact List.length_pos.mpr hne
  obtain ⟨a1, a2, a3⟩ := sortedScan_sim idSeq idSeq' _ _ hkeys hpos acc.1 acc'.1 acc.2 h1 h2 h3
  refine ⟨?_, ?_, ?_, ?_⟩
  · unfold sortLayer; simp only []; rw [a1, h4]
  · unfold sortLayer; simp only []; rw [a2, h4]
  · unfold sortLayer; simp only []; rw [a3, h4]
  · rw [(sortLayer_perm idSeq acc l hne).2, (sortLayer_perm idSeq' acc' l' hne').2, h4,
      ← hp.length_eq, List.length_map]

/-- The flips, the cycles and the position counter of a stream are the same for two layer
structures that correspond under a relabelling carrying the ids along. -/
theorem sortLayersFold_sim (idSeq idSeq' : List Nat) (f : Nat → Nat)
    (hk : ∀ u, idSeq'.getD u 0 = idSeq.getD (f u) 0) (layers layers' : List (List Nat))
    (hl : List.Forall₂ (fun l' l => (l'.map f).Perm l) layers' layers) :
    (∀ l ∈ layers, l ≠ []) →
    ∀ (acc acc' : SortedLayers × Nat), acc.1.flipIsos = acc'.1.flipIsos →
      acc.1.cycleIsoStarts = acc'.1.cycleIsoStarts →
      acc.1.cycleIsoLengths = acc'.1.cycleIsoLengths → acc.2 = acc'.2 →
      (layers.foldl (sortLayer idSeq) acc).1.flipIsos =
        (layers'.foldl (sortLayer idSeq') acc').1.flipIsos ∧
      (layers.foldl (sortLayer idSeq) acc).1.cycleIsoStarts =
        (layers'.foldl (sortLayer idSeq') acc').1.cycleIsoStarts ∧
      (layers.foldl (sortLayer idSeq) acc).1.cycleIsoLengths =
        (layers'.foldl (sortLayer idSeq') acc').1.cycleIsoLengths := by
  induction hl with
  | nil => intro _ acc acc' h1 h2 h3 _; exact ⟨h1, h2, h3⟩
  | cons hp _ ih =>
    intro hne acc acc' h1 h2 h3 h4
    simp only [List.foldl_cons]
    obtain ⟨a1, a2, a3, a4⟩ := sortLayer_sim idSeq idSeq' f hk acc acc' _ _ hp
      (hne _ (List.mem_cons_self _ _)) h1 h2 h3 h4
    exact ih (fun l hl => hne l (List.mem_cons_of_mem _ hl)) _ _ a1 a2 a3 a4

/-- The permutation of a stream is the concatenation of its sorted layers. -/
theorem sortLayersFold_perm (idSeq : List Nat) (layers : List (List Nat)) :
    (∀ l ∈ layers, l ≠ []) →
    ∀ (acc : SortedLayers × Nat),
      (layers.foldl (sortLayer idSeq) acc).1.permutation = acc.1.permutation ++
        (layers.map (insertionSort (fun i j => decide (idSeq.getD i 0 < idSeq.getD j 0)))).flatten ∧
      (layers.foldl (sortLayer idSeq) acc).2 = acc.2 + layers.flatten.length := by
  induction layers with
  | nil => intro _ acc; simp
  | cons l layers ih =>
    intro hne acc
    simp only [List.foldl_cons, List.map_cons, List.flatten_cons, List.length_append]
    obtain ⟨h1, h2⟩ := ih (fun l hl => hne l (List.mem_cons_of_mem _ hl)) (sortLayer idSeq acc l)
    obtain ⟨h3, h4⟩ := sortLayer_perm idSeq acc l (hne l (List.mem_cons_self _ _))
    rw [h1, h2, h3, h4]
    constructor
    · simp
    · omega


theorem getD_ofPrefix (l l' : List Nat) (h : l <+: l') (i : Nat) (hi : i < l.length) :
    l'.getD i 0 = l.getD i 0 := by
  obtain ⟨t, rfl⟩ := h
  exact List.getD_append _ _ _ _ hi

theorem runRecorded_mono (F S Lg F' S' Lg' : List Nat) (b b' p : Nat)
    (hF : F <+: F') (hS : S <+: S') (hL : Lg <+: Lg') (hb : b ≤ b')
    (h : RunRecorded F S Lg b p) : RunRecorded F' S' Lg' b' p := by
  obtain ⟨a, m, h1, h2, h3, h4, h5⟩ := h
  refine ⟨a, m, h1, h2, by omega, hF.subset h4, ?_⟩
  rcases h5 with h5 | ⟨i, hi1, hi2, hi3, hi4⟩
  · exact Or.inl h5
  · refine Or.inr ⟨i, lt_of_lt_of_le hi1 hS.length_le, lt_of_lt_of_le hi2 hL.length_le, ?_, ?_⟩
    · rw [getD_ofPrefix S S' hS i hi1]; exact hi3
    · rw [getD_ofPrefix Lg Lg' hL i hi2]; exact hi4

theorem sortedLayers_le_refl (o : SortedLayers) : SortedLayers.le o o :=
  ⟨List.prefix_refl _, List.prefix_refl _, List.prefix_refl _, le_rfl⟩

theorem sortedLayers_le_trans (a b c : SortedLayers) (h1 : SortedLayers.le a b)
    (h2 : SortedLayers.le b c) : SortedLayers.le a c :=
  ⟨h1.1.trans h2.1, h1.2.1.trans h2.2.1, h1.2.2.1.trans h2.2.2.1, le_trans h1.2.2.2 h2.2.2.2⟩

theorem scanStep_le (idSeq L : List Nat) (s : LayerScan) (j : Nat) :
    SortedLayers.le s.out (layerScanStep idSeq L s j).out := by
  unfold layerScanStep SortedLayers.le
  simp only []
  split_ifs <;> simp

theorem scanFold_le (idSeq L : List Nat) (js : List Nat) :
    ∀ s : LayerScan, SortedLayers.le s.out (js.foldl (layerScanStep idSeq L) s).out := by
  induction js with
  | nil => intro s; exact sortedLayers_le_refl _
  | cons j js ih =>
    intro s
    simp only [List.foldl_cons]
    exact sortedLayers_le_trans _ _ _ (scanStep_le idSeq L s j) (ih _)

theorem sortLayer_le (idSeq : List Nat) (acc : SortedLayers × Nat) (l : List Nat) :
    SortedLayers.le acc.1 (sortLayer idSeq acc l).1 := by
  unfold sortLayer
  simp only []
  refine sortedLayers_le_trans _ _ _ ?_ (scanFold_le idSeq _ _ _)
  unfold SortedLayers.le
  simp

theorem sortLayersFold_le (idSeq : List Nat) (layers : List (List Nat)) :
    ∀ acc : SortedLayers × Nat,
      SortedLayers.le acc.1 (layers.foldl (sortLayer idSeq) acc).1 := by
  induction layers with
  | nil => intro acc; exact sortedLayers_le_refl _
  | cons l layers ih =>
    intro acc
    simp only [List.foldl_cons]
    exact sortedLayers_le_trans _ _ _ (sortLayer_le idSeq acc l) (ih _)


theorem scanInv_step (idSeq L : List Nat) (off j : Nat) (s : LayerScan)
    (h : ScanInv idSeq L off j s) :
    ScanInv idSeq L off (j + 1) (layerScanStep idSeq L s (j + 1)) := by
  obtain ⟨hnum, hplen, hclen, hle, hrun, hlast, hflip, hdone, hcyc⟩ := h
  have hmono := scanStep_le idSeq L s (j + 1)
  by_cases c1 : idSeq.getD s.last 0 = idSeq.getD (L.getD (j + 1) 0) 0
  · -- the run continues
    have hkey : idSeq.getD (L.getD (j + 1) 0) 0 = idSeq.getD (L.getD s.lastIndex 0) 0 := by
      rw [← c1, hlast]
    by_cases c2 : s.lastIndex = j + 1 - 1
    · have hst : layerScanStep idSeq L s (j + 1) =
          ⟨⟨s.out.permutation ++ [L.getD (j + 1) 0], s.out.flipIsos ++ [s.numTotal],
            s.out.cycleIsoStarts, s.out.cycleIsoLengths⟩, s.last, s.lastIndex,
            s.numTotal + 1⟩ := by
        unfold layerScanStep
        simp only []
        rw [if_pos c1, if_pos c2]
      rw [hst]
      have ha : s.lastIndex = j := by omega
      refine ⟨by simp only []; omega, by simp only [List.length_append, List.length_singleton]; omega,
        hclen, by simp only []; omega, ?_, hlast, ?_, ?_, ?_⟩
      · intro t h1 h2
        by_cases ht : t = j + 1
        · rw [ht]; exact hkey
        · exact hrun t h1 (by omega)
      · intro _
        simp only [List.mem_append, List.mem_singleton]
        right; omega
      · intro i hi hk
        exact runRecorded_mono _ _ _ _ _ _ _ _ _ (List.prefix_append _ _) (List.prefix_refl _)
          (List.prefix_refl _) (by omega) (hdone i hi hk)
      · intro h1
        simp only [] at h1
        omega
    · by_cases c3 : j + 1 + 1 = L.length ∨
          idSeq.getD s.last 0 ≠ idSeq.getD (L.getD (j + 1 + 1) 0) 0
      · have hst : layerScanStep idSeq L s (j + 1) =
            ⟨⟨s.out.permutation ++ [L.getD (j + 1) 0], s.out.flipIsos,
              s.out.cycleIsoStarts ++ [s.numTotal],
              s.out.cycleIsoLengths ++ [j + 1 + 1 - s.lastIndex]⟩, s.last, s.lastIndex,
              s.numTotal + 1⟩ := by
          unfold layerScanStep
          simp only []
          rw [if_pos c1, if_neg c2, if_pos c3]
        rw [hst]
        refine ⟨by simp only []; omega,
          by simp only [List.length_append, List.length_singleton]; omega,
          by simp only [List.length_append, List.length_singleton]; omega,
          by simp only []; omega, ?_, hlast, ?_, ?_, ?_⟩
        · intro t h1 h2
          by_cases ht : t = j + 1
          · rw [ht]; exact hkey
          · exact hrun t h1 (by omega)
        · intro _
          exact hflip (by omega)
        · intro i hi hk
          exact runRecorded_mono _ _ _ _ _ _ _ _ _ (List.prefix_refl _) (List.prefix_append _ _)
            (List.prefix_append _ _) (by omega) (hdone i hi hk)
        · intro _ _
          simp only []
          refine ⟨s.out.cycleIsoStarts.length, by simp, ?_, ?_⟩
          · rw [List.getD_append_right _ _ _ _ (le_refl _)]
            simp only [Nat.sub_self, List.getD_cons_zero, hnum]
            omega
          · rw [hclen, List.getD_append_right _ _ _ _ (le_refl _)]
            simp
      · have hst : layerScanStep idSeq L s (j + 1) =
            ⟨⟨s.out.permutation ++ [L.getD (j + 1) 0], s.out.flipIsos,
              s.out.cycleIsoStarts, s.out.cycleIsoLengths⟩, s.last, s.lastIndex,
              s.numTotal + 1⟩ := by
          unfold layerScanStep
          simp only []
          rw [if_pos c1, if_neg c2, if_neg c3]
        rw [hst]
        refine ⟨by simp only []; omega,
          by simp only [List.length_append, List.length_singleton]; omega,
          hclen, by simp only []; omega, ?_, hlast, ?_, ?_, ?_⟩
        · intro t h1 h2
          by_cases ht : t = j + 1
          · rw [ht]; exact hkey
          · exact hrun t h1 (by omega)
        · intro _
          exact hflip (by omega)
        · intro i hi hk
          exact runRecorded_mono _ _ _ _ _ _ _ _ _ (List.prefix_refl _) (List.prefix_refl _)
            (List.prefix_refl _) (by omega) (hdone i hi hk)
        · intro _ h2
          exfalso
          apply c3
          rcases h2 with h2 | h2
          · exact Or.inl h2
          · right
            rw [hlast]
            exact fun h => h2 h.symm
  · -- a new run starts
    have hst : layerScanStep idSeq L s (j + 1) =
        ⟨⟨s.out.permutation ++ [L.getD (j + 1) 0], s.out.flipIsos,
          s.out.cycleIsoStarts, s.out.cycleIsoLengths⟩, L.getD (j + 1) 0, j + 1,
          s.numTotal + 1⟩ := by
      unfold layerScanStep
      simp only []
      rw [if_neg c1]
    rw [hst]
    refine ⟨by simp only []; omega,
      by simp only [List.length_append, List.length_singleton]; omega,
      hclen, le_refl _, ?_, rfl, ?_, ?_, ?_⟩
    · intro t h1 h2
      simp only [] at h1
      have : t = j + 1 := by omega
      rw [this]
    · intro h1
      simp only [] at h1
      omega
    · intro i hi hk
      simp only [] at hi ⊢
      by_cases hia : i + 1 ≤ s.lastIndex
      · exact runRecorded_mono _ _ _ _ _ _ _ _ _ (List.prefix_refl _) (List.prefix_refl _)
          (List.prefix_refl _) (by omega) (hdone i hia hk)
      · by_cases hij : i = j
        · exfalso
          apply c1
          rw [hlast, ← hrun j hle (le_refl _), ← hij]
          exact hk
        · have h1 : s.lastIndex < j := by omega
          refine ⟨off + s.lastIndex, j + 1 - s.lastIndex, by omega, by omega, by omega,
            by simpa [Nat.add_assoc] using hflip h1, ?_⟩
          by_cases hm : j + 1 - s.lastIndex = 2
          · exact Or.inl hm
          · right
            obtain ⟨k, hk1, hk2, hk3⟩ := hcyc (by omega) (Or.inr (by
              intro hc
              apply c1
              rw [hlast, hc]))
            exact ⟨k, hk1, by omega, by rw [hk2]; omega, hk3⟩
    · intro h1
      simp only [] at h1
      omega


theorem scanInv_fold (idSeq L : List Nat) (off : Nat) :
    ∀ k j (s : LayerScan), ScanInv idSeq L off j s →
      ScanInv idSeq L off (j + k) ((List.range' (j + 1) k).foldl (layerScanStep idSeq L) s) := by
  intro k
  induction k with
  | zero => intro j s h; exact h
  | succ k ih =>
    intro j s h
    rw [List.range'_succ, List.foldl_cons]
    have := ih (j + 1) _ (scanInv_step idSeq L off j s h)
    rw [show j + (k + 1) = j + 1 + k by omega]
    exact this

theorem scanInv_final (idSeq L : List Nat) (off j : Nat) (s : LayerScan)
    (h : ScanInv idSeq L off j s) (hj : j + 1 = L.length) :
    ∀ i, i + 1 < L.length →
      idSeq.getD (L.getD i 0) 0 = idSeq.getD (L.getD (i + 1) 0) 0 →
      RunRecorded s.out.flipIsos s.out.cycleIsoStarts s.out.cycleIsoLengths
        s.out.permutation.length (off + i) := by
  obtain ⟨hnum, hplen, hclen, hle, hrun, hlast, hflip, hdone, hcyc⟩ := h
  intro i hi hk
  rw [hplen]
  by_cases hia : i + 1 ≤ s.lastIndex
  · exact hdone i hia hk
  · have h1 : s.lastIndex < j := by omega
    refine ⟨off + s.lastIndex, j + 1 - s.lastIndex, by omega, by omega, by omega,
      by simpa [Nat.add_assoc] using hflip h1, ?_⟩
    by_cases hm : j + 1 - s.lastIndex = 2
    · exact Or.inl hm
    · right
      obtain ⟨k, hk1, hk2, hk3⟩ := hcyc (by omega) (Or.inl hj)
      exact ⟨k, hk1, by omega, by rw [hk2]; omega, hk3⟩

/-- After a non-empty layer has been processed every pair of neighbouring equal ids of the
sorted layer is recorded. -/
theorem sortLayer_recorded (idSeq : List Nat) (acc : SortedLayers × Nat) (l : List Nat)
    (hne : l ≠ []) (h1 : acc.2 = acc.1.permutation.length)
    (h2 : acc.1.cycleIsoStarts.length = acc.1.cycleIsoLengths.length) :
    (∀ i, i + 1 < (insertionSort (fun i j => decide (idSeq.getD i 0 < idSeq.getD j 0)) l).length →
      idSeq.getD ((insertionSort (fun i j => decide (idSeq.getD i 0 < idSeq.getD j 0)) l).getD i 0) 0
        = idSeq.getD
          ((insertionSort (fun i j => decide (idSeq.getD i 0 < idSeq.getD j 0)) l).getD (i + 1) 0) 0 →
      RunRecorded (sortLayer idSeq acc l).1.flipIsos (sortLayer idSeq acc l).1.cycleIsoStarts
        (sortLayer idSeq acc l).1.cycleIsoLengths (sortLayer idSeq acc l).1.permutation.length
        (acc.2 + i)) ∧
    (sortLayer idSeq acc l).2 = (sortLayer idSeq acc l).1.permutation.length ∧
    (sortLayer idSeq acc l).1.cycleIsoStarts.length =
      (sortLayer idSeq acc l).1.cycleIsoLengths.length := by
  have hlen : (insertionSort (fun i j => decide (idSeq.getD i 0 < idSeq.getD j 0)) l).length =
      l.length := (insertionSort_perm _ l).length_eq
  have hpos : 0 < l.length := List.length_pos.mpr hne
  unfold sortLayer
  simp only []
  generalize insertionSort (fun i j => decide (idSeq.getD i 0 < idSeq.getD j 0)) l = L at hlen ⊢
  have h0 : ScanInv idSeq L acc.2 0
      { out := { acc.1 with permutation := acc.1.permutation ++ [L.getD 0 0] },
        last := L.getD 0 0, lastIndex := 0, numTotal := acc.2 + 1 } := by
    refine ⟨rfl, by simp only [List.length_append, List.length_singleton]; omega, h2, le_refl _,
      ?_, rfl, ?_, ?_, ?_⟩
    · intro t ht1 ht2
      simp only [] at ht1
      have : t = 0 := by omega
      rw [this]
    · intro h; simp only [] at h; omega
    · intro i hi; simp only [] at hi; omega
    · intro h; simp only [] at h; omega
  have hr : (List.range L.length).drop 1 = List.range' (0 + 1) (L.length - 1) := by
    rw [List.range_eq_range']
    obtain ⟨m, hm⟩ : ∃ m, L.length = m + 1 := ⟨L.length - 1, by omega⟩
    rw [hm, List.range'_succ]
    simp
  rw [hr]
  have hf := scanInv_fold idSeq L acc.2 (L.length - 1) 0 _ h0
  refine ⟨?_, ?_, hf.clen⟩
  · exact scanInv_final idSeq L acc.2 _ _ hf (by omega)
  · rw [hf.num, hf.plen]

/-- Every pair of neighbouring equal ids inside a sorted layer is recorded in the output of
`sortLayersAndGetPermutation`. -/
theorem sortLayersFold_recorded (idSeq : List Nat) (layers : List (List Nat)) :
    (∀ l ∈ layers, l ≠ []) →
    ∀ (acc : SortedLayers × Nat), acc.2 = acc.1.permutation.length →
      acc.1.cycleIsoStarts.length = acc.1.cycleIsoLengths.length →
      BlocksRecorded (fun v => idSeq.getD v 0)
        (layers.foldl (sortLayer idSeq) acc).1.flipIsos
        (layers.foldl (sortLayer idSeq) acc).1.cycleIsoStarts
        (layers.foldl (sortLayer idSeq) acc).1.cycleIsoLengths
        (layers.foldl (sortLayer idSeq) acc).1.permutation.length acc.2
        (layers.map (insertionSort (fun i j => decide (idSeq.getD i 0 < idSeq.getD j 0)))) := by
  induction layers with
  | nil => intro _ acc _ _; trivial
  | cons l layers ih =>
    intro hne acc h1 h2
    simp only [List.foldl_cons, List.map_cons]
    obtain ⟨a1, a2, a3⟩ := sortLayer_recorded idSeq acc l (hne l (List.mem_cons_self _ _)) h1 h2
    have hrest := ih (fun l hl => hne l (List.mem_cons_of_mem _ hl)) (sortLayer idSeq acc l) a2 a3
    have hmono := sortLayersFold_le idSeq layers (sortLayer idSeq acc l)
    refine ⟨?_, ?_⟩
    · intro i hi hk
      exact runRecorded_mono _ _ _ _ _ _ _ _ _ hmono.1 hmono.2.1 hmono.2.2.1 hmono.2.2.2
        (a1 i hi hk)
    · rw [(sortLayer_perm idSeq acc l (hne l (List.mem_cons_self _ _))).2,
        ← (insertionSort_perm (fun i j => decide (idSeq.getD i 0 < idSeq.getD j 0)) l).length_eq]
        at hrest
      exact hrest


theorem getD_set_eq (l : List Nat) (i v z : Nat) (hi : i < l.length) :
    (l.set i v).getD z 0 = if z = i then v else l.getD z 0 := by
  by_cases hz : z = i
  · subst hz
    rw [if_pos rfl, List.getD_eq_getElem _ _ (by simpa using hi)]
    simp
  · rw [if_neg hz, List.getD_eq_getElem?_getD, List.getElem?_set_ne (Ne.symm hz),
      ← List.getD_eq_getElem?_getD]

theorem swapAt_length (l : List Nat) (i : Nat) : (swapAt l i).length = l.length := by
  simp [swapAt]

theorem swapAt_getD (l : List Nat) (i z : Nat) (h1 : 1 ≤ i) (h2 : i < l.length) :
    (swapAt l i).getD z 0 = l.getD (tp (i - 1) i z) 0 := by
  unfold swapAt tp
  rw [getD_set_eq _ _ _ _ (by simp; omega), getD_set_eq _ _ _ _ h2]
  by_cases hz1 : z = i - 1
  · rw [if_pos hz1, if_pos hz1]
  · rw [if_neg hz1, if_neg hz1]
    by_cases hz2 : z = i
    · rw [if_pos hz2, if_pos hz2]
    · rw [if_neg hz2, if_neg hz2]

theorem cycleFold (l : List Nat) (e : Nat) (he : e < l.length) :
    ∀ t, t ≤ e →
      ((List.range' 1 t).foldl
        (fun cur j => cur.set (e - j + 1) (cur.getD (e - j) 0)) l).length = l.length ∧
      ∀ z, ((List.range' 1 t).foldl
        (fun cur j => cur.set (e - j + 1) (cur.getD (e - j) 0)) l).getD z 0 =
        if e - t < z ∧ z ≤ e then l.getD (z - 1) 0 else l.getD z 0 := by
  intro t
  induction t with
  | zero =>
    intro _
    refine ⟨rfl, ?_⟩
    intro z
    rw [if_neg (by omega)]
    rfl
  | succ t ih =>
    intro ht
    obtain ⟨ih1, ih2⟩ := ih (by omega)
    rw [List.range'_1_concat, List.foldl_append]
    simp only [List.foldl_cons, List.foldl_nil]
    generalize (List.range' 1 t).foldl
        (fun cur j => cur.set (e - j + 1) (cur.getD (e - j) 0)) l = cur at ih1 ih2
    refine ⟨by simp [ih1], ?_⟩
    intro z
    rw [getD_set_eq _ _ _ _ (by omega), ih2, ih2]
    by_cases hz : z = e - (1 + t) + 1
    · rw [if_pos hz, if_neg (by omega), if_pos (by omega)]
      congr 1
      omega
    · rw [if_neg hz]
      by_cases hz2 : e - t < z ∧ z ≤ e
      · rw [if_pos hz2, if_pos (by omega)]
      · rw [if_neg hz2, if_neg (by omega)]

theorem cycleAt_length (l : List Nat) (e m : Nat) (he : e < l.length) (hm : m ≤ e + 1)
    (hm1 : 1 ≤ m) : (cycleAt l e m).length = l.length := by
  unfold cycleAt
  simp only [List.length_set]
  have : (List.range m).drop 1 = List.range' 1 (m - 1) := by
    rw [List.range_eq_range']
    obtain ⟨k, hk⟩ : ∃ k, m = k + 1 := ⟨m - 1, by omega⟩
    rw [hk, List.range'_succ]
    simp
  rw [this]
  exact (cycleFold l e he (m - 1) (by omega)).1

theorem cycleAt_getD (l : List Nat) (e m z : Nat) (he : e < l.length) (hm : m ≤ e + 1)
    (hm1 : 1 ≤ m) :
    (cycleAt l e m).getD z 0 = l.getD (rot (e + 1 - m) m z) 0 := by
  unfold cycleAt rot
  simp only []
  have : (List.range m).drop 1 = List.range' 1 (m - 1) := by
    rw [List.range_eq_range']
    obtain ⟨k, hk⟩ : ∃ k, m = k + 1 := ⟨m - 1, by omega⟩
    rw [hk, List.range'_succ]
    simp
  rw [this]
  obtain ⟨h1, h2⟩ := cycleFold l e he (m - 1) (by omega)
  rw [getD_set_eq _ _ _ _ (by rw [h1]; omega), h2]
  by_cases hz : z = e + 1 - m
  · rw [if_pos hz, if_pos hz]
    congr 1
    omega
  · rw [if_neg hz, if_neg hz]
    by_cases hz2 : e - (m - 1) < z ∧ z ≤ e
    · rw [if_pos hz2, if_pos (by omega)]
    · rw [if_neg hz2, if_neg (by omega)]

theorem extend_getD_of_move (l l' : List Nat) (n : Nat) (τ : Nat → Nat)
    (hlen : l'.length = l.length)
    (hin : ∀ z, z < l.length → τ z < l.length) (hout : ∀ z, l.length ≤ z → τ z = z)
    (hg : ∀ z, l'.getD z 0 = l.getD (τ z) 0) (z : Nat) :
    (extendPermutation l' n).getD z 0 = (extendPermutation l n).getD (τ z) 0 := by
  rw [extendPermutation_getD, extendPermutation_getD, hlen]
  by_cases hz : z < l.length
  · rw [if_pos hz, if_pos (hin z hz), hg]
  · rw [if_neg hz, hout z (by omega), if_neg hz]

theorem posAut_comp (n : Nat) (c : AdjacencyMatrix) (perm : List Nat) (τ1 τ2 τ : Nat → Nat)
    (h1 : PosAut n c perm τ1) (h2 : PosAut n c perm τ2) (hlt : ∀ x, x < n → τ2 x < n)
    (he : ∀ x, x < n → τ x = τ1 (τ2 x)) : PosAut n c perm τ := by
  intro x y hx hy
  rw [he x hx, he y hy, h1 _ _ (hlt x hx) (hlt y hy), h2 x y hx hy]

theorem posAut_inv (n : Nat) (c : AdjacencyMatrix) (perm : List Nat) (τ τ' : Nat → Nat)
    (h : PosAut n c perm τ) (hlt : ∀ x, x < n → τ' x < n)
    (he : ∀ x, x < n → τ (τ' x) = x) : PosAut n c perm τ' := by
  intro x y hx hy
  have := h (τ' x) (τ' y) (hlt x hx) (hlt y hy)
  rw [he x hx, he y hy] at this
  exact this.symm

/-- A passed flip test says that the transposition of the two positions is an automorphism. -/
theorem flip_posAut (n : Nat) (c : AdjacencyMatrix) (perm : List Nat) (f : Nat)
    (h1 : 1 ≤ f) (h2 : f < perm.length)
    (h : AdjacencyMatrix.reorder n c (swapAt perm f) = AdjacencyMatrix.reorder n c perm) :
    PosAut n c perm (tp (f - 1) f) := by
  intro x y hx hy
  have := (reorder_eq_iff n c c (swapAt perm f) perm).mp h x y hx hy
  have hmove : ∀ z, (extendPermutation (swapAt perm f) n).getD z 0 =
      (extendPermutation perm n).getD (tp (f - 1) f z) 0 := by
    apply extend_getD_of_move perm _ n _ (swapAt_length perm f)
    · intro z hz; unfold tp; split_ifs <;> omega
    · intro z hz; unfold tp; split_ifs <;> omega
    · intro z; exact swapAt_getD perm f z h1 h2
  rw [hmove, hmove] at this
  exact this

/-- A passed cycle test says that the rotation of the run is an automorphism. -/
theorem cycle_posAut (n : Nat) (c : AdjacencyMatrix) (perm : List Nat) (e m : Nat)
    (he : e < perm.length) (hm : m ≤ e + 1) (hm1 : 1 ≤ m)
    (h : AdjacencyMatrix.reorder n c (cycleAt perm e m) = AdjacencyMatrix.reorder n c perm) :
    PosAut n c perm (rot (e + 1 - m) m) := by
  intro x y hx hy
  have := (reorder_eq_iff n c c (cycleAt perm e m) perm).mp h x y hx hy
  have hmove : ∀ z, (extendPermutation (cycleAt perm e m) n).getD z 0 =
      (extendPermutation perm n).getD (rot (e + 1 - m) m z) 0 := by
    apply extend_getD_of_move perm _ n _ (cycleAt_length perm e m he hm hm1)
    · intro z hz; unfold rot; split_ifs <;> omega
    · intro z hz; unfold rot; split_ifs <;> omega
    · intro z; exact cycleAt_getD perm e m z he hm hm1
  rw [hmove, hmove] at this
  exact this


set_option maxHeartbeats 4000000 in
theorem rot_adjacent (n : Nat) (c : AdjacencyMatrix) (perm : List Nat) (a m : Nat)
    (hm : 3 ≤ m) (han : a + m ≤ n)
    (h0 : PosAut n c perm (tp a (a + 1))) (hr : PosAut n c perm (rot a m)) :
    ∀ t, t + 1 < m → PosAut n c perm (tp (a + t) (a + t + 1)) := by
  have hri : PosAut n c perm (rotInv a m) := by
    apply posAut_inv n c perm (rot a m) (rotInv a m) hr
    · intro x hx; unfold rotInv; split_ifs <;> omega
    · intro x _; unfold rot rotInv; split_ifs <;> omega
  intro t
  induction t with
  | zero => intro _; exact h0
  | succ t ih =>
    intro ht
    have ih' := ih (by omega)
    have h1 : PosAut n c perm (fun x => tp (a + t) (a + t + 1) (rot a m x)) := by
      apply posAut_comp n c perm _ _ _ ih' hr
      · intro x hx; unfold rot; split_ifs <;> omega
      · intro x _; rfl
    apply posAut_comp n c perm _ _ _ hri h1
    · intro x hx; unfold tp rot; split_ifs <;> omega
    · intro x _
      unfold tp rot rotInv
      split_ifs <;> omega

/-- The two tests that a recorded run has passed make the exchange of two neighbouring
positions of the run an automorphism. -/
theorem runRecorded_posAut (n : Nat) (c : AdjacencyMatrix) (perm flips starts lengths : List Nat)
    (bound p : Nat) (hb : bound ≤ perm.length) (hn : perm.length ≤ n)
    (hf : flipsOk n c perm flips = true) (hc : cyclesOk n c perm starts lengths = true)
    (h : RunRecorded flips starts lengths bound p) :
    PosAut n c perm (tp p (p + 1)) := by
  obtain ⟨a, m, h1, h2, h3, h4, h5⟩ := h
  unfold flipsOk at hf
  rw [List.all_eq_true] at hf
  have hflip := hf (a + 1) h4
  simp only [decide_eq_true_eq] at hflip
  have h0 : PosAut n c perm (tp a (a + 1)) := by
    have := flip_posAut n c perm (a + 1) (by omega) (by omega) hflip
    simpa using this
  rcases h5 with h5 | ⟨i, hi1, hi2, hi3, hi4⟩
  · have : p = a := by omega
    rw [this]; exact h0
  · unfold cyclesOk at hc
    rw [List.all_eq_true] at hc
    have hcyc := hc i (List.mem_range.mpr hi1)
    simp only [decide_eq_true_eq] at hcyc
    rw [hi3, hi4] at hcyc
    by_cases hm : m = 2
    · have : p = a := by omega
      rw [this]; exact h0
    · have hr := cycle_posAut n c perm (a + m - 1) m (by omega) (by omega) (by omega) hcyc
      rw [show a + m - 1 + 1 - m = a by omega] at hr
      have := rot_adjacent n c perm a m (by omega) (by omega) h0 hr (p - a) (by omega)
      rw [show a + (p - a) = p by omega] at this
      exact this

/-- Exchanges of neighbouring positions compose to the exchange of any two positions between
them. -/
theorem posAut_tp (n : Nat) (c : AdjacencyMatrix) (perm : List Nat) (x : Nat) :
    ∀ d, x + d + 1 < n → (∀ p, x ≤ p → p < x + d + 1 → PosAut n c perm (tp p (p + 1))) →
      PosAut n c perm (tp x (x + d + 1)) := by
  intro d
  induction d with
  | zero => intro _ h; exact h x (le_refl _) (by omega)
  | succ d ih =>
    intro hn h
    have h1 := ih (by omega) (fun p hp1 hp2 => h p hp1 (by omega))
    have h2 := h (x + d + 1) (by omega) (by omega)
    have h3 : PosAut n c perm (fun z => tp x (x + d + 1) (tp (x + d + 1) (x + d + 1 + 1) z)) := by
      apply posAut_comp n c perm _ _ _ h1 h2
      · intro z hz; unfold tp; split_ifs <;> omega
      · intro z _; rfl
    apply posAut_comp n c perm _ _ _ h2 h3
    · intro z hz; unfold tp; split_ifs <;> omega
    · intro z _
      unfold tp
      split_ifs <;> omega


theorem extend_perm (perm : List Nat) (r n : Nat) (hr : r ≤ n)
    (hp : perm.Perm (List.range r)) : (extendPermutation perm n).Perm (List.range n) := by
  unfold extendPermutation
  rw [hp.length_eq, List.length_range]
  have : List.range n = List.range r ++ (List.range n).drop r := by
    have h := List.take_append_drop r (List.range n)
    rw [List.take_range, Nat.min_eq_left hr] at h
    exact h.symm
  conv_rhs => rw [this]
  exact hp.append_right _

theorem extend_length (perm : List Nat) (r n : Nat) (hr : r ≤ n)
    (hp : perm.Perm (List.range r)) : (extendPermutation perm n).length = n := by
  rw [(extend_perm perm r n hr hp).length_eq, List.length_range]

theorem extend_lt (perm : List Nat) (r n : Nat) (hr : r ≤ n)
    (hp : perm.Perm (List.range r)) (z : Nat) (hz : z < n) :
    (extendPermutation perm n).getD z 0 < n := by
  have hl := extend_length perm r n hr hp
  rw [List.getD_eq_getElem _ _ (by omega)]
  exact List.mem_range.mp ((extend_perm perm r n hr hp).mem_iff.mp (List.getElem_mem _))

theorem extend_inj (perm : List Nat) (r n : Nat) (hr : r ≤ n)
    (hp : perm.Perm (List.range r)) (x y : Nat) (hx : x < n) (hy : y < n)
    (h : (extendPermutation perm n).getD x 0 = (extendPermutation perm n).getD y 0) : x = y := by
  have hl := extend_length perm r n hr hp
  have hnd : (extendPermutation perm n).Nodup :=
    (extend_perm perm r n hr hp).nodup_iff.mpr (List.nodup_range n)
  rw [List.getD_eq_getElem _ 0 (show x < (extendPermutation perm n).length by omega),
    List.getD_eq_getElem _ 0 (show y < (extendPermutation perm n).length by omega)] at h
  exact (List.Nodup.getElem_inj_iff hnd).mp h

theorem extend_surj (perm : List Nat) (r n : Nat) (hr : r ≤ n)
    (hp : perm.Perm (List.range r)) (v : Nat) (hv : v < n) :
    ∃ z, z < n ∧ (extendPermutation perm n).getD z 0 = v := by
  have hl := extend_length perm r n hr hp
  have hm : v ∈ extendPermutation perm n :=
    (extend_perm perm r n hr hp).mem_iff.mpr (List.mem_range.mpr hv)
  obtain ⟨z, hz, he⟩ := List.getElem_of_mem hm
  exact ⟨z, by omega, by rw [List.getD_eq_getElem _ _ hz]; exact he⟩

/-- An automorphism given on the positions is an automorphism of the vertices. -/
theorem posAut_vAut (perm : List Nat) (r n : Nat) (hr : r ≤ n) (c : AdjacencyMatrix)
    (hp : perm.Perm (List.range r)) (x y : Nat) (hx : x < n) (hy : y < n)
    (h : PosAut n c perm (tp x y)) :
    VAut n c (tp ((extendPermutation perm n).getD x 0) ((extendPermutation perm n).getD y 0)) := by
  intro u v hu hv
  obtain ⟨i, hi, rfl⟩ := extend_surj perm r n hr hp u hu
  obtain ⟨j, hj, rfl⟩ := extend_surj perm r n hr hp v hv
  have key : ∀ k, k < n →
      tp ((extendPermutation perm n).getD x 0) ((extendPermutation perm n).getD y 0)
        ((extendPermutation perm n).getD k 0) = (extendPermutation perm n).getD (tp x y k) 0 := by
    intro k hk
    unfold tp
    by_cases h1 : k = x
    · rw [if_pos h1, if_pos (by rw [h1])]
    · rw [if_neg h1, if_neg (fun hc => h1 (extend_inj perm r n hr hp k x hk hx hc))]
      by_cases h2 : k = y
      · rw [if_pos h2, if_pos (by rw [h2])]
      · rw [if_neg h2, if_neg (fun hc => h2 (extend_inj perm r n hr hp k y hk hy hc))]
  rw [key i hi, key j hj]
  exact h i j hi hj

theorem vAut_comp (n : Nat) (c : AdjacencyMatrix) (g1 g2 : Nat → Nat)
    (h1 : VAut n c g1) (h2 : VAut n c g2) (hlt : ∀ z, z < n → g2 z < n) :
    VAut n c (fun z => g1 (g2 z)) := by
  intro u v hu hv
  simp only []
  rw [h1 _ _ (hlt u hu) (hlt v hv), h2 u v hu hv]

theorem tp_comm (a b z : Nat) : tp a b z = tp b a z := by
  unfold tp
  split_ifs <;> omega


theorem tp_inj (a b u v : Nat) (h : tp a b u = tp a b v) : u = v := by
  unfold tp at h
  split_ifs at h <;> omega

/-- Two arrangements of a block with the same sequence of keys differ by an automorphism, when
every exchange of two vertices of the block with equal keys is an automorphism. -/
theorem block_aut (n : Nat) (c : AdjacencyMatrix) (key : Nat → Nat) :
    ∀ k (B B' : List Nat), B.length = k → B.Nodup → B'.Perm B → B'.map key = B.map key →
      (∀ u ∈ B, u < n) →
      (∀ u v, u ∈ B → v ∈ B → key u = key v → VAut n c (tp u v)) →
      ∃ g : Nat → Nat, VAut n c g ∧ B.map g = B' ∧ (∀ z, z ∉ B → g z = z) ∧
        (∀ z, z < n → g z < n) ∧ Function.Injective g := by
  intro k
  induction k with
  | zero =>
    intro B B' hk _ hp _ _ _
    have hB : B = [] := List.length_eq_zero.mp hk
    subst hB
    have hB' : B' = [] := by simpa using hp
    subst hB'
    exact ⟨fun z => z, fun _ _ _ _ => rfl, rfl, fun _ _ => rfl, fun _ h => h, fun _ _ h => h⟩
  | succ k ih =>
    intro B B' hk hnd hp hkeys hlt H
    cases B with
    | nil => simp at hk
    | cons x t =>
      cases B' with
      | nil => simp at hkeys
      | cons y t' =>
        simp only [List.map_cons, List.cons.injEq] at hkeys
        obtain ⟨hkxy, hkt⟩ := hkeys
        have hndt := (List.nodup_cons.mp hnd).2
        have hxt := (List.nodup_cons.mp hnd).1
        have hnd' : (y :: t').Nodup := hp.nodup_iff.mpr hnd
        have hyt' := (List.nodup_cons.mp hnd').1
        by_cases hxy : y = x
        · subst hxy
          have hpt : t'.Perm t := (List.perm_cons y).mp hp
          obtain ⟨g, hg1, hg2, hg3, hg4, hg5⟩ := ih t t' (by simpa using hk) hndt hpt hkt
            (fun u hu => hlt u (List.mem_cons_of_mem _ hu))
            (fun u v hu hv => H u v (List.mem_cons_of_mem _ hu) (List.mem_cons_of_mem _ hv))
          refine ⟨g, hg1, ?_, ?_, hg4, hg5⟩
          · rw [List.map_cons, hg2, hg3 y hxt]
          · intro z hz
            exact hg3 z (fun h => hz (List.mem_cons_of_mem _ h))
        · have hyB : y ∈ x :: t := hp.mem_iff.mp (List.mem_cons_self _ _)
          have hyt : y ∈ t := by
            rcases List.mem_cons.mp hyB with h | h
            · exact absurd h hxy
            · exact h
          have hs : VAut n c (tp x y) := H x y (List.mem_cons_self _ _) hyB hkxy.symm
          have hslt : ∀ z, z < n → tp x y z < n := by
            intro z hz
            have hx := hlt x (List.mem_cons_self _ _)
            have hy := hlt y hyB
            unfold tp
            split_ifs <;> omega
          have hmem1 : ∀ a, a ∈ t.map (tp x y) ↔ (a = x ∨ a ∈ t) ∧ a ≠ y := by
            intro a
            rw [List.mem_map]
            constructor
            · rintro ⟨z, hz, rfl⟩
              by_cases hzy : z = y
              · subst hzy
                have : tp x z z = x := by unfold tp; split_ifs <;> omega
                rw [this]
                exact ⟨Or.inl rfl, fun h => hxy h.symm⟩
              · have hzx : z ≠ x := fun h => hxt (h ▸ hz)
                have : tp x y z = z := by unfold tp; split_ifs <;> omega
                rw [this]
                exact ⟨Or.inr hz, hzy⟩
            · rintro ⟨h1, h2⟩
              rcases h1 with h1 | h1
              · refine ⟨y, hyt, ?_⟩
                rw [h1]; unfold tp; split_ifs <;> omega
              · refine ⟨a, h1, ?_⟩
                have hax : a ≠ x := fun h => hxt (h ▸ h1)
                unfold tp; split_ifs <;> omega
          have hmem2 : ∀ a, a ∈ t' ↔ (a = x ∨ a ∈ t) ∧ a ≠ y := by
            intro a
            constructor
            · intro ha
              have := hp.mem_iff.mp (List.mem_cons_of_mem _ ha)
              exact ⟨List.mem_cons.mp this, fun h => hyt' (h ▸ ha)⟩
            · rintro ⟨h1, h2⟩
              have : a ∈ y :: t' := hp.mem_iff.mpr (List.mem_cons.mpr h1)
              rcases List.mem_cons.mp this with h | h
              · exact absurd h h2
              · exact h
          have hnd1 : (t.map (tp x y)).Nodup :=
            hndt.map (fun u v h => tp_inj x y u v h)
          have hp1 : t'.Perm (t.map (tp x y)) := by
            rw [List.perm_ext_iff_of_nodup (List.nodup_cons.mp hnd').2 hnd1]
            intro a
            rw [hmem1, hmem2]
          have hk1 : t'.map key = (t.map (tp x y)).map key := by
            rw [hkt, List.map_map]
            apply List.map_congr_left
            intro z hz
            simp only [Function.comp]
            unfold tp
            split_ifs with h1 h2
            · rw [h1, hkxy]
            · rw [h2, hkxy]
            · rfl
          have hsub : ∀ u, u ∈ t.map (tp x y) → u ∈ x :: t := by
            intro u hu
            exact List.mem_cons.mpr ((hmem1 u).mp hu).1
          obtain ⟨g, hg1, hg2, hg3, hg4, hg5⟩ := ih (t.map (tp x y)) t' (by simpa using hk) hnd1 hp1 hk1
            (fun u hu => hlt u (hsub u hu))
            (fun u v hu hv => H u v (hsub u hu) (hsub v hv))
          have hy1 : y ∉ t.map (tp x y) := fun h => ((hmem1 y).mp h).2 rfl
          refine ⟨fun z => g (tp x y z), vAut_comp n c g (tp x y) hg1 hs hslt, ?_, ?_, ?_,
            fun a b h => tp_inj x y a b (hg5 h)⟩
          · rw [List.map_cons]
            have : tp x y x = y := by unfold tp; split_ifs <;> omega
            rw [this, hg3 y hy1]
            congr 1
            rw [← hg2, List.map_map]
            rfl
          · intro z hz
            have hzx : z ≠ x := fun h => hz (h ▸ List.mem_cons_self _ _)
            have hzy : z ≠ y := fun h => hz (h ▸ hyB)
            have : tp x y z = z := by unfold tp; split_ifs <;> omega
            simp only [this]
            exact hg3 z (fun h => hz (hsub z h))
          · intro z hz
            exact hg4 _ (hslt z hz)


/-- The block-wise version: two arrangements that agree block by block up to the order of
vertices with equal keys differ by an automorphism. -/
theorem blocks_aut (n : Nat) (c : AdjacencyMatrix) (key : Nat → Nat)
    (blocks blocks' : List (List Nat))
    (hf : List.Forall₂ (fun B' B => B'.Perm B ∧ B'.map key = B.map key) blocks' blocks) :
    blocks.flatten.Nodup → (∀ u ∈ blocks.flatten, u < n) →
    (∀ B ∈ blocks, ∀ u v, u ∈ B → v ∈ B → key u = key v → VAut n c (tp u v)) →
    ∃ g : Nat → Nat, VAut n c g ∧ blocks.flatten.map g = blocks'.flatten ∧
      (∀ z, z ∉ blocks.flatten → g z = z) ∧ (∀ z, z < n → g z < n) ∧ Function.Injective g := by
  induction hf with
  | nil =>
    intro _ _ _
    exact ⟨fun z => z, fun _ _ _ _ => rfl, rfl, fun _ _ => rfl, fun _ h => h, fun _ _ h => h⟩
  | @cons B' B rest' rest hB _ ih =>
    intro hnd hlt H
    rw [List.flatten_cons] at hnd hlt
    have hndB := (List.nodup_append.mp hnd).1
    have hndR := (List.nodup_append.mp hnd).2.1
    have hdis := (List.nodup_append.mp hnd).2.2
    obtain ⟨g1, a1, a2, a3, a4, a5⟩ := block_aut n c key B.length B B' rfl hndB hB.1 hB.2
      (fun u hu => hlt u (List.mem_append_left _ hu)) (H B (List.mem_cons_self _ _))
    obtain ⟨g2, b1, b2, b3, b4, b5⟩ := ih hndR (fun u hu => hlt u (List.mem_append_right _ hu))
      (fun D hD => H D (List.mem_cons_of_mem _ hD))
    refine ⟨fun z => g2 (g1 z), vAut_comp n c g2 g1 b1 a1 a4, ?_, ?_, ?_,
      fun a b h => a5 (b5 h)⟩
    · rw [List.flatten_cons, List.flatten_cons, List.map_append]
      congr 1
      · rw [← a2]
        apply List.map_congr_left
        intro z hz
        apply b3
        intro hc
        have hm : g1 z ∈ B' := by rw [← a2]; exact List.mem_map.mpr ⟨z, hz, rfl⟩
        exact hdis (hB.1.mem_iff.mp hm) hc
      · rw [← b2]
        apply List.map_congr_left
        intro z hz
        rw [a3 z (fun hc => hdis hc hz)]
    · intro z hz
      rw [List.flatten_cons, List.mem_append, not_or] at hz
      show g2 (g1 z) = z
      rw [a3 z hz.1, b3 z hz.2]
    · intro z hz
      exact b4 _ (a4 z hz)


theorem vAut_congr (n : Nat) (c : AdjacencyMatrix) (g g' : Nat → Nat) (h : VAut n c g)
    (he : ∀ z, g' z = g z) : VAut n c g' := by
  intro u v hu hv
  rw [he u, he v]
  exact h u v hu hv

theorem sorted_between (key : Nat → Nat) (B : List Nat)
    (hs : B.Pairwise (fun a b => key a ≤ key b)) (a b p : Nat) (hb : b < B.length)
    (hab : key (B.getD a 0) = key (B.getD b 0)) (h1 : a ≤ p) (h2 : p ≤ b) :
    key (B.getD p 0) = key (B.getD a 0) := by
  rw [List.pairwise_iff_getElem] at hs
  have e1 : key (B.getD a 0) ≤ key (B.getD p 0) := by
    rcases Nat.eq_or_lt_of_le h1 with h | h
    · rw [h]
    · rw [List.getD_eq_getElem _ 0 (show a < B.length by omega),
        List.getD_eq_getElem _ 0 (show p < B.length by omega)]
      exact hs a p (by omega) (by omega) h
  have e2 : key (B.getD p 0) ≤ key (B.getD b 0) := by
    rcases Nat.eq_or_lt_of_le h2 with h | h
    · rw [h]
    · rw [List.getD_eq_getElem _ 0 (show p < B.length by omega),
        List.getD_eq_getElem _ 0 (show b < B.length by omega)]
      exact hs p b (by omega) (by omega) h
  omega

theorem block_H_lt (n r : Nat) (c : AdjacencyMatrix) (perm F S Lg : List Nat) (key : Nat → Nat)
    (hp : perm.Perm (List.range r)) (hr : r ≤ n)
    (hf : flipsOk n c perm F = true) (hc : cyclesOk n c perm S Lg = true)
    (pre B post : List Nat) (hperm : perm = pre ++ (B ++ post))
    (hrec : ∀ i, i + 1 < B.length → key (B.getD i 0) = key (B.getD (i + 1) 0) →
      RunRecorded F S Lg perm.length (pre.length + i))
    (hs : B.Pairwise (fun a b => key a ≤ key b))
    (a b : Nat) (hab : a < b) (hb : b < B.length)
    (hk : key (B.getD a 0) = key (B.getD b 0)) :
    VAut n c (tp (B.getD a 0) (B.getD b 0)) := by
  have hlen : perm.length = r := by rw [hp.length_eq, List.length_range]
  have hlen2 : perm.length = pre.length + (B.length + post.length) := by
    rw [hperm]; simp
  have hadj : ∀ p, pre.length + a ≤ p → p < pre.length + a + (b - a - 1) + 1 →
      PosAut n c perm (tp p (p + 1)) := by
    intro p h1 h2
    apply runRecorded_posAut n c perm F S Lg perm.length p (le_refl _) (by omega) hf hc
    have := hrec (p - pre.length) (by omega) (by
      rw [sorted_between key B hs a b (p - pre.length) hb hk (by omega) (by omega),
        sorted_between key B hs a b (p - pre.length + 1) hb hk (by omega) (by omega)])
    rw [show pre.length + (p - pre.length) = p by omega] at this
    exact this
  have h1 := posAut_tp n c perm (pre.length + a) (b - a - 1) (by omega) hadj
  rw [show pre.length + a + (b - a - 1) + 1 = pre.length + b by omega] at h1
  have h2 := posAut_vAut perm r n hr c hp _ _ (by omega) (by omega) h1
  have hget : ∀ i, i < B.length →
      (extendPermutation perm n).getD (pre.length + i) 0 = B.getD i 0 := by
    intro i hi
    rw [extendPermutation_getD, if_pos (by omega), hperm,
      List.getD_append_right _ _ _ _ (by omega), List.getD_append _ _ _ _ (by omega)]
    congr 1
    omega
  rw [hget a (by omega), hget b hb] at h2
  exact h2

/-- When a stream has passed its tests, the exchange of two vertices of one layer with equal
ids is an automorphism of the tested matrix. -/
theorem blocks_H (n r : Nat) (c : AdjacencyMatrix) (perm F S Lg : List Nat) (key : Nat → Nat)
    (hp : perm.Perm (List.range r)) (hr : r ≤ n)
    (hf : flipsOk n c perm F = true) (hc : cyclesOk n c perm S Lg = true) :
    ∀ (blocks : List (List Nat)) (pre : List Nat), perm = pre ++ blocks.flatten →
      BlocksRecorded key F S Lg perm.length pre.length blocks →
      (∀ B ∈ blocks, B.Pairwise (fun a b => key a ≤ key b)) →
      ∀ B ∈ blocks, ∀ u v, u ∈ B → v ∈ B → key u = key v → VAut n c (tp u v) := by
  intro blocks
  induction blocks with
  | nil => intro _ _ _ _ B hB; simp at hB
  | cons B rest ih =>
    intro pre hperm hrec hs D hD u v hu hv hk
    rw [List.flatten_cons] at hperm
    obtain ⟨hrecB, hrecR⟩ := hrec
    rcases List.mem_cons.mp hD with hD | hD
    · subst hD
      obtain ⟨a, ha, rfl⟩ := List.getElem_of_mem hu
      obtain ⟨b, hb, rfl⟩ := List.getElem_of_mem hv
      rw [← List.getD_eq_getElem _ 0 ha, ← List.getD_eq_getElem _ 0 hb] at hk ⊢
      have hsD := hs D (List.mem_cons_self _ _)
      rcases Nat.lt_trichotomy a b with h | h | h
      · exact block_H_lt n r c perm F S Lg key hp hr hf hc pre D rest.flatten hperm hrecB hsD
          a b h hb hk
      · subst h
        intro x y _ _
        have : ∀ z, tp (D.getD a 0) (D.getD a 0) z = z := by
          intro z; unfold tp; split_ifs <;> omega
        rw [this, this]
      · apply vAut_congr n c _ _
          (block_H_lt n r c perm F S Lg key hp hr hf hc pre D rest.flatten hperm hrecB hsD
            b a h ha hk.symm)
        intro z
        exact tp_comm _ _ z
    · apply ih (pre ++ B) (by rw [hperm, List.append_assoc]) _
        (fun E hE => hs E (List.mem_cons_of_mem _ hE)) D hD u v hu hv hk
      rw [List.length_append]
      exact hrecR



theorem clear_some (w : PtrWidths) (m : MyHashmap) (h : m.gen + 1 < w.posetGenMAX) :
    MyHashmap.clear w m = some { m with gen := m.gen + 1, numElements := 0 } := by
  unfold MyHashmap.clear
  rw [if_neg (by omega)]

theorem findLoop_invalid {E : Type} (cfg : NCT) (w : PtrWidths) (toPoset : E → PosetObj)
    (dflt : E) (container : List E) (m : MyHashmap) (candidate : AnnotatedPosetObj)
    (h : ∀ s, (m.data s).isValid w m.gen = false) (fuel index i : Nat) :
    findLoop cfg w toPoset dflt container m candidate fuel index i = none := by
  cases fuel with
  | zero => rfl
  | succ fuel =>
    unfold findLoop
    rw [h index]
    rfl

/-- Below the wrap of the generation counter `clear` empties the map: no slot is valid for the
new generation, `find` returns null for every candidate, and this state is kept by further
calls. -/
theorem clear_spec {E : Type} (cfg : NCT) (w : PtrWidths) (toPoset : E → PosetObj) (dflt : E)
    (container : List E) (m : MyHashmap) (hb : GenBound w m) (h : m.gen + 1 < w.posetGenMAX) :
    ∃ m', MyHashmap.clear w m = some m' ∧ m'.numElements = 0 ∧ m'.gen = m.gen + 1 ∧
      m'.capacity = m.capacity ∧ GenBound w m' ∧
      (∀ s, (m'.data s).isValid w m'.gen = false) ∧
      ∀ candidate, m'.find cfg w toPoset dflt container candidate = none := by
  refine ⟨_, clear_some w m h, rfl, rfl, rfl, ?_, ?_, ?_⟩
  · intro s hs
    exact Nat.le_succ_of_le (hb s hs)
  · intro s
    unfold PosetPointer.isValid
    simp only []
    by_cases hs : (m.data s).posetRefIndex = w.posetRefIndexInvalid
    · simp [hs]
    · have := hb s hs
      have hne : ¬ (m.data s).pointerGen = m.gen + 1 := by omega
      simp [hne]
  · intro candidate
    unfold MyHashmap.find
    apply findLoop_invalid
    intro s
    unfold PosetPointer.isValid
    simp only []
    by_cases hs : (m.data s).posetRefIndex = w.posetRefIndexInvalid
    · simp [hs]
    · have := hb s hs
      have hne : ¬ (m.data s).pointerGen = m.gen + 1 := by omega
      simp [hne]

/-- C19, as the source behaves: the call of `clear()` at which the generation counter reaches
`posetGenMAX` builds the fill value `Ptr{0, Ptr::posetRefIndexInvalid, 0}` with the
three-argument constructor, whose assertion `posRefIndex <= posetRefIndexMAX` fails.  For
`PosetPointer<24, 7, 1>` this is the first call on a new map, for `PosetPointer<64, 32, 32>`
the call made at generation `2^32 - 2`. -/
theorem clear_at_posetGenMAX (m : MyHashmap) (initialCapacity : Nat) :
    MyHashmap.clear ptrSmall (MyHashmap.new ptrSmall initialCapacity) = none ∧
    MyHashmap.clear ptrExt { m with gen := 2 ^ 32 - 2 } = none := by
  constructor
  · rfl
  · unfold MyHashmap.clear
    have h : ({ m with gen := 2 ^ 32 - 2 } : MyHashmap).gen + 1 ≥ ptrExt.posetGenMAX := by
      show 2 ^ 32 - 2 + 1 ≥ ptrExt.posetGenMAX
      decide
    rw [if_pos h]
    rfl


theorem hash16_lt (a : AnnotatedPosetObj) : hash16 a < 2 ^ 16 - 1 := by
  unfold hash16
  have h : ((a.hash * MULT2) % 2 ^ 64) % (2 ^ 16 - 1) < 2 ^ 16 - 1 := Nat.mod_lt _ (by decide)
  rw [Nat.mod_eq_of_lt (lt_trans h (by decide))]
  exact h

/-- C18: `OldGenMap::insert` writes the slot addressed by the record exactly when the slot is
empty (tag `0xFFFF`) or the record has status `YES`; then the slot holds the tag and the record
of the new entry.  Otherwise the tag array and the record array are unchanged.  No other slot
is touched, and a written tag differs from the empty tag, so a slot that holds a record is
rewritten by `YES` records only. -/
theorem oldGenMap_insert_frame (m : OldGenMap) (a : AnnotatedPosetObj) :
    (if m.hashArray (m.slot a) = 2 ^ 16 - 1 ∨ a.poset.status = SortableStatus.YES then
      (m.insert a).hashArray (m.slot a) = hash16 a ∧
        (m.insert a).posetArray (m.slot a) = a.poset
    else (m.insert a).hashArray = m.hashArray ∧ (m.insert a).posetArray = m.posetArray) ∧
    (∀ x, x ≠ m.slot a → (m.insert a).hashArray x = m.hashArray x ∧
      (m.insert a).posetArray x = m.posetArray x) ∧
    hash16 a ≠ 2 ^ 16 - 1 ∧ (m.insert a).size = m.size ∧ (m.insert a).empty = false := by
  refine ⟨?_, ?_, Nat.ne_of_lt (hash16_lt a), ?_, ?_⟩
  · by_cases h : m.hashArray (m.slot a) = 2 ^ 16 - 1 ∨ a.poset.status = SortableStatus.YES
    · rw [if_pos h]
      unfold OldGenMap.insert
      simp only []
      rw [if_pos h]
      simp [setCell]
    · rw [if_neg h]
      unfold OldGenMap.insert
      simp only []
      rw [if_neg h]
      exact ⟨rfl, rfl⟩
  · intro x hx
    unfold OldGenMap.insert
    simp only []
    split_ifs
    · simp [setCell, hx]
    · exact ⟨rfl, rfl⟩
  · unfold OldGenMap.insert
    simp only []
    split_ifs <;> rfl
  · unfold OldGenMap.insert
    simp only []
    split_ifs <;> rfl


theorem cTableITLB_all :
    (List.range 48).all (fun N =>
      match defaultC N with
      | some c => isCeilLog2Factorial N c
      | none => false) = true := by
  decide

/-- C20: for every `N` from 0 to 47 the table entry `cTableITLB[N]`, which is the value of
`C` when `--num-comparisons` is not given, is the least `c` with `N! ≤ 2^c`. -/
theorem cTableITLB_spec (N : Nat) (h : N < 48) :
    ∃ c, defaultC N = some c ∧ N.factorial ≤ 2 ^ c ∧ ∀ c', N.factorial ≤ 2 ^ c' → c ≤ c' := by
  have hall := cTableITLB_all
  rw [List.all_eq_true] at hall
  have hN := hall N (List.mem_range.mpr h)
  cases hc : defaultC N with
  | none => rw [hc] at hN; exact Bool.noConfusion hN
  | some c =>
    rw [hc] at hN
    simp only [isCeilLog2Factorial, Bool.and_eq_true, decide_eq_true_eq, Bool.or_eq_true,
      beq_iff_eq] at hN
    refine ⟨c, rfl, hN.1, ?_⟩
    intro c' hc'
    rcases hN.2 with h0 | h1
    · omega
    · by_contra hlt
      have : 2 ^ c' ≤ 2 ^ (c - 1) := Nat.pow_le_pow_right (by decide) (by omega)
      omega

theorem cTableITLB_spec_witness :
    ∃ c, defaultC 5 = some c ∧ Nat.factorial 5 ≤ 2 ^ c ∧ ∀ c', Nat.factorial 5 ≤ 2 ^ c' → c ≤ c' :=
  cTableITLB_spec 5 (by decide)


theorem closure_round_len (n k : Nat) (d : AdjacencyMatrix) (hl : d.length = n) :
    ((List.range n).foldl (fun d i =>
        if (d.getD i 0).testBit k then d.set i (d.getD i 0 ||| d.getD k 0) else d) d).length = n ∧
    ∀ i j, AdjacencyMatrix.get ((List.range n).foldl (fun d i =>
        if (d.getD i 0).testBit k then d.set i (d.getD i 0 ||| d.getD k 0) else d) d) i j =
      (d.get i j || (d.get i k && d.get k j)) := by
  obtain ⟨h1, h2⟩ := closure_inner n k d hl n le_rfl
  refine ⟨h1, ?_⟩
  intro i j
  unfold AdjacencyMatrix.get
  rw [h2]
  by_cases hi : i < n
  · by_cases hb : (d.getD i 0).testBit k = true
    · rw [if_pos ⟨hi, hb⟩, Nat.testBit_or, hb]; simp
    · rw [if_neg (by tauto)]
      simp only [Bool.not_eq_true] at hb
      rw [hb]; simp
  · rw [if_neg (by tauto), List.getD_eq_default _ _ (by omega)]
    simp

theorem closure_outer_len (n : Nat) (m : AdjacencyMatrix) (hl : m.length = n) :
    ∀ K, K ≤ n →
      ((List.range K).foldl (fun d k =>
        (List.range n).foldl (fun d i =>
          if (d.getD i 0).testBit k then d.set i (d.getD i 0 ||| d.getD k 0) else d) d) m).length
        = n ∧
      (∀ i j, m.get i j = true → AdjacencyMatrix.get ((List.range K).foldl (fun d k =>
        (List.range n).foldl (fun d i =>
          if (d.getD i 0).testBit k then d.set i (d.getD i 0 ||| d.getD k 0) else d) d) m) i j = true) ∧
      (∀ i j, i < n → j < n → AdjacencyMatrix.get ((List.range K).foldl (fun d k =>
        (List.range n).foldl (fun d i =>
          if (d.getD i 0).testBit k then d.set i (d.getD i 0 ||| d.getD k 0) else d) d) m) i j = true →
          Relation.TransGen (fun u v => u < n ∧ v < n ∧ m.get u v = true) i j) ∧
      (∀ i j c, c < K → AdjacencyMatrix.get ((List.range K).foldl (fun d k =>
        (List.range n).foldl (fun d i =>
          if (d.getD i 0).testBit k then d.set i (d.getD i 0 ||| d.getD k 0) else d) d) m) i c = true →
        AdjacencyMatrix.get ((List.range K).foldl (fun d k =>
        (List.range n).foldl (fun d i =>
          if (d.getD i 0).testBit k then d.set i (d.getD i 0 ||| d.getD k 0) else d) d) m) c j = true →
        AdjacencyMatrix.get ((List.range K).foldl (fun d k =>
        (List.range n).foldl (fun d i =>
          if (d.getD i 0).testBit k then d.set i (d.getD i 0 ||| d.getD k 0) else d) d) m) i j = true) := by
  intro K
  induction K with
  | zero =>
    intro _
    refine ⟨hl, fun _ _ h => h, fun i j hi hj h => Relation.TransGen.single ⟨hi, hj, h⟩, ?_⟩
    intro i j c hc
    omega
  | succ K ih =>
    intro hK
    rw [List.range_succ, List.foldl_append]
    simp only [List.foldl_cons, List.foldl_nil]
    have ih' := ih (by omega)
    generalize (List.range K).foldl (fun d k =>
        (List.range n).foldl (fun d i =>
          if (d.getD i 0).testBit k then d.set i (d.getD i 0 ||| d.getD k 0) else d) d) m = d at ih'
    obtain ⟨hld, hM, hS, hQ⟩ := ih'
    obtain ⟨hl', hg⟩ := closure_round_len n K d hld
    refine ⟨hl', ?_, ?_, ?_⟩
    · intro i j h
      rw [hg, hM i j h]; rfl
    · intro i j hi hj h
      rw [hg] at h
      simp only [Bool.or_eq_true, Bool.and_eq_true] at h
      rcases h with h | ⟨h1, h2⟩
      · exact hS i j hi hj h
      · exact Relation.TransGen.trans (hS _ _ hi (by omega) h1) (hS _ _ (by omega) hj h2)
    · intro i j c hc h1 h2
      rw [hg] at h1 h2 ⊢
      simp only [Bool.or_eq_true, Bool.and_eq_true] at h1 h2 ⊢
      by_cases hck : c = K
      · subst hck
        have a1 : d.get i c = true := by tauto
        have a2 : d.get c j = true := by tauto
        exact Or.inr ⟨a1, a2⟩
      · have hc' : c < K := by omega
        rcases h1 with h1 | ⟨h1, h1'⟩
        · rcases h2 with h2 | ⟨h2, h2'⟩
          · exact Or.inl (hQ i j c hc' h1 h2)
          · exact Or.inr ⟨hQ i K c hc' h1 h2, h2'⟩
        · rcases h2 with h2 | ⟨h2, h2'⟩
          · exact Or.inr ⟨h1, hQ K j c hc' h1' h2⟩
          · exact Or.inr ⟨h1, h2'⟩

/-- C15: for a matrix with `n` rows, after `TransitiveClosure()` the entry `get(i, j)`,
`i, j < n`, holds exactly when the original graph on the vertices `0 .. n-1` has a non-empty
directed path from `i` to `j`. -/
theorem transitiveClosure_path (n : Nat) (m : AdjacencyMatrix) (hl : m.length = n) (i j : Nat)
    (hi : i < n) (hj : j < n) :
    (AdjacencyMatrix.TransitiveClosure n m).get i j = true ↔
      Relation.TransGen (fun u v => u < n ∧ v < n ∧ m.get u v = true) i j := by
  obtain ⟨_, hM, hS, hQ⟩ := closure_outer_len n m hl n le_rfl
  have hback : ∀ b, Relation.TransGen (fun u v => u < n ∧ v < n ∧ m.get u v = true) i b →
      (AdjacencyMatrix.TransitiveClosure n m).get i b = true := by
    intro b h
    induction h with
    | single h => exact hM _ _ h.2.2
    | tail _ h2 ih => exact hQ _ _ _ h2.1 ih (hM _ _ h2.2.2)
  exact ⟨hS i j hi hj, hback j⟩

theorem transitiveClosure_path_witness :
    (AdjacencyMatrix.TransitiveClosure 3 [2, 4, 0]).get 0 2 = true ↔
      Relation.TransGen (fun u v => u < 3 ∧ v < 3 ∧ AdjacencyMatrix.get [2, 4, 0] u v = true) 0 2 :=
  transitiveClosure_path 3 [2, 4, 0] rfl 0 2 (by decide) (by decide)


theorem wf_get_false_of_ge (n : Nat) (m : AdjacencyMatrix) (h : AdjacencyMatrix.wf n m = true)
    (i j : Nat) (hij : n ≤ i ∨ n ≤ j) : m.get i j = false := by
  by_contra hc
  simp only [Bool.not_eq_false] at hc
  have := wf_get_lt n m h i j hc
  omega

/-- Two well-formed matrices with the same entries are equal. -/
theorem wf_ext (n : Nat) (m m' : AdjacencyMatrix) (h : AdjacencyMatrix.wf n m = true)
    (h' : AdjacencyMatrix.wf n m' = true) (he : ∀ i j, i < n → j < n → m.get i j = m'.get i j) :
    m = m' := by
  obtain ⟨hl, hr⟩ := (wf_iff n m).mp h
  obtain ⟨hl', hr'⟩ := (wf_iff n m').mp h'
  apply List.ext_getElem (by omega)
  intro i h1 h2
  have hi : i < n := by omega
  apply Nat.eq_of_testBit_eq
  intro j
  have e1 : m.get i j = m[i].testBit j := by
    unfold AdjacencyMatrix.get
    rw [List.getD_eq_getElem _ _ h1]
  have e2 : m'.get i j = m'[i].testBit j := by
    unfold AdjacencyMatrix.get
    rw [List.getD_eq_getElem _ _ h2]
  rw [← e1, ← e2]
  by_cases hj : j < n
  · exact he i j hi hj
  · rw [wf_get_false_of_ge n m h i j (Or.inr (by omega)),
      wf_get_false_of_ge n m' h' i j (Or.inr (by omega))]

theorem setEdge_wf (n : Nat) (m : AdjacencyMatrix) (h : AdjacencyMatrix.wf n m = true)
    (s t : Nat) (ht : t < n) : AdjacencyMatrix.wf n (m.setEdge s t) = true := by
  obtain ⟨hl, hr⟩ := (wf_iff n m).mp h
  unfold AdjacencyMatrix.setEdge
  by_cases hs : s < n
  · rw [wf_iff]
    refine ⟨by simp [hl], ?_⟩
    intro i hi
    rw [getD_set_eq _ _ _ _ (by omega)]
    split
    · apply Nat.or_lt_two_pow (hr s hs)
      rw [Nat.shiftLeft_eq, one_mul]
      exact Nat.pow_lt_pow_right (by decide) ht
    · exact hr i hi
  · rw [List.set_eq_of_length_le (by omega)]
    exact h

theorem setEdge_get (n : Nat) (m : AdjacencyMatrix) (h : AdjacencyMatrix.wf n m = true)
    (s t : Nat) (hs : s < n) (a b : Nat) :
    (m.setEdge s t).get a b = (m.get a b || (decide (a = s) && decide (b = t))) := by
  obtain ⟨hl, hr⟩ := (wf_iff n m).mp h
  unfold AdjacencyMatrix.setEdge AdjacencyMatrix.get
  rw [getD_set_eq _ _ _ _ (by omega)]
  by_cases ha : a = s
  · subst ha
    rw [if_pos rfl, Nat.testBit_or, testBit_one_shiftLeft]
    by_cases hb : b = t
    · subst hb; simp
    · have : ¬ t = b := fun h => hb h.symm
      simp [hb, this]
  · rw [if_neg ha]
    simp [ha]

theorem deleteEdge_wf (n : Nat) (m : AdjacencyMatrix) (h : AdjacencyMatrix.wf n m = true)
    (s t : Nat) : AdjacencyMatrix.wf n (m.deleteEdge s t) = true := by
  obtain ⟨hl, hr⟩ := (wf_iff n m).mp h
  unfold AdjacencyMatrix.deleteEdge
  by_cases hs : s < n
  · rw [wf_iff]
    refine ⟨by simp [hl], ?_⟩
    intro i hi
    rw [getD_set_eq _ _ _ _ (by omega)]
    split
    · exact lt_of_le_of_lt Nat.and_le_left (hr s hs)
    · exact hr i hi
  · rw [List.set_eq_of_length_le (by omega)]
    exact h

theorem deleteEdge_get (n : Nat) (m : AdjacencyMatrix) (h : AdjacencyMatrix.wf n m = true)
    (hn : n ≤ 32) (s t a b : Nat) :
    (m.deleteEdge s t).get a b = (m.get a b && !(decide (a = s) && decide (b = t))) := by
  obtain ⟨hl, hr⟩ := (wf_iff n m).mp h
  by_cases hb : b < n
  · unfold AdjacencyMatrix.deleteEdge
    by_cases hs : s < n
    · unfold AdjacencyMatrix.get
      rw [getD_set_eq _ _ _ _ (by omega)]
      by_cases ha : a = s
      · subst ha
        rw [if_pos rfl, testBit_clear]
        have : b < 32 := by omega
        by_cases hbt : b = t <;> simp [this, hbt]
      · rw [if_neg ha]
        simp [ha]
    · rw [List.set_eq_of_length_le (by omega)]
      by_cases ha : a = s
      · subst ha
        rw [wf_get_false_of_ge n m h a b (Or.inl (by omega))]
        rfl
      · simp [ha]
  · rw [wf_get_false_of_ge n _ (deleteEdge_wf n m h s t) a b (Or.inr (by omega)),
      wf_get_false_of_ge n m h a b (Or.inr (by omega))]
    rfl

theorem del_fold1 (n : Nat) (hn : n ≤ 32) (s : Nat) (l : List Nat) :
    ∀ (m : AdjacencyMatrix), AdjacencyMatrix.wf n m = true →
      AdjacencyMatrix.wf n (l.foldl (fun d o => AdjacencyMatrix.deleteEdge d s o) m) = true ∧
      ∀ a b, AdjacencyMatrix.get (l.foldl (fun d o => AdjacencyMatrix.deleteEdge d s o) m) a b =
        (m.get a b && !(decide (a = s) && decide (b ∈ l))) := by
  induction l with
  | nil => intro m h; exact ⟨h, by simp⟩
  | cons o l ih =>
    intro m h
    simp only [List.foldl_cons]
    obtain ⟨h1, h2⟩ := ih _ (deleteEdge_wf n m h s o)
    refine ⟨h1, ?_⟩
    intro a b
    rw [h2, deleteEdge_get n m h hn]
    by_cases ha : a = s <;> by_cases hb : b = o <;> by_cases hl : b ∈ l <;> simp [ha, hb, hl]

theorem del_fold2 (n : Nat) (hn : n ≤ 32) (t : Nat) (l : List Nat) :
    ∀ (m : AdjacencyMatrix), AdjacencyMatrix.wf n m = true →
      AdjacencyMatrix.wf n (l.foldl (fun d i => AdjacencyMatrix.deleteEdge d i t) m) = true ∧
      ∀ a b, AdjacencyMatrix.get (l.foldl (fun d i => AdjacencyMatrix.deleteEdge d i t) m) a b =
        (m.get a b && !(decide (a ∈ l) && decide (b = t))) := by
  induction l with
  | nil => intro m h; exact ⟨h, by simp⟩
  | cons i l ih =>
    intro m h
    simp only [List.foldl_cons]
    obtain ⟨h1, h2⟩ := ih _ (deleteEdge_wf n m h i t)
    refine ⟨h1, ?_⟩
    intro a b
    rw [h2, deleteEdge_get n m h hn]
    by_cases ha : a = i <;> by_cases hb : b = t <;> by_cases hl : a ∈ l <;> simp [ha, hb, hl]

theorem del_fold3 (n : Nat) (hn : n ≤ 32) (ins : List Nat) (outs : List Nat) :
    ∀ (m : AdjacencyMatrix), AdjacencyMatrix.wf n m = true →
      AdjacencyMatrix.wf n (outs.foldl (fun d o =>
        ins.foldl (fun d i => AdjacencyMatrix.deleteEdge d i o) d) m) = true ∧
      ∀ a b, AdjacencyMatrix.get (outs.foldl (fun d o =>
        ins.foldl (fun d i => AdjacencyMatrix.deleteEdge d i o) d) m) a b =
        (m.get a b && !(decide (a ∈ ins) && decide (b ∈ outs))) := by
  induction outs with
  | nil => intro m h; exact ⟨h, by simp⟩
  | cons o outs ih =>
    intro m h
    simp only [List.foldl_cons]
    obtain ⟨g1, g2⟩ := del_fold2 n hn o ins m h
    obtain ⟨h1, h2⟩ := ih _ g1
    refine ⟨h1, ?_⟩
    intro a b
    rw [h2, g2]
    by_cases ha : a ∈ ins <;> by_cases hb : b = o <;> by_cases hl : b ∈ outs <;>
      simp [ha, hb, hl]

/-- The entries of the matrix left by `transReduction`. -/
theorem transReduction_get (n : Nat) (hn : n ≤ 32) (m : AdjacencyMatrix)
    (h : AdjacencyMatrix.wf n m = true) (u v : Nat) (g : NiceGraph) :
    AdjacencyMatrix.wf n (m.transReduction u v g) = true ∧
    ∀ a b, (m.transReduction u v g).get a b =
      (m.get a b && !(decide (a = u) && decide (b ∈ g.outLists.getD v [])) &&
        !(decide (a ∈ g.inLists.getD u []) && decide (b = v)) &&
        !(decide (a ∈ g.inLists.getD u []) && decide (b ∈ g.outLists.getD v []))) := by
  unfold AdjacencyMatrix.transReduction
  simp only []
  obtain ⟨a1, a2⟩ := del_fold1 n hn u (g.outLists.getD v []) m h
  obtain ⟨b1, b2⟩ := del_fold2 n hn v (g.inLists.getD u []) _ a1
  obtain ⟨c1, c2⟩ := del_fold3 n hn (g.inLists.getD u []) (g.outLists.getD v []) _ b1
  refine ⟨c1, ?_⟩
  intro a b
  rw [c2, b2, a2]


theorem transGen_add_edge (E : Nat → Nat → Prop) (u v a b : Nat) :
    Relation.TransGen (fun x y => E x y ∨ (x = u ∧ y = v)) a b ↔
      Relation.TransGen E a b ∨ (Relation.ReflTransGen E a u ∧ Relation.ReflTransGen E v b) := by
  constructor
  · intro h
    induction h with
    | single h =>
      rcases h with h | ⟨rfl, rfl⟩
      · exact Or.inl (Relation.TransGen.single h)
      · exact Or.inr ⟨Relation.ReflTransGen.refl, Relation.ReflTransGen.refl⟩
    | tail _ h2 ih =>
      rcases h2 with h2 | ⟨rfl, rfl⟩
      · rcases ih with ih | ⟨i1, i2⟩
        · exact Or.inl (Relation.TransGen.tail ih h2)
        · exact Or.inr ⟨i1, Relation.ReflTransGen.tail i2 h2⟩
      · rcases ih with ih | ⟨i1, _⟩
        · exact Or.inr ⟨ih.to_reflTransGen, Relation.ReflTransGen.refl⟩
        · exact Or.inr ⟨i1, Relation.ReflTransGen.refl⟩
  · intro h
    have hmono : ∀ x y, Relation.TransGen E x y →
        Relation.TransGen (fun x y => E x y ∨ (x = u ∧ y = v)) x y :=
      fun x y h => Relation.TransGen.mono (fun _ _ h => Or.inl h) h
    have hmono' : ∀ x y, Relation.ReflTransGen E x y →
        Relation.ReflTransGen (fun x y => E x y ∨ (x = u ∧ y = v)) x y :=
      fun x y h => Relation.ReflTransGen.mono (fun _ _ h => Or.inl h) h
    rcases h with h | ⟨h1, h2⟩
    · exact hmono a b h
    · exact Relation.TransGen.trans_right (hmono' _ _ h1)
        (Relation.TransGen.trans_left
          (Relation.TransGen.single (Or.inr ⟨rfl, rfl⟩)) (hmono' _ _ h2))

theorem reflTransGen_cases (E : Nat → Nat → Prop) (a b : Nat)
    (h : Relation.ReflTransGen E a b) : a = b ∨ Relation.TransGen E a b := by
  rcases Relation.reflTransGen_iff_eq_or_transGen.mp h with h | h
  · exact Or.inl h.symm
  · exact Or.inr h


/-- The relational core of `transReduction`: `E` is the edge relation of the parent, a
transitively reduced acyclic graph in which `u` and `v` are incomparable; `R` is the relation
left after the three deletion loops have run on the graph with the new edge `u → v`. -/
theorem transReduction_rel (E R : Nat → Nat → Prop) (u v : Nat)
    (hirr : ∀ a, ¬ Relation.TransGen E a a)
    (hred : ∀ a b w, E a b → Relation.TransGen E a w → Relation.TransGen E w b → False)
    (hne : u ≠ v) (huv : ¬ Relation.TransGen E u v) (hvu : ¬ Relation.TransGen E v u)
    (hR : ∀ a b, R a b ↔ ((E a b ∨ (a = u ∧ b = v)) ∧
      ¬ (a = u ∧ Relation.TransGen (fun x y => E x y ∨ (x = u ∧ y = v)) v b) ∧
      ¬ (Relation.TransGen (fun x y => E x y ∨ (x = u ∧ y = v)) a u ∧ b = v) ∧
      ¬ (Relation.TransGen (fun x y => E x y ∨ (x = u ∧ y = v)) a u ∧
        Relation.TransGen (fun x y => E x y ∨ (x = u ∧ y = v)) v b))) :
    (∀ a b, Relation.TransGen R a b ↔
      Relation.TransGen (fun x y => E x y ∨ (x = u ∧ y = v)) a b) ∧
    (∀ a b w, R a b → Relation.TransGen (fun x y => E x y ∨ (x = u ∧ y = v)) a w →
      Relation.TransGen (fun x y => E x y ∨ (x = u ∧ y = v)) w b → False) ∧
    (∀ a, ¬ Relation.TransGen (fun x y => E x y ∨ (x = u ∧ y = v)) a a) := by
  have F1 : ¬ Relation.ReflTransGen E v u := by
    intro h
    rcases reflTransGen_cases E v u h with h | h
    · exact hne h.symm
    · exact hvu h
  have A := transGen_add_edge E u v
  have F2 : ¬ Relation.TransGen (fun x y => E x y ∨ (x = u ∧ y = v)) v u := by
    intro h
    rcases (A v u).mp h with h | ⟨h, _⟩
    · exact hvu h
    · exact F1 h
  have F3 : ¬ Relation.TransGen (fun x y => E x y ∨ (x = u ∧ y = v)) v v := by
    intro h
    rcases (A v v).mp h with h | ⟨h, _⟩
    · exact hirr v h
    · exact F1 h
  have F4 : ¬ Relation.TransGen (fun x y => E x y ∨ (x = u ∧ y = v)) u u := by
    intro h
    rcases (A u u).mp h with h | ⟨_, h⟩
    · exact hirr u h
    · exact F1 h
  have toU : ∀ a, Relation.TransGen (fun x y => E x y ∨ (x = u ∧ y = v)) a u →
      Relation.TransGen E a u := by
    intro a h
    rcases (A a u).mp h with h | ⟨_, h⟩
    · exact h
    · exact absurd h F1
  have fromV : ∀ b, Relation.TransGen (fun x y => E x y ∨ (x = u ∧ y = v)) v b →
      Relation.TransGen E v b := by
    intro b h
    rcases (A v b).mp h with h | ⟨h, _⟩
    · exact h
    · exact absurd h F1
  have incl : ∀ x y, Relation.TransGen E x y →
      Relation.TransGen (fun x y => E x y ∨ (x = u ∧ y = v)) x y :=
    fun x y h => Relation.TransGen.mono (fun _ _ h => Or.inl h) h
  have hRuv : R u v := by
    rw [hR]
    exact ⟨Or.inr ⟨rfl, rfl⟩, fun h => F3 h.2, fun h => F4 h.1, fun h => F4 h.1⟩
  have intoU : ∀ a, Relation.ReflTransGen E a u → Relation.ReflTransGen R a u := by
    intro a h
    induction h using Relation.ReflTransGen.head_induction_on with
    | refl => exact Relation.ReflTransGen.refl
    | head hac hcu ih =>
      rename_i a c
      refine Relation.ReflTransGen.head ?_ ih
      rw [hR]
      have hcl : ∀ x, Relation.TransGen (fun x y => E x y ∨ (x = u ∧ y = v)) x c →
          Relation.TransGen (fun x y => E x y ∨ (x = u ∧ y = v)) x u := by
        intro x hx
        rcases reflTransGen_cases E c u hcu with h | h
        · rw [h] at hx; exact hx
        · exact Relation.TransGen.trans hx (incl _ _ h)
      refine ⟨Or.inl hac, fun h => F2 (hcl v h.2), ?_, fun h => F2 (hcl v h.2)⟩
      rintro ⟨_, rfl⟩
      exact F1 hcu
  have outOfV : ∀ b, Relation.ReflTransGen E v b → Relation.ReflTransGen R v b := by
    intro b h
    induction h with
    | refl => exact Relation.ReflTransGen.refl
    | tail hvc hcb ih =>
      rename_i c b
      refine Relation.ReflTransGen.tail ih ?_
      rw [hR]
      have hcl : Relation.TransGen (fun x y => E x y ∨ (x = u ∧ y = v)) c u → False := by
        intro hx
        rcases reflTransGen_cases E v c hvc with h | h
        · rw [← h] at hx; exact F2 hx
        · exact F2 (Relation.TransGen.trans (incl _ _ h) hx)
      refine ⟨Or.inl hcb, ?_, fun h => hcl h.1, fun h => hcl h.1⟩
      rintro ⟨rfl, _⟩
      exact F1 hvc
  have edge : ∀ a b, (E a b ∨ (a = u ∧ b = v)) → Relation.TransGen R a b := by
    intro a b hE
    by_cases hRab : R a b
    · exact Relation.TransGen.single hRab
    · have path : Relation.ReflTransGen E a u → Relation.ReflTransGen E v b →
          Relation.TransGen R a b := by
        intro h1 h2
        exact Relation.TransGen.trans_right (intoU a h1)
          (Relation.TransGen.trans_left (Relation.TransGen.single hRuv) (outOfV b h2))
      rw [hR] at hRab
      by_contra hc
      apply hRab
      refine ⟨hE, ?_, ?_, ?_⟩
      · rintro ⟨rfl, h⟩
        exact hc (path Relation.ReflTransGen.refl (fromV b h).to_reflTransGen)
      · rintro ⟨h, rfl⟩
        exact hc (path (toU a h).to_reflTransGen Relation.ReflTransGen.refl)
      · rintro ⟨h1, h2⟩
        exact hc (path (toU a h1).to_reflTransGen (fromV b h2).to_reflTransGen)
  refine ⟨?_, ?_, ?_⟩
  rotate_left 2
  · intro a h
    rcases (A a a).mp h with h | ⟨h1, h2⟩
    · exact hirr a h
    · exact F1 (Relation.ReflTransGen.trans h2 h1)
  · intro a b
    constructor
    · intro h
      exact Relation.TransGen.mono (fun x y hxy => ((hR x y).mp hxy).1) h
    · intro h
      induction h with
      | single h => exact edge _ _ h
      | tail _ h2 ih => exact Relation.TransGen.trans ih (edge _ _ h2)
  · intro a b w hRab haw hwb
    obtain ⟨hE, d1, d2, d3⟩ := (hR a b).mp hRab
    rcases (A a w).mp haw with h1 | ⟨h1, h1'⟩
    · rcases (A w b).mp hwb with h2 | ⟨h2, h2'⟩
      · rcases hE with hE | ⟨rfl, rfl⟩
        · exact hred a b w hE h1 h2
        · exact huv (Relation.TransGen.trans h1 h2)
      · have hau : Relation.TransGen (fun x y => E x y ∨ (x = u ∧ y = v)) a u :=
          incl _ _ (Relation.TransGen.trans_left h1 h2)
        rcases reflTransGen_cases E v b h2' with h | h
        · exact d2 ⟨hau, h.symm⟩
        · exact d3 ⟨hau, incl _ _ h⟩
    · rcases (A w b).mp hwb with h2 | ⟨h2, _⟩
      · have hvb : Relation.TransGen (fun x y => E x y ∨ (x = u ∧ y = v)) v b :=
          incl _ _ (Relation.TransGen.trans_right h1' h2)
        rcases reflTransGen_cases E a u h1 with h | h
        · exact d1 ⟨h, hvb⟩
        · exact d3 ⟨incl _ _ h, hvb⟩
      · exact F1 (Relation.ReflTransGen.trans h1' h2)

theorem all3_true (n : Nat) (p : Nat → Nat → Nat → Bool) :
    (List.range n).all (fun a => (List.range n).all (fun b => (List.range n).all (fun w =>
      p a b w))) = true ↔ ∀ a b w, a < n → b < n → w < n → p a b w = true := by
  simp only [List.all_eq_true, List.mem_range]
  constructor
  · intro h a b w ha hb hw; exact h a ha b hb w hw
  · intro h a ha b hb w hw; exact h a b w ha hb hw

/-- C16: on a transitively reduced acyclic parent in which `u` and `v` are incomparable, the
edge `u → v` followed by `transReduction(u, v, closure of the new graph)` gives the transitive
reduction of the new graph: the result has the closure of parent + (u, v), none of its edges is
implied by a path through a third vertex, it is acyclic and it is a subgraph of
parent + (u, v). -/
theorem transReduction_spec (n : Nat) (hn : n ≤ 32) (P : AdjacencyMatrix) (u v : Nat)
    (hw : AdjacencyMatrix.wf n P = true) (hdag : AdjacencyMatrix.isDag n P = true)
    (hred : AdjacencyMatrix.isReduced n P = true) (hu : u < n) (hv : v < n) (hne : u ≠ v)
    (huv : (AdjacencyMatrix.TransitiveClosure n P).get u v = false)
    (hvu : (AdjacencyMatrix.TransitiveClosure n P).get v u = false) :
    AdjacencyMatrix.TransitiveClosure n
        ((P.setEdge u v).transReduction u v (AdjacencyMatrix.writeToGraph n
          (AdjacencyMatrix.TransitiveClosure n (P.setEdge u v)))) =
      AdjacencyMatrix.TransitiveClosure n (P.setEdge u v) ∧
    AdjacencyMatrix.isReduced n
        ((P.setEdge u v).transReduction u v (AdjacencyMatrix.writeToGraph n
          (AdjacencyMatrix.TransitiveClosure n (P.setEdge u v)))) = true ∧
    AdjacencyMatrix.isDag n
        ((P.setEdge u v).transReduction u v (AdjacencyMatrix.writeToGraph n
          (AdjacencyMatrix.TransitiveClosure n (P.setEdge u v)))) = true ∧
    ∀ a b, AdjacencyMatrix.get
        ((P.setEdge u v).transReduction u v (AdjacencyMatrix.writeToGraph n
          (AdjacencyMatrix.TransitiveClosure n (P.setEdge u v)))) a b = true →
      (P.setEdge u v).get a b = true := by
  have hwc := setEdge_wf n P hw u v hv
  have hwcl := closure_wf n _ hwc
  obtain ⟨hwr, hget⟩ := transReduction_get n hn (P.setEdge u v) hwc u v
    (AdjacencyMatrix.writeToGraph n (AdjacencyMatrix.TransitiveClosure n (P.setEdge u v)))
  generalize hred' : (P.setEdge u v).transReduction u v (AdjacencyMatrix.writeToGraph n
    (AdjacencyMatrix.TransitiveClosure n (P.setEdge u v))) = red at hwr hget ⊢
  have hrel : (fun x y => (P.setEdge u v).get x y = true) =
      (fun x y => P.get x y = true ∨ (x = u ∧ y = v)) := by
    funext x y
    apply propext
    rw [setEdge_get n P hw u v hu]
    simp
  have hcl : ∀ a b, (AdjacencyMatrix.TransitiveClosure n (P.setEdge u v)).get a b = true ↔
      Relation.TransGen (fun x y => P.get x y = true ∨ (x = u ∧ y = v)) a b := by
    intro a b
    rw [closure_spec n _ hwc, hrel]
  have hirr : ∀ a, ¬ Relation.TransGen (fun x y => P.get x y = true) a a := by
    intro a h
    have h1 := (closure_spec n P hw a a).mpr h
    have ha := (wf_get_lt n _ (closure_wf n P hw) a a h1).1
    unfold AdjacencyMatrix.isDag at hdag
    rw [List.all_eq_true] at hdag
    have := hdag a (List.mem_range.mpr ha)
    rw [h1] at this
    exact Bool.noConfusion this
  have hredP : ∀ a b w, P.get a b = true → Relation.TransGen (fun x y => P.get x y = true) a w →
      Relation.TransGen (fun x y => P.get x y = true) w b → False := by
    intro a b w h1 h2 h3
    have c2 := (closure_spec n P hw a w).mpr h2
    have c3 := (closure_spec n P hw w b).mpr h3
    obtain ⟨ha, hb⟩ := wf_get_lt n P hw a b h1
    have hw' := (wf_get_lt n _ (closure_wf n P hw) a w c2).2
    unfold AdjacencyMatrix.isReduced at hred
    have := (all3_true n _).mp hred a b w ha hb hw'
    rw [h1, c2, c3] at this
    exact Bool.noConfusion this
  have hR : ∀ a b, red.get a b = true ↔ ((P.get a b = true ∨ (a = u ∧ b = v)) ∧
      ¬ (a = u ∧ Relation.TransGen (fun x y => P.get x y = true ∨ (x = u ∧ y = v)) v b) ∧
      ¬ (Relation.TransGen (fun x y => P.get x y = true ∨ (x = u ∧ y = v)) a u ∧ b = v) ∧
      ¬ (Relation.TransGen (fun x y => P.get x y = true ∨ (x = u ∧ y = v)) a u ∧
        Relation.TransGen (fun x y => P.get x y = true ∨ (x = u ∧ y = v)) v b)) := by
    intro a b
    have hout : b ∈ (AdjacencyMatrix.writeToGraph n
        (AdjacencyMatrix.TransitiveClosure n (P.setEdge u v))).outLists.getD v [] ↔
        (AdjacencyMatrix.TransitiveClosure n (P.setEdge u v)).get v b = true := by
      rw [writeToGraph_out n _ hwcl hn, List.mem_filter, List.mem_range]
      constructor
      · exact fun h => h.2
      · exact fun h => ⟨(wf_get_lt n _ hwcl v b h).2, h⟩
    have hin : a ∈ (AdjacencyMatrix.writeToGraph n
        (AdjacencyMatrix.TransitiveClosure n (P.setEdge u v))).inLists.getD u [] ↔
        (AdjacencyMatrix.TransitiveClosure n (P.setEdge u v)).get a u = true := by
      rw [writeToGraph_in n _ hwcl, List.mem_filter, List.mem_range]
      constructor
      · exact fun h => h.2
      · exact fun h => ⟨(wf_get_lt n _ hwcl a u h).1, h⟩
    rw [hget, setEdge_get n P hw u v hu]
    simp only [Bool.and_eq_true, Bool.or_eq_true, Bool.not_eq_true', Bool.and_eq_false_iff,
      decide_eq_true_eq, decide_eq_false_iff_not, hout, hin, hcl, not_and_or, and_assoc]
  obtain ⟨r1, r2, r3⟩ := transReduction_rel (fun x y => P.get x y = true)
    (fun x y => red.get x y = true) u v hirr hredP hne
    (fun h => by rw [(closure_spec n P hw u v).mpr h] at huv; exact Bool.noConfusion huv)
    (fun h => by rw [(closure_spec n P hw v u).mpr h] at hvu; exact Bool.noConfusion hvu) hR
  have hTC : AdjacencyMatrix.TransitiveClosure n red =
      AdjacencyMatrix.TransitiveClosure n (P.setEdge u v) := by
    apply wf_ext n _ _ (closure_wf n red hwr) hwcl
    intro a b _ _
    rw [Bool.eq_iff_iff, closure_spec n red hwr, r1, hcl]
  refine ⟨hTC, ?_, ?_, ?_⟩
  · unfold AdjacencyMatrix.isReduced
    rw [all3_true, hTC]
    intro a b w _ _ _
    by_contra hc
    simp only [Bool.not_eq_true, Bool.not_eq_false', Bool.and_eq_true] at hc
    exact r2 a b w hc.1.1 ((hcl a w).mp hc.1.2) ((hcl w b).mp hc.2)
  · unfold AdjacencyMatrix.isDag
    rw [List.all_eq_true, hTC]
    intro a _
    by_contra hc
    simp only [Bool.not_eq_true, Bool.not_eq_false'] at hc
    exact r3 a ((hcl a a).mp hc)
  · intro a b h
    have := ((hR a b).mp h).1
    rw [setEdge_get n P hw u v hu]
    simpa using this

theorem transReduction_spec_witness :
    AdjacencyMatrix.TransitiveClosure 3
        ((AdjacencyMatrix.setEdge [6, 0, 0] 1 2).transReduction 1 2
          (AdjacencyMatrix.writeToGraph 3
            (AdjacencyMatrix.TransitiveClosure 3 (AdjacencyMatrix.setEdge [6, 0, 0] 1 2)))) =
      AdjacencyMatrix.TransitiveClosure 3 (AdjacencyMatrix.setEdge [6, 0, 0] 1 2) ∧
    AdjacencyMatrix.isReduced 3
        ((AdjacencyMatrix.setEdge [6, 0, 0] 1 2).transReduction 1 2
          (AdjacencyMatrix.writeToGraph 3
            (AdjacencyMatrix.TransitiveClosure 3 (AdjacencyMatrix.setEdge [6, 0, 0] 1 2)))) = true ∧
    AdjacencyMatrix.isDag 3
        ((AdjacencyMatrix.setEdge [6, 0, 0] 1 2).transReduction 1 2
          (AdjacencyMatrix.writeToGraph 3
            (AdjacencyMatrix.TransitiveClosure 3 (AdjacencyMatrix.setEdge [6, 0, 0] 1 2)))) = true ∧
    ∀ a b, AdjacencyMatrix.get
        ((AdjacencyMatrix.setEdge [6, 0, 0] 1 2).transReduction 1 2
          (AdjacencyMatrix.writeToGraph 3
            (AdjacencyMatrix.TransitiveClosure 3 (AdjacencyMatrix.setEdge [6, 0, 0] 1 2)))) a b
          = true →
      (AdjacencyMatrix.setEdge [6, 0, 0] 1 2).get a b = true :=
  transReduction_spec 3 (by decide) [6, 0, 0] 1 2 (by decide) (by decide) (by decide)
    (by decide) (by decide) (by decide) (by decide) (by decide)


theorem addEdgeGood_of (cfg : NCT) (parent : PosetInfo) (k1 k2 : Nat)
    (hN : cfg.N < 256) (hinv : 2 * parent.numPairs + parent.numSingletons ≤ cfg.N)
    (hP : parent.numPairs ≤ 2)
    (hne : k1 ≠ k2)
    (h : (parent.numPairs = 2 ∧ cfg.N - 4 - parent.numSingletons ≤ k1 ∧
          k1 < cfg.N - parent.numSingletons ∧ cfg.N - 4 - parent.numSingletons ≤ k2 ∧
          k2 < cfg.N - parent.numSingletons) ∨
        (parent.numPairs ≤ 1 ∧ 2 ≤ parent.numSingletons ∧
          ((k1 = cfg.N - parent.numSingletons ∧ k2 = cfg.N - parent.numSingletons + 1) ∨
           (k2 = cfg.N - parent.numSingletons ∧ k1 = cfg.N - parent.numSingletons + 1))) ∨
        (parent.numPairs = 1 ∧ 1 ≤ parent.numSingletons ∧
          ((k1 = cfg.N - parent.numSingletons ∧ cfg.N - 2 - parent.numSingletons ≤ k2 ∧
              k2 < cfg.N - parent.numSingletons) ∨
           (k2 = cfg.N - parent.numSingletons ∧ cfg.N - 2 - parent.numSingletons ≤ k1 ∧
              k1 < cfg.N - parent.numSingletons))) ∨
        (parent.numPairs = 1 ∧
          ((k1 < cfg.N - 2 - parent.numSingletons ∧ cfg.N - 2 - parent.numSingletons ≤ k2 ∧
              k2 < cfg.N - parent.numSingletons) ∨
           (k2 < cfg.N - 2 - parent.numSingletons ∧ cfg.N - 2 - parent.numSingletons ≤ k1 ∧
              k1 < cfg.N - parent.numSingletons))) ∨
        (parent.numPairs = 0 ∧ k1 < min (cfg.N - parent.numSingletons + 1) cfg.N ∧
          k2 < min (cfg.N - parent.numSingletons + 1) cfg.N)) :
    addEdgeGood cfg parent k1 k2 := by
  obtain ⟨K, P⟩ := parent
  simp only [] at hinv hP h
  have e32 : (2 : Nat) ^ 32 = 4294967296 := by norm_num
  have h12 : decide ((1 : Nat) = 2) = false := by decide
  have h02 : decide ((0 : Nat) = 2) = false := by decide
  unfold addEdgeGood addEdgeAsserts addEdge PosetInfo.isPairComp PosetInfo.isInPair
    PosetInfo.isSingleton PosetInfo.GetFirstSingleton PosetInfo.GetFirstInPair
    PosetInfo.GetReducedN
  simp only [e32]
  have hfs : (cfg.N + 4294967296 - K % 4294967296) % 4294967296 = cfg.N - K := by omega
  have hfp : (cfg.N + 2 * 4294967296 - 2 * P % 4294967296 - K % 4294967296) % 4294967296 =
      cfg.N - 2 * P - K := by omega
  rw [hfs, hfp]
  have hk0 : (K + 2 * 4294967296 - 0 - 0) % 4294967296 % 256 = K := by omega
  have hN2 : (cfg.N - K + 2) % 4294967296 = cfg.N - K + 2 := by omega
  have hX : ∀ X, X ≤ cfg.N → (cfg.N + 4294967296 - X % 4294967296) % 4294967296 = cfg.N - X := by
    intro X hX
    omega
  rw [hN2]
  rcases h with h | h | h | h | h
  · obtain ⟨hp, a1, a2, a3, a4⟩ := h
    subst hp
    have s1 : ¬ k1 ≥ cfg.N - K := by omega
    have s2 : ¬ k2 ≥ cfg.N - K := by omega
    have p1 : k1 ≥ cfg.N - 2 * 2 - K := by omega
    have p2 : k2 ≥ cfg.N - 2 * 2 - K := by omega
    have q1 : k1 < cfg.N - K := by omega
    have q2 : k2 < cfg.N - K := by omega
    simp only [s1, s2, p1, p2, q1, q2, decide_True, decide_False, Bool.and_self, Bool.false_and,
      if_true, if_false, Bool.false_eq_true, Bool.and_true, Bool.true_and]
    rw [hk0, hX K (by omega)]
    simp only [h12, h02, Bool.and_eq_true, decide_eq_true_eq, beq_self_eq_true, true_and,
      Nat.reduceAdd, Nat.reduceMul, Nat.reduceSub, Nat.reduceMod, Nat.reduceLeDiff]
    repeat' apply And.intro
    all_goals (clear hfs hfp hk0 hN2 hX; first | exact trivial | omega)
  · obtain ⟨hp, hk, h⟩ := h
    have hk2' : (K + 2 * 4294967296 - 1 - 1) % 4294967296 % 256 = K - 2 := by omega
    have hpp : (P + 1) % 4294967296 % 256 = P + 1 := by omega
    rcases h with ⟨rfl, rfl⟩ | ⟨rfl, rfl⟩
    all_goals
      have s1 : cfg.N - K ≥ cfg.N - K := le_refl _
      have s2 : cfg.N - K + 1 ≥ cfg.N - K := by omega
      have q1 : ¬ cfg.N - K < cfg.N - K := by omega
      have q2 : ¬ cfg.N - K + 1 < cfg.N - K := by omega
      have hp2 : ¬ P = 2 := by omega
      simp only [s1, s2, q1, q2, hp2, decide_True, decide_False, Bool.and_self, Bool.false_and,
        if_true, if_false, Bool.false_eq_true, Bool.and_true, Bool.true_and]
      rw [hk2', hpp, hX (K - 2) (by omega)]
      simp only [h12, h02, Bool.and_eq_true, decide_eq_true_eq, beq_self_eq_true, true_and,
        Nat.reduceAdd, Nat.reduceMul, Nat.reduceSub, Nat.reduceMod, Nat.reduceLeDiff]
      repeat' apply And.intro
      all_goals (clear hfs hfp hk0 hN2 hX hk2' hpp; first | exact trivial | omega)
  · obtain ⟨hp, hk, h⟩ := h
    subst hp
    have hk1a' : (K + 2 * 4294967296 - 1 - 0) % 4294967296 % 256 = K - 1 := by omega
    have hk1b' : (K + 2 * 4294967296 - 0 - 1) % 4294967296 % 256 = K - 1 := by omega
    rcases h with ⟨rfl, b1, b2⟩ | ⟨rfl, b1, b2⟩
    · have s1 : cfg.N - K ≥ cfg.N - K := le_refl _
      have s2 : ¬ k2 ≥ cfg.N - K := by omega
      have q1 : ¬ cfg.N - K < cfg.N - K := by omega
      have p2 : k2 ≥ cfg.N - 2 * 1 - K := by omega
      simp only [s1, s2, q1, p2, b2, decide_True, decide_False, Bool.and_self, Bool.false_and,
        if_true, if_false, Bool.false_eq_true, Bool.and_true, Bool.true_and, Bool.and_false]
      rw [hk1a', hX (K - 1) (by omega)]
      simp only [h12, h02, Bool.and_eq_true, decide_eq_true_eq, beq_self_eq_true, true_and,
        Nat.reduceAdd, Nat.reduceMul, Nat.reduceSub, Nat.reduceMod, Nat.reduceLeDiff]
      repeat' apply And.intro
      all_goals (clear hfs hfp hk0 hN2 hX hk1a' hk1b'; first | exact trivial | omega)
    · have s1 : cfg.N - K ≥ cfg.N - K := le_refl _
      have s2 : ¬ k1 ≥ cfg.N - K := by omega
      have q1 : ¬ cfg.N - K < cfg.N - K := by omega
      have p2 : k1 ≥ cfg.N - 2 * 1 - K := by omega
      simp only [s1, s2, q1, p2, b2, decide_True, decide_False, Bool.and_self, Bool.false_and,
        if_true, if_false, Bool.false_eq_true, Bool.and_true, Bool.true_and, Bool.and_false]
      rw [hk1b', hX (K - 1) (by omega)]
      simp only [h12, h02, Bool.and_eq_true, decide_eq_true_eq, beq_self_eq_true, true_and,
        Nat.reduceAdd, Nat.reduceMul, Nat.reduceSub, Nat.reduceMod, Nat.reduceLeDiff]
      repeat' apply And.intro
      all_goals (clear hfs hfp hk0 hN2 hX hk1a' hk1b'; first | exact trivial | omega)
  · obtain ⟨hp, h⟩ := h
    subst hp
    rcases h with ⟨b0, b1, b2⟩ | ⟨b0, b1, b2⟩
    · have s1 : ¬ k1 ≥ cfg.N - K := by omega
      have s2 : ¬ k2 ≥ cfg.N - K := by omega
      have p1 : ¬ k1 ≥ cfg.N - 2 * 1 - K := by omega
      have p2 : k2 ≥ cfg.N - 2 * 1 - K := by omega
      have q1 : k1 < cfg.N - K := by omega
      simp only [s1, s2, p1, p2, q1, b2, decide_True, decide_False, Bool.and_self,
        Bool.false_and, if_true, if_false, Bool.false_eq_true, Bool.and_true, Bool.true_and,
        Bool.and_false]
      rw [hk0, hX K (by omega)]
      simp only [h12, h02, Bool.and_eq_true, decide_eq_true_eq, beq_self_eq_true, true_and,
        Nat.reduceAdd, Nat.reduceMul, Nat.reduceSub, Nat.reduceMod, Nat.reduceLeDiff]
      repeat' apply And.intro
      all_goals (clear hfs hfp hk0 hN2 hX; first | exact trivial | omega)
    · have s1 : ¬ k1 ≥ cfg.N - K := by omega
      have s2 : ¬ k2 ≥ cfg.N - K := by omega
      have p1 : ¬ k2 ≥ cfg.N - 2 * 1 - K := by omega
      have p2 : k1 ≥ cfg.N - 2 * 1 - K := by omega
      have q1 : k2 < cfg.N - K := by omega
      simp only [s1, s2, p1, p2, q1, b2, decide_True, decide_False, Bool.and_self,
        Bool.false_and, if_true, if_false, Bool.false_eq_true, Bool.and_true, Bool.true_and,
        Bool.and_false]
      rw [hk0, hX K (by omega)]
      simp only [h12, h02, Bool.and_eq_true, decide_eq_true_eq, beq_self_eq_true, true_and,
        Nat.reduceAdd, Nat.reduceMul, Nat.reduceSub, Nat.reduceMod, Nat.reduceLeDiff]
      repeat' apply And.intro
      all_goals (clear hfs hfp hk0 hN2 hX; first | exact trivial | omega)
  · obtain ⟨hp, b1, b2⟩ := h
    subst hp
    have p1 : ¬ (k1 < cfg.N - K ∧ k1 ≥ cfg.N - 2 * 0 - K) := by omega
    have p2 : ¬ (k2 < cfg.N - K ∧ k2 ≥ cfg.N - 2 * 0 - K) := by omega
    have hp1 : (decide (k1 < cfg.N - K) && decide (k1 ≥ cfg.N - 2 * 0 - K)) = false := by
      simpa using p1
    have hp2 : (decide (k2 < cfg.N - K) && decide (k2 ≥ cfg.N - 2 * 0 - K)) = false := by
      simpa using p2
    rw [hp1, hp2]
    by_cases s1 : k1 ≥ cfg.N - K <;> by_cases s2 : k2 ≥ cfg.N - K
    · exfalso; omega
    · have hk1a' : (K + 2 * 4294967296 - 1 - 0) % 4294967296 % 256 = K - 1 := by omega
      simp only [s1, s2, decide_True, decide_False, Bool.and_self, Bool.false_and,
        if_true, if_false, Bool.false_eq_true, Bool.and_true, Bool.true_and, Bool.and_false]
      rw [hk1a', hX (K - 1) (by omega)]
      simp only [h12, h02, Bool.and_eq_true, decide_eq_true_eq, beq_self_eq_true, true_and,
        Nat.reduceAdd, Nat.reduceMul, Nat.reduceSub, Nat.reduceMod, Nat.reduceLeDiff]
      repeat' apply And.intro
      all_goals (clear hfs hfp hk0 hN2 hX; first | exact trivial | omega)
    · have hk1b' : (K + 2 * 4294967296 - 0 - 1) % 4294967296 % 256 = K - 1 := by omega
      simp only [s1, s2, decide_True, decide_False, Bool.and_self, Bool.false_and,
        if_true, if_false, Bool.false_eq_true, Bool.and_true, Bool.true_and, Bool.and_false]
      rw [hk1b', hX (K - 1) (by omega)]
      simp only [h12, h02, Bool.and_eq_true, decide_eq_true_eq, beq_self_eq_true, true_and,
        Nat.reduceAdd, Nat.reduceMul, Nat.reduceSub, Nat.reduceMod, Nat.reduceLeDiff]
      repeat' apply And.intro
      all_goals (clear hfs hfp hk0 hN2 hX; first | exact trivial | omega)
    · simp only [s1, s2, decide_True, decide_False, Bool.and_self, Bool.false_and,
        if_true, if_false, Bool.false_eq_true, Bool.and_true, Bool.true_and, Bool.and_false]
      rw [hk0, hX K (by omega)]
      simp only [h12, h02, Bool.and_eq_true, decide_eq_true_eq, beq_self_eq_true, true_and,
        Nat.reduceAdd, Nat.reduceMul, Nat.reduceSub, Nat.reduceMod, Nat.reduceLeDiff]
      repeat' apply And.intro
      all_goals (clear hfs hfp hk0 hN2 hX; first | exact trivial | omega)


theorem mem_addComparison (table : Nat → Nat → Nat) (limit : Nat) (vec : List ComparisonTuple)
    (j k : Nat) (sc : Bool) (t : ComparisonTuple)
    (h : t ∈ addComparisonIfFeasible table limit vec j k sc) :
    t ∈ vec ∨ (t.k1 = j ∧ t.k2 = k) ∨ (t.k1 = k ∧ t.k2 = j) := by
  unfold addComparisonIfFeasible at h
  simp only [] at h
  split_ifs at h
  · exact Or.inl h
  · exact Or.inl h
  · rcases List.mem_append.mp h with h | h
    · exact Or.inl h
    · rw [List.mem_singleton] at h
      subst h
      exact Or.inr (Or.inl ⟨rfl, rfl⟩)
  · rcases List.mem_append.mp h with h | h
    · exact Or.inl h
    · rw [List.mem_singleton] at h
      subst h
      exact Or.inr (Or.inr ⟨rfl, rfl⟩)

theorem mem_addFold (table : Nat → Nat → Nat) (limit : Nat) (pairs : List (Nat × Nat))
    (t : ComparisonTuple) :
    ∀ (vec : List ComparisonTuple),
      t ∈ pairs.foldl (fun (vec : List ComparisonTuple) (jk : Nat × Nat) =>
        addComparisonIfFeasible table limit vec jk.1 jk.2 false) vec →
      t ∈ vec ∨ ∃ jk ∈ pairs, (t.k1 = jk.1 ∧ t.k2 = jk.2) ∨ (t.k1 = jk.2 ∧ t.k2 = jk.1) := by
  induction pairs with
  | nil => intro vec h; exact Or.inl h
  | cons p pairs ih =>
    intro vec h
    simp only [List.foldl_cons] at h
    rcases ih _ h with h1 | ⟨jk, hjk, h2⟩
    · rcases mem_addComparison table limit vec p.1 p.2 false t h1 with h3 | h3
      · exact Or.inl h3
      · exact Or.inr ⟨p, List.mem_cons_self _ _, h3⟩
    · exact Or.inr ⟨jk, List.mem_cons_of_mem _ hjk, h2⟩

theorem mem_addFoldTwo (table : Nat → Nat → Nat) (limit : Nat) (a b : Nat) (l : List Nat)
    (t : ComparisonTuple) :
    ∀ (vec : List ComparisonTuple),
      t ∈ l.foldl (fun (vec : List ComparisonTuple) (j : Nat) =>
        addComparisonIfFeasible table limit
          (addComparisonIfFeasible table limit vec j a false) j b false) vec →
      t ∈ vec ∨ ∃ j ∈ l, ∃ k, (k = a ∨ k = b) ∧
        ((t.k1 = j ∧ t.k2 = k) ∨ (t.k1 = k ∧ t.k2 = j)) := by
  induction l with
  | nil => intro vec h; exact Or.inl h
  | cons p l ih =>
    intro vec h
    simp only [List.foldl_cons] at h
    rcases ih _ h with h1 | ⟨j, hj, k, hk, h2⟩
    · rcases mem_addComparison table limit _ p b false t h1 with h3 | h3
      · rcases mem_addComparison table limit _ p a false t h3 with h4 | h4
        · exact Or.inl h4
        · exact Or.inr ⟨p, List.mem_cons_self _ _, a, Or.inl rfl, h4⟩
      · exact Or.inr ⟨p, List.mem_cons_self _ _, b, Or.inr rfl, h3⟩
    · exact Or.inr ⟨j, List.mem_cons_of_mem _ hj, k, hk, h2⟩

theorem mem_addFoldInner (table : Nat → Nat → Nat) (limit : Nat) (j : Nat) (l : List Nat)
    (t : ComparisonTuple) :
    ∀ (vec : List ComparisonTuple),
      t ∈ l.foldl (fun (vec : List ComparisonTuple) (k : Nat) =>
        addComparisonIfFeasible table limit vec j k false) vec →
      t ∈ vec ∨ ∃ k ∈ l, (t.k1 = j ∧ t.k2 = k) ∨ (t.k1 = k ∧ t.k2 = j) := by
  induction l with
  | nil => intro vec h; exact Or.inl h
  | cons p l ih =>
    intro vec h
    simp only [List.foldl_cons] at h
    rcases ih _ h with h1 | ⟨k, hk, h2⟩
    · rcases mem_addComparison table limit _ j p false t h1 with h3 | h3
      · exact Or.inl h3
      · exact Or.inr ⟨p, List.mem_cons_self _ _, h3⟩
    · exact Or.inr ⟨k, List.mem_cons_of_mem _ hk, h2⟩

theorem mem_addFoldNested (table : Nat → Nat → Nat) (limit : Nat) (e : Nat) (l : List Nat)
    (t : ComparisonTuple) :
    ∀ (vec : List ComparisonTuple),
      t ∈ l.foldl (fun (vec : List ComparisonTuple) (j : Nat) =>
        ((List.range e).drop (j + 1)).foldl (fun (vec : List ComparisonTuple) (k : Nat) =>
          addComparisonIfFeasible table limit vec j k false) vec) vec →
      t ∈ vec ∨ ∃ j k, j < k ∧ k < e ∧ ((t.k1 = j ∧ t.k2 = k) ∨ (t.k1 = k ∧ t.k2 = j)) := by
  induction l with
  | nil => intro vec h; exact Or.inl h
  | cons p l ih =>
    intro vec h
    simp only [List.foldl_cons] at h
    rcases ih _ h with h1 | h1
    · rcases mem_addFoldInner table limit p _ t vec h1 with h3 | ⟨k, hk, h3⟩
      · exact Or.inl h3
      · have hk' := List.mem_range.mp (List.mem_of_mem_drop hk)
        have hk2 : p < k := by
          rw [List.mem_iff_getElem] at hk
          obtain ⟨i, hi, he⟩ := hk
          rw [List.getElem_drop, List.getElem_range] at he
          omega
        exact Or.inr ⟨p, k, hk2, hk', h3⟩
    · exact Or.inr h1

/-- The comparisons proposed by `enumerateComparisons`, as unordered pairs of vertices. -/
theorem mem_enumerateComparisons (cfg : NCT) (info : PosetInfo) (table : Nat → Nat → Nat)
    (limit : Nat) (t : ComparisonTuple) (hN : cfg.N < 256)
    (hinv : 2 * info.numPairs + info.numSingletons ≤ cfg.N)
    (ht : t ∈ enumerateComparisons cfg info table limit) :
    ∃ j k, ((t.k1 = j ∧ t.k2 = k) ∨ (t.k1 = k ∧ t.k2 = j)) ∧ j < k ∧
      ((info.numPairs = 2 ∧ cfg.N - 4 - info.numSingletons ≤ j ∧
          k < cfg.N - info.numSingletons) ∨
       (info.numPairs ≠ 2 ∧ 2 ≤ info.numSingletons ∧ j = cfg.N - info.numSingletons ∧
          k = cfg.N - info.numSingletons + 1) ∨
       (info.numPairs = 1 ∧ 1 ≤ info.numSingletons ∧ k = cfg.N - info.numSingletons ∧
          cfg.N - 2 - info.numSingletons ≤ j) ∨
       (info.numPairs = 1 ∧ j < cfg.N - 2 - info.numSingletons ∧
          cfg.N - 2 - info.numSingletons ≤ k ∧ k < cfg.N - info.numSingletons) ∨
       (info.numPairs ≠ 2 ∧ info.numPairs ≠ 1 ∧
          k < min (cfg.N - info.numSingletons + 1) cfg.N)) := by
  obtain ⟨K, P⟩ := info
  simp only [] at hinv ⊢
  have e32 : (2 : Nat) ^ 32 = 4294967296 := by norm_num
  have hfs : PosetInfo.GetFirstSingleton cfg ⟨K, P⟩ = cfg.N - K := by
    unfold PosetInfo.GetFirstSingleton
    simp only [e32]
    omega
  have hfp : PosetInfo.GetFirstInPair cfg ⟨K, P⟩ = cfg.N - 2 * P - K := by
    unfold PosetInfo.GetFirstInPair PosetInfo.GetReducedN
    simp only [e32]
    omega
  unfold enumerateComparisons at ht
  simp only [hfs, hfp] at ht
  have hv0 : ∀ t, t ∈ (if K ≥ 2 then
      addComparisonIfFeasible table limit [] (cfg.N - K) (cfg.N - K + 1) true else []) →
      2 ≤ K ∧ ((t.k1 = cfg.N - K ∧ t.k2 = cfg.N - K + 1) ∨
        (t.k1 = cfg.N - K + 1 ∧ t.k2 = cfg.N - K)) := by
    intro t h
    split_ifs at h with hK
    · rcases mem_addComparison table limit [] _ _ true t h with h | h
      · simp at h
      · exact ⟨hK, h⟩
    · simp at h
  by_cases hP2 : P = 2
  · subst hP2
    rw [if_pos rfl] at ht
    rcases mem_addFold table limit _ t [] ht with h | ⟨jk, hjk, h⟩
    · simp at h
    · refine ⟨jk.1, jk.2, h, ?_⟩
      simp only [List.mem_cons, List.mem_singleton, List.not_mem_nil, or_false] at hjk
      rcases hjk with rfl | rfl | rfl | rfl | rfl | rfl
      all_goals
        exact ⟨by simp only []; omega, Or.inl ⟨rfl, by simp only []; omega,
          by simp only []; omega⟩⟩
  · rw [if_neg hP2] at ht
    by_cases hP1 : P = 1
    · subst hP1
      rw [if_pos rfl] at ht
      rcases mem_addFoldTwo table limit _ _ _ t _ ht with h | ⟨j, hj, k, hk, h⟩
      · by_cases hK1 : K ≥ 1
        · rw [if_pos hK1] at h
          rcases mem_addFold table limit _ t _ h with h | ⟨jk, hjk, h⟩
          · obtain ⟨h1, h2⟩ := hv0 t h
            exact ⟨cfg.N - K, cfg.N - K + 1, h2, by omega, Or.inr (Or.inl ⟨hP2, h1, rfl, rfl⟩)⟩
          · refine ⟨jk.1, jk.2, h, ?_⟩
            simp only [List.mem_cons, List.mem_singleton, List.not_mem_nil, or_false] at hjk
            rcases hjk with rfl | rfl
            all_goals
              exact ⟨by simp only []; omega, Or.inr (Or.inr (Or.inl ⟨rfl, hK1, rfl,
                by simp only []; omega⟩))⟩
        · rw [if_neg hK1] at h
          obtain ⟨h1, h2⟩ := hv0 t h
          exact ⟨cfg.N - K, cfg.N - K + 1, h2, by omega, Or.inr (Or.inl ⟨hP2, h1, rfl, rfl⟩)⟩
      · have hj' := List.mem_range.mp hj
        refine ⟨j, k, h, by omega, Or.inr (Or.inr (Or.inr (Or.inl ⟨rfl, by omega, by omega,
          by omega⟩)))⟩
    · rw [if_neg hP1] at ht
      rcases mem_addFoldNested table limit _ _ t _ ht with h | ⟨j, k, hjk, hk, h⟩
      · obtain ⟨h1, h2⟩ := hv0 t h
        exact ⟨cfg.N - K, cfg.N - K + 1, h2, by omega, Or.inr (Or.inl ⟨hP2, h1, rfl, rfl⟩)⟩
      · refine ⟨j, k, h, hjk, Or.inr (Or.inr (Or.inr (Or.inr ⟨hP2, hP1, ?_⟩)))⟩
        simp only [e32] at hk
        have : (cfg.N + 4294967296 - K + 1) % 4294967296 = cfg.N - K + 1 := by omega
        rw [this] at hk
        exact hk


/-- C17: for a parent `PosetInfo` with `2P + K ≤ N`, `P ≤ 2` (and `N < 256`, the counts being
stored in `uint8_t`) and every comparison `(k1, k2)` that `enumerateComparisons` puts into
the comparison vector, the child `PosetInfo` returned by `addEdge` satisfies `2P' + K' ≤ N`
and `P' ≤ 2`, the five assertions of `addEdge` hold, and both vertices lie below the first
singleton of the child. -/
theorem addEdge_invariants (cfg : NCT) (info : PosetInfo) (table : Nat → Nat → Nat)
    (limit : Nat) (t : ComparisonTuple) (hN : cfg.N < 256)
    (hinv : 2 * info.numPairs + info.numSingletons ≤ cfg.N) (hP : info.numPairs ≤ 2)
    (ht : t ∈ enumerateComparisons cfg info table limit) :
    2 * (addEdge cfg info t.k1 t.k2).numPairs + (addEdge cfg info t.k1 t.k2).numSingletons
      ≤ cfg.N ∧
    (addEdge cfg info t.k1 t.k2).numPairs ≤ 2 ∧
    addEdgeAsserts cfg info t.k1 t.k2 = true ∧
    t.k1 < cfg.N - (addEdge cfg info t.k1 t.k2).numSingletons ∧
    t.k2 < cfg.N - (addEdge cfg info t.k1 t.k2).numSingletons := by
  obtain ⟨j, k, hjk, hlt, hc⟩ := mem_enumerateComparisons cfg info table limit t hN hinv ht
  apply addEdgeGood_of cfg info t.k1 t.k2 hN hinv hP
  · rcases hjk with ⟨h1, h2⟩ | ⟨h1, h2⟩ <;> omega
  · rcases hc with hc | hc | hc | hc | hc
    · left
      rcases hjk with ⟨h1, h2⟩ | ⟨h1, h2⟩ <;> omega
    · right; left
      rcases hjk with ⟨h1, h2⟩ | ⟨h1, h2⟩ <;> omega
    · right; right; left
      rcases hjk with ⟨h1, h2⟩ | ⟨h1, h2⟩ <;> omega
    · right; right; right; left
      rcases hjk with ⟨h1, h2⟩ | ⟨h1, h2⟩ <;> omega
    · right; right; right; right
      rcases hjk with ⟨h1, h2⟩ | ⟨h1, h2⟩ <;> omega

theorem addEdge_invariants_witness :
    2 * (addEdge ⟨4, 4, 5⟩ ⟨4, 0⟩ 0 1).numPairs + (addEdge ⟨4, 4, 5⟩ ⟨4, 0⟩ 0 1).numSingletons
      ≤ 4 ∧
    (addEdge ⟨4, 4, 5⟩ ⟨4, 0⟩ 0 1).numPairs ≤ 2 ∧
    addEdgeAsserts ⟨4, 4, 5⟩ ⟨4, 0⟩ 0 1 = true ∧
    0 < 4 - (addEdge ⟨4, 4, 5⟩ ⟨4, 0⟩ 0 1).numSingletons ∧
    1 < 4 - (addEdge ⟨4, 4, 5⟩ ⟨4, 0⟩ 0 1).numSingletons :=
  addEdge_invariants ⟨4, 4, 5⟩ ⟨4, 0⟩ (fun _ _ => 12) 12 ⟨0, 1, 12, 12, true⟩ (by decide)
    (by decide) (by decide) (by decide)


theorem findAndInsert_container {E : Type} (cfg : NCT) (w : PtrWidths) (fl : FloatOps)
    (toPoset : E → PosetObj) (hashOf : E → Nat) (ofCandidate : AnnotatedPosetObj → E)
    (dflt : E) (x : AnnotatedPosetObj) :
    ∀ retries m c m' c' idx,
      MyHashmap.findAndInsert cfg w fl toPoset hashOf ofCandidate dflt x retries m c =
        some (m', c', idx) → ∃ ext, c' = c ++ ext := by
  intro retries
  induction retries with
  | zero => intro m c m' c' idx h; simp [MyHashmap.findAndInsert] at h
  | succ retries ih =>
    intro m c m' c' idx h
    unfold MyHashmap.findAndInsert at h
    split at h
    · exact absurd h (by simp)
    · rename_i m1 _
      split at h
      · simp only [Option.some.injEq, Prod.mk.injEq] at h
        exact ⟨[], by simp [h.2.1]⟩
      · split at h
        · exact absurd h (by simp)
        · exact ih _ _ _ _ _ h
      · simp only at h
        split at h
        · exact absurd h (by simp)
        · simp only [Option.some.injEq, Prod.mk.injEq] at h
          exact ⟨_, h.2.1.symm⟩

theorem posetMapExt_container (cfg : NCT) (fl : FloatOps) (hashOf : PosetObj → Nat)
    (retries : Nat) (pm pm' : PosetMapExt) (c c' : List AnnotatedPosetObj)
    (x : AnnotatedPosetObj) (idx : Nat)
    (h : pm.findAndInsert cfg fl hashOf retries c x = some (pm', c', idx)) :
    ∃ ext, c' = c ++ ext := by
  unfold PosetMapExt.findAndInsert at h
  simp only at h
  split at h
  · exact absurd h (by simp)
  · rename_i m c1 i1 heq
    simp only [Option.some.injEq, Prod.mk.injEq] at h
    obtain ⟨ext, he⟩ := findAndInsert_container cfg ptrExt fl _ _ _ _ x _ _ _ _ _ _ heq
    exact ⟨ext, by rw [← h.2.1, he]⟩

theorem createChildEntrySingleton_container (cfg : NCT) (sp : SearchParams)
    (st st' : Phase1State) (child : AnnotatedPosetObj)
    (h : createChildEntrySingleton cfg sp st child = some st') :
    ∃ ext, st'.posetList = st.posetList ++ ext := by
  unfold createChildEntrySingleton at h
  rw [Option.map_eq_some'] at h
  obtain ⟨⟨pm, c, i⟩, h1, h2⟩ := h
  obtain ⟨ext, he⟩ := posetMapExt_container cfg sp.fl sp.hashOf sp.retries _ _ _ _ _ _ h1
  exact ⟨ext, by rw [← h2]; exact he⟩

theorem createChildEntry_container (cfg : NCT) (sp : SearchParams)
    (st st' : Phase1State) (first second : AnnotatedPosetObj)
    (h : createChildEntry cfg sp st first second = some st') :
    ∃ ext, st'.posetList = st.posetList ++ ext := by
  unfold createChildEntry at h
  split at h
  · exact absurd h (by simp)
  · rename_i r1 h1
    rw [Option.map_eq_some'] at h
    obtain ⟨⟨pm, c, i⟩, h2, h3⟩ := h
    obtain ⟨e1, he1⟩ := posetMapExt_container cfg sp.fl sp.hashOf sp.retries _ _ _ _ _ _
      (show st.childMap.findAndInsert cfg sp.fl sp.hashOf sp.retries st.posetList first =
        some (r1.1, r1.2.1, r1.2.2) from h1)
    obtain ⟨e2, he2⟩ := posetMapExt_container cfg sp.fl sp.hashOf sp.retries _ _ _ _ _ _ h2
    refine ⟨e1 ++ e2, ?_⟩
    rw [← h3]
    show c = st.posetList ++ (e1 ++ e2)
    rw [he2, he1, List.append_assoc]


theorem ext_of_some (st st' : Phase1State) (c status : ComparisonStatus)
    (h : some (c, st) = some (status, st')) : ∃ ext, st'.posetList = st.posetList ++ ext := by
  simp only [Option.some.injEq, Prod.mk.injEq] at h
  exact ⟨[], by rw [← h.2]; simp⟩

theorem ext_of_single (cfg : NCT) (sp : SearchParams) (st st' : Phase1State)
    (child : AnnotatedPosetObj) (status : ComparisonStatus)
    (h : (createChildEntrySingleton cfg sp st child).map
      (fun s => (ComparisonStatus.INDETERMINATE, s)) = some (status, st')) :
    ∃ ext, st'.posetList = st.posetList ++ ext := by
  rw [Option.map_eq_some'] at h
  obtain ⟨s, h1, h2⟩ := h
  simp only [Prod.mk.injEq] at h2
  rw [← h2.2]
  exact createChildEntrySingleton_container cfg sp st s child h1

theorem ext_of_pair (cfg : NCT) (sp : SearchParams) (st st' : Phase1State)
    (first second : AnnotatedPosetObj) (status : ComparisonStatus)
    (h : (createChildEntry cfg sp st first second).map
      (fun s => (ComparisonStatus.INDETERMINATE, s)) = some (status, st')) :
    ∃ ext, st'.posetList = st.posetList ++ ext := by
  rw [Option.map_eq_some'] at h
  obtain ⟨s, h1, h2⟩ := h
  simp only [Prod.mk.injEq] at h2
  rw [← h2.2]
  exact createChildEntry_container cfg sp st s first second h1

theorem exploreSecond_container (cfg : NCT) (sp : SearchParams) (parentC : Nat)
    (childLayerCompleteAbove : Nat) (childMapBW : PosetMap) (childMapOld : OldGenMap)
    (parent : AnnotatedPosetObj) (comparison : ComparisonTuple)
    (firstSortable secondSortable : Bool) (firstChild : AnnotatedPosetObj)
    (st st' : Phase1State) (status : ComparisonStatus)
    (h : exploreSecond cfg sp parentC childLayerCompleteAbove childMapBW childMapOld parent
      comparison firstSortable secondSortable firstChild st = some (status, st')) :
    ∃ ext, st'.posetList = st.posetList ++ ext := by
  unfold exploreSecond at h
  simp only at h
  repeat' split at h
  all_goals first
    | exact ext_of_some _ _ _ _ h
    | exact ext_of_single _ _ _ _ _ _ h
    | exact ext_of_pair _ _ _ _ _ _ _ h

theorem exploreComparison_container (cfg : NCT) (sp : SearchParams) (parentC : Nat)
    (childLayerCompleteAbove : Nat) (childMapBW : PosetMap) (childMapOld : OldGenMap)
    (parent : AnnotatedPosetObj) (comparison : ComparisonTuple)
    (st st' : Phase1State) (status : ComparisonStatus)
    (h : exploreComparison cfg sp parentC childLayerCompleteAbove childMapBW childMapOld parent
      comparison st = some (status, st')) :
    ∃ ext, st'.posetList = st.posetList ++ ext := by
  unfold exploreComparison at h
  simp only at h
  repeat' split at h
  all_goals first
    | exact ext_of_some _ _ _ _ h
    | exact ext_of_single _ _ _ _ _ _ h
    | exact exploreSecond_container _ _ _ _ _ _ _ _ _ _ _ _ _ _ h

theorem compareLoop_container (cfg : NCT) (sp : SearchParams) (parentC : Nat)
    (childLayerCompleteAbove : Nat) (childMapBW : PosetMap) (childMapOld : OldGenMap)
    (parent : AnnotatedPosetObj) :
    ∀ (items : List ComparisonTuple) (acc r : CompareLoop),
      compareLoop cfg sp parentC childLayerCompleteAbove childMapBW childMapOld parent items
        acc = some r → ∃ ext, r.st.posetList = acc.st.posetList ++ ext := by
  intro items
  induction items with
  | nil =>
    intro acc r h
    simp only [compareLoop, Option.some.injEq] at h
    exact ⟨[], by rw [h]; simp⟩
  | cons item rest ih =>
    intro acc r h
    unfold compareLoop at h
    split at h
    · exact absurd h (by simp)
    · rename_i s heq
      obtain ⟨e1, he1⟩ := exploreComparison_container _ _ _ _ _ _ _ _ _ _ _ heq
      simp only [Option.some.injEq] at h
      exact ⟨e1, by rw [← h]; exact he1⟩
    · rename_i s heq
      obtain ⟨e1, he1⟩ := exploreComparison_container _ _ _ _ _ _ _ _ _ _ _ heq
      obtain ⟨e2, he2⟩ := ih _ _ h
      exact ⟨e1 ++ e2, by rw [he2]; show s.posetList ++ e2 = _; rw [he1, List.append_assoc]⟩
    · rename_i s heq
      obtain ⟨e1, he1⟩ := exploreComparison_container _ _ _ _ _ _ _ _ _ _ _ heq
      obtain ⟨e2, he2⟩ := ih _ _ h
      exact ⟨e1 ++ e2, by rw [he2]; show s.posetList ++ e2 = _; rw [he1, List.append_assoc]⟩


theorem modifyPoset_length (l : List AnnotatedPosetObj) (i : Nat)
    (f : AnnotatedPosetObj → AnnotatedPosetObj) : (modifyPoset l i f).length = l.length := by
  simp [modifyPoset]

theorem modifyPoset_getD (l : List AnnotatedPosetObj) (i j : Nat)
    (f : AnnotatedPosetObj → AnnotatedPosetObj) :
    (modifyPoset l i f).getD j AnnotatedPosetObj.new =
      if j = i ∧ i < l.length then f (l.getD i AnnotatedPosetObj.new)
      else l.getD j AnnotatedPosetObj.new := by
  unfold modifyPoset
  by_cases hj : j = i
  · subst hj
    by_cases hl : j < l.length
    · rw [if_pos ⟨rfl, hl⟩, List.getD_eq_getElem _ _ (by simpa using hl)]
      simp
    · rw [if_neg (by tauto), List.getD_eq_default _ _ (by simp; omega),
        List.getD_eq_default _ _ (by omega)]
  · rw [if_neg (by tauto), List.getD_eq_getElem?_getD, List.getElem?_set_ne (Ne.symm hj),
      ← List.getD_eq_getElem?_getD]

theorem statusAt_modify (l : List AnnotatedPosetObj) (i j : Nat)
    (f : AnnotatedPosetObj → AnnotatedPosetObj)
    (hf : ∀ a, (f a).poset.status = a.poset.status) :
    statusAt (modifyPoset l i f) j = statusAt l j := by
  unfold statusAt
  rw [modifyPoset_getD]
  split
  · rename_i h; rw [hf, h.1]
  · rfl

theorem statusAt_modify_ne (l : List AnnotatedPosetObj) (i j : Nat)
    (f : AnnotatedPosetObj → AnnotatedPosetObj) (hj : j ≠ i) :
    statusAt (modifyPoset l i f) j = statusAt l j := by
  unfold statusAt
  rw [modifyPoset_getD, if_neg (by tauto)]

theorem statusAt_append (l ext : List AnnotatedPosetObj) (i : Nat) (hi : i < l.length) :
    statusAt (l ++ ext) i = statusAt l i := by
  unfold statusAt
  rw [List.getD_eq_getElem?_getD, List.getElem?_append_left hi, ← List.getD_eq_getElem?_getD]

theorem statusAt_take (l : List AnnotatedPosetObj) (m i : Nat) (hi : i < m) :
    statusAt (l.take m) i = statusAt l i := by
  unfold statusAt
  rw [List.getD_eq_getElem?_getD, List.getElem?_take_of_lt hi, ← List.getD_eq_getElem?_getD]

theorem statusAt_setMark (l : List AnnotatedPosetObj) (i j : Nat) (m : Bool) :
    statusAt (setMarkAt l i m) j = statusAt l j :=
  statusAt_modify l i j _ (fun _ => rfl)

theorem setMarkAt_length (l : List AnnotatedPosetObj) (i : Nat) (m : Bool) :
    (setMarkAt l i m).length = l.length := modifyPoset_length l i _

theorem setSortableAt_some (l l' : List AnnotatedPosetObj) (i : Nat)
    (h : setSortableAt l i = some l') :
    statusAt l i = SortableStatus.UNFINISHED ∧ l'.length = l.length ∧
      ∀ j, j ≠ i → statusAt l' j = statusAt l j := by
  unfold setSortableAt PosetObj.SetSortable at h
  by_cases hs : (l.getD i AnnotatedPosetObj.new).poset.status = SortableStatus.UNFINISHED
  · rw [if_pos hs] at h
    simp only [Option.map_some', Option.some.injEq] at h
    subst h
    exact ⟨hs, modifyPoset_length _ _ _, fun j hj => statusAt_modify_ne _ _ _ _ hj⟩
  · rw [if_neg hs] at h
    exact absurd h (by simp)

theorem setUnsortableAt_some (l l' : List AnnotatedPosetObj) (i : Nat)
    (h : setUnsortableAt l i = some l') :
    statusAt l i = SortableStatus.UNFINISHED ∧ l'.length = l.length ∧
      ∀ j, j ≠ i → statusAt l' j = statusAt l j := by
  unfold setUnsortableAt PosetObj.SetUnsortable at h
  by_cases hs : (l.getD i AnnotatedPosetObj.new).poset.status = SortableStatus.UNFINISHED
  · rw [if_pos hs] at h
    simp only [Option.map_some', Option.some.injEq] at h
    subst h
    exact ⟨hs, modifyPoset_length _ _ _, fun j hj => statusAt_modify_ne _ _ _ _ hj⟩
  · rw [if_neg hs] at h
    exact absurd h (by simp)

theorem setSortableAt_isSome (l : List AnnotatedPosetObj) (i : Nat)
    (h : statusAt l i = SortableStatus.UNFINISHED) : (setSortableAt l i).isSome = true := by
  unfold statusAt at h
  unfold setSortableAt PosetObj.SetSortable
  rw [if_pos h]
  rfl

theorem setUnsortableAt_isSome (l : List AnnotatedPosetObj) (i : Nat)
    (h : statusAt l i = SortableStatus.UNFINISHED) : (setUnsortableAt l i).isSome = true := by
  unfold statusAt at h
  unfold setUnsortableAt PosetObj.SetUnsortable
  rw [if_pos h]
  rfl

theorem statusKept_refl (n : Nat) (l : List AnnotatedPosetObj) : StatusKept n l l :=
  fun _ _ hi => ⟨hi, fun _ => rfl⟩

theorem statusKept_trans (n : Nat) (l1 l2 l3 : List AnnotatedPosetObj)
    (h12 : StatusKept n l1 l2) (h23 : StatusKept n l2 l3) : StatusKept n l1 l3 := by
  intro i hn hi
  obtain ⟨h2, hs2⟩ := h12 i hn hi
  obtain ⟨h3, hs3⟩ := h23 i hn h2
  refine ⟨h3, fun hs => ?_⟩
  rw [hs3 (by rw [hs2 hs]; exact hs), hs2 hs]

theorem statusKept_mono (n m : Nat) (l l' : List AnnotatedPosetObj) (hnm : n ≤ m)
    (h : StatusKept m l l') : StatusKept n l l' :=
  fun i hn hi => h i (by omega) hi

theorem statusKept_append (n : Nat) (l ext : List AnnotatedPosetObj) :
    StatusKept n l (l ++ ext) :=
  fun i _ hi => ⟨by simp; omega, fun _ => statusAt_append l ext i hi⟩

theorem statusKept_take (n m : Nat) (l : List AnnotatedPosetObj) (hnm : n ≤ m) :
    StatusKept n l (l.take m) :=
  fun i hn hi => ⟨by simp; omega, fun _ => statusAt_take l m i (by omega)⟩

theorem statusKept_modify (n : Nat) (l : List AnnotatedPosetObj) (i : Nat)
    (f : AnnotatedPosetObj → AnnotatedPosetObj)
    (hf : ∀ a, (f a).poset.status = a.poset.status) : StatusKept n l (modifyPoset l i f) :=
  fun j _ hj => ⟨by rw [modifyPoset_length]; exact hj, fun _ => statusAt_modify l i j f hf⟩

theorem statusKept_setMark (n : Nat) (l : List AnnotatedPosetObj) (i : Nat) (m : Bool) :
    StatusKept n l (setMarkAt l i m) :=
  statusKept_modify n l i _ (fun _ => rfl)

theorem statusKept_setSortable (n : Nat) (l l' : List AnnotatedPosetObj) (i : Nat)
    (h : setSortableAt l i = some l') : StatusKept n l l' := by
  obtain ⟨hs, hl, hne⟩ := setSortableAt_some l l' i h
  intro j _ hj
  refine ⟨by omega, fun hu => ?_⟩
  by_cases hji : j = i
  · subst hji; exact absurd hs hu
  · exact hne j hji

theorem statusKept_setUnsortable (n : Nat) (l l' : List AnnotatedPosetObj) (i : Nat)
    (h : setUnsortableAt l i = some l') : StatusKept n l l' := by
  obtain ⟨hs, hl, hne⟩ := setUnsortableAt_some l l' i h
  intro j _ hj
  refine ⟨by omega, fun hu => ?_⟩
  by_cases hji : j = i
  · subst hji; exact absurd hs hu
  · exact hne j hji


theorem processPoset_kept (cfg : NCT) (sp : SearchParams) (parentC limit : Nat)
    (childLayerCompleteAbove : Nat) (childMapBW : PosetMap) (childMapOld : OldGenMap)
    (s s' : Phase1) (entryIdx n : Nat)
    (h : processPoset cfg sp parentC limit childLayerCompleteAbove childMapBW childMapOld
      s entryIdx = some s') : StatusKept n s.posetList s'.posetList := by
  unfold processPoset at h
  simp only at h
  split at h
  · exact absurd h (by simp)
  · rename_i linExt table hcalc
    split at h
    · rw [Option.map_eq_some'] at h
      obtain ⟨pl, h1, h2⟩ := h
      rw [← h2]
      exact statusKept_setUnsortable n _ _ _ h1
    · split at h
      · exact absurd h (by simp)
      · rename_i r hr
        obtain ⟨ext, hext⟩ := compareLoop_container _ _ _ _ _ _ _ _ _ _ hr
        simp only at hext
        have hk : StatusKept n s.posetList r.st.posetList := by
          rw [hext]; exact statusKept_append n _ _
        split at h
        · rw [Option.map_eq_some'] at h
          obtain ⟨pl, h1, h2⟩ := h
          rw [← h2]
          exact statusKept_trans n _ _ _ hk
            (statusKept_trans n _ _ _ (statusKept_setSortable n _ _ _ h1)
              (statusKept_modify n pl entryIdx
                (fun a => { a with elIndex := 2 ^ 64 - 1 }) (fun _ => rfl)))
        · split at h
          · rw [Option.map_eq_some'] at h
            obtain ⟨pl, h1, h2⟩ := h
            rw [← h2]
            exact statusKept_trans n _ _ _ hk (statusKept_setUnsortable n _ _ _ h1)
          · simp only [Option.some.injEq] at h
            rw [← h]
            exact statusKept_trans n _ _ _ hk (statusKept_modify n r.st.posetList entryIdx
              (fun a => { a with elIndex := s.edgeList.length }) (fun _ => rfl))

theorem getD_new_mark (l : List AnnotatedPosetObj) (i : Nat)
    (h : (l.getD i AnnotatedPosetObj.new).poset.mark = true) : i < l.length := by
  by_contra hc
  rw [List.getD_eq_default _ _ (by omega)] at h
  exact absurd h (by decide)

theorem processPoset_none (cfg : NCT) (sp : SearchParams) (parentC limit : Nat)
    (childLayerCompleteAbove : Nat) (childMapBW : PosetMap) (childMapOld : OldGenMap)
    (s : Phase1) (entryIdx : Nat)
    (hm : (s.posetList.getD entryIdx AnnotatedPosetObj.new).poset.mark = true)
    (hs : statusAt s.posetList entryIdx = SortableStatus.UNFINISHED)
    (h : processPoset cfg sp parentC limit childLayerCompleteAbove childMapBW childMapOld
      s entryIdx = none) :
    calculateLinExtensionsSingleton cfg sp.allocatedMemorySize sp.scratch s.linExtTable
        (s.posetList.getD entryIdx AnnotatedPosetObj.new).poset
        (s.posetList.getD entryIdx AnnotatedPosetObj.new).info parentC true false = none ∨
    ∃ linExt table,
      calculateLinExtensionsSingleton cfg sp.allocatedMemorySize sp.scratch s.linExtTable
        (s.posetList.getD entryIdx AnnotatedPosetObj.new).poset
        (s.posetList.getD entryIdx AnnotatedPosetObj.new).info parentC true false =
          some (linExt, table) ∧
      compareLoop cfg sp parentC childLayerCompleteAbove childMapBW childMapOld
        (s.posetList.getD entryIdx AnnotatedPosetObj.new)
        (enumerateComparisons cfg (s.posetList.getD entryIdx AnnotatedPosetObj.new).info
          table limit)
        { st := { posetList := s.posetList, childMap := s.childMap, localEdgeList := [0] },
          solved := false, unsortable := true } = none := by
  have hlt := getD_new_mark _ _ hm
  unfold processPoset at h
  simp only at h
  split at h
  · rename_i hcalc; exact Or.inl hcalc
  · rename_i linExt table hcalc
    refine Or.inr ⟨linExt, table, hcalc, ?_⟩
    split at h
    · have := setUnsortableAt_isSome _ _ hs
      rw [Option.map_eq_none'] at h
      rw [h] at this
      exact absurd this (by simp)
    · split at h
      · rename_i hr; exact hr
      · rename_i r hr
        exfalso
        obtain ⟨ext, hext⟩ := compareLoop_container _ _ _ _ _ _ _ _ _ _ hr
        simp only at hext
        have hs' : statusAt r.st.posetList entryIdx = SortableStatus.UNFINISHED := by
          rw [hext, statusAt_append _ _ _ hlt]; exact hs
        split at h
        · have := setSortableAt_isSome _ _ hs'
          rw [Option.map_eq_none'] at h
          rw [h] at this
          exact absurd this (by simp)
        · split at h
          · have := setUnsortableAt_isSome _ _ hs'
            rw [Option.map_eq_none'] at h
            rw [h] at this
            exact absurd this (by simp)
          · exact absurd h (by simp)

theorem processBatch_kept (cfg : NCT) (sp : SearchParams) (parentC limit : Nat)
    (childLayerCompleteAbove : Nat) (childMapBW : PosetMap) (childMapOld : OldGenMap)
    (n : Nat) :
    ∀ (l : List Nat) (s s' : Phase1),
      processBatch cfg sp parentC limit childLayerCompleteAbove childMapBW childMapOld l s =
        some s' → StatusKept n s.posetList s'.posetList := by
  intro l
  induction l with
  | nil =>
    intro s s' h
    simp only [processBatch, Option.some.injEq] at h
    rw [h]; exact statusKept_refl n _
  | cons index rest ih =>
    intro s s' h
    unfold processBatch at h
    simp only at h
    split at h
    · exact ih _ _ h
    · split at h
      · exact absurd h (by simp)
      · rename_i s1 h1
        exact statusKept_trans n _ _ _ (processPoset_kept _ _ _ _ _ _ _ _ _ _ n h1) (ih _ _ h)

theorem phase1Loop_kept (cfg : NCT) (sp : SearchParams) (parentC limit : Nat)
    (childLayerCompleteAbove : Nat) (childMapBW : PosetMap) (childMapOld : OldGenMap)
    (parentState : LayerState) (n : Nat) :
    ∀ (fuel parentIndex : Nat) (s s' : Phase1) (pi' : Nat),
      phase1Loop cfg sp parentC limit childLayerCompleteAbove childMapBW childMapOld
        parentState fuel parentIndex s = some (s', pi') →
      StatusKept n s.posetList s'.posetList := by
  intro fuel
  induction fuel with
  | zero =>
    intro parentIndex s s' pi' h
    simp only [phase1Loop, Option.some.injEq, Prod.mk.injEq] at h
    rw [h.1]; exact statusKept_refl n _
  | succ fuel ih =>
    intro parentIndex s s' pi' h
    unfold phase1Loop at h
    simp only at h
    split at h
    · split at h
      · simp only [Option.some.injEq, Prod.mk.injEq] at h
        rw [h.1]; exact statusKept_refl n _
      · split at h
        · exact absurd h (by simp)
        · rename_i s1 h1
          exact statusKept_trans n _ _ _ (processBatch_kept _ _ _ _ _ _ _ n _ _ _ h1)
            (ih _ _ _ _ h)
    · simp only [Option.some.injEq, Prod.mk.injEq] at h
      rw [h.1]; exact statusKept_refl n _


theorem foldl_kept {α : Type} (n : Nat) (f : List AnnotatedPosetObj → α → List AnnotatedPosetObj)
    (hf : ∀ pl x, StatusKept n pl (f pl x)) :
    ∀ (xs : List α) (init : List AnnotatedPosetObj), StatusKept n init (xs.foldl f init) := by
  intro xs
  induction xs with
  | nil => intro init; exact statusKept_refl n _
  | cons x rest ih =>
    intro init
    rw [List.foldl_cons]
    exact statusKept_trans n _ _ _ (hf init x) (ih _)

theorem foldl_pair_kept {α β : Type} (n : Nat)
    (f : β × List AnnotatedPosetObj → α → β × List AnnotatedPosetObj)
    (hf : ∀ acc x, StatusKept n acc.2 (f acc x).2) :
    ∀ (xs : List α) (init : β × List AnnotatedPosetObj),
      StatusKept n init.2 (xs.foldl f init).2 := by
  intro xs
  induction xs with
  | nil => intro init; exact statusKept_refl n _
  | cons x rest ih =>
    intro init
    rw [List.foldl_cons]
    exact statusKept_trans n _ _ _ (hf init x) (ih _)

theorem markChildren_kept (n : Nat) (edgeList : List Nat) (posetList : List AnnotatedPosetObj)
    (elIndex : Nat) : StatusKept n posetList (markChildren edgeList posetList elIndex) := by
  unfold markChildren
  apply foldl_kept
  intro pl x
  simp only
  split
  · exact statusKept_setMark n _ _ _
  · exact statusKept_refl n _

theorem forwardPhase1_kept (cfg : NCT) (sp : SearchParams) (childLayerCompleteAbove : Nat)
    (childMapBW : PosetMap) (childMapOld : OldGenMap) (limit : Nat) (st st' : StepState)
    (h : forwardPhase1 cfg sp childLayerCompleteAbove childMapBW childMapOld limit st =
      some st') :
    StatusKept st.parentState.posetListEnd st.posetList st'.posetList := by
  unfold forwardPhase1 at h
  simp only at h
  split at h
  · exact absurd h (by simp)
  · rename_i r parentIndex hr
    have hk := phase1Loop_kept _ _ _ _ _ _ _ _ st.parentState.posetListEnd _ _ _ _ _ hr
    simp only at hk
    split at h
    · exact absurd h (by simp)
    · split at h
      · simp only [Option.some.injEq] at h
        rw [← h]
        exact statusKept_trans _ _ _ _ hk (statusKept_take _ _ _ (Nat.le_refl _))
      · simp only [Option.some.injEq] at h
        rw [← h]
        refine statusKept_trans _ _ _ _ hk ?_
        apply foldl_kept
        intro pl x
        split
        · exact markChildren_kept _ _ _ _
        · exact statusKept_refl _ _

theorem processPoset2_kept (n : Nat) (s s' : Phase2) (entryIdx : Nat)
    (h : processPoset2 s entryIdx = some s') : StatusKept n s.posetList s'.posetList := by
  unfold processPoset2 at h
  simp only at h
  split at h
  · rw [Option.map_eq_some'] at h
    obtain ⟨pl, h1, h2⟩ := h
    rw [← h2]
    exact statusKept_setSortable n _ _ _ h1
  · split at h
    · rw [Option.map_eq_some'] at h
      obtain ⟨pl, h1, h2⟩ := h
      rw [← h2]
      exact statusKept_setUnsortable n _ _ _ h1
    · simp only [Option.some.injEq] at h
      rw [← h]
      exact foldl_pair_kept n _ (fun acc x => statusKept_setMark n _ _ _) _ (_, s.posetList)

theorem processPoset2_isSome (s : Phase2) (entryIdx : Nat)
    (hs : statusAt s.posetList entryIdx = SortableStatus.UNFINISHED) :
    (processPoset2 s entryIdx).isSome = true := by
  unfold processPoset2
  simp only
  split
  · rw [Option.isSome_map']; exact setSortableAt_isSome _ _ hs
  · split
    · rw [Option.isSome_map']; exact setUnsortableAt_isSome _ _ hs
    · rfl

theorem processBatch2_isSome : ∀ (l : List Nat) (s : Phase2),
    (processBatch2 l s).isSome = true := by
  intro l
  induction l with
  | nil => intro s; rfl
  | cons index rest ih =>
    intro s
    unfold processBatch2
    simp only
    split
    · exact ih s
    · rename_i hg
      have hs : statusAt s.posetList (s.edgeList.getD index 0) = SortableStatus.UNFINISHED := by
        unfold statusAt
        by_contra hc
        apply hg
        rw [Bool.or_eq_true]
        exact Or.inr (by rw [bne_iff_ne]; exact hc)
      have h2 := processPoset2_isSome s _ hs
      split
      · rename_i hn; rw [hn] at h2; exact absurd h2 (by simp)
      · exact ih _

theorem processBatch2_kept (n : Nat) : ∀ (l : List Nat) (s s' : Phase2),
    processBatch2 l s = some s' → StatusKept n s.posetList s'.posetList := by
  intro l
  induction l with
  | nil =>
    intro s s' h
    simp only [processBatch2, Option.some.injEq] at h
    rw [h]; exact statusKept_refl n _
  | cons index rest ih =>
    intro s s' h
    unfold processBatch2 at h
    simp only at h
    split at h
    · exact ih _ _ h
    · split at h
      · exact absurd h (by simp)
      · rename_i s1 h1
        exact statusKept_trans n _ _ _ (processPoset2_kept n _ _ _ h1) (ih _ _ h)

theorem storeParents_kept (n : Nat) (st : StepState) :
    StatusKept n st.posetList (storeParents st).posetList := by
  unfold storeParents
  apply foldl_pair_kept n _ _ _ (([] : List Nat), st.posetList)
  intro acc x
  simp only
  split
  · exact statusKept_setMark n _ _ _
  · exact statusKept_refl n _

theorem doForwardStep_kept (cfg : NCT) (sp : SearchParams) (childLayerCompleteAbove : Nat)
    (childMapBW : PosetMap) (childMapOld : OldGenMap) (limit : Nat) (st st' : StepState)
    (h : doForwardStep cfg sp childLayerCompleteAbove childMapBW childMapOld limit st =
      some st') :
    StatusKept st.parentState.posetListEnd st.posetList st'.posetList := by
  have h01 : ∀ (s0 s1 : StepState),
      (let st0 := if s0.parentState.phase = 0 then forwardPhase0 s0 else s0
       if st0.parentState.phase = 1 then
         forwardPhase1 cfg sp childLayerCompleteAbove childMapBW childMapOld limit st0
       else some st0) = some s1 →
      StatusKept s0.parentState.posetListEnd s0.posetList s1.posetList := by
    intro s0 s1 h1
    simp only at h1
    by_cases hp : s0.parentState.phase = 0
    · rw [if_pos hp] at h1
      rw [if_pos (show (forwardPhase0 s0).parentState.phase = 1 from rfl)] at h1
      exact forwardPhase1_kept _ _ _ _ _ _ (forwardPhase0 s0) _ h1
    · rw [if_neg hp] at h1
      split at h1
      · exact forwardPhase1_kept _ _ _ _ _ _ _ _ h1
      · simp only [Option.some.injEq] at h1
        rw [← h1]; exact statusKept_refl _ _
  unfold doForwardStep at h
  simp only at h
  split at h
  · split at h
    · exact absurd h (by simp)
    · rename_i r hr
      have hk := processBatch2_kept st.parentState.posetListEnd _ _ _ hr
      simp only at hk
      split at h
      · simp only [Option.some.injEq] at h
        rw [← h]; exact hk
      · split at h
        · simp only [Option.some.injEq] at h
          rw [← h]
          have hsp := storeParents_kept st.parentState.posetListEnd
            ({ st with posetList := r.posetList.take st.parentState.posetListEnd,
                       edgeList := r.edgeList.take st.parentState.elBegin } : StepState)
          exact statusKept_trans _ _ _ _ hk
            (statusKept_trans _ _ _ _ (statusKept_take _ _ _ (Nat.le_refl _)) hsp)
        · have := h01
            ({ st with posetList := r.posetList.take st.parentState.posetListEnd,
                       edgeList := r.edgeList.take st.parentState.elBegin,
                       parentState := { st.parentState with phase := 1 } } : StepState) st' h
          exact statusKept_trans _ _ _ _ hk
            (statusKept_trans _ _ _ _ (statusKept_take _ _ _ (Nat.le_refl _)) this)
  · exact h01 _ _ h


/-- Claim C14: in the forward phases a status only goes from `UNFINISHED` to `YES` or `NO`.
The pass of phase 2 / phase 3 never stops at the assertion of `SetSortable` or
`SetUnsortable`; the visit of a marked `UNFINISHED` parent in phase 1 stops only when the
linear-extension counter or the creation of a child stops, never at these assertions (a
second call in the same visit would fail them); and a step of `doForwardStep` leaves the
status of every resolved record of the list below `posetListEnd` as it is. -/
theorem status_leaves_unfinished_only (cfg : NCT) (sp : SearchParams)
    (childLayerCompleteAbove limit : Nat) (childMapBW : PosetMap) (childMapOld : OldGenMap) :
    (∀ (parentState : LayerState) (s : Phase2), (phase2Loop parentState s).isSome = true) ∧
    (∀ (parentC : Nat) (s : Phase1) (entryIdx : Nat),
      (s.posetList.getD entryIdx AnnotatedPosetObj.new).poset.mark = true →
      statusAt s.posetList entryIdx = SortableStatus.UNFINISHED →
      processPoset cfg sp parentC limit childLayerCompleteAbove childMapBW childMapOld
        s entryIdx = none →
      calculateLinExtensionsSingleton cfg sp.allocatedMemorySize sp.scratch s.linExtTable
          (s.posetList.getD entryIdx AnnotatedPosetObj.new).poset
          (s.posetList.getD entryIdx AnnotatedPosetObj.new).info parentC true false = none ∨
      ∃ linExt table,
        calculateLinExtensionsSingleton cfg sp.allocatedMemorySize sp.scratch s.linExtTable
          (s.posetList.getD entryIdx AnnotatedPosetObj.new).poset
          (s.posetList.getD entryIdx AnnotatedPosetObj.new).info parentC true false =
            some (linExt, table) ∧
        compareLoop cfg sp parentC childLayerCompleteAbove childMapBW childMapOld
          (s.posetList.getD entryIdx AnnotatedPosetObj.new)
          (enumerateComparisons cfg (s.posetList.getD entryIdx AnnotatedPosetObj.new).info
            table limit)
          { st := { posetList := s.posetList, childMap := s.childMap, localEdgeList := [0] },
            solved := false, unsortable := true } = none) ∧
    (∀ (st st' : StepState),
      doForwardStep cfg sp childLayerCompleteAbove childMapBW childMapOld limit st =
        some st' →
      ∀ i, i < st.parentState.posetListEnd → i < st.posetList.length →
        statusAt st.posetList i ≠ SortableStatus.UNFINISHED →
        statusAt st'.posetList i = statusAt st.posetList i) := by
  refine ⟨fun parentState s => processBatch2_isSome _ s,
    fun parentC s entryIdx hm hs h => processPoset_none _ _ _ _ _ _ _ _ _ hm hs h, ?_⟩
  intro st st' h i hi hl hs
  exact ((doForwardStep_kept _ _ _ _ _ _ _ _ h) i hi hl).2 hs

theorem status_leaves_unfinished_only_witness :
    statusAt sampleStep.posetList 3 = SortableStatus.NO ∧
    statusAt ((doForwardStep ⟨4, 4, 5⟩ (defaultParams ⟨4, 4, 5⟩ 84) 0 (PosetMap.new 1 1)
      (OldGenMap.new 1 (fun _ => PosetObj.new)) 12 sampleStep).getD sampleStep).posetList 3 =
      statusAt sampleStep.posetList 3 ∧
    statusAt ((doForwardStep ⟨4, 4, 5⟩ (defaultParams ⟨4, 4, 5⟩ 84) 0 (PosetMap.new 1 1)
      (OldGenMap.new 1 (fun _ => PosetObj.new)) 12 sampleStep).getD sampleStep).posetList 0 =
      SortableStatus.YES :=
  ⟨by decide,
   (status_leaves_unfinished_only ⟨4, 4, 5⟩ (defaultParams ⟨4, 4, 5⟩ 84) 0 12 (PosetMap.new 1 1)
      (OldGenMap.new 1 (fun _ => PosetObj.new))).2.2 sampleStep _ rfl 3
      (by decide) (by decide) (by decide),
   by decide⟩


theorem mod_window (cap a i j : Nat) (hi : a ≤ i) (hi' : i < a + cap) (hj : a ≤ j)
    (hj' : j < a + cap) (h : i % cap = j % cap) : i = j := by
  rcases Nat.le_total i j with hij | hij
  · have h0 : (j - i) % cap = 0 := Nat.sub_mod_eq_zero_of_mod_eq h.symm
    rw [Nat.mod_eq_of_lt (by omega)] at h0
    omega
  · have h0 : (i - j) % cap = 0 := Nat.sub_mod_eq_zero_of_mod_eq h
    rw [Nat.mod_eq_of_lt (by omega)] at h0
    omega

theorem two64 : (2 : Nat) ^ 64 = 18446744073709551616 := by norm_num

theorem getD_some_lt {T : Type} (l : List (Option T)) (i : Nat) (x : T)
    (h : l.getD i none = some x) : i < l.length := by
  by_contra hc
  rw [List.getD_eq_default _ _ (by omega)] at h
  exact absurd h (by simp)

theorem getD_append_left {T : Type} (l l2 : List (Option T)) (i : Nat) (h : i < l.length) :
    (l ++ l2).getD i none = l.getD i none := by
  rw [List.getD_eq_getElem?_getD, List.getElem?_append_left h, ← List.getD_eq_getElem?_getD]

theorem getD_append_right {T : Type} (l l2 : List (Option T)) (i : Nat) (h : l.length ≤ i) :
    (l ++ l2).getD i none = l2.getD (i - l.length) none := by
  rw [List.getD_eq_getElem?_getD, List.getElem?_append_right h, ← List.getD_eq_getElem?_getD]

theorem copyRange_spec {T : Type} (cap W : Nat) :
    ∀ (xs : List T) (pos : Nat) (a : Nat → T), W ≤ pos → pos + xs.length ≤ W + cap →
      pos + xs.length < 2 ^ 64 →
      (∀ j, W ≤ j → j < W + cap → (j < pos ∨ pos + xs.length ≤ j) →
        copyRange cap pos xs a (j % cap) = a (j % cap)) ∧
      (∀ k x, xs[k]? = some x → copyRange cap pos xs a ((pos + k) % cap) = x) := by
  intro xs
  induction xs with
  | nil =>
    intro pos a _ _ _
    exact ⟨fun j _ _ _ => rfl, fun k x h => by simp at h⟩
  | cons y ys ih =>
    intro pos a hW hfit h64
    simp only [List.length_cons] at hfit h64
    obtain ⟨ih1, ih2⟩ := ih (pos + 1) (writeAt a ((pos % 2 ^ 64) % cap) y) (by omega)
      (by omega) (by omega)
    have hp : pos % 2 ^ 64 = pos := Nat.mod_eq_of_lt (by omega)
    rw [hp] at ih1 ih2
    refine ⟨fun j hj hj' hout => ?_, fun k x hk => ?_⟩
    · simp only [List.length_cons] at hout
      show copyRange cap (pos + 1) ys (writeAt a ((pos % 2 ^ 64) % cap) y) (j % cap) = _
      rw [hp, ih1 j hj hj' (by omega)]
      unfold writeAt
      rw [if_neg]
      intro hc
      have := mod_window cap W j pos hj hj' hW (by omega) hc
      omega
    · show copyRange cap (pos + 1) ys (writeAt a ((pos % 2 ^ 64) % cap) y) _ = _
      rw [hp]
      cases k with
      | zero =>
        simp only [List.getElem?_cons_zero, Option.some.injEq] at hk
        show copyRange cap (pos + 1) ys (writeAt a (pos % cap) y) (pos % cap) = x
        rw [ih1 pos hW (by omega) (by omega)]
        unfold writeAt
        rw [if_pos rfl, hk]
      | succ k =>
        simp only [List.getElem?_cons_succ] at hk
        have := ih2 k x hk
        rw [show pos + (k + 1) = pos + 1 + k by omega]
        exact this

theorem sovInv_insert {T : Type} (v v' : SemiOfflineVector T) (l : List (Option T)) (x : T)
    (pos : Nat) (hinv : SovInv v l) (h : v.insert x = some (v', pos)) :
    SovInv v' (l ++ [some x]) := by
  obtain ⟨h1, h2, h3, h4, h5, h6, h7⟩ := hinv
  unfold SemiOfflineVector.insert at h
  simp only at h
  rw [two64] at h h7
  have hm : (v.onlineCapacity + v.sizeOffline) % 18446744073709551616 =
      v.onlineCapacity + v.sizeOffline := Nat.mod_eq_of_lt (by omega)
  rw [hm] at h
  split at h
  · exact absurd h (by simp)
  · rename_i hlt
    simp only [Option.some.injEq, Prod.mk.injEq] at h
    obtain ⟨hv, _⟩ := h
    subst hv
    have hm2 : (v.sizeTotal + 1) % 18446744073709551616 = v.sizeTotal + 1 :=
      Nat.mod_eq_of_lt (by omega)
    refine ⟨?_, ?_, ?_, ?_, ?_, h6, by rw [two64]; exact h7⟩
    · show v.sizeOffline ≤ (v.sizeTotal + 1) % 18446744073709551616
      omega
    · show (v.sizeTotal + 1) % 18446744073709551616 ≤ v.sizeOffline + v.onlineCapacity
      omega
    · show (l ++ [some x]).length = (v.sizeTotal + 1) % 18446744073709551616
      rw [hm2, List.length_append, h3]; rfl
    · intro i y hi hi' hy
      change i < (v.sizeTotal + 1) % 18446744073709551616 at hi'
      change v.sizeOffline ≤ i at hi
      show writeAt v.onlineVec (v.sizeTotal % v.onlineCapacity) x (i % v.onlineCapacity) = y
      unfold writeAt
      by_cases hit : i = v.sizeTotal
      · subst hit
        rw [if_pos rfl]
        rw [getD_append_right _ _ _ (by omega), h3, Nat.sub_self] at hy
        simpa using hy
      · rw [if_neg]
        · rw [getD_append_left _ _ _ (by omega)] at hy
          exact h4 i y hi (by omega) hy
        · intro hc
          exact hit (mod_window v.onlineCapacity v.sizeOffline i v.sizeTotal hi (by omega)
            h1 (by omega) hc)
    · intro i y hi hy
      change i < v.sizeOffline at hi
      rw [getD_append_left _ _ _ (by omega)] at hy
      exact h5 i y hi hy

theorem sovInv_insertRange {T : Type} (v v' : SemiOfflineVector T) (l : List (Option T))
    (xs : List T) (pos : Nat) (hinv : SovInv v l)
    (hfit : v.sizeTotal + xs.length ≤ v.sizeOffline + v.onlineCapacity)
    (h : v.insertRange xs = some (v', pos)) :
    SovInv v' (l ++ xs.map some) := by
  obtain ⟨h1, h2, h3, h4, h5, h6, h7⟩ := hinv
  unfold SemiOfflineVector.insertRange at h
  simp only at h
  have h7' := h7
  rw [two64] at h h7
  have hm : (v.onlineCapacity + v.sizeOffline) % 18446744073709551616 =
      v.onlineCapacity + v.sizeOffline := Nat.mod_eq_of_lt (by omega)
  rw [hm] at h
  split at h
  · exact absurd h (by simp)
  · split at h
    · exact absurd h (by simp)
    · simp only [Option.some.injEq, Prod.mk.injEq] at h
      obtain ⟨hv, _⟩ := h
      subst hv
      have hm2 : (v.sizeTotal + xs.length) % 18446744073709551616 = v.sizeTotal + xs.length :=
        Nat.mod_eq_of_lt (by omega)
      obtain ⟨c1, c2⟩ := copyRange_spec v.onlineCapacity v.sizeOffline xs v.sizeTotal
        v.onlineVec h1 hfit (by rw [two64]; omega)
      refine ⟨?_, ?_, ?_, ?_, ?_, h6, h7'⟩
      · show v.sizeOffline ≤ (v.sizeTotal + xs.length) % 18446744073709551616
        omega
      · show (v.sizeTotal + xs.length) % 18446744073709551616 ≤
          v.sizeOffline + v.onlineCapacity
        omega
      · show (l ++ xs.map some).length = (v.sizeTotal + xs.length) % 18446744073709551616
        rw [hm2, List.length_append, h3, List.length_map]
      · intro i y hi hi' hy
        change i < (v.sizeTotal + xs.length) % 18446744073709551616 at hi'
        change v.sizeOffline ≤ i at hi
        show copyRange v.onlineCapacity v.sizeTotal xs v.onlineVec (i % v.onlineCapacity) = y
        by_cases hit : i < v.sizeTotal
        · rw [c1 i hi (by omega) (Or.inl hit)]
          rw [getD_append_left _ _ _ (by omega)] at hy
          exact h4 i y hi hit hy
        · rw [getD_append_right _ _ _ (by omega), h3, List.getD_eq_getElem?_getD,
            List.getElem?_map] at hy
          have hk : xs[i - v.sizeTotal]? = some y := by
            cases hx : xs[i - v.sizeTotal]? with
            | none => rw [hx] at hy; simp at hy
            | some z => rw [hx] at hy; simp at hy; rw [hy]
          have := c2 (i - v.sizeTotal) y hk
          rw [show v.sizeTotal + (i - v.sizeTotal) = i by omega] at this
          exact this
      · intro i y hi hy
        change i < v.sizeOffline at hi
        rw [getD_append_left _ _ _ (by omega)] at hy
        exact h5 i y hi hy


theorem getD_set_opt {T : Type} (l : List (Option T)) (p i : Nat) (a : Option T) :
    (l.set p a).getD i none = if i = p ∧ p < l.length then a else l.getD i none := by
  by_cases hi : i = p
  · subst hi
    by_cases hl : i < l.length
    · rw [if_pos ⟨rfl, hl⟩, List.getD_eq_getElem _ _ (by simpa using hl)]
      simp
    · rw [if_neg (by tauto), List.getD_eq_default _ _ (by simp; omega),
        List.getD_eq_default _ _ (by omega)]
  · rw [if_neg (by tauto), List.getD_eq_getElem?_getD, List.getElem?_set_ne (Ne.symm hi),
      ← List.getD_eq_getElem?_getD]

theorem inWindow_iff {T : Type} (v : SemiOfflineVector T) (pos : Nat)
    (h : v.onlineCapacity + v.sizeOffline < 2 ^ 64) :
    v.inWindow pos = true ↔ v.sizeOffline ≤ pos ∧ pos < v.sizeOffline + v.onlineCapacity := by
  unfold SemiOfflineVector.inWindow
  rw [Nat.mod_eq_of_lt h, Bool.and_eq_true, decide_eq_true_iff, decide_eq_true_iff]
  constructor
  · intro ⟨a, b⟩; exact ⟨a, by omega⟩
  · intro ⟨a, b⟩; exact ⟨a, by omega⟩

theorem sovInv_bound {T : Type} (v : SemiOfflineVector T) (l : List (Option T))
    (hinv : SovInv v l) : v.onlineCapacity + v.sizeOffline < 2 ^ 64 := by
  have h6 := hinv.off_cap
  have h7 := hinv.caps
  omega

theorem sovInv_write {T : Type} (v v' : SemiOfflineVector T) (l : List (Option T))
    (pos : Nat) (x : T) (hinv : SovInv v l) (h : v.set pos x = some v') :
    SovInv v' (l.set pos (some x)) := by
  have hb := sovInv_bound v l hinv
  obtain ⟨h1, h2, h3, h4, h5, h6, h7⟩ := hinv
  unfold SemiOfflineVector.set at h
  split at h
  · rename_i hw
    rw [inWindow_iff v pos hb] at hw
    simp only [Option.some.injEq] at h
    subst h
    refine ⟨h1, h2, by rw [List.length_set]; exact h3, ?_, ?_, h6, h7⟩
    · intro i y hi hi' hy
      change v.sizeOffline ≤ i at hi
      change i < v.sizeTotal at hi'
      show writeAt v.onlineVec (pos % v.onlineCapacity) x (i % v.onlineCapacity) = y
      rw [getD_set_opt] at hy
      unfold writeAt
      by_cases hip : i = pos
      · subst hip
        rw [if_pos rfl]
        rw [if_pos ⟨rfl, by omega⟩] at hy
        simpa using hy
      · rw [if_neg (by tauto)] at hy
        rw [if_neg]
        · exact h4 i y hi hi' hy
        · intro hc
          exact hip (mod_window v.onlineCapacity v.sizeOffline i pos hi (by omega) hw.1 hw.2 hc)
    · intro i y hi hy
      change i < v.sizeOffline at hi
      rw [getD_set_opt, if_neg (by omega)] at hy
      exact h5 i y hi hy
  · exact absurd h (by simp)

theorem spill_spec {T : Type} :
    ∀ (n b : Nat) (v v' : SemiOfflineVector T),
      v.onlineCapacity + v.sizeOffline < 2 ^ 64 →
      SemiOfflineVector.spill (List.range' b n) v = some v' →
      v' = { v with offlineVec := v'.offlineVec } ∧
      (0 < n → v.sizeOffline ≤ b ∧ b + n ≤ v.sizeOffline + v.onlineCapacity) ∧
      ∀ j, v'.offlineVec j =
        if b ≤ j ∧ j < b + n then v.onlineVec (j % v.onlineCapacity) else v.offlineVec j := by
  intro n
  induction n with
  | zero =>
    intro b v v' _ h
    simp only [List.range'_zero, SemiOfflineVector.spill, Option.some.injEq] at h
    subst h
    exact ⟨rfl, fun h => absurd h (by omega), fun j => by rw [if_neg (by omega)]⟩
  | succ n ih =>
    intro b v v' hb h
    rw [List.range'_succ] at h
    unfold SemiOfflineVector.spill at h
    unfold SemiOfflineVector.get at h
    by_cases hw : v.inWindow b = true
    · rw [if_pos hw] at h
      simp only at h
      obtain ⟨e1, e2, e3⟩ := ih (b + 1)
        { v with offlineVec := writeAt v.offlineVec b (v.onlineVec (b % v.onlineCapacity)) }
        v' hb h
      rw [inWindow_iff v b hb] at hw
      refine ⟨?_, fun _ => ⟨hw.1, ?_⟩, fun j => ?_⟩
      · rw [e1]
      · by_cases hn : 0 < n
        · have := (e2 hn).2
          simp only at this
          omega
        · omega
      · rw [e3 j]
        simp only
        unfold writeAt
        by_cases hj : b + 1 ≤ j ∧ j < b + 1 + n
        · rw [if_pos hj, if_pos (by omega)]
        · rw [if_neg hj]
          by_cases hjb : j = b
          · rw [if_pos hjb, if_pos (by omega), hjb]
          · rw [if_neg hjb, if_neg (by omega)]
    · rw [if_neg hw] at h
      exact absurd h (by simp)

theorem pageIn_spec {T : Type} :
    ∀ (n b : Nat) (v v' : SemiOfflineVector T),
      v.onlineCapacity + v.sizeOffline < 2 ^ 64 →
      v.sizeOffline ≤ b → b + n ≤ v.sizeOffline + v.onlineCapacity →
      SemiOfflineVector.pageIn (List.range' b n) v = some v' →
      v' = { v with onlineVec := v'.onlineVec } ∧
      ∀ j, v.sizeOffline ≤ j → j < v.sizeOffline + v.onlineCapacity →
        v'.onlineVec (j % v.onlineCapacity) =
          if b ≤ j ∧ j < b + n then v.offlineVec j else v.onlineVec (j % v.onlineCapacity) := by
  intro n
  induction n with
  | zero =>
    intro b v v' _ _ _ h
    simp only [List.range'_zero, SemiOfflineVector.pageIn, Option.some.injEq] at h
    subst h
    exact ⟨rfl, fun j _ _ => by rw [if_neg (by omega)]⟩
  | succ n ih =>
    intro b v v' hb hW hfit h
    rw [List.range'_succ] at h
    unfold SemiOfflineVector.pageIn at h
    unfold SemiOfflineVector.set at h
    by_cases hw : v.inWindow b = true
    · rw [if_pos hw] at h
      simp only at h
      obtain ⟨e1, e2⟩ := ih (b + 1)
        { v with onlineVec := writeAt v.onlineVec (b % v.onlineCapacity) (v.offlineVec b) }
        v' hb (by show v.sizeOffline ≤ b + 1; omega)
        (by show b + 1 + n ≤ v.sizeOffline + v.onlineCapacity; omega) h
      refine ⟨?_, fun j hj hj' => ?_⟩
      · rw [e1]
      · have := e2 j hj hj'
        simp only at this
        rw [this]
        unfold writeAt
        by_cases hjr : b + 1 ≤ j ∧ j < b + 1 + n
        · rw [if_pos hjr, if_pos (by omega)]
        · rw [if_neg hjr]
          by_cases hjb : j = b
          · rw [if_pos (by rw [hjb]), if_pos (by omega), hjb]
          · rw [if_neg (fun hc => hjb
              (mod_window v.onlineCapacity v.sizeOffline j b hj hj' hW (by omega) hc)),
              if_neg (by omega)]
    · rw [if_neg hw] at h
      exact absurd h (by simp)


theorem ensure_core {T : Type} (v v' : SemiOfflineVector T) (l : List (Option T)) (r : Nat)
    (hinv : SovInv v l) (hr : r < 2 ^ 64)
    (hr2 : v.sizeTotal + r < 2 ^ 64 + v.onlineCapacity)
    (h : v.ensureOnlineAvailable r = some v') :
    v' = { v with offlineVec := v'.offlineVec, sizeOffline := v'.sizeOffline } ∧
    (v.onlineCapacity - (v.sizeTotal - v.sizeOffline) < r →
      v'.sizeOffline = v.sizeTotal + r - v.onlineCapacity) ∧
    (¬ v.onlineCapacity - (v.sizeTotal - v.sizeOffline) < r →
      v'.sizeOffline = v.sizeOffline) ∧
    v'.sizeOffline ≤ v.sizeOffline + v.onlineCapacity ∧
    v'.sizeOffline ≤ v.offlineCapacity ∧
    (∀ i x, i < v'.sizeOffline → l.getD i none = some x → v'.offlineVec i = x) := by
  have hb := sovInv_bound v l hinv
  obtain ⟨h1, h2, h3, h4, h5, h6, h7⟩ := hinv
  unfold SemiOfflineVector.ensureOnlineAvailable at h
  simp only at h
  rw [two64] at h h7 hr hr2
  have e1 : (v.sizeTotal + 18446744073709551616 - v.sizeOffline) % 18446744073709551616 =
      v.sizeTotal - v.sizeOffline := by omega
  rw [e1] at h
  have e2 : (v.onlineCapacity + 18446744073709551616 - (v.sizeTotal - v.sizeOffline)) %
      18446744073709551616 = v.onlineCapacity - (v.sizeTotal - v.sizeOffline) := by omega
  rw [e2] at h
  by_cases hav : v.onlineCapacity - (v.sizeTotal - v.sizeOffline) < r
  · rw [if_pos hav] at h
    have e3 : (r + 18446744073709551616 - (v.onlineCapacity - (v.sizeTotal - v.sizeOffline))) %
        18446744073709551616 = r - (v.onlineCapacity - (v.sizeTotal - v.sizeOffline)) := by
      omega
    rw [e3] at h
    have e4 : (v.sizeOffline + (r - (v.onlineCapacity - (v.sizeTotal - v.sizeOffline)))) %
        18446744073709551616 = v.sizeTotal + r - v.onlineCapacity := by omega
    rw [e4] at h
    split at h
    · exact absurd h (by simp)
    · split at h
      · exact absurd h (by simp)
      · rename_i hreq hoff
        rw [Option.map_eq_some'] at h
        obtain ⟨v1, hs, hv⟩ := h
        obtain ⟨s1, s2, s3⟩ := spill_spec _ _ v v1 hb hs
        have hn : 0 < v.sizeTotal + r - v.onlineCapacity - v.sizeOffline := by omega
        have s2' := (s2 hn).2
        subst hv
        refine ⟨?_, fun _ => rfl, fun hc => absurd hav hc, ?_, ?_, ?_⟩
        · show _ = ({ v with offlineVec := v1.offlineVec,
                             sizeOffline := v.sizeTotal + r - v.onlineCapacity } :
            SemiOfflineVector T)
          rw [s1]
        · show v.sizeTotal + r - v.onlineCapacity ≤ v.sizeOffline + v.onlineCapacity
          omega
        · show v.sizeTotal + r - v.onlineCapacity ≤ v.offlineCapacity
          omega
        · intro i x hi hx
          change i < v.sizeTotal + r - v.onlineCapacity at hi
          show v1.offlineVec i = x
          rw [s3 i]
          have hil := getD_some_lt l i x hx
          by_cases hio : v.sizeOffline ≤ i
          · rw [if_pos ⟨hio, by omega⟩]
            exact h4 i x hio (by omega) hx
          · rw [if_neg (by omega)]
            exact h5 i x (by omega) hx
  · rw [if_neg hav] at h
    simp only [Option.some.injEq] at h
    subst h
    exact ⟨rfl, fun hc => absurd hc hav, fun _ => rfl, by omega, h6, h5⟩

theorem sovInv_ensureAvailable {T : Type} (v v' : SemiOfflineVector T)
    (l : List (Option T)) (r : Nat) (hinv : SovInv v l) (hr : r ≤ v.onlineCapacity)
    (h : v.ensureOnlineAvailable r = some v') : SovInv v' l := by
  have hinv' := hinv
  obtain ⟨h1, h2, h3, h4, h5, h6, h7⟩ := hinv
  have h7' := h7
  rw [two64] at h7
  obtain ⟨c1, c2, c3, c4, c5, c6⟩ := ensure_core v v' l r hinv' (by rw [two64]; omega)
    (by rw [two64]; omega) h
  have ht : v'.sizeTotal = v.sizeTotal := by rw [c1]
  have hc : v'.onlineCapacity = v.onlineCapacity := by rw [c1]
  have hoc : v'.offlineCapacity = v.offlineCapacity := by rw [c1]
  have hov : v'.onlineVec = v.onlineVec := by rw [c1]
  have hso : v.sizeOffline ≤ v'.sizeOffline ∧ v'.sizeOffline ≤ v.sizeTotal := by
    by_cases hav : v.onlineCapacity - (v.sizeTotal - v.sizeOffline) < r
    · have := c2 hav; omega
    · have := c3 hav; omega
  refine ⟨by omega, by omega, by omega, ?_, c6, by omega, by rw [hc, hoc]; exact h7'⟩
  intro i x hi hi' hx
  rw [hov, hc]
  exact h4 i x (by omega) (by omega) hx

theorem getD_resize {T : Type} (l : List (Option T)) (n i : Nat) (x : T)
    (h : (l.take n ++ List.replicate (n - l.length) none).getD i none = some x) :
    i < n ∧ l.getD i none = some x := by
  have hlen : (l.take n).length = min n l.length := List.length_take _ _
  by_cases hi : i < (l.take n).length
  · rw [getD_append_left _ _ _ hi, List.getD_eq_getElem?_getD,
      List.getElem?_take_of_lt (by omega), ← List.getD_eq_getElem?_getD] at h
    exact ⟨by omega, h⟩
  · rw [getD_append_right _ _ _ (by omega), List.getD_eq_getElem?_getD] at h
    exfalso
    rw [List.getElem?_replicate] at h
    split at h <;> simp at h

theorem sovInv_resize {T : Type} (v v' : SemiOfflineVector T) (l : List (Option T))
    (n : Nat) (hinv : SovInv v l) (hn : n < 2 ^ 64) (h : v.resize n = some v') :
    SovInv v' (l.take n ++ List.replicate (n - l.length) none) := by
  have hinv' := hinv
  obtain ⟨h1, h2, h3, h4, h5, h6, h7⟩ := hinv
  have h7' := h7
  have hlen : (l.take n ++ List.replicate (n - l.length) (none : Option T)).length = n := by
    rw [List.length_append, List.length_take, List.length_replicate]; omega
  unfold SemiOfflineVector.resize at h
  simp only at h
  rw [two64] at h h7 hn
  by_cases hsmall : n < v.sizeOffline
  · rw [if_pos hsmall] at h
    simp only at h
    rw [Nat.mod_eq_of_lt (by omega), if_neg (by omega)] at h
    simp only [Option.map_some', Option.some.injEq] at h
    subst h
    refine ⟨Nat.le_refl _, Nat.le_add_right _ _, hlen, ?_, ?_, ?_, h7'⟩
    · intro i x hi hi'
      change n ≤ i at hi
      change i < n at hi'
      omega
    · intro i x hi hx
      change i < n at hi
      exact h5 i x (by omega) (getD_resize l n i x hx).2
    · show n ≤ v.offlineCapacity
      omega
  · rw [if_neg hsmall] at h
    rw [Nat.mod_eq_of_lt (by omega)] at h
    by_cases hbig : n > v.sizeOffline + v.onlineCapacity
    · rw [if_pos hbig] at h
      rw [Option.map_eq_some'] at h
      obtain ⟨v3, he, hv⟩ := h
      have e5 : (n + 18446744073709551616 - v.sizeTotal) % 18446744073709551616 =
          n - v.sizeTotal := by omega
      rw [e5] at he
      obtain ⟨c1, c2, c3, c4, c5, c6⟩ := ensure_core v v3 l (n - v.sizeTotal) hinv'
        (by rw [two64]; omega) (by rw [two64]; omega) he
      have hso := c2 (by omega)
      have hc : v3.onlineCapacity = v.onlineCapacity := by rw [c1]
      have hoc : v3.offlineCapacity = v.offlineCapacity := by rw [c1]
      have hov : v3.onlineVec = v.onlineVec := by rw [c1]
      subst hv
      refine ⟨?_, ?_, hlen, ?_, ?_, c5.trans (by rw [hoc]), by
        show v3.onlineCapacity + v3.offlineCapacity < 2 ^ 64
        rw [hc, hoc]; exact h7'⟩
      · show v3.sizeOffline ≤ n
        omega
      · show n ≤ v3.sizeOffline + v3.onlineCapacity
        omega
      · intro i x hi hi' hx
        change v3.sizeOffline ≤ i at hi
        show v3.onlineVec (i % v3.onlineCapacity) = x
        have hx' := (getD_resize l n i x hx).2
        have := getD_some_lt l i x hx'
        rw [hov, hc]
        exact h4 i x (by omega) (by omega) hx'
      · intro i x hi hx
        change i < v3.sizeOffline at hi
        exact c6 i x hi (getD_resize l n i x hx).2
    · rw [if_neg hbig] at h
      simp only [Option.map_some', Option.some.injEq] at h
      subst h
      refine ⟨?_, ?_, hlen, ?_, ?_, h6, h7'⟩
      · show v.sizeOffline ≤ n
        omega
      · show n ≤ v.sizeOffline + v.onlineCapacity
        omega
      · intro i x hi hi' hx
        change v.sizeOffline ≤ i at hi
        have hx' := (getD_resize l n i x hx).2
        have := getD_some_lt l i x hx'
        exact h4 i x hi (by omega) hx'
      · intro i x hi hx
        change i < v.sizeOffline at hi
        exact h5 i x hi (getD_resize l n i x hx).2

theorem sovInv_ensureFrom {T : Type} (v v' : SemiOfflineVector T) (l : List (Option T))
    (b : Nat) (hinv : SovInv v l) (hb : b < 2 ^ 64) (h : v.ensureOnlineFrom b = some v') :
    SovInv v' l := by
  obtain ⟨h1, h2, h3, h4, h5, h6, h7⟩ := hinv
  have h7' := h7
  unfold SemiOfflineVector.ensureOnlineFrom at h
  rw [two64] at h h7 hb
  by_cases hlt : b < v.sizeOffline
  · rw [if_pos hlt] at h
    have e1 : (v.sizeTotal + 18446744073709551616 - b) % 18446744073709551616 =
        v.sizeTotal - b := by omega
    rw [e1] at h
    split at h
    · exact absurd h (by simp)
    · rename_i hcap
      simp only at h
      rw [Option.map_eq_some'] at h
      obtain ⟨v1, hp, hv⟩ := h
      obtain ⟨p1, p2⟩ := pageIn_spec _ _ ({ v with sizeOffline := b } : SemiOfflineVector T)
        v1 (by show v.onlineCapacity + b < 2 ^ 64; rw [two64]; omega) (Nat.le_refl _)
        (by show b + (v.sizeOffline - b) ≤ b + v.onlineCapacity; omega) hp
      subst hv
      have hc : v1.onlineCapacity = v.onlineCapacity := by rw [p1]
      have hoc : v1.offlineCapacity = v.offlineCapacity := by rw [p1]
      have hfv : v1.offlineVec = v.offlineVec := by rw [p1]
      have hso : v1.sizeOffline = b := by rw [p1]
      have hst : v1.sizeTotal = v.sizeTotal := by rw [p1]
      refine ⟨?_, ?_, ?_, ?_, ?_, ?_, ?_⟩
      · show v1.sizeOffline ≤ v1.sizeTotal
        omega
      · show v1.sizeTotal ≤ v1.sizeOffline + v1.onlineCapacity
        omega
      · show l.length = v1.sizeTotal
        omega
      · intro i x hi hi' hx
        change v1.sizeOffline ≤ i at hi
        change i < v1.sizeTotal at hi'
        show v1.onlineVec (i % v1.onlineCapacity) = x
        have := p2 i (by show b ≤ i; omega) (by show i < b + v.onlineCapacity; omega)
        simp only at this
        rw [hc, this]
        by_cases hio : i < v.sizeOffline
        · rw [if_pos ⟨by omega, by omega⟩]
          exact h5 i x hio hx
        · rw [if_neg (by omega)]
          exact h4 i x (by omega) (by omega) hx
      · intro i x hi hx
        change i < v1.sizeOffline at hi
        show v1.offlineVec i = x
        rw [hfv]
        exact h5 i x (by omega) hx
      · show v1.sizeOffline ≤ v1.offlineCapacity
        omega
      · show v1.onlineCapacity + v1.offlineCapacity < 2 ^ 64
        rw [hc, hoc]; exact h7'
  · rw [if_neg hlt] at h
    simp only [Option.some.injEq] at h
    subst h
    exact ⟨h1, h2, h3, h4, h5, h6, h7'⟩


theorem eq_some_getD {α : Type} (o : Option α) (d : α) (h : o.isSome = true) :
    o = some (o.getD d) := by
  cases o with
  | none => exact absurd h (by simp)
  | some a => rfl

theorem sovInv_apply {T : Type} (v v' : SemiOfflineVector T) (l : List (Option T))
    (op : SovOp T) (hinv : SovInv v l) (hfit : op.fits v = true)
    (h : v.apply op = some v') : SovInv v' (SovOp.step l op) := by
  cases op with
  | insert x =>
    simp only [SemiOfflineVector.apply, Option.map_eq_some'] at h
    obtain ⟨⟨v1, pos⟩, h1, h2⟩ := h
    simp only at h2
    subst h2
    exact sovInv_insert v v1 l x pos hinv h1
  | insertRange xs =>
    simp only [SemiOfflineVector.apply, Option.map_eq_some'] at h
    obtain ⟨⟨v1, pos⟩, h1, h2⟩ := h
    simp only at h2
    subst h2
    simp only [SovOp.fits, decide_eq_true_iff] at hfit
    exact sovInv_insertRange v v1 l xs pos hinv hfit h1
  | write pos x => exact sovInv_write v v' l pos x hinv h
  | resize n =>
    simp only [SovOp.fits, decide_eq_true_iff] at hfit
    exact sovInv_resize v v' l n hinv hfit h
  | ensureOnlineAvailable r =>
    simp only [SovOp.fits, decide_eq_true_iff] at hfit
    exact sovInv_ensureAvailable v v' l r hinv hfit h
  | ensureOnlineFrom b =>
    simp only [SovOp.fits, decide_eq_true_iff] at hfit
    exact sovInv_ensureFrom v v' l b hinv hfit h

theorem sovInv_run {T : Type} :
    ∀ (ops : List (SovOp T)) (v v' : SemiOfflineVector T) (l : List (Option T)),
      SovInv v l → SemiOfflineVector.fitsAll ops v = true →
      SemiOfflineVector.run ops v = some v' → SovInv v' (ops.foldl SovOp.step l) := by
  intro ops
  induction ops with
  | nil =>
    intro v v' l hinv _ h
    simp only [SemiOfflineVector.run, Option.some.injEq] at h
    subst h
    exact hinv
  | cons op rest ih =>
    intro v v' l hinv hfit h
    unfold SemiOfflineVector.run at h
    unfold SemiOfflineVector.fitsAll at hfit
    rw [Bool.and_eq_true] at hfit
    cases ha : v.apply op with
    | none => rw [ha] at h; exact absurd h (by simp)
    | some v1 =>
      rw [ha] at h
      have hf := hfit.2
      rw [ha] at hf
      exact ih v1 v' _ (sovInv_apply v v1 l op hinv hfit.1 ha) hf h

theorem sovInv_new {T : Type} (onlineCapacity offlineCapacity : Nat) (online offline : Nat → T)
    (h : onlineCapacity + offlineCapacity < 2 ^ 64) :
    SovInv (SemiOfflineVector.new onlineCapacity offlineCapacity online offline) [] :=
  ⟨Nat.le_refl _, Nat.zero_le _, rfl, fun i _ _ hi _ => absurd hi (Nat.not_lt_zero i),
    fun i _ hi _ => absurd hi (Nat.not_lt_zero i), Nat.zero_le _, h⟩

/-- Claim C11 fails as stated.  On a vector of online capacity 2, `ensureOnlineFrom(5)` and
`ensureOnlineAvailable(3)` pass every assertion and leave `sizeOffline = 1` above
`sizeTotal = 0`; the range `insert` of three elements passes its assertion and leaves
`sizeTotal = 3` above `sizeOffline + onlineCapacity = 2`, with the third element in the cell
of index 0; and on a vector of online capacity 1 the index 1, written as 12, cut off by
`resize(1)` and created again by `resize(2)`, reads as 10. -/
theorem semiOfflineVector_window_counterexample :
    ((SemiOfflineVector.run [SovOp.ensureOnlineFrom 5, SovOp.ensureOnlineAvailable 3]
        (SemiOfflineVector.new 2 8 (fun _ => 0) (fun _ => 0))).map
      (fun v => (v.sizeOffline, v.sizeTotal)) = some (1, 0)) ∧
    ((SemiOfflineVector.run [SovOp.insertRange [7, 8, 9]]
        (SemiOfflineVector.new 2 8 (fun _ => 0) (fun _ => 0))).map
      (fun v => (v.sizeTotal, v.sizeOffline + v.onlineCapacity, v.get 0)) =
        some (3, 2, some 9)) ∧
    ((SemiOfflineVector.run [SovOp.ensureOnlineFrom 1, SovOp.insert 10,
          SovOp.ensureOnlineAvailable 1, SovOp.insert 12, SovOp.resize 1,
          SovOp.ensureOnlineFrom 0, SovOp.ensureOnlineFrom 1, SovOp.resize 2]
        (SemiOfflineVector.new 1 8 (fun _ => 0) (fun _ => 0))).map
      (fun v => (v.sizeOffline, v.sizeTotal, v.get 1)) = some (1, 2, some 10)) := by
  decide

/-- Claim C11, amended: after a sequence of operations on a new vector that passes every
assertion, in which every range `insert` fits into the free part of the online window and
every `ensureOnlineAvailable` asks for at most `onlineCapacity`, the sizes satisfy
`sizeOffline ≤ sizeTotal ≤ sizeOffline + onlineCapacity`, and `operator[]` returns for
every index of the window the value last written there since the index was created, also
after the element was spilled and paged in again. -/
theorem semiOfflineVector_window {T : Type} (onlineCapacity offlineCapacity : Nat)
    (online offline : Nat → T) (ops : List (SovOp T)) (v : SemiOfflineVector T)
    (hcap : onlineCapacity + offlineCapacity < 2 ^ 64)
    (hfit : SemiOfflineVector.fitsAll ops
      (SemiOfflineVector.new onlineCapacity offlineCapacity online offline) = true)
    (hrun : SemiOfflineVector.run ops
      (SemiOfflineVector.new onlineCapacity offlineCapacity online offline) = some v) :
    v.sizeOffline ≤ v.sizeTotal ∧ v.sizeTotal ≤ v.sizeOffline + v.onlineCapacity ∧
    ∀ i x, v.sizeOffline ≤ i → i < v.sizeTotal →
      (lastWritten ops).getD i none = some x → v.get i = some x := by
  have hinv := sovInv_run ops _ v [] (sovInv_new onlineCapacity offlineCapacity online offline
    hcap) hfit hrun
  refine ⟨hinv.off_le, hinv.tot_le, fun i x hi hi' hx => ?_⟩
  have hw : v.inWindow i = true := by
    rw [inWindow_iff v i (sovInv_bound v _ hinv)]
    exact ⟨hi, by have := hinv.tot_le; omega⟩
  unfold SemiOfflineVector.get
  rw [if_pos hw, hinv.online i x hi hi' hx]

theorem semiOfflineVector_window_witness :
    ((SemiOfflineVector.run [SovOp.ensureOnlineFrom 1, SovOp.insert 10, SovOp.insert 11,
          SovOp.ensureOnlineAvailable 1, SovOp.insertRange [12], SovOp.write 2 13,
          SovOp.resize 2, SovOp.ensureOnlineFrom 0]
        (SemiOfflineVector.new 2 8 (fun _ => 0) (fun _ => 0))).getD
      (SemiOfflineVector.new 2 8 (fun _ => 0) (fun _ => 0))).get 0 = some 10 :=
  (semiOfflineVector_window 2 8 (fun _ => 0) (fun _ => 0)
    [SovOp.ensureOnlineFrom 1, SovOp.insert 10, SovOp.insert 11,
      SovOp.ensureOnlineAvailable 1, SovOp.insertRange [12], SovOp.write 2 13,
      SovOp.resize 2, SovOp.ensureOnlineFrom 0]
    ((SemiOfflineVector.run [SovOp.ensureOnlineFrom 1, SovOp.insert 10, SovOp.insert 11,
          SovOp.ensureOnlineAvailable 1, SovOp.insertRange [12], SovOp.write 2 13,
          SovOp.resize 2, SovOp.ensureOnlineFrom 0]
        (SemiOfflineVector.new 2 8 (fun _ => 0) (fun _ => 0))).getD
      (SemiOfflineVector.new 2 8 (fun _ => 0) (fun _ => 0)))
    (by norm_num) (by decide) (eq_some_getD _ _ (by decide))).2.2 0 10
    (by decide) (by decide) (by decide)


theorem extCount_isolated (edge : Nat → Nat → Bool) (z : Nat) :
    ∀ (k : Nat) (vs : List Nat), vs.length = k → vs.Nodup → z ∉ vs →
      (∀ x ∈ vs, edge z x = false ∧ edge x z = false) →
      extCount edge (z :: vs) = (k + 1) * extCount edge vs := by
  intro k
  induction k with
  | zero =>
    intro vs hl _ _ _
    have : vs = [] := List.length_eq_zero.mp hl
    subst this
    have hp : [z].permutations = [[z]] := by
      simp [List.permutations, List.permutationsAux_cons, List.permutationsAux_nil,
        List.permutationsAux2]
    simp [extCount, isLinExt, hp]
  | succ k ih =>
    intro vs hl hnd hz hiso
    have hne : vs ≠ [] := by intro h; rw [h] at hl; simp at hl
    have hnd' : (z :: vs).Nodup := List.nodup_cons.mpr ⟨hz, hnd⟩
    rw [extCount_first edge (z :: vs) hnd' (by simp)]
    have hzmin : isMinimalIn edge (z :: vs) z = true := by
      unfold isMinimalIn
      rw [List.all_eq_true]
      intro x hx
      rcases List.mem_cons.mp hx with h | h
      · simp [h]
      · simp [(hiso x h).2]
    have hfilter : (z :: vs).filter (fun v => isMinimalIn edge (z :: vs) v) =
        z :: vs.filter (fun v => isMinimalIn edge vs v) := by
      rw [List.filter_cons_of_pos (by simpa using hzmin)]
      congr 1
      apply List.filter_congr
      intro v hv
      unfold isMinimalIn
      rw [List.all_cons, (hiso v hv).1]
      simp
    rw [hfilter, List.map_cons, List.sum_cons, List.erase_cons_head]
    have hmap : (vs.filter (fun v => isMinimalIn edge vs v)).map
        (fun v => extCount edge ((z :: vs).erase v)) =
        (vs.filter (fun v => isMinimalIn edge vs v)).map
          (fun v => (k + 1) * extCount edge (vs.erase v)) := by
      apply List.map_congr_left
      intro v hv
      have hvm : v ∈ vs := (List.mem_filter.mp hv).1
      have hvz : z ≠ v := fun h => hz (h ▸ hvm)
      rw [List.erase_cons_tail (by simpa using hvz)]
      apply ih
      · rw [List.length_erase_of_mem hvm, hl]; rfl
      · exact hnd.erase v
      · exact fun h => hz (List.mem_of_mem_erase h)
      · exact fun x hx => hiso x (List.mem_of_mem_erase hx)
    rw [hmap, List.sum_map_mul_left, ← extCount_first edge vs hnd hne]
    ring

theorem isLinExt_map (edge edge' : Nat → Nat → Bool) (σ : Nat → Nat) (l : List Nat)
    (h : ∀ x ∈ l, ∀ y ∈ l, edge' (σ x) (σ y) = edge x y) :
    isLinExt edge' (l.map σ) = isLinExt edge l := by
  rw [Bool.eq_iff_iff, isLinExt_iff, isLinExt_iff, List.pairwise_map]
  constructor
  · intro hp
    exact hp.imp_of_mem (fun hx hy hxy => by rw [← h _ hy _ hx]; exact hxy)
  · intro hp
    exact hp.imp_of_mem (fun hx hy hxy => by rw [h _ hy _ hx]; exact hxy)

theorem extCount_relabel (edge edge' : Nat → Nat → Bool) (σ : Nat → Nat) (vs : List Nat)
    (h : ∀ x ∈ vs, ∀ y ∈ vs, edge' (σ x) (σ y) = edge x y) :
    extCount edge' (vs.map σ) = extCount edge vs := by
  unfold extCount
  rw [← List.map_permutations, List.filter_map, List.length_map]
  congr 1
  apply List.filter_congr
  intro l hl
  have hp : l.Perm vs := List.mem_permutations.mp hl
  exact isLinExt_map edge edge' σ l
    (fun x hx y hy => h x (hp.mem_iff.mp hx) y (hp.mem_iff.mp hy))

theorem indexOf_lt_pairwise (i j : Nat) :
    ∀ (l : List Nat), l.Nodup → l.indexOf i < l.indexOf j →
      l.Pairwise (fun x y => ¬ (y = i ∧ x = j)) := by
  intro l
  induction l with
  | nil => intro _ _; exact List.Pairwise.nil
  | cons a t ih =>
    intro hnd hlt
    have hnd' := List.nodup_cons.mp hnd
    by_cases haj : a = j
    · subst haj
      rw [List.indexOf_cons_self] at hlt
      exact absurd hlt (Nat.not_lt_zero _)
    · rw [List.pairwise_cons]
      refine ⟨fun y _ hc => haj hc.2, ?_⟩
      by_cases hai : a = i
      · subst hai
        exact (List.pairwise_of_forall (l := t) (fun _ _ => trivial)).imp_of_mem
          (fun _ hy _ hc => hnd'.1 (hc.1 ▸ hy))
      · rw [List.indexOf_cons_ne _ hai, List.indexOf_cons_ne _ haj] at hlt
        exact ih hnd'.2 (by omega)

theorem precedes_eq_ext (edge : Nat → Nat → Bool) (n i j : Nat) (hi : i < n) (hj : j < n)
    (hij : i ≠ j) :
    bruteForcePrecedes edge n i j =
      bruteForceLinExt (fun x y => edge x y || (x == i && y == j)) n := by
  unfold bruteForcePrecedes bruteForceLinExt
  congr 1
  apply List.filter_congr
  intro l hl
  have hp : l.Perm (List.range n) := List.mem_permutations.mp hl
  have hil : i ∈ l := hp.mem_iff.mpr (List.mem_range.mpr hi)
  have hjl : j ∈ l := hp.mem_iff.mpr (List.mem_range.mpr hj)
  have hnd : l.Nodup := hp.nodup_iff.mpr (List.nodup_range n)
  rw [Bool.eq_iff_iff, Bool.and_eq_true, decide_eq_true_iff, isLinExt_iff, isLinExt_iff]
  constructor
  · intro ⟨hp1, hlt⟩
    have h2 := indexOf_lt_pairwise i j l hnd hlt
    refine (hp1.and h2).imp ?_
    intro x y ⟨h1, h3⟩
    rw [Bool.or_eq_false_iff]
    refine ⟨h1, ?_⟩
    rw [Bool.and_eq_false_iff]
    by_cases hy : y = i
    · right
      have : x ≠ j := fun hx => h3 ⟨hy, hx⟩
      simpa using this
    · left; simpa using hy
  · intro hp2
    refine ⟨hp2.imp (fun h => (Bool.or_eq_false_iff.mp h).1), ?_⟩
    exact before_of_edge _ l ((isLinExt_iff _ l).mpr hp2) i j hil hjl (by simp) hij


theorem ext_add_isolated (edge : Nat → Nat → Bool) (M : Nat)
    (hiso : ∀ x, edge M x = false ∧ edge x M = false) :
    bruteForceLinExt edge (M + 1) = (M + 1) * bruteForceLinExt edge M := by
  show extCount edge (List.range (M + 1)) = (M + 1) * extCount edge (List.range M)
  have hp : (List.range (M + 1)).Perm (M :: List.range M) := by
    rw [List.range_succ]
    exact List.perm_append_singleton M (List.range M)
  rw [extCount_congr edge _ _ hp]
  exact extCount_isolated edge M M (List.range M) (List.length_range M) (List.nodup_range M)
    (by simp) (fun x _ => hiso x)

theorem ext_scale (edge : Nat → Nat → Bool) (r : Nat) :
    ∀ (d : Nat), (∀ z, r ≤ z → z < r + d → ∀ x, edge z x = false ∧ edge x z = false) →
      bruteForceLinExt edge (r + d) =
        bruteForceLinExt edge r * ((List.range (r + d + 1)).drop (r + 1)).prod := by
  intro d
  induction d with
  | zero =>
    intro _
    rw [Nat.add_zero, List.drop_of_length_le (by simp), List.prod_nil, Nat.mul_one]
  | succ d ih =>
    intro hiso
    have h1 := ext_add_isolated edge (r + d) (hiso (r + d) (by omega) (by omega))
    have h2 := ih (fun z hz hz' => hiso z hz (by omega))
    rw [show r + (d + 1) = r + d + 1 by omega, h1, h2, List.range_succ (n := r + d + 1),
      List.drop_append_of_le_length (by simp), List.prod_append, List.prod_singleton]
    ring

theorem foldl_mul_mod (M : Nat) : ∀ (l : List Nat) (a : Nat),
    l.foldl (fun res i => (res * i) % M) (a % M) = (a * l.prod) % M := by
  intro l
  induction l with
  | nil => intro a; simp
  | cons x t ih =>
    intro a
    rw [List.foldl_cons, Nat.mod_mul_mod, ih, List.prod_cons, Nat.mul_assoc]

theorem fallingfactorial_eq (W n stop : Nat) :
    fallingfactorial W n stop = ((List.range (n + 1)).drop (stop + 1)).prod % 2 ^ W := by
  unfold fallingfactorial
  rw [foldl_mul_mod, Nat.one_mul, List.prod_reverse]

theorem precedes_auto (edge : Nat → Nat → Bool) (n : Nat) (σ : Nat → Nat)
    (hperm : ((List.range n).map σ).Perm (List.range n))
    (hinj : Function.Injective σ) (haut : ∀ x y, edge (σ x) (σ y) = edge x y)
    (i j : Nat) (hi : i < n) (hj : j < n) (hij : i ≠ j) :
    bruteForcePrecedes edge n (σ i) (σ j) = bruteForcePrecedes edge n i j := by
  have hsi : σ i < n := List.mem_range.mp (hperm.mem_iff.mp
    (List.mem_map.mpr ⟨i, List.mem_range.mpr hi, rfl⟩))
  have hsj : σ j < n := List.mem_range.mp (hperm.mem_iff.mp
    (List.mem_map.mpr ⟨j, List.mem_range.mpr hj, rfl⟩))
  rw [precedes_eq_ext edge n (σ i) (σ j) hsi hsj (fun h => hij (hinj h)),
    precedes_eq_ext edge n i j hi hj hij]
  show extCount _ (List.range n) = extCount _ (List.range n)
  rw [extCount_congr _ _ _ hperm.symm]
  apply extCount_relabel
  intro x _ y _
  simp only [haut]
  congr 1
  rw [Bool.eq_iff_iff]
  simp only [Bool.and_eq_true, beq_iff_eq]
  exact ⟨fun h => ⟨hinj h.1, hinj h.2⟩, fun h => ⟨by rw [h.1], by rw [h.2]⟩⟩

theorem swap_perm_range (n a b : Nat) (ha : a < n) (hb : b < n) :
    ((List.range n).map (Equiv.swap a b)).Perm (List.range n) := by
  rw [List.perm_ext_iff_of_nodup ((List.nodup_range n).map (Equiv.swap a b).injective)
    (List.nodup_range n)]
  intro x
  simp only [List.mem_map, List.mem_range]
  constructor
  · rintro ⟨y, hy, rfl⟩
    by_cases h1 : y = a
    · rw [h1, Equiv.swap_apply_left]; exact hb
    · by_cases h2 : y = b
      · rw [h2, Equiv.swap_apply_right]; exact ha
      · rw [Equiv.swap_apply_of_ne_of_ne h1 h2]; exact hy
  · intro hx
    refine ⟨Equiv.swap a b x, ?_, Equiv.swap_apply_self a b x⟩
    by_cases h1 : x = a
    · rw [h1, Equiv.swap_apply_left]; exact hb
    · by_cases h2 : x = b
      · rw [h2, Equiv.swap_apply_right]; exact ha
      · rw [Equiv.swap_apply_of_ne_of_ne h1 h2]; exact hx

theorem swap_aut (edge : Nat → Nat → Bool) (a b : Nat)
    (ha : ∀ x, edge a x = false ∧ edge x a = false)
    (hb : ∀ x, edge b x = false ∧ edge x b = false) (x y : Nat) :
    edge (Equiv.swap a b x) (Equiv.swap a b y) = edge x y := by
  by_cases hx1 : x = a
  · rw [hx1, Equiv.swap_apply_left, (hb _).1, (ha _).1]
  · by_cases hx2 : x = b
    · rw [hx2, Equiv.swap_apply_right, (ha _).1, (hb _).1]
    · rw [Equiv.swap_apply_of_ne_of_ne hx1 hx2]
      by_cases hy1 : y = a
      · rw [hy1, Equiv.swap_apply_left, (hb _).2, (ha _).2]
      · by_cases hy2 : y = b
        · rw [hy2, Equiv.swap_apply_right, (ha _).2, (hb _).2]
        · rw [Equiv.swap_apply_of_ne_of_ne hy1 hy2]

theorem precedes_swap (edge : Nat → Nat → Bool) (n a b : Nat) (han : a < n) (hbn : b < n)
    (ha : ∀ x, edge a x = false ∧ edge x a = false)
    (hb : ∀ x, edge b x = false ∧ edge x b = false)
    (i j : Nat) (hi : i < n) (hj : j < n) (hij : i ≠ j) :
    bruteForcePrecedes edge n (Equiv.swap a b i) (Equiv.swap a b j) =
      bruteForcePrecedes edge n i j :=
  precedes_auto edge n (Equiv.swap a b) (swap_perm_range n a b han hbn)
    (Equiv.swap a b).injective (swap_aut edge a b ha hb) i j hi hj hij

theorem precedes_scale (edge : Nat → Nat → Bool) (r d i j : Nat) (hi : i < r) (hj : j < r)
    (hij : i ≠ j)
    (hiso : ∀ z, r ≤ z → z < r + d → ∀ x, edge z x = false ∧ edge x z = false) :
    bruteForcePrecedes edge (r + d) i j =
      bruteForcePrecedes edge r i j * ((List.range (r + d + 1)).drop (r + 1)).prod := by
  rw [precedes_eq_ext edge (r + d) i j (by omega) (by omega) hij,
    precedes_eq_ext edge r i j hi hj hij]
  apply ext_scale
  intro z hz hz' x
  have := hiso z hz hz' x
  have hzi : z ≠ i := by omega
  have hzj : z ≠ j := by omega
  simp [this.1, this.2, hzi, hzj]

theorem precedes_two_singletons (edge : Nat → Nat → Bool) (n a b : Nat) (han : a < n)
    (hbn : b < n) (hab : a ≠ b)
    (ha : ∀ x, edge a x = false ∧ edge x a = false)
    (hb : ∀ x, edge b x = false ∧ edge x b = false) :
    bruteForcePrecedes edge n a b = bruteForceLinExt edge n / 2 := by
  have h1 := precedes_swap edge n a b han hbn ha hb a b han hbn hab
  rw [Equiv.swap_apply_left, Equiv.swap_apply_right] at h1
  have h2 := precedes_add edge n a b han hab
  omega


theorem wide_spec (NUMEL alloc : Nat) (down0 up0 : Nat → Nat) (poset : PosetObj)
    (fillTable : Bool) (n : Nat) (hn : n ≤ NUMEL) (hN : NUMEL < 25)
    (hguard : ∀ e, e < n → downSetCount (poset.is_edge NUMEL) e < alloc / 2) :
    ∃ r, calculateLinExtensionsNew (linExtTBits NUMEL) NUMEL alloc false down0 up0 poset
        fillTable n = some r ∧
      r.1 = bruteForceLinExt (poset.is_edge NUMEL) n ∧
      (fillTable = true →
        (∀ i j, i < n → j < n → i ≠ j →
          fillFullTable (linExtTBits NUMEL) r.2 r.1 n i j =
            bruteForcePrecedes (poset.is_edge NUMEL) n i j) ∧
        ∀ i, fillFullTable (linExtTBits NUMEL) r.2 r.1 n i i = 0) := by
  have hfst := calc_fst (linExtTBits NUMEL) NUMEL alloc down0 up0 poset fillTable n (by omega)
  rw [if_pos hguard] at hfst
  have hb : bruteForceLinExt (poset.is_edge NUMEL) n < 2 ^ linExtTBits NUMEL := by
    calc bruteForceLinExt (poset.is_edge NUMEL) n
        ≤ (List.range n).length.factorial := extCount_le_factorial _ _
      _ = n.factorial := by rw [List.length_range]
      _ < 2 ^ linExtTBits NUMEL := factorial_lt_linExtT NUMEL n hn (by omega)
  rw [Nat.mod_eq_of_lt hb, Option.map_eq_some'] at hfst
  obtain ⟨r, hr, h1⟩ := hfst
  refine ⟨r, hr, h1, fun hft => ?_⟩
  subst hft
  obtain ⟨_, g2⟩ := calc_table_full _ NUMEL alloc down0 up0 poset n (by omega) r hr
  refine ⟨fun i j hi hj hij => ?_, fun i => ?_⟩
  · rw [g2 i j hi hj hij]
    exact Nat.mod_eq_of_lt (lt_of_le_of_lt (precedes_le _ n i j) hb)
  · unfold fillFullTable
    rw [if_neg (by omega), calc_table _ NUMEL alloc down0 up0 poset n (by omega) r hr i i]
    have : (List.map (fun T => contrib (poset.is_edge NUMEL) n (inVertexMask NUMEL poset n) T i i)
        (downSets (inVertexMask NUMEL poset n) n)) =
        List.map (fun _ => 0) (downSets (inVertexMask NUMEL poset n) n) := by
      apply List.map_congr_left
      intro T _
      unfold contrib
      rw [if_neg (by omega)]
    rw [this]
    simp


/-- Claim C12: for a poset whose `K ≥ 2` singletons are the last `K` vertices
(`NUMEL < 25`, `N ≤ NUMEL`, the capacity guard of the sweep holding on the reduced poset),
`calculateLinExtensionsSingleton` returns the number of linear extensions of the whole
poset on `N` vertices; with `fillTable` the entry `[i][j]` is, for all distinct `i, j < N`,
the number of those extensions in which `i` precedes `j`, it is `e_p / 2` between two
different singletons and `0` on their diagonal, and the rows and columns of the further
singletons are copies of those of the first singleton. -/
theorem singleton_count_spec (cfg : NCT) (alloc : Nat) (scratch : Nat → Nat)
    (linExtTable : Nat → Nat → Nat) (poset : PosetObj) (info : PosetInfo) (c : Nat)
    (fillTable overflowCheck : Bool)
    (hN : cfg.MAXN < 25) (hn : cfg.N ≤ cfg.MAXN)
    (hK : 2 ≤ info.numSingletons) (hKN : info.numSingletons ≤ cfg.N)
    (hsing : ∀ z, cfg.N - info.numSingletons ≤ z → z < cfg.N →
      ∀ x, poset.is_edge cfg.MAXN z x = false ∧ poset.is_edge cfg.MAXN x z = false)
    (hguard : ∀ e, e < cfg.N - info.numSingletons + 1 →
      downSetCount (poset.is_edge cfg.MAXN) e < alloc / 2) :
    ∃ t, calculateLinExtensionsSingleton cfg alloc scratch linExtTable poset info c fillTable
        overflowCheck = some (bruteForceLinExt (poset.is_edge cfg.MAXN) cfg.N, t) ∧
      (fillTable = true →
        (∀ i j, i < cfg.N → j < cfg.N → i ≠ j →
          t i j = bruteForcePrecedes (poset.is_edge cfg.MAXN) cfg.N i j) ∧
        (∀ i j, cfg.N - info.numSingletons ≤ i → i < cfg.N →
          cfg.N - info.numSingletons ≤ j → j < cfg.N →
          t i j = if i ≠ j then bruteForceLinExt (poset.is_edge cfg.MAXN) cfg.N / 2 else 0) ∧
        (∀ i j, i < cfg.N - info.numSingletons → cfg.N - info.numSingletons < j → j < cfg.N →
          t i j = t i (cfg.N - info.numSingletons)) ∧
        (∀ i j, cfg.N - info.numSingletons < i → i < cfg.N → j < cfg.N - info.numSingletons →
          t i j = t (cfg.N - info.numSingletons) j)) := by
  obtain ⟨MAXN, N, C⟩ := cfg
  obtain ⟨K, P⟩ := info
  simp only at hN hn hK hKN hsing hguard ⊢
  have hred : (N + 2 ^ 32 - K + 1) % 2 ^ 32 = N - K + 1 := by
    rw [show (2 : Nat) ^ 32 = 4294967296 by norm_num]; omega
  obtain ⟨r, hr, hr1, hr2⟩ := wide_spec MAXN alloc scratch scratch poset fillTable (N - K + 1)
    (by omega) hN hguard
  have hiso : ∀ z, N - K + 1 ≤ z → z < N - K + 1 + (K - 1) →
      ∀ x, poset.is_edge MAXN z x = false ∧ poset.is_edge MAXN x z = false :=
    fun z hz hz' => hsing z (by omega) (by omega)
  have hNeq : N - K + 1 + (K - 1) = N := by omega
  have hEN := ext_scale (poset.is_edge MAXN) (N - K + 1) (K - 1) hiso
  rw [hNeq] at hEN
  have hbN : bruteForceLinExt (poset.is_edge MAXN) N < 2 ^ linExtTBits MAXN := by
    calc bruteForceLinExt (poset.is_edge MAXN) N
        ≤ (List.range N).length.factorial := extCount_le_factorial _ _
      _ = N.factorial := by rw [List.length_range]
      _ < 2 ^ linExtTBits MAXN := factorial_lt_linExtT MAXN N hn (by omega)
  have hep : (r.1 * fallingfactorial (linExtTBits MAXN) N (N - K + 1)) % 2 ^ linExtTBits MAXN =
      bruteForceLinExt (poset.is_edge MAXN) N := by
    rw [fallingfactorial_eq, Nat.mul_mod_mod, hr1, ← hEN, Nat.mod_eq_of_lt hbN]
  unfold calculateLinExtensionsSingleton
  simp only
  rw [if_neg (by omega), hred, hr]
  simp only [Option.map_some', hep]
  refine ⟨_, rfl, fun hft => ?_⟩
  subst hft
  obtain ⟨hp, hd⟩ := hr2 rfl
  simp only [if_true]
  -- the scaled table of the reduced poset
  have ht1 : ∀ i j, i < N - K + 1 → j < N - K + 1 → i ≠ j →
      (fillFullTable (linExtTBits MAXN) r.2 r.1 (N - K + 1) i j *
        fallingfactorial (linExtTBits MAXN) N (N - K + 1)) % 2 ^ linExtTBits MAXN =
      bruteForcePrecedes (poset.is_edge MAXN) N i j := by
    intro i j hi hj hij
    have hs := precedes_scale (poset.is_edge MAXN) (N - K + 1) (K - 1) i j hi hj hij hiso
    rw [hNeq] at hs
    rw [hp i j hi hj hij, fallingfactorial_eq, Nat.mul_mod_mod, ← hs]
    exact Nat.mod_eq_of_lt (lt_of_le_of_lt (precedes_le _ N i j) hbN)
  have hsg : ∀ z, N - K ≤ z → z < N →
      ∀ x, poset.is_edge MAXN z x = false ∧ poset.is_edge MAXN x z = false := hsing
  refine ⟨fun i j hi hj hij => ?_, fun i j hi hi' hj hj' => ?_, fun i j hi hj hj' => ?_,
    fun i j hi hi' hj => ?_⟩
  · unfold singletonTable
    rw [if_pos ⟨hi, hj⟩]
    by_cases c1 : i ≤ N - K ∧ j ≤ N - K
    · rw [if_pos c1]
      beta_reduce
      rw [if_pos ⟨by omega, by omega⟩]
      exact ht1 i j (by omega) (by omega) hij
    · rw [if_neg c1]
      by_cases c2 : i < N - K ∧ j > N - K
      · rw [if_pos c2]
        beta_reduce
        rw [if_pos ⟨by omega, by omega⟩, ht1 i (N - K) (by omega) (by omega) (by omega)]
        have := precedes_swap (poset.is_edge MAXN) N (N - K) j (by omega) hj
          (hsg (N - K) (Nat.le_refl _) (by omega)) (hsg j (by omega) hj) i (N - K) hi
          (by omega) (by omega)
        rw [Equiv.swap_apply_left,
          Equiv.swap_apply_of_ne_of_ne (by omega) (by omega)] at this
        exact this.symm
      · rw [if_neg c2]
        by_cases c3 : i > N - K ∧ j < N - K
        · rw [if_pos c3]
          beta_reduce
          rw [if_pos ⟨by omega, by omega⟩, ht1 (N - K) j (by omega) (by omega) (by omega)]
          have := precedes_swap (poset.is_edge MAXN) N (N - K) i (by omega) hi
            (hsg (N - K) (Nat.le_refl _) (by omega)) (hsg i (by omega) hi) (N - K) j
            (by omega) hj (by omega)
          rw [Equiv.swap_apply_left,
            Equiv.swap_apply_of_ne_of_ne (by omega) (by omega)] at this
          exact this.symm
        · rw [if_neg c3, if_pos ⟨by omega, by omega⟩, if_pos hij]
          exact (precedes_two_singletons (poset.is_edge MAXN) N i j hi hj hij
            (hsg i (by omega) hi) (hsg j (by omega) hj)).symm
  · unfold singletonTable
    rw [if_pos ⟨hi', hj'⟩]
    by_cases c1 : i ≤ N - K ∧ j ≤ N - K
    · have hi0 : i = N - K := by omega
      have hj0 : j = N - K := by omega
      rw [if_pos c1]
      beta_reduce
      rw [if_pos ⟨by omega, by omega⟩, hi0, hj0, hd, Nat.zero_mul, Nat.zero_mod,
        if_neg (by simp)]
    · rw [if_neg c1, if_neg (by omega), if_neg (by omega), if_pos ⟨hi, hj⟩]
  · unfold singletonTable
    rw [if_pos ⟨by omega, hj'⟩, if_neg (by omega), if_pos ⟨hi, hj⟩,
      if_pos ⟨by omega, by omega⟩, if_pos ⟨by omega, Nat.le_refl _⟩]
  · unfold singletonTable
    rw [if_pos ⟨hi', by omega⟩, if_neg (by omega), if_neg (by omega), if_pos ⟨hi, hj⟩,
      if_pos ⟨by omega, by omega⟩, if_pos ⟨Nat.le_refl _, by omega⟩]


theorem singleton_count_spec_witness :
    ∃ t, calculateLinExtensionsSingleton ⟨4, 4, 5⟩ 84 (fun _ => 0) (fun _ _ => 0)
        (PosetObj.mk 1 SortableStatus.UNFINISHED true false false) ⟨2, 1⟩ 0 true false =
          some (bruteForceLinExt
            (PosetObj.is_edge 4 (PosetObj.mk 1 SortableStatus.UNFINISHED true false false)) 4,
            t) ∧
      t 0 1 = bruteForcePrecedes
        (PosetObj.is_edge 4 (PosetObj.mk 1 SortableStatus.UNFINISHED true false false)) 4 0 1 ∧
      t 2 3 = bruteForceLinExt
        (PosetObj.is_edge 4 (PosetObj.mk 1 SortableStatus.UNFINISHED true false false)) 4 / 2 ∧
      t 0 3 = t 0 2 :=
  have hedge : ∀ z, 4 - 2 ≤ z → z < 4 → ∀ x,
      PosetObj.is_edge 4 (PosetObj.mk 1 SortableStatus.UNFINISHED true false false) z x = false ∧
      PosetObj.is_edge 4 (PosetObj.mk 1 SortableStatus.UNFINISHED true false false) x z = false := by
    intro z hz hz' x
    have hbit : ∀ k, 0 < k → Nat.testBit 1 k = false := by
      intro k hk
      have := testBit_one_shiftLeft 0 k
      rw [Nat.shiftLeft_zero] at this
      rw [this]
      simp; omega
    have hz2 : z = 2 ∨ z = 3 := by omega
    constructor
    · unfold PosetObj.is_edge PosetObj.graphGet
      split
      · rfl
      · rcases hz2 with h | h <;> subst h
        · exact hbit _ (by simp [jOffset])
        · exact hbit _ (by simp [jOffset])
    · unfold PosetObj.is_edge PosetObj.graphGet
      split
      · rfl
      · rcases hz2 with h | h <;> subst h
        · have hx : x = 0 ∨ x = 1 := by omega
          rcases hx with h | h <;> subst h <;> decide
        · have hx : x = 0 ∨ x = 1 ∨ x = 2 := by omega
          rcases hx with h | h | h <;> subst h <;> decide
  match singleton_count_spec ⟨4, 4, 5⟩ 84 (fun _ => 0) (fun _ _ => 0)
      (PosetObj.mk 1 SortableStatus.UNFINISHED true false false) ⟨2, 1⟩ 0 true false
      (by decide) (by decide) (by decide) (by decide) hedge (by decide) with
  | ⟨t, h1, h2⟩ =>
    ⟨t, h1, by
      obtain ⟨a, b, c, _⟩ := h2 rfl
      exact ⟨a 0 1 (by decide) (by decide) (by decide),
        (b 2 3 (by decide) (by decide) (by decide) (by decide)).trans (if_pos (by decide)),
        c 0 3 (by decide) (by decide) (by decide)⟩⟩


theorem extCount_cons_le (edge : Nat → Nat → Bool) (z : Nat) :
    ∀ (k : Nat) (vs : List Nat), vs.length = k → (z :: vs).Nodup →
      extCount edge (z :: vs) ≤ (k + 1) * extCount edge vs := by
  intro k
  induction k with
  | zero =>
    intro vs hl _
    have : vs = [] := List.length_eq_zero.mp hl
    subst this
    have hp : [z].permutations = [[z]] := by
      simp [List.permutations, List.permutationsAux_cons, List.permutationsAux_nil,
        List.permutationsAux2]
    simp [extCount, isLinExt, hp]
  | succ k ih =>
    intro vs hl hnd'
    have hnd := (List.nodup_cons.mp hnd').2
    have hz := (List.nodup_cons.mp hnd').1
    have hne : vs ≠ [] := by intro h; rw [h] at hl; simp at hl
    rw [extCount_first edge (z :: vs) hnd' (by simp)]
    have hsub : ((z :: vs).filter (fun v => isMinimalIn edge (z :: vs) v)).Sublist
        (z :: vs.filter (fun v => isMinimalIn edge vs v)) := by
      have h1 : ((z :: vs).filter (fun v => isMinimalIn edge (z :: vs) v)).Sublist
          (z :: vs.filter (fun v => isMinimalIn edge (z :: vs) v)) := by
        by_cases hp : isMinimalIn edge (z :: vs) z = true
        · rw [List.filter_cons_of_pos hp]
        · rw [List.filter_cons_of_neg hp]
          exact List.sublist_cons_self _ _
      refine h1.trans (List.Sublist.cons₂ z ?_)
      apply List.monotone_filter_right
      intro v hv
      unfold isMinimalIn at hv ⊢
      rw [List.all_cons, Bool.and_eq_true] at hv
      exact hv.2
    have h2 := (hsub.map (fun v => extCount edge ((z :: vs).erase v))).sum_le_sum
      (fun a _ => Nat.zero_le a)
    refine h2.trans ?_
    rw [List.map_cons, List.sum_cons, List.erase_cons_head]
    have h3 : ((vs.filter (fun v => isMinimalIn edge vs v)).map
        (fun v => extCount edge ((z :: vs).erase v))).sum ≤
        ((vs.filter (fun v => isMinimalIn edge vs v)).map
          (fun v => (k + 1) * extCount edge (vs.erase v))).sum := by
      apply List.sum_le_sum
      intro v hv
      have hvm : v ∈ vs := (List.mem_filter.mp hv).1
      have hvz : z ≠ v := fun h => hz (h ▸ hvm)
      rw [List.erase_cons_tail (by simpa using hvz)]
      apply ih
      · rw [List.length_erase_of_mem hvm, hl]; rfl
      · exact List.nodup_cons.mpr ⟨fun h => hz (List.mem_of_mem_erase h), hnd.erase v⟩
    rw [List.sum_map_mul_left, ← extCount_first edge vs hnd hne] at h3
    calc extCount edge vs + _ ≤ extCount edge vs + (k + 1) * extCount edge vs :=
          Nat.add_le_add_left h3 _
      _ = (k + 1 + 1) * extCount edge vs := by ring

theorem ext_succ_le (edge : Nat → Nat → Bool) (e : Nat) :
    extCount edge (List.range (e + 1)) ≤ (e + 1) * extCount edge (List.range e) := by
  have hp : (List.range (e + 1)).Perm (e :: List.range e) := by
    rw [List.range_succ]
    exact List.perm_append_singleton e (List.range e)
  rw [extCount_congr edge _ _ hp]
  exact extCount_cons_le edge e e (List.range e) (List.length_range e)
    (List.nodup_cons.mpr ⟨by simp, List.nodup_range e⟩)

theorem extCount_append_ge (edge : Nat → Nat → Bool) (vs ws l0 : List Nat)
    (hnd : (vs ++ ws).Nodup) (hl0 : l0.Perm ws) (hlin : isLinExt edge l0 = true)
    (hcross : ∀ x ∈ vs, ∀ y ∈ ws, edge y x = false) :
    extCount edge vs ≤ extCount edge (vs ++ ws) := by
  have hvs : vs.Nodup := (List.nodup_append.mp hnd).1
  rw [extCount_eq_card edge vs hvs, extCount_eq_card edge _ hnd]
  rw [← Finset.card_image_of_injective _ (fun a b h => List.append_cancel_right h :
    Function.Injective (fun l : List Nat => l ++ l0))]
  apply Finset.card_le_card
  intro l hl
  simp only [Finset.mem_image, List.mem_toFinset, mem_ext] at hl ⊢
  obtain ⟨l1, ⟨hp, hv⟩, rfl⟩ := hl
  refine ⟨hp.append hl0, ?_⟩
  rw [isLinExt_append]
  exact ⟨hv, hlin, fun x hx y hy => hcross x (hp.mem_iff.mp hx) y (hl0.mem_iff.mp hy)⟩

theorem extCount_prepend_ge (edge : Nat → Nat → Bool) (vs ws l0 : List Nat)
    (hnd : (vs ++ ws).Nodup) (hl0 : l0.Perm vs) (hlin : isLinExt edge l0 = true)
    (hcross : ∀ x ∈ vs, ∀ y ∈ ws, edge y x = false) :
    extCount edge ws ≤ extCount edge (vs ++ ws) := by
  have hws : ws.Nodup := (List.nodup_append.mp hnd).2.1
  rw [extCount_eq_card edge ws hws, extCount_eq_card edge _ hnd]
  rw [← Finset.card_image_of_injective _ (fun a b h => List.append_cancel_left h :
    Function.Injective (fun l : List Nat => l0 ++ l))]
  apply Finset.card_le_card
  intro l hl
  simp only [Finset.mem_image, List.mem_toFinset, mem_ext] at hl ⊢
  obtain ⟨l1, ⟨hp, hv⟩, rfl⟩ := hl
  refine ⟨hl0.append hp, ?_⟩
  rw [isLinExt_append]
  exact ⟨hlin, hv, fun x hx y hy => hcross x (hl0.mem_iff.mp hx) y (hp.mem_iff.mp hy)⟩

theorem isLinExt_sorted (edge : Nat → Nat → Bool) (hfwd : ∀ j k, edge j k = true → j < k)
    (l : List Nat) (hl : l.Pairwise (fun a b => a < b)) : isLinExt edge l = true := by
  rw [isLinExt_iff]
  apply hl.imp
  intro a b hab
  cases h : edge b a with
  | false => rfl
  | true => have := hfwd b a h; omega

theorem closed_counts_le {edge : Nat → Nat → Bool} {n : Nat} {inM outM : Nat → Nat}
    (hs : MaskSpec edge n inM outM) (m : Nat) (hm : m ∈ downSets inM n) :
    extCount edge (bitsOf m) ≤ extCount edge (List.range n) ∧
    extCount edge (bitsOf (bnot32 m &&& (2 ^ n - 1))) ≤ extCount edge (List.range n) := by
  have hn32 : n ≤ 32 := le_of_lt hs.hn
  obtain ⟨hlt, hcl⟩ := (mem_downSets hs n (le_refl _) m).mp hm
  have hclt : bnot32 m &&& (2 ^ n - 1) < 2 ^ n :=
    lt_of_le_of_lt Nat.and_le_right (Nat.sub_lt (by positivity) (by norm_num))
  have hb1 := bitsOf_lt m n hn32 hlt
  have hb2 : bitsOf (bnot32 m &&& (2 ^ n - 1)) =
      (List.range n).filter (fun i => !m.testBit i) := by
    rw [bitsOf_lt _ n hn32 hclt]
    apply List.filter_congr
    intro x hx
    rw [testBit_comp n m x hn32]
    simp [List.mem_range.mp hx]
  have hperm : (bitsOf m ++ bitsOf (bnot32 m &&& (2 ^ n - 1))).Perm (List.range n) := by
    rw [hb1, hb2]
    exact List.filter_append_perm _ _
  have hnd : (bitsOf m ++ bitsOf (bnot32 m &&& (2 ^ n - 1))).Nodup :=
    hperm.nodup_iff.mpr (List.nodup_range n)
  have hsort : ∀ x, (bitsOf x).Pairwise (fun a b => a < b) := fun x =>
    (List.pairwise_lt_range 32).filter _
  have hcross : ∀ x ∈ bitsOf m, ∀ y ∈ bitsOf (bnot32 m &&& (2 ^ n - 1)), edge y x = false := by
    intro x hx y hy
    rw [mem_bitsOf] at hx
    rw [mem_bitsOf_comp n m y hn32] at hy
    cases h : edge y x with
    | false => rfl
    | true =>
      have := hcl y x h hx.2
      rw [hy.2] at this
      exact absurd this (by simp)
  rw [← extCount_congr edge _ _ hperm]
  exact ⟨extCount_append_ge edge _ _ _ hnd (List.Perm.refl _)
      (isLinExt_sorted edge hs.hfwd _ (hsort _)) hcross,
    extCount_prepend_ge edge _ _ _ hnd (List.Perm.refl _)
      (isLinExt_sorted edge hs.hfwd _ (hsort _)) hcross⟩


theorem downSets_mem_full {edge : Nat → Nat → Bool} {n : Nat} {inM outM : Nat → Nat}
    (hs : MaskSpec edge n inM outM) (e : Nat) (he : e ≤ n) : 2 ^ e - 1 ∈ downSets inM e := by
  rw [mem_downSets hs e he]
  refine ⟨Nat.sub_lt (by positivity) (by norm_num), ?_⟩
  intro u v huv hv
  rw [Nat.testBit_two_pow_sub_one] at hv ⊢
  have := hs.hfwd u v huv
  simp only [decide_eq_true_eq] at hv ⊢
  omega

theorem downSets_getLastD {edge : Nat → Nat → Bool} {n : Nat} {inM outM : Nat → Nat}
    (hs : MaskSpec edge n inM outM) (e : Nat) (he : e ≤ n) :
    (downSets inM e).getLastD 0 = 2 ^ e - 1 := by
  have hmem := downSets_mem_full hs e he
  have hne : downSets inM e ≠ [] := List.ne_nil_of_mem hmem
  have hlast : (downSets inM e).getLast hne = 2 ^ e - 1 := by
    have hsorted := downSets_sorted inM e
    have hl := List.getLast_mem hne
    have hl_lt := downSets_lt inM e _ hl
    by_contra hc
    have hlt : (downSets inM e).getLast hne < 2 ^ e - 1 := by omega
    rw [← List.dropLast_append_getLast hne] at hsorted hmem
    rw [List.mem_append, List.mem_singleton] at hmem
    rcases hmem with h | h
    · rw [List.pairwise_append] at hsorted
      have := hsorted.2.2 _ h _ (List.mem_singleton_self _)
      omega
    · omega
  rw [List.getLastD_eq_getLast?, List.getLast?_eq_getLast _ hne, hlast]
  rfl

theorem fwdLoop_checked {edge : Nat → Nat → Bool} {n : Nat} {inM outM : Nat → Nat}
    (hs : MaskSpec edge n inM outM) (MAXN alloc : Nat) (hM : n ≤ MAXN) :
    ∀ (k e : Nat) (st : FwdState), e + k = n → st.sets = downSets inM e →
      (∀ m ∈ st.sets, st.down m = extCount edge (bitsOf m) % 2 ^ 32) →
      extCount edge (List.range e) < 2 ^ 32 →
      (∀ e', e ≤ e' → e' < n → (downSets inM e').length < alloc / 2) →
      fwdLoop 32 MAXN alloc true inM outM (List.range' e k) st = FwdResult.overflow ∨
      ∃ st', fwdLoop 32 MAXN alloc true inM outM (List.range' e k) st = FwdResult.done st' ∧
        st'.sets = downSets inM n ∧
        (∀ m ∈ st'.sets, st'.down m = extCount edge (bitsOf m) % 2 ^ 32) ∧
        extCount edge (List.range n) < 2 ^ 32 := by
  intro k
  induction k with
  | zero =>
    intro e st hek hsets hd hX _
    right
    have : e = n := by omega
    subst this
    exact ⟨st, rfl, hsets, hd, hX⟩
  | succ k ih =>
    intro e st hek hsets hd hX hg
    have he : e < n := by omega
    have hn32 : n ≤ 32 := le_of_lt hs.hn
    rw [List.range'_succ]
    have hg0 : ¬ st.sets.length ≥ alloc / 2 := by
      rw [hsets]; have := hg e (le_refl _) he; omega
    have hlastv : st.down (st.sets.getLastD 0) = extCount edge (List.range e) := by
      rw [hsets, downSets_getLastD hs e (by omega),
        hd _ (hsets ▸ downSets_mem_full hs e (by omega)), bitsOf_full e (by omega),
        Nat.mod_eq_of_lt hX]
    by_cases hov : extCount edge (List.range e) > (2 ^ 32 - 1) / MAXN
    · left
      unfold fwdLoop
      rw [if_neg hg0, hlastv, if_pos (by simpa using hov)]
    · have hstep : fwdLoop 32 MAXN alloc true inM outM (e :: List.range' (e + 1) k) st =
          fwdLoop 32 MAXN alloc true inM outM (List.range' (e + 1) k)
            (st.sets.foldl (fwdVisit 32 inM outM e) st) := by
        conv_lhs => unfold fwdLoop
        rw [if_neg hg0, hlastv, if_neg (by simpa using hov)]
      rw [hstep]
      have hsets' : (st.sets.foldl (fwdVisit 32 inM outM e) st).sets = downSets inM (e + 1) := by
        rw [fwdVisit_fold_sets, hsets]; rfl
      have hd' := fwd_block hs 32 e he st.sets [] st (by simp [hsets]) (by simp [hsets]) hd
      have hX' : extCount edge (List.range (e + 1)) < 2 ^ 32 := by
        have h1 := ext_succ_le edge e
        have h2 : (e + 1) * extCount edge (List.range e) ≤ MAXN * ((2 ^ 32 - 1) / MAXN) :=
          Nat.mul_le_mul (by omega) (by omega)
        have h3 : MAXN * ((2 ^ 32 - 1) / MAXN) ≤ 2 ^ 32 - 1 := Nat.mul_div_le _ _
        have h4 : (2 : Nat) ^ 32 - 1 < 2 ^ 32 := by norm_num
        omega
      exact ih (e + 1) _ (by omega) hsets' hd' hX' (fun e' h1 h2 => hg e' (by omega) h2)

theorem bwd_loop_up {edge : Nat → Nat → Bool} {n : Nat} {inM outM : Nat → Nat}
    (hs : MaskSpec edge n inM outM) (w : Nat) (down : Nat → Nat)
    (hdown : ∀ m ∈ downSets inM n, down m = extCount edge (bitsOf m) % 2 ^ w) :
    ∀ (front back : List Nat) (st : BwdState),
      front ++ back = downSets inM n → 2 ^ n - 1 ∈ back →
      (∀ T ∈ back, st.up T = extCount edge (bitsOf (bnot32 T &&& (2 ^ n - 1))) % 2 ^ w) →
      (∀ a b, st.t a b = (back.map (fun T => contrib edge n inM T a b)).sum % 2 ^ w) →
      ∀ T ∈ downSets inM n, (front.reverse.foldl (bwdVisit w n inM down (2 ^ n - 1)) st).up T =
        extCount edge (bitsOf (bnot32 T &&& (2 ^ n - 1))) % 2 ^ w := by
  intro front
  induction front using List.reverseRecOn with
  | nil =>
    intro back st hsplit _ hup _ T hT
    simp only [List.nil_append] at hsplit
    rw [← hsplit] at hT
    exact hup T hT
  | append_singleton front S ih =>
    intro back st hsplit hfull hup ht
    have hsplit' : front ++ S :: back = downSets inM n := by simpa using hsplit
    obtain ⟨h1, h2⟩ := bwd_visit_inv hs w down hdown front back S st hsplit' hfull hup ht
    rw [List.reverse_append, List.reverse_singleton, List.singleton_append, List.foldl_cons]
    exact ih (S :: back) _ hsplit' (List.mem_cons_of_mem _ hfull) h1 h2


theorem fwd32_poset (MAXN alloc : Nat) (down0 : Nat → Nat) (poset : PosetObj) (n : Nat)
    (hn : n ≤ MAXN) (hN : MAXN < 32)
    (hguard : ∀ e, e < n → downSetCount (poset.is_edge MAXN) e < alloc / 2) :
    fwdLoop 32 MAXN alloc true (inVertexMask MAXN poset n) (outVertexMask MAXN poset n)
        (List.range n) { sets := [0], down := setCell down0 0 (1 % 2 ^ 32) } =
          FwdResult.overflow ∨
    ∃ st', fwdLoop 32 MAXN alloc true (inVertexMask MAXN poset n) (outVertexMask MAXN poset n)
        (List.range n) { sets := [0], down := setCell down0 0 (1 % 2 ^ 32) } =
          FwdResult.done st' ∧
      st'.sets = downSets (inVertexMask MAXN poset n) n ∧
      (∀ m ∈ st'.sets, st'.down m = extCount (poset.is_edge MAXN) (bitsOf m)) ∧
      bruteForceLinExt (poset.is_edge MAXN) n < 2 ^ 32 := by
  have hs := maskSpec_poset MAXN poset n (by omega)
  have hb0 : bitsOf 0 = [] := by
    unfold bitsOf; rw [List.filter_eq_nil_iff]; intro a _; simp
  have h0 : ∀ m ∈ ({ sets := [0], down := setCell down0 0 (1 % 2 ^ 32) } : FwdState).sets,
      ({ sets := [0], down := setCell down0 0 (1 % 2 ^ 32) } : FwdState).down m =
        extCount (poset.is_edge MAXN) (bitsOf m) % 2 ^ 32 := by
    intro m hm
    simp only [List.mem_singleton] at hm
    subst hm
    simp [setCell, hb0, extCount_nil]
  rw [List.range_eq_range']
  rcases fwdLoop_checked hs MAXN alloc hn n 0 _ (by omega) rfl h0
      (by rw [List.range_zero, extCount_nil]; norm_num)
      (fun e' _ h2 => by rw [downSets_length hs e' (by omega)]; exact hguard e' h2) with
    h | ⟨st', h1, h2, h3, h4⟩
  · exact Or.inl h
  · refine Or.inr ⟨st', h1, h2, fun m hm => ?_, h4⟩
    rw [h3 m hm]
    apply Nat.mod_eq_of_lt
    exact lt_of_le_of_lt (closed_counts_le hs m (h2 ▸ hm)).1 h4

theorem bwd32_exact (MAXN : Nat) (up0 : Nat → Nat) (poset : PosetObj) (n : Nat)
    (hN : n < 32) (st' : FwdState)
    (hsets : st'.sets = downSets (inVertexMask MAXN poset n) n)
    (hdown : ∀ m ∈ st'.sets, st'.down m = extCount (poset.is_edge MAXN) (bitsOf m))
    (hX : bruteForceLinExt (poset.is_edge MAXN) n < 2 ^ 32) :
    (∀ T ∈ st'.sets,
      (st'.sets.dropLast.reverse.foldl
        (bwdVisit 32 n (inVertexMask MAXN poset n) st'.down (2 ^ n - 1))
        { up := setCell up0 (2 ^ n - 1) (1 % 2 ^ 32), t := fun _ _ => 0 }).up T =
        extCount (poset.is_edge MAXN) (bitsOf (bnot32 T &&& (2 ^ n - 1)))) ∧
    (∀ a b, a < b → b < n →
      (st'.sets.dropLast.reverse.foldl
        (bwdVisit 32 n (inVertexMask MAXN poset n) st'.down (2 ^ n - 1))
        { up := setCell up0 (2 ^ n - 1) (1 % 2 ^ 32), t := fun _ _ => 0 }).t a b =
        bruteForcePrecedes (poset.is_edge MAXN) n a b) := by
  have hs := maskSpec_poset MAXN poset n hN
  have hdown' : ∀ m ∈ downSets (inVertexMask MAXN poset n) n,
      st'.down m = extCount (poset.is_edge MAXN) (bitsOf m) % 2 ^ 32 := by
    intro m hm
    rw [hdown m (hsets ▸ hm)]
    exact (Nat.mod_eq_of_lt
      (lt_of_le_of_lt (closed_counts_le hs m hm).1 hX)).symm
  have hup0 : ∀ T ∈ [2 ^ n - 1],
      ({ up := setCell up0 (2 ^ n - 1) (1 % 2 ^ 32), t := fun _ _ => 0 } : BwdState).up T =
        extCount (poset.is_edge MAXN) (bitsOf (bnot32 T &&& (2 ^ n - 1))) % 2 ^ 32 := by
    intro T hT
    rw [List.mem_singleton] at hT
    subst hT
    show setCell up0 (2 ^ n - 1) (1 % 2 ^ 32) (2 ^ n - 1) = _
    rw [setCell_same]
    have : bitsOf (bnot32 (2 ^ n - 1) &&& (2 ^ n - 1)) = [] := by
      rw [List.eq_nil_iff_forall_not_mem]
      intro x hx
      rw [mem_bitsOf_comp n _ x (by omega), Nat.testBit_two_pow_sub_one] at hx
      simp at hx
      omega
    rw [this, extCount_nil]
  have ht0 : ∀ a b,
      ({ up := setCell up0 (2 ^ n - 1) (1 % 2 ^ 32), t := fun _ _ => 0 } : BwdState).t a b =
        (([2 ^ n - 1] : List Nat).map
          (fun T => contrib (poset.is_edge MAXN) n (inVertexMask MAXN poset n) T a b)).sum %
            2 ^ 32 := by
    intro a b
    simp [contrib_full _ _ _ _ _ (show n ≤ 32 by omega)]
  rw [hsets]
  constructor
  · intro T hT
    rw [bwd_loop_up hs 32 st'.down hdown' _ [2 ^ n - 1] _ (downSets_getLast hs)
      (List.mem_singleton_self _) hup0 ht0 T hT]
    exact Nat.mod_eq_of_lt (lt_of_le_of_lt (closed_counts_le hs T hT).2 hX)
  · intro a b hab hb
    rw [bwd_loop hs 32 st'.down hdown' _ [2 ^ n - 1] _ (downSets_getLast hs)
      (List.mem_singleton_self _) hup0 ht0 a b, ← precedes_sum hs a b hab hb]
    exact Nat.mod_eq_of_lt (lt_of_le_of_lt (precedes_le _ n a b) hX)

theorem calc32_spec (MAXN alloc : Nat) (down0 up0 : Nat → Nat) (poset : PosetObj)
    (fillTable : Bool) (n : Nat) (hn : n ≤ MAXN) (hN : MAXN < 32)
    (hguard : ∀ e, e < n → downSetCount (poset.is_edge MAXN) e < alloc / 2) :
    ∃ r, calculateLinExtensionsNew 32 MAXN alloc true down0 up0 poset fillTable n = some r ∧
      (r.1 = 0 ∨
        (r.1 = bruteForceLinExt (poset.is_edge MAXN) n ∧
          bruteForceLinExt (poset.is_edge MAXN) n < 2 ^ 32 ∧
          (fillTable = true → ∀ a b, a < b → b < n →
            r.2 a b = bruteForcePrecedes (poset.is_edge MAXN) n a b))) := by
  have hs := maskSpec_poset MAXN poset n (by omega)
  unfold calculateLinExtensionsNew
  simp only [set1_eq n (by omega)]
  rcases fwd32_poset MAXN alloc down0 poset n hn hN hguard with h | ⟨st', h1, h2, h3, h4⟩
  · rw [h]
    exact ⟨_, rfl, Or.inl rfl⟩
  · rw [h1]
    have hfull : st'.down (2 ^ n - 1) = bruteForceLinExt (poset.is_edge MAXN) n := by
      rw [h3 _ (h2 ▸ full_mem_downSets hs), bitsOf_full n (by omega)]; rfl
    cases fillTable with
    | false =>
      exact ⟨_, rfl, Or.inr ⟨hfull, h4, fun h => absurd h (by simp)⟩⟩
    | true =>
      refine ⟨_, rfl, Or.inr ⟨hfull, h4, fun _ a b hab hb => ?_⟩⟩
      exact (bwd32_exact MAXN up0 poset n (by omega) st' h2 h3 h4).2 a b hab hb


/-- Claim C13, amended: for a poset with at most one singleton and `C - c < 27`
(`NUMEL < 25`, `N ≤ NUMEL`), provided that for every `e < N` the number of downsets of the
first `e` vertices is below `allocatedMemorySize / 2`, `calculateLinExtensionsSingleton`
with `overflowCheck` returns the exact number of linear extensions and, with `fillTable`,
the exact table.  Its 32-bit counter returns `0` or the exact count, which then lies below
`2^32`, with the exact upper triangle of the table; and when its forward sweep runs to the
end, every `downVal` and every `upVal` it leaves is the exact number of orderings, not only
its residue modulo `2^32`. -/
theorem overflowCheck_exact (cfg : NCT) (alloc : Nat) (scratch : Nat → Nat)
    (linExtTable : Nat → Nat → Nat) (poset : PosetObj) (info : PosetInfo) (c : Nat)
    (fillTable : Bool)
    (hN : cfg.MAXN < 25) (hn : cfg.N ≤ cfg.MAXN) (hK : info.numSingletons ≤ 1)
    (hc : (cfg.C + 2 ^ 32 - c % 2 ^ 32) % 2 ^ 32 < 27)
    (hguard : ∀ e, e < cfg.N → downSetCount (poset.is_edge cfg.MAXN) e < alloc / 2) :
    (∃ t, calculateLinExtensionsSingleton cfg alloc scratch linExtTable poset info c fillTable
        true = some (bruteForceLinExt (poset.is_edge cfg.MAXN) cfg.N, t) ∧
      (fillTable = true → ∀ i j, i < cfg.N → j < cfg.N → i ≠ j →
        t i j = bruteForcePrecedes (poset.is_edge cfg.MAXN) cfg.N i j)) ∧
    (∃ r, calculateLinExtensionsNew 32 cfg.MAXN alloc true scratch scratch poset fillTable
        cfg.N = some r ∧
      (r.1 = 0 ∨
        (r.1 = bruteForceLinExt (poset.is_edge cfg.MAXN) cfg.N ∧
          bruteForceLinExt (poset.is_edge cfg.MAXN) cfg.N < 2 ^ 32 ∧
          (fillTable = true → ∀ a b, a < b → b < cfg.N →
            r.2 a b = bruteForcePrecedes (poset.is_edge cfg.MAXN) cfg.N a b)))) ∧
    (∀ st, fwdLoop 32 cfg.MAXN alloc true (inVertexMask cfg.MAXN poset cfg.N)
        (outVertexMask cfg.MAXN poset cfg.N) (List.range cfg.N)
        { sets := [0], down := setCell scratch 0 (1 % 2 ^ 32) } = FwdResult.done st →
      (∀ m ∈ st.sets, st.down m = extCount (poset.is_edge cfg.MAXN) (bitsOf m)) ∧
      (∀ T ∈ st.sets,
        (st.sets.dropLast.reverse.foldl
          (bwdVisit 32 cfg.N (inVertexMask cfg.MAXN poset cfg.N) st.down (2 ^ cfg.N - 1))
          { up := setCell scratch (2 ^ cfg.N - 1) (1 % 2 ^ 32), t := fun _ _ => 0 }).up T =
          extCount (poset.is_edge cfg.MAXN) (bitsOf (bnot32 T &&& (2 ^ cfg.N - 1))))) := by
  obtain ⟨MAXN, N, C⟩ := cfg
  obtain ⟨K, P⟩ := info
  simp only at hN hn hK hc hguard ⊢
  have hbN : bruteForceLinExt (poset.is_edge MAXN) N < 2 ^ linExtTBits MAXN := by
    calc bruteForceLinExt (poset.is_edge MAXN) N
        ≤ (List.range N).length.factorial := extCount_le_factorial _ _
      _ = N.factorial := by rw [List.length_range]
      _ < 2 ^ linExtTBits MAXN := factorial_lt_linExtT MAXN N hn (by omega)
  obtain ⟨r, hr, hr'⟩ := calc32_spec MAXN alloc scratch scratch poset fillTable N hn
    (by omega) hguard
  refine ⟨?_, ⟨r, hr, hr'⟩, ?_⟩
  · unfold calculateLinExtensionsSingleton
    simp only
    rw [if_pos hK, if_pos (by simpa using hc), hr]
    simp only
    obtain ⟨w, hw, hw1, hw2⟩ := wide_spec MAXN alloc scratch scratch poset fillTable N hn hN
      hguard
    by_cases h0 : r.1 = 0
    · rw [if_pos h0, hw]
      simp only [Option.map_some', hw1]
      refine ⟨_, rfl, fun hft i j hi hj hij => ?_⟩
      rw [if_pos hft, ← hw1]
      exact (hw2 hft).1 i j hi hj hij
    · rw [if_neg h0]
      rcases hr' with h | ⟨h1, h2, h3⟩
      · exact absurd h h0
      · rw [h1]
        refine ⟨_, rfl, fun hft i j hi hj hij => ?_⟩
        rw [if_pos hft]
        unfold fillFullTableFrom
        by_cases hij' : i < j
        · rw [if_pos ⟨hij', hj⟩]
          exact h3 hft i j hij' hj
        · have hji : j < i := by omega
          rw [if_neg (fun h => hij' h.1), if_pos ⟨hji, hi⟩, h3 hft j i hji hi]
          have := sub_mod_arith (bruteForceLinExt (poset.is_edge MAXN) N)
            (bruteForcePrecedes (poset.is_edge MAXN) N j i)
            (bruteForcePrecedes (poset.is_edge MAXN) N i j) (2 ^ linExtTBits MAXN)
            (by positivity) (precedes_add (poset.is_edge MAXN) N j i hj (by omega)).symm
          rw [Nat.mod_eq_of_lt hbN] at this
          rw [this]
          exact Nat.mod_eq_of_lt (lt_of_le_of_lt (precedes_le _ N i j) hbN)
  · intro st hst
    rcases fwd32_poset MAXN alloc scratch poset N hn (by omega) hguard with
      h | ⟨st', h1, h2, h3, h4⟩
    · rw [h] at hst
      exact absurd hst (by simp)
    · rw [h1] at hst
      simp only [FwdResult.done.injEq] at hst
      subst hst
      exact ⟨h3, (bwd32_exact MAXN scratch poset N (by omega) st' h2 h3 h4).1⟩

theorem overflowCheck_exact_witness :
    ∃ t, calculateLinExtensionsSingleton ⟨4, 4, 5⟩ 84 (fun _ => 0) (fun _ _ => 0)
        (PosetObj.mk 9 SortableStatus.UNFINISHED true false false) ⟨1, 0⟩ 0 true true =
          some (bruteForceLinExt
            (PosetObj.is_edge 4 (PosetObj.mk 9 SortableStatus.UNFINISHED true false false)) 4,
            t) ∧
      t 1 0 = bruteForcePrecedes
        (PosetObj.is_edge 4 (PosetObj.mk 9 SortableStatus.UNFINISHED true false false)) 4 1 0 :=
  match (overflowCheck_exact ⟨4, 4, 5⟩ 84 (fun _ => 0) (fun _ _ => 0)
      (PosetObj.mk 9 SortableStatus.UNFINISHED true false false) ⟨1, 0⟩ 0 true
      (by decide) (by decide) (by decide) (by decide) (by decide)).1 with
  | ⟨t, h1, h2⟩ => ⟨t, h1, h2 rfl 1 0 (by decide) (by decide) (by decide)⟩


theorem fwdLoop_done_guard (w MAXN alloc : Nat) (oc : Bool) (inM outM : Nat → Nat) :
    ∀ (k e : Nat) (st st' : FwdState), st.sets = downSets inM e →
      fwdLoop w MAXN alloc oc inM outM (List.range' e k) st = FwdResult.done st' →
      ∀ e', e ≤ e' → e' < e + k → (downSets inM e').length < alloc / 2 := by
  intro k
  induction k with
  | zero => intro e st st' _ _ e' h1 h2; omega
  | succ k ih =>
    intro e st st' hsets h e' h1 h2
    rw [List.range'_succ] at h
    unfold fwdLoop at h
    split at h
    · exact absurd h (by simp)
    · rename_i hg
      split at h
      · exact absurd h (by simp)
      · have hsets' : (st.sets.foldl (fwdVisit w inM outM e) st).sets = downSets inM (e + 1) := by
          rw [fwdVisit_fold_sets, hsets]; rfl
        rcases Nat.eq_or_lt_of_le h1 with h3 | h3
        · subst h3
          rw [hsets] at hg
          omega
        · exact ih (e + 1) _ st' hsets' h e' (by omega) (by omega)

theorem calc_some_guard (w MAXN alloc : Nat) (oc : Bool) (down0 up0 : Nat → Nat)
    (poset : PosetObj) (fillTable : Bool) (n : Nat) (hn : n < 32)
    (r : Nat × (Nat → Nat → Nat))
    (h : calculateLinExtensionsNew w MAXN alloc oc down0 up0 poset fillTable n = some r)
    (hr : r.1 ≠ 0) :
    ∀ e, e < n → downSetCount (poset.is_edge MAXN) e < alloc / 2 := by
  have hs := maskSpec_poset MAXN poset n hn
  unfold calculateLinExtensionsNew at h
  simp only at h
  rw [List.range_eq_range'] at h
  split at h
  · exact absurd h (by simp)
  · simp only [Option.some.injEq] at h
    rw [← h] at hr
    exact absurd rfl hr
  · rename_i st hst
    intro e he
    rw [← downSets_length hs e (by omega)]
    exact fwdLoop_done_guard w MAXN alloc oc _ _ n 0 _ st rfl hst e (by omega) (by omega)

theorem singleton_guard_none (cfg : NCT) (alloc : Nat) (scratch : Nat → Nat)
    (linExtTable : Nat → Nat → Nat) (poset : PosetObj) (info : PosetInfo) (c : Nat)
    (fillTable : Bool) (hn : cfg.N < 32) (hK : info.numSingletons ≤ 1)
    (hc : (cfg.C + 2 ^ 32 - c % 2 ^ 32) % 2 ^ 32 < 27)
    (hguard : ¬ ∀ e, e < cfg.N → downSetCount (poset.is_edge cfg.MAXN) e < alloc / 2) :
    calculateLinExtensionsSingleton cfg alloc scratch linExtTable poset info c fillTable true =
      none := by
  have hwide : calculateLinExtensionsNew (linExtTBits cfg.MAXN) cfg.MAXN alloc false scratch
      scratch poset fillTable cfg.N = none := by
    have := calc_fst (linExtTBits cfg.MAXN) cfg.MAXN alloc scratch scratch poset fillTable
      cfg.N hn
    rw [if_neg hguard] at this
    exact Option.map_eq_none'.mp this
  unfold calculateLinExtensionsSingleton
  simp only
  rw [if_pos hK, if_pos (by simpa using hc)]
  split
  · rfl
  · rename_i r hr
    by_cases h0 : r.1 = 0
    · rw [if_pos h0, hwide]; rfl
    · exact absurd (calc_some_guard 32 cfg.MAXN alloc true scratch scratch poset fillTable
        cfg.N hn r hr h0) hguard

theorem downSetCount_free (edge : Nat → Nat → Bool) (e : Nat)
    (h : ∀ v, v < e → ∀ u, u < v → edge u v = false) : downSetCount edge e = 2 ^ e := by
  unfold downSetCount
  have : (List.range (2 ^ e)).filter (isDownSet edge e) = List.range (2 ^ e) := by
    apply List.filter_eq_self.mpr
    intro m _
    unfold isDownSet
    rw [List.all_eq_true]
    intro v hv
    rw [Bool.or_eq_true]
    right
    rw [List.all_eq_true]
    intro u hu
    rw [h v (List.mem_range.mp hv) u (List.mem_range.mp hu)]
    rfl
  rw [this, List.length_range]

/-- Claim C13 fails as stated at the poset on 16 vertices whose vertex 15 lies above the
fifteen others (no singleton, `N = NUMEL = 16`, `C - c = 45 - 19 = 26`, the scratch size
`pow(1.74, 20) = 64712`): the first fifteen vertices have `2^15 = 32768` downsets, the
capacity guard `lastEnd >= allocatedMemorySize / 2` stops the call, and no count is
returned. -/
theorem overflowCheck_hub16 :
    calculateLinExtensionsSingleton ⟨16, 16, 45⟩ 64712 (fun _ => 0) (fun _ _ => 0) hubPoset16
      ⟨0, 0⟩ 19 false true = none := by
  apply singleton_guard_none
  · decide
  · decide
  · decide
  · intro hall
    have h15 := hall 15 (by decide)
    rw [downSetCount_free _ 15 (by decide)] at h15
    exact absurd h15 (by decide)



/-- Claim C30: `isEasilySortableLinExt(cLeft, linExt)` is true exactly when `linExt ≤ 7` and
`linExt ≤ 2^cLeft`, for every `cLeft` and every `linExt`: the clamping of `cLeft` to `3`
does not change the result. -/
theorem isEasilySortableLinExt_spec (cLeft linExt : Nat) :
    isEasilySortableLinExt cLeft linExt = true ↔ linExt ≤ 7 ∧ linExt ≤ 2 ^ cLeft := by
  unfold isEasilySortableLinExt
  simp only [decide_eq_true_eq]
  by_cases h : cLeft > 3
  · rw [if_pos h]
    have : (2 : Nat) ^ 4 ≤ 2 ^ cLeft := Nat.pow_le_pow_right (by norm_num) h
    constructor
    · rintro ⟨h1, _⟩; exact ⟨h1, by omega⟩
    · rintro ⟨h1, _⟩; exact ⟨h1, by norm_num; omega⟩
  · rw [if_neg h]

theorem step_limit (C c W : Nat) (hc : c < C) (hC : C < 2 ^ 32) (hW : C - c - 1 < W) :
    (1 <<< ((C + 2 * 2 ^ 32 - c - 1) % 2 ^ 32)) % 2 ^ W = 2 ^ (C - c - 1) := by
  have h1 : (C + 2 * 2 ^ 32 - c - 1) % 2 ^ 32 = C - c - 1 := by
    rw [show (2 : Nat) ^ 32 = 4294967296 by norm_num] at hC ⊢
    omega
  rw [h1, Nat.shiftLeft_eq, Nat.one_mul]
  exact Nat.mod_eq_of_lt (Nat.pow_lt_pow_right (by norm_num) hW)

/-- Claim C24: `addComparisonIfFeasible` records the comparison of `j` and `k` if and only if
`0 < t[j][k] ≤ limit` and `0 < t[k][j] ≤ limit`; the recorded tuple `(k1, k2, lin1, lin2)` is
`(j, k, t[j][k], t[k][j])` or `(k, j, t[k][j], t[j][k])`, with `lin1 = t[k1][k2] ≥ lin2 =
t[k2][k1]`, and the two assertions on `2 * limit` hold for it; for a parent on level
`c < C` the step of the search passes `limit = 2^(C−c−1)`. -/
theorem addComparisonIfFeasible_spec (cfg : NCT) (sp : SearchParams) (s : Search)
    (table : Nat → Nat → Nat) (limit : Nat) (vec : List ComparisonTuple) (j k : Nat)
    (singletonComp : Bool) :
    ((∃ c, addComparisonIfFeasible table limit vec j k singletonComp = vec ++ [c]) ↔
      (0 < table j k ∧ table j k ≤ limit ∧ 0 < table k j ∧ table k j ≤ limit)) ∧
    (addComparisonIfFeasible table limit vec j k singletonComp = vec ∨
      ∃ c, addComparisonIfFeasible table limit vec j k singletonComp = vec ++ [c] ∧
        ((c.k1 = j ∧ c.k2 = k) ∨ (c.k1 = k ∧ c.k2 = j)) ∧
        c.lin1 = table c.k1 c.k2 ∧ c.lin2 = table c.k2 c.k1 ∧ c.lin2 ≤ c.lin1 ∧
        c.singletonComp = singletonComp ∧
        (2 * limit < 2 ^ linExtTBits cfg.MAXN →
          (singletonComp = true → table j k = table k j ∧ k = j + 1 ∧ k < 2 ^ 32) →
          addComparisonAsserts (linExtTBits cfg.MAXN) s.forwardC table limit j k
            singletonComp = true)) ∧
    (s.forwardC < cfg.C → cfg.C < 2 ^ 32 → cfg.C - s.forwardC - 1 < linExtTBits cfg.MAXN →
      Search.step cfg sp s =
        match doForwardStep cfg sp (2 ^ linExtTBits cfg.MAXN - 1)
          (s.posetMapBW.getD (s.forwardC + 1) (PosetMap.new 1 993))
          (s.oldGenMap.getD (s.forwardC + 1) (OldGenMap.new 0 (fun _ => PosetObj.new)))
          (2 ^ (cfg.C - s.forwardC - 1))
          { posetList := s.posetList, edgeList := s.edgeList,
            parentState := s.layerState.getD s.forwardC LayerState.new,
            childState := s.layerState.getD (s.forwardC + 1) LayerState.new,
            parentC := s.forwardC, childMap := s.childMap,
            parentMapOld := s.oldGenMap.getD s.forwardC
              (OldGenMap.new 0 (fun _ => PosetObj.new)) } with
        | none => none
        | some r =>
          some { s with
            posetList := r.posetList, edgeList := r.edgeList,
            layerState := (s.layerState.set s.forwardC r.parentState).set (s.forwardC + 1)
              r.childState,
            oldGenMap := s.oldGenMap.set s.forwardC r.parentMapOld,
            childMap := r.childMap, forwardC := r.parentC }) := by
  refine ⟨?_, ?_, ?_⟩
  · unfold addComparisonIfFeasible
    simp only
    constructor
    · rintro ⟨c, hc⟩
      by_cases h0 : table j k = 0 ∨ table k j = 0
      · rw [if_pos h0] at hc
        have := congrArg List.length hc
        simp at this
      · rw [if_neg h0] at hc
        by_cases h1 : table j k > limit ∨ table k j > limit
        · rw [if_pos h1] at hc
          have := congrArg List.length hc
          simp at this
        · omega
    · rintro ⟨h1, h2, h3, h4⟩
      rw [if_neg (by omega), if_neg (by omega)]
      split
      · exact ⟨_, rfl⟩
      · exact ⟨_, rfl⟩
  · unfold addComparisonIfFeasible
    simp only
    by_cases h0 : table j k = 0 ∨ table k j = 0
    · left; rw [if_pos h0]
    · rw [if_neg h0]
      by_cases h1 : table j k > limit ∨ table k j > limit
      · left; rw [if_pos h1]
      · rw [if_neg h1]
        right
        have hass : 2 * limit < 2 ^ linExtTBits cfg.MAXN →
            (singletonComp = true → table j k = table k j ∧ k = j + 1 ∧ k < 2 ^ 32) →
            addComparisonAsserts (linExtTBits cfg.MAXN) s.forwardC table limit j k
              singletonComp = true := by
          intro hl hs
          unfold addComparisonAsserts
          simp only
          rw [Nat.mod_eq_of_lt hl, if_neg h0, if_neg h1]
          have e1 : decide (table j k ≤ 2 * limit) = true := decide_eq_true (by omega)
          have e2 : decide (table k j ≤ 2 * limit) = true := decide_eq_true (by omega)
          rw [e1, e2]
          simp only [Bool.or_true, Bool.true_and]
          cases singletonComp with
          | false => simp
          | true =>
            obtain ⟨q1, q2, q3⟩ := hs rfl
            simp only [if_true]
            rw [if_pos (by omega)]
            simp only [Bool.and_eq_true, decide_eq_true_eq]
            refine ⟨q1, ?_⟩
            rw [Nat.mod_eq_of_lt (by omega)]
            exact q2
        by_cases h2 : table j k ≥ table k j
        · rw [if_pos h2]
          exact ⟨_, rfl, Or.inl ⟨rfl, rfl⟩, rfl, rfl, h2, rfl, hass⟩
        · rw [if_neg h2]
          exact ⟨_, rfl, Or.inr ⟨rfl, rfl⟩, rfl, rfl, by simp only; omega, rfl, hass⟩
  · intro hc hC hW
    unfold Search.step
    simp only
    rw [step_limit cfg.C s.forwardC _ hc hC hW]

theorem addComparisonIfFeasible_spec_witness :
    ((∃ c, addComparisonIfFeasible (fun i j => if i = 0 ∧ j = 1 then 2 else 1) 4 [] 0 1 false
        = [] ++ [c]) ↔
      (0 < (fun i j => if i = 0 ∧ j = 1 then 2 else 1) 0 1 ∧
        (fun i j => if i = 0 ∧ j = 1 then 2 else 1) 0 1 ≤ 4 ∧
        0 < (fun i j => if i = 0 ∧ j = 1 then 2 else 1) 1 0 ∧
        (fun i j => if i = 0 ∧ j = 1 then 2 else 1) 1 0 ≤ 4)) ∧
    addComparisonIfFeasible (fun i j => if i = 0 ∧ j = 1 then 2 else 1) 4 [] 0 1 false =
      [⟨0, 1, 2, 1, false⟩] :=
  ⟨(addComparisonIfFeasible_spec ⟨3, 3, 3⟩ (defaultParams ⟨3, 3, 3⟩ 64)
      ⟨[], [], [], [], [], PosetMapExt.new 1 993 (fun _ => false), 0⟩
      (fun i j => if i = 0 ∧ j = 1 then 2 else 1) 4 [] 0 1 false).1, by decide⟩


theorem foldl_flatMap_gen {α β γ : Type} (f : γ → β → γ) (g : α → List β) (l : List α) (init : γ) :
    (l.flatMap g).foldl f init = l.foldl (fun acc a => (g a).foldl f acc) init := by
  induction l generalizing init with
  | nil => rfl
  | cons a l ih => simp [List.flatMap_cons, List.foldl_append, ih]

/-- The comparisons recorded by `enumerateComparisons` are those of its candidate calls that
pass the feasibility test. -/
theorem enumerateComparisons_eq (cfg : NCT) (info : PosetInfo) (table : Nat → Nat → Nat)
    (limit : Nat) :
    enumerateComparisons cfg info table limit =
      (comparisonCandidates cfg info).foldl
        (fun vec c => addComparisonIfFeasible table limit vec c.1 c.2.1 c.2.2) [] := by
  unfold enumerateComparisons comparisonCandidates
  simp only
  by_cases h2 : info.numPairs = 2
  · rw [if_pos h2, if_pos h2]
    rfl
  · rw [if_neg h2, if_neg h2]
    by_cases h1 : info.numPairs = 1
    · rw [if_pos h1, if_pos h1, List.foldl_append, List.foldl_append, foldl_flatMap_gen]
      by_cases hs2 : info.numSingletons ≥ 2
      · rw [if_pos hs2, if_pos hs2, if_pos (by omega), if_pos (by omega)]
        rfl
      · rw [if_neg hs2, if_neg hs2]
        by_cases hs1 : info.numSingletons ≥ 1
        · rw [if_pos hs1, if_pos hs1]; rfl
        · rw [if_neg hs1, if_neg hs1]; rfl
    · rw [if_neg h1, if_neg h1, List.foldl_append, foldl_flatMap_gen]
      have hinner : ∀ (l : List Nat) (j : Nat) (v : List ComparisonTuple),
          (l.map (fun k => ((j, k, false) : Nat × Nat × Bool))).foldl
            (fun vec c => addComparisonIfFeasible table limit vec c.1 c.2.1 c.2.2) v =
          l.foldl (fun vec k => addComparisonIfFeasible table limit vec (j, k).1 (j, k).2 false)
            v := by
        intro l j v
        rw [List.foldl_map]
      simp only [hinner]
      by_cases hs2 : info.numSingletons ≥ 2
      · rw [if_pos hs2, if_pos hs2]; rfl
      · rw [if_neg hs2, if_neg hs2]; rfl

theorem enumerate_chain : enumerateComparisons ⟨4, 4, 5⟩ ⟨1, 0⟩ chainTable 4 =
    [⟨0, 3, 3, 1, false⟩, ⟨1, 3, 2, 2, false⟩, ⟨3, 2, 3, 1, false⟩] := by decide

theorem chain_calc :
    (calculateLinExtensionsSingleton ⟨4, 4, 5⟩ 84 (fun _ => 0) (fun _ _ => 0)
      (PosetObj.mk 9 SortableStatus.UNFINISHED true false false) ⟨1, 0⟩ 1 true false).map
      (fun r => (r.1, (List.range 4).map (fun i => (List.range 4).map (fun j => r.2 i j)))) =
    some (4, (List.range 4).map (fun i => (List.range 4).map (fun j => chainTable i j))) := by
  decide


theorem info_bounds (cfg : NCT) (info : PosetInfo) (hN : cfg.N ≤ 32)
    (hv : 2 * info.numPairs + info.numSingletons ≤ cfg.N) :
    info.GetFirstSingleton cfg = cfg.N - info.numSingletons ∧
    info.GetFirstInPair cfg = cfg.N - info.numSingletons - 2 * info.numPairs ∧
    (cfg.N + 2 ^ 32 - info.numSingletons + 1) % 2 ^ 32 = cfg.N - info.numSingletons + 1 := by
  unfold PosetInfo.GetFirstInPair PosetInfo.GetReducedN PosetInfo.GetFirstSingleton
  rw [show (2 : Nat) ^ 32 = 4294967296 by norm_num]
  refine ⟨by omega, by omega, by omega⟩

theorem mem_drop_range (n a k : Nat) : k ∈ (List.range n).drop a ↔ a ≤ k ∧ k < n := by
  rw [List.mem_iff_getElem?]
  constructor
  · rintro ⟨i, hi⟩
    rw [List.getElem?_drop] at hi
    have hlt : a + i < n := by
      by_contra hc
      rw [List.getElem?_eq_none (by rw [List.length_range]; omega)] at hi
      simp at hi
    rw [List.getElem?_range hlt] at hi
    simp only [Option.some.injEq] at hi
    omega
  · rintro ⟨h1, h2⟩
    refine ⟨k - a, ?_⟩
    rw [List.getElem?_drop, List.getElem?_range (by omega)]
    simp only [Option.some.injEq]
    omega

/-- Claim C25, amended: the calls of the feasibility test made by `enumerateComparisons` are,
with 2 pairs, exactly the six vertex pairs among the 4 pair-vertices; with 1 pair, exactly the
comparisons pair-vertex × first singleton, reduced-body vertex × pair-vertex and, when there
are two singletons or more, the comparison of the two leading singletons; with 0 pairs,
exactly all vertex pairs among the non-singleton body and the first singleton, and, when
there are two singletons or more, the comparison of the two leading singletons. -/
theorem enumerateComparisons_candidates (cfg : NCT) (info : PosetInfo)
    (table : Nat → Nat → Nat) (limit : Nat) (hN : cfg.N ≤ 32)
    (hv : 2 * info.numPairs + info.numSingletons ≤ cfg.N) :
    enumerateComparisons cfg info table limit =
      (comparisonCandidates cfg info).foldl
        (fun vec c => addComparisonIfFeasible table limit vec c.1 c.2.1 c.2.2) [] ∧
    (info.numPairs = 2 → ∀ j k sc, (j, k, sc) ∈ comparisonCandidates cfg info ↔
      sc = false ∧ j < k ∧ info.isInPair cfg j = true ∧ info.isInPair cfg k = true) ∧
    (info.numPairs = 1 → ∀ j k sc, (j, k, sc) ∈ comparisonCandidates cfg info ↔
      (sc = true ∧ 2 ≤ info.numSingletons ∧ j = info.GetFirstSingleton cfg ∧
        k = info.GetFirstSingleton cfg + 1) ∨
      (sc = false ∧ 1 ≤ info.numSingletons ∧ info.isInPair cfg j = true ∧
        k = info.GetFirstSingleton cfg) ∨
      (sc = false ∧ info.isInBigPart cfg j = true ∧ info.isInPair cfg k = true)) ∧
    (info.numPairs = 0 → ∀ j k sc, (j, k, sc) ∈ comparisonCandidates cfg info ↔
      (sc = true ∧ 2 ≤ info.numSingletons ∧ j = info.GetFirstSingleton cfg ∧
        k = info.GetFirstSingleton cfg + 1) ∨
      (sc = false ∧ j < k ∧ k < cfg.N ∧ k ≤ info.GetFirstSingleton cfg)) := by
  obtain ⟨hfs, hfp, hred⟩ := info_bounds cfg info hN hv
  refine ⟨enumerateComparisons_eq cfg info table limit, ?_, ?_, ?_⟩
  · intro h2 j k sc
    unfold comparisonCandidates PosetInfo.isInPair
    simp only
    rw [if_pos h2, hfs, hfp]
    simp only [List.mem_cons, Prod.mk.injEq, List.mem_singleton, List.not_mem_nil, or_false,
      Bool.and_eq_true, decide_eq_true_eq]
    constructor
    · intro h
      rcases h with h | h | h | h | h | h <;> obtain ⟨rfl, rfl, rfl⟩ := h <;>
        refine ⟨rfl, ?_, ?_, ?_⟩ <;> omega
    · rintro ⟨rfl, h1, ⟨h3, h4⟩, ⟨h5, h6⟩⟩
      simp only [and_true]
      omega
  · intro h1 j k sc
    unfold comparisonCandidates PosetInfo.isInPair PosetInfo.isInBigPart
    simp only
    rw [if_neg (by omega), if_pos h1, hfs, hfp]
    simp only [List.mem_append, List.mem_flatMap, List.mem_range, List.mem_cons, Prod.mk.injEq,
      List.mem_singleton, List.not_mem_nil, or_false, Bool.and_eq_true, decide_eq_true_eq]
    constructor
    · intro h
      rcases h with (h | h) | h
      · split at h
        · simp only [List.mem_singleton, Prod.mk.injEq] at h
          obtain ⟨rfl, rfl, rfl⟩ := h
          exact Or.inl ⟨rfl, by omega, rfl, rfl⟩
        · simp at h
      · split at h
        · simp only [List.mem_cons, Prod.mk.injEq, List.mem_singleton, List.not_mem_nil,
            or_false] at h
          rcases h with h | h <;> obtain ⟨rfl, rfl, rfl⟩ := h
          · exact Or.inr (Or.inl ⟨rfl, by omega, ⟨by omega, by omega⟩, rfl⟩)
          · exact Or.inr (Or.inl ⟨rfl, by omega, ⟨by omega, by omega⟩, rfl⟩)
        · simp at h
      · obtain ⟨a, ha, h⟩ := h
        rcases h with h | h <;> obtain ⟨rfl, rfl, rfl⟩ := h
        · exact Or.inr (Or.inr ⟨rfl, ha, by omega, by omega⟩)
        · exact Or.inr (Or.inr ⟨rfl, ha, by omega, by omega⟩)
    · intro h
      rcases h with ⟨rfl, hK, rfl, rfl⟩ | ⟨rfl, hK, ⟨h3, h4⟩, rfl⟩ | ⟨rfl, h3, h4, h5⟩
      · left; left
        rw [if_pos hK]
        simp
      · left; right
        rw [if_pos hK]
        simp only [List.mem_cons, Prod.mk.injEq, and_true, List.mem_singleton,
          List.not_mem_nil, or_false]
        omega
      · right
        refine ⟨j, h3, ?_⟩
        simp only [true_and, and_true]
        omega
  · intro h0 j k sc
    unfold comparisonCandidates
    simp only
    rw [if_neg (by omega), if_neg (by omega), hfs, hred]
    simp only [List.mem_append, List.mem_flatMap, List.mem_range, List.mem_map, Prod.mk.injEq]
    constructor
    · intro h
      rcases h with h | h
      · split at h
        · simp only [List.mem_singleton, Prod.mk.injEq] at h
          obtain ⟨rfl, rfl, rfl⟩ := h
          exact Or.inl ⟨rfl, by omega, rfl, rfl⟩
        · simp at h
      · obtain ⟨a, ha, b, hb, rfl, rfl, rfl⟩ := h
        obtain ⟨hb2, hb'⟩ := (mem_drop_range _ _ _).mp hb
        exact Or.inr ⟨rfl, by omega, by omega, by omega⟩
    · intro h
      rcases h with ⟨rfl, hK, rfl, rfl⟩ | ⟨rfl, h3, h4, h5⟩
      · left
        rw [if_pos hK]
        simp
      · right
        refine ⟨j, by omega, k, ?_, rfl, rfl, rfl⟩
        exact (mem_drop_range _ _ _).mpr ⟨by omega, by omega⟩

theorem enumerateComparisons_candidates_witness :
    (4 : Nat) ≤ 32 ∧ 2 * (⟨1, 0⟩ : PosetInfo).numPairs + (⟨1, 0⟩ : PosetInfo).numSingletons ≤ 4 ∧
    (0, 3, false) ∈ comparisonCandidates ⟨4, 4, 5⟩ ⟨1, 0⟩ :=
  ⟨by decide, by decide,
    ((enumerateComparisons_candidates ⟨4, 4, 5⟩ ⟨1, 0⟩ chainTable 4 (by decide)
      (by decide)).2.2.2 rfl 0 3 false).mpr (Or.inr ⟨rfl, by decide, by decide, by decide⟩)⟩

theorem pair_calc :
    (calculateLinExtensionsSingleton ⟨4, 4, 5⟩ 84 (fun _ => 0) (fun _ _ => 0)
      (PosetObj.mk 1 SortableStatus.UNFINISHED true false false) ⟨2, 1⟩ 1 true false).map
      (fun r => (r.1, (List.range 4).map (fun i => (List.range 4).map (fun j => r.2 i j)))) =
    some (12, (List.range 4).map (fun i => (List.range 4).map (fun j => pairTable i j))) := by
  decide

theorem enumerate_pair : enumerateComparisons ⟨4, 4, 5⟩ ⟨2, 1⟩ pairTable 8 =
    [⟨2, 3, 6, 6, true⟩, ⟨0, 2, 8, 4, false⟩, ⟨2, 1, 8, 4, false⟩] := by decide

/-- Counterexample to claim C25 as stated.  The poset `0 < 1 < 2` with the one singleton `3`
has no pair and `chainTable` is its table; with `limit = 4` the enumeration records the
comparisons of the singleton `3` with each of the body vertices `0`, `1`, `2`, which are
neither vertex pairs inside the non-singleton body nor a comparison of two singletons.  The
poset with the pair `0 < 1` and the singletons `2`, `3` has one pair and `pairTable` is its
table; with `limit = 8` the enumeration records the comparison of the two singletons, which
is neither pair-vertex × singleton nor pair-vertex × body vertex. -/
theorem enumerateComparisons_chain_counterexample :
    (calculateLinExtensionsSingleton ⟨4, 4, 5⟩ 84 (fun _ => 0) (fun _ _ => 0)
      (PosetObj.mk 9 SortableStatus.UNFINISHED true false false) ⟨1, 0⟩ 1 true false).map
      (fun r => (r.1, (List.range 4).map (fun i => (List.range 4).map (fun j => r.2 i j)))) =
      some (4, (List.range 4).map (fun i => (List.range 4).map (fun j => chainTable i j))) ∧
    (⟨1, 0⟩ : PosetInfo).numPairs = 0 ∧
    (List.range 4).map (PosetInfo.isSingleton ⟨4, 4, 5⟩ ⟨1, 0⟩) = [false, false, false, true] ∧
    enumerateComparisons ⟨4, 4, 5⟩ ⟨1, 0⟩ chainTable 4 =
      [⟨0, 3, 3, 1, false⟩, ⟨1, 3, 2, 2, false⟩, ⟨3, 2, 3, 1, false⟩] ∧
    (calculateLinExtensionsSingleton ⟨4, 4, 5⟩ 84 (fun _ => 0) (fun _ _ => 0)
      (PosetObj.mk 1 SortableStatus.UNFINISHED true false false) ⟨2, 1⟩ 1 true false).map
      (fun r => (r.1, (List.range 4).map (fun i => (List.range 4).map (fun j => r.2 i j)))) =
      some (12, (List.range 4).map (fun i => (List.range 4).map (fun j => pairTable i j))) ∧
    (⟨2, 1⟩ : PosetInfo).numPairs = 1 ∧
    (List.range 4).map (PosetInfo.isSingleton ⟨4, 4, 5⟩ ⟨2, 1⟩) = [false, false, true, true] ∧
    enumerateComparisons ⟨4, 4, 5⟩ ⟨2, 1⟩ pairTable 8 =
      [⟨2, 3, 6, 6, true⟩, ⟨0, 2, 8, 4, false⟩, ⟨2, 1, 8, 4, false⟩] :=
  ⟨chain_calc, rfl, by decide, enumerate_chain, pair_calc, rfl, by decide, enumerate_pair⟩


theorem jOffset_mono (M : Nat) : ∀ a b, a ≤ b → jOffset M a ≤ jOffset M b := by
  intro a b hab
  induction b with
  | zero =>
    have : a = 0 := by omega
    subst this; exact le_rfl
  | succ b ih =>
    by_cases h : a = b + 1
    · subst h; exact le_rfl
    · have := ih (by omega)
      show jOffset M a ≤ jOffset M b + (M - (b + 1))
      omega

theorem jOffset_closed (M : Nat) : ∀ j, j ≤ M → 2 * jOffset M j + j * (j + 1) = 2 * j * M := by
  intro j
  induction j with
  | zero => intro _; simp [jOffset]
  | succ j ih =>
    intro hj
    have h := ih (by omega)
    show 2 * (jOffset M j + (M - (j + 1))) + (j + 1) * (j + 1 + 1) = 2 * (j + 1) * M
    obtain ⟨d, rfl⟩ : ∃ d, M = j + 1 + d := ⟨M - (j + 1), by omega⟩
    have e : j + 1 + d - (j + 1) = d := by omega
    rw [e]
    nlinarith [h]

theorem jOffset_total (M : Nat) : jOffset M M = numGraphBits M := by
  have h := jOffset_closed M M le_rfl
  unfold numGraphBits
  cases M with
  | zero => simp [jOffset]
  | succ m =>
    have e : m + 1 - 1 = m := by omega
    rw [e]
    have h2 : 2 * jOffset (m + 1) (m + 1) = (m + 1) * m := by nlinarith [h]
    omega

theorem edgeBit_range (M j k : Nat) (hjk : j < k) (hk : k < M) :
    edgeBit M j k = jOffset M j + (k - j - 1) ∧ jOffset M j ≤ edgeBit M j k ∧
      edgeBit M j k < jOffset M (j + 1) := by
  have : jOffset M (j + 1) = jOffset M j + (M - (j + 1)) := rfl
  unfold edgeBit
  omega

theorem edgeBit_lt (M j k : Nat) (hjk : j < k) (hk : k < M) : edgeBit M j k < numGraphBits M := by
  have h1 := (edgeBit_range M j k hjk hk).2.2
  have h2 := jOffset_mono M (j + 1) M (by omega)
  rw [jOffset_total] at h2
  omega

theorem edgeBit_inj (M j k j' k' : Nat) (hjk : j < k) (hk : k < M) (hjk' : j' < k')
    (hk' : k' < M) (h : edgeBit M j k = edgeBit M j' k') : j = j' ∧ k = k' := by
  obtain ⟨e1, l1, u1⟩ := edgeBit_range M j k hjk hk
  obtain ⟨e2, l2, u2⟩ := edgeBit_range M j' k' hjk' hk'
  have hj : j = j' := by
    rcases Nat.lt_trichotomy j j' with hlt | heq | hgt
    · have := jOffset_mono M (j + 1) j' hlt
      omega
    · exact heq
    · have := jOffset_mono M (j' + 1) j hgt
      omega
  subst hj
  exact ⟨rfl, by omega⟩

theorem edgeBit_surj (M b : Nat) (hb : b < numGraphBits M) :
    ∃ j k, j < k ∧ k < M ∧ edgeBit M j k = b := by
  rw [← jOffset_total] at hb
  have key : ∀ t, t ≤ M → b < jOffset M t →
      ∃ j, j < t ∧ jOffset M j ≤ b ∧ b < jOffset M (j + 1) := by
    intro t
    induction t with
    | zero => intro _ h; simp [jOffset] at h
    | succ t ih =>
      intro ht h
      by_cases hc : b < jOffset M t
      · obtain ⟨j, hj, h1, h2⟩ := ih (by omega) hc
        exact ⟨j, by omega, h1, h2⟩
      · exact ⟨t, by omega, by omega, h⟩
  obtain ⟨j, hj, h1, h2⟩ := key M le_rfl hb
  have hs : jOffset M (j + 1) = jOffset M j + (M - (j + 1)) := rfl
  refine ⟨j, j + 1 + (b - jOffset M j), by omega, by omega, ?_⟩
  unfold edgeBit
  omega

theorem is_edge_eq (M : Nat) (p : PosetObj) (j k : Nat) :
    p.is_edge M j k = (decide (j < k) && p.graph.testBit (edgeBit M j k)) := by
  unfold PosetObj.is_edge PosetObj.graphGet edgeBit
  by_cases h : j ≥ k
  · rw [if_pos h]
    have : decide (j < k) = false := decide_eq_false (by omega)
    rw [this]; rfl
  · rw [if_neg h]
    have : decide (j < k) = true := decide_eq_true (by omega)
    rw [this]; rfl

theorem add_edge_graph (M : Nat) (p : PosetObj) (j k : Nat) :
    (p.add_edge M j k).graph = p.graph ||| (1 <<< edgeBit M j k) := rfl

theorem is_edge_add_edge (M : Nat) (p : PosetObj) (j k j' k' : Nat) (hjk : j < k) (hk : k < M)
    (hk' : k' < M) :
    (p.add_edge M j k).is_edge M j' k' =
      (p.is_edge M j' k' || (decide (j' = j) && decide (k' = k))) := by
  rw [is_edge_eq, is_edge_eq, add_edge_graph, Nat.testBit_or, testBit_one_shiftLeft]
  by_cases hlt : j' < k'
  · have e1 : decide (j' < k') = true := decide_eq_true hlt
    rw [e1, Bool.true_and, Bool.true_and]
    congr 1
    by_cases hb : edgeBit M j k = edgeBit M j' k'
    · obtain ⟨rfl, rfl⟩ := edgeBit_inj M j k j' k' hjk hk hlt hk' hb
      simp
    · have : ¬ (j' = j ∧ k' = k) := by
        rintro ⟨rfl, rfl⟩; exact hb rfl
      rw [decide_eq_false hb]
      symm
      rw [← Bool.decide_and]
      exact decide_eq_false this
  · have e1 : decide (j' < k') = false := decide_eq_false hlt
    rw [e1, Bool.false_and, Bool.false_and, Bool.false_or]
    symm
    rw [← Bool.decide_and]
    exact decide_eq_false (by omega)

theorem orBits_testBit (f : Nat → Bool) (l : List Nat) (init x : Nat) :
    (l.foldl (fun row k => if f k then row ||| (1 <<< k) else row) init).testBit x =
      (init.testBit x || (decide (x ∈ l) && f x)) := by
  induction l generalizing init with
  | nil => simp
  | cons a l ih =>
    rw [List.foldl_cons, ih]
    by_cases hfa : f a = true
    · rw [if_pos hfa, Nat.testBit_or, testBit_one_shiftLeft]
      by_cases hx : a = x
      · subst hx; simp [hfa]
      · have : (decide (x ∈ a :: l)) = decide (x ∈ l) := by
          simp [List.mem_cons, Ne.symm hx]
        rw [this, decide_eq_false hx, Bool.or_false]
    · rw [if_neg hfa]
      by_cases hx : a = x
      · subst hx
        have hf : f a = false := by simpa using hfa
        simp [hf]
      · have : (decide (x ∈ a :: l)) = decide (x ∈ l) := by
          simp [List.mem_cons, Ne.symm hx]
        rw [this]

theorem getAdMatrix_get (cfg : NCT) (p : PosetObj) (j k : Nat) (hj : j < cfg.N)
    (hk : k < cfg.N) : (p.GetAdMatrix cfg).get j k = p.is_edge cfg.MAXN j k := by
  unfold PosetObj.GetAdMatrix AdjacencyMatrix.get
  rw [getD_map_range_gen, if_pos hj, orBits_testBit, Nat.zero_testBit, Bool.false_or]
  by_cases hlt : j < k
  · have : k ∈ List.drop (j + 1) (List.range cfg.N) := (mem_drop_range _ _ _).mpr ⟨hlt, hk⟩
    rw [decide_eq_true this, Bool.true_and]
  · have : ¬ k ∈ List.drop (j + 1) (List.range cfg.N) := fun h =>
      hlt ((mem_drop_range _ _ _).mp h).1
    rw [decide_eq_false this, Bool.false_and]
    unfold PosetObj.is_edge
    rw [if_pos (by omega)]

theorem is_edge_foldl (M : Nat) (es : List (Nat × Nat)) (hes : ∀ e ∈ es, e.1 < e.2 ∧ e.2 < M)
    (p : PosetObj) (j k : Nat) (hk : k < M) :
    (es.foldl (fun q e => q.add_edge M e.1 e.2) p).is_edge M j k =
      (p.is_edge M j k || decide ((j, k) ∈ es)) := by
  induction es generalizing p with
  | nil => simp
  | cons e es ih =>
    rw [List.foldl_cons, ih (fun x hx => hes x (List.mem_cons_of_mem _ hx)),
      is_edge_add_edge M p e.1 e.2 j k (hes e (List.mem_cons_self _ _)).1
        (hes e (List.mem_cons_self _ _)).2 hk, Bool.or_assoc]
    congr 1
    rw [← Bool.decide_and, ← Bool.decide_or]
    apply decide_eq_decide.mpr
    rw [List.mem_cons]
    constructor
    · rintro (⟨h1, h2⟩ | h)
      · left; exact Prod.ext h1 h2
      · right; exact h
    · rintro (h | h)
      · left; subst h; exact ⟨rfl, rfl⟩
      · right; exact h

/-- Claim C21: the edge-to-bit mapping `(j, k) ↦ k + jOffset[j] − j − 1` is a bijection from
the pairs `j < k < MAXN` onto the bit positions `0 .. MAXN·(MAXN−1)/2 − 1`; on any record
`add_edge(j, k)` makes `is_edge(j, k)` true and changes `is_edge` for no other pair,
`GetAdMatrix` returns the edges `is_edge` reports, and after a reset followed by a series of
`add_edge` calls it returns exactly the edges that were set. -/
theorem edgeBit_bijection (cfg : NCT) :
    (∀ j k, j < k → k < cfg.MAXN → edgeBit cfg.MAXN j k < numGraphBits cfg.MAXN) ∧
    (∀ j k j' k', j < k → k < cfg.MAXN → j' < k' → k' < cfg.MAXN →
      edgeBit cfg.MAXN j k = edgeBit cfg.MAXN j' k' → j = j' ∧ k = k') ∧
    (∀ b, b < numGraphBits cfg.MAXN → ∃ j k, j < k ∧ k < cfg.MAXN ∧ edgeBit cfg.MAXN j k = b) ∧
    (∀ (p : PosetObj) (j k : Nat), j < k → k < cfg.MAXN →
      (p.add_edge cfg.MAXN j k).graph = p.graph ||| (1 <<< edgeBit cfg.MAXN j k) ∧
      (p.add_edge cfg.MAXN j k).is_edge cfg.MAXN j k = true ∧
      ∀ j' k', k' < cfg.MAXN → (j' ≠ j ∨ k' ≠ k) →
        (p.add_edge cfg.MAXN j k).is_edge cfg.MAXN j' k' = p.is_edge cfg.MAXN j' k') ∧
    (∀ (p : PosetObj) (j k : Nat), j < cfg.N → k < cfg.N →
      (p.GetAdMatrix cfg).get j k = p.is_edge cfg.MAXN j k) ∧
    (∀ (p : PosetObj) (es : List (Nat × Nat)), cfg.N ≤ cfg.MAXN →
      (∀ e ∈ es, e.1 < e.2 ∧ e.2 < cfg.N) → ∀ j k, j < cfg.N → k < cfg.N →
      (((es.foldl (fun (q : PosetObj) e => q.add_edge cfg.MAXN e.1 e.2)
        { p with graph := 0 }).GetAdMatrix cfg).get j k = true ↔ (j, k) ∈ es)) := by
  refine ⟨edgeBit_lt cfg.MAXN, edgeBit_inj cfg.MAXN, edgeBit_surj cfg.MAXN, ?_,
    getAdMatrix_get cfg, ?_⟩
  · intro p j k hjk hk
    refine ⟨rfl, ?_, ?_⟩
    · rw [is_edge_add_edge cfg.MAXN p j k j k hjk hk hk]
      simp
    · intro j' k' hk' hne
      rw [is_edge_add_edge cfg.MAXN p j k j' k' hjk hk hk']
      have : (decide (j' = j) && decide (k' = k)) = false := by
        rw [← Bool.decide_and]
        exact decide_eq_false (by omega)
      rw [this, Bool.or_false]
  · intro p es hNM hes j k hj hk
    rw [getAdMatrix_get cfg _ j k hj hk,
      is_edge_foldl cfg.MAXN es (fun e he => ⟨(hes e he).1, by have := (hes e he).2; omega⟩)
        _ j k (by omega)]
    have h0 : PosetObj.is_edge cfg.MAXN { p with graph := 0 } j k = false := by
      rw [is_edge_eq]
      simp
    rw [h0, Bool.false_or, decide_eq_true_eq]

theorem edgeBit_bijection_witness :
    edgeBit 4 1 2 < numGraphBits 4 ∧
    ((((([(0, 1), (1, 2)] : List (Nat × Nat)).foldl (fun q e => PosetObj.add_edge 4 q e.1 e.2)
        { PosetObj.new with graph := 0 }).GetAdMatrix ⟨4, 4, 5⟩).get 1 2 = true) ↔
      ((1, 2) : Nat × Nat) ∈ ([(0, 1), (1, 2)] : List (Nat × Nat))) :=
  ⟨(edgeBit_bijection ⟨4, 4, 5⟩).1 1 2 (by decide) (by decide),
    (edgeBit_bijection ⟨4, 4, 5⟩).2.2.2.2.2 PosetObj.new [(0, 1), (1, 2)] (by decide)
      (by decide) 1 2 (by decide) (by decide)⟩


theorem drop_range_prod (n : Nat) : ∀ stop, stop ≤ n →
    ((List.range (n + 1)).drop (stop + 1)).prod = n.descFactorial (n - stop) := by
  induction n with
  | zero =>
    intro stop h
    have : stop = 0 := by omega
    subst this
    simp
  | succ n ih =>
    intro stop h
    by_cases hs : stop = n + 1
    · subst hs
      rw [List.drop_of_length_le (by rw [List.length_range])]
      simp
    · have hle : stop ≤ n := by omega
      rw [List.range_succ, List.drop_append_of_le_length (by rw [List.length_range]; omega),
        List.prod_append, ih stop hle]
      have e : n + 1 - stop = (n - stop) + 1 := by omega
      rw [e, Nat.succ_descFactorial_succ]
      simp [Nat.mul_comm]

theorem fallingfactorial_desc (W n stop : Nat) (h : stop ≤ n) :
    fallingfactorial W n stop = n.descFactorial (n - stop) % 2 ^ W := by
  rw [fallingfactorial_eq, drop_range_prod n stop h]

/-- Claim C26, amended: for a poset with `k > 1` singletons among `n` vertices,
`calculateLinExtensionsSingleton` runs the counter on the `n − k + 1` vertices of the reduced
DAG, which keeps one singleton, and multiplies its count and every entry `t[i][j]` of the
reduced table by `n·(n−1)···(n−k+2)`, a product of `k − 1` factors, in `LinExtT` arithmetic. -/
theorem singleton_factor (cfg : NCT) (alloc : Nat) (scratch : Nat → Nat)
    (linExtTable : Nat → Nat → Nat) (poset : PosetObj) (info : PosetInfo) (c : Nat)
    (fillTable overflowCheck : Bool)
    (hK : 1 < info.numSingletons) (hKN : info.numSingletons ≤ cfg.N) (hN : cfg.N < 2 ^ 32) :
    calculateLinExtensionsSingleton cfg alloc scratch linExtTable poset info c fillTable
        overflowCheck =
      ((calculateLinExtensionsNew (linExtTBits cfg.MAXN) cfg.MAXN alloc false scratch scratch
          poset fillTable (cfg.N - info.numSingletons + 1)).map
        (fun r => (r.1, if fillTable then fillFullTable (linExtTBits cfg.MAXN) r.2 r.1
          (cfg.N - info.numSingletons + 1) else r.2))).map
        (fun r =>
          ((r.1 * (cfg.N.descFactorial (info.numSingletons - 1) % 2 ^ linExtTBits cfg.MAXN))
              % 2 ^ linExtTBits cfg.MAXN,
            singletonTable (fun i j =>
              if i < cfg.N - info.numSingletons + 1 ∧ j < cfg.N - info.numSingletons + 1 then
                (r.2 i j * (cfg.N.descFactorial (info.numSingletons - 1)
                  % 2 ^ linExtTBits cfg.MAXN)) % 2 ^ linExtTBits cfg.MAXN
              else r.2 i j)
              ((r.1 * (cfg.N.descFactorial (info.numSingletons - 1)
                % 2 ^ linExtTBits cfg.MAXN)) % 2 ^ linExtTBits cfg.MAXN)
              cfg.N info.numSingletons)) ∧
    (∀ (t : Nat → Nat → Nat) (e_p i j : Nat), i < cfg.N - info.numSingletons + 1 →
      j < cfg.N - info.numSingletons + 1 →
      singletonTable t e_p cfg.N info.numSingletons i j = t i j) := by
  obtain ⟨MAXN, N, C⟩ := cfg
  obtain ⟨K, P⟩ := info
  simp only at hK hKN hN ⊢
  have hred : (N + 2 ^ 32 - K + 1) % 2 ^ 32 = N - K + 1 := by
    rw [show (2 : Nat) ^ 32 = 4294967296 by norm_num] at hN ⊢; omega
  constructor
  · unfold calculateLinExtensionsSingleton
    simp only
    rw [if_neg (by omega), hred, fallingfactorial_desc _ N (N - K + 1) (by omega)]
    have e : N - (N - K + 1) = K - 1 := by omega
    rw [e]
  · intro t e_p i j hi hj
    unfold singletonTable
    rw [if_pos ⟨by omega, by omega⟩, if_pos ⟨by omega, by omega⟩]

theorem singleton_factor_witness :
    1 < (⟨2, 1⟩ : PosetInfo).numSingletons ∧
    (calculateLinExtensionsSingleton ⟨4, 4, 5⟩ 84 (fun _ => 0) (fun _ _ => 0)
      (PosetObj.mk 1 SortableStatus.UNFINISHED true false false) ⟨2, 1⟩ 0 true false).map
        Prod.fst =
      (((calculateLinExtensionsNew (linExtTBits 4) 4 84 false (fun _ => 0) (fun _ => 0)
          (PosetObj.mk 1 SortableStatus.UNFINISHED true false false) true (4 - 2 + 1)).map
        (fun r => (r.1, if true then fillFullTable (linExtTBits 4) r.2 r.1 (4 - 2 + 1)
          else r.2))).map
        (fun r => (r.1 * (Nat.descFactorial 4 (2 - 1) % 2 ^ linExtTBits 4))
          % 2 ^ linExtTBits 4)) :=
  ⟨by decide, by
    rw [(singleton_factor ⟨4, 4, 5⟩ 84 (fun _ => 0) (fun _ _ => 0)
      (PosetObj.mk 1 SortableStatus.UNFINISHED true false false) ⟨2, 1⟩ 0 true false
      (by decide) (by decide) (by norm_num)).1]
    simp only [Option.map_map]
    rfl⟩

/-- Counterexample to claim C26 as stated: for the poset on four vertices with the edge
`0 → 1` and the `k = 2` singletons `2`, `3`, the reduced DAG on three vertices has `3` linear
extensions and the function returns `12 = 3 · 4`, not `3 · (4 · 3) = 36`; the entry `[0][2]`
of the reduced table is `2` and becomes `8 = 2 · 4`. -/
theorem singleton_factor_counterexample :
    (calculateLinExtensionsNew (linExtTBits 4) 4 84 false (fun _ => 0) (fun _ => 0)
      (PosetObj.mk 1 SortableStatus.UNFINISHED true false false) true 3).map
        (fun r => (r.1, fillFullTable (linExtTBits 4) r.2 r.1 3 0 2)) = some (3, 2) ∧
    (calculateLinExtensionsSingleton ⟨4, 4, 5⟩ 84 (fun _ => 0) (fun _ _ => 0)
      (PosetObj.mk 1 SortableStatus.UNFINISHED true false false) ⟨2, 1⟩ 0 true false).map
        (fun r => (r.1, r.2 0 2)) = some (12, 8) ∧
    3 * (4 * 3) ≠ 12 ∧ 2 * (4 * 3) ≠ 8 ∧ (⟨2, 1⟩ : PosetInfo).numSingletons = 2 := by
  refine ⟨by decide, by decide, by decide, by decide, rfl⟩


theorem growCapacity_good (fl : FloatOps) (capacity : Nat) :
    capacityGood (growCapacity fl capacity) = true := by
  unfold growCapacity capacityGood
  generalize (if capacity < 2 ^ 5 then capacity * 5
    else if capacity < 3 * 2 ^ 9 then capacity * 2 else fl.grow capacity) = c1
  simp only [Bool.and_eq_true, decide_eq_true_eq]
  by_cases h2 : c1 % 2 = 0
  · simp only [if_pos h2]; split <;> omega
  · simp only [if_neg h2]; split <;> omega

theorem growCapacity_gt (fl : FloatOps) (capacity : Nat) (hc : 0 < capacity)
    (hgrow : ∀ c, 3 * 2 ^ 9 ≤ c → c < fl.grow c) : capacity < growCapacity fl capacity := by
  unfold growCapacity
  have h1 : capacity < (if capacity < 2 ^ 5 then capacity * 5
    else if capacity < 3 * 2 ^ 9 then capacity * 2 else fl.grow capacity) := by
    split
    · omega
    · split
      · omega
      · exact hgrow capacity (by omega)
  generalize (if capacity < 2 ^ 5 then capacity * 5
    else if capacity < 3 * 2 ^ 9 then capacity * 2 else fl.grow capacity) = c1 at h1
  simp only
  by_cases h2 : c1 % 2 = 0
  · simp only [if_pos h2]; split <;> omega
  · simp only [if_neg h2]; split <;> omega

theorem rehashInternal_capacity {E : Type} (w : PtrWidths) (hashOf : E → Nat) (dflt : E)
    (container : List E) (m m' : MyHashmap) (capacity : Nat)
    (h : rehashInternal w hashOf dflt container m capacity = some m') :
    m'.capacity = capacity := by
  unfold rehashInternal at h
  rw [Option.map_eq_some'] at h
  obtain ⟨temp, _, rfl⟩ := h
  rfl

theorem rehash_capacity_eq {E : Type} (w : PtrWidths) (fl : FloatOps) (hashOf : E → Nat)
    (dflt : E) (container : List E) (m m' : MyHashmap)
    (h : m.rehash w fl hashOf dflt container = some m') :
    m'.capacity = growCapacity fl m.capacity :=
  rehashInternal_capacity w hashOf dflt container m m' _ h

theorem findAndInsert_capacity {E : Type} (cfg : NCT) (w : PtrWidths) (fl : FloatOps)
    (toPoset : E → PosetObj) (hashOf : E → Nat) (ofCandidate : AnnotatedPosetObj → E)
    (dflt : E) (x : AnnotatedPosetObj) (hgrow : ∀ c, 3 * 2 ^ 9 ≤ c → c < fl.grow c) :
    ∀ retries m c m' c' idx, 0 < m.capacity →
      MyHashmap.findAndInsert cfg w fl toPoset hashOf ofCandidate dflt x retries m c =
        some (m', c', idx) →
      m'.capacity = m.capacity ∨
        (capacityGood m'.capacity = true ∧ m.capacity < m'.capacity) := by
  intro retries
  induction retries with
  | zero => intro m c m' c' idx _ h; simp [MyHashmap.findAndInsert] at h
  | succ retries ih =>
    intro m c m' c' idx hpos h
    unfold MyHashmap.findAndInsert at h
    split at h
    · exact absurd h (by simp)
    · rename_i m1 hm1
      have h1 : m1.capacity = m.capacity ∨
          (capacityGood m1.capacity = true ∧ m.capacity < m1.capacity) := by
        split at hm1
        · have e := rehash_capacity_eq w fl hashOf dflt c m m1 hm1
          right
          rw [e]
          exact ⟨growCapacity_good fl _, growCapacity_gt fl _ hpos hgrow⟩
        · simp only [Option.some.injEq] at hm1
          subst hm1
          exact Or.inl rfl
      have hpos1 : 0 < m1.capacity := by rcases h1 with h1 | h1 <;> omega
      split at h
      · simp only [Option.some.injEq, Prod.mk.injEq] at h
        rw [← h.1]; exact h1
      · split at h
        · exact absurd h (by simp)
        · rename_i m2 hm2
          have e := rehash_capacity_eq w fl hashOf dflt c m1 m2 hm2
          have hg := growCapacity_gt fl m1.capacity hpos1 hgrow
          have hgood := growCapacity_good fl m1.capacity
          rw [← e] at hg hgood
          rcases ih m2 c m' c' idx (by omega) h with h3 | ⟨h3, h4⟩
          · right
            rw [h3]
            exact ⟨hgood, by rcases h1 with h1 | h1 <;> omega⟩
          · exact Or.inr ⟨h3, by rcases h1 with h1 | h1 <;> omega⟩
      · simp only at h
        split at h
        · exact absurd h (by simp)
        · simp only [Option.some.injEq, Prod.mk.injEq] at h
          rw [← h.1]; exact h1

theorem clear_capacity (w : PtrWidths) (m m' : MyHashmap) (h : m.clear w = some m') :
    m'.capacity = m.capacity := by
  unfold MyHashmap.clear at h
  split at h
  · split at h
    · exact absurd h (by simp)
    · simp only [Option.some.injEq] at h
      subst h; rfl
  · simp only [Option.some.injEq] at h
    subst h; rfl

theorem exactFloatOps_grow (c : Nat) (hc : 3 * 2 ^ 9 ≤ c) : c < exactFloatOps.grow c := by
  unfold exactFloatOps
  simp only
  split
  · omega
  · split <;> omega

/-- Claim C28, amended: a shard built by `PosetMap` / `PosetMapExt` has the capacity
`max(993, ...)` that the constructor computes, which is not adjusted; after every rehash the
capacity is odd and not a multiple of 3, and every rehash of a shard with a positive capacity
strictly increases it (the growth by the factor `1.7`, `1.5` or `1.3` being an increase);
`findAndInsert` leaves the capacity as it is or rehashes, and `clear` leaves it as it is. -/
theorem rehash_capacity (w : PtrWidths) (fl : FloatOps)
    (hgrow : ∀ c, 3 * 2 ^ 9 ≤ c → c < fl.grow c) :
    (∀ (E : Type) (hashOf : E → Nat) (dflt : E) (container : List E) (m m' : MyHashmap),
      m.rehash w fl hashOf dflt container = some m' →
        capacityGood m'.capacity = true ∧ (0 < m.capacity → m.capacity < m'.capacity)) ∧
    (∀ (E : Type) (cfg : NCT) (toPoset : E → PosetObj) (hashOf : E → Nat)
      (ofCandidate : AnnotatedPosetObj → E) (dflt : E) (x : AnnotatedPosetObj) (retries : Nat)
      (m : MyHashmap) (c : List E) (m' : MyHashmap) (c' : List E) (idx : Nat),
      0 < m.capacity →
      MyHashmap.findAndInsert cfg w fl toPoset hashOf ofCandidate dflt x retries m c =
        some (m', c', idx) →
      m'.capacity = m.capacity ∨
        (capacityGood m'.capacity = true ∧ m.capacity < m'.capacity)) ∧
    (∀ m m', MyHashmap.clear w m = some m' → m'.capacity = m.capacity) ∧
    (∀ threads initialCapacity, ∀ m ∈ (PosetMap.ofCapacity threads initialCapacity).SposetMap,
      m.capacity = hmapInitialCapacity initialCapacity (shardCount threads initialCapacity) ∧
      993 ≤ m.capacity) ∧
    (∀ threads initialCapacity relocated,
      ∀ m ∈ (PosetMapExt.ofCapacity threads initialCapacity relocated).SposetMap,
      m.capacity = hmapInitialCapacity initialCapacity (shardCount threads initialCapacity) ∧
      993 ≤ m.capacity) := by
  refine ⟨?_, ?_, clear_capacity w, ?_, ?_⟩
  · intro E hashOf dflt container m m' h
    have e := rehash_capacity_eq w fl hashOf dflt container m m' h
    rw [e]
    exact ⟨growCapacity_good fl _, fun hpos => growCapacity_gt fl _ hpos hgrow⟩
  · intro E cfg toPoset hashOf ofCandidate dflt x retries m c m' c' idx hpos h
    exact findAndInsert_capacity cfg w fl toPoset hashOf ofCandidate dflt x hgrow retries m c
      m' c' idx hpos h
  · intro threads initialCapacity m hm
    unfold PosetMap.ofCapacity PosetMap.new at hm
    simp only [List.mem_replicate] at hm
    obtain ⟨_, rfl⟩ := hm
    refine ⟨rfl, ?_⟩
    show 993 ≤ hmapInitialCapacity _ _
    unfold hmapInitialCapacity
    exact Nat.le_max_left _ _
  · intro threads initialCapacity relocated m hm
    unfold PosetMapExt.ofCapacity PosetMapExt.new at hm
    simp only [List.mem_map, List.mem_range] at hm
    obtain ⟨i, _, rfl⟩ := hm
    have hcap : ∀ b : Bool, (if b = true then
        (MyHashmap.new ptrExt (hmapInitialCapacity initialCapacity
          (shardCount threads initialCapacity))).moved
        else MyHashmap.new ptrExt (hmapInitialCapacity initialCapacity
          (shardCount threads initialCapacity))).capacity =
        hmapInitialCapacity initialCapacity (shardCount threads initialCapacity) := by
      intro b; cases b <;> rfl
    rw [hcap]
    refine ⟨rfl, ?_⟩
    unfold hmapInitialCapacity
    exact Nat.le_max_left _ _

theorem rehash_capacity_witness :
    (∀ c, 3 * 2 ^ 9 ≤ c → c < exactFloatOps.grow c) ∧
    ∀ m ∈ (PosetMap.ofCapacity 1 1).SposetMap,
      m.capacity = hmapInitialCapacity 1 (shardCount 1 1) ∧ 993 ≤ m.capacity :=
  ⟨exactFloatOps_grow, (rehash_capacity ptrSmall exactFloatOps exactFloatOps_grow).2.2.2.1 1 1⟩

/-- Counterexample to claim C28 as stated: the map `PosetMap{1}` that the search builds for
every backward layer has, on a build with one thread, one shard of capacity `993 = 3 · 331`,
and the child map `PosetMapExt` for `initialCapacity = 4096` has one shard of the even
capacity `7168`. -/
theorem capacity_counterexample :
    (PosetMap.ofCapacity 1 1).SposetMap.map (fun m => m.capacity) = [993] ∧
    capacityGood 993 = false ∧ 993 = 3 * 331 ∧
    (PosetMapExt.ofCapacity 1 4096 (fun _ => false)).SposetMap.map (fun m => m.capacity)
      = [7168] ∧
    capacityGood 7168 = false := by
  refine ⟨by decide, by decide, by decide, by decide, by decide⟩


theorem list_sum_range (F : Nat → Nat) (n : Nat) :
    ((List.range n).map F).sum = ∑ i in Finset.range n, F i := by
  induction n with
  | zero => simp
  | succ n ih =>
    rw [List.range_succ, List.map_append, List.sum_append, ih, Finset.sum_range_succ]
    simp

theorem filter_length_range (p : Nat → Bool) (n : Nat) :
    ((List.range n).filter p).length = ∑ i in Finset.range n, if p i = true then 1 else 0 := by
  induction n with
  | zero => simp
  | succ n ih =>
    rw [List.range_succ, List.filter_append, List.length_append, ih, Finset.sum_range_succ]
    congr 1
    by_cases h : p n = true
    · simp [h]
    · simp [h]

theorem square_sum_split (f : Nat → Nat → Nat) (n : Nat) :
    ∑ i in Finset.range n, ∑ u in Finset.range n, f i u =
      ∑ j in Finset.range n, (f j j + ∑ i in Finset.range j, (f i j + f j i)) := by
  induction n with
  | zero => simp
  | succ n ih =>
    rw [Finset.sum_range_succ, Finset.sum_range_succ (fun j => f j j + _)]
    have h1 : ∑ i in Finset.range n, ∑ u in Finset.range (n + 1), f i u =
        ∑ i in Finset.range n, ∑ u in Finset.range n, f i u + ∑ i in Finset.range n, f i n := by
      rw [← Finset.sum_add_distrib]
      apply Finset.sum_congr rfl
      intro i _
      rw [Finset.sum_range_succ]
    have h2 : ∑ i in Finset.range n, (f i n + f n i) =
        ∑ i in Finset.range n, f i n + ∑ i in Finset.range n, f n i := Finset.sum_add_distrib
    rw [h1, ih, Finset.sum_range_succ, h2]
    ring

theorem unrelated_count (n : Nat) (C : Nat → Nat → Bool)
    (hirr : ∀ i, i < n → C i i = false)
    (hanti : ∀ i j, i < n → j < n → C i j = true → C j i = false) :
    (∑ i in Finset.range n, ∑ u in Finset.range n, if C i u = true then 1 else 0) +
      (∑ j in Finset.range n, ∑ i in Finset.range j,
        if (!C i j && !C j i) = true then 1 else 0) = n * (n - 1) / 2 := by
  rw [square_sum_split, ← Finset.sum_add_distrib]
  have hj : ∀ j ∈ Finset.range n,
      ((if C j j = true then 1 else 0) +
        ∑ i in Finset.range j, ((if C i j = true then 1 else 0) +
          (if C j i = true then 1 else 0))) +
        (∑ i in Finset.range j, if (!C i j && !C j i) = true then 1 else 0) = j := by
    intro j hj
    rw [Finset.mem_range] at hj
    rw [hirr j hj]
    simp only [Bool.false_eq_true, if_false, Nat.zero_add]
    rw [← Finset.sum_add_distrib]
    have : ∀ i ∈ Finset.range j, ((if C i j = true then 1 else 0) +
        (if C j i = true then 1 else 0)) + (if (!C i j && !C j i) = true then 1 else 0) = 1 := by
      intro i hi
      rw [Finset.mem_range] at hi
      have ha := hanti i j (by omega) hj
      have hb := hanti j i hj (by omega)
      cases h1 : C i j <;> cases h2 : C j i <;> simp_all
    rw [Finset.sum_congr rfl this]
    simp
  rw [Finset.sum_congr rfl hj]
  rw [Finset.sum_range_id]

theorem closure_trans (n : Nat) (m : AdjacencyMatrix) (hw : AdjacencyMatrix.wf n m = true)
    (i j k : Nat) (h1 : (AdjacencyMatrix.TransitiveClosure n m).get i j = true)
    (h2 : (AdjacencyMatrix.TransitiveClosure n m).get j k = true) :
    (AdjacencyMatrix.TransitiveClosure n m).get i k = true := by
  rw [closure_spec n m hw] at h1 h2 ⊢
  exact h1.trans h2

theorem isDag_irrefl (n : Nat) (m : AdjacencyMatrix) (hd : AdjacencyMatrix.isDag n m = true)
    (i : Nat) (hi : i < n) : (AdjacencyMatrix.TransitiveClosure n m).get i i = false := by
  unfold AdjacencyMatrix.isDag at hd
  rw [List.all_eq_true] at hd
  have := hd i (List.mem_range.mpr hi)
  simpa using this

theorem totalOut_eq (n : Nat) (cl : AdjacencyMatrix) (hw : AdjacencyMatrix.wf n cl = true)
    (hn : n ≤ 32) :
    ((List.range n).map (fun i =>
      ((AdjacencyMatrix.writeToGraph n cl).outLists.getD i []).length)).sum =
      ∑ i in Finset.range n, ∑ u in Finset.range n, if cl.get i u = true then 1 else 0 := by
  rw [list_sum_range]
  apply Finset.sum_congr rfl
  intro i _
  rw [writeToGraph_out n cl hw hn i, filter_length_range]

theorem numUnrelatedPairs_eq (n : Nat) (cl : AdjacencyMatrix) :
    numUnrelatedPairs n cl = ∑ j in Finset.range n, ∑ i in Finset.range j,
        if (!cl.get i j && !cl.get j i) = true then 1 else 0 := by
  unfold numUnrelatedPairs
  rw [list_sum_range]
  apply Finset.sum_congr rfl
  intro j _
  rw [filter_length_range]

/-- Claim C29, amended: for a child whose closure lists are those of the transitive closure of
an acyclic graph, `isEasilySortableUnrelatedPairs(cLeft)` returns true if and only if
`cLeft ≤ 6` and the number of unordered pairs of incomparable elements (`n·(n−1)/2` minus the
number of related pairs of the closure) is at most `cLeft`. -/
theorem unrelatedPairs_spec (cfg : NCT) (c : ExpandedPosetChild) (m : AdjacencyMatrix)
    (cLeft : Nat) (hn : cfg.N ≤ 32) (hw : AdjacencyMatrix.wf cfg.N m = true)
    (hd : AdjacencyMatrix.isDag cfg.N m = true)
    (hc : c.niceGraphClosure =
      AdjacencyMatrix.writeToGraph cfg.N (AdjacencyMatrix.TransitiveClosure cfg.N m)) :
    (c.isEasilySortableUnrelatedPairs cfg cLeft = true ↔
      cLeft ≤ 6 ∧ numUnrelatedPairs cfg.N (AdjacencyMatrix.TransitiveClosure cfg.N m) ≤ cLeft) ∧
    numUnrelatedPairs cfg.N (AdjacencyMatrix.TransitiveClosure cfg.N m) +
      ((List.range cfg.N).map (fun i => ((List.range cfg.N).filter (fun u =>
        (AdjacencyMatrix.TransitiveClosure cfg.N m).get i u)).length)).sum =
      cfg.N * (cfg.N - 1) / 2 := by
  have hcw := closure_wf cfg.N m hw
  have hcount := unrelated_count cfg.N
    (fun i j => (AdjacencyMatrix.TransitiveClosure cfg.N m).get i j)
    (fun i hi => isDag_irrefl cfg.N m hd i hi)
    (fun i j hi hj h => by
      by_contra hc2
      have h2 : (AdjacencyMatrix.TransitiveClosure cfg.N m).get j i = true := by
        simpa using hc2
      have := closure_trans cfg.N m hw i j i h h2
      rw [isDag_irrefl cfg.N m hd i hi] at this
      exact absurd this (by simp))
  simp only at hcount
  have htot := totalOut_eq cfg.N _ hcw hn
  have hun := numUnrelatedPairs_eq cfg.N (AdjacencyMatrix.TransitiveClosure cfg.N m)
  have hbound : cfg.N * (cfg.N - 1) / 2 ≤ 496 := by
    have : cfg.N * (cfg.N - 1) ≤ 32 * 31 := Nat.mul_le_mul hn (by omega)
    omega
  constructor
  · unfold ExpandedPosetChild.isEasilySortableUnrelatedPairs
    rw [hc]
    simp only
    rw [htot]
    by_cases h6 : cLeft ≤ 6
    · rw [if_pos h6, decide_eq_true_eq, hun]
      rw [show (2 : Nat) ^ 32 = 4294967296 by norm_num]
      omega
    · rw [if_neg h6]
      simp [h6]
  · rw [hun]
    have : ((List.range cfg.N).map (fun i => ((List.range cfg.N).filter (fun u =>
        (AdjacencyMatrix.TransitiveClosure cfg.N m).get i u)).length)).sum =
        ∑ i in Finset.range cfg.N, ∑ u in Finset.range cfg.N,
          if (AdjacencyMatrix.TransitiveClosure cfg.N m).get i u = true then 1 else 0 := by
      rw [list_sum_range]
      apply Finset.sum_congr rfl
      intro i _
      rw [filter_length_range]
    rw [this]
    omega

theorem unrelatedPairs_spec_witness :
    (3 : Nat) ≤ 32 ∧ AdjacencyMatrix.wf 3 [2, 0, 0] = true ∧
    AdjacencyMatrix.isDag 3 [2, 0, 0] = true ∧
    ((ExpandedPosetChild.ofMatrix ⟨3, 3, 3⟩ [2, 0, 0] ⟨1, 1⟩ 3).isEasilySortableUnrelatedPairs
        ⟨3, 3, 3⟩ 2 = true ↔
      2 ≤ 6 ∧ numUnrelatedPairs 3 (AdjacencyMatrix.TransitiveClosure 3 [2, 0, 0]) ≤ 2) :=
  ⟨by decide, by decide, by decide,
    (unrelatedPairs_spec ⟨3, 3, 3⟩ (ExpandedPosetChild.ofMatrix ⟨3, 3, 3⟩ [2, 0, 0] ⟨1, 1⟩ 3)
      [2, 0, 0] 2 (by decide) (by decide) (by decide) rfl).1⟩

/-- Counterexample to claim C29 as stated: the chain `0 → 1 → 2` has no pair of incomparable
elements, and with `cLeft = 7` the test returns false. -/
theorem unrelatedPairs_counterexample :
    (ExpandedPosetChild.ofMatrix ⟨3, 3, 10⟩ [2, 4, 0] ⟨0, 0⟩ 1).isEasilySortableUnrelatedPairs
        ⟨3, 3, 10⟩ 7 = false ∧
    numUnrelatedPairs 3 (AdjacencyMatrix.TransitiveClosure 3 [2, 4, 0]) = 0 ∧
    (ExpandedPosetChild.ofMatrix ⟨3, 3, 10⟩ [2, 4, 0] ⟨0, 0⟩ 1).isEasilySortableUnrelatedPairs
        ⟨3, 3, 10⟩ 6 = true := by
  refine ⟨by decide, by decide, by decide⟩


theorem foldl_graph_congr {α : Type} (f : PosetObj → α → PosetObj)
    (hf : ∀ p q x, p.graph = q.graph → (f p x).graph = (f q x).graph) (l : List α) :
    ∀ p q : PosetObj, p.graph = q.graph → (l.foldl f p).graph = (l.foldl f q).graph := by
  induction l with
  | nil => intro p q h; exact h
  | cons a l ih => intro p q h; exact ih _ _ (hf p q a h)

theorem add_edge_graph_congr (M j k : Nat) (p q : PosetObj) (h : p.graph = q.graph) :
    (p.add_edge M j k).graph = (q.add_edge M j k).graph := by
  unfold PosetObj.add_edge
  simp only [h]

theorem add_edgeCond_graph_congr (M j k : Nat) (v : Bool) (p q : PosetObj)
    (h : p.graph = q.graph) :
    (p.add_edgeCond M j k v).graph = (q.add_edgeCond M j k v).graph := by
  unfold PosetObj.add_edgeCond
  cases v
  · exact h
  · exact add_edge_graph_congr M j k p q h

theorem setGraphLoop_graph_congr (M np : Nat) (edge : Nat → Nat → Bool) (p q : PosetObj)
    (h : p.graph = q.graph) :
    (setGraphLoop M np edge p).graph = (setGraphLoop M np edge q).graph := by
  unfold setGraphLoop
  apply foldl_graph_congr _ _ _ p q h
  intro p q i h
  apply foldl_graph_congr _ _ _ p q h
  intro p q j h
  exact add_edgeCond_graph_congr M i j _ p q h

theorem setPairEdges_graph_congr (cfg : NCT) (info : PosetInfo) (p q : PosetObj)
    (h : p.graph = q.graph) :
    (setPairEdges cfg info p).graph = (setPairEdges cfg info q).graph := by
  unfold setPairEdges
  simp only
  have h1 : (if info.numPairs ≥ 1 then
        p.add_edge cfg.MAXN (info.GetFirstInPair cfg) (info.GetFirstInPair cfg + 1) else p).graph =
      (if info.numPairs ≥ 1 then
        q.add_edge cfg.MAXN (info.GetFirstInPair cfg) (info.GetFirstInPair cfg + 1) else q).graph := by
    split
    · exact add_edge_graph_congr _ _ _ p q h
    · exact h
  split
  · exact add_edge_graph_congr _ _ _ _ _ h1
  · exact h1

theorem setgraphPermutation_graph (cfg : NCT) (p : PosetObj) (adMatrix : AdjacencyMatrix)
    (perm : List Nat) (info : PosetInfo) :
    (p.SetgraphPermutation cfg adMatrix perm info).graph =
      (PosetObj.new.SetgraphPermutation cfg adMatrix perm info).graph := by
  unfold PosetObj.SetgraphPermutation
  exact setPairEdges_graph_congr cfg info _ _ (setGraphLoop_graph_congr _ _ _ _ _ rfl)

theorem setgraphPermutationReverse_graph (cfg : NCT) (p : PosetObj)
    (adMatrix : AdjacencyMatrix) (perm : List Nat) (info : PosetInfo) :
    (p.SetgraphPermutationReverse cfg adMatrix perm info).graph =
      (PosetObj.new.SetgraphPermutationReverse cfg adMatrix perm info).graph := by
  unfold PosetObj.SetgraphPermutationReverse
  exact setPairEdges_graph_congr cfg info _ _ (setGraphLoop_graph_congr _ _ _ _ _ rfl)

theorem streamIds_fw (n r : Nat) (g : NiceGraph) :
    streamIds n r g false =
      (List.range (n / 3)).foldl
        (fun ids _ => canonRound r g
          ((List.range r).map (fun node =>
            23 * (g.outLists.getD node []).length + (g.inLists.getD node []).length)) ids)
        ((List.range r).map (fun node =>
          canonIdInit (g.outLists.getD node []).length (g.inLists.getD node []).length)) := by
  unfold streamIds
  simp

theorem streamIds_bw (n r : Nat) (g : NiceGraph) :
    streamIds n r g true =
      (List.range (n / 3)).foldl
        (fun ids _ => canonRound r g
          ((List.range r).map (fun node =>
            23 * (g.inLists.getD node []).length + (g.outLists.getD node []).length)) ids)
        ((List.range r).map (fun node =>
          canonIdInit (g.inLists.getD node []).length (g.outLists.getD node []).length)) := by
  unfold streamIds
  simp

/-- The graph bits written by `reorderGraphCanonically` are those of the reverse stream when
the forward sequence compares smaller, and those of the forward stream otherwise. -/
theorem reorderGraphCanonically_graph (cfg : NCT) (adMatrix adMatrixClosure : AdjacencyMatrix)
    (info : PosetInfo) (poset : PosetObj) (g : NiceGraph) :
    (reorderGraphCanonically cfg adMatrix adMatrixClosure info poset g).graph =
      streamGraph cfg adMatrix adMatrixClosure info g
        (lexicographical_compare (streamSeq cfg adMatrixClosure info g false)
          (streamSeq cfg adMatrixClosure info g true)) := by
  unfold reorderGraphCanonically streamGraph streamSeq streamPermutation
  simp only [streamIds_fw, streamIds_bw, if_true, Bool.false_eq_true, if_false]
  split
  · rw [setgraphPermutationReverse_graph]
  · rw [setgraphPermutation_graph]

theorem lexicographical_compare_asymm : ∀ a b : List Nat,
    lexicographical_compare a b = true → lexicographical_compare b a = false := by
  intro a
  induction a with
  | nil =>
    intro b h
    cases b with
    | nil => rfl
    | cons y ys => rfl
  | cons x xs ih =>
    intro b h
    cases b with
    | nil => simp [lexicographical_compare] at h
    | cons y ys =>
      unfold lexicographical_compare at h ⊢
      by_cases h1 : x < y
      · rw [if_neg (by omega), if_pos h1]
      · rw [if_neg h1] at h
        by_cases h2 : y < x
        · rw [if_pos h2] at h; exact absurd h (by simp)
        · rw [if_neg h2] at h
          rw [if_neg h2, if_neg h1]
          exact ih ys h

theorem lexicographical_compare_iff : ∀ a b : List Nat,
    lexicographical_compare a b = true ↔ a < b := by
  intro a
  induction a with
  | nil =>
    intro b
    cases b with
    | nil => simp [lexicographical_compare]
    | cons y ys =>
      simp only [lexicographical_compare, true_iff]
      exact List.Lex.nil
  | cons x xs ih =>
    intro b
    cases b with
    | nil => simp [lexicographical_compare]
    | cons y ys =>
      unfold lexicographical_compare
      by_cases h1 : x < y
      · rw [if_pos h1]
        simp only [true_iff]
        exact List.Lex.rel h1
      · rw [if_neg h1]
        by_cases h2 : y < x
        · rw [if_pos h2]
          simp only [Bool.false_eq_true, false_iff]
          intro h
          cases h with
          | rel h => exact h1 h
          | cons h => exact absurd h2 (lt_irrefl _)
        · rw [if_neg h2, ih ys]
          have e : x = y := by omega
          subst e
          constructor
          · intro h; exact List.Lex.cons h
          · intro h
            cases h with
            | rel h => exact absurd h (lt_irrefl _)
            | cons h => exact h

/-- Claim C27, amended: `reorderGraphCanonically` serializes into `graphBits` the ordering of
the reverse stream when the reordered refined-id sequence of the forward stream is
lexicographically smaller than that of the reverse stream, and the ordering of the forward
stream otherwise: the stream that is serialized is the one whose sequence is the
lexicographically larger of the two, the forward one when they are equal. -/
theorem canonical_stream_choice (cfg : NCT) (adMatrix adMatrixClosure : AdjacencyMatrix)
    (info : PosetInfo) (poset : PosetObj) (g : NiceGraph) :
    (streamSeq cfg adMatrixClosure info g false < streamSeq cfg adMatrixClosure info g true →
      (reorderGraphCanonically cfg adMatrix adMatrixClosure info poset g).graph =
        streamGraph cfg adMatrix adMatrixClosure info g true) ∧
    (¬ streamSeq cfg adMatrixClosure info g false < streamSeq cfg adMatrixClosure info g true →
      (reorderGraphCanonically cfg adMatrix adMatrixClosure info poset g).graph =
        streamGraph cfg adMatrix adMatrixClosure info g false) ∧
    (∃ rev, (reorderGraphCanonically cfg adMatrix adMatrixClosure info poset g).graph =
        streamGraph cfg adMatrix adMatrixClosure info g rev ∧
      ¬ streamSeq cfg adMatrixClosure info g rev < streamSeq cfg adMatrixClosure info g (!rev))
    := by
  have hg := reorderGraphCanonically_graph cfg adMatrix adMatrixClosure info poset g
  refine ⟨fun h => ?_, fun h => ?_, ?_⟩
  · rw [hg, (lexicographical_compare_iff _ _).mpr h]
  · have : lexicographical_compare (streamSeq cfg adMatrixClosure info g false)
        (streamSeq cfg adMatrixClosure info g true) = false := by
      rw [← Bool.not_eq_true, lexicographical_compare_iff]; exact h
    rw [hg, this]
  · by_cases h : lexicographical_compare (streamSeq cfg adMatrixClosure info g false)
        (streamSeq cfg adMatrixClosure info g true) = true
    · refine ⟨true, by rw [hg, h], ?_⟩
      have := lexicographical_compare_asymm _ _ h
      rw [← lexicographical_compare_iff]
      show ¬ lexicographical_compare (streamSeq cfg adMatrixClosure info g true)
        (streamSeq cfg adMatrixClosure info g false) = true
      rw [this]
      simp
    · refine ⟨false, ?_, ?_⟩
      · rw [hg]
        simp only [Bool.not_eq_true] at h
        rw [h]
      · rw [← lexicographical_compare_iff]
        exact h

theorem canonical_stream_choice_witness :
    streamSeq ⟨3, 3, 3⟩ [6, 0, 0] ⟨0, 0⟩ (AdjacencyMatrix.writeToGraph 3 [6, 0, 0]) false <
      streamSeq ⟨3, 3, 3⟩ [6, 0, 0] ⟨0, 0⟩ (AdjacencyMatrix.writeToGraph 3 [6, 0, 0]) true ∧
    (reorderGraphCanonically ⟨3, 3, 3⟩ [6, 0, 0] [6, 0, 0] ⟨0, 0⟩ PosetObj.new
      (AdjacencyMatrix.writeToGraph 3 [6, 0, 0])).graph =
      streamGraph ⟨3, 3, 3⟩ [6, 0, 0] [6, 0, 0] ⟨0, 0⟩
        (AdjacencyMatrix.writeToGraph 3 [6, 0, 0]) true :=
  have h : streamSeq ⟨3, 3, 3⟩ [6, 0, 0] ⟨0, 0⟩ (AdjacencyMatrix.writeToGraph 3 [6, 0, 0]) false <
      streamSeq ⟨3, 3, 3⟩ [6, 0, 0] ⟨0, 0⟩ (AdjacencyMatrix.writeToGraph 3 [6, 0, 0]) true :=
    (lexicographical_compare_iff _ _).mp (by decide)
  ⟨h, (canonical_stream_choice ⟨3, 3, 3⟩ [6, 0, 0] [6, 0, 0] ⟨0, 0⟩ PosetObj.new
    (AdjacencyMatrix.writeToGraph 3 [6, 0, 0])).1 h⟩

/-- Counterexample to claim C27 as stated: for the poset `0 → 1`, `0 → 2` on three vertices
the reordered id sequence of the forward stream is the lexicographically smaller one, and the
graph bits written are `6`, the serialization of the reverse stream, not `3`, that of the
forward stream. -/
theorem canonical_stream_counterexample :
    lexicographical_compare
      (streamSeq ⟨3, 3, 3⟩ [6, 0, 0] ⟨0, 0⟩ (AdjacencyMatrix.writeToGraph 3 [6, 0, 0]) false)
      (streamSeq ⟨3, 3, 3⟩ [6, 0, 0] ⟨0, 0⟩ (AdjacencyMatrix.writeToGraph 3 [6, 0, 0]) true)
      = true ∧
    AdjacencyMatrix.TransitiveClosure 3 [6, 0, 0] = [6, 0, 0] ∧
    (ExpandedPosetChild.ofMatrix ⟨3, 3, 3⟩ [6, 0, 0] ⟨0, 0⟩ 2).poset.graph = 6 ∧
    streamGraph ⟨3, 3, 3⟩ [6, 0, 0] [6, 0, 0] ⟨0, 0⟩
      (AdjacencyMatrix.writeToGraph 3 [6, 0, 0]) false = 3 ∧
    streamGraph ⟨3, 3, 3⟩ [6, 0, 0] [6, 0, 0] ⟨0, 0⟩
      (AdjacencyMatrix.writeToGraph 3 [6, 0, 0]) true = 6 := by
  refine ⟨by decide, by decide, by decide, by decide, by decide⟩


theorem evens_range (k : Nat) :
    (List.range (2 * k)).filter (fun i => decide (i % 2 = 0)) =
      (List.range k).map (fun j => 2 * j) := by
  induction k with
  | zero => rfl
  | succ k ih =>
    have e : 2 * (k + 1) = 2 * k + 1 + 1 := by omega
    rw [e, List.range_succ, List.range_succ, List.filter_append, List.filter_append, ih,
      List.range_succ, List.map_append]
    have h1 : decide (2 * k % 2 = 0) = true := decide_eq_true (by omega)
    have h2 : decide ((2 * k + 1) % 2 = 0) = false := decide_eq_false (by omega)
    simp [List.filter, h1, h2]

theorem dup_getD (l : List Nat) : ∀ j, j < l.length →
    (l.flatMap (fun u => [u, u])).getD (2 * j) 0 = l.getD j 0 ∧
    (l.flatMap (fun u => [u, u])).getD (2 * j + 1) 0 = l.getD j 0 := by
  induction l with
  | nil => intro j hj; simp at hj
  | cons a l ih =>
    intro j hj
    cases j with
    | zero => simp [List.flatMap_cons]
    | succ j =>
      have := ih j (by simpa using hj)
      have e1 : 2 * (j + 1) = 2 * j + 1 + 1 := by omega
      rw [e1, List.flatMap_cons]
      simp only [List.cons_append, List.nil_append, List.getD_cons_succ]
      exact this

theorem dup_length (l : List Nat) : (l.flatMap (fun u => [u, u])).length = 2 * l.length := by
  induction l with
  | nil => rfl
  | cons a l ih =>
    rw [List.flatMap_cons, List.length_append, ih]
    simp; omega

/-- The scan of the child pairs: it stops with `none` exactly when a pair has both children
sortable, and otherwise collects the survivors. -/
theorem scanPairs_spec (posetList : List AnnotatedPosetObj) (edgeList : List Nat) (e0 : Nat) :
    ∀ (l : List Nat) (acc : List Nat × Bool),
      (∀ i ∈ l, statusAt posetList (edgeList.getD (e0 + 1 + i) 0) ≠ SortableStatus.UNFINISHED ∨
        statusAt posetList (edgeList.getD (e0 + 1 + i + 1) 0) ≠ SortableStatus.UNFINISHED) →
      scanPairs posetList edgeList (e0 + 1) l acc =
        if bothSortable posetList (l.map (fun i =>
            (edgeList.getD (e0 + 1 + i) 0, edgeList.getD (e0 + 1 + i + 1) 0))) = true then none
        else some (acc.1 ++ (survivors posetList (l.map (fun i =>
            (edgeList.getD (e0 + 1 + i) 0, edgeList.getD (e0 + 1 + i + 1) 0)))).flatMap
              (fun u => [u, u]),
          acc.2 && (survivors posetList (l.map (fun i =>
            (edgeList.getD (e0 + 1 + i) 0, edgeList.getD (e0 + 1 + i + 1) 0)))).isEmpty) := by
  intro l
  induction l with
  | nil =>
    intro acc _
    simp [scanPairs, bothSortable, survivors]
  | cons i rest ih =>
    intro acc hres
    have hr := hres i (List.mem_cons_self _ _)
    have hrest : ∀ i ∈ rest,
        statusAt posetList (edgeList.getD (e0 + 1 + i) 0) ≠ SortableStatus.UNFINISHED ∨
        statusAt posetList (edgeList.getD (e0 + 1 + i + 1) 0) ≠ SortableStatus.UNFINISHED :=
      fun x hx => hres x (List.mem_cons_of_mem _ hx)
    unfold scanPairs
    simp only [List.map_cons]
    unfold statusAt at hr
    by_cases hyy : (posetList.getD (edgeList.getD (e0 + 1 + i) 0) AnnotatedPosetObj.new).poset.status
        = SortableStatus.YES ∧
        (posetList.getD (edgeList.getD (e0 + 1 + i + 1) 0) AnnotatedPosetObj.new).poset.status
        = SortableStatus.YES
    · rw [if_pos hyy]
      have : bothSortable posetList ((edgeList.getD (e0 + 1 + i) 0,
          edgeList.getD (e0 + 1 + i + 1) 0) :: rest.map (fun i =>
            (edgeList.getD (e0 + 1 + i) 0, edgeList.getD (e0 + 1 + i + 1) 0))) = true := by
        unfold bothSortable statusAt
        rw [List.any_cons, decide_eq_true hyy.1, decide_eq_true hyy.2]
        rfl
      rw [if_pos this]
    · rw [if_neg hyy]
      have hb : bothSortable posetList ((edgeList.getD (e0 + 1 + i) 0,
          edgeList.getD (e0 + 1 + i + 1) 0) :: rest.map (fun i =>
            (edgeList.getD (e0 + 1 + i) 0, edgeList.getD (e0 + 1 + i + 1) 0))) =
          bothSortable posetList (rest.map (fun i =>
            (edgeList.getD (e0 + 1 + i) 0, edgeList.getD (e0 + 1 + i + 1) 0))) := by
        unfold bothSortable statusAt
        rw [List.any_cons]
        have : (decide ((posetList.getD (edgeList.getD (e0 + 1 + i) 0)
            AnnotatedPosetObj.new).poset.status = SortableStatus.YES) &&
          decide ((posetList.getD (edgeList.getD (e0 + 1 + i + 1) 0)
            AnnotatedPosetObj.new).poset.status = SortableStatus.YES)) = false := by
          rw [← Bool.decide_and]; exact decide_eq_false hyy
        rw [this, Bool.false_or]
      rw [hb]
      by_cases hno : (posetList.getD (edgeList.getD (e0 + 1 + i) 0)
            AnnotatedPosetObj.new).poset.status = SortableStatus.NO ∨
          (posetList.getD (edgeList.getD (e0 + 1 + i + 1) 0)
            AnnotatedPosetObj.new).poset.status = SortableStatus.NO
      · rw [if_pos hno, ih acc hrest]
        have hs : survivors posetList ((edgeList.getD (e0 + 1 + i) 0,
            edgeList.getD (e0 + 1 + i + 1) 0) :: rest.map (fun i =>
              (edgeList.getD (e0 + 1 + i) 0, edgeList.getD (e0 + 1 + i + 1) 0))) =
            survivors posetList (rest.map (fun i =>
              (edgeList.getD (e0 + 1 + i) 0, edgeList.getD (e0 + 1 + i + 1) 0))) := by
          unfold survivors statusAt
          rw [List.filterMap_cons]
          simp only [if_pos hno]
        rw [hs]
      · rw [if_neg hno]
        by_cases hy1 : (posetList.getD (edgeList.getD (e0 + 1 + i) 0)
            AnnotatedPosetObj.new).poset.status = SortableStatus.YES
        · rw [if_pos hy1, ih _ hrest]
          have hs : survivors posetList ((edgeList.getD (e0 + 1 + i) 0,
              edgeList.getD (e0 + 1 + i + 1) 0) :: rest.map (fun i =>
                (edgeList.getD (e0 + 1 + i) 0, edgeList.getD (e0 + 1 + i + 1) 0))) =
              edgeList.getD (e0 + 1 + i + 1) 0 :: survivors posetList (rest.map (fun i =>
                (edgeList.getD (e0 + 1 + i) 0, edgeList.getD (e0 + 1 + i + 1) 0))) := by
            unfold survivors statusAt
            rw [List.filterMap_cons]
            simp only [if_neg hno, if_pos hy1]
          rw [hs]
          simp [List.flatMap_cons]
        · rw [if_neg hy1]
          have hy2 : (posetList.getD (edgeList.getD (e0 + 1 + i + 1) 0)
              AnnotatedPosetObj.new).poset.status = SortableStatus.YES := by
            rcases hr with hr | hr
            · exfalso
              cases hst : (posetList.getD (edgeList.getD (e0 + 1 + i) 0)
                AnnotatedPosetObj.new).poset.status with
              | UNFINISHED => exact hr hst
              | YES => exact hy1 hst
              | NO => exact hno (Or.inl hst)
            · cases hst : (posetList.getD (edgeList.getD (e0 + 1 + i + 1) 0)
                AnnotatedPosetObj.new).poset.status with
              | UNFINISHED => exact absurd hst hr
              | YES => rfl
              | NO => exact absurd (Or.inr hst) hno
          rw [if_pos hy2, ih _ hrest]
          have hs : survivors posetList ((edgeList.getD (e0 + 1 + i) 0,
              edgeList.getD (e0 + 1 + i + 1) 0) :: rest.map (fun i =>
                (edgeList.getD (e0 + 1 + i) 0, edgeList.getD (e0 + 1 + i + 1) 0))) =
              edgeList.getD (e0 + 1 + i) 0 :: survivors posetList (rest.map (fun i =>
                (edgeList.getD (e0 + 1 + i) 0, edgeList.getD (e0 + 1 + i + 1) 0))) := by
            unfold survivors statusAt
            rw [List.filterMap_cons]
            simp only [if_neg hno, if_neg hy1]
          rw [hs]
          simp [List.flatMap_cons]

theorem getD_set_nat (l : List Nat) (i v x : Nat) :
    (l.set i v).getD x 0 = if x = i ∧ i < l.length then v else l.getD x 0 := by
  by_cases hx : x = i
  · subst hx
    by_cases hl : x < l.length
    · rw [if_pos ⟨rfl, hl⟩, List.getD_eq_getElem _ _ (by simpa using hl)]
      simp
    · rw [if_neg (by tauto), List.getD_eq_default _ _ (by simpa using hl),
        List.getD_eq_default _ _ (by omega)]
  · rw [if_neg (by tauto)]
    simp only [List.getD_eq_getElem?_getD]
    rw [List.getElem?_set_ne (Ne.symm hx)]

/-- The loop that writes the new local edge list back and marks the surviving children. -/
theorem rewrite_fold (lel : List Nat) (elIndex : Nat) (el1 : List Nat)
    (pl : List AnnotatedPosetObj) : ∀ k,
    (((List.range k).foldl
        (fun (acc : List Nat × List AnnotatedPosetObj) i =>
          (acc.1.set (elIndex + i) (lel.getD i 0),
            setMarkAt acc.2 (lel.getD i 0) true)) (el1, pl)).1.length = el1.length) ∧
    (∀ x, ((List.range k).foldl
        (fun (acc : List Nat × List AnnotatedPosetObj) i =>
          (acc.1.set (elIndex + i) (lel.getD i 0),
            setMarkAt acc.2 (lel.getD i 0) true)) (el1, pl)).1.getD x 0 =
        if elIndex ≤ x ∧ x < elIndex + k ∧ x < el1.length then lel.getD (x - elIndex) 0
        else el1.getD x 0) ∧
    (((List.range k).foldl
        (fun (acc : List Nat × List AnnotatedPosetObj) i =>
          (acc.1.set (elIndex + i) (lel.getD i 0),
            setMarkAt acc.2 (lel.getD i 0) true)) (el1, pl)).2.length = pl.length) ∧
    (∀ j, statusAt ((List.range k).foldl
        (fun (acc : List Nat × List AnnotatedPosetObj) i =>
          (acc.1.set (elIndex + i) (lel.getD i 0),
            setMarkAt acc.2 (lel.getD i 0) true)) (el1, pl)).2 j = statusAt pl j) := by
  intro k
  induction k with
  | zero =>
    refine ⟨rfl, fun x => ?_, rfl, fun j => rfl⟩
    rw [if_neg (by omega)]
    rfl
  | succ k ih =>
    obtain ⟨h1, h2, h3, h4⟩ := ih
    rw [List.range_succ, List.foldl_append]
    simp only [List.foldl_cons, List.foldl_nil]
    refine ⟨?_, fun x => ?_, ?_, fun j => ?_⟩
    · rw [List.length_set, h1]
    · rw [getD_set_nat, h1, h2]
      by_cases hx : x = elIndex + k
      · subst hx
        by_cases hl : elIndex + k < el1.length
        · rw [if_pos ⟨rfl, hl⟩, if_pos ⟨by omega, by omega, hl⟩]
          congr 1; omega
        · rw [if_neg (by tauto), if_neg (by omega), if_neg (by omega)]
      · rw [if_neg (by tauto)]
        by_cases hc : elIndex ≤ x ∧ x < elIndex + k ∧ x < el1.length
        · rw [if_pos hc, if_pos ⟨hc.1, by omega, hc.2.2⟩]
        · rw [if_neg hc, if_neg (by omega)]
    · rw [setMarkAt_length, h3]
    · rw [statusAt_setMark, h4]

theorem setSortableAt_status (l l' : List AnnotatedPosetObj) (i : Nat) (hi : i < l.length)
    (h : setSortableAt l i = some l') : statusAt l' i = SortableStatus.YES := by
  unfold setSortableAt PosetObj.SetSortable at h
  split at h
  · simp only [Option.map_some', Option.some.injEq] at h
    subst h
    unfold statusAt
    rw [modifyPoset_getD, if_pos ⟨rfl, hi⟩]
  · simp at h

theorem setUnsortableAt_status (l l' : List AnnotatedPosetObj) (i : Nat) (hi : i < l.length)
    (h : setUnsortableAt l i = some l') : statusAt l' i = SortableStatus.NO := by
  unfold setUnsortableAt PosetObj.SetUnsortable at h
  split at h
  · simp only [Option.map_some', Option.some.injEq] at h
    subst h
    unfold statusAt
    rw [modifyPoset_getD, if_pos ⟨rfl, hi⟩]
  · simp at h

theorem survivors_length_le (pl : List AnnotatedPosetObj) (pairs : List (Nat × Nat)) :
    (survivors pl pairs).length ≤ pairs.length := by
  unfold survivors
  exact List.length_filterMap_le _ _

theorem entryPairs_length (el : List Nat) (e0 : Nat) (h : el.getD e0 0 % 2 = 0) :
    2 * (entryPairs el e0).length = el.getD e0 0 := by
  unfold entryPairs
  obtain ⟨k, hk⟩ : ∃ k, el.getD e0 0 = 2 * k := ⟨el.getD e0 0 / 2, by omega⟩
  rw [hk, evens_range, List.length_map, List.length_map, List.length_range]


theorem map_eq_range_map {β : Type} (l : List Nat) (f : Nat → β) :
    l.map f = (List.range l.length).map (fun j => f (l.getD j 0)) := by
  apply List.ext_getElem
  · simp
  · intro n h1 h2
    simp only [List.getElem_map, List.getElem_range]
    rw [List.getD_eq_getElem _ _ (by simpa using h1)]

/-- Claim C23: in phases 2 and 3, for an `UNFINISHED` parent whose edge-list entries `(a, b)`
each have at least one resolved child, `processPoset` makes the parent `YES` iff some entry
has both children `YES`; otherwise every entry with a `NO` child is discarded and every other
entry survives as the degenerate pair `(u, u)` of its unresolved child `u`; the parent becomes
`NO` iff no entry survives, and else it stays `UNFINISHED` with the rewritten list, which is
never longer than before. -/
theorem processPoset2_spec (s : Phase2) (entryIdx : Nat)
    (hidx : entryIdx < s.posetList.length)
    (hU : statusAt s.posetList entryIdx = SortableStatus.UNFINISHED)
    (heven : s.edgeList.getD (s.posetList.getD entryIdx AnnotatedPosetObj.new).elIndex 0 % 2
      = 0)
    (hin : (s.posetList.getD entryIdx AnnotatedPosetObj.new).elIndex +
      s.edgeList.getD (s.posetList.getD entryIdx AnnotatedPosetObj.new).elIndex 0 <
        s.edgeList.length)
    (hres : ∀ ab ∈ entryPairs s.edgeList
        (s.posetList.getD entryIdx AnnotatedPosetObj.new).elIndex,
      statusAt s.posetList ab.1 ≠ SortableStatus.UNFINISHED ∨
        statusAt s.posetList ab.2 ≠ SortableStatus.UNFINISHED) :
    ∃ s', processPoset2 s entryIdx = some s' ∧
      (statusAt s'.posetList entryIdx = SortableStatus.YES ↔
        bothSortable s.posetList (entryPairs s.edgeList
          (s.posetList.getD entryIdx AnnotatedPosetObj.new).elIndex) = true) ∧
      (statusAt s'.posetList entryIdx = SortableStatus.NO ↔
        bothSortable s.posetList (entryPairs s.edgeList
          (s.posetList.getD entryIdx AnnotatedPosetObj.new).elIndex) = false ∧
        survivors s.posetList (entryPairs s.edgeList
          (s.posetList.getD entryIdx AnnotatedPosetObj.new).elIndex) = []) ∧
      (bothSortable s.posetList (entryPairs s.edgeList
          (s.posetList.getD entryIdx AnnotatedPosetObj.new).elIndex) = false →
        survivors s.posetList (entryPairs s.edgeList
          (s.posetList.getD entryIdx AnnotatedPosetObj.new).elIndex) ≠ [] →
        statusAt s'.posetList entryIdx = SortableStatus.UNFINISHED ∧
        s'.hasUnfinished = true ∧
        entryPairs s'.edgeList (s.posetList.getD entryIdx AnnotatedPosetObj.new).elIndex =
          (survivors s.posetList (entryPairs s.edgeList
            (s.posetList.getD entryIdx AnnotatedPosetObj.new).elIndex)).map
            (fun u => (u, u)) ∧
        (entryPairs s'.edgeList
          (s.posetList.getD entryIdx AnnotatedPosetObj.new).elIndex).length ≤
          (entryPairs s.edgeList
            (s.posetList.getD entryIdx AnnotatedPosetObj.new).elIndex).length ∧
        s'.edgeList.length = s.edgeList.length ∧
        ∀ x, (x < (s.posetList.getD entryIdx AnnotatedPosetObj.new).elIndex ∨
            (s.posetList.getD entryIdx AnnotatedPosetObj.new).elIndex +
              s.edgeList.getD (s.posetList.getD entryIdx AnnotatedPosetObj.new).elIndex 0 < x) →
          s'.edgeList.getD x 0 = s.edgeList.getD x 0) ∧
      ((bothSortable s.posetList (entryPairs s.edgeList
          (s.posetList.getD entryIdx AnnotatedPosetObj.new).elIndex) = true ∨
        survivors s.posetList (entryPairs s.edgeList
          (s.posetList.getD entryIdx AnnotatedPosetObj.new).elIndex) = []) →
        s'.edgeList = s.edgeList) ∧
      (∀ j, j ≠ entryIdx → statusAt s'.posetList j = statusAt s.posetList j) := by
  generalize he0 : (s.posetList.getD entryIdx AnnotatedPosetObj.new).elIndex = e0 at *
  have hscan := scanPairs_spec s.posetList s.edgeList e0
    ((List.range (s.edgeList.getD e0 0)).filter (fun i => decide (i % 2 = 0))) ([], true)
    (fun i hi => hres _ (List.mem_map.mpr ⟨i, hi, rfl⟩))
  have hpairs : ((List.range (s.edgeList.getD e0 0)).filter (fun i => decide (i % 2 = 0))).map
      (fun i => (s.edgeList.getD (e0 + 1 + i) 0, s.edgeList.getD (e0 + 1 + i + 1) 0)) =
      entryPairs s.edgeList e0 := rfl
  rw [hpairs] at hscan
  simp only [List.nil_append, Bool.true_and] at hscan
  unfold processPoset2
  simp only
  rw [he0, hscan]
  cases hb : bothSortable s.posetList (entryPairs s.edgeList e0) with
  | true =>
    rw [if_pos rfl]
    simp only
    have hs := setSortableAt_isSome s.posetList entryIdx hU
    obtain ⟨l', hl'⟩ := Option.isSome_iff_exists.mp hs
    rw [hl']
    have hst := setSortableAt_status s.posetList l' entryIdx hidx hl'
    obtain ⟨_, _, hoth⟩ := setSortableAt_some s.posetList l' entryIdx hl'
    refine ⟨_, rfl, ?_, ?_, ?_, ?_, ?_⟩
    · simp only [hst]
    · simp only [hst]
      simp
    · intro h; exact absurd h (by simp)
    · intro _; rfl
    · exact hoth
  | false =>
    rw [if_neg (by simp)]
    simp only
    cases hsv : survivors s.posetList (entryPairs s.edgeList e0) with
    | nil =>
      simp only [List.isEmpty_nil, if_true]
      have hs := setUnsortableAt_isSome s.posetList entryIdx hU
      obtain ⟨l', hl'⟩ := Option.isSome_iff_exists.mp hs
      rw [hl']
      have hst := setUnsortableAt_status s.posetList l' entryIdx hidx hl'
      obtain ⟨_, _, hoth⟩ := setUnsortableAt_some s.posetList l' entryIdx hl'
      refine ⟨_, rfl, ?_, ?_, ?_, ?_, ?_⟩
      · simp only [hst]
        simp
      · simp only [hst]
        simp
      · intro _ h; exact absurd rfl h
      · intro _; rfl
      · exact hoth
    | cons u us =>
      simp only [List.isEmpty_cons, Bool.false_eq_true, if_false]
      have hlen2 := dup_length (u :: us)
      have hle := survivors_length_le s.posetList (entryPairs s.edgeList e0)
      rw [hsv] at hle
      have hplen := entryPairs_length s.edgeList e0 heven
      obtain ⟨f1, f2, f3, f4⟩ := rewrite_fold ((u :: us).flatMap (fun u => [u, u])) (e0 + 1)
        (s.edgeList.set (e0 + 1 - 1) ((u :: us).flatMap (fun u => [u, u])).length)
        s.posetList ((u :: us).flatMap (fun u => [u, u])).length
      have hel1 : (s.edgeList.set (e0 + 1 - 1)
          ((u :: us).flatMap (fun u => [u, u])).length).length = s.edgeList.length :=
        List.length_set _ _ _
      rw [hel1] at f1 f2
      have hcell : ∀ x, ((List.range ((u :: us).flatMap (fun u => [u, u])).length).foldl
          (fun (acc : List Nat × List AnnotatedPosetObj) i =>
            (acc.1.set (e0 + 1 + i) (((u :: us).flatMap (fun u => [u, u])).getD i 0),
              setMarkAt acc.2 (((u :: us).flatMap (fun u => [u, u])).getD i 0) true))
          (s.edgeList.set (e0 + 1 - 1) ((u :: us).flatMap (fun u => [u, u])).length,
            s.posetList)).1.getD x 0 =
          if e0 + 1 ≤ x ∧ x < e0 + 1 + 2 * (u :: us).length then
            ((u :: us).flatMap (fun u => [u, u])).getD (x - (e0 + 1)) 0
          else if x = e0 then 2 * (u :: us).length else s.edgeList.getD x 0 := by
        intro x
        rw [f2 x, hlen2, getD_set_nat]
        by_cases hc : e0 + 1 ≤ x ∧ x < e0 + 1 + 2 * (u :: us).length
        · rw [if_pos ⟨hc.1, hc.2, by omega⟩, if_pos hc]
        · rw [if_neg (by tauto), if_neg hc]
          by_cases hx : x = e0
          · rw [if_pos ⟨by omega, by omega⟩, if_pos hx]
          · rw [if_neg (by omega), if_neg hx]
      refine ⟨_, rfl, ?_, ?_, ?_, ?_, ?_⟩
      · simp only [f4, hU]
        simp
      · simp only [f4, hU]
        simp
      · intro _ _
        have hpe : entryPairs ((List.range ((u :: us).flatMap (fun u => [u, u])).length).foldl
            (fun (acc : List Nat × List AnnotatedPosetObj) i =>
              (acc.1.set (e0 + 1 + i) (((u :: us).flatMap (fun u => [u, u])).getD i 0),
                setMarkAt acc.2 (((u :: us).flatMap (fun u => [u, u])).getD i 0) true))
            (s.edgeList.set (e0 + 1 - 1) ((u :: us).flatMap (fun u => [u, u])).length,
              s.posetList)).1 e0 = (u :: us).map (fun u => (u, u)) := by
          unfold entryPairs
          rw [hcell e0, if_neg (by omega), if_pos rfl, evens_range, List.map_map,
            map_eq_range_map (u :: us)]
          apply List.map_congr_left
          intro j hj
          rw [List.mem_range] at hj
          simp only [Function.comp]
          rw [hcell, hcell, if_pos ⟨by omega, by omega⟩, if_pos ⟨by omega, by omega⟩]
          have e1 : e0 + 1 + 2 * j - (e0 + 1) = 2 * j := by omega
          have e2 : e0 + 1 + 2 * j + 1 - (e0 + 1) = 2 * j + 1 := by omega
          rw [e1, e2, (dup_getD (u :: us) j hj).1, (dup_getD (u :: us) j hj).2]
        refine ⟨by rw [f4]; exact hU, rfl, hpe, ?_, f1, ?_⟩
        · rw [hpe, List.length_map]
          exact hle
        · intro x hx
          rw [hcell x, if_neg (by omega), if_neg (by omega)]
      · intro h
        rcases h with h | h
        · exact absurd h (by simp)
        · exact absurd h (by simp)
      · intro j _
        exact f4 j

theorem processPoset2_spec_witness :
    0 < samplePhase2.posetList.length ∧
    statusAt samplePhase2.posetList 0 = SortableStatus.UNFINISHED ∧
    (∀ ab ∈ entryPairs samplePhase2.edgeList 0,
      statusAt samplePhase2.posetList ab.1 ≠ SortableStatus.UNFINISHED ∨
        statusAt samplePhase2.posetList ab.2 ≠ SortableStatus.UNFINISHED) ∧
    ∃ s', processPoset2 samplePhase2 0 = some s' ∧
      statusAt s'.posetList 0 = SortableStatus.UNFINISHED ∧
      entryPairs s'.edgeList 0 = [(2, 2), (2, 2)] :=
  have hres : ∀ ab ∈ entryPairs samplePhase2.edgeList 0,
      statusAt samplePhase2.posetList ab.1 ≠ SortableStatus.UNFINISHED ∨
        statusAt samplePhase2.posetList ab.2 ≠ SortableStatus.UNFINISHED := by decide
  match processPoset2_spec samplePhase2 0 (by decide) (by decide) (by decide) (by decide)
      hres with
  | ⟨s', hs, _, _, h3, _⟩ =>
    ⟨by decide, by decide, hres, s', hs, (h3 (by decide) (by decide)).1,
      (h3 (by decide) (by decide)).2.2.1.trans (by decide)⟩


theorem exploreSecond_eq (cfg : NCT) (sp : SearchParams) (parentC : Nat)
    (childLayerCompleteAbove : Nat) (childMapBW : PosetMap) (childMapOld : OldGenMap)
    (parent : AnnotatedPosetObj) (comparison : ComparisonTuple)
    (firstSortable secondSortable : Bool) (firstChild : AnnotatedPosetObj)
    (st : Phase1State) :
    exploreSecond cfg sp parentC childLayerCompleteAbove childMapBW childMapOld parent
        comparison firstSortable secondSortable firstChild st =
      (insertChildren cfg sp st (verdictSecond cfg parentC childLayerCompleteAbove childMapBW
        childMapOld parent comparison firstSortable secondSortable firstChild).2).map
        (fun s => ((verdictSecond cfg parentC childLayerCompleteAbove childMapBW
          childMapOld parent comparison firstSortable secondSortable firstChild).1, s)) := by
  unfold exploreSecond verdictSecond
  simp only
  repeat' split
  all_goals rfl

/-- The lambda `exploreComparison` returns the status of the verdict and enters the verdict's
children; it fails only when an entry into the child map fails. -/
theorem exploreComparison_eq (cfg : NCT) (sp : SearchParams) (parentC : Nat)
    (childLayerCompleteAbove : Nat) (childMapBW : PosetMap) (childMapOld : OldGenMap)
    (parent : AnnotatedPosetObj) (comparison : ComparisonTuple) (st : Phase1State) :
    exploreComparison cfg sp parentC childLayerCompleteAbove childMapBW childMapOld parent
        comparison st =
      (insertChildren cfg sp st (comparisonVerdict cfg parentC childLayerCompleteAbove
        childMapBW childMapOld parent comparison).2).map
        (fun s => ((comparisonVerdict cfg parentC childLayerCompleteAbove childMapBW
          childMapOld parent comparison).1, s)) := by
  unfold exploreComparison comparisonVerdict
  simp only [exploreSecond_eq]
  repeat' split
  all_goals rfl

theorem verdictSecond_shape (cfg : NCT) (parentC : Nat)
    (childLayerCompleteAbove : Nat) (childMapBW : PosetMap) (childMapOld : OldGenMap)
    (parent : AnnotatedPosetObj) (comparison : ComparisonTuple)
    (firstSortable secondSortable : Bool) (firstChild : AnnotatedPosetObj) :
    ((verdictSecond cfg parentC childLayerCompleteAbove childMapBW childMapOld parent
        comparison firstSortable secondSortable firstChild).1 = ComparisonStatus.INDETERMINATE ∧
      ((∃ c, (verdictSecond cfg parentC childLayerCompleteAbove childMapBW childMapOld parent
        comparison firstSortable secondSortable firstChild).2 = [c]) ∨
       (∃ c1 c2, (verdictSecond cfg parentC childLayerCompleteAbove childMapBW childMapOld
        parent comparison firstSortable secondSortable firstChild).2 = [c1, c2]))) ∨
    ((verdictSecond cfg parentC childLayerCompleteAbove childMapBW childMapOld parent
        comparison firstSortable secondSortable firstChild).1 ≠ ComparisonStatus.INDETERMINATE ∧
      (verdictSecond cfg parentC childLayerCompleteAbove childMapBW childMapOld parent
        comparison firstSortable secondSortable firstChild).2 = []) := by
  unfold verdictSecond
  simp only
  repeat' split
  all_goals first
    | exact Or.inl ⟨rfl, Or.inl ⟨_, rfl⟩⟩
    | exact Or.inl ⟨rfl, Or.inr ⟨_, _, rfl⟩⟩
    | (refine Or.inr ⟨?_, rfl⟩; first | assumption | (intro hc; cases hc))

/-- A comparison is `INDETERMINATE` exactly when it has one or two unresolved children to
enter; a `SORTABLE` or `UNSORTABLE` comparison enters none. -/
theorem comparisonVerdict_shape (cfg : NCT) (parentC : Nat)
    (childLayerCompleteAbove : Nat) (childMapBW : PosetMap) (childMapOld : OldGenMap)
    (parent : AnnotatedPosetObj) (comparison : ComparisonTuple) :
    ((comparisonVerdict cfg parentC childLayerCompleteAbove childMapBW childMapOld parent
        comparison).1 = ComparisonStatus.INDETERMINATE ∧
      ((∃ c, (comparisonVerdict cfg parentC childLayerCompleteAbove childMapBW childMapOld
        parent comparison).2 = [c]) ∨
       (∃ c1 c2, (comparisonVerdict cfg parentC childLayerCompleteAbove childMapBW childMapOld
        parent comparison).2 = [c1, c2]))) ∨
    ((comparisonVerdict cfg parentC childLayerCompleteAbove childMapBW childMapOld parent
        comparison).1 ≠ ComparisonStatus.INDETERMINATE ∧
      (comparisonVerdict cfg parentC childLayerCompleteAbove childMapBW childMapOld parent
        comparison).2 = []) := by
  unfold comparisonVerdict
  simp only
  repeat' split
  all_goals first
    | exact verdictSecond_shape _ _ _ _ _ _ _ _ _ _
    | exact Or.inl ⟨rfl, Or.inl ⟨_, rfl⟩⟩
    | (refine Or.inr ⟨?_, rfl⟩; first | assumption | (intro hc; cases hc))


/-- The comparison loop of phase 1 enters the children of the comparisons that precede the
first `SORTABLE` one, in their order; it reports `solved` iff some comparison is `SORTABLE`
and keeps `unsortable` iff none of the comparisons it went through is `INDETERMINATE`. -/
theorem compareLoop_eq (cfg : NCT) (sp : SearchParams) (parentC : Nat)
    (childLayerCompleteAbove : Nat) (childMapBW : PosetMap) (childMapOld : OldGenMap)
    (parent : AnnotatedPosetObj) :
    ∀ (items : List ComparisonTuple) (acc : CompareLoop),
      compareLoop cfg sp parentC childLayerCompleteAbove childMapBW childMapOld parent items
        acc =
      (insertAll cfg sp acc.st
        ((items.takeWhile (fun c => decide ((comparisonVerdict cfg parentC
          childLayerCompleteAbove childMapBW childMapOld parent c).1 ≠
            ComparisonStatus.SORTABLE))).map
          (fun c => (comparisonVerdict cfg parentC childLayerCompleteAbove childMapBW
            childMapOld parent c).2))).map
        (fun st =>
          { st := st,
            solved := acc.solved || items.any (fun c => decide ((comparisonVerdict cfg parentC
              childLayerCompleteAbove childMapBW childMapOld parent c).1 =
                ComparisonStatus.SORTABLE)),
            unsortable := acc.unsortable &&
              (items.takeWhile (fun c => decide ((comparisonVerdict cfg parentC
                childLayerCompleteAbove childMapBW childMapOld parent c).1 ≠
                  ComparisonStatus.SORTABLE))).all
                (fun c => decide ((comparisonVerdict cfg parentC childLayerCompleteAbove
                  childMapBW childMapOld parent c).1 ≠ ComparisonStatus.INDETERMINATE)) }) := by
  intro items
  induction items with
  | nil =>
    intro acc
    simp [compareLoop, insertAll]
  | cons item rest ih =>
    intro acc
    unfold compareLoop
    rw [exploreComparison_eq]
    rcases comparisonVerdict_shape cfg parentC childLayerCompleteAbove childMapBW childMapOld
      parent item with ⟨h1, h2⟩ | ⟨h1, h2⟩
    · -- indeterminate
      have hns : decide ((comparisonVerdict cfg parentC childLayerCompleteAbove childMapBW
          childMapOld parent item).1 ≠ ComparisonStatus.SORTABLE) = true := by
        rw [h1]; rfl
      have hs : decide ((comparisonVerdict cfg parentC childLayerCompleteAbove childMapBW
          childMapOld parent item).1 = ComparisonStatus.SORTABLE) = false := by
        rw [h1]; rfl
      have hni : decide ((comparisonVerdict cfg parentC childLayerCompleteAbove childMapBW
          childMapOld parent item).1 ≠ ComparisonStatus.INDETERMINATE) = false := by
        rw [h1]; rfl
      rw [List.takeWhile_cons, if_pos hns, List.map_cons, List.any_cons, hs, List.all_cons,
        hni]
      simp only [insertAll]
      cases hins : insertChildren cfg sp acc.st (comparisonVerdict cfg parentC
          childLayerCompleteAbove childMapBW childMapOld parent item).2 with
      | none => rfl
      | some st1 =>
        simp only [Option.map_some', h1]
        rw [ih]
        simp
    · rw [h2]
      simp only [insertChildren, Option.map_some']
      rw [List.takeWhile_cons, List.any_cons]
      by_cases hv : (comparisonVerdict cfg parentC childLayerCompleteAbove childMapBW
          childMapOld parent item).1 = ComparisonStatus.SORTABLE
      · rw [hv]
        simp [insertAll]
      · have hu : (comparisonVerdict cfg parentC childLayerCompleteAbove childMapBW
            childMapOld parent item).1 = ComparisonStatus.UNSORTABLE := by
          cases h : (comparisonVerdict cfg parentC childLayerCompleteAbove childMapBW
            childMapOld parent item).1 with
          | SORTABLE => exact absurd h hv
          | UNSORTABLE => rfl
          | INDETERMINATE => exact absurd h h1
        rw [hu]
        simp only [ne_eq, reduceCtorEq, not_false_eq_true, decide_True, if_true, List.map_cons,
          List.all_cons, decide_False, Bool.false_or, Bool.true_and]
        rw [ih]
        simp [insertAll, h2, insertChildren, hu]

theorem insertChildren_edges (cfg : NCT) (sp : SearchParams) (st st' : Phase1State)
    (cs : List AnnotatedPosetObj) (h : insertChildren cfg sp st cs = some st') :
    (cs = [] ∧ st' = st) ∨
    (∃ ab : Nat × Nat, st'.localEdgeList = st.localEdgeList ++ [ab.1, ab.2] ∧
      (cs.length = 1 → ab.1 = ab.2) ∧ cs ≠ [] ∧ ∃ ext, st'.posetList = st.posetList ++ ext) := by
  match cs, h with
  | [], h =>
    simp only [insertChildren, Option.some.injEq] at h
    exact Or.inl ⟨rfl, h.symm⟩
  | [c], h =>
    right
    simp only [insertChildren] at h
    obtain ⟨ext, hext⟩ := createChildEntrySingleton_container cfg sp st st' c h
    unfold createChildEntrySingleton at h
    rw [Option.map_eq_some'] at h
    obtain ⟨r, _, h2⟩ := h
    refine ⟨(r.2.2, r.2.2), ?_, fun _ => rfl, by simp, ext, hext⟩
    rw [← h2]
  | [c1, c2], h =>
    right
    simp only [insertChildren] at h
    obtain ⟨ext, hext⟩ := createChildEntry_container cfg sp st st' c1 c2 h
    unfold createChildEntry at h
    split at h
    · exact absurd h (by simp)
    · rename_i r1 _
      rw [Option.map_eq_some'] at h
      obtain ⟨r2, _, h2⟩ := h
      refine ⟨(r1.2.2, r2.2.2), ?_, fun hl => absurd hl (by simp), by simp, ext, hext⟩
      rw [← h2]
  | _ :: _ :: _ :: _, h =>
    simp [insertChildren] at h

/-- The entries of a series of comparisons append one pair of child positions to the local
edge list for every comparison that has children, in the order of the comparisons; the pair
of a comparison with one child is degenerate. -/
theorem insertAll_edges (cfg : NCT) (sp : SearchParams) :
    ∀ (css : List (List AnnotatedPosetObj)) (st st' : Phase1State),
      insertAll cfg sp st css = some st' →
      ∃ pairs : List (Nat × Nat),
        st'.localEdgeList = st.localEdgeList ++ pairs.flatMap (fun ab => [ab.1, ab.2]) ∧
        List.Forall₂ (fun cs ab => cs.length = 1 → ab.1 = ab.2)
          (css.filter (fun cs => !cs.isEmpty)) pairs ∧
        ∃ ext, st'.posetList = st.posetList ++ ext := by
  intro css
  induction css with
  | nil =>
    intro st st' h
    simp only [insertAll, Option.some.injEq] at h
    subst h
    exact ⟨[], by simp, by simp, [], by simp⟩
  | cons cs rest ih =>
    intro st st' h
    unfold insertAll at h
    split at h
    · exact absurd h (by simp)
    · rename_i st1 h1
      obtain ⟨pairs, hp1, hp2, ext2, hext2⟩ := ih st1 st' h
      rcases insertChildren_edges cfg sp st st1 cs h1 with ⟨hc, hst⟩ | ⟨ab, hab, hdeg, hne, ext1, hext1⟩
      · subst hc
        subst hst
        exact ⟨pairs, hp1, by simpa using hp2, ext2, hext2⟩
      · refine ⟨ab :: pairs, ?_, ?_, ext1 ++ ext2, ?_⟩
        · rw [hp1, hab, List.flatMap_cons, List.append_assoc]
        · have : (!cs.isEmpty) = true := by
            cases cs with
            | nil => exact absurd rfl hne
            | cons _ _ => rfl
          rw [List.filter_cons, if_pos this]
          exact List.Forall₂.cons hdeg hp2
        · rw [hext2, hext1, List.append_assoc]

theorem takeWhile_all {α : Type} (p : α → Bool) (l : List α) (h : ∀ x ∈ l, p x = true) :
    l.takeWhile p = l := by
  induction l with
  | nil => rfl
  | cons a l ih =>
    rw [List.takeWhile_cons, if_pos (h a (List.mem_cons_self _ _)),
      ih (fun x hx => h x (List.mem_cons_of_mem _ hx))]


theorem checkChild_missing (cfg : NCT) (childLayerCompleteAbove : Nat) (childMapBW : PosetMap)
    (childMapOld : OldGenMap) (child : AnnotatedPosetObj) (linExt : Nat)
    (h1 : linExt ≥ childLayerCompleteAbove) (h2 : childMapBW.find cfg child = none) :
    checkChild cfg childLayerCompleteAbove childMapBW childMapOld child linExt =
      ComparisonStatus.UNSORTABLE := by
  unfold checkChild
  simp only
  rw [if_pos h1, h2]

/-- The outcome of the phase-1 `processPoset` in terms of the state-free projection
`comparisonVerdict` of `exploreComparison`: `NO` above `2·limit` or when every comparison
returns `UNSORTABLE`, `YES` when one returns `SORTABLE`, and otherwise `UNFINISHED` with an
edge list of one pair per `INDETERMINATE` comparison.  The call fails only when an entry into
the child map fails. -/
theorem phase1_verdict_spec (cfg : NCT) (sp : SearchParams) (parentC limit : Nat)
    (childLayerCompleteAbove : Nat) (childMapBW : PosetMap) (childMapOld : OldGenMap)
    (s : Phase1) (entryIdx linExt : Nat) (table : Nat → Nat → Nat)
    (parent : AnnotatedPosetObj) (comps : List ComparisonTuple)
    (hparent : parent = s.posetList.getD entryIdx AnnotatedPosetObj.new)
    (hcomps : comps = enumerateComparisons cfg parent.info table limit)
    (hidx : entryIdx < s.posetList.length)
    (hU : statusAt s.posetList entryIdx = SortableStatus.UNFINISHED)
    (hcalc : calculateLinExtensionsSingleton cfg sp.allocatedMemorySize sp.scratch
      s.linExtTable parent.poset parent.info parentC true false = some (linExt, table)) :
    (linExt > (limit * 2) % 2 ^ linExtTBits cfg.MAXN →
      ∃ s', processPoset cfg sp parentC limit childLayerCompleteAbove childMapBW childMapOld
          s entryIdx = some s' ∧
        statusAt s'.posetList entryIdx = SortableStatus.NO ∧ s'.edgeList = s.edgeList) ∧
    (¬ linExt > (limit * 2) % 2 ^ linExtTBits cfg.MAXN →
      (insertAll cfg sp
        { posetList := s.posetList, childMap := s.childMap, localEdgeList := [0] }
        ((comps.takeWhile (fun c => decide ((comparisonVerdict cfg parentC
          childLayerCompleteAbove childMapBW childMapOld parent c).1 ≠
            ComparisonStatus.SORTABLE))).map
          (fun c => (comparisonVerdict cfg parentC childLayerCompleteAbove childMapBW
            childMapOld parent c).2)) = none →
        processPoset cfg sp parentC limit childLayerCompleteAbove childMapBW childMapOld
          s entryIdx = none) ∧
      ∀ st, insertAll cfg sp
        { posetList := s.posetList, childMap := s.childMap, localEdgeList := [0] }
        ((comps.takeWhile (fun c => decide ((comparisonVerdict cfg parentC
          childLayerCompleteAbove childMapBW childMapOld parent c).1 ≠
            ComparisonStatus.SORTABLE))).map
          (fun c => (comparisonVerdict cfg parentC childLayerCompleteAbove childMapBW
            childMapOld parent c).2)) = some st →
        ∃ s', processPoset cfg sp parentC limit childLayerCompleteAbove childMapBW childMapOld
            s entryIdx = some s' ∧
          ((∃ c ∈ comps, (comparisonVerdict cfg parentC childLayerCompleteAbove childMapBW
              childMapOld parent c).1 = ComparisonStatus.SORTABLE) →
            statusAt s'.posetList entryIdx = SortableStatus.YES ∧ s'.edgeList = s.edgeList) ∧
          ((∀ c ∈ comps, (comparisonVerdict cfg parentC childLayerCompleteAbove childMapBW
              childMapOld parent c).1 = ComparisonStatus.UNSORTABLE) →
            statusAt s'.posetList entryIdx = SortableStatus.NO ∧ s'.edgeList = s.edgeList) ∧
          ((∀ c ∈ comps, (comparisonVerdict cfg parentC childLayerCompleteAbove childMapBW
              childMapOld parent c).1 ≠ ComparisonStatus.SORTABLE) →
            (∃ c ∈ comps, (comparisonVerdict cfg parentC childLayerCompleteAbove childMapBW
              childMapOld parent c).1 = ComparisonStatus.INDETERMINATE) →
            statusAt s'.posetList entryIdx = SortableStatus.UNFINISHED ∧
            (s'.posetList.getD entryIdx AnnotatedPosetObj.new).elIndex = s.edgeList.length ∧
            ∃ pairs : List (Nat × Nat),
              s'.edgeList = s.edgeList ++
                (2 * pairs.length) :: pairs.flatMap (fun ab => [ab.1, ab.2]) ∧
              List.Forall₂ (fun c ab =>
                  (comparisonVerdict cfg parentC childLayerCompleteAbove childMapBW
                    childMapOld parent c).2.length = 1 → ab.1 = ab.2)
                (comps.filter (fun c => decide ((comparisonVerdict cfg parentC
                  childLayerCompleteAbove childMapBW childMapOld parent c).1 =
                    ComparisonStatus.INDETERMINATE))) pairs)) ∧
    (∀ child lin, lin ≥ childLayerCompleteAbove → childMapBW.find cfg child = none →
      checkChild cfg childLayerCompleteAbove childMapBW childMapOld child lin =
        ComparisonStatus.UNSORTABLE) := by
  subst hparent
  refine ⟨fun hlim => ?_, fun hlim => ⟨fun hnone => ?_, fun st hst => ?_⟩,
    fun child lin h1 h2 => checkChild_missing cfg _ _ _ child lin h1 h2⟩
  · unfold processPoset
    simp only
    rw [hcalc]
    simp only
    rw [if_pos hlim]
    obtain ⟨l', hl'⟩ := Option.isSome_iff_exists.mp (setUnsortableAt_isSome s.posetList entryIdx hU)
    rw [hl']
    exact ⟨_, rfl, setUnsortableAt_status s.posetList l' entryIdx hidx hl', rfl⟩
  · unfold processPoset
    simp only
    rw [hcalc]
    simp only
    rw [if_neg hlim, compareLoop_eq, ← hcomps, hnone]
    rfl
  · have hloop := compareLoop_eq cfg sp parentC childLayerCompleteAbove childMapBW childMapOld
      (s.posetList.getD entryIdx AnnotatedPosetObj.new) comps
      { st := { posetList := s.posetList, childMap := s.childMap, localEdgeList := [0] },
        solved := false, unsortable := true }
    simp only at hloop
    rw [hst] at hloop
    simp only [Option.map_some', Bool.false_or, Bool.true_and] at hloop
    obtain ⟨pairs0, hp1, hp2, ext, hext⟩ := insertAll_edges cfg sp _ _ _ hst
    simp only at hp1 hext
    have hUst : statusAt st.posetList entryIdx = SortableStatus.UNFINISHED := by
      rw [hext, statusAt_append _ _ _ hidx]; exact hU
    have hidx' : entryIdx < st.posetList.length := by
      rw [hext, List.length_append]; omega
    unfold processPoset
    simp only
    rw [hcalc]
    simp only
    rw [if_neg hlim, ← hcomps, hloop]
    simp only
    by_cases hsolved : comps.any (fun c => decide ((comparisonVerdict cfg parentC
        childLayerCompleteAbove childMapBW childMapOld
        (s.posetList.getD entryIdx AnnotatedPosetObj.new) c).1 = ComparisonStatus.SORTABLE))
        = true
    · rw [if_pos hsolved]
      obtain ⟨l', hl'⟩ := Option.isSome_iff_exists.mp (setSortableAt_isSome st.posetList entryIdx hUst)
      rw [hl']
      have hyes := setSortableAt_status st.posetList l' entryIdx hidx' hl'
      rw [List.any_eq_true] at hsolved
      obtain ⟨c0, hc0, hc0s⟩ := hsolved
      rw [decide_eq_true_eq] at hc0s
      refine ⟨_, rfl, fun _ => ⟨?_, rfl⟩, fun hall => ?_, fun hall _ => ?_⟩
      · simp only [Option.map_some']
        rw [statusAt_modify l' entryIdx entryIdx (fun a => { a with elIndex := 2 ^ 64 - 1 })
          (fun _ => rfl)]
        exact hyes
      · have := hall c0 hc0
        rw [hc0s] at this
        exact absurd this (by simp)
      · exact absurd hc0s (hall c0 hc0)
    · rw [if_neg hsolved]
      have hnoS : ∀ c ∈ comps, (comparisonVerdict cfg parentC childLayerCompleteAbove
          childMapBW childMapOld (s.posetList.getD entryIdx AnnotatedPosetObj.new) c).1 ≠
          ComparisonStatus.SORTABLE := by
        intro c hc hs
        apply hsolved
        rw [List.any_eq_true]
        exact ⟨c, hc, decide_eq_true hs⟩
      have htw := takeWhile_all (fun c => decide ((comparisonVerdict cfg parentC
          childLayerCompleteAbove childMapBW childMapOld
          (s.posetList.getD entryIdx AnnotatedPosetObj.new) c).1 ≠ ComparisonStatus.SORTABLE))
        comps (fun c hc => decide_eq_true (hnoS c hc))
      rw [htw] at hp2 ⊢
      by_cases hunsort : comps.all (fun c => decide ((comparisonVerdict cfg parentC
          childLayerCompleteAbove childMapBW childMapOld
          (s.posetList.getD entryIdx AnnotatedPosetObj.new) c).1 ≠
            ComparisonStatus.INDETERMINATE)) = true
      · rw [if_pos hunsort]
        obtain ⟨l', hl'⟩ := Option.isSome_iff_exists.mp
          (setUnsortableAt_isSome st.posetList entryIdx hUst)
        rw [hl']
        have hno := setUnsortableAt_status st.posetList l' entryIdx hidx' hl'
        rw [List.all_eq_true] at hunsort
        refine ⟨_, rfl, fun hex => ?_, fun _ => ⟨hno, rfl⟩, fun _ hex => ?_⟩
        · obtain ⟨c, hc, hcs⟩ := hex
          exact absurd hcs (hnoS c hc)
        · obtain ⟨c, hc, hci⟩ := hex
          have := hunsort c hc
          rw [decide_eq_true_eq] at this
          exact absurd hci this
      · rw [if_neg hunsort]
        have hexI : ∃ c ∈ comps, (comparisonVerdict cfg parentC childLayerCompleteAbove
            childMapBW childMapOld (s.posetList.getD entryIdx AnnotatedPosetObj.new) c).1 =
            ComparisonStatus.INDETERMINATE := by
          by_contra hc
          apply hunsort
          rw [List.all_eq_true]
          intro c hcm
          rw [decide_eq_true_eq]
          intro hi
          exact hc ⟨c, hcm, hi⟩
        refine ⟨_, rfl, fun hex => ?_, fun hall => ?_, fun _ _ => ⟨?_, ?_, pairs0, ?_, ?_⟩⟩
        · obtain ⟨c, hc, hcs⟩ := hex
          exact absurd hcs (hnoS c hc)
        · obtain ⟨c, hc, hci⟩ := hexI
          have := hall c hc
          rw [hci] at this
          exact absurd this (by simp)
        · simp only
          rw [statusAt_modify st.posetList entryIdx entryIdx
            (fun a => { a with elIndex := s.edgeList.length }) (fun _ => rfl)]
          exact hUst
        · simp only
          rw [modifyPoset_getD, if_pos ⟨rfl, hidx'⟩]
        · simp only
          rw [hp1]
          congr 1
          simp only [List.singleton_append, List.set_cons_zero, List.length_cons]
          congr 1
          have : (pairs0.flatMap (fun ab => [ab.1, ab.2])).length = 2 * pairs0.length := by
            clear hp1 hp2
            induction pairs0 with
            | nil => rfl
            | cons a l ih =>
              rw [List.flatMap_cons, List.length_append, ih]
              simp; omega
          omega
        · rw [List.filter_map, List.forall₂_map_left_iff] at hp2
          have hfilt : comps.filter ((fun cs => !cs.isEmpty) ∘ fun c =>
              (comparisonVerdict cfg parentC childLayerCompleteAbove childMapBW childMapOld
                (s.posetList.getD entryIdx AnnotatedPosetObj.new) c).2) =
              comps.filter (fun c => decide ((comparisonVerdict cfg parentC
                childLayerCompleteAbove childMapBW childMapOld
                (s.posetList.getD entryIdx AnnotatedPosetObj.new) c).1 =
                  ComparisonStatus.INDETERMINATE)) := by
            apply List.filter_congr
            intro c _
            simp only [Function.comp]
            rcases comparisonVerdict_shape cfg parentC childLayerCompleteAbove childMapBW
              childMapOld (s.posetList.getD entryIdx AnnotatedPosetObj.new) c with
              ⟨h1, h2⟩ | ⟨h1, h2⟩
            · rw [decide_eq_true h1]
              rcases h2 with ⟨c1, h2⟩ | ⟨c1, c2, h2⟩ <;> rw [h2] <;> rfl
            · rw [decide_eq_false h1, h2]; rfl
          rw [hfilt] at hp2
          exact hp2

theorem add_edge_flags (MAXN : Nat) (p : PosetObj) (j k : Nat) :
    (p.add_edge MAXN j k).selfdualId = p.selfdualId ∧
    (p.add_edge MAXN j k).uniqueGraph = p.uniqueGraph ∧
    (p.add_edge MAXN j k).status = p.status ∧ (p.add_edge MAXN j k).mark = p.mark :=
  ⟨rfl, rfl, rfl, rfl⟩

theorem add_edgeCond_flags (MAXN : Nat) (p : PosetObj) (j k : Nat) (v : Bool) :
    (p.add_edgeCond MAXN j k v).selfdualId = p.selfdualId ∧
    (p.add_edgeCond MAXN j k v).uniqueGraph = p.uniqueGraph ∧
    (p.add_edgeCond MAXN j k v).status = p.status ∧
    (p.add_edgeCond MAXN j k v).mark = p.mark := by
  unfold PosetObj.add_edgeCond
  split
  · exact add_edge_flags MAXN p j k
  · exact ⟨rfl, rfl, rfl, rfl⟩

theorem foldl_flags {α : Type} (f : PosetObj → α → PosetObj)
    (hf : ∀ p a, (f p a).selfdualId = p.selfdualId ∧ (f p a).uniqueGraph = p.uniqueGraph ∧
      (f p a).status = p.status ∧ (f p a).mark = p.mark) (l : List α) (p : PosetObj) :
    (l.foldl f p).selfdualId = p.selfdualId ∧ (l.foldl f p).uniqueGraph = p.uniqueGraph ∧
    (l.foldl f p).status = p.status ∧ (l.foldl f p).mark = p.mark := by
  induction l generalizing p with
  | nil => exact ⟨rfl, rfl, rfl, rfl⟩
  | cons a l ih =>
    rw [List.foldl_cons]
    obtain ⟨h1, h2, h3, h4⟩ := ih (f p a)
    obtain ⟨g1, g2, g3, g4⟩ := hf p a
    exact ⟨h1.trans g1, h2.trans g2, h3.trans g3, h4.trans g4⟩

theorem setGraphLoop_flags (MAXN m : Nat) (edge : Nat → Nat → Bool) (p : PosetObj) :
    (setGraphLoop MAXN m edge p).selfdualId = p.selfdualId ∧
    (setGraphLoop MAXN m edge p).uniqueGraph = p.uniqueGraph ∧
    (setGraphLoop MAXN m edge p).status = p.status ∧
    (setGraphLoop MAXN m edge p).mark = p.mark := by
  unfold setGraphLoop
  apply foldl_flags
  intro q i
  apply foldl_flags
  intro q2 j
  exact add_edgeCond_flags MAXN q2 i j _

theorem setPairEdges_flags (cfg : NCT) (info : PosetInfo) (p : PosetObj) :
    (setPairEdges cfg info p).selfdualId = p.selfdualId ∧
    (setPairEdges cfg info p).uniqueGraph = p.uniqueGraph ∧
    (setPairEdges cfg info p).status = p.status ∧
    (setPairEdges cfg info p).mark = p.mark := by
  unfold setPairEdges
  simp only
  split <;> split <;> exact ⟨rfl, rfl, rfl, rfl⟩

theorem setgraphPermutation_flags (cfg : NCT) (p : PosetObj) (m : AdjacencyMatrix)
    (perm : List Nat) (info : PosetInfo) :
    (p.SetgraphPermutation cfg m perm info).selfdualId = p.selfdualId ∧
    (p.SetgraphPermutation cfg m perm info).uniqueGraph = p.uniqueGraph ∧
    (p.SetgraphPermutation cfg m perm info).status = p.status ∧
    (p.SetgraphPermutation cfg m perm info).mark = p.mark := by
  unfold PosetObj.SetgraphPermutation
  obtain ⟨h1, h2, h3, h4⟩ := setPairEdges_flags cfg info
    (setGraphLoop cfg.MAXN perm.length
      (fun i j => m.get (perm.getD i 0) (perm.getD j 0)) { p with graph := 0 })
  obtain ⟨g1, g2, g3, g4⟩ := setGraphLoop_flags cfg.MAXN perm.length
      (fun i j => m.get (perm.getD i 0) (perm.getD j 0)) { p with graph := 0 }
  exact ⟨h1.trans g1, h2.trans g2, h3.trans g3, h4.trans g4⟩

theorem setgraphPermutationReverse_flags (cfg : NCT) (p : PosetObj) (m : AdjacencyMatrix)
    (perm : List Nat) (info : PosetInfo) :
    (p.SetgraphPermutationReverse cfg m perm info).selfdualId = p.selfdualId ∧
    (p.SetgraphPermutationReverse cfg m perm info).uniqueGraph = p.uniqueGraph ∧
    (p.SetgraphPermutationReverse cfg m perm info).status = p.status ∧
    (p.SetgraphPermutationReverse cfg m perm info).mark = p.mark := by
  unfold PosetObj.SetgraphPermutationReverse
  obtain ⟨h1, h2, h3, h4⟩ := setPairEdges_flags cfg info
    (setGraphLoop cfg.MAXN perm.length
      (fun i j => m.get (perm.getD j 0) (perm.getD i 0)) { p with graph := 0 })
  obtain ⟨g1, g2, g3, g4⟩ := setGraphLoop_flags cfg.MAXN perm.length
      (fun i j => m.get (perm.getD j 0) (perm.getD i 0)) { p with graph := 0 }
  exact ⟨h1.trans g1, h2.trans g2, h3.trans g3, h4.trans g4⟩

theorem reorder_flags (cfg : NCT) (adMatrix adMatrixClosure : AdjacencyMatrix)
    (info : PosetInfo) (poset : PosetObj) (g : NiceGraph) :
    (reorderGraphCanonically cfg adMatrix adMatrixClosure info poset g).selfdualId = true →
    (reorderGraphCanonically cfg adMatrix adMatrixClosure info poset g).uniqueGraph = false := by
  unfold reorderGraphCanonically
  simp only
  split
  · rw [(setgraphPermutationReverse_flags _ _ _ _ _).1,
      (setgraphPermutationReverse_flags _ _ _ _ _).2.1]
    intro h
    simp at h
  · rw [(setgraphPermutation_flags _ _ _ _ _).1, (setgraphPermutation_flags _ _ _ _ _).2.1]
    repeat' split
    all_goals (intro h; first | rfl | (simp at h))

theorem cascade_asserted (cfg : NCT) (candidate : AnnotatedPosetObj) (entry : PosetObj)
    (h : candidate.poset.selfdualId = true → candidate.poset.uniqueGraph = false) :
    (cascadeCallsVF2 cfg candidate entry = true → candidate.poset.uniqueGraph = false) ∧
    equalityCascadeAsserted cfg candidate entry = some (equalityCascade cfg candidate entry) := by
  unfold cascadeCallsVF2 equalityCascadeAsserted equalityCascade boost_is_isomorphic_asserted
    boost_is_rev_isomorphic_asserted boost_is_isomorphic boost_is_rev_isomorphic
  cases hu : candidate.poset.uniqueGraph <;> cases hs : candidate.poset.selfdualId <;>
    cases hu2 : entry.uniqueGraph <;> cases hs2 : entry.selfdualId <;>
    simp_all <;>
    (repeat' split) <;> simp_all

/-- C40: every record produced by the canonicalizer `reorderGraphCanonically` with
`selfDual = true` has `uniqueGraph = false`.  Hence, for a candidate holding such a record
and any stored entry, the equality cascade shared by `MyHashmap::testEquality` and
`OldGenMap::find` reaches the VF2 test only with a candidate that is not a `uniqueGraph`
record, and no assertion of `boost_is_isomorphic` / `boost_is_rev_isomorphic` fires: the
cascade with the assertions returns the value of the cascade. -/
theorem canonical_selfdual_not_unique (cfg : NCT) (adMatrix adMatrixClosure : AdjacencyMatrix)
    (info : PosetInfo) (poset : PosetObj) (g : NiceGraph) :
    ((reorderGraphCanonically cfg adMatrix adMatrixClosure info poset g).selfdualId = true →
      (reorderGraphCanonically cfg adMatrix adMatrixClosure info poset g).uniqueGraph = false) ∧
    ∀ (info2 : PosetInfo) (hash elIndex linExt : Nat) (entry : PosetObj),
      (cascadeCallsVF2 cfg
          ⟨reorderGraphCanonically cfg adMatrix adMatrixClosure info poset g, info2, hash,
            elIndex, linExt⟩ entry = true →
        (reorderGraphCanonically cfg adMatrix adMatrixClosure info poset g).uniqueGraph
          = false) ∧
      equalityCascadeAsserted cfg
          ⟨reorderGraphCanonically cfg adMatrix adMatrixClosure info poset g, info2, hash,
            elIndex, linExt⟩ entry =
        some (equalityCascade cfg
          ⟨reorderGraphCanonically cfg adMatrix adMatrixClosure info poset g, info2, hash,
            elIndex, linExt⟩ entry) :=
  ⟨reorder_flags cfg adMatrix adMatrixClosure info poset g,
    fun _ _ _ _ entry =>
      cascade_asserted cfg _ entry (reorder_flags cfg adMatrix adMatrixClosure info poset g)⟩


theorem new_resolved (size : Nat) (garbage : Nat → PosetObj) :
    (OldGenMap.new size garbage).resolved := by
  intro i h
  exact absurd rfl h

theorem insert_resolved (m : OldGenMap) (a : AnnotatedPosetObj) (hm : m.resolved)
    (ha : a.poset.status ≠ SortableStatus.UNFINISHED) : (m.insert a).resolved := by
  unfold OldGenMap.insert
  simp only
  split
  · intro i hi
    simp only at hi ⊢
    by_cases hx : i = m.slot a
    · rw [if_pos hx]; exact ha
    · rw [if_neg hx]
      apply hm
      rw [setCell_other _ _ _ _ hx] at hi
      exact hi
  · exact hm

theorem foldl_insert_resolved (l : List AnnotatedPosetObj) (m : OldGenMap) (hm : m.resolved)
    (hl : ∀ a ∈ l, a.poset.status ≠ SortableStatus.UNFINISHED) :
    (l.foldl OldGenMap.insert m).resolved := by
  induction l generalizing m with
  | nil => exact hm
  | cons a l ih =>
    rw [List.foldl_cons]
    exact ih _ (insert_resolved m a hm (hl a (List.mem_cons_self _ _)))
      (fun b hb => hl b (List.mem_cons_of_mem _ hb))

theorem find_resolved (cfg : NCT) (m : OldGenMap) (a : AnnotatedPosetObj) (r : PosetObj)
    (hm : m.resolved) (h : m.find cfg a = some r) :
    r.status ≠ SortableStatus.UNFINISHED := by
  unfold OldGenMap.find at h
  simp only at h
  split at h
  · exact absurd h (by simp)
  · split at h
    · exact absurd h (by simp)
    · rename_i hh
      split at h
      · simp only [Option.some.injEq] at h
        rw [← h]
        apply hm
        have := hash16_lt a
        simp only [ne_eq, Decidable.not_not] at hh
        rw [hh]
        omega
      · exact absurd h (by simp)

theorem mem_sortByKey (key : Nat → Nat) (l : List Nat) (x : Nat) :
    x ∈ sortByKey key l → x ∈ l := by
  induction l with
  | nil => intro h; exact h
  | cons y l ih =>
    intro h
    unfold sortByKey at h
    rw [List.foldr_cons] at h
    rw [List.mem_append, List.mem_cons] at h
    rcases h with h | h | h
    · exact List.mem_cons_of_mem _ (ih ((List.takeWhile_prefix _).sublist.subset h))
    · rw [h]; exact List.mem_cons_self _ _
    · exact List.mem_cons_of_mem _ (ih ((List.dropWhile_suffix _).sublist.subset h))

theorem spill_fold_inv (edgeList : List Nat) (is : List Nat) :
    ∀ (acc : List Nat × List AnnotatedPosetObj),
      (∀ id ∈ acc.1, statusAt acc.2 id ≠ SortableStatus.UNFINISHED) →
      ∀ id ∈ (is.foldl (fun (acc : List Nat × List AnnotatedPosetObj) i =>
        let id := edgeList.getD i 0
        let poset := (acc.2.getD id AnnotatedPosetObj.new).poset
        if poset.mark && poset.status != SortableStatus.UNFINISHED then
          (acc.1 ++ [id], setMarkAt acc.2 id false)
        else acc) acc).1,
        statusAt (is.foldl (fun (acc : List Nat × List AnnotatedPosetObj) i =>
          let id := edgeList.getD i 0
          let poset := (acc.2.getD id AnnotatedPosetObj.new).poset
          if poset.mark && poset.status != SortableStatus.UNFINISHED then
            (acc.1 ++ [id], setMarkAt acc.2 id false)
          else acc) acc).2 id ≠ SortableStatus.UNFINISHED := by
  induction is with
  | nil => intro acc h; exact h
  | cons i is ih =>
    intro acc h
    rw [List.foldl_cons]
    apply ih
    simp only
    split
    · rename_i hc
      intro id hid
      rw [statusAt_setMark]
      rw [List.mem_append, List.mem_singleton] at hid
      rcases hid with hid | hid
      · exact h id hid
      · rw [hid]
        rw [Bool.and_eq_true, bne_iff_ne] at hc
        exact hc.2
    · exact h

theorem spilled_status (st : StepState) :
    ∀ a ∈ spilledRecords st, a.poset.status ≠ SortableStatus.UNFINISHED := by
  intro a ha
  unfold spilledRecords at ha
  simp only at ha
  rw [List.mem_map] at ha
  obtain ⟨id, hid, rfl⟩ := ha
  have hmem := mem_sortByKey _ _ _ hid
  exact spill_fold_inv st.edgeList _ ([], st.posetList) (fun _ h => absurd h (List.not_mem_nil _))
    id hmem

theorem storeParents_old (st : StepState) :
    (storeParents st).parentMapOld =
      (spilledRecords st).foldl OldGenMap.insert st.parentMapOld := by
  unfold storeParents spilledRecords
  simp only
  rw [List.foldl_map]

theorem storeParents_resolved (st : StepState) (h : st.parentMapOld.resolved) :
    (storeParents st).parentMapOld.resolved := by
  rw [storeParents_old]
  exact foldl_insert_resolved _ _ h (spilled_status st)

theorem forwardPhase1_old (cfg : NCT) (sp : SearchParams) (childLayerCompleteAbove : Nat)
    (childMapBW : PosetMap) (childMapOld : OldGenMap) (limit : Nat) (st st' : StepState)
    (h : forwardPhase1 cfg sp childLayerCompleteAbove childMapBW childMapOld limit st =
      some st') :
    st'.parentMapOld = st.parentMapOld := by
  unfold forwardPhase1 at h
  simp only at h
  split at h
  · exact absurd h (by simp)
  · split at h
    · exact absurd h (by simp)
    · split at h
      · simp only [Option.some.injEq] at h
        rw [← h]
      · simp only [Option.some.injEq] at h
        rw [← h]

theorem doForwardStep_resolved (cfg : NCT) (sp : SearchParams) (childLayerCompleteAbove : Nat)
    (childMapBW : PosetMap) (childMapOld : OldGenMap) (limit : Nat) (st st' : StepState)
    (h : doForwardStep cfg sp childLayerCompleteAbove childMapBW childMapOld limit st =
      some st') (hm : st.parentMapOld.resolved) :
    st'.parentMapOld.resolved := by
  have h01 : ∀ (s0 s1 : StepState),
      (let st0 := if s0.parentState.phase = 0 then forwardPhase0 s0 else s0
       if st0.parentState.phase = 1 then
         forwardPhase1 cfg sp childLayerCompleteAbove childMapBW childMapOld limit st0
       else some st0) = some s1 →
      s1.parentMapOld = s0.parentMapOld := by
    intro s0 s1 h1
    simp only at h1
    by_cases hp : s0.parentState.phase = 0
    · rw [if_pos hp] at h1
      rw [if_pos (show (forwardPhase0 s0).parentState.phase = 1 from rfl)] at h1
      exact forwardPhase1_old _ _ _ _ _ _ (forwardPhase0 s0) _ h1
    · rw [if_neg hp] at h1
      split at h1
      · exact forwardPhase1_old _ _ _ _ _ _ _ _ h1
      · simp only [Option.some.injEq] at h1
        rw [← h1]
  unfold doForwardStep at h
  simp only at h
  split at h
  · split at h
    · exact absurd h (by simp)
    · split at h
      · simp only [Option.some.injEq] at h
        rw [← h]; exact hm
      · split at h
        · simp only [Option.some.injEq] at h
          rw [← h]
          exact storeParents_resolved _ hm
        · rename_i r _ _ _
          have := h01
            ({ st with posetList := r.posetList.take st.parentState.posetListEnd,
                       edgeList := r.edgeList.take st.parentState.elBegin,
                       parentState := { st.parentState with phase := 1 } } : StepState) st' h
          rw [this]; exact hm
  · rw [h01 _ _ h]; exact hm

theorem init_resolved (cfg : NCT) (oldGenEntries numLocks hmapCapacity threads : Nat)
    (relocated : Nat → Bool) (garbage : Nat → PosetObj) (s0 : Search)
    (h0 : Search.init cfg oldGenEntries numLocks hmapCapacity threads relocated garbage =
      some s0) (i : Nat) :
    (s0.oldGenMap.getD i (OldGenMap.new 0 (fun _ => PosetObj.new))).resolved := by
  unfold Search.init at h0
  simp only at h0
  split at h0
  · exact absurd h0 (by simp)
  · simp only [Option.some.injEq] at h0
    rw [← h0]
    simp only
    by_cases hi : i < cfg.C + 1
    · rw [List.getD_eq_getElem _ _ (by simpa using hi), List.getElem_map]
      exact new_resolved _ _
    · rw [List.getD_eq_default _ _ (by simpa using hi)]
      exact new_resolved _ _

theorem step_resolved (cfg : NCT) (sp : SearchParams) (s s1 : Search)
    (h : Search.step cfg sp s = some s1)
    (hs : ∀ i, (s.oldGenMap.getD i (OldGenMap.new 0 (fun _ => PosetObj.new))).resolved) :
    ∀ i, (s1.oldGenMap.getD i (OldGenMap.new 0 (fun _ => PosetObj.new))).resolved := by
  unfold Search.step at h
  simp only at h
  split at h
  · exact absurd h (by simp)
  · rename_i r hr
    simp only [Option.some.injEq] at h
    rw [← h]
    simp only
    intro i
    have hres := doForwardStep_resolved _ _ _ _ _ _ _ _ hr (hs s.forwardC)
    by_cases hi : i = s.forwardC
    · by_cases hl : i < s.oldGenMap.length
      · rw [hi, getD_set_same _ _ _ _ (hi ▸ hl)]
        exact hres
      · rw [List.getD_eq_default _ _ (by rw [List.length_set]; omega)]
        exact new_resolved _ _
    · rw [getD_set_other _ _ _ _ _ (Ne.symm hi)]
      exact hs i

theorem iterate_resolved (cfg : NCT) (sp : SearchParams) :
    ∀ (k : Nat) (s s' : Search), Search.iterate cfg sp k s = some s' →
      (∀ i, (s.oldGenMap.getD i (OldGenMap.new 0 (fun _ => PosetObj.new))).resolved) →
      ∀ i, (s'.oldGenMap.getD i (OldGenMap.new 0 (fun _ => PosetObj.new))).resolved := by
  intro k
  induction k with
  | zero =>
    intro s s' h hs
    simp only [Search.iterate, Option.some.injEq] at h
    rw [← h]; exact hs
  | succ k ih =>
    intro s s' h hs
    unfold Search.iterate at h
    split at h
    · exact absurd h (by simp)
    · rename_i s1 h1
      exact ih s1 s' h (step_resolved cfg sp s s1 h1 hs)

theorem checkChildAssert_resolved (cfg : NCT) (childLayerCompleteAbove : Nat)
    (childMapBW : PosetMap) (childMapOld : OldGenMap) (child : AnnotatedPosetObj)
    (linExt : Nat) (hm : childMapOld.resolved) :
    checkChildAssert cfg childLayerCompleteAbove childMapBW childMapOld child linExt = true := by
  have hf := find_resolved cfg childMapOld child
  unfold checkChildAssert
  simp only
  cases hfind : childMapOld.find cfg child with
  | none =>
    simp only
    repeat' split
    all_goals rfl
  | some r =>
    have h1 := hf r hm hfind
    simp only
    cases hst : r.status with
    | UNFINISHED => exact absurd hst h1
    | YES =>
      simp only [if_true, reduceCtorEq, if_false]
      repeat' split
      all_goals rfl
    | NO =>
      simp only [if_true]
      repeat' split
      all_goals rfl

/-- C34: every record that the storing loop of `doForwardStep` inserts into the old-gen map
has the status `YES` or `NO`, never `UNFINISHED`.  Hence in every state the forward run
reaches from its set-up, a hit of `OldGenMap::find` in any of the old-gen maps is a resolved
record, and the `assert(false)` after the old-gen lookup of `checkChild` is not reached. -/
theorem oldgen_hit_resolved (cfg : NCT) (sp : SearchParams)
    (oldGenEntries numLocks hmapCapacity threads : Nat) (relocated : Nat → Bool)
    (garbage : Nat → PosetObj) (k : Nat) (s0 s : Search)
    (h0 : Search.init cfg oldGenEntries numLocks hmapCapacity threads relocated garbage =
      some s0)
    (hk : Search.iterate cfg sp k s0 = some s) :
    (∀ st : StepState,
      (storeParents st).parentMapOld =
        (spilledRecords st).foldl OldGenMap.insert st.parentMapOld ∧
      ∀ a ∈ spilledRecords st,
        a.poset.status = SortableStatus.YES ∨ a.poset.status = SortableStatus.NO) ∧
    (∀ (i : Nat) (child : AnnotatedPosetObj) (r : PosetObj),
      (s.oldGenMap.getD i (OldGenMap.new 0 (fun _ => PosetObj.new))).find cfg child = some r →
        r.status = SortableStatus.YES ∨ r.status = SortableStatus.NO) ∧
    ∀ (i childLayerCompleteAbove : Nat) (childMapBW : PosetMap) (child : AnnotatedPosetObj)
      (linExt : Nat),
      checkChildAssert cfg childLayerCompleteAbove childMapBW
        (s.oldGenMap.getD i (OldGenMap.new 0 (fun _ => PosetObj.new))) child linExt = true := by
  have hres := iterate_resolved cfg sp k s0 s hk
    (init_resolved cfg oldGenEntries numLocks hmapCapacity threads relocated garbage s0 h0)
  have hyn : ∀ x : SortableStatus, x ≠ SortableStatus.UNFINISHED →
      x = SortableStatus.YES ∨ x = SortableStatus.NO := by
    intro x hx
    cases x with
    | UNFINISHED => exact absurd rfl hx
    | YES => exact Or.inl rfl
    | NO => exact Or.inr rfl
  refine ⟨fun st => ⟨storeParents_old st, fun a ha => hyn _ (spilled_status st a ha)⟩, ?_, ?_⟩
  · intro i child r hr
    exact hyn _ (find_resolved cfg _ child r (hres i) hr)
  · intro i c bw child linExt
    exact checkChildAssert_resolved cfg c bw _ child linExt (hres i)

theorem oldgen_hit_resolved_witness :
    (sampleSearch.oldGenMap.getD 0 (OldGenMap.new 0 (fun _ => PosetObj.new))).empty = false ∧
    ∀ (i : Nat) (child : AnnotatedPosetObj) (r : PosetObj),
      (sampleSearch.oldGenMap.getD i (OldGenMap.new 0 (fun _ => PosetObj.new))).find
          ⟨4, 4, 5⟩ child = some r →
        r.status = SortableStatus.YES ∨ r.status = SortableStatus.NO :=
  ⟨by decide!,
    (oldgen_hit_resolved ⟨4, 4, 5⟩ (defaultParams ⟨4, 4, 5⟩ 84) (2 ^ 27) 182 7169 1
      (fun i => decide (i < 128)) (fun _ => PosetObj.new) 3 sampleSearchInit sampleSearch
      (eq_some_getD _ _ (by decide)) (eq_some_getD _ _ (by decide!))).2.1⟩


theorem is_edge_graph_congr (MAXN : Nat) (p q : PosetObj) (h : p.graph = q.graph) :
    p.is_edge MAXN = q.is_edge MAXN := by
  funext j k
  unfold PosetObj.is_edge PosetObj.graphGet
  rw [h]

theorem getAdMatrix_graph_congr (cfg : NCT) (p q : PosetObj) (h : p.graph = q.graph) :
    p.GetAdMatrix cfg = q.GetAdMatrix cfg := by
  unfold PosetObj.GetAdMatrix
  rw [is_edge_graph_congr cfg.MAXN p q h]

theorem computeHash_congr (cfg : NCT) (p q : PosetObj) (hg : p.graph = q.graph)
    (hu : p.uniqueGraph = q.uniqueGraph) : computeHash cfg p = computeHash cfg q := by
  unfold computeHash hashFromGraph fullFastHash
  rw [hu, hg, getAdMatrix_graph_congr cfg p q hg]

theorem cascade_entry_congr (cfg : NCT) (y : AnnotatedPosetObj) (e e' : PosetObj)
    (hg : e'.graph = e.graph) (hu : e'.uniqueGraph = e.uniqueGraph)
    (hs : e'.selfdualId = e.selfdualId) :
    equalityCascade cfg y e' = equalityCascade cfg y e := by
  unfold equalityCascade PosetObj.SameGraph PosetObj.isSingletonsAbove PosetObj.isPairs
    boost_is_isomorphic boost_is_rev_isomorphic
  rw [hu, hs, hg, is_edge_graph_congr cfg.MAXN e' e hg]

theorem map_hash_congr {E : Type} (cfg : NCT) (toPoset : E → PosetObj) (dflt : E)
    (c c' : List E) (hl : c'.length = c.length)
    (hc : ∀ j, (toPoset (c'.getD j dflt)).graph = (toPoset (c.getD j dflt)).graph ∧
      (toPoset (c'.getD j dflt)).uniqueGraph = (toPoset (c.getD j dflt)).uniqueGraph) :
    c'.map (fun e => computeHash cfg (toPoset e)) =
      c.map (fun e => computeHash cfg (toPoset e)) := by
  apply List.ext_getElem
  · simp [hl]
  · intro j h1 h2
    rw [List.getElem_map, List.getElem_map]
    have h1' : j < c'.length := by simpa using h1
    have h2' : j < c.length := by simpa using h2
    have := hc j
    rw [List.getD_eq_getElem _ _ h1', List.getD_eq_getElem _ _ h2'] at this
    exact computeHash_congr cfg _ _ this.1 this.2

theorem rehashInternal_congr {E : Type} (cfg : NCT) (w : PtrWidths) (toPoset : E → PosetObj)
    (dflt : E) (c c' : List E) (m : MyHashmap) (capacity : Nat)
    (hc : ∀ j, (toPoset (c'.getD j dflt)).graph = (toPoset (c.getD j dflt)).graph ∧
      (toPoset (c'.getD j dflt)).uniqueGraph = (toPoset (c.getD j dflt)).uniqueGraph) :
    rehashInternal w (fun e => computeHash cfg (toPoset e)) dflt c' m capacity =
      rehashInternal w (fun e => computeHash cfg (toPoset e)) dflt c m capacity := by
  unfold rehashInternal
  have : ∀ j, computeHash cfg (toPoset (c'.getD j dflt)) =
      computeHash cfg (toPoset (c.getD j dflt)) :=
    fun j => computeHash_congr cfg _ _ (hc j).1 (hc j).2
  simp only [this]

theorem find_after_update {E : Type} (cfg : NCT) (w : PtrWidths) (toPoset : E → PosetObj)
    (dflt : E) (c c' : List E) (m : MyHashmap) (y : AnnotatedPosetObj) (i : Nat)
    (hm : MapInv w m (c.map (fun e => computeHash cfg (toPoset e))))
    (hl : c'.length = c.length)
    (hc : ∀ j, (toPoset (c'.getD j dflt)).graph = (toPoset (c.getD j dflt)).graph ∧
      (toPoset (c'.getD j dflt)).uniqueGraph = (toPoset (c.getD j dflt)).uniqueGraph ∧
      (toPoset (c'.getD j dflt)).selfdualId = (toPoset (c.getD j dflt)).selfdualId)
    (hi : i < c.length)
    (hhash : computeHash cfg (toPoset (c.getD i dflt)) = y.hash)
    (heq : equalityCascade cfg y (toPoset (c.getD i dflt)) = true)
    (huniq : ∀ i', i' < c.length → equalityCascade cfg y (toPoset (c.getD i' dflt)) = true →
      i' = i) :
    MyHashmap.find cfg w toPoset dflt c' m y = some i ∧
    ∀ capacity m', 0 < capacity →
      rehashInternal w (fun e => computeHash cfg (toPoset e)) dflt c' m capacity = some m' →
      MyHashmap.find cfg w toPoset dflt c' m' y = some i := by
  have hmap := map_hash_congr cfg toPoset dflt c c' hl (fun j => ⟨(hc j).1, (hc j).2.1⟩)
  have hm' : MapInv w m (c'.map (fun e => computeHash cfg (toPoset e))) := by rw [hmap]; exact hm
  have hcas : ∀ j, equalityCascade cfg y (toPoset (c'.getD j dflt)) =
      equalityCascade cfg y (toPoset (c.getD j dflt)) :=
    fun j => cascade_entry_congr cfg y _ _ (hc j).1 (hc j).2.1 (hc j).2.2
  have hh : computeHash cfg (toPoset (c'.getD i dflt)) = y.hash := by
    rw [computeHash_congr cfg _ _ (hc i).1 (hc i).2.1]; exact hhash
  have hu : ∀ i', i' < c'.length → equalityCascade cfg y (toPoset (c'.getD i' dflt)) = true →
      i' = i := by
    intro i' h1 h2
    rw [hcas] at h2
    exact huniq i' (hl ▸ h1) h2
  refine ⟨find_spec cfg w toPoset _ dflt c' m y i hm' (hl ▸ hi) hh (by rw [hcas]; exact heq) hu,
    ?_⟩
  intro capacity m1 hcap hre
  have hinv := (rehashInternal_inv w _ dflt c' m m1 capacity hcap hm' hre).1
  exact find_spec cfg w toPoset _ dflt c' m1 y i hinv (hl ▸ hi) hh (by rw [hcas]; exact heq) hu

theorem getD_map_fields (f : PosetObj → PosetObj) (c : List PosetObj) (dflt : PosetObj)
    (j : Nat) :
    (c.map f).getD j dflt = if j < c.length then f (c.getD j dflt) else dflt := by
  by_cases h : j < c.length
  · rw [if_pos h, List.getD_eq_getElem _ _ (by simpa using h), List.getElem_map,
      List.getD_eq_getElem _ _ h]
  · rw [if_neg h, List.getD_eq_default _ _ (by simpa using h)]

/-- C39: `computeHash` of a record depends only on its graph bits and its `uniqueGraph`
flag; changing the status, the mark bit or the selfDual bit leaves it unchanged.  So
`rehashInternal`, which recomputes the hash from the stored records, places the pointers
exactly as it would have with the records as they were inserted, and a stored record whose
status or mark has changed since is still found by `MyHashmap::find`, before and after a
rehash.  (The hash of a stored record, `PosetHandleFull::fromPoset(poset).GetHash()`, is
taken to be `computeHash` of the record.) -/
theorem computeHash_graph_unique_only (cfg : NCT) :
    (∀ p q : PosetObj, p.graph = q.graph → p.uniqueGraph = q.uniqueGraph →
      computeHash cfg p = computeHash cfg q) ∧
    (∀ (p : PosetObj) (s : SortableStatus) (mark selfDual : Bool),
      computeHash cfg { p with status := s, mark := mark, selfdualId := selfDual } =
        computeHash cfg p) ∧
    (∀ (w : PtrWidths) (dflt : PosetObj) (c : List PosetObj) (m : MyHashmap) (capacity : Nat)
      (upd : PosetObj → SortableStatus × Bool × Bool),
      rehashInternal w (computeHash cfg) dflt
          (c.map (fun p => { p with status := (upd p).1, mark := (upd p).2.1,
                                    selfdualId := (upd p).2.2 }))
          m capacity =
        rehashInternal w (computeHash cfg) dflt c m capacity) ∧
    ∀ (w : PtrWidths) (dflt : PosetObj) (c : List PosetObj) (m : MyHashmap)
      (upd : PosetObj → SortableStatus × Bool) (y : AnnotatedPosetObj) (i : Nat),
      MapInv w m (c.map (computeHash cfg)) → i < c.length →
      computeHash cfg (c.getD i dflt) = y.hash →
      equalityCascade cfg y (c.getD i dflt) = true →
      (∀ j, j < c.length → equalityCascade cfg y (c.getD j dflt) = true → j = i) →
      MyHashmap.find cfg w id dflt
        (c.map (fun p => { p with status := (upd p).1, mark := (upd p).2 })) m y = some i ∧
      ∀ capacity m', 0 < capacity →
        rehashInternal w (computeHash cfg) dflt
          (c.map (fun p => { p with status := (upd p).1, mark := (upd p).2 })) m capacity =
            some m' →
        MyHashmap.find cfg w id dflt
          (c.map (fun p => { p with status := (upd p).1, mark := (upd p).2 })) m' y =
            some i := by
  refine ⟨fun p q hg hu => computeHash_congr cfg p q hg hu,
    fun p s mark selfDual => computeHash_congr cfg _ _ rfl rfl, ?_, ?_⟩
  · intro w dflt c m capacity upd
    apply rehashInternal_congr cfg w id dflt c _ m capacity
    intro j
    rw [getD_map_fields]
    split
    · exact ⟨rfl, rfl⟩
    · rename_i h
      rw [List.getD_eq_default _ _ (by omega)]
      exact ⟨rfl, rfl⟩
  · intro w dflt c m upd y i hm hi hhash heq huniq
    apply find_after_update cfg w id dflt c _ m y i hm (by simp) _ hi hhash heq huniq
    intro j
    rw [getD_map_fields]
    split
    · exact ⟨rfl, rfl, rfl⟩
    · rename_i h
      rw [List.getD_eq_default _ _ (by omega)]
      exact ⟨rfl, rfl, rfl⟩


theorem extCount_mul_le (edge : Nat → Nat → Bool) (vs ws : List Nat)
    (hnd : (vs ++ ws).Nodup)
    (hcross : ∀ x ∈ vs, ∀ y ∈ ws, edge y x = false) :
    extCount edge vs * extCount edge ws ≤ extCount edge (vs ++ ws) := by
  have hvs : vs.Nodup := (List.nodup_append.mp hnd).1
  have hws : ws.Nodup := (List.nodup_append.mp hnd).2.1
  rw [extCount_eq_card edge vs hvs, extCount_eq_card edge ws hws, extCount_eq_card edge _ hnd,
    ← Finset.card_product]
  apply Finset.card_le_card_of_injOn (fun p : List Nat × List Nat => p.1 ++ p.2)
  · intro p hp
    simp only [Finset.mem_product, List.mem_toFinset, mem_ext] at hp ⊢
    refine ⟨hp.1.1.append hp.2.1, ?_⟩
    rw [isLinExt_append]
    exact ⟨hp.1.2, hp.2.2, fun x hx y hy =>
      hcross x (hp.1.1.mem_iff.mp hx) y (hp.2.1.mem_iff.mp hy)⟩
  · intro p hp q hq h
    simp only [Finset.coe_product, Set.mem_prod, Finset.mem_coe, List.mem_toFinset,
      mem_ext, Finset.mem_product] at hp hq
    have hlen : p.1.length = q.1.length := by rw [hp.1.1.length_eq, hq.1.1.length_eq]
    have := List.append_inj h hlen
    exact Prod.ext this.1 this.2

theorem product_le {edge : Nat → Nat → Bool} {n : Nat} {inM outM : Nat → Nat}
    (hs : MaskSpec edge n inM outM) (S i : Nat) (hS : S ∈ downSets inM n)
    (hi : i < n) (hiS : S.testBit i = false) (ht : S ||| inM i = S) :
    extCount edge (bitsOf S) *
      extCount edge (bitsOf (bnot32 (S ||| (1 <<< i)) &&& (2 ^ n - 1))) ≤
        extCount edge (List.range n) := by
  have hn32 : n ≤ 32 := le_of_lt hs.hn
  have hD := (succ_mem_downSets hs S i hS ((mem_bitsOf_comp n S i hn32).2 ⟨hi, hiS⟩) ht).1
  obtain ⟨hlt, hcl⟩ := (mem_downSets hs n (le_refl _) S).mp hS
  obtain ⟨hDlt, hDcl⟩ := (mem_downSets hs n (le_refl _) _).mp hD
  -- appending `i` to an ordering of `S`
  have hperm1 : (bitsOf S ++ [i]).Perm (bitsOf (S ||| (1 <<< i))) := by
    rw [List.perm_ext_iff_of_nodup]
    · intro x
      rw [List.mem_append, List.mem_singleton, mem_bitsOf, mem_bitsOf, Nat.testBit_or,
        testBit_one_shiftLeft]
      constructor
      · rintro (h | h)
        · exact ⟨h.1, by simp [h.2]⟩
        · subst h; exact ⟨by omega, by simp⟩
      · rintro ⟨h1, h2⟩
        simp only [Bool.or_eq_true, decide_eq_true_eq] at h2
        rcases h2 with h2 | h2
        · exact Or.inl ⟨h1, h2⟩
        · exact Or.inr h2.symm
    · rw [List.nodup_append]
      refine ⟨bitsOf_nodup S, List.nodup_singleton i, ?_⟩
      intro x hx hx2
      rw [List.mem_singleton] at hx2
      subst hx2
      rw [mem_bitsOf] at hx
      rw [hx.2] at hiS
      exact absurd hiS (by simp)
    · exact bitsOf_nodup _
  have hnd1 : (bitsOf S ++ [i]).Nodup := hperm1.nodup_iff.mpr (bitsOf_nodup _)
  have h1 : extCount edge (bitsOf S) ≤ extCount edge (bitsOf (S ||| (1 <<< i))) := by
    rw [← extCount_congr edge _ _ hperm1]
    apply extCount_append_ge edge _ _ [i] hnd1 (List.Perm.refl _)
    · simp [isLinExt]
    · intro x hx y hy
      rw [List.mem_singleton] at hy
      subst hy
      rw [mem_bitsOf] at hx
      cases h : edge y x with
      | false => rfl
      | true =>
        have := hcl y x h hx.2
        rw [this] at hiS
        exact absurd hiS (by simp)
  -- an ordering of `S ∪ {i}` followed by an ordering of the rest
  have hclt : bnot32 (S ||| (1 <<< i)) &&& (2 ^ n - 1) < 2 ^ n :=
    lt_of_le_of_lt Nat.and_le_right (Nat.sub_lt (by positivity) (by norm_num))
  have hb1 := bitsOf_lt (S ||| (1 <<< i)) n hn32 hDlt
  have hb2 : bitsOf (bnot32 (S ||| (1 <<< i)) &&& (2 ^ n - 1)) =
      (List.range n).filter (fun x => !(S ||| (1 <<< i)).testBit x) := by
    rw [bitsOf_lt _ n hn32 hclt]
    apply List.filter_congr
    intro x hx
    rw [testBit_comp n _ x hn32]
    simp [List.mem_range.mp hx]
  have hperm : (bitsOf (S ||| (1 <<< i)) ++
      bitsOf (bnot32 (S ||| (1 <<< i)) &&& (2 ^ n - 1))).Perm (List.range n) := by
    rw [hb1, hb2]
    exact List.filter_append_perm _ _
  have hnd : (bitsOf (S ||| (1 <<< i)) ++
      bitsOf (bnot32 (S ||| (1 <<< i)) &&& (2 ^ n - 1))).Nodup :=
    hperm.nodup_iff.mpr (List.nodup_range n)
  have hcross : ∀ x ∈ bitsOf (S ||| (1 <<< i)),
      ∀ y ∈ bitsOf (bnot32 (S ||| (1 <<< i)) &&& (2 ^ n - 1)), edge y x = false := by
    intro x hx y hy
    rw [mem_bitsOf] at hx
    rw [mem_bitsOf_comp n _ y hn32] at hy
    cases h : edge y x with
    | false => rfl
    | true =>
      have := hDcl y x h hx.2
      rw [hy.2] at this
      exact absurd this (by simp)
  have h2 := extCount_mul_le edge _ _ hnd hcross
  rw [extCount_congr edge _ _ hperm] at h2
  exact (Nat.mul_le_mul_right _ h1).trans h2

theorem contrib_off (edge : Nat → Nat → Bool) (n : Nat) (inM : Nat → Nat) (S a b : Nat)
    (h : ¬ (a < b ∧ b < n)) : contrib edge n inM S a b = 0 := by
  unfold contrib
  rw [if_neg]
  intro hc
  exact h ⟨hc.2.2.1, hc.2.2.2.1⟩

theorem table_sum_le {edge : Nat → Nat → Bool} {n : Nat} {inM outM : Nat → Nat}
    (hs : MaskSpec edge n inM outM) (a b : Nat) :
    ((downSets inM n).map (fun T => contrib edge n inM T a b)).sum ≤
      bruteForceLinExt edge n := by
  by_cases h : a < b ∧ b < n
  · rw [← precedes_sum hs a b h.1 h.2]
    exact precedes_le edge n a b
  · have : (downSets inM n).map (fun T => contrib edge n inM T a b) =
        (downSets inM n).map (fun _ => 0) :=
      List.map_congr_left (fun T _ => contrib_off edge n inM T a b h)
    rw [this]
    simp

theorem calc_table_off (w MAXN alloc : Nat) (oc : Bool) (down0 up0 : Nat → Nat)
    (poset : PosetObj) (n : Nat) (r : Nat × (Nat → Nat → Nat))
    (h : calculateLinExtensionsNew w MAXN alloc oc down0 up0 poset false n = some r) :
    r.2 = fun _ _ => 0 := by
  unfold calculateLinExtensionsNew at h
  simp only at h
  split at h
  · exact absurd h (by simp)
  · simp only [Option.some.injEq] at h
    rw [← h]
  · simp only [Bool.false_eq_true, if_false, Option.some.injEq] at h
    rw [← h]

theorem calc_agree (W MAXN alloc : Nat) (down0 up0 : Nat → Nat) (poset : PosetObj)
    (fillTable : Bool) (n : Nat) (hn : n < 32) (hW : 32 ≤ W)
    (hX : bruteForceLinExt (poset.is_edge MAXN) n < 2 ^ 32) :
    calculateLinExtensionsNew 32 MAXN alloc false down0 up0 poset fillTable n =
      calculateLinExtensionsNew W MAXN alloc false down0 up0 poset fillTable n := by
  have hs := maskSpec_poset MAXN poset n hn
  have hXW : bruteForceLinExt (poset.is_edge MAXN) n < 2 ^ W :=
    lt_of_lt_of_le hX (Nat.pow_le_pow_right (by norm_num) hW)
  have hA := calc_fst 32 MAXN alloc down0 up0 poset fillTable n hn
  have hB := calc_fst W MAXN alloc down0 up0 poset fillTable n hn
  by_cases hg : ∀ e, e < n → downSetCount (poset.is_edge MAXN) e < alloc / 2
  · rw [if_pos hg, Nat.mod_eq_of_lt hX] at hA
    rw [if_pos hg, Nat.mod_eq_of_lt hXW] at hB
    cases hrA : calculateLinExtensionsNew 32 MAXN alloc false down0 up0 poset fillTable n with
    | none => rw [hrA] at hA; exact absurd hA (by simp)
    | some rA =>
      cases hrB : calculateLinExtensionsNew W MAXN alloc false down0 up0 poset fillTable n with
      | none => rw [hrB] at hB; exact absurd hB (by simp)
      | some rB =>
        rw [hrA] at hA
        rw [hrB] at hB
        simp only [Option.map_some', Option.some.injEq] at hA hB
        congr 1
        apply Prod.ext
        · rw [hA, hB]
        · cases fillTable with
          | false =>
            rw [calc_table_off _ _ _ _ _ _ _ _ _ hrA, calc_table_off _ _ _ _ _ _ _ _ _ hrB]
          | true =>
            funext a b
            rw [calc_table 32 MAXN alloc down0 up0 poset n hn rA hrA a b,
              calc_table W MAXN alloc down0 up0 poset n hn rB hrB a b,
              Nat.mod_eq_of_lt (lt_of_le_of_lt (table_sum_le hs a b) hX),
              Nat.mod_eq_of_lt (lt_of_le_of_lt (table_sum_le hs a b) hXW)]
  · rw [if_neg hg] at hA hB
    cases hrA : calculateLinExtensionsNew 32 MAXN alloc false down0 up0 poset fillTable n with
    | some rA => rw [hrA] at hA; exact absurd hA (by simp)
    | none =>
      cases hrB : calculateLinExtensionsNew W MAXN alloc false down0 up0 poset fillTable n with
      | some rB => rw [hrB] at hB; exact absurd hB (by simp)
      | none => rfl

theorem sweep32_values (MAXN alloc : Nat) (down0 up0 : Nat → Nat) (poset : PosetObj)
    (n : Nat) (hn : n < 32) (hX : bruteForceLinExt (poset.is_edge MAXN) n < 2 ^ 32)
    (st : FwdState)
    (hst : fwdLoop 32 MAXN alloc false (inVertexMask MAXN poset n) (outVertexMask MAXN poset n)
      (List.range n) { sets := [0], down := setCell down0 0 (1 % 2 ^ 32) } =
        FwdResult.done st) :
    (∀ S ∈ st.sets, st.down S = extCount (poset.is_edge MAXN) (bitsOf S) ∧
      st.down S ≤ bruteForceLinExt (poset.is_edge MAXN) n) ∧
    (∀ S ∈ st.sets,
      (st.sets.dropLast.reverse.foldl
        (bwdVisit 32 n (inVertexMask MAXN poset n) st.down (2 ^ n - 1))
        { up := setCell up0 (2 ^ n - 1) (1 % 2 ^ 32), t := fun _ _ => 0 }).up S =
          extCount (poset.is_edge MAXN) (bitsOf (bnot32 S &&& (2 ^ n - 1))) ∧
      (st.sets.dropLast.reverse.foldl
        (bwdVisit 32 n (inVertexMask MAXN poset n) st.down (2 ^ n - 1))
        { up := setCell up0 (2 ^ n - 1) (1 % 2 ^ 32), t := fun _ _ => 0 }).up S ≤
          bruteForceLinExt (poset.is_edge MAXN) n) ∧
    (∀ S ∈ st.sets, ∀ i, i < n → S.testBit i = false →
      S ||| inVertexMask MAXN poset n i = S →
      st.down S * (st.sets.dropLast.reverse.foldl
        (bwdVisit 32 n (inVertexMask MAXN poset n) st.down (2 ^ n - 1))
        { up := setCell up0 (2 ^ n - 1) (1 % 2 ^ 32), t := fun _ _ => 0 }).up
          (S ||| (1 <<< i)) ≤ bruteForceLinExt (poset.is_edge MAXN) n) ∧
    ∀ a b, (st.sets.dropLast.reverse.foldl
        (bwdVisit 32 n (inVertexMask MAXN poset n) st.down (2 ^ n - 1))
        { up := setCell up0 (2 ^ n - 1) (1 % 2 ^ 32), t := fun _ _ => 0 }).t a b ≤
          bruteForceLinExt (poset.is_edge MAXN) n := by
  have hs := maskSpec_poset MAXN poset n hn
  have hn32 : n ≤ 32 := by omega
  rcases fwdLoop_poset 32 MAXN alloc down0 poset n hn with ⟨_, hab⟩ | ⟨hg, st', hd, hsets, hdown⟩
  · rw [hab] at hst; exact absurd hst (by simp)
  rw [hd] at hst
  injection hst with hst
  subst hst
  have hle : ∀ S ∈ st'.sets, extCount (poset.is_edge MAXN) (bitsOf S) ≤
      bruteForceLinExt (poset.is_edge MAXN) n :=
    fun S hS => (closed_counts_le hs S (hsets ▸ hS)).1
  have hdown' : ∀ m ∈ st'.sets, st'.down m = extCount (poset.is_edge MAXN) (bitsOf m) := by
    intro m hm
    rw [hdown m hm]
    exact Nat.mod_eq_of_lt (lt_of_le_of_lt (hle m hm) hX)
  obtain ⟨hup, _⟩ := bwd32_exact MAXN up0 poset n hn st' hsets hdown' hX
  have hcalc : calculateLinExtensionsNew 32 MAXN alloc false down0 up0 poset true n =
      some (st'.down (2 ^ n - 1), (st'.sets.dropLast.reverse.foldl
        (bwdVisit 32 n (inVertexMask MAXN poset n) st'.down (2 ^ n - 1))
        { up := setCell up0 (2 ^ n - 1) (1 % 2 ^ 32), t := fun _ _ => 0 }).t) := by
    unfold calculateLinExtensionsNew
    simp only [hd, set1_eq n hn, if_true]
  refine ⟨fun S hS => ⟨hdown' S hS, by rw [hdown' S hS]; exact hle S hS⟩,
    fun S hS => ⟨hup S hS, by rw [hup S hS]; exact (closed_counts_le hs S (hsets ▸ hS)).2⟩,
    ?_, ?_⟩
  · intro S hS i hi hiS ht
    have hSd : S ∈ downSets (inVertexMask MAXN poset n) n := hsets ▸ hS
    have hD := (succ_mem_downSets hs S i hSd ((mem_bitsOf_comp n S i hn32).2 ⟨hi, hiS⟩) ht).1
    rw [hdown' S hS, hup _ (hsets ▸ hD)]
    exact product_le hs S i hSd hi hiS ht
  · intro a b
    have := calc_table 32 MAXN alloc down0 up0 poset n hn _ hcalc a b
    simp only at this
    rw [this]
    exact (Nat.mod_le _ _).trans (table_sum_le hs a b)


theorem linExtTBits_ge (M : Nat) : 32 ≤ linExtTBits M := by
  unfold linExtTBits
  split
  · omega
  · split <;> omega

theorem singleton32_agrees (cfg : NCT) (alloc : Nat) (scratch : Nat → Nat)
    (linExtTable : Nat → Nat → Nat) (poset : PosetObj) (info : PosetInfo) (c : Nat)
    (hn : cfg.N < 32) (hX : bruteForceLinExt (poset.is_edge cfg.MAXN) cfg.N < 2 ^ 32)
    (hk : info.numSingletons ≤ 1) (hc : (cfg.C + 2 ^ 32 - c % 2 ^ 32) % 2 ^ 32 < 32) :
    (calculateLinExtensionsSingleton cfg alloc scratch linExtTable poset info c true
        false).map Prod.fst =
      (calculateLinExtensionsNew (linExtTBits cfg.MAXN) cfg.MAXN alloc false scratch scratch
        poset true cfg.N).map Prod.fst ∧
    ∀ r rW,
      calculateLinExtensionsSingleton cfg alloc scratch linExtTable poset info c true false =
        some r →
      calculateLinExtensionsNew (linExtTBits cfg.MAXN) cfg.MAXN alloc false scratch scratch
        poset true cfg.N = some rW →
      ∀ i j, i < cfg.N → j < cfg.N → i ≠ j →
        r.2 i j = fillFullTable (linExtTBits cfg.MAXN) rW.2 rW.1 cfg.N i j := by
  have hag := calc_agree (linExtTBits cfg.MAXN) cfg.MAXN alloc scratch scratch poset true cfg.N
    hn (linExtTBits_ge _) hX
  have hS : calculateLinExtensionsSingleton cfg alloc scratch linExtTable poset info c true
      false = (calculateLinExtensionsNew 32 cfg.MAXN alloc false scratch scratch poset
        true cfg.N).map (fun r =>
          (r.1, fillFullTableFrom (linExtTBits cfg.MAXN) linExtTable r.2 r.1 cfg.N)) := by
    unfold calculateLinExtensionsSingleton
    simp only [hk, if_true, Bool.false_and, Bool.false_eq_true, if_false, Bool.not_false,
      Bool.true_and, decide_eq_true_eq, hc]
  rw [hS, hag]
  refine ⟨by rw [Option.map_map]; rfl, ?_⟩
  intro r rW hr hrW i j hi hj hij
  rw [hrW] at hr
  simp only [Option.map_some', Option.some.injEq] at hr
  rw [← hr]
  unfold fillFullTableFrom fillFullTable
  simp only
  by_cases h1 : i < j
  · rw [if_pos ⟨h1, hj⟩, if_neg (by omega)]
  · rw [if_neg (by omega), if_pos (by omega), if_pos (by omega)]

/-- C38: for a poset with fewer than `2^32` linear extensions, the 32-bit counter run
without overflow check returns the same count and the same table as the wide counter (of
any width of at least 32 bits, in particular `LinExtT`), also when the capacity guard
stops both.  On the path `C - c < 32` of `calculateLinExtensionsSingleton` the count and
every table cell `[i][j]`, `i ≠ j`, are those of the wide path.  No value wraps: every
`downVal` and `upVal` left by the sweeps is the exact number of orderings of the downset and
of its complement and at most `e(P)`, every product `downVal * upVal` formed by the
backward sweep is at most `e(P)` as a natural number, and so is every table entry. -/
theorem counter32_agrees (cfg : NCT) (alloc : Nat) (down0 up0 : Nat → Nat) (poset : PosetObj)
    (hn : cfg.N < 32) (hX : bruteForceLinExt (poset.is_edge cfg.MAXN) cfg.N < 2 ^ 32) :
    (∀ (W : Nat) (fillTable : Bool), 32 ≤ W →
      calculateLinExtensionsNew 32 cfg.MAXN alloc false down0 up0 poset fillTable cfg.N =
        calculateLinExtensionsNew W cfg.MAXN alloc false down0 up0 poset fillTable cfg.N) ∧
    (∀ fillTable : Bool,
      calculateLinExtensionsNew 32 cfg.MAXN alloc false down0 up0 poset fillTable cfg.N =
        calculateLinExtensionsNew (linExtTBits cfg.MAXN) cfg.MAXN alloc false down0 up0 poset
          fillTable cfg.N) ∧
    (∀ (linExtTable : Nat → Nat → Nat) (info : PosetInfo) (c : Nat),
      info.numSingletons ≤ 1 → (cfg.C + 2 ^ 32 - c % 2 ^ 32) % 2 ^ 32 < 32 →
      (calculateLinExtensionsSingleton cfg alloc down0 linExtTable poset info c true
          false).map Prod.fst =
        (calculateLinExtensionsNew (linExtTBits cfg.MAXN) cfg.MAXN alloc false down0 down0
          poset true cfg.N).map Prod.fst ∧
      ∀ r rW,
        calculateLinExtensionsSingleton cfg alloc down0 linExtTable poset info c true false =
          some r →
        calculateLinExtensionsNew (linExtTBits cfg.MAXN) cfg.MAXN alloc false down0 down0
          poset true cfg.N = some rW →
        ∀ i j, i < cfg.N → j < cfg.N → i ≠ j →
          r.2 i j = fillFullTable (linExtTBits cfg.MAXN) rW.2 rW.1 cfg.N i j) ∧
    ∀ st : FwdState,
      fwdLoop 32 cfg.MAXN alloc false (inVertexMask cfg.MAXN poset cfg.N)
        (outVertexMask cfg.MAXN poset cfg.N) (List.range cfg.N)
        { sets := [0], down := setCell down0 0 (1 % 2 ^ 32) } = FwdResult.done st →
      (∀ S ∈ st.sets, st.down S = extCount (poset.is_edge cfg.MAXN) (bitsOf S) ∧
        st.down S ≤ bruteForceLinExt (poset.is_edge cfg.MAXN) cfg.N) ∧
      (∀ S ∈ st.sets,
        (st.sets.dropLast.reverse.foldl
          (bwdVisit 32 cfg.N (inVertexMask cfg.MAXN poset cfg.N) st.down (2 ^ cfg.N - 1))
          { up := setCell up0 (2 ^ cfg.N - 1) (1 % 2 ^ 32), t := fun _ _ => 0 }).up S =
            extCount (poset.is_edge cfg.MAXN) (bitsOf (bnot32 S &&& (2 ^ cfg.N - 1))) ∧
        (st.sets.dropLast.reverse.foldl
          (bwdVisit 32 cfg.N (inVertexMask cfg.MAXN poset cfg.N) st.down (2 ^ cfg.N - 1))
          { up := setCell up0 (2 ^ cfg.N - 1) (1 % 2 ^ 32), t := fun _ _ => 0 }).up S ≤
            bruteForceLinExt (poset.is_edge cfg.MAXN) cfg.N) ∧
      (∀ S ∈ st.sets, ∀ i, i < cfg.N → S.testBit i = false →
        S ||| inVertexMask cfg.MAXN poset cfg.N i = S →
        st.down S * (st.sets.dropLast.reverse.foldl
          (bwdVisit 32 cfg.N (inVertexMask cfg.MAXN poset cfg.N) st.down (2 ^ cfg.N - 1))
          { up := setCell up0 (2 ^ cfg.N - 1) (1 % 2 ^ 32), t := fun _ _ => 0 }).up
            (S ||| (1 <<< i)) ≤ bruteForceLinExt (poset.is_edge cfg.MAXN) cfg.N) ∧
      ∀ a b, (st.sets.dropLast.reverse.foldl
          (bwdVisit 32 cfg.N (inVertexMask cfg.MAXN poset cfg.N) st.down (2 ^ cfg.N - 1))
          { up := setCell up0 (2 ^ cfg.N - 1) (1 % 2 ^ 32), t := fun _ _ => 0 }).t a b ≤
            bruteForceLinExt (poset.is_edge cfg.MAXN) cfg.N :=
  ⟨fun W fillTable hW => calc_agree W cfg.MAXN alloc down0 up0 poset fillTable cfg.N hn hW hX,
    fun fillTable => calc_agree _ cfg.MAXN alloc down0 up0 poset fillTable cfg.N hn
      (linExtTBits_ge _) hX,
    fun linExtTable info c hk hc =>
      singleton32_agrees cfg alloc down0 linExtTable poset info c hn hX hk hc,
    fun st hst => sweep32_values cfg.MAXN alloc down0 up0 poset cfg.N hn hX st hst⟩

theorem counter32_agrees_witness :
    calculateLinExtensionsNew 32 4 84 false (fun _ => 0) (fun _ => 0)
        (PosetObj.mk 5 SortableStatus.UNFINISHED false true false) true 4 =
      calculateLinExtensionsNew 64 4 84 false (fun _ => 0) (fun _ => 0)
        (PosetObj.mk 5 SortableStatus.UNFINISHED false true false) true 4 ∧
    (calculateLinExtensionsNew 32 4 84 false (fun _ => 0) (fun _ => 0)
      (PosetObj.mk 5 SortableStatus.UNFINISHED false true false) true 4).isSome = true :=
  ⟨(counter32_agrees ⟨4, 4, 5⟩ 84 (fun _ => 0) (fun _ => 0)
      (PosetObj.mk 5 SortableStatus.UNFINISHED false true false) (by decide)
      (lt_of_le_of_lt (extCount_le_factorial _ _) (by decide))).1 64 true (by decide),
    by decide⟩


theorem layersSem_fuel (R : Nat → Nat → Bool)
    (htrans : ∀ a b c, R a b = true → R b c = true → R a c = true)
    (hirr : ∀ a, R a a = false) :
    ∀ fuel fuel' (avail : List Nat), avail.length ≤ fuel → fuel ≤ fuel' →
      layersSem R fuel' avail = layersSem R fuel avail := by
  intro fuel
  induction fuel with
  | zero =>
    intro fuel' avail h _
    have : avail = [] := List.length_eq_zero.mp (by omega)
    subst this
    cases fuel' with
    | zero => rfl
    | succ f => simp [layersSem]
  | succ fuel ih =>
    intro fuel' avail h hf
    cases fuel' with
    | zero => omega
    | succ f =>
      unfold layersSem
      by_cases h0 : avail = []
      · rw [if_pos h0, if_pos h0]
      · rw [if_neg h0, if_neg h0]
        have hne := layerSem_ne_nil R htrans hirr avail h0
        have hlen : (layerSem R avail).length +
            (avail.filter (fun u => !(layerSem R avail).contains u)).length = avail.length := by
          rw [rest_eq]
          unfold layerSem
          have := (List.filter_append_perm
            (fun j => avail.all (fun u => !R j u || decide (u = j))) avail).length_eq
          rw [List.length_append] at this
          exact this
        have hpos : 0 < (layerSem R avail).length := List.length_pos.mpr hne
        rw [ih f _ (by omega) (by omega)]

theorem mem_layerSem (R : Nat → Nat → Bool) (avail : List Nat) (v : Nat) :
    v ∈ layerSem R avail ↔ v ∈ avail ∧ ∀ u ∈ avail, R v u = true → u = v := by
  unfold layerSem
  rw [List.mem_filter, List.all_eq_true]
  constructor
  · rintro ⟨h1, h2⟩
    refine ⟨h1, fun u hu hr => ?_⟩
    have := h2 u hu
    rw [hr] at this
    simpa using this
  · rintro ⟨h1, h2⟩
    refine ⟨h1, fun u hu => ?_⟩
    cases hr : R v u with
    | false => rfl
    | true => simpa using h2 u hu hr

theorem layersSem_nth (R : Nat → Nat → Bool) :
    ∀ fuel (avail : List Nat) (k : Nat), k < (layersSem R fuel avail).length →
      (layersSem R fuel avail).getD k [] =
        layerSem R (avail.filter
          (fun u => !((layersSem R fuel avail).take k).flatten.contains u)) := by
  intro fuel
  induction fuel with
  | zero => intro avail k hk; simp [layersSem] at hk
  | succ fuel ih =>
    intro avail k hk
    unfold layersSem at hk ⊢
    by_cases h0 : avail = []
    · rw [if_pos h0] at hk; simp at hk
    · rw [if_neg h0] at hk ⊢
      cases k with
      | zero =>
        simp only [List.getD_cons_zero, List.take_zero, List.flatten_nil, List.contains_nil,
          Bool.not_false, List.filter_true]
      | succ k =>
        rw [List.getD_cons_succ, List.take_succ_cons, List.flatten_cons]
        rw [ih _ k (by simpa using hk), List.filter_filter]
        congr 1
        apply List.filter_congr
        intro u _
        rw [Bool.and_comm, ← Bool.not_or]
        congr 1
        rw [Bool.eq_iff_iff]
        simp only [List.contains_eq_any_beq, List.any_append, Bool.or_eq_true]

theorem length_le_flatten (L : List (List Nat)) (h : ∀ l ∈ L, l ≠ []) :
    L.length ≤ L.flatten.length := by
  induction L with
  | nil => simp
  | cons l L ih =>
    rw [List.flatten_cons, List.length_append, List.length_cons]
    have := List.length_pos.mpr (h l (List.mem_cons_self _ _))
    have := ih (fun x hx => h x (List.mem_cons_of_mem _ hx))
    omega

theorem full_mask_avail (r : Nat) :
    (List.range r).filter (fun u => ((1 <<< r) - 1).testBit u) = List.range r := by
  rw [List.filter_eq_self]
  intro u hu
  rw [Nat.shiftLeft_eq, one_mul, Nat.testBit_two_pow_sub_one]
  simpa using hu


theorem rev_closure_rel (n : Nat) (adMatrix : AdjacencyMatrix)
    (hw : AdjacencyMatrix.wf n adMatrix = true) (hd : AdjacencyMatrix.isDag n adMatrix = true) :
    (∀ a b c,
      (AdjacencyMatrix.reverse n (AdjacencyMatrix.TransitiveClosure n adMatrix)).get a b = true →
      (AdjacencyMatrix.reverse n (AdjacencyMatrix.TransitiveClosure n adMatrix)).get b c = true →
      (AdjacencyMatrix.reverse n (AdjacencyMatrix.TransitiveClosure n adMatrix)).get a c = true) ∧
    ∀ a, (AdjacencyMatrix.reverse n (AdjacencyMatrix.TransitiveClosure n adMatrix)).get a a
      = false := by
  constructor
  · intro a b c h1 h2
    rw [reverse_get] at h1 h2 ⊢
    simp only [Bool.and_eq_true, decide_eq_true_eq] at h1 h2 ⊢
    exact ⟨h1.1, h2.2.1, closure_trans n adMatrix hw c b a h2.2.2 h1.2.2⟩
  · intro a
    rw [reverse_get]
    by_cases ha : a < n
    · rw [isDag_irrefl n adMatrix hd a ha]; simp
    · simp [ha]

theorem closure_rel (n : Nat) (adMatrix : AdjacencyMatrix)
    (hw : AdjacencyMatrix.wf n adMatrix = true) (hd : AdjacencyMatrix.isDag n adMatrix = true) :
    (∀ a b c, (AdjacencyMatrix.TransitiveClosure n adMatrix).get a b = true →
      (AdjacencyMatrix.TransitiveClosure n adMatrix).get b c = true →
      (AdjacencyMatrix.TransitiveClosure n adMatrix).get a c = true) ∧
    ∀ a, a < n → (AdjacencyMatrix.TransitiveClosure n adMatrix).get a a = false :=
  ⟨fun a b c h1 h2 => closure_trans n adMatrix hw a b c h1 h2,
    fun a ha => isDag_irrefl n adMatrix hd a ha⟩

/-- The layers of a transitive irreflexive relation on the vertices below `r`, taken with
enough rounds: what `getLayerStructureRev` returns, characterised. -/
theorem layers_spec (m : AdjacencyMatrix) (r MAXN : Nat) (hr : r ≤ MAXN) (hM : MAXN ≤ 32)
    (htrans : ∀ a b c, m.get a b = true → m.get b c = true → m.get a c = true)
    (hirr : ∀ a, m.get a a = false) :
    (∀ k v, k < (AdjacencyMatrix.getLayerStructureRev MAXN m r).length →
      (v ∈ (AdjacencyMatrix.getLayerStructureRev MAXN m r).getD k [] ↔
        v < r ∧ v ∉ ((AdjacencyMatrix.getLayerStructureRev MAXN m r).take k).flatten ∧
        ∀ u, u < r → m.get v u = true →
          u ∈ ((AdjacencyMatrix.getLayerStructureRev MAXN m r).take k).flatten)) ∧
    (∀ fuel, r ≤ fuel → getLayerStructureRevAux m r fuel ((1 <<< r) - 1) =
      AdjacencyMatrix.getLayerStructureRev MAXN m r) ∧
    (AdjacencyMatrix.getLayerStructureRev MAXN m r).length ≤ r ∧
    (∀ l ∈ AdjacencyMatrix.getLayerStructureRev MAXN m r, l ≠ []) ∧
    (AdjacencyMatrix.getLayerStructureRev MAXN m r).flatten.Perm (List.range r) ∧
    (AdjacencyMatrix.getLayerStructureRev MAXN m r).flatten.Pairwise
      (fun a b => m.get a b = false) := by
  have hr32 : r ≤ 32 := by omega
  have hmask : (1 <<< r) - 1 < 2 ^ r := by
    rw [Nat.shiftLeft_eq, one_mul]
    exact Nat.sub_lt (by positivity) (by norm_num)
  have hL : ∀ fuel, getLayerStructureRevAux m r fuel ((1 <<< r) - 1) =
      layersSem (fun j u => m.get j u) fuel (List.range r) := by
    intro fuel
    rw [layers_eq m r hr32 fuel _ hmask, full_mask_avail]
  have hLr : AdjacencyMatrix.getLayerStructureRev MAXN m r =
      layersSem (fun j u => m.get j u) r (List.range r) := by
    unfold AdjacencyMatrix.getLayerStructureRev
    rw [hL]
    exact layersSem_fuel _ htrans hirr r MAXN _ (by simp) hr
  rw [hLr]
  obtain ⟨hperm, hne⟩ := layersSem_cover (fun j u => m.get j u) htrans hirr r (List.range r)
    (by simp)
  obtain ⟨hin, hpw⟩ := layersSem_pairwise (fun j u => m.get j u) r (List.range r)
    (List.nodup_range r)
  refine ⟨?_, ?_, ?_, hne, hperm, ?_⟩
  · intro k v hk
    rw [layersSem_nth _ r (List.range r) k hk, mem_layerSem]
    simp only [List.mem_filter, List.mem_range, Bool.not_eq_true', List.contains_eq_any_beq,
      List.any_eq_false, beq_iff_eq]
    constructor
    · rintro ⟨⟨h1, h2⟩, h3⟩
      refine ⟨h1, fun hc => h2 v hc rfl, fun u hu hvu => ?_⟩
      by_contra hc
      have := h3 u ⟨hu, fun x hx hxu => hc (hxu ▸ hx)⟩ hvu
      rw [this, hirr] at hvu
      exact absurd hvu (by simp)
    · rintro ⟨h1, h2, h3⟩
      refine ⟨⟨h1, fun x hx hxv => h2 (hxv ▸ hx)⟩, fun u hu hvu => ?_⟩
      have := h3 u hu.1 hvu
      exact absurd rfl (hu.2 u this)
  · intro fuel hf
    rw [hL]
    exact layersSem_fuel _ htrans hirr r fuel _ (by simp) hf
  · have := length_le_flatten _ hne
    rw [hperm.length_eq, List.length_range] at this
    exact this
  · rw [List.pairwise_flatten]
    refine ⟨fun l hl => ?_, hpw.imp (fun h a ha b hb => (h a ha b hb).2)⟩
    obtain ⟨hnd, _, hno⟩ := hin l hl
    have : l.Pairwise (fun a b => a ≠ b ∧ a ∈ l ∧ b ∈ l) := by
      rw [List.pairwise_iff_forall_sublist]
      intro a b hab
      have hsub := hab.subset
      refine ⟨?_, hsub (by simp), hsub (by simp)⟩
      intro he
      subst he
      exact (List.nodup_iff_sublist.mp hnd) a hab
    exact this.imp (fun h => hno _ h.2.1 _ h.2.2 h.1)

theorem pairwise_index (R : Nat → Nat → Bool) (hirr : ∀ a, R a a = false) (F : List Nat)
    (hpw : F.Pairwise (fun a b => R a b = false)) (u v : Nat) (hu : u ∈ F) (hv : v ∈ F)
    (h : R v u = true) : F.indexOf u < F.indexOf v := by
  have hiu := List.indexOf_lt_length.mpr hu
  have hiv := List.indexOf_lt_length.mpr hv
  rw [List.pairwise_iff_getElem] at hpw
  by_contra hc
  rcases Nat.lt_or_eq_of_le (Nat.le_of_not_lt hc) with h1 | h1
  · have := hpw _ _ hiv hiu h1
    rw [List.getElem_indexOf, List.getElem_indexOf, h] at this
    exact absurd this (by simp)
  · have huv : v = u := (List.indexOf_inj hv hu).mp h1
    subst huv
    rw [hirr] at h
    exact absurd h (by simp)

/-- C31: in the forward stream of the canonicalizer the layers are those of
`getLayerStructureRev` on the reversed closure.  For an acyclic graph on `N ≤ MAXN ≤ 32`
vertices with `r` reduced vertices: layer `k` consists exactly of the reduced vertices that
are in none of the layers before it and whose in-neighbours (among the reduced vertices)
in the transitive closure are all in layers before it; the loop ends by its own test (any
number of rounds from `r` on gives the same layers, and there are at most `r` of them);
every layer is non-empty; the layers list every reduced vertex exactly once; and in their
concatenation every edge of the closure, hence of the graph, goes from an earlier to a
later position. -/
theorem forward_layers_spec (cfg : NCT) (adMatrix : AdjacencyMatrix) (r : Nat)
    (hw : AdjacencyMatrix.wf cfg.N adMatrix = true)
    (hd : AdjacencyMatrix.isDag cfg.N adMatrix = true)
    (hr : r ≤ cfg.N) (hN : cfg.N ≤ cfg.MAXN) (hM : cfg.MAXN ≤ 32) :
    (∀ k v, k < (AdjacencyMatrix.getLayerStructureRev cfg.MAXN (AdjacencyMatrix.reverse cfg.N
        (AdjacencyMatrix.TransitiveClosure cfg.N adMatrix)) r).length →
      (v ∈ (AdjacencyMatrix.getLayerStructureRev cfg.MAXN (AdjacencyMatrix.reverse cfg.N
          (AdjacencyMatrix.TransitiveClosure cfg.N adMatrix)) r).getD k [] ↔
        v < r ∧
        v ∉ ((AdjacencyMatrix.getLayerStructureRev cfg.MAXN (AdjacencyMatrix.reverse cfg.N
          (AdjacencyMatrix.TransitiveClosure cfg.N adMatrix)) r).take k).flatten ∧
        ∀ u, u < r → (AdjacencyMatrix.TransitiveClosure cfg.N adMatrix).get u v = true →
          u ∈ ((AdjacencyMatrix.getLayerStructureRev cfg.MAXN (AdjacencyMatrix.reverse cfg.N
            (AdjacencyMatrix.TransitiveClosure cfg.N adMatrix)) r).take k).flatten)) ∧
    (∀ fuel, r ≤ fuel →
      getLayerStructureRevAux (AdjacencyMatrix.reverse cfg.N
          (AdjacencyMatrix.TransitiveClosure cfg.N adMatrix)) r fuel ((1 <<< r) - 1) =
        AdjacencyMatrix.getLayerStructureRev cfg.MAXN (AdjacencyMatrix.reverse cfg.N
          (AdjacencyMatrix.TransitiveClosure cfg.N adMatrix)) r) ∧
    (AdjacencyMatrix.getLayerStructureRev cfg.MAXN (AdjacencyMatrix.reverse cfg.N
      (AdjacencyMatrix.TransitiveClosure cfg.N adMatrix)) r).length ≤ r ∧
    (∀ l ∈ AdjacencyMatrix.getLayerStructureRev cfg.MAXN (AdjacencyMatrix.reverse cfg.N
      (AdjacencyMatrix.TransitiveClosure cfg.N adMatrix)) r, l ≠ []) ∧
    (AdjacencyMatrix.getLayerStructureRev cfg.MAXN (AdjacencyMatrix.reverse cfg.N
      (AdjacencyMatrix.TransitiveClosure cfg.N adMatrix)) r).flatten.Perm (List.range r) ∧
    (∀ u v, u < r → v < r →
      (AdjacencyMatrix.TransitiveClosure cfg.N adMatrix).get u v = true →
      (AdjacencyMatrix.getLayerStructureRev cfg.MAXN (AdjacencyMatrix.reverse cfg.N
          (AdjacencyMatrix.TransitiveClosure cfg.N adMatrix)) r).flatten.indexOf u <
        (AdjacencyMatrix.getLayerStructureRev cfg.MAXN (AdjacencyMatrix.reverse cfg.N
          (AdjacencyMatrix.TransitiveClosure cfg.N adMatrix)) r).flatten.indexOf v) ∧
    ∀ u v, u < r → v < r → adMatrix.get u v = true →
      (AdjacencyMatrix.getLayerStructureRev cfg.MAXN (AdjacencyMatrix.reverse cfg.N
          (AdjacencyMatrix.TransitiveClosure cfg.N adMatrix)) r).flatten.indexOf u <
        (AdjacencyMatrix.getLayerStructureRev cfg.MAXN (AdjacencyMatrix.reverse cfg.N
          (AdjacencyMatrix.TransitiveClosure cfg.N adMatrix)) r).flatten.indexOf v := by
  obtain ⟨htrans, hirr⟩ := rev_closure_rel cfg.N adMatrix hw hd
  obtain ⟨h1, h2, h3, h4, h5, h6⟩ := layers_spec
    (AdjacencyMatrix.reverse cfg.N (AdjacencyMatrix.TransitiveClosure cfg.N adMatrix)) r
    cfg.MAXN (by omega) hM htrans hirr
  have hrev : ∀ u v, u < r → v < r →
      (AdjacencyMatrix.reverse cfg.N (AdjacencyMatrix.TransitiveClosure cfg.N adMatrix)).get
        v u = (AdjacencyMatrix.TransitiveClosure cfg.N adMatrix).get u v := by
    intro u v hu hv
    rw [reverse_get]
    have : u < cfg.N := by omega
    have : v < cfg.N := by omega
    simp [*]
  have hidx : ∀ u v, u < r → v < r →
      (AdjacencyMatrix.TransitiveClosure cfg.N adMatrix).get u v = true →
      (AdjacencyMatrix.getLayerStructureRev cfg.MAXN (AdjacencyMatrix.reverse cfg.N
          (AdjacencyMatrix.TransitiveClosure cfg.N adMatrix)) r).flatten.indexOf u <
        (AdjacencyMatrix.getLayerStructureRev cfg.MAXN (AdjacencyMatrix.reverse cfg.N
          (AdjacencyMatrix.TransitiveClosure cfg.N adMatrix)) r).flatten.indexOf v := by
    intro u v hu hv huv
    apply pairwise_index _ hirr _ h6 u v
    · rw [h5.mem_iff]; simpa using hu
    · rw [h5.mem_iff]; simpa using hv
    · rw [hrev u v hu hv]; exact huv
  refine ⟨?_, h2, h3, h4, h5, hidx, ?_⟩
  · intro k v hk
    rw [h1 k v hk]
    constructor
    · rintro ⟨a, b, c⟩
      exact ⟨a, b, fun u hu huv => c u hu (by rw [hrev u v hu a]; exact huv)⟩
    · rintro ⟨a, b, c⟩
      exact ⟨a, b, fun u hu huv => c u hu (by rw [← hrev u v hu a]; exact huv)⟩
  · intro u v hu hv huv
    apply hidx u v hu hv
    rw [closure_spec cfg.N adMatrix hw]
    exact Relation.TransGen.single huv

theorem forward_layers_spec_witness :
    AdjacencyMatrix.getLayerStructureRev 4 (AdjacencyMatrix.reverse 4
      (AdjacencyMatrix.TransitiveClosure 4 [6, 0, 8, 0])) 4 = [[0], [1, 2], [3]] ∧
    (AdjacencyMatrix.getLayerStructureRev 4 (AdjacencyMatrix.reverse 4
      (AdjacencyMatrix.TransitiveClosure 4 [6, 0, 8, 0])) 4).flatten.Perm (List.range 4) :=
  ⟨by decide!,
    (forward_layers_spec ⟨4, 4, 5⟩ [6, 0, 8, 0] 4 (by decide!) (by decide!) (by decide!)
      (by decide!) (by decide!)).2.2.2.2.1⟩


theorem closure_irrefl_all (n : Nat) (base : AdjacencyMatrix)
    (hw : AdjacencyMatrix.wf n base = true) (hd : AdjacencyMatrix.isDag n base = true)
    (a : Nat) : (AdjacencyMatrix.TransitiveClosure n base).get a a = false := by
  by_cases ha : a < n
  · exact isDag_irrefl n base hd a ha
  · cases h : (AdjacencyMatrix.TransitiveClosure n base).get a a with
    | false => rfl
    | true => exact absurd (wf_get_lt n _ (closure_wf n base hw) a a h).1 ha

/-- The layers of either stream of the canonicalizer for the closure of an acyclic graph. -/
theorem streamLayers_spec (cfg : NCT) (base : AdjacencyMatrix) (r : Nat) (rev : Bool)
    (hw : AdjacencyMatrix.wf cfg.N base = true)
    (hd : AdjacencyMatrix.isDag cfg.N base = true)
    (hr : r ≤ cfg.MAXN) (hM : cfg.MAXN ≤ 32) :
    (∀ l ∈ AdjacencyMatrix.getLayerStructureRev cfg.MAXN
      (if rev then AdjacencyMatrix.TransitiveClosure cfg.N base
        else AdjacencyMatrix.reverse cfg.N (AdjacencyMatrix.TransitiveClosure cfg.N base)) r,
      l ≠ []) ∧
    (AdjacencyMatrix.getLayerStructureRev cfg.MAXN
      (if rev then AdjacencyMatrix.TransitiveClosure cfg.N base
        else AdjacencyMatrix.reverse cfg.N (AdjacencyMatrix.TransitiveClosure cfg.N base))
      r).flatten.Perm (List.range r) := by
  cases rev with
  | true =>
    have h := layers_spec (AdjacencyMatrix.TransitiveClosure cfg.N base) r cfg.MAXN hr hM
      (fun a b c => closure_trans cfg.N base hw a b c)
      (closure_irrefl_all cfg.N base hw hd)
    exact ⟨h.2.2.2.1, h.2.2.2.2.1⟩
  | false =>
    obtain ⟨htrans, hirr⟩ := rev_closure_rel cfg.N base hw hd
    have h := layers_spec
      (AdjacencyMatrix.reverse cfg.N (AdjacencyMatrix.TransitiveClosure cfg.N base)) r
      cfg.MAXN hr hM htrans hirr
    exact ⟨h.2.2.2.1, h.2.2.2.2.1⟩

theorem flatten_map_perm (f : List Nat → List Nat) (hf : ∀ l, (f l).Perm l)
    (L : List (List Nat)) : (L.map f).flatten.Perm L.flatten := by
  induction L with
  | nil => exact List.Perm.refl _
  | cons l L ih =>
    rw [List.map_cons, List.flatten_cons, List.flatten_cons]
    exact (hf l).append ih

theorem streamPermutation_eq (cfg : NCT) (base : AdjacencyMatrix) (info : PosetInfo)
    (g : NiceGraph) (rev : Bool)
    (hw : AdjacencyMatrix.wf cfg.N base = true)
    (hd : AdjacencyMatrix.isDag cfg.N base = true)
    (hr : info.GetReducedN cfg ≤ cfg.MAXN) (hM : cfg.MAXN ≤ 32) :
    streamPermutation cfg (AdjacencyMatrix.TransitiveClosure cfg.N base) info g rev =
      ((AdjacencyMatrix.getLayerStructureRev cfg.MAXN
        (if rev then AdjacencyMatrix.TransitiveClosure cfg.N base
          else AdjacencyMatrix.reverse cfg.N (AdjacencyMatrix.TransitiveClosure cfg.N base))
        (info.GetReducedN cfg)).map
        (insertionSort (fun i j =>
          decide ((streamIds cfg.N (info.GetReducedN cfg) g rev).getD i 0 <
            (streamIds cfg.N (info.GetReducedN cfg) g rev).getD j 0)))).flatten ∧
    (streamPermutation cfg (AdjacencyMatrix.TransitiveClosure cfg.N base) info g rev).Perm
      (List.range (info.GetReducedN cfg)) := by
  obtain ⟨hne, hperm⟩ := streamLayers_spec cfg base (info.GetReducedN cfg) rev hw hd hr hM
  have h := (sortLayersFold_perm (streamIds cfg.N (info.GetReducedN cfg) g rev) _ hne
    (⟨[], [], [], []⟩, 0)).1
  have heq : streamPermutation cfg (AdjacencyMatrix.TransitiveClosure cfg.N base) info g rev =
      ((AdjacencyMatrix.getLayerStructureRev cfg.MAXN
        (if rev then AdjacencyMatrix.TransitiveClosure cfg.N base
          else AdjacencyMatrix.reverse cfg.N (AdjacencyMatrix.TransitiveClosure cfg.N base))
        (info.GetReducedN cfg)).map
        (insertionSort (fun i j =>
          decide ((streamIds cfg.N (info.GetReducedN cfg) g rev).getD i 0 <
            (streamIds cfg.N (info.GetReducedN cfg) g rev).getD j 0)))).flatten := by
    unfold streamPermutation sortLayersAndGetPermutation
    rw [h]
    rfl
  refine ⟨heq, ?_⟩
  rw [heq]
  exact (flatten_map_perm _ (fun l => insertionSort_perm _ l) _).trans hperm


theorem is_edge_add_edgeCond (M : Nat) (p : PosetObj) (j k j' k' : Nat) (v : Bool)
    (hjk : j < k) (hk : k < M) (hk' : k' < M) :
    (p.add_edgeCond M j k v).is_edge M j' k' =
      (p.is_edge M j' k' || (decide (j' = j) && decide (k' = k) && v)) := by
  unfold PosetObj.add_edgeCond
  cases v with
  | true => rw [if_pos rfl, is_edge_add_edge M p j k j' k' hjk hk hk']; simp
  | false => simp

theorem inner_loop_is_edge (M i : Nat) (edge : Nat → Nat → Bool) (a b : Nat) (hb : b < M) :
    ∀ (js : List Nat), (∀ j ∈ js, i < j ∧ j < M) → ∀ p : PosetObj,
      (js.foldl (fun p j => p.add_edgeCond M i j (edge i j)) p).is_edge M a b =
        (p.is_edge M a b || (decide (a = i) && decide (b ∈ js) && edge a b)) := by
  intro js
  induction js with
  | nil => intro _ p; simp
  | cons j js ih =>
    intro hjs p
    rw [List.foldl_cons, ih (fun x hx => hjs x (List.mem_cons_of_mem _ hx)),
      is_edge_add_edgeCond M p i j a b _ (hjs j (List.mem_cons_self _ _)).1
        (hjs j (List.mem_cons_self _ _)).2 hb]
    rw [Bool.eq_iff_iff]
    simp only [Bool.or_eq_true, Bool.and_eq_true, decide_eq_true_eq, List.mem_cons]
    constructor
    · rintro ((h | ⟨⟨h1, h2⟩, h3⟩) | ⟨⟨h1, h2⟩, h3⟩)
      · exact Or.inl h
      · subst h1; subst h2; exact Or.inr ⟨⟨rfl, Or.inl rfl⟩, h3⟩
      · exact Or.inr ⟨⟨h1, Or.inr h2⟩, h3⟩
    · rintro (h | ⟨⟨h1, h2 | h2⟩, h3⟩)
      · exact Or.inl (Or.inl h)
      · subst h1; subst h2; exact Or.inl (Or.inr ⟨⟨rfl, rfl⟩, h3⟩)
      · exact Or.inr ⟨⟨h1, h2⟩, h3⟩

theorem outer_loop_is_edge (M np : Nat) (hnp : np ≤ M) (edge : Nat → Nat → Bool) (a b : Nat)
    (hb : b < M) :
    ∀ (is : List Nat) (p : PosetObj),
      (is.foldl (fun p i =>
        ((List.range np).drop (i + 1)).foldl
          (fun p j => p.add_edgeCond M i j (edge i j)) p) p).is_edge M a b =
        (p.is_edge M a b ||
          (decide (a ∈ is) && decide (a < b) && decide (b < np) && edge a b)) := by
  intro is
  induction is with
  | nil => intro p; simp
  | cons i is ih =>
    intro p
    rw [List.foldl_cons, ih, inner_loop_is_edge M i edge a b hb _
      (fun j hj => by rw [mem_drop_range] at hj; omega)]
    rw [Bool.eq_iff_iff]
    simp only [Bool.or_eq_true, Bool.and_eq_true, decide_eq_true_eq, List.mem_cons,
      mem_drop_range]
    constructor
    · rintro ((h | ⟨⟨h1, h2⟩, h3⟩) | ⟨⟨⟨h1, h2⟩, h3⟩, h4⟩)
      · exact Or.inl h
      · exact Or.inr ⟨⟨⟨Or.inl h1, by omega⟩, h2.2⟩, h3⟩
      · exact Or.inr ⟨⟨⟨Or.inr h1, h2⟩, h3⟩, h4⟩
    · rintro (h | ⟨⟨⟨h1 | h1, h2⟩, h3⟩, h4⟩)
      · exact Or.inl (Or.inl h)
      · exact Or.inl (Or.inr ⟨⟨h1, by omega, h3⟩, h4⟩)
      · exact Or.inr ⟨⟨⟨h1, h2⟩, h3⟩, h4⟩

theorem setGraphLoop_is_edge (M np : Nat) (hnp : np ≤ M) (edge : Nat → Nat → Bool)
    (p : PosetObj) (a b : Nat) (hb : b < M) :
    (setGraphLoop M np edge p).is_edge M a b =
      (p.is_edge M a b || (decide (a < b) && decide (b < np) && edge a b)) := by
  unfold setGraphLoop
  rw [outer_loop_is_edge M np hnp edge a b hb]
  rw [Bool.eq_iff_iff]
  simp only [Bool.or_eq_true, Bool.and_eq_true, decide_eq_true_eq, List.mem_range]
  constructor
  · rintro (h | ⟨⟨⟨_, h2⟩, h3⟩, h4⟩)
    · exact Or.inl h
    · exact Or.inr ⟨⟨h2, h3⟩, h4⟩
  · rintro (h | ⟨⟨h2, h3⟩, h4⟩)
    · exact Or.inl h
    · exact Or.inr ⟨⟨⟨by omega, h2⟩, h3⟩, h4⟩

theorem setPairEdges_is_edge (cfg : NCT) (info : PosetInfo) (p : PosetObj) (a b : Nat)
    (hb : b < cfg.MAXN) (hP : info.numPairs ≤ 2)
    (hf : info.GetFirstInPair cfg + 2 * info.numPairs ≤ cfg.MAXN) :
    (setPairEdges cfg info p).is_edge cfg.MAXN a b =
      (p.is_edge cfg.MAXN a b ||
        (decide (1 ≤ info.numPairs) && decide (a = info.GetFirstInPair cfg) &&
          decide (b = info.GetFirstInPair cfg + 1)) ||
        (decide (info.numPairs = 2) && decide (a = info.GetFirstInPair cfg + 2) &&
          decide (b = info.GetFirstInPair cfg + 3))) := by
  unfold setPairEdges
  simp only
  by_cases h1 : info.numPairs ≥ 1
  · rw [if_pos h1]
    by_cases h2 : info.numPairs = 2
    · rw [if_pos h2, is_edge_add_edge _ _ _ _ _ _ (by omega) (by omega) hb,
        is_edge_add_edge _ _ _ _ _ _ (by omega) (by omega) hb]
      rw [decide_eq_true (show 1 ≤ info.numPairs from h1), decide_eq_true h2]
      simp only [Bool.true_and]
    · rw [if_neg h2, is_edge_add_edge _ _ _ _ _ _ (by omega) (by omega) hb]
      rw [decide_eq_true (show 1 ≤ info.numPairs from h1), decide_eq_false h2]
      simp only [Bool.true_and, Bool.false_and, Bool.or_false]
  · rw [if_neg h1, if_neg (by omega)]
    rw [decide_eq_false (show ¬ 1 ≤ info.numPairs from h1),
      decide_eq_false (show ¬ info.numPairs = 2 by omega)]
    simp only [Bool.false_and, Bool.or_false]

theorem is_edge_graph_zero (M : Nat) (p : PosetObj) (a b : Nat) :
    ({ p with graph := 0 } : PosetObj).is_edge M a b = false := by
  rw [is_edge_eq]
  simp

/-- The edges of the record written by `SetgraphPermutation` (`rev = false`) and by
`SetgraphPermutationReverse` (`rev = true`). -/
theorem setgraph_is_edge (cfg : NCT) (p : PosetObj) (adMatrix : AdjacencyMatrix)
    (perm : List Nat) (info : PosetInfo) (a b : Nat) (hb : b < cfg.MAXN)
    (hP : info.numPairs ≤ 2)
    (hf : info.GetFirstInPair cfg + 2 * info.numPairs ≤ cfg.MAXN)
    (hl : perm.length ≤ cfg.MAXN) :
    (p.SetgraphPermutation cfg adMatrix perm info).is_edge cfg.MAXN a b =
      ((decide (a < b) && decide (b < perm.length) &&
          adMatrix.get (perm.getD a 0) (perm.getD b 0)) ||
        (decide (1 ≤ info.numPairs) && decide (a = info.GetFirstInPair cfg) &&
          decide (b = info.GetFirstInPair cfg + 1)) ||
        (decide (info.numPairs = 2) && decide (a = info.GetFirstInPair cfg + 2) &&
          decide (b = info.GetFirstInPair cfg + 3))) ∧
    (p.SetgraphPermutationReverse cfg adMatrix perm info).is_edge cfg.MAXN a b =
      ((decide (a < b) && decide (b < perm.length) &&
          adMatrix.get (perm.getD b 0) (perm.getD a 0)) ||
        (decide (1 ≤ info.numPairs) && decide (a = info.GetFirstInPair cfg) &&
          decide (b = info.GetFirstInPair cfg + 1)) ||
        (decide (info.numPairs = 2) && decide (a = info.GetFirstInPair cfg + 2) &&
          decide (b = info.GetFirstInPair cfg + 3))) := by
  unfold PosetObj.SetgraphPermutation PosetObj.SetgraphPermutationReverse
  rw [setPairEdges_is_edge cfg info _ a b hb hP hf, setPairEdges_is_edge cfg info _ a b hb hP hf,
    setGraphLoop_is_edge _ _ hl _ _ a b hb, setGraphLoop_is_edge _ _ hl _ _ a b hb,
    is_edge_graph_zero, Bool.false_or, Bool.false_or]
  exact ⟨rfl, rfl⟩


/-- The edges of the record written by the canonicalizer for the closure of an acyclic
graph: the reordered edges among the reduced vertices and the pair edges. -/
theorem canonical_is_edge (cfg : NCT) (adMatrix base : AdjacencyMatrix) (info : PosetInfo)
    (poset : PosetObj) (g : NiceGraph)
    (hw : AdjacencyMatrix.wf cfg.N base = true)
    (hd : AdjacencyMatrix.isDag cfg.N base = true)
    (hN : cfg.N ≤ cfg.MAXN) (hM : cfg.MAXN ≤ 32)
    (hv : 2 * info.numPairs + info.numSingletons ≤ cfg.N) (hP : info.numPairs ≤ 2)
    (a b : Nat) (hb : b < cfg.MAXN) :
    ((reorderGraphCanonically cfg adMatrix (AdjacencyMatrix.TransitiveClosure cfg.N base) info
        poset g).is_edge cfg.MAXN a b = true) ↔
      ((a < b ∧ b < cfg.N - info.numSingletons - 2 * info.numPairs ∧
        (if lexicographical_compare
            (streamSeq cfg (AdjacencyMatrix.TransitiveClosure cfg.N base) info g false)
            (streamSeq cfg (AdjacencyMatrix.TransitiveClosure cfg.N base) info g true) then
          adMatrix.get
            ((streamPermutation cfg (AdjacencyMatrix.TransitiveClosure cfg.N base) info g
              true).getD b 0)
            ((streamPermutation cfg (AdjacencyMatrix.TransitiveClosure cfg.N base) info g
              true).getD a 0)
        else
          adMatrix.get
            ((streamPermutation cfg (AdjacencyMatrix.TransitiveClosure cfg.N base) info g
              false).getD a 0)
            ((streamPermutation cfg (AdjacencyMatrix.TransitiveClosure cfg.N base) info g
              false).getD b 0)) = true) ∨
      (1 ≤ info.numPairs ∧ a = cfg.N - info.numSingletons - 2 * info.numPairs ∧
        b = cfg.N - info.numSingletons - 2 * info.numPairs + 1) ∨
      (info.numPairs = 2 ∧ a = cfg.N - info.numSingletons - 2 * info.numPairs + 2 ∧
        b = cfg.N - info.numSingletons - 2 * info.numPairs + 3)) := by
  obtain ⟨_, hf, _⟩ := info_bounds cfg info (by omega) hv
  have hr : info.GetReducedN cfg = info.GetFirstInPair cfg := rfl
  have hlen : ∀ rev, (streamPermutation cfg (AdjacencyMatrix.TransitiveClosure cfg.N base)
      info g rev).length = cfg.N - info.numSingletons - 2 * info.numPairs := by
    intro rev
    have := (streamPermutation_eq cfg base info g rev hw hd (by rw [hr, hf]; omega) hM).2
    rw [this.length_eq, List.length_range, hr, hf]
  have hg := reorderGraphCanonically_graph cfg adMatrix
    (AdjacencyMatrix.TransitiveClosure cfg.N base) info poset g
  unfold streamGraph at hg
  split at hg
  · rename_i hrev
    rw [if_pos hrev]
    rw [is_edge_graph_congr cfg.MAXN _ _ hg,
      (setgraph_is_edge cfg PosetObj.new adMatrix _ info a b hb hP (by rw [hf]; omega)
        (by rw [hlen]; omega)).2, hlen, hf]
    simp only [Bool.or_eq_true, Bool.and_eq_true, decide_eq_true_eq]
    simp only [and_assoc, or_assoc]
  · rename_i hrev
    rw [if_neg hrev]
    rw [is_edge_graph_congr cfg.MAXN _ _ hg,
      (setgraph_is_edge cfg PosetObj.new adMatrix _ info a b hb hP (by rw [hf]; omega)
        (by rw [hlen]; omega)).1, hlen, hf]
    simp only [Bool.or_eq_true, Bool.and_eq_true, decide_eq_true_eq]
    simp only [and_assoc, or_assoc]


theorem all_drop_range (n s : Nat) (f : Nat → Bool) :
    ((List.range n).drop s).all f = true ↔ ∀ k, s ≤ k → k < n → f k = true := by
  rw [List.all_eq_true]
  constructor
  · intro h k h1 h2
    exact h k ((mem_drop_range n s k).2 ⟨h1, h2⟩)
  · intro h k hk
    rw [mem_drop_range] at hk
    exact h k hk.1 hk.2

theorem all_range (n : Nat) (f : Nat → Bool) :
    (List.range n).all f = true ↔ ∀ k, k < n → f k = true := by
  rw [List.all_eq_true]
  constructor
  · intro h k h1
    exact h k (List.mem_range.2 h1)
  · intro h k hk
    exact h k (List.mem_range.1 hk)

/-- The tail layout of a record, from the list of its edges: no edge at the singletons, one
edge per pair. -/
theorem tail_layout (cfg : NCT) (p : PosetObj) (K P : Nat) (E : Nat → Nat → Prop)
    (hN : cfg.N ≤ cfg.MAXN) (hv : 2 * P + K ≤ cfg.N) (hP : P ≤ 2)
    (hE : ∀ a b, b < cfg.MAXN → (p.is_edge cfg.MAXN a b = true ↔
      ((a < b ∧ b < cfg.N - K - 2 * P ∧ E a b) ∨
        (1 ≤ P ∧ a = cfg.N - K - 2 * P ∧ b = cfg.N - K - 2 * P + 1) ∨
        (P = 2 ∧ a = cfg.N - K - 2 * P + 2 ∧ b = cfg.N - K - 2 * P + 3)))) :
    (∀ a b, a < cfg.N → b < cfg.N → (cfg.N - K ≤ a ∨ cfg.N - K ≤ b) →
      p.is_edge cfg.MAXN a b = false) ∧
    (∀ q, q < P →
      p.is_edge cfg.MAXN (cfg.N - K - 2 * P + 2 * q) (cfg.N - K - 2 * P + 2 * q + 1) = true ∧
      ∀ a b, a < cfg.N → b < cfg.N → p.is_edge cfg.MAXN a b = true →
        (a = cfg.N - K - 2 * P + 2 * q ∨ a = cfg.N - K - 2 * P + 2 * q + 1 ∨
          b = cfg.N - K - 2 * P + 2 * q ∨ b = cfg.N - K - 2 * P + 2 * q + 1) →
        a = cfg.N - K - 2 * P + 2 * q ∧ b = cfg.N - K - 2 * P + 2 * q + 1) ∧
    p.isSingletonsAbove cfg (cfg.N - K) = true ∧
    p.isPairs cfg (cfg.N - K - 2 * P) P = true := by
  have hfalse : ∀ a b, b < cfg.MAXN →
      ¬ ((a < b ∧ b < cfg.N - K - 2 * P ∧ E a b) ∨
        (1 ≤ P ∧ a = cfg.N - K - 2 * P ∧ b = cfg.N - K - 2 * P + 1) ∨
        (P = 2 ∧ a = cfg.N - K - 2 * P + 2 ∧ b = cfg.N - K - 2 * P + 3)) →
      p.is_edge cfg.MAXN a b = false := by
    intro a b hb hn
    cases h : p.is_edge cfg.MAXN a b with
    | false => rfl
    | true => exact absurd ((hE a b hb).1 h) hn
  have h1 : ∀ a b, a < cfg.N → b < cfg.N → (cfg.N - K ≤ a ∨ cfg.N - K ≤ b) →
      p.is_edge cfg.MAXN a b = false := by
    intro a b ha hb hab
    apply hfalse a b (by omega)
    rintro (⟨h1, h2, _⟩ | ⟨h1, h2, h3⟩ | ⟨h1, h2, h3⟩) <;> omega
  refine ⟨h1, ?_, ?_, ?_⟩
  · intro q hq
    constructor
    · rw [hE _ _ (by omega)]
      rcases Nat.eq_zero_or_pos q with h0 | h0
      · subst h0
        exact Or.inr (Or.inl ⟨by omega, by omega, by omega⟩)
      · exact Or.inr (Or.inr ⟨by omega, by omega, by omega⟩)
    · intro a b ha hb hab hq2
      rcases (hE a b (by omega)).1 hab with ⟨h1, h2, _⟩ | ⟨h1, h2, h3⟩ | ⟨h1, h2, h3⟩ <;>
        omega
  · unfold PosetObj.isSingletonsAbove
    rw [Bool.and_eq_true, all_range, all_drop_range]
    constructor
    · intro j hj
      rw [all_drop_range]
      intro k hk1 hk2
      rw [h1 j k (by omega) hk2 (Or.inr hk1)]; rfl
    · intro j hj1 hj2
      rw [all_drop_range]
      intro k hk1 hk2
      rw [h1 j k hj2 hk2 (Or.inl hj1)]; rfl
  · unfold PosetObj.isPairs
    simp only
    by_cases hP1 : P ≥ 1
    · rw [if_pos hP1]
      have e1 : p.is_edge cfg.MAXN (cfg.N - K - 2 * P) (cfg.N - K - 2 * P + 1) = true := by
        rw [hE _ _ (by omega)]
        exact Or.inr (Or.inl ⟨by omega, rfl, rfl⟩)
      rw [e1]
      simp only [Bool.not_true, Bool.false_eq_true, if_false]
      have hrest : ((List.range (cfg.N - K - 2 * P)).all (fun j =>
          ((List.range (cfg.N - K - 2 * P + 2 * P)).drop (cfg.N - K - 2 * P)).all
            (fun k => !p.is_edge cfg.MAXN j k)) &&
        ((List.range (cfg.N - K - 2 * P + 2 * P)).drop (cfg.N - K - 2 * P)).all (fun j =>
          ((List.range cfg.N).drop (cfg.N - K - 2 * P + 2 * P)).all
            (fun k => !p.is_edge cfg.MAXN j k))) = true := by
        rw [Bool.and_eq_true, all_range, all_drop_range]
        constructor
        · intro j hj
          rw [all_drop_range]
          intro k hk1 hk2
          rw [hfalse j k (by omega)]; rfl
          rintro (⟨h1, h2, _⟩ | ⟨h1, h2, h3⟩ | ⟨h1, h2, h3⟩) <;> omega
        · intro j hj1 hj2
          rw [all_drop_range]
          intro k hk1 hk2
          rw [h1 j k (by omega) hk2 (Or.inr (by omega))]; rfl
      by_cases hP2 : P ≥ 2
      · have hP2' : P = 2 := by omega
        have e2 : p.is_edge cfg.MAXN (cfg.N - K - 2 * P + 2) (cfg.N - K - 2 * P + 3) = true := by
          rw [hE _ _ (by omega)]
          exact Or.inr (Or.inr ⟨hP2', rfl, rfl⟩)
        have e3 : p.is_edge cfg.MAXN (cfg.N - K - 2 * P) (cfg.N - K - 2 * P + 2) = false := by
          apply hfalse _ _ (by omega)
          rintro (⟨h1, h2, _⟩ | ⟨h1, h2, h3⟩ | ⟨h1, h2, h3⟩) <;> omega
        have e4 : p.is_edge cfg.MAXN (cfg.N - K - 2 * P) (cfg.N - K - 2 * P + 3) = false := by
          apply hfalse _ _ (by omega)
          rintro (⟨h1, h2, _⟩ | ⟨h1, h2, h3⟩ | ⟨h1, h2, h3⟩) <;> omega
        have e5 : p.is_edge cfg.MAXN (cfg.N - K - 2 * P + 1) (cfg.N - K - 2 * P + 2)
            = false := by
          apply hfalse _ _ (by omega)
          rintro (⟨h1, h2, _⟩ | ⟨h1, h2, h3⟩ | ⟨h1, h2, h3⟩) <;> omega
        have e6 : p.is_edge cfg.MAXN (cfg.N - K - 2 * P + 1) (cfg.N - K - 2 * P + 3)
            = false := by
          apply hfalse _ _ (by omega)
          rintro (⟨h1, h2, _⟩ | ⟨h1, h2, h3⟩ | ⟨h1, h2, h3⟩) <;> omega
        rw [e2, e3, e4, e5, e6]
        simp only [Bool.not_true, Bool.and_false, Bool.false_eq_true, if_false, Bool.or_false]
        exact hrest
      · rw [decide_eq_false hP2]
        simp only [Bool.false_and, Bool.false_eq_true, if_false]
        exact hrest
    · rw [if_neg hP1]


theorem tailLayout_of_edges (cfg : NCT) (info : PosetInfo) (p : PosetObj)
    (E : Nat → Nat → Prop)
    (hN : cfg.N ≤ cfg.MAXN) (hM : cfg.MAXN ≤ 32)
    (hv : 2 * info.numPairs + info.numSingletons ≤ cfg.N) (hP : info.numPairs ≤ 2)
    (hE : ∀ a b, b < cfg.MAXN → (p.is_edge cfg.MAXN a b = true ↔
      ((a < b ∧ b < cfg.N - info.numSingletons - 2 * info.numPairs ∧ E a b) ∨
        (1 ≤ info.numPairs ∧ a = cfg.N - info.numSingletons - 2 * info.numPairs ∧
          b = cfg.N - info.numSingletons - 2 * info.numPairs + 1) ∨
        (info.numPairs = 2 ∧ a = cfg.N - info.numSingletons - 2 * info.numPairs + 2 ∧
          b = cfg.N - info.numSingletons - 2 * info.numPairs + 3)))) :
    TailLayout cfg info p := by
  obtain ⟨hs, hf, _⟩ := info_bounds cfg info (by omega) hv
  have hr : info.GetReducedN cfg = info.GetFirstInPair cfg := rfl
  unfold TailLayout
  rw [hs, hr, hf]
  exact tail_layout cfg p info.numSingletons info.numPairs E hN hv hP hE

theorem setgraph_tailLayout (cfg : NCT) (p0 : PosetObj) (m : AdjacencyMatrix)
    (perm : List Nat) (info : PosetInfo)
    (hN : cfg.N ≤ cfg.MAXN) (hM : cfg.MAXN ≤ 32)
    (hv : 2 * info.numPairs + info.numSingletons ≤ cfg.N) (hP : info.numPairs ≤ 2)
    (hl : perm.length ≤ info.GetFirstInPair cfg) :
    TailLayout cfg info (p0.SetgraphPermutation cfg m perm info) ∧
    TailLayout cfg info (p0.SetgraphPermutationReverse cfg m perm info) := by
  obtain ⟨hs, hf, _⟩ := info_bounds cfg info (by omega) hv
  rw [hf] at hl
  constructor
  · apply tailLayout_of_edges cfg info _
      (fun a b => b < perm.length ∧ m.get (perm.getD a 0) (perm.getD b 0) = true) hN hM hv hP
    intro a b hb
    rw [(setgraph_is_edge cfg p0 m perm info a b hb hP (by rw [hf]; omega) (by omega)).1, hf]
    simp only [Bool.or_eq_true, Bool.and_eq_true, decide_eq_true_eq]
    constructor
    · rintro ((⟨⟨h1, h2⟩, h3⟩ | ⟨⟨h1, h2⟩, h3⟩) | ⟨⟨h1, h2⟩, h3⟩)
      · exact Or.inl ⟨h1, by omega, h2, h3⟩
      · exact Or.inr (Or.inl ⟨h1, h2, h3⟩)
      · exact Or.inr (Or.inr ⟨h1, h2, h3⟩)
    · rintro (⟨h1, _, h2, h3⟩ | ⟨h1, h2, h3⟩ | ⟨h1, h2, h3⟩)
      · exact Or.inl (Or.inl ⟨⟨h1, h2⟩, h3⟩)
      · exact Or.inl (Or.inr ⟨⟨h1, h2⟩, h3⟩)
      · exact Or.inr ⟨⟨h1, h2⟩, h3⟩
  · apply tailLayout_of_edges cfg info _
      (fun a b => b < perm.length ∧ m.get (perm.getD b 0) (perm.getD a 0) = true) hN hM hv hP
    intro a b hb
    rw [(setgraph_is_edge cfg p0 m perm info a b hb hP (by rw [hf]; omega) (by omega)).2, hf]
    simp only [Bool.or_eq_true, Bool.and_eq_true, decide_eq_true_eq]
    constructor
    · rintro ((⟨⟨h1, h2⟩, h3⟩ | ⟨⟨h1, h2⟩, h3⟩) | ⟨⟨h1, h2⟩, h3⟩)
      · exact Or.inl ⟨h1, by omega, h2, h3⟩
      · exact Or.inr (Or.inl ⟨h1, h2, h3⟩)
      · exact Or.inr (Or.inr ⟨h1, h2, h3⟩)
    · rintro (⟨h1, _, h2, h3⟩ | ⟨h1, h2, h3⟩ | ⟨h1, h2, h3⟩)
      · exact Or.inl (Or.inl ⟨⟨h1, h2⟩, h3⟩)
      · exact Or.inl (Or.inr ⟨⟨h1, h2⟩, h3⟩)
      · exact Or.inr ⟨⟨h1, h2⟩, h3⟩

/-- C32: for a `PosetInfo` with `K` singletons and `P ≤ 2` pairs, `2P + K ≤ N ≤ MAXN ≤ 32`,
every record written by `SetgraphPermutation` or `SetgraphPermutationReverse` with a
permutation of at most `N - K - 2P` vertices, and in particular the record that the
canonicalizer `reorderGraphCanonically` writes for the closure of an acyclic graph, has the
tail layout: no edge at the last `K` vertices, one edge from the lower to the higher index
and no other edge at each of the `P` pairs, and `isSingletonsAbove(N - K)` and
`isPairs(N - K - 2P, P)` both return true. -/
theorem canonical_tail_layout (cfg : NCT) (adMatrix base : AdjacencyMatrix) (info : PosetInfo)
    (poset : PosetObj) (g : NiceGraph)
    (hw : AdjacencyMatrix.wf cfg.N base = true)
    (hd : AdjacencyMatrix.isDag cfg.N base = true)
    (hN : cfg.N ≤ cfg.MAXN) (hM : cfg.MAXN ≤ 32)
    (hv : 2 * info.numPairs + info.numSingletons ≤ cfg.N) (hP : info.numPairs ≤ 2) :
    (∀ (p0 : PosetObj) (m : AdjacencyMatrix) (perm : List Nat),
      perm.length ≤ info.GetFirstInPair cfg →
      TailLayout cfg info (p0.SetgraphPermutation cfg m perm info) ∧
      TailLayout cfg info (p0.SetgraphPermutationReverse cfg m perm info)) ∧
    TailLayout cfg info
      (reorderGraphCanonically cfg adMatrix (AdjacencyMatrix.TransitiveClosure cfg.N base) info
        poset g) :=
  ⟨fun p0 m perm hl => setgraph_tailLayout cfg p0 m perm info hN hM hv hP hl,
    tailLayout_of_edges cfg info _ _ hN hM hv hP
      (fun a b hb => canonical_is_edge cfg adMatrix base info poset g hw hd hN hM hv hP a b hb)⟩

theorem canonical_tail_layout_witness :
    (reorderGraphCanonically ⟨4, 4, 5⟩ [0, 4, 0, 0]
      (AdjacencyMatrix.TransitiveClosure 4 [0, 4, 0, 0]) ⟨1, 1⟩ PosetObj.new
      (AdjacencyMatrix.writeToGraph 4 (AdjacencyMatrix.TransitiveClosure 4 [0, 4, 0, 0]))).graph
        = 8 ∧
    TailLayout ⟨4, 4, 5⟩ ⟨1, 1⟩
      (reorderGraphCanonically ⟨4, 4, 5⟩ [0, 4, 0, 0]
        (AdjacencyMatrix.TransitiveClosure 4 [0, 4, 0, 0]) ⟨1, 1⟩ PosetObj.new
        (AdjacencyMatrix.writeToGraph 4 (AdjacencyMatrix.TransitiveClosure 4 [0, 4, 0, 0]))) :=
  ⟨by decide!,
    (canonical_tail_layout ⟨4, 4, 5⟩ [0, 4, 0, 0] [0, 4, 0, 0] ⟨1, 1⟩ PosetObj.new
      (AdjacencyMatrix.writeToGraph 4 (AdjacencyMatrix.TransitiveClosure 4 [0, 4, 0, 0]))
      (by decide!) (by decide!) (by decide) (by decide) (by decide) (by decide)).2⟩


theorem layers_eq_sem (m : AdjacencyMatrix) (r MAXN : Nat) (hr : r ≤ MAXN) (hM : MAXN ≤ 32)
    (htrans : ∀ a b c, m.get a b = true → m.get b c = true → m.get a c = true)
    (hirr : ∀ a, m.get a a = false) :
    AdjacencyMatrix.getLayerStructureRev MAXN m r =
      layersSem (fun j u => m.get j u) r (List.range r) := by
  have hr32 : r ≤ 32 := by omega
  have hmask : (1 <<< r) - 1 < 2 ^ r := by
    rw [Nat.shiftLeft_eq, one_mul]
    exact Nat.sub_lt (by positivity) (by norm_num)
  unfold AdjacencyMatrix.getLayerStructureRev
  rw [layers_eq m r hr32 MAXN _ hmask, full_mask_avail]
  exact layersSem_fuel _ htrans hirr r MAXN _ (by simp) hr

theorem flatten_map_pairwise (R : Nat → Nat → Bool) (f : List Nat → List Nat)
    (hf : ∀ l, (f l).Perm l) (L : List (List Nat))
    (hin : ∀ l ∈ L, l.Nodup ∧ ∀ a ∈ l, ∀ b ∈ l, a ≠ b → R a b = false)
    (hpw : L.Pairwise (fun l1 l2 => ∀ a ∈ l1, ∀ b ∈ l2, a ≠ b ∧ R a b = false)) :
    (L.map f).flatten.Pairwise (fun a b => R a b = false) := by
  rw [List.pairwise_flatten]
  constructor
  · intro l hl
    rw [List.mem_map] at hl
    obtain ⟨l0, hl0, rfl⟩ := hl
    obtain ⟨hnd, hno⟩ := hin l0 hl0
    have hnd' : (f l0).Nodup := (hf l0).nodup_iff.mpr hnd
    have : (f l0).Pairwise (fun a b => a ≠ b ∧ a ∈ f l0 ∧ b ∈ f l0) := by
      rw [List.pairwise_iff_forall_sublist]
      intro a b hab
      have hsub := hab.subset
      refine ⟨?_, hsub (by simp), hsub (by simp)⟩
      intro he
      subst he
      exact (List.nodup_iff_sublist.mp hnd') a hab
    exact this.imp (fun h => hno _ ((hf l0).mem_iff.mp h.2.1) _ ((hf l0).mem_iff.mp h.2.2) h.1)
  · rw [List.pairwise_map]
    exact hpw.imp (fun h a ha b hb =>
      (h a ((hf _).mem_iff.mp ha) b ((hf _).mem_iff.mp hb)).2)

/-- The permutation of either stream lists the reduced vertices in a topological order of
the relation its layers were built from. -/
theorem streamPermutation_topo (cfg : NCT) (base : AdjacencyMatrix) (info : PosetInfo)
    (g : NiceGraph) (rev : Bool)
    (hw : AdjacencyMatrix.wf cfg.N base = true)
    (hd : AdjacencyMatrix.isDag cfg.N base = true)
    (hr : info.GetReducedN cfg ≤ cfg.MAXN) (hM : cfg.MAXN ≤ 32) :
    (streamPermutation cfg (AdjacencyMatrix.TransitiveClosure cfg.N base) info g rev).Pairwise
      (fun a b =>
        (if rev then AdjacencyMatrix.TransitiveClosure cfg.N base
          else AdjacencyMatrix.reverse cfg.N (AdjacencyMatrix.TransitiveClosure cfg.N base)).get
          a b = false) := by
  have hrel : (∀ a b c,
      (if rev then AdjacencyMatrix.TransitiveClosure cfg.N base
        else AdjacencyMatrix.reverse cfg.N (AdjacencyMatrix.TransitiveClosure cfg.N base)).get
          a b = true →
      (if rev then AdjacencyMatrix.TransitiveClosure cfg.N base
        else AdjacencyMatrix.reverse cfg.N (AdjacencyMatrix.TransitiveClosure cfg.N base)).get
          b c = true →
      (if rev then AdjacencyMatrix.TransitiveClosure cfg.N base
        else AdjacencyMatrix.reverse cfg.N (AdjacencyMatrix.TransitiveClosure cfg.N base)).get
          a c = true) ∧
      ∀ a, (if rev then AdjacencyMatrix.TransitiveClosure cfg.N base
        else AdjacencyMatrix.reverse cfg.N (AdjacencyMatrix.TransitiveClosure cfg.N base)).get
          a a = false := by
    cases rev with
    | true =>
      exact ⟨fun a b c => closure_trans cfg.N base hw a b c,
        closure_irrefl_all cfg.N base hw hd⟩
    | false => exact rev_closure_rel cfg.N base hw hd
  rw [(streamPermutation_eq cfg base info g rev hw hd hr hM).1,
    layers_eq_sem _ _ _ hr hM hrel.1 hrel.2]
  obtain ⟨hin, hpw⟩ := layersSem_pairwise
    (fun j u => (if rev then AdjacencyMatrix.TransitiveClosure cfg.N base
        else AdjacencyMatrix.reverse cfg.N (AdjacencyMatrix.TransitiveClosure cfg.N base)).get
          j u) (info.GetReducedN cfg) (List.range (info.GetReducedN cfg)) (List.nodup_range _)
  exact flatten_map_pairwise _ _ (fun l => insertionSort_perm _ l) _
    (fun l hl => ⟨(hin l hl).1, (hin l hl).2.2⟩) hpw


theorem countEdges_eq_card (n : Nat) (e : Nat → Nat → Bool) :
    countEdges n e =
      ((Finset.range n ×ˢ Finset.range n).filter (fun x => e x.1 x.2 = true)).card := by
  unfold countEdges
  have hnd : (((List.range n).product (List.range n)).filter (fun x => e x.1 x.2)).Nodup :=
    ((List.nodup_range n).product (List.nodup_range n)).filter _
  rw [← List.toFinset_card_of_nodup hnd]
  congr 1
  ext x
  rw [List.mem_toFinset, List.mem_filter]
  have : x ∈ (List.range n).product (List.range n) ↔ x.1 < n ∧ x.2 < n := by
    rw [← List.mem_range, ← List.mem_range]
    exact List.mem_product
  rw [this]
  simp only [Finset.mem_filter, Finset.mem_product, Finset.mem_range]

theorem countEdges_transpose (n : Nat) (e : Nat → Nat → Bool) :
    countEdges n (fun u v => e v u) = countEdges n e := by
  rw [countEdges_eq_card, countEdges_eq_card]
  apply Finset.card_bij (fun x _ => (x.2, x.1))
  · intro x hx
    simp only [Finset.mem_filter, Finset.mem_product, Finset.mem_range] at hx ⊢
    exact ⟨⟨hx.1.2, hx.1.1⟩, hx.2⟩
  · intro x _ y _ h
    simp only [Prod.mk.injEq] at h
    exact Prod.ext h.2 h.1
  · intro y hy
    simp only [Finset.mem_filter, Finset.mem_product, Finset.mem_range] at hy
    exact ⟨(y.2, y.1), by
      simp only [Finset.mem_filter, Finset.mem_product, Finset.mem_range]
      exact ⟨⟨hy.1.2, hy.1.1⟩, hy.2⟩, rfl⟩

theorem inj_surj_range (n : Nat) (σ : Nat → Nat) (hmap : ∀ i, i < n → σ i < n)
    (hinj : ∀ i j, i < n → j < n → σ i = σ j → i = j) :
    ∀ u, u < n → ∃ i, i < n ∧ σ i = u := by
  have himg : (Finset.range n).image σ = Finset.range n := by
    apply Finset.eq_of_subset_of_card_le
    · intro x hx
      rw [Finset.mem_image] at hx
      obtain ⟨i, hi, rfl⟩ := hx
      exact Finset.mem_range.mpr (hmap i (Finset.mem_range.mp hi))
    · rw [Finset.card_image_of_injOn]
      intro i hi j hj h
      exact hinj i j (Finset.mem_range.mp hi) (Finset.mem_range.mp hj) h
  intro u hu
  have : u ∈ (Finset.range n).image σ := by rw [himg]; exact Finset.mem_range.mpr hu
  rw [Finset.mem_image] at this
  obtain ⟨i, hi, h⟩ := this
  exact ⟨i, Finset.mem_range.mp hi, h⟩

theorem iso_count (n : Nat) (e1 e2 : Nat → Nat → Bool) (h : GraphIso n e1 e2) :
    countEdges n e1 = countEdges n e2 := by
  obtain ⟨σ, hmap, hinj, hedge⟩ := h
  have hsurj := inj_surj_range n σ hmap hinj
  rw [countEdges_eq_card, countEdges_eq_card]
  apply Finset.card_bij (fun x _ => (σ x.1, σ x.2))
  · intro x hx
    simp only [Finset.mem_filter, Finset.mem_product, Finset.mem_range] at hx ⊢
    exact ⟨⟨hmap _ hx.1.1, hmap _ hx.1.2⟩, by rw [← hedge _ _ hx.1.1 hx.1.2]; exact hx.2⟩
  · intro x hx y hy h
    simp only [Finset.mem_filter, Finset.mem_product, Finset.mem_range] at hx hy
    simp only [Prod.mk.injEq] at h
    exact Prod.ext (hinj _ _ hx.1.1 hy.1.1 h.1) (hinj _ _ hx.1.2 hy.1.2 h.2)
  · intro y hy
    simp only [Finset.mem_filter, Finset.mem_product, Finset.mem_range] at hy
    obtain ⟨i, hi, h1⟩ := hsurj y.1 hy.1.1
    obtain ⟨j, hj, h2⟩ := hsurj y.2 hy.1.2
    refine ⟨(i, j), ?_, Prod.ext h1 h2⟩
    simp only [Finset.mem_filter, Finset.mem_product, Finset.mem_range]
    exact ⟨⟨hi, hj⟩, by rw [hedge i j hi hj, h1, h2]; exact hy.2⟩


theorem iso_of_edges (N r K P : Nat) (perm : List Nat) (E e1 : Nat → Nat → Bool) (rev : Bool)
    (hr : r + 2 * P + K = N) (hP : P ≤ 2)
    (hmem : ∀ i, i < r → perm.getD i 0 < r)
    (hinjp : ∀ i j, i < r → j < r → perm.getD i 0 = perm.getD j 0 → i = j)
    (he1 : ∀ a b, a < N → b < N → (e1 a b = true ↔
      ((a < b ∧ b < r ∧
        (if rev then E (perm.getD b 0) (perm.getD a 0)
          else E (perm.getD a 0) (perm.getD b 0)) = true) ∨
        (1 ≤ P ∧ a = r ∧ b = r + 1) ∨ (P = 2 ∧ a = r + 2 ∧ b = r + 3))))
    (htop : ∀ i j, i < r → j < r →
      (if rev then E (perm.getD j 0) (perm.getD i 0)
        else E (perm.getD i 0) (perm.getD j 0)) = true → i < j)
    (hlay : ∀ u v, u < N → v < N → (r ≤ u ∨ r ≤ v) →
      (E u v = true ↔ (1 ≤ P ∧ u = r ∧ v = r + 1) ∨ (P = 2 ∧ u = r + 2 ∧ v = r + 3))) :
    GraphIso N e1 (fun u v => if rev then E v u else E u v) := by
  cases rev with
  | false =>
    simp only [Bool.false_eq_true, if_false] at he1 htop ⊢
    refine ⟨fun i => if i < r then perm.getD i 0 else i, ?_, ?_, ?_⟩
    · intro i hi
      simp only
      split
      · rename_i h; have := hmem i h; omega
      · exact hi
    · intro i j hi hj h
      simp only at h
      split at h <;> split at h
      · rename_i h1 h2; exact hinjp i j h1 h2 h
      · rename_i h1 h2; have := hmem i h1; omega
      · rename_i h1 h2; have := hmem j h2; omega
      · exact h
    · intro i j hi hj
      rw [Bool.eq_iff_iff, he1 i j hi hj]
      simp only
      by_cases h1 : i < r
      · by_cases h2 : j < r
        · rw [if_pos h1, if_pos h2]
          constructor
          · rintro (⟨_, _, h⟩ | ⟨_, h, _⟩ | ⟨_, h, _⟩)
            · exact h
            · omega
            · omega
          · intro h
            exact Or.inl ⟨htop i j h1 h2 h, h2, h⟩
        · rw [if_pos h1, if_neg h2]
          have := hmem i h1
          rw [hlay _ _ (by omega) hj (Or.inr (by omega))]
          constructor
          · rintro (⟨_, h, _⟩ | ⟨_, h, _⟩ | ⟨_, h, _⟩) <;> omega
          · rintro (⟨_, h, _⟩ | ⟨_, h, _⟩) <;> omega
      · by_cases h2 : j < r
        · rw [if_neg h1, if_pos h2]
          have := hmem j h2
          rw [hlay _ _ hi (by omega) (Or.inl (by omega))]
          constructor
          · rintro (⟨h, _, _⟩ | ⟨_, _, h⟩ | ⟨_, _, h⟩) <;> omega
          · rintro (⟨_, _, h⟩ | ⟨_, _, h⟩) <;> omega
        · rw [if_neg h1, if_neg h2]
          rw [hlay _ _ hi hj (Or.inl (by omega))]
          constructor
          · rintro (⟨_, h, _⟩ | h | h)
            · omega
            · exact Or.inl h
            · exact Or.inr h
          · rintro (h | h)
            · exact Or.inr (Or.inl h)
            · exact Or.inr (Or.inr h)
  | true =>
    simp only [if_true] at he1 htop ⊢
    refine ⟨fun i => if i < r then perm.getD i 0
      else if i < r + 2 * P then
        (if i = r then r + 1 else if i = r + 1 then r else if i = r + 2 then r + 3 else r + 2)
      else i, ?_, ?_, ?_⟩
    · intro i hi
      simp only
      split
      · rename_i h; have := hmem i h; omega
      · split
        · split
          · omega
          · split
            · omega
            · split <;> omega
        · exact hi
    · intro i j hi hj h
      simp only at h
      by_cases h1 : i < r
      · by_cases h2 : j < r
        · rw [if_pos h1, if_pos h2] at h
          exact hinjp i j h1 h2 h
        · rw [if_pos h1, if_neg h2] at h
          have := hmem i h1
          split_ifs at h <;> omega
      · by_cases h2 : j < r
        · rw [if_neg h1, if_pos h2] at h
          have := hmem j h2
          split_ifs at h <;> omega
        · rw [if_neg h1, if_neg h2] at h
          split_ifs at h <;> omega
    · intro i j hi hj
      rw [Bool.eq_iff_iff, he1 i j hi hj]
      simp only
      by_cases h1 : i < r
      · by_cases h2 : j < r
        · rw [if_pos h1, if_pos h2]
          constructor
          · rintro (⟨_, _, h⟩ | ⟨_, h, _⟩ | ⟨_, h, _⟩)
            · exact h
            · omega
            · omega
          · intro h
            exact Or.inl ⟨htop i j h1 h2 h, h2, h⟩
        · rw [if_pos h1, if_neg h2]
          have := hmem i h1
          have hj' : (if j < r + 2 * P then
              (if j = r then r + 1 else if j = r + 1 then r else if j = r + 2 then r + 3
                else r + 2) else j) < N ∧
              r ≤ (if j < r + 2 * P then
              (if j = r then r + 1 else if j = r + 1 then r else if j = r + 2 then r + 3
                else r + 2) else j) := by
            split_ifs <;> omega
          rw [hlay _ _ hj'.1 (by omega) (Or.inl hj'.2)]
          constructor
          · rintro (⟨_, h, _⟩ | ⟨_, h, _⟩ | ⟨_, h, _⟩) <;> omega
          · rintro (⟨_, _, h⟩ | ⟨_, _, h⟩) <;> omega
      · by_cases h2 : j < r
        · rw [if_neg h1, if_pos h2]
          have := hmem j h2
          have hi' : (if i < r + 2 * P then
              (if i = r then r + 1 else if i = r + 1 then r else if i = r + 2 then r + 3
                else r + 2) else i) < N ∧
              r ≤ (if i < r + 2 * P then
              (if i = r then r + 1 else if i = r + 1 then r else if i = r + 2 then r + 3
                else r + 2) else i) := by
            split_ifs <;> omega
          rw [hlay _ _ (by omega) hi'.1 (Or.inr hi'.2)]
          constructor
          · rintro (⟨h, _, _⟩ | ⟨_, _, h⟩ | ⟨_, _, h⟩) <;> omega
          · rintro (⟨_, h, _⟩ | ⟨_, h, _⟩) <;> omega
        · rw [if_neg h1, if_neg h2]
          have hi' : (if i < r + 2 * P then
              (if i = r then r + 1 else if i = r + 1 then r else if i = r + 2 then r + 3
                else r + 2) else i) < N ∧
              r ≤ (if i < r + 2 * P then
              (if i = r then r + 1 else if i = r + 1 then r else if i = r + 2 then r + 3
                else r + 2) else i) := by
            split_ifs <;> omega
          have hj' : (if j < r + 2 * P then
              (if j = r then r + 1 else if j = r + 1 then r else if j = r + 2 then r + 3
                else r + 2) else j) < N := by
            split_ifs <;> omega
          rw [hlay _ _ hj' hi'.1 (Or.inr hi'.2)]
          constructor
          · rintro (⟨_, h, _⟩ | ⟨hp, h3, h4⟩ | ⟨hp, h3, h4⟩)
            · omega
            · subst h3; subst h4
              left
              refine ⟨hp, ?_, ?_⟩
              · split_ifs <;> omega
              · split_ifs <;> omega
            · subst h3; subst h4
              right
              refine ⟨hp, ?_, ?_⟩
              · split_ifs <;> omega
              · split_ifs <;> omega
          · rintro (⟨hp, h3, h4⟩ | ⟨hp, h3, h4⟩)
            · right; left
              refine ⟨hp, ?_, ?_⟩
              · split_ifs at h4 <;> omega
              · split_ifs at h3 <;> omega
            · right; right
              refine ⟨hp, ?_, ?_⟩
              · split_ifs at h4 <;> omega
              · split_ifs at h3 <;> omega


theorem perm_getD_facts (perm : List Nat) (r : Nat) (h : perm.Perm (List.range r)) :
    perm.length = r ∧ (∀ i, i < r → perm.getD i 0 < r) ∧
    ∀ i j, i < r → j < r → perm.getD i 0 = perm.getD j 0 → i = j := by
  have hl : perm.length = r := by rw [h.length_eq, List.length_range]
  have hnd : perm.Nodup := h.nodup_iff.mpr (List.nodup_range r)
  refine ⟨hl, ?_, ?_⟩
  · intro i hi
    rw [List.getD_eq_getElem _ _ (by omega)]
    have := h.mem_iff.mp (List.getElem_mem (show i < perm.length by omega))
    exact List.mem_range.mp this
  · intro i j hi hj he
    rw [List.getD_eq_getElem perm 0 (show i < perm.length by omega),
      List.getD_eq_getElem perm 0 (show j < perm.length by omega)] at he
    exact (List.Nodup.getElem_inj_iff hnd).mp he

theorem pairwise_getD (P : Nat → Nat → Prop) (l : List Nat) (h : l.Pairwise P) (i j : Nat)
    (hij : i < j) (hj : j < l.length) : P (l.getD i 0) (l.getD j 0) := by
  rw [List.pairwise_iff_getElem] at h
  rw [List.getD_eq_getElem _ _ (by omega), List.getD_eq_getElem _ _ hj]
  exact h i j (by omega) hj hij

/-- What the serialized stream of the canonicalizer satisfies for the closure of an acyclic
well-formed matrix `adMatrix` with the tail layout of `info`. -/
theorem stream_iso (cfg : NCT) (adMatrix : AdjacencyMatrix) (info : PosetInfo)
    (poset : PosetObj) (g : NiceGraph) (rev : Bool)
    (hw : AdjacencyMatrix.wf cfg.N adMatrix = true)
    (hd : AdjacencyMatrix.isDag cfg.N adMatrix = true)
    (hN : cfg.N ≤ cfg.MAXN) (hM : cfg.MAXN ≤ 32)
    (hv : 2 * info.numPairs + info.numSingletons ≤ cfg.N) (hP : info.numPairs ≤ 2)
    (hlay : InputLayout cfg info adMatrix)
    (hrev : rev = lexicographical_compare
      (streamSeq cfg (AdjacencyMatrix.TransitiveClosure cfg.N adMatrix) info g false)
      (streamSeq cfg (AdjacencyMatrix.TransitiveClosure cfg.N adMatrix) info g true)) :
    (streamPermutation cfg (AdjacencyMatrix.TransitiveClosure cfg.N adMatrix) info g rev).Perm
      (List.range (info.GetReducedN cfg)) ∧
    (streamPermutation cfg (AdjacencyMatrix.TransitiveClosure cfg.N adMatrix) info g
      rev).Pairwise
      (fun a b => (if rev then adMatrix.get a b else adMatrix.get b a) = false) ∧
    GraphIso cfg.N
      ((reorderGraphCanonically cfg adMatrix (AdjacencyMatrix.TransitiveClosure cfg.N adMatrix)
        info poset g).is_edge cfg.MAXN)
      (fun u v => if rev then adMatrix.get v u else adMatrix.get u v) := by
  obtain ⟨_, hf, _⟩ := info_bounds cfg info (by omega) hv
  have hr : info.GetReducedN cfg = cfg.N - info.numSingletons - 2 * info.numPairs := hf
  have hrM : info.GetReducedN cfg ≤ cfg.MAXN := by rw [hr]; omega
  have hperm := (streamPermutation_eq cfg adMatrix info g rev hw hd hrM hM).2
  have htopo := streamPermutation_topo cfg adMatrix info g rev hw hd hrM hM
  obtain ⟨hlen, hmem, hinjp⟩ := perm_getD_facts _ _ hperm
  have hsub : ∀ u v, adMatrix.get u v = true →
      (AdjacencyMatrix.TransitiveClosure cfg.N adMatrix).get u v = true := by
    intro u v h
    rw [closure_spec cfg.N adMatrix hw]
    exact Relation.TransGen.single h
  have hirr := closure_irrefl_all cfg.N adMatrix hw hd
  rw [hr] at hperm hlen hmem hinjp
  refine ⟨by rw [hr]; exact hperm, ?_, ?_⟩
  · refine htopo.imp ?_
    intro a b hab
    cases rev with
    | true =>
      simp only [if_true] at hab ⊢
      cases h : adMatrix.get a b with
      | false => rfl
      | true => rw [hsub a b h] at hab; exact absurd hab (by simp)
    | false =>
      simp only [Bool.false_eq_true, if_false] at hab ⊢
      cases h : adMatrix.get b a with
      | false => rfl
      | true =>
        have h2 := hsub b a h
        have hb := wf_get_lt cfg.N _ (closure_wf cfg.N adMatrix hw) b a h2
        rw [reverse_get, decide_eq_true hb.2, decide_eq_true hb.1, h2] at hab
        exact absurd hab (by decide)
  · apply iso_of_edges cfg.N (cfg.N - info.numSingletons - 2 * info.numPairs)
      info.numSingletons info.numPairs
      (streamPermutation cfg (AdjacencyMatrix.TransitiveClosure cfg.N adMatrix) info g rev)
      (fun u v => adMatrix.get u v) _ rev (by omega) hP hmem hinjp
    · intro a b ha hb
      rw [canonical_is_edge cfg adMatrix adMatrix info poset g hw hd hN hM hv hP a b
        (by omega), ← hrev]
      cases rev <;> simp only [if_true, Bool.false_eq_true, if_false]
    · intro i j hi hj h
      by_contra hc
      rcases Nat.lt_or_eq_of_le (Nat.le_of_not_lt hc) with h1 | h1
      · have hp := pairwise_getD _ _ htopo j i h1 (by omega)
        cases rev with
        | true =>
          simp only [if_true] at hp h
          rw [hsub _ _ h] at hp
          exact absurd hp (by simp)
        | false =>
          simp only [Bool.false_eq_true, if_false] at hp h
          have h2 := hsub _ _ h
          have hb := wf_get_lt cfg.N _ (closure_wf cfg.N adMatrix hw) _ _ h2
          rw [reverse_get, decide_eq_true hb.2, decide_eq_true hb.1, h2] at hp
          exact absurd hp (by decide)
      · subst h1
        have : adMatrix.get ((streamPermutation cfg
            (AdjacencyMatrix.TransitiveClosure cfg.N adMatrix) info g rev).getD j 0)
            ((streamPermutation cfg
            (AdjacencyMatrix.TransitiveClosure cfg.N adMatrix) info g rev).getD j 0) = true := by
          cases rev <;> simpa using h
        have h2 := hsub _ _ this
        rw [hirr] at h2
        exact absurd h2 (by simp)
    · intro u v hu hv huv
      exact hlay u v hu hv huv

/-- C36: for an acyclic well-formed matrix with the tail layout of its `PosetInfo`
(`K` singletons, `P ≤ 2` pairs, `2P + K ≤ N ≤ MAXN ≤ 32`), the graph stored by
`reorderGraphCanonically` is isomorphic to the input matrix when the forward stream is
serialized and to its edge-reversal when the reverse stream is serialized.  The permutation
of the serialized stream lists every reduced vertex exactly once and is a topological order
of the graph being serialized (no edge of it goes from a later to an earlier position), so
the packing into the upper triangle drops no edge, and the stored graph has as many edges
as the input. -/
theorem canonical_graph_iso (cfg : NCT) (adMatrix : AdjacencyMatrix) (info : PosetInfo)
    (poset : PosetObj) (g : NiceGraph)
    (hw : AdjacencyMatrix.wf cfg.N adMatrix = true)
    (hd : AdjacencyMatrix.isDag cfg.N adMatrix = true)
    (hN : cfg.N ≤ cfg.MAXN) (hM : cfg.MAXN ≤ 32)
    (hv : 2 * info.numPairs + info.numSingletons ≤ cfg.N) (hP : info.numPairs ≤ 2)
    (hlay : InputLayout cfg info adMatrix) :
    (∀ rev : Bool,
      rev = lexicographical_compare
        (streamSeq cfg (AdjacencyMatrix.TransitiveClosure cfg.N adMatrix) info g false)
        (streamSeq cfg (AdjacencyMatrix.TransitiveClosure cfg.N adMatrix) info g true) →
      (reorderGraphCanonically cfg adMatrix (AdjacencyMatrix.TransitiveClosure cfg.N adMatrix)
        info poset g).graph =
        streamGraph cfg adMatrix (AdjacencyMatrix.TransitiveClosure cfg.N adMatrix) info g
          rev ∧
      (streamPermutation cfg (AdjacencyMatrix.TransitiveClosure cfg.N adMatrix) info g
        rev).Perm (List.range (info.GetReducedN cfg)) ∧
      (streamPermutation cfg (AdjacencyMatrix.TransitiveClosure cfg.N adMatrix) info g
        rev).Pairwise
        (fun a b => (if rev then adMatrix.get a b else adMatrix.get b a) = false) ∧
      GraphIso cfg.N
        ((reorderGraphCanonically cfg adMatrix
          (AdjacencyMatrix.TransitiveClosure cfg.N adMatrix) info poset g).is_edge cfg.MAXN)
        (fun u v => if rev then adMatrix.get v u else adMatrix.get u v)) ∧
    countEdges cfg.N
      ((reorderGraphCanonically cfg adMatrix (AdjacencyMatrix.TransitiveClosure cfg.N adMatrix)
        info poset g).is_edge cfg.MAXN) =
      countEdges cfg.N (fun u v => adMatrix.get u v) := by
  constructor
  · intro rev hrev
    obtain ⟨h1, h2, h3⟩ := stream_iso cfg adMatrix info poset g rev hw hd hN hM hv hP hlay hrev
    refine ⟨?_, h1, h2, h3⟩
    rw [hrev]
    exact reorderGraphCanonically_graph cfg adMatrix _ info poset g
  · obtain ⟨_, _, h3⟩ := stream_iso cfg adMatrix info poset g _ hw hd hN hM hv hP hlay rfl
    rw [iso_count _ _ _ h3]
    split
    · exact countEdges_transpose cfg.N (fun u v => adMatrix.get u v)
    · rfl

theorem canonical_graph_iso_witness :
    countEdges 4
      ((reorderGraphCanonically ⟨4, 4, 5⟩ [6, 0, 0, 0]
        (AdjacencyMatrix.TransitiveClosure 4 [6, 0, 0, 0]) ⟨1, 0⟩ PosetObj.new
        (AdjacencyMatrix.writeToGraph 4
          (AdjacencyMatrix.TransitiveClosure 4 [6, 0, 0, 0]))).is_edge 4) =
      countEdges 4 (fun u v => AdjacencyMatrix.get [6, 0, 0, 0] u v) ∧
    countEdges 4 (fun u v => AdjacencyMatrix.get [6, 0, 0, 0] u v) = 2 :=
  ⟨(canonical_graph_iso ⟨4, 4, 5⟩ [6, 0, 0, 0] ⟨1, 0⟩ PosetObj.new
      (AdjacencyMatrix.writeToGraph 4 (AdjacencyMatrix.TransitiveClosure 4 [6, 0, 0, 0]))
      (by decide!) (by decide!) (by decide) (by decide) (by decide) (by decide)
      (by
        intro u v hu hv huv
        have hu4 : u < 4 := hu
        have hv4 : v < 4 := hv
        have h3 : 3 ≤ u ∨ 3 ≤ v := huv
        show AdjacencyMatrix.get [6, 0, 0, 0] u v = true ↔
          (1 ≤ 0 ∧ u = 3 ∧ v = 3 + 1) ∨ (0 = 2 ∧ u = 3 + 2 ∧ v = 3 + 3)
        interval_cases u <;> interval_cases v <;> first | omega | decide)).2,
    by decide⟩


theorem setEdge_fold (n : Nat) (c : Nat → Bool) (s t : Nat → Nat) (a b : Nat) :
    ∀ (is : List Nat), (∀ i ∈ is, s i < n ∧ t i < n) →
    ∀ (acc : AdjacencyMatrix × List (Nat × Nat)), AdjacencyMatrix.wf n acc.1 = true →
      AdjacencyMatrix.wf n (is.foldl
        (fun (acc : AdjacencyMatrix × List (Nat × Nat)) i =>
          if c i then (acc.1.setEdge (s i) (t i), acc.2 ++ [(s i, t i)]) else acc) acc).1
        = true ∧
      ((is.foldl
        (fun (acc : AdjacencyMatrix × List (Nat × Nat)) i =>
          if c i then (acc.1.setEdge (s i) (t i), acc.2 ++ [(s i, t i)]) else acc) acc).1.get
          a b = true ↔
        acc.1.get a b = true ∨ ∃ i ∈ is, c i = true ∧ a = s i ∧ b = t i) := by
  intro is
  induction is with
  | nil => intro _ acc hw; exact ⟨hw, by simp⟩
  | cons i is ih =>
    intro his acc hw
    rw [List.foldl_cons]
    have hi := his i (List.mem_cons_self _ _)
    have his' : ∀ x ∈ is, s x < n ∧ t x < n := fun x hx => his x (List.mem_cons_of_mem _ hx)
    by_cases hc : c i = true
    · rw [if_pos hc]
      obtain ⟨h1, h2⟩ := ih his' (acc.1.setEdge (s i) (t i), acc.2 ++ [(s i, t i)])
        (setEdge_wf n _ hw _ _ hi.2)
      refine ⟨h1, ?_⟩
      rw [h2]
      simp only
      rw [setEdge_get n _ hw _ _ hi.1]
      simp only [Bool.or_eq_true, Bool.and_eq_true, decide_eq_true_eq, List.mem_cons]
      constructor
      · rintro ((h | ⟨h3, h4⟩) | ⟨x, hx, h⟩)
        · exact Or.inl h
        · exact Or.inr ⟨i, Or.inl rfl, hc, h3, h4⟩
        · exact Or.inr ⟨x, Or.inr hx, h⟩
      · rintro (h | ⟨x, hx | hx, h⟩)
        · exact Or.inl (Or.inl h)
        · subst hx; exact Or.inl (Or.inr ⟨h.2.1, h.2.2⟩)
        · exact Or.inr ⟨x, hx, h⟩
    · rw [if_neg hc]
      obtain ⟨h1, h2⟩ := ih his' acc hw
      refine ⟨h1, ?_⟩
      rw [h2]
      simp only [List.mem_cons]
      constructor
      · rintro (h | ⟨x, hx, h⟩)
        · exact Or.inl h
        · exact Or.inr ⟨x, Or.inr hx, h⟩
      · rintro (h | ⟨x, hx | hx, h⟩)
        · exact Or.inl h
        · subst hx; exact absurd h.1 hc
        · exact Or.inr ⟨x, hx, h⟩

/-- The edges of the matrix `parent` of `BackwardSearch::exploreComparison`. -/
theorem parent_get (N : Nat) (hN : N ≤ 32) (child : AdjacencyMatrix) (k1 k2 : Nat)
    (hw : AdjacencyMatrix.wf N child = true) (hk : k1 < k2) (hk2 : k2 < N) (a b : Nat) :
    AdjacencyMatrix.wf N (BackwardSearch.exploreComparison N child k1 k2).1 = true ∧
    ((BackwardSearch.exploreComparison N child k1 k2).1.get a b = true ↔
      ((child.get a b = true ∧ ¬ (a = k1 ∧ b = k2)) ∨
        (b = k2 ∧ a < k1 ∧ child.get a k1 = true ∧
          (AdjacencyMatrix.TransitiveClosure N (child.deleteEdge k1 k2)).get a k2 = false) ∨
        (a = k1 ∧ k2 < b ∧ b < N ∧ child.get k2 b = true ∧
          (AdjacencyMatrix.TransitiveClosure N (child.deleteEdge k1 k2)).get k1 b = false))) := by
  have hwd := deleteEdge_wf N child hw k1 k2
  have hdel : ∀ x y, (child.deleteEdge k1 k2).get x y = true ↔
      (child.get x y = true ∧ ¬ (x = k1 ∧ y = k2)) := by
    intro x y
    rw [deleteEdge_get N child hw hN]
    simp only [Bool.and_eq_true, Bool.not_eq_true', Bool.and_eq_false_iff, decide_eq_false_iff_not,
      decide_eq_true_eq]
    tauto
  unfold BackwardSearch.exploreComparison
  simp only
  obtain ⟨hw1, hg1⟩ := setEdge_fold N
    (fun i => (child.deleteEdge k1 k2).get i k1 &&
      !(AdjacencyMatrix.TransitiveClosure N (child.deleteEdge k1 k2)).get i k2)
    (fun i => i) (fun _ => k2) a b (List.range k1)
    (fun i hi => by rw [List.mem_range] at hi; simp only; omega) (child.deleteEdge k1 k2, []) hwd
  obtain ⟨hw2, hg2⟩ := setEdge_fold N
    (fun i => (child.deleteEdge k1 k2).get k2 i &&
      !(AdjacencyMatrix.TransitiveClosure N (child.deleteEdge k1 k2)).get k1 i)
    (fun _ => k1) (fun i => i) a b ((List.range N).drop (k2 + 1))
    (fun i hi => by rw [mem_drop_range] at hi; simp only; omega) _ hw1
  refine ⟨hw2, ?_⟩
  rw [hg2, hg1]
  simp only [hdel, Bool.and_eq_true, Bool.not_eq_true', List.mem_range, mem_drop_range]
  constructor
  · rintro ((h | ⟨i, hi, ⟨⟨h1, _⟩, h2⟩, h3, h4⟩) | ⟨i, hi, ⟨⟨h1, _⟩, h2⟩, h3, h4⟩)
    · exact Or.inl h
    · subst h3; subst h4; exact Or.inr (Or.inl ⟨rfl, hi, h1, h2⟩)
    · subst h3; subst h4; exact Or.inr (Or.inr ⟨rfl, by omega, hi.2, h1, h2⟩)
  · rintro (h | ⟨h1, h2, h3, h4⟩ | ⟨h1, h2, h3, h4, h5⟩)
    · exact Or.inl (Or.inl h)
    · exact Or.inl (Or.inr ⟨a, h2, ⟨⟨h3, fun hc => by omega⟩, h4⟩, rfl, h1⟩)
    · exact Or.inr ⟨b, ⟨by omega, h3⟩, ⟨⟨h4, fun hc => by omega⟩, h5⟩, h1, rfl⟩


theorem transGen_congr_iff {R S : Nat → Nat → Prop} (h : ∀ x y, R x y ↔ S x y) (a b : Nat) :
    Relation.TransGen R a b ↔ Relation.TransGen S a b :=
  ⟨fun hr => hr.mono (fun x y hxy => (h x y).mp hxy),
    fun hs => hs.mono (fun x y hxy => (h x y).mpr hxy)⟩

theorem path_split (C : Nat → Nat → Prop) (k1 k2 : Nat) (a b : Nat)
    (h : Relation.TransGen C a b) :
    Relation.TransGen (fun x y => C x y ∧ ¬ (x = k1 ∧ y = k2)) a b ∨
      ((a = k1 ∨ Relation.TransGen (fun x y => C x y ∧ ¬ (x = k1 ∧ y = k2)) a k1) ∧
        (b = k2 ∨ Relation.TransGen (fun x y => C x y ∧ ¬ (x = k1 ∧ y = k2)) k2 b)) := by
  induction h with
  | single hab =>
    rename_i b
    by_cases he : a = k1 ∧ b = k2
    · exact Or.inr ⟨Or.inl he.1, Or.inl he.2⟩
    · exact Or.inl (Relation.TransGen.single ⟨hab, he⟩)
  | tail hac hcb ih =>
    rename_i c b
    by_cases he : c = k1 ∧ b = k2
    · rcases ih with h1 | ⟨h1, _⟩
      · exact Or.inr ⟨Or.inr (he.1 ▸ h1), Or.inl he.2⟩
      · exact Or.inr ⟨h1, Or.inl he.2⟩
    · rcases ih with h1 | ⟨h1, h2⟩
      · exact Or.inl (Relation.TransGen.tail h1 ⟨hcb, he⟩)
      · rcases h2 with h2 | h2
        · exact Or.inr ⟨h1, Or.inr (Relation.TransGen.single ⟨h2 ▸ hcb, fun hc => he ⟨h2 ▸ hc.1, hc.2⟩⟩)⟩
        · exact Or.inr ⟨h1, Or.inr (Relation.TransGen.tail h2 ⟨hcb, he⟩)⟩

theorem backward_closure (C Pe : Nat → Nat → Prop) (N k1 k2 : Nat)
    (hup : ∀ x y, C x y → x < y) (hN : ∀ x y, C x y → y < N) (he : C k1 k2)
    (hred : ∀ a b w, C a b → Relation.TransGen C a w → Relation.TransGen C w b → False)
    (hPe : ∀ a b, Pe a b ↔ ((C a b ∧ ¬ (a = k1 ∧ b = k2)) ∨
      (b = k2 ∧ a < k1 ∧ C a k1 ∧
        ¬ Relation.TransGen (fun x y => C x y ∧ ¬ (x = k1 ∧ y = k2)) a k2) ∨
      (a = k1 ∧ k2 < b ∧ b < N ∧ C k2 b ∧
        ¬ Relation.TransGen (fun x y => C x y ∧ ¬ (x = k1 ∧ y = k2)) k1 b))) (a b : Nat) :
    Relation.TransGen Pe a b ↔ (Relation.TransGen C a b ∧ ¬ (a = k1 ∧ b = k2)) := by
  have hk : k1 < k2 := hup _ _ he
  have hD : ∀ x y, Relation.TransGen (fun x y => C x y ∧ ¬ (x = k1 ∧ y = k2)) x y →
      Relation.TransGen Pe x y :=
    fun x y h => h.mono (fun u v huv => (hPe u v).mpr (Or.inl huv))
  have hPC : ∀ x y, Pe x y → Relation.TransGen C x y := by
    intro x y h
    rcases (hPe x y).mp h with h1 | ⟨h1, _, h3, _⟩ | ⟨h1, _, _, h4, _⟩
    · exact Relation.TransGen.single h1.1
    · subst h1; exact Relation.TransGen.tail (Relation.TransGen.single h3) he
    · subst h1; exact Relation.TransGen.tail (Relation.TransGen.single he) h4
  have hsub : ∀ x y, Relation.TransGen Pe x y → Relation.TransGen C x y := by
    intro x y h
    induction h with
    | single h1 => exact hPC _ _ h1
    | tail _ h2 ih => exact Relation.TransGen.trans ih (hPC _ _ h2)
  have hmono : ∀ x y, Relation.TransGen C x y → x < y := by
    intro x y h
    induction h with
    | single h1 => exact hup _ _ h1
    | tail _ h2 ih => exact lt_trans ih (hup _ _ h2)
  constructor
  · intro h
    refine ⟨hsub a b h, ?_⟩
    rintro ⟨rfl, rfl⟩
    -- the first edge of a path from `k1` to `k2`
    rcases Relation.TransGen.head'_iff.mp h with ⟨x, hx, hrest⟩
    rcases (hPe a x).mp hx with h1 | ⟨h1, h2, _⟩ | ⟨_, h2, _⟩
    · rcases Relation.reflTransGen_iff_eq_or_transGen.mp hrest with h3 | h3
      · exact h1.2 ⟨rfl, h3.symm⟩
      · exact hred a b x he (Relation.TransGen.single h1.1) (hsub _ _ h3)
    · omega
    · rcases Relation.reflTransGen_iff_eq_or_transGen.mp hrest with h3 | h3
      · omega
      · have := hmono _ _ (hsub _ _ h3); omega
  · rintro ⟨h, hne⟩
    rcases path_split C k1 k2 a b h with h1 | ⟨h1, h2⟩
    · exact hD a b h1
    · -- the path runs through the deleted edge
      have hleft : a = k1 ∨ ∃ i, (a = i ∨ Relation.TransGen Pe a i) ∧ C i k1 ∧ i < k1 := by
        rcases h1 with h1 | h1
        · exact Or.inl h1
        · right
          rcases Relation.TransGen.tail'_iff.mp h1 with ⟨i, hi, hik⟩
          refine ⟨i, ?_, hik.1, hup _ _ hik.1⟩
          rcases Relation.reflTransGen_iff_eq_or_transGen.mp hi with h3 | h3
          · exact Or.inl h3.symm
          · exact Or.inr (hD _ _ h3)
      have hright : b = k2 ∨ ∃ j, (j = b ∨ Relation.TransGen Pe j b) ∧ C k2 j ∧ k2 < j := by
        rcases h2 with h2 | h2
        · exact Or.inl h2
        · right
          rcases Relation.TransGen.head'_iff.mp h2 with ⟨j, hj, hjb⟩
          refine ⟨j, ?_, hj.1, hup _ _ hj.1⟩
          rcases Relation.reflTransGen_iff_eq_or_transGen.mp hjb with h3 | h3
          · exact Or.inl h3.symm
          · exact Or.inr (hD _ _ h3)
      -- from an in-neighbour of `k1` to `k2`, and from `k1` to an out-neighbour of `k2`
      have hin : ∀ i, C i k1 → i < k1 → Relation.TransGen Pe i k2 := by
        intro i hi hlt
        by_cases ht : Relation.TransGen (fun x y => C x y ∧ ¬ (x = k1 ∧ y = k2)) i k2
        · exact hD _ _ ht
        · exact Relation.TransGen.single ((hPe i k2).mpr (Or.inr (Or.inl ⟨rfl, hlt, hi, ht⟩)))
      have hout : ∀ j, C k2 j → k2 < j → Relation.TransGen Pe k1 j := by
        intro j hj hlt
        by_cases ht : Relation.TransGen (fun x y => C x y ∧ ¬ (x = k1 ∧ y = k2)) k1 j
        · exact hD _ _ ht
        · exact Relation.TransGen.single
            ((hPe k1 j).mpr (Or.inr (Or.inr ⟨rfl, hlt, hN _ _ hj, hj, ht⟩)))
      rcases hleft with hl | ⟨i, hai, hi, hlt⟩
      · rcases hright with hr | ⟨j, hjb, hj, hlt2⟩
        · exact absurd ⟨hl, hr⟩ hne
        · subst hl
          rcases hjb with hjb | hjb
          · subst hjb; exact hout _ hj hlt2
          · exact Relation.TransGen.trans (hout _ hj hlt2) hjb
      · have hik2 := hin i hi hlt
        have hak2 : Relation.TransGen Pe a k2 := by
          rcases hai with hai | hai
          · subst hai; exact hik2
          · exact Relation.TransGen.trans hai hik2
        rcases h2 with h2 | h2
        · subst h2; exact hak2
        · exact Relation.TransGen.trans hak2 (hD _ _ h2)


theorem reduced_rel (N : Nat) (child : AdjacencyMatrix) (hw : AdjacencyMatrix.wf N child = true)
    (hred : AdjacencyMatrix.isReduced N child = true) (a b w : Nat)
    (hab : child.get a b = true)
    (h1 : Relation.TransGen (fun x y => child.get x y = true) a w)
    (h2 : Relation.TransGen (fun x y => child.get x y = true) w b) : False := by
  unfold AdjacencyMatrix.isReduced at hred
  rw [all3_true] at hred
  have c1 := (closure_spec N child hw a w).mpr h1
  have c2 := (closure_spec N child hw w b).mpr h2
  have b1 := wf_get_lt N child hw a b hab
  have b2 := wf_get_lt N _ (closure_wf N child hw) a w c1
  have := hred a b w b1.1 b1.2 b2.2
  rw [hab, c1, c2] at this
  exact absurd this (by decide)

/-- The closure of the matrix `parent` of `BackwardSearch::exploreComparison`, as a
relation. -/
theorem parent_closure_rel (N : Nat) (hN : N ≤ 32) (child : AdjacencyMatrix) (k1 k2 : Nat)
    (hw : AdjacencyMatrix.wf N child = true)
    (hup : ∀ x y, child.get x y = true → x < y)
    (hred : AdjacencyMatrix.isReduced N child = true)
    (he : child.get k1 k2 = true) (a b : Nat) :
    Relation.TransGen
      (fun x y => (BackwardSearch.exploreComparison N child k1 k2).1.get x y = true) a b ↔
      (Relation.TransGen (fun x y => child.get x y = true) a b ∧ ¬ (a = k1 ∧ b = k2)) := by
  have hk : k1 < k2 := hup _ _ he
  have hk2 : k2 < N := (wf_get_lt N child hw _ _ he).2
  have hwd := deleteEdge_wf N child hw k1 k2
  have hdel : ∀ x y, (child.deleteEdge k1 k2).get x y = true ↔
      (child.get x y = true ∧ ¬ (x = k1 ∧ y = k2)) := by
    intro x y
    rw [deleteEdge_get N child hw hN]
    simp only [Bool.and_eq_true, Bool.not_eq_true', Bool.and_eq_false_iff,
      decide_eq_false_iff_not, decide_eq_true_eq]
    tauto
  have hT : ∀ x y, (AdjacencyMatrix.TransitiveClosure N (child.deleteEdge k1 k2)).get x y
      = false ↔
      ¬ Relation.TransGen (fun x y => child.get x y = true ∧ ¬ (x = k1 ∧ y = k2)) x y := by
    intro x y
    rw [← transGen_congr_iff hdel, ← closure_spec N _ hwd]
    simp
  apply backward_closure (fun x y => child.get x y = true) _ N k1 k2 hup
    (fun x y h => (wf_get_lt N child hw _ _ h).2) he
    (fun a b w => reduced_rel N child hw hred a b w)
  intro x y
  rw [(parent_get N hN child k1 k2 hw hk hk2 x y).2, hT, hT]

theorem mem_filter_range (n : Nat) (f : Nat → Bool) (x : Nat) :
    x ∈ (List.range n).filter f ↔ x < n ∧ f x = true := by
  rw [List.mem_filter, List.mem_range]

theorem parent_forward (N : Nat) (hN : N ≤ 32) (child : AdjacencyMatrix) (k1 k2 : Nat)
    (hw : AdjacencyMatrix.wf N child = true)
    (hup : ∀ x y, child.get x y = true → x < y)
    (hred : AdjacencyMatrix.isReduced N child = true)
    (he : child.get k1 k2 = true) :
    (∀ a b, Relation.TransGen (fun x y =>
        ((BackwardSearch.exploreComparison N child k1 k2).1.setEdge k1 k2).get x y = true) a b ↔
      Relation.TransGen (fun x y => child.get x y = true) a b) ∧
    ((BackwardSearch.exploreComparison N child k1 k2).1.setEdge k1 k2).transReduction k1 k2
      (AdjacencyMatrix.writeToGraph N (AdjacencyMatrix.TransitiveClosure N
        ((BackwardSearch.exploreComparison N child k1 k2).1.setEdge k1 k2))) = child := by
  have hk : k1 < k2 := hup _ _ he
  have hk2 : k2 < N := (wf_get_lt N child hw _ _ he).2
  have hk1 : k1 < N := by omega
  obtain ⟨hwP, _⟩ := parent_get N hN child k1 k2 hw hk hk2 0 0
  have hP := fun a b => (parent_get N hN child k1 k2 hw hk hk2 a b).2
  have hcl := parent_closure_rel N hN child k1 k2 hw hup hred he
  have hwQ := setEdge_wf N _ hwP k1 k2 hk2
  have hQ : ∀ x y, ((BackwardSearch.exploreComparison N child k1 k2).1.setEdge k1 k2).get x y
      = true ↔ ((BackwardSearch.exploreComparison N child k1 k2).1.get x y = true ∨
        (x = k1 ∧ y = k2)) := by
    intro x y
    rw [setEdge_get N _ hwP k1 k2 hk1]
    simp only [Bool.or_eq_true, Bool.and_eq_true, decide_eq_true_eq]
  have hTQ : ∀ a b, Relation.TransGen (fun x y =>
        ((BackwardSearch.exploreComparison N child k1 k2).1.setEdge k1 k2).get x y = true) a b ↔
      Relation.TransGen (fun x y => child.get x y = true) a b := by
    intro a b
    constructor
    · intro h
      induction h with
      | single h1 =>
        rcases (hQ _ _).mp h1 with h2 | ⟨rfl, rfl⟩
        · exact ((hcl _ _).mp (Relation.TransGen.single h2)).1
        · exact Relation.TransGen.single he
      | tail _ h1 ih =>
        rcases (hQ _ _).mp h1 with h2 | ⟨rfl, rfl⟩
        · exact Relation.TransGen.trans ih ((hcl _ _).mp (Relation.TransGen.single h2)).1
        · exact Relation.TransGen.tail ih he
    · intro h
      refine h.mono ?_
      intro x y hxy
      rw [hQ]
      by_cases hc : x = k1 ∧ y = k2
      · exact Or.inr hc
      · exact Or.inl ((hP x y).mpr (Or.inl ⟨hxy, hc⟩))
  refine ⟨hTQ, ?_⟩
  obtain ⟨hwr, hget⟩ := transReduction_get N hN _ hwQ k1 k2
    (AdjacencyMatrix.writeToGraph N (AdjacencyMatrix.TransitiveClosure N
      ((BackwardSearch.exploreComparison N child k1 k2).1.setEdge k1 k2)))
  have hwc := closure_wf N _ hwQ
  have hCQ : ∀ a b, (AdjacencyMatrix.TransitiveClosure N
      ((BackwardSearch.exploreComparison N child k1 k2).1.setEdge k1 k2)).get a b = true ↔
      Relation.TransGen (fun x y => child.get x y = true) a b := by
    intro a b
    rw [closure_spec N _ hwQ, hTQ]
  have hbound : ∀ a b, Relation.TransGen (fun x y => child.get x y = true) a b →
      a < N ∧ b < N := by
    intro a b h
    exact wf_get_lt N _ (closure_wf N child hw) a b ((closure_spec N child hw a b).mpr h)
  apply wf_ext N _ _ hwr hw
  intro a b _ _
  rw [Bool.eq_iff_iff, hget, writeToGraph_out N _ hwc hN, writeToGraph_in N _ hwc]
  simp only [Bool.and_eq_true, Bool.not_eq_true', Bool.and_eq_false_iff,
    decide_eq_false_iff_not, decide_eq_true_eq, mem_filter_range, hCQ, hQ, hP]
  constructor
  · rintro ⟨⟨⟨h1, h2⟩, h3⟩, h4⟩
    rcases h1 with (h1 | ⟨h5, h6, h7, _⟩ | ⟨h5, h6, h7, h8, _⟩) | ⟨h5, h6⟩
    · exact h1.1
    · exfalso
      rcases h3 with h3 | h3
      · exact h3 ⟨by omega, Relation.TransGen.single h7⟩
      · exact h3 h5
    · exfalso
      rcases h2 with h2 | h2
      · exact h2 h5
      · exact h2 ⟨h7, Relation.TransGen.single h8⟩
    · rw [h5, h6]; exact he
  · intro h
    have hb := wf_get_lt N child hw a b h
    refine ⟨⟨⟨?_, ?_⟩, ?_⟩, ?_⟩
    · by_cases hc : a = k1 ∧ b = k2
      · exact Or.inr hc
      · exact Or.inl (Or.inl ⟨h, hc⟩)
    · by_cases hc : a = k1
      · right
        rintro ⟨_, h2⟩
        subst hc
        exact reduced_rel N child hw hred a b k2 h (Relation.TransGen.single he) h2
      · exact Or.inl hc
    · by_cases hc : b = k2
      · left
        rintro ⟨_, h2⟩
        subst hc
        exact reduced_rel N child hw hred a b k1 h h2 (Relation.TransGen.single he)
      · exact Or.inr hc
    · by_cases hc : a < N ∧ Relation.TransGen (fun x y => child.get x y = true) a k1
      · right
        rintro ⟨_, h2⟩
        exact reduced_rel N child hw hred a b k1 h hc.2
          (Relation.TransGen.head he h2)
      · exact Or.inl hc

/-- C33: for a transitively reduced matrix `child` on `N ≤ 32` vertices whose edges all go
from a lower to a higher index and an edge `k1 → k2` of it, the matrix `parent` built by
`BackwardSearch::exploreComparison` (the edge deleted, the exposed trans-edges added back)
has as transitive closure the closure of `child` without exactly the pair `(k1, k2)`; its
edges still go from lower to higher index; and adding `k1 → k2` back and reducing, as the
forward search does when it builds a child, gives `child` again. -/
theorem backward_parent_closure (N : Nat) (hN : N ≤ 32) (child : AdjacencyMatrix) (k1 k2 : Nat)
    (hw : AdjacencyMatrix.wf N child = true)
    (hup : ∀ x y, child.get x y = true → x < y)
    (hred : AdjacencyMatrix.isReduced N child = true)
    (he : child.get k1 k2 = true) :
    (∀ a b, (AdjacencyMatrix.TransitiveClosure N
        (BackwardSearch.exploreComparison N child k1 k2).1).get a b =
      ((AdjacencyMatrix.TransitiveClosure N child).get a b &&
        !(decide (a = k1) && decide (b = k2)))) ∧
    (∀ a b, (BackwardSearch.exploreComparison N child k1 k2).1.get a b = true → a < b) ∧
    AdjacencyMatrix.TransitiveClosure N
      ((BackwardSearch.exploreComparison N child k1 k2).1.setEdge k1 k2) =
        AdjacencyMatrix.TransitiveClosure N child ∧
    ((BackwardSearch.exploreComparison N child k1 k2).1.setEdge k1 k2).transReduction k1 k2
      (AdjacencyMatrix.writeToGraph N (AdjacencyMatrix.TransitiveClosure N
        ((BackwardSearch.exploreComparison N child k1 k2).1.setEdge k1 k2))) = child := by
  have hk : k1 < k2 := hup _ _ he
  have hk2 : k2 < N := (wf_get_lt N child hw _ _ he).2
  obtain ⟨hwP, _⟩ := parent_get N hN child k1 k2 hw hk hk2 0 0
  have hP := fun a b => (parent_get N hN child k1 k2 hw hk hk2 a b).2
  have hcl := parent_closure_rel N hN child k1 k2 hw hup hred he
  obtain ⟨hTQ, hfw⟩ := parent_forward N hN child k1 k2 hw hup hred he
  have hwQ := setEdge_wf N _ hwP k1 k2 hk2
  refine ⟨?_, ?_, ?_, hfw⟩
  · intro a b
    rw [Bool.eq_iff_iff, closure_spec N _ hwP, hcl]
    simp only [Bool.and_eq_true, Bool.not_eq_true', Bool.and_eq_false_iff,
      decide_eq_false_iff_not, decide_eq_true_eq]
    rw [closure_spec N child hw]
    tauto
  · intro a b h
    rcases (hP a b).mp h with h1 | ⟨h1, h2, _⟩ | ⟨h1, h2, _⟩
    · exact hup _ _ h1.1
    · omega
    · omega
  · apply wf_ext N _ _ (closure_wf N _ hwQ) (closure_wf N child hw)
    intro a b _ _
    rw [Bool.eq_iff_iff, closure_spec N _ hwQ, closure_spec N child hw, hTQ]

set_option maxRecDepth 8000 in
theorem backward_parent_closure_witness :
    (BackwardSearch.exploreComparison 4 [2, 4, 8, 0] 1 2).1 = [6, 8, 8, 0] ∧
    ((BackwardSearch.exploreComparison 4 [2, 4, 8, 0] 1 2).1.setEdge 1 2).transReduction 1 2
      (AdjacencyMatrix.writeToGraph 4 (AdjacencyMatrix.TransitiveClosure 4
        ((BackwardSearch.exploreComparison 4 [2, 4, 8, 0] 1 2).1.setEdge 1 2))) =
      [2, 4, 8, 0] :=
  ⟨by decide!,
    (backward_parent_closure 4 (by decide) [2, 4, 8, 0] 1 2 (by decide!)
      (by
        intro x y h
        have hb := wf_get_lt 4 [2, 4, 8, 0] (by decide!) x y h
        have hx : x < 4 := hb.1
        have hy : y < 4 := hb.2
        revert h
        interval_cases x <;> interval_cases y <;> decide)
      (by decide!) (by decide!)).2.2.2⟩


theorem sortLayersFold_clen (idSeq : List Nat) (layers : List (List Nat)) :
    (∀ l ∈ layers, l ≠ []) →
    ∀ (acc : SortedLayers × Nat), acc.2 = acc.1.permutation.length →
      acc.1.cycleIsoStarts.length = acc.1.cycleIsoLengths.length →
      (layers.foldl (sortLayer idSeq) acc).1.cycleIsoStarts.length =
        (layers.foldl (sortLayer idSeq) acc).1.cycleIsoLengths.length := by
  induction layers with
  | nil => intro _ acc _ h; exact h
  | cons l layers ih =>
    intro hne acc h1 h2
    rw [List.foldl_cons]
    obtain ⟨_, h3, h4⟩ := sortLayer_recorded idSeq acc l (hne l (List.mem_cons_self _ _)) h1 h2
    exact ih (fun x hx => hne x (List.mem_cons_of_mem _ hx)) _ h3 h4

theorem streamSorted_permutation (cfg : NCT) (closure : AdjacencyMatrix) (info : PosetInfo)
    (g : NiceGraph) (rev : Bool) :
    (streamSorted cfg closure info g rev).permutation =
      streamPermutation cfg closure info g rev := rfl

/-- When the canonicalizer leaves `uniqueGraph` set, the flag `ambiguousGraph` is clear. -/
theorem unique_imp_not_ambiguous (cfg : NCT) (adMatrix closure : AdjacencyMatrix)
    (info : PosetInfo) (poset : PosetObj) (g : NiceGraph)
    (hu : (reorderGraphCanonically cfg adMatrix closure info poset g).uniqueGraph = true) :
    canonAmbiguous cfg closure info g = false := by
  by_contra hne
  rw [Bool.not_eq_false] at hne
  unfold reorderGraphCanonically at hu
  unfold canonAmbiguous streamSorted streamClosure at hne
  simp only [streamIds_fw, streamIds_bw, if_true, Bool.false_eq_true, if_false] at hne
  simp only at hu
  rw [hne] at hu
  split at hu
  · rw [(setgraphPermutationReverse_flags _ _ _ _ _).2.1] at hu
    simp at hu
  · rw [(setgraphPermutation_flags _ _ _ _ _).2.1] at hu
    split_ifs at hu <;> simp at hu


theorem streamBlocks_flatten (cfg : NCT) (base : AdjacencyMatrix) (info : PosetInfo)
    (g : NiceGraph) (rev : Bool)
    (hw : AdjacencyMatrix.wf cfg.N base = true)
    (hd : AdjacencyMatrix.isDag cfg.N base = true)
    (hr : info.GetReducedN cfg ≤ cfg.MAXN) (hM : cfg.MAXN ≤ 32) :
    streamPermutation cfg (AdjacencyMatrix.TransitiveClosure cfg.N base) info g rev =
      (streamBlocks cfg (AdjacencyMatrix.TransitiveClosure cfg.N base) info g rev).flatten :=
  (streamPermutation_eq cfg base info g rev hw hd hr hM).1

theorem stream_tests (cfg : NCT) (base : AdjacencyMatrix) (info : PosetInfo)
    (g : NiceGraph)
    (hw : AdjacencyMatrix.wf cfg.N base = true)
    (hd : AdjacencyMatrix.isDag cfg.N base = true)
    (hr : info.GetReducedN cfg ≤ cfg.MAXN) (hM : cfg.MAXN ≤ 32)
    (h : canonAmbiguous cfg (AdjacencyMatrix.TransitiveClosure cfg.N base) info g = false)
    (rev : Bool) :
    flipsOk cfg.N (streamClosure cfg (AdjacencyMatrix.TransitiveClosure cfg.N base) rev)
      (streamSorted cfg (AdjacencyMatrix.TransitiveClosure cfg.N base) info g rev).permutation
      (streamSorted cfg (AdjacencyMatrix.TransitiveClosure cfg.N base) info g rev).flipIsos
        = true ∧
    cyclesOk cfg.N (streamClosure cfg (AdjacencyMatrix.TransitiveClosure cfg.N base) rev)
      (streamSorted cfg (AdjacencyMatrix.TransitiveClosure cfg.N base) info g rev).permutation
      (streamSorted cfg (AdjacencyMatrix.TransitiveClosure cfg.N base) info g rev).cycleIsoStarts
      (streamSorted cfg (AdjacencyMatrix.TransitiveClosure cfg.N base) info g rev).cycleIsoLengths
        = true := by
  have hclen : ∀ rev, (streamSorted cfg (AdjacencyMatrix.TransitiveClosure cfg.N base) info g
      rev).cycleIsoStarts.length =
      (streamSorted cfg (AdjacencyMatrix.TransitiveClosure cfg.N base) info g
        rev).cycleIsoLengths.length := by
    intro rev
    unfold streamSorted sortLayersAndGetPermutation
    exact sortLayersFold_clen _ _ (streamLayers_spec cfg base _ rev hw hd hr hM).1
      (⟨[], [], [], []⟩, 0) rfl rfl
  have hempty : ∀ (c : AdjacencyMatrix) (perm F S Lg : List Nat), F.length = 0 →
      Lg.length = 0 → S.length = Lg.length →
      flipsOk cfg.N c perm F = true ∧ cyclesOk cfg.N c perm S Lg = true := by
    intro c perm F S Lg h1 h2 h3
    have hF : F = [] := List.length_eq_zero.mp h1
    have hS : S = [] := List.length_eq_zero.mp (by omega)
    subst hF; subst hS
    exact ⟨rfl, rfl⟩
  unfold canonAmbiguous at h
  split at h
  · rename_i he
    cases rev with
    | false => exact hempty _ _ _ _ _ he.1 he.2.2.1 (hclen false)
    | true => exact hempty _ _ _ _ _ he.2.1 he.2.2.2 (hclen true)
  · simp only [Bool.not_eq_false', Bool.and_eq_true] at h
    cases rev with
    | false => exact ⟨h.1.1.1, h.1.2⟩
    | true => exact ⟨h.1.1.2, h.2⟩

/-- The automorphism behind a tie-break rearrangement of one stream. -/
theorem tie_aut (cfg : NCT) (base : AdjacencyMatrix) (info : PosetInfo)
    (g : NiceGraph)
    (hw : AdjacencyMatrix.wf cfg.N base = true)
    (hd : AdjacencyMatrix.isDag cfg.N base = true)
    (hrN : info.GetReducedN cfg ≤ cfg.N) (hN : cfg.N ≤ cfg.MAXN) (hM : cfg.MAXN ≤ 32)
    (h : canonAmbiguous cfg (AdjacencyMatrix.TransitiveClosure cfg.N base) info g = false)
    (rev : Bool) (blocks' : List (List Nat))
    (ht : TieRearranged (fun v => (streamIds cfg.N (info.GetReducedN cfg) g rev).getD v 0)
      blocks' (streamBlocks cfg (AdjacencyMatrix.TransitiveClosure cfg.N base) info g rev)) :
    ∃ σ : Nat → Nat,
      VAut cfg.N (streamClosure cfg (AdjacencyMatrix.TransitiveClosure cfg.N base) rev) σ ∧
      (streamPermutation cfg (AdjacencyMatrix.TransitiveClosure cfg.N base) info g rev).map σ =
        blocks'.flatten ∧
      (∀ z, z ∉ streamPermutation cfg (AdjacencyMatrix.TransitiveClosure cfg.N base) info g rev →
        σ z = z) ∧
      (∀ z, z < cfg.N → σ z < cfg.N) ∧ Function.Injective σ := by
  have hr : info.GetReducedN cfg ≤ cfg.MAXN := by omega
  obtain ⟨hf, hc⟩ := stream_tests cfg base info g hw hd hr hM h rev
  have hflat := streamBlocks_flatten cfg base info g rev hw hd hr hM
  have hperm := (streamPermutation_eq cfg base info g rev hw hd hr hM).2
  rw [streamSorted_permutation] at hf hc
  have hrec : BlocksRecorded (fun v => (streamIds cfg.N (info.GetReducedN cfg) g rev).getD v 0)
      (streamSorted cfg (AdjacencyMatrix.TransitiveClosure cfg.N base) info g rev).flipIsos
      (streamSorted cfg (AdjacencyMatrix.TransitiveClosure cfg.N base) info g rev).cycleIsoStarts
      (streamSorted cfg (AdjacencyMatrix.TransitiveClosure cfg.N base) info g rev).cycleIsoLengths
      (streamPermutation cfg (AdjacencyMatrix.TransitiveClosure cfg.N base) info g rev).length
      0 (streamBlocks cfg (AdjacencyMatrix.TransitiveClosure cfg.N base) info g rev) :=
    sortLayersFold_recorded _ _ (streamLayers_spec cfg base _ rev hw hd hr hM).1
      (⟨[], [], [], []⟩, 0) rfl rfl
  have hH := blocks_H cfg.N (info.GetReducedN cfg)
    (streamClosure cfg (AdjacencyMatrix.TransitiveClosure cfg.N base) rev)
    (streamPermutation cfg (AdjacencyMatrix.TransitiveClosure cfg.N base) info g rev) _ _ _
    (fun v => (streamIds cfg.N (info.GetReducedN cfg) g rev).getD v 0) hperm hrN hf hc
    (streamBlocks cfg (AdjacencyMatrix.TransitiveClosure cfg.N base) info g rev) []
    (by rw [List.nil_append]; exact hflat) hrec
    (by
      intro B hB
      unfold streamBlocks at hB
      rw [List.mem_map] at hB
      obtain ⟨l, _, rfl⟩ := hB
      exact insertionSort_sorted _ l)
  rw [hflat]
  rw [hflat] at hperm
  exact blocks_aut cfg.N _ _ _ blocks' ht (hperm.nodup_iff.mpr (List.nodup_range _))
    (fun u hu => by have := List.mem_range.mp (hperm.mem_iff.mp hu); omega) hH


theorem cover_iff (n : Nat) (m : AdjacencyMatrix) (hw : AdjacencyMatrix.wf n m = true)
    (hred : AdjacencyMatrix.isReduced n m = true) (u v : Nat) :
    m.get u v = true ↔
      (AdjacencyMatrix.TransitiveClosure n m).get u v = true ∧
      ∀ w, ¬((AdjacencyMatrix.TransitiveClosure n m).get u w = true ∧
        (AdjacencyMatrix.TransitiveClosure n m).get w v = true) := by
  constructor
  · intro h
    refine ⟨(closure_spec n m hw u v).mpr (Relation.TransGen.single h), ?_⟩
    rintro w ⟨h1, h2⟩
    exact reduced_rel n m hw hred u v w h ((closure_spec n m hw u w).mp h1)
      ((closure_spec n m hw w v).mp h2)
  · rintro ⟨h, hno⟩
    have ht := (closure_spec n m hw u v).mp h
    rw [Relation.TransGen.head'_iff] at ht
    obtain ⟨w, huw, hwv⟩ := ht
    rw [Relation.reflTransGen_iff_eq_or_transGen] at hwv
    rcases hwv with he | hwv
    · rw [he]; exact huw
    · exact absurd ⟨(closure_spec n m hw u w).mpr (Relation.TransGen.single huw),
        (closure_spec n m hw w v).mpr hwv⟩ (hno w)

theorem vaut_reduction (n : Nat) (m : AdjacencyMatrix) (hw : AdjacencyMatrix.wf n m = true)
    (hred : AdjacencyMatrix.isReduced n m = true) (σ : Nat → Nat)
    (hmap : ∀ z, z < n → σ z < n) (hinj : Function.Injective σ)
    (ha : VAut n (AdjacencyMatrix.TransitiveClosure n m) σ) : VAut n m σ := by
  have hcw := closure_wf n m hw
  have hsurj := inj_surj_range n σ hmap (fun i j _ _ h => hinj h)
  intro u v hu hv
  rw [Bool.eq_iff_iff, cover_iff n m hw hred, cover_iff n m hw hred, ha u v hu hv]
  constructor
  · rintro ⟨h, hno⟩
    refine ⟨h, ?_⟩
    rintro w ⟨h1, h2⟩
    have hwn := (wf_get_lt n _ hcw u w h1).2
    exact hno (σ w) ⟨by rw [ha u w hu hwn]; exact h1, by rw [ha w v hwn hv]; exact h2⟩
  · rintro ⟨h, hno⟩
    refine ⟨h, ?_⟩
    rintro w ⟨h1, h2⟩
    have hwn := (wf_get_lt n _ hcw _ w h1).2
    obtain ⟨w', hw', rfl⟩ := hsurj w hwn
    exact hno w' ⟨by rw [← ha u w' hu hw']; exact h1, by rw [← ha w' v hw' hv]; exact h2⟩

theorem vaut_streamClosure (cfg : NCT) (c : AdjacencyMatrix) (rev : Bool) (σ : Nat → Nat)
    (hmap : ∀ z, z < cfg.N → σ z < cfg.N) (ha : VAut cfg.N (streamClosure cfg c rev) σ) :
    VAut cfg.N c σ := by
  cases rev with
  | false => exact ha
  | true =>
    intro u v hu hv
    have h := ha v u hv hu
    unfold streamClosure at h
    rw [if_pos rfl, reverse_get, reverse_get, decide_eq_true hv, decide_eq_true hu,
      decide_eq_true (hmap v hv), decide_eq_true (hmap u hu)] at h
    simpa using h

theorem ext_map (perm : List Nat) (r n : Nat) (hr : r ≤ n) (hp : perm.Perm (List.range r))
    (σ : Nat → Nat) (hfix : ∀ z, z ∉ perm → σ z = z) (i : Nat) (hi : i < n) :
    (extendPermutation (perm.map σ) n).getD i 0 = σ ((extendPermutation perm n).getD i 0) ∧
      (extendPermutation perm n).getD i 0 < n := by
  obtain ⟨hl, hlt, _⟩ := perm_getD_facts perm r hp
  rw [extendPermutation_getD, extendPermutation_getD, List.length_map]
  by_cases h : i < perm.length
  · rw [if_pos h, if_pos h]
    refine ⟨?_, by have := hlt i (by omega); omega⟩
    rw [List.getD_eq_getElem _ _ (by rw [List.length_map]; exact h), List.getElem_map,
      List.getD_eq_getElem _ _ h]
  · rw [if_neg h, if_neg h, if_pos hi]
    refine ⟨(hfix i ?_).symm, hi⟩
    intro hm
    have := List.mem_range.mp (hp.mem_iff.mp hm)
    omega

theorem setGraphLoop_congr (M np : Nat) (e1 e2 : Nat → Nat → Bool) (p : PosetObj)
    (h : ∀ i j, i < j → j < np → e1 i j = e2 i j) :
    setGraphLoop M np e1 p = setGraphLoop M np e2 p := by
  unfold setGraphLoop
  apply List.foldl_ext
  intro a i _
  apply List.foldl_ext
  intro b j hj
  rw [mem_drop_range] at hj
  rw [h i j (by omega) hj.2]

theorem tie_keys (key : Nat → Nat) (blocks' blocks : List (List Nat))
    (h : TieRearranged key blocks' blocks) :
    blocks'.flatten.map key = blocks.flatten.map key ∧
      blocks'.flatten.length = blocks.flatten.length := by
  unfold TieRearranged at h
  induction h with
  | nil => exact ⟨rfl, rfl⟩
  | @cons B' B rest' rest hB _ ih =>
    rw [List.flatten_cons, List.flatten_cons, List.map_append, List.map_append,
      List.length_append, List.length_append, hB.2, ih.1, ih.2, hB.1.length_eq]
    exact ⟨rfl, rfl⟩

/-- C35: when `reorderGraphCanonically` sets `uniqueGraph = true` on an acyclic input, every
rearrangement of the vertices inside the runs of equal refined ids of the layers (the blocks
of a stream keep their vertices and their id sequence, so only tied vertices move) is induced
by an automorphism of the closure: the reordered closure matrix of the stream is unchanged,
the reordered id sequence that decides the direction is unchanged, and, the serialized matrix
being transitively reduced, the graph bits written with the rearranged permutation are those
written with the computed one.  This holds for both streams, hence for the one serialized. -/
theorem unique_tie_break (cfg : NCT) (adMatrix : AdjacencyMatrix) (info : PosetInfo)
    (poset : PosetObj) (g : NiceGraph)
    (hw : AdjacencyMatrix.wf cfg.N adMatrix = true)
    (hd : AdjacencyMatrix.isDag cfg.N adMatrix = true)
    (hN : cfg.N ≤ cfg.MAXN) (hM : cfg.MAXN ≤ 32)
    (hv : 2 * info.numPairs + info.numSingletons ≤ cfg.N)
    (hu : (reorderGraphCanonically cfg adMatrix (AdjacencyMatrix.TransitiveClosure cfg.N adMatrix)
      info poset g).uniqueGraph = true)
    (rev : Bool) (blocks' : List (List Nat))
    (ht : TieRearranged (fun v => (streamIds cfg.N (info.GetReducedN cfg) g rev).getD v 0)
      blocks' (streamBlocks cfg (AdjacencyMatrix.TransitiveClosure cfg.N adMatrix) info g rev)) :
    streamPermutation cfg (AdjacencyMatrix.TransitiveClosure cfg.N adMatrix) info g rev =
      (streamBlocks cfg (AdjacencyMatrix.TransitiveClosure cfg.N adMatrix) info g rev).flatten ∧
    AdjacencyMatrix.reorder cfg.N
        (streamClosure cfg (AdjacencyMatrix.TransitiveClosure cfg.N adMatrix) rev)
        blocks'.flatten =
      AdjacencyMatrix.reorder cfg.N
        (streamClosure cfg (AdjacencyMatrix.TransitiveClosure cfg.N adMatrix) rev)
        (streamPermutation cfg (AdjacencyMatrix.TransitiveClosure cfg.N adMatrix) info g rev) ∧
    reorderIds (streamIds cfg.N (info.GetReducedN cfg) g rev) blocks'.flatten =
      streamSeq cfg (AdjacencyMatrix.TransitiveClosure cfg.N adMatrix) info g rev ∧
    (AdjacencyMatrix.isReduced cfg.N adMatrix = true →
      (if rev then
        (PosetObj.new.SetgraphPermutationReverse cfg adMatrix blocks'.flatten info).graph
      else
        (PosetObj.new.SetgraphPermutation cfg adMatrix blocks'.flatten info).graph) =
      streamGraph cfg adMatrix (AdjacencyMatrix.TransitiveClosure cfg.N adMatrix) info g rev) := by
  have hrN : info.GetReducedN cfg ≤ cfg.N := by
    unfold PosetInfo.GetReducedN
    rw [show (2 : Nat) ^ 32 = 4294967296 by norm_num]
    omega
  have hr : info.GetReducedN cfg ≤ cfg.MAXN := by omega
  have hamb := unique_imp_not_ambiguous cfg adMatrix _ info poset g hu
  obtain ⟨σ, hσ, hmapσ, hfix, hlt, hinj⟩ :=
    tie_aut cfg adMatrix info g hw hd hrN hN hM hamb rev blocks' ht
  have hflat := streamBlocks_flatten cfg adMatrix info g rev hw hd hr hM
  have hperm := (streamPermutation_eq cfg adMatrix info g rev hw hd hr hM).2
  obtain ⟨hl, hplt, _⟩ := perm_getD_facts _ _ hperm
  have hkeys := tie_keys _ _ _ ht
  refine ⟨hflat, ?_, ?_, ?_⟩
  · rw [reorder_eq_iff, ← hmapσ]
    intro i j hi hj
    obtain ⟨e1, b1⟩ := ext_map _ _ cfg.N hrN hperm σ hfix i hi
    obtain ⟨e2, b2⟩ := ext_map _ _ cfg.N hrN hperm σ hfix j hj
    rw [e1, e2]
    exact hσ _ _ b1 b2
  · unfold streamSeq reorderIds
    rw [hflat]
    exact hkeys.1
  · intro hred
    have hc := vaut_streamClosure cfg _ rev σ hlt hσ
    have ha := vaut_reduction cfg.N adMatrix hw hred σ hlt hinj hc
    have hget : ∀ i, i < info.GetReducedN cfg →
        blocks'.flatten.getD i 0 =
          σ ((streamPermutation cfg (AdjacencyMatrix.TransitiveClosure cfg.N adMatrix) info g
            rev).getD i 0) := by
      intro i hi
      rw [← hmapσ, List.getD_eq_getElem _ _ (by rw [List.length_map]; omega), List.getElem_map,
        List.getD_eq_getElem _ _ (by omega)]
    have hlen : blocks'.flatten.length = info.GetReducedN cfg := by
      rw [hkeys.2, ← hflat, hl]
    unfold streamGraph
    cases rev with
    | false =>
      simp only [Bool.false_eq_true, if_false]
      unfold PosetObj.SetgraphPermutation
      rw [hlen, hl]
      rw [setGraphLoop_congr cfg.MAXN (info.GetReducedN cfg) _
        (fun i j => adMatrix.get
          ((streamPermutation cfg (AdjacencyMatrix.TransitiveClosure cfg.N adMatrix) info g
            false).getD i 0)
          ((streamPermutation cfg (AdjacencyMatrix.TransitiveClosure cfg.N adMatrix) info g
            false).getD j 0))]
      intro i j hij hj
      rw [hget i (by omega), hget j hj]
      exact ha _ _ (by have := hplt i (by omega); omega) (by have := hplt j hj; omega)
    | true =>
      simp only [if_true]
      unfold PosetObj.SetgraphPermutationReverse
      rw [hlen, hl]
      rw [setGraphLoop_congr cfg.MAXN (info.GetReducedN cfg) _
        (fun i j => adMatrix.get
          ((streamPermutation cfg (AdjacencyMatrix.TransitiveClosure cfg.N adMatrix) info g
            true).getD j 0)
          ((streamPermutation cfg (AdjacencyMatrix.TransitiveClosure cfg.N adMatrix) info g
            true).getD i 0))]
      intro i j hij hj
      rw [hget i (by omega), hget j hj]
      exact ha _ _ (by have := hplt j hj; omega) (by have := hplt i (by omega); omega)

theorem unique_tie_break_witness :
    (streamBlocks ⟨4, 4, 5⟩ (AdjacencyMatrix.TransitiveClosure 4 [6, 0, 0, 0]) ⟨1, 0⟩
      (AdjacencyMatrix.writeToGraph 4 (AdjacencyMatrix.TransitiveClosure 4 [6, 0, 0, 0]))
      false = [[0], [1, 2]]) ∧
    AdjacencyMatrix.reorder 4
        (streamClosure ⟨4, 4, 5⟩ (AdjacencyMatrix.TransitiveClosure 4 [6, 0, 0, 0]) false)
        [0, 2, 1] =
      AdjacencyMatrix.reorder 4
        (streamClosure ⟨4, 4, 5⟩ (AdjacencyMatrix.TransitiveClosure 4 [6, 0, 0, 0]) false)
        (streamPermutation ⟨4, 4, 5⟩ (AdjacencyMatrix.TransitiveClosure 4 [6, 0, 0, 0]) ⟨1, 0⟩
          (AdjacencyMatrix.writeToGraph 4 (AdjacencyMatrix.TransitiveClosure 4 [6, 0, 0, 0]))
          false) ∧
    (PosetObj.new.SetgraphPermutation ⟨4, 4, 5⟩ [6, 0, 0, 0] [0, 2, 1] ⟨1, 0⟩).graph =
      streamGraph ⟨4, 4, 5⟩ [6, 0, 0, 0] (AdjacencyMatrix.TransitiveClosure 4 [6, 0, 0, 0])
        ⟨1, 0⟩
        (AdjacencyMatrix.writeToGraph 4 (AdjacencyMatrix.TransitiveClosure 4 [6, 0, 0, 0]))
        false :=
  have hb : streamBlocks ⟨4, 4, 5⟩ (AdjacencyMatrix.TransitiveClosure 4 [6, 0, 0, 0]) ⟨1, 0⟩
      (AdjacencyMatrix.writeToGraph 4 (AdjacencyMatrix.TransitiveClosure 4 [6, 0, 0, 0]))
      false = [[0], [1, 2]] := by decide!
  have h := unique_tie_break ⟨4, 4, 5⟩ [6, 0, 0, 0] ⟨1, 0⟩ PosetObj.new
    (AdjacencyMatrix.writeToGraph 4 (AdjacencyMatrix.TransitiveClosure 4 [6, 0, 0, 0]))
    (by decide!) (by decide!) (by decide) (by decide) (by decide) (by decide!)
    false [[0], [2, 1]]
    (by
      rw [hb]
      exact List.Forall₂.cons ⟨List.Perm.refl _, rfl⟩
        (List.Forall₂.cons ⟨List.Perm.swap 1 2 [], by decide!⟩ List.Forall₂.nil))
  ⟨hb, h.2.1, h.2.2.2 (by decide!)⟩


theorem reverseReduced_get (n r : Nat) (m : AdjacencyMatrix) (i j : Nat) :
    (AdjacencyMatrix.reverseReduced n r m).get i j =
      (decide (i < n) && (decide (j < n) &&
        (if i < r ∧ j < r then m.get j i else m.get i j))) := by
  show ((AdjacencyMatrix.reverseReduced n r m).getD i 0).testBit j = _
  unfold AdjacencyMatrix.reverseReduced
  rw [getD_map_range]
  by_cases h : i < n
  · rw [if_pos h, vertexMask_testBit, decide_eq_true h, Bool.true_and]
  · rw [if_neg h, decide_eq_false h, Bool.false_and, Nat.zero_testBit]

theorem reverseReduced_wf (n r : Nat) (m : AdjacencyMatrix) :
    AdjacencyMatrix.wf n (AdjacencyMatrix.reverseReduced n r m) = true := by
  rw [wf_iff]
  refine ⟨by simp [AdjacencyMatrix.reverseReduced], ?_⟩
  intro i hi
  unfold AdjacencyMatrix.reverseReduced
  rw [getD_map_range, if_pos hi]
  exact vertexMask_lt n _

theorem reverseReduced_get_wf (n r : Nat) (m : AdjacencyMatrix)
    (hw : AdjacencyMatrix.wf n m = true) (i j : Nat) :
    (AdjacencyMatrix.reverseReduced n r m).get i j =
      (if i < r ∧ j < r then m.get j i else m.get i j) := by
  rw [reverseReduced_get]
  by_cases hi : i < n
  · by_cases hj : j < n
    · simp [hi, hj]
    · have h1 : m.get i j = false := by
        cases h : m.get i j with
        | false => rfl
        | true => exact absurd (wf_get_lt n m hw i j h).2 hj
      have h2 : m.get j i = false := by
        cases h : m.get j i with
        | false => rfl
        | true => exact absurd (wf_get_lt n m hw j i h).1 hj
      simp [hj, h1, h2]
  · have h1 : m.get i j = false := by
      cases h : m.get i j with
      | false => rfl
      | true => exact absurd (wf_get_lt n m hw i j h).1 hi
    have h2 : m.get j i = false := by
      cases h : m.get j i with
      | false => rfl
      | true => exact absurd (wf_get_lt n m hw j i h).2 hi
    simp [hi, h1, h2]

/-- Paths of a relation whose edges within one side are reversed. -/
theorem transGen_dual (S : Nat → Prop) (R R' : Nat → Nat → Prop)
    (hside : ∀ u v, R u v → (S u ↔ S v))
    (hR : ∀ u v, R' u v ↔ ((S u ∧ S v ∧ R v u) ∨ (¬ S u ∧ R u v))) (u v : Nat)
    (h : Relation.TransGen R' u v) :
    (S u ∧ S v ∧ Relation.TransGen R v u) ∨ (¬ S u ∧ ¬ S v ∧ Relation.TransGen R u v) := by
  induction h with
  | single h =>
    rcases (hR _ _).mp h with ⟨h1, h2, h3⟩ | ⟨h1, h3⟩
    · exact Or.inl ⟨h1, h2, Relation.TransGen.single h3⟩
    · exact Or.inr ⟨h1, fun hv => h1 ((hside _ _ h3).mpr hv), Relation.TransGen.single h3⟩
  | tail _ h2 ih =>
    rcases (hR _ _).mp h2 with ⟨h1, h2', h3⟩ | ⟨h1, h3⟩
    · rcases ih with ⟨a, _, c⟩ | ⟨_, b, _⟩
      · exact Or.inl ⟨a, h2', Relation.TransGen.head h3 c⟩
      · exact absurd h1 b
    · rcases ih with ⟨_, b, _⟩ | ⟨a, _, c⟩
      · exact absurd b h1
      · exact Or.inr ⟨a, fun hv => h1 ((hside _ _ h3).mpr hv), Relation.TransGen.tail c h3⟩

theorem transGen_dual_iff (S : Nat → Prop) (R R' : Nat → Nat → Prop)
    (hside : ∀ u v, R u v → (S u ↔ S v))
    (hR : ∀ u v, R' u v ↔ ((S u ∧ S v ∧ R v u) ∨ (¬ S u ∧ R u v))) (u v : Nat) :
    Relation.TransGen R' u v ↔
      ((S u ∧ S v ∧ Relation.TransGen R v u) ∨ (¬ S u ∧ ¬ S v ∧ Relation.TransGen R u v)) := by
  have hside' : ∀ u v, R' u v → (S u ↔ S v) := by
    intro u v h
    rcases (hR u v).mp h with ⟨h1, h2, _⟩ | ⟨h1, h3⟩
    · exact ⟨fun _ => h2, fun _ => h1⟩
    · exact ⟨fun a => absurd a h1, fun b => absurd ((hside _ _ h3).mpr b) h1⟩
  have hR' : ∀ u v, R u v ↔ ((S u ∧ S v ∧ R' v u) ∨ (¬ S u ∧ R' u v)) := by
    intro u v
    constructor
    · intro h
      by_cases hu : S u
      · have hv := (hside _ _ h).mp hu
        exact Or.inl ⟨hu, hv, (hR v u).mpr (Or.inl ⟨hv, hu, h⟩)⟩
      · exact Or.inr ⟨hu, (hR u v).mpr (Or.inr ⟨hu, h⟩)⟩
    · rintro (⟨hu, hv, h⟩ | ⟨hu, h⟩)
      · rcases (hR v u).mp h with ⟨_, _, h3⟩ | ⟨h1, _⟩
        · exact h3
        · exact absurd hv h1
      · rcases (hR u v).mp h with ⟨h1, _, _⟩ | ⟨_, h3⟩
        · exact absurd h1 hu
        · exact h3
  constructor
  · exact transGen_dual S R R' hside hR u v
  · rintro (⟨hu, hv, h⟩ | ⟨hu, hv, h⟩)
    · rcases transGen_dual S R' R hside' hR' v u h with ⟨_, _, h3⟩ | ⟨h1, _, _⟩
      · exact h3
      · exact absurd hv h1
    · rcases transGen_dual S R' R hside' hR' u v h with ⟨h1, _, _⟩ | ⟨_, _, h3⟩
      · exact absurd h1 hu
      · exact h3

theorem transGen_side (S : Nat → Prop) (R : Nat → Nat → Prop)
    (hside : ∀ u v, R u v → (S u ↔ S v)) (u v : Nat) (h : Relation.TransGen R u v) :
    S u ↔ S v := by
  induction h with
  | single h => exact hside _ _ h
  | tail _ h2 ih => exact ih.trans (hside _ _ h2)

/-- The closure of the dual graph: the closure of the graph with the pairs of reduced
vertices exchanged. -/
theorem dual_closure_get (n r : Nat) (m : AdjacencyMatrix) (hw : AdjacencyMatrix.wf n m = true)
    (hside : ∀ u v, m.get u v = true → (u < r ↔ v < r)) (u v : Nat) :
    (AdjacencyMatrix.TransitiveClosure n (AdjacencyMatrix.reverseReduced n r m)).get u v =
      (if u < r ∧ v < r then (AdjacencyMatrix.TransitiveClosure n m).get v u
        else (AdjacencyMatrix.TransitiveClosure n m).get u v) := by
  have hR : ∀ u v, (AdjacencyMatrix.reverseReduced n r m).get u v = true ↔
      ((u < r ∧ v < r ∧ m.get v u = true) ∨ (¬ u < r ∧ m.get u v = true)) := by
    intro u v
    rw [reverseReduced_get_wf n r m hw]
    by_cases h : u < r ∧ v < r
    · rw [if_pos h]
      constructor
      · intro h3; exact Or.inl ⟨h.1, h.2, h3⟩
      · rintro (⟨_, _, h3⟩ | ⟨h1, _⟩)
        · exact h3
        · exact absurd h.1 h1
    · rw [if_neg h]
      constructor
      · intro h3
        refine Or.inr ⟨fun hu => h ⟨hu, (hside _ _ h3).mp hu⟩, h3⟩
      · rintro (⟨h1, h2, _⟩ | ⟨_, h3⟩)
        · exact absurd ⟨h1, h2⟩ h
        · exact h3
  have key := transGen_dual_iff (fun u => u < r) (fun u v => m.get u v = true)
    (fun u v => (AdjacencyMatrix.reverseReduced n r m).get u v = true) hside hR u v
  have hs := transGen_side (fun u => u < r) (fun u v => m.get u v = true) hside
  rw [Bool.eq_iff_iff, closure_spec n _ (reverseReduced_wf n r m), key]
  by_cases h : u < r ∧ v < r
  · rw [if_pos h, closure_spec n m hw]
    constructor
    · rintro (⟨_, _, h3⟩ | ⟨h1, _, _⟩)
      · exact h3
      · exact absurd h.1 h1
    · intro h3; exact Or.inl ⟨h.1, h.2, h3⟩
  · rw [if_neg h, closure_spec n m hw]
    constructor
    · rintro (⟨h1, h2, _⟩ | ⟨_, _, h3⟩)
      · exact absurd ⟨h1, h2⟩ h
      · exact h3
    · intro h3
      have hiff := hs u v h3
      exact Or.inr ⟨fun hu => h ⟨hu, hiff.mp hu⟩, fun hv => h ⟨hiff.mpr hv, hv⟩, h3⟩

theorem closure_side (n r : Nat) (m : AdjacencyMatrix) (hw : AdjacencyMatrix.wf n m = true)
    (hside : ∀ u v, m.get u v = true → (u < r ↔ v < r)) (u v : Nat)
    (h : (AdjacencyMatrix.TransitiveClosure n m).get u v = true) : u < r ↔ v < r :=
  transGen_side (fun u => u < r) (fun u v => m.get u v = true) hside u v
    ((closure_spec n m hw u v).mp h)

theorem dual_closure_low (n r : Nat) (m : AdjacencyMatrix) (hw : AdjacencyMatrix.wf n m = true)
    (hside : ∀ u v, m.get u v = true → (u < r ↔ v < r)) (v : Nat) (hv : v < r) (u : Nat) :
    (AdjacencyMatrix.TransitiveClosure n (AdjacencyMatrix.reverseReduced n r m)).get v u =
      (AdjacencyMatrix.TransitiveClosure n m).get u v ∧
    (AdjacencyMatrix.TransitiveClosure n (AdjacencyMatrix.reverseReduced n r m)).get u v =
      (AdjacencyMatrix.TransitiveClosure n m).get v u := by
  rw [dual_closure_get n r m hw hside, dual_closure_get n r m hw hside]
  by_cases hu : u < r
  · rw [if_pos ⟨hv, hu⟩, if_pos ⟨hu, hv⟩]
    exact ⟨rfl, rfl⟩
  · rw [if_neg (fun h => hu h.2), if_neg (fun h => hu h.1)]
    have h1 : (AdjacencyMatrix.TransitiveClosure n m).get v u = false := by
      cases h : (AdjacencyMatrix.TransitiveClosure n m).get v u with
      | false => rfl
      | true => exact absurd ((closure_side n r m hw hside v u h).mp hv) hu
    have h2 : (AdjacencyMatrix.TransitiveClosure n m).get u v = false := by
      cases h : (AdjacencyMatrix.TransitiveClosure n m).get u v with
      | false => rfl
      | true => exact absurd ((closure_side n r m hw hside u v h).mpr hv) hu
    rw [h1, h2]
    exact ⟨rfl, rfl⟩

theorem dual_isDag (n r : Nat) (m : AdjacencyMatrix) (hw : AdjacencyMatrix.wf n m = true)
    (hd : AdjacencyMatrix.isDag n m = true)
    (hside : ∀ u v, m.get u v = true → (u < r ↔ v < r)) :
    AdjacencyMatrix.isDag n (AdjacencyMatrix.reverseReduced n r m) = true := by
  unfold AdjacencyMatrix.isDag
  rw [List.all_eq_true]
  intro i hi
  rw [dual_closure_get n r m hw hside, ite_self,
    isDag_irrefl n m hd i (List.mem_range.mp hi)]
  rfl


theorem streamIds_length (n r : Nat) (g : NiceGraph) (rev : Bool) :
    (streamIds n r g rev).length = r := by
  unfold streamIds
  simp only []
  induction (n / 3) with
  | zero => simp
  | succ k ih =>
    rw [List.range_succ, List.foldl_append, List.foldl_cons, List.foldl_nil]
    unfold canonRound
    rw [List.length_map, List.length_range]

theorem dual_lists (n r : Nat) (m : AdjacencyMatrix) (hw : AdjacencyMatrix.wf n m = true)
    (hn : n ≤ 32) (hside : ∀ u v, m.get u v = true → (u < r ↔ v < r)) (v : Nat) (hv : v < r) :
    (AdjacencyMatrix.writeToGraph n (AdjacencyMatrix.TransitiveClosure n
        (AdjacencyMatrix.reverseReduced n r m))).outLists.getD v [] =
      (AdjacencyMatrix.writeToGraph n (AdjacencyMatrix.TransitiveClosure n m)).inLists.getD v []
      ∧
    (AdjacencyMatrix.writeToGraph n (AdjacencyMatrix.TransitiveClosure n
        (AdjacencyMatrix.reverseReduced n r m))).inLists.getD v [] =
      (AdjacencyMatrix.writeToGraph n (AdjacencyMatrix.TransitiveClosure n m)).outLists.getD v []
      := by
  have hw' := closure_wf n _ (reverseReduced_wf n r m)
  have hwc := closure_wf n m hw
  rw [writeToGraph_out n _ hw' hn, writeToGraph_in n _ hw', writeToGraph_out n _ hwc hn,
    writeToGraph_in n _ hwc]
  constructor
  · apply List.filter_congr
    intro u _
    exact (dual_closure_low n r m hw hside v hv u).1
  · apply List.filter_congr
    intro u _
    exact (dual_closure_low n r m hw hside v hv u).2

/-- The refined ids of a stream of the dual graph are those of the other stream of the
graph. -/
theorem dual_streamIds (n r : Nat) (m : AdjacencyMatrix) (hw : AdjacencyMatrix.wf n m = true)
    (hn : n ≤ 32) (hside : ∀ u v, m.get u v = true → (u < r ↔ v < r)) (rev : Bool) :
    streamIds n r (AdjacencyMatrix.writeToGraph n (AdjacencyMatrix.TransitiveClosure n
        (AdjacencyMatrix.reverseReduced n r m))) rev =
      streamIds n r (AdjacencyMatrix.writeToGraph n (AdjacencyMatrix.TransitiveClosure n m))
        (!rev) := by
  have hid : Relabel r (fun u => u) := ⟨by rw [List.map_id'], fun _ _ => rfl⟩
  have h := streamIds_equiv n r (fun u => u) hid
    (AdjacencyMatrix.writeToGraph n (AdjacencyMatrix.TransitiveClosure n m))
    (AdjacencyMatrix.writeToGraph n (AdjacencyMatrix.TransitiveClosure n
        (AdjacencyMatrix.reverseReduced n r m))) (!rev) rev
    (by
      intro v hv
      obtain ⟨h1, h2⟩ := dual_lists n r m hw hn hside v hv
      rw [h1, h2, List.map_id']
      exact List.perm_append_comm)
    (by
      intro v hv
      obtain ⟨h1, h2⟩ := dual_lists n r m hw hn hside v hv
      rw [h1, h2]
      cases rev <;> rfl)
    (by
      intro v hv
      obtain ⟨h1, h2⟩ := dual_lists n r m hw hn hside v hv
      rw [h1, h2]
      cases rev <;> rfl)
  apply List.ext_getElem
  · rw [streamIds_length, streamIds_length]
  · intro i h1 h2
    have := h i
    rw [List.getD_eq_getElem _ _ h1, List.getD_eq_getElem _ _ h2] at this
    exact this

theorem layerSem_congr (R R' : Nat → Nat → Bool) (avail : List Nat)
    (h : ∀ u v, u ∈ avail → v ∈ avail → R' u v = R u v) :
    layerSem R' avail = layerSem R avail := by
  unfold layerSem
  apply List.filter_congr
  intro j hj
  rw [Bool.eq_iff_iff, List.all_eq_true, List.all_eq_true]
  constructor
  · intro h1 u hu
    rw [← h j u hj hu]
    exact h1 u hu
  · intro h1 u hu
    rw [h j u hj hu]
    exact h1 u hu

theorem layersSem_congr (R R' : Nat → Nat → Bool) :
    ∀ fuel (avail : List Nat), (∀ u v, u ∈ avail → v ∈ avail → R' u v = R u v) →
      layersSem R' fuel avail = layersSem R fuel avail := by
  intro fuel
  induction fuel with
  | zero => intro _ _; rfl
  | succ fuel ih =>
    intro avail h
    unfold layersSem
    rw [layerSem_congr R R' avail h]
    by_cases h0 : avail = []
    · rw [if_pos h0, if_pos h0]
    · rw [if_neg h0, if_neg h0]
      congr 1
      apply ih
      intro u v hu hv
      exact h u v (List.mem_filter.mp hu).1 (List.mem_filter.mp hv).1

/-- The layer decomposition reads the matrix on the vertices below `reduced_N` only. -/
theorem layers_congr (m m' : AdjacencyMatrix) (r MAXN : Nat) (hr : r ≤ 32)
    (h : ∀ u v, u < r → v < r → m'.get u v = m.get u v) :
    AdjacencyMatrix.getLayerStructureRev MAXN m' r =
      AdjacencyMatrix.getLayerStructureRev MAXN m r := by
  have hmask : (1 <<< r) - 1 < 2 ^ r := by
    rw [Nat.shiftLeft_eq, one_mul]
    exact Nat.sub_lt (by positivity) (by norm_num)
  unfold AdjacencyMatrix.getLayerStructureRev
  rw [layers_eq m r hr MAXN _ hmask, layers_eq m' r hr MAXN _ hmask]
  apply layersSem_congr
  intro u v hu hv
  exact h u v (List.mem_range.mp (List.mem_filter.mp hu).1)
    (List.mem_range.mp (List.mem_filter.mp hv).1)


theorem dual_streamPermutation (cfg : NCT) (m : AdjacencyMatrix) (info : PosetInfo)
    (hw : AdjacencyMatrix.wf cfg.N m = true) (hn : cfg.N ≤ 32)
    (hr : info.GetReducedN cfg ≤ cfg.N)
    (hside : ∀ u v, m.get u v = true → (u < info.GetReducedN cfg ↔ v < info.GetReducedN cfg))
    (rev : Bool) :
    streamPermutation cfg
        (AdjacencyMatrix.TransitiveClosure cfg.N
          (AdjacencyMatrix.reverseReduced cfg.N (info.GetReducedN cfg) m)) info
        (AdjacencyMatrix.writeToGraph cfg.N (AdjacencyMatrix.TransitiveClosure cfg.N
          (AdjacencyMatrix.reverseReduced cfg.N (info.GetReducedN cfg) m))) rev =
      streamPermutation cfg (AdjacencyMatrix.TransitiveClosure cfg.N m) info
        (AdjacencyMatrix.writeToGraph cfg.N (AdjacencyMatrix.TransitiveClosure cfg.N m))
        (!rev) := by
  unfold streamPermutation
  rw [dual_streamIds cfg.N _ m hw hn hside rev]
  congr 2
  apply layers_congr _ _ _ _ (by omega)
  intro u v hu hv
  obtain ⟨h1, _⟩ := dual_closure_low cfg.N _ m hw hside u hu v
  obtain ⟨h2, _⟩ := dual_closure_low cfg.N _ m hw hside v hv u
  cases rev with
  | false =>
    simp only [Bool.not_false, if_true, Bool.false_eq_true, if_false]
    rw [reverse_get, decide_eq_true (show u < cfg.N by omega),
      decide_eq_true (show v < cfg.N by omega), h2]
    rfl
  | true =>
    simp only [Bool.not_true, if_true, Bool.false_eq_true, if_false]
    rw [reverse_get, decide_eq_true (show u < cfg.N by omega),
      decide_eq_true (show v < cfg.N by omega), h1]
    rfl

theorem dual_streamSeq (cfg : NCT) (m : AdjacencyMatrix) (info : PosetInfo)
    (hw : AdjacencyMatrix.wf cfg.N m = true) (hn : cfg.N ≤ 32)
    (hr : info.GetReducedN cfg ≤ cfg.N)
    (hside : ∀ u v, m.get u v = true → (u < info.GetReducedN cfg ↔ v < info.GetReducedN cfg))
    (rev : Bool) :
    streamSeq cfg
        (AdjacencyMatrix.TransitiveClosure cfg.N
          (AdjacencyMatrix.reverseReduced cfg.N (info.GetReducedN cfg) m)) info
        (AdjacencyMatrix.writeToGraph cfg.N (AdjacencyMatrix.TransitiveClosure cfg.N
          (AdjacencyMatrix.reverseReduced cfg.N (info.GetReducedN cfg) m))) rev =
      streamSeq cfg (AdjacencyMatrix.TransitiveClosure cfg.N m) info
        (AdjacencyMatrix.writeToGraph cfg.N (AdjacencyMatrix.TransitiveClosure cfg.N m))
        (!rev) := by
  unfold streamSeq
  rw [dual_streamIds cfg.N _ m hw hn hside rev, dual_streamPermutation cfg m info hw hn hr hside]

/-- The graph bits of a stream of the dual graph are those of the other stream of the
graph. -/
theorem dual_streamGraph (cfg : NCT) (m : AdjacencyMatrix) (info : PosetInfo)
    (hw : AdjacencyMatrix.wf cfg.N m = true) (hd : AdjacencyMatrix.isDag cfg.N m = true)
    (hN : cfg.N ≤ cfg.MAXN) (hM : cfg.MAXN ≤ 32)
    (hr : info.GetReducedN cfg ≤ cfg.N)
    (hside : ∀ u v, m.get u v = true → (u < info.GetReducedN cfg ↔ v < info.GetReducedN cfg))
    (rev : Bool) :
    streamGraph cfg (AdjacencyMatrix.reverseReduced cfg.N (info.GetReducedN cfg) m)
        (AdjacencyMatrix.TransitiveClosure cfg.N
          (AdjacencyMatrix.reverseReduced cfg.N (info.GetReducedN cfg) m)) info
        (AdjacencyMatrix.writeToGraph cfg.N (AdjacencyMatrix.TransitiveClosure cfg.N
          (AdjacencyMatrix.reverseReduced cfg.N (info.GetReducedN cfg) m))) rev =
      streamGraph cfg m (AdjacencyMatrix.TransitiveClosure cfg.N m) info
        (AdjacencyMatrix.writeToGraph cfg.N (AdjacencyMatrix.TransitiveClosure cfg.N m))
        (!rev) := by
  have hp := fun rev => (streamPermutation_eq cfg m info
    (AdjacencyMatrix.writeToGraph cfg.N (AdjacencyMatrix.TransitiveClosure cfg.N m)) rev hw hd
    (by omega) hM).2
  unfold streamGraph
  cases rev with
  | false =>
    simp only [Bool.not_false, if_true, Bool.false_eq_true, if_false]
    rw [dual_streamPermutation cfg m info hw (by omega) hr hside false]
    obtain ⟨hl, hlt, _⟩ := perm_getD_facts _ _ (hp true)
    unfold PosetObj.SetgraphPermutation PosetObj.SetgraphPermutationReverse
    simp only [Bool.not_false]
    rw [setGraphLoop_congr cfg.MAXN _ _
      (fun i j => m.get
        ((streamPermutation cfg (AdjacencyMatrix.TransitiveClosure cfg.N m) info
          (AdjacencyMatrix.writeToGraph cfg.N (AdjacencyMatrix.TransitiveClosure cfg.N m))
          true).getD j 0)
        ((streamPermutation cfg (AdjacencyMatrix.TransitiveClosure cfg.N m) info
          (AdjacencyMatrix.writeToGraph cfg.N (AdjacencyMatrix.TransitiveClosure cfg.N m))
          true).getD i 0))]
    intro i j hij hj
    rw [hl] at hj
    rw [reverseReduced_get_wf cfg.N _ m hw, if_pos ⟨hlt i (by omega), hlt j hj⟩]
  | true =>
    simp only [Bool.not_true, if_true, Bool.false_eq_true, if_false]
    rw [dual_streamPermutation cfg m info hw (by omega) hr hside true]
    obtain ⟨hl, hlt, _⟩ := perm_getD_facts _ _ (hp false)
    unfold PosetObj.SetgraphPermutation PosetObj.SetgraphPermutationReverse
    simp only [Bool.not_true]
    rw [setGraphLoop_congr cfg.MAXN _ _
      (fun i j => m.get
        ((streamPermutation cfg (AdjacencyMatrix.TransitiveClosure cfg.N m) info
          (AdjacencyMatrix.writeToGraph cfg.N (AdjacencyMatrix.TransitiveClosure cfg.N m))
          false).getD i 0)
        ((streamPermutation cfg (AdjacencyMatrix.TransitiveClosure cfg.N m) info
          (AdjacencyMatrix.writeToGraph cfg.N (AdjacencyMatrix.TransitiveClosure cfg.N m))
          false).getD j 0))]
    intro i j hij hj
    rw [hl] at hj
    rw [reverseReduced_get_wf cfg.N _ m hw, if_pos ⟨hlt j hj, hlt i (by omega)⟩]


theorem ext_surj (perm : List Nat) (r n : Nat) (hr : r ≤ n) (hp : perm.Perm (List.range r))
    (w : Nat) (hw : w < n) :
    ∃ k, k < n ∧ (extendPermutation perm n).getD k 0 = w := by
  have hperm := extend_perm perm r n hr hp
  have hmem : w ∈ extendPermutation perm n := hperm.mem_iff.mpr (List.mem_range.mpr hw)
  obtain ⟨k, hk, he⟩ := List.getElem_of_mem hmem
  have hlen : (extendPermutation perm n).length = n := extend_length perm r n hr hp
  exact ⟨k, by omega, by rw [List.getD_eq_getElem _ _ hk]; exact he⟩

theorem ext_lt (perm : List Nat) (r n : Nat) (hr : r ≤ n) (hp : perm.Perm (List.range r))
    (k : Nat) (hk : k < n) : (extendPermutation perm n).getD k 0 < n := by
  have hperm := extend_perm perm r n hr hp
  have hlen : (extendPermutation perm n).length = n := extend_length perm r n hr hp
  rw [List.getD_eq_getElem _ _ (by omega)]
  exact List.mem_range.mp (hperm.mem_iff.mp (List.getElem_mem _))

/-- An order-reversing correspondence of the closure carries the covering edges to the
reversed covering edges. -/
theorem anti_cover (n r : Nat) (m : AdjacencyMatrix) (hw : AdjacencyMatrix.wf n m = true)
    (hred : AdjacencyMatrix.isReduced n m = true) (p q : List Nat) (hr : r ≤ n)
    (hp : p.Perm (List.range r)) (hq : q.Perm (List.range r))
    (h : ∀ i j, i < n → j < n →
      (AdjacencyMatrix.TransitiveClosure n m).get
          ((extendPermutation p n).getD i 0) ((extendPermutation p n).getD j 0) =
        (AdjacencyMatrix.TransitiveClosure n m).get
          ((extendPermutation q n).getD j 0) ((extendPermutation q n).getD i 0))
    (i j : Nat) (hi : i < n) (hj : j < n) :
    m.get ((extendPermutation p n).getD i 0) ((extendPermutation p n).getD j 0) =
      m.get ((extendPermutation q n).getD j 0) ((extendPermutation q n).getD i 0) := by
  have hcw := closure_wf n m hw
  rw [Bool.eq_iff_iff, cover_iff n m hw hred, cover_iff n m hw hred, h i j hi hj]
  constructor
  · rintro ⟨h1, hno⟩
    refine ⟨h1, ?_⟩
    rintro w ⟨a, b⟩
    obtain ⟨k, hk, rfl⟩ := ext_surj q r n hr hq w (wf_get_lt n _ hcw _ _ a).2
    rw [← h k j hk hj] at a
    rw [← h i k hi hk] at b
    exact hno _ ⟨b, a⟩
  · rintro ⟨h1, hno⟩
    refine ⟨h1, ?_⟩
    rintro w ⟨a, b⟩
    obtain ⟨k, hk, rfl⟩ := ext_surj p r n hr hp w (wf_get_lt n _ hcw _ _ a).2
    rw [h i k hi hk] at a
    rw [h k j hk hj] at b
    exact hno _ ⟨b, a⟩

/-- When the reordered closure of the forward stream equals the reordered reversed closure
of the reverse stream, both streams serialize the same graph bits. -/
theorem selfdual_streamGraph (cfg : NCT) (m : AdjacencyMatrix) (info : PosetInfo)
    (g : NiceGraph)
    (hw : AdjacencyMatrix.wf cfg.N m = true) (hd : AdjacencyMatrix.isDag cfg.N m = true)
    (hred : AdjacencyMatrix.isReduced cfg.N m = true)
    (hN : cfg.N ≤ cfg.MAXN) (hM : cfg.MAXN ≤ 32)
    (hr : info.GetReducedN cfg ≤ cfg.N)
    (h : AdjacencyMatrix.reorder cfg.N (AdjacencyMatrix.TransitiveClosure cfg.N m)
        (streamPermutation cfg (AdjacencyMatrix.TransitiveClosure cfg.N m) info g false) =
      AdjacencyMatrix.reorder cfg.N
        (AdjacencyMatrix.reverse cfg.N (AdjacencyMatrix.TransitiveClosure cfg.N m))
        (streamPermutation cfg (AdjacencyMatrix.TransitiveClosure cfg.N m) info g true)) :
    streamGraph cfg m (AdjacencyMatrix.TransitiveClosure cfg.N m) info g false =
      streamGraph cfg m (AdjacencyMatrix.TransitiveClosure cfg.N m) info g true := by
  have hp := fun rev => (streamPermutation_eq cfg m info g rev hw hd (by omega) hM).2
  obtain ⟨hlf, _, _⟩ := perm_getD_facts _ _ (hp false)
  obtain ⟨hlb, _, _⟩ := perm_getD_facts _ _ (hp true)
  rw [reorder_eq_iff] at h
  have h' : ∀ i j, i < cfg.N → j < cfg.N →
      (AdjacencyMatrix.TransitiveClosure cfg.N m).get
          ((extendPermutation (streamPermutation cfg (AdjacencyMatrix.TransitiveClosure cfg.N m)
            info g false) cfg.N).getD i 0)
          ((extendPermutation (streamPermutation cfg (AdjacencyMatrix.TransitiveClosure cfg.N m)
            info g false) cfg.N).getD j 0) =
        (AdjacencyMatrix.TransitiveClosure cfg.N m).get
          ((extendPermutation (streamPermutation cfg (AdjacencyMatrix.TransitiveClosure cfg.N m)
            info g true) cfg.N).getD j 0)
          ((extendPermutation (streamPermutation cfg (AdjacencyMatrix.TransitiveClosure cfg.N m)
            info g true) cfg.N).getD i 0) := by
    intro i j hi hj
    rw [h i j hi hj, reverse_get,
      decide_eq_true (ext_lt _ _ cfg.N hr (hp true) i hi),
      decide_eq_true (ext_lt _ _ cfg.N hr (hp true) j hj)]
    rfl
  have hc := anti_cover cfg.N _ m hw hred _ _ hr (hp false) (hp true) h'
  unfold streamGraph
  simp only [if_true, Bool.false_eq_true, if_false]
  unfold PosetObj.SetgraphPermutation PosetObj.SetgraphPermutationReverse
  rw [hlf, hlb]
  rw [setGraphLoop_congr cfg.MAXN (info.GetReducedN cfg) _
    (fun i j => m.get
      ((streamPermutation cfg (AdjacencyMatrix.TransitiveClosure cfg.N m) info g true).getD j 0)
      ((streamPermutation cfg (AdjacencyMatrix.TransitiveClosure cfg.N m) info g
        true).getD i 0))]
  intro i j hij hj
  have := hc i j (by omega) (by omega)
  simp only [extendPermutation_getD, hlf, hlb,
    if_pos (show i < info.GetReducedN cfg by omega), if_pos hj] at this
  exact this

theorem lexicographical_compare_total (a b : List Nat)
    (h1 : lexicographical_compare a b = false) (h2 : a ≠ b) :
    lexicographical_compare b a = true := by
  rw [lexicographical_compare_iff]
  rcases lt_trichotomy a b with h | h | h
  · rw [(lexicographical_compare_iff a b).mpr h] at h1
    exact absurd h1 (by decide)
  · exact absurd h h2
  · exact h

theorem not_selfdual_reorder (cfg : NCT) (adMatrix closure : AdjacencyMatrix)
    (info : PosetInfo) (poset : PosetObj) (g : NiceGraph)
    (hsd : (reorderGraphCanonically cfg adMatrix closure info poset g).selfdualId = false)
    (hlex : lexicographical_compare (streamSeq cfg closure info g false)
      (streamSeq cfg closure info g true) = false)
    (heq : streamSeq cfg closure info g false = streamSeq cfg closure info g true) :
    AdjacencyMatrix.reorder cfg.N closure (streamPermutation cfg closure info g false) =
      AdjacencyMatrix.reorder cfg.N (AdjacencyMatrix.reverse cfg.N closure)
        (streamPermutation cfg closure info g true) := by
  by_contra hne
  unfold reorderGraphCanonically at hsd
  unfold streamSeq streamPermutation at hlex heq
  unfold streamPermutation at hne
  simp only [streamIds_fw, streamIds_bw, if_true, Bool.false_eq_true, if_false] at hlex heq hne
  simp only at hsd
  rw [hlex] at hsd
  simp only [Bool.false_eq_true, if_false] at hsd
  rw [(setgraphPermutation_flags _ _ _ _ _).1] at hsd
  rw [if_pos heq] at hsd
  split_ifs at hsd


theorem layout_side (cfg : NCT) (info : PosetInfo) (m : AdjacencyMatrix)
    (hw : AdjacencyMatrix.wf cfg.N m = true) (hn : cfg.N ≤ 32)
    (hv : 2 * info.numPairs + info.numSingletons ≤ cfg.N)
    (hlay : InputLayout cfg info m) (u v : Nat) (h : m.get u v = true) :
    u < info.GetReducedN cfg ↔ v < info.GetReducedN cfg := by
  have hr : info.GetReducedN cfg = cfg.N - info.numSingletons - 2 * info.numPairs := by
    unfold PosetInfo.GetReducedN
    rw [show (2 : Nat) ^ 32 = 4294967296 by norm_num]
    omega
  obtain ⟨hu, hv'⟩ := wf_get_lt cfg.N m hw u v h
  rw [hr]
  by_cases hc : cfg.N - info.numSingletons - 2 * info.numPairs ≤ u ∨
      cfg.N - info.numSingletons - 2 * info.numPairs ≤ v
  · rcases (hlay u v hu hv' hc).mp h with ⟨_, h1, h2⟩ | ⟨_, h1, h2⟩ <;> omega
  · omega

/-- C37: canonicalization identifies a stored poset with its dual.  For a transitively
reduced acyclic graph in the layout of its `PosetInfo` whose canonical record is not marked
`selfdualId` (in particular when it is marked `uniqueGraph` and not `selfdualId`), the graph
with every edge among the reduced vertices reversed gets the same graph bits: the two
streams of the dual are the streams of the graph exchanged, so the direction choice picks
the same serialization, and when the two id sequences are equal the unmarked record has
equal reordered closures, so both serializations coincide. -/
theorem canonical_dual (cfg : NCT) (adMatrix : AdjacencyMatrix) (info : PosetInfo)
    (poset poset' : PosetObj)
    (hw : AdjacencyMatrix.wf cfg.N adMatrix = true)
    (hd : AdjacencyMatrix.isDag cfg.N adMatrix = true)
    (hred : AdjacencyMatrix.isReduced cfg.N adMatrix = true)
    (hN : cfg.N ≤ cfg.MAXN) (hM : cfg.MAXN ≤ 32)
    (hv : 2 * info.numPairs + info.numSingletons ≤ cfg.N)
    (hlay : InputLayout cfg info adMatrix)
    (hsd : (reorderGraphCanonically cfg adMatrix
      (AdjacencyMatrix.TransitiveClosure cfg.N adMatrix) info poset
      (AdjacencyMatrix.writeToGraph cfg.N
        (AdjacencyMatrix.TransitiveClosure cfg.N adMatrix))).selfdualId = false) :
    (reorderGraphCanonically cfg
      (AdjacencyMatrix.reverseReduced cfg.N (info.GetReducedN cfg) adMatrix)
      (AdjacencyMatrix.TransitiveClosure cfg.N
        (AdjacencyMatrix.reverseReduced cfg.N (info.GetReducedN cfg) adMatrix)) info poset'
      (AdjacencyMatrix.writeToGraph cfg.N
        (AdjacencyMatrix.TransitiveClosure cfg.N
          (AdjacencyMatrix.reverseReduced cfg.N (info.GetReducedN cfg) adMatrix)))).graph =
    (reorderGraphCanonically cfg adMatrix
      (AdjacencyMatrix.TransitiveClosure cfg.N adMatrix) info poset
      (AdjacencyMatrix.writeToGraph cfg.N
        (AdjacencyMatrix.TransitiveClosure cfg.N adMatrix))).graph := by
  have hn : cfg.N ≤ 32 := by omega
  have hr : info.GetReducedN cfg ≤ cfg.N := by
    unfold PosetInfo.GetReducedN
    rw [show (2 : Nat) ^ 32 = 4294967296 by norm_num]
    omega
  have hside := layout_side cfg info adMatrix hw hn hv hlay
  rw [reorderGraphCanonically_graph, reorderGraphCanonically_graph,
    dual_streamSeq cfg adMatrix info hw hn hr hside false,
    dual_streamSeq cfg adMatrix info hw hn hr hside true,
    dual_streamGraph cfg adMatrix info hw hd hN hM hr hside]
  simp only [Bool.not_false, Bool.not_true]
  cases hlex : lexicographical_compare
      (streamSeq cfg (AdjacencyMatrix.TransitiveClosure cfg.N adMatrix) info
        (AdjacencyMatrix.writeToGraph cfg.N (AdjacencyMatrix.TransitiveClosure cfg.N adMatrix))
        false)
      (streamSeq cfg (AdjacencyMatrix.TransitiveClosure cfg.N adMatrix) info
        (AdjacencyMatrix.writeToGraph cfg.N (AdjacencyMatrix.TransitiveClosure cfg.N adMatrix))
        true) with
  | true =>
    rw [lexicographical_compare_asymm _ _ hlex]
    rfl
  | false =>
    by_cases heq : streamSeq cfg (AdjacencyMatrix.TransitiveClosure cfg.N adMatrix) info
        (AdjacencyMatrix.writeToGraph cfg.N (AdjacencyMatrix.TransitiveClosure cfg.N adMatrix))
        false =
      streamSeq cfg (AdjacencyMatrix.TransitiveClosure cfg.N adMatrix) info
        (AdjacencyMatrix.writeToGraph cfg.N (AdjacencyMatrix.TransitiveClosure cfg.N adMatrix))
        true
    · have hre := not_selfdual_reorder cfg adMatrix _ info poset _ hsd hlex heq
      have hg := selfdual_streamGraph cfg adMatrix info _ hw hd hred hN hM hr hre
      rw [← heq] at hlex ⊢
      rw [hlex]
      exact hg.symm
    · rw [lexicographical_compare_total _ _ hlex heq]
      rfl

theorem canonical_dual_witness :
    AdjacencyMatrix.reverseReduced 4 (PosetInfo.GetReducedN ⟨4, 4, 5⟩ ⟨1, 0⟩) [6, 0, 0, 0] =
      [0, 1, 1, 0] ∧
    (reorderGraphCanonically ⟨4, 4, 5⟩
      (AdjacencyMatrix.reverseReduced 4 (PosetInfo.GetReducedN ⟨4, 4, 5⟩ ⟨1, 0⟩) [6, 0, 0, 0])
      (AdjacencyMatrix.TransitiveClosure 4
        (AdjacencyMatrix.reverseReduced 4 (PosetInfo.GetReducedN ⟨4, 4, 5⟩ ⟨1, 0⟩)
          [6, 0, 0, 0])) ⟨1, 0⟩ PosetObj.new
      (AdjacencyMatrix.writeToGraph 4
        (AdjacencyMatrix.TransitiveClosure 4
          (AdjacencyMatrix.reverseReduced 4 (PosetInfo.GetReducedN ⟨4, 4, 5⟩ ⟨1, 0⟩)
            [6, 0, 0, 0])))).graph =
    (reorderGraphCanonically ⟨4, 4, 5⟩ [6, 0, 0, 0]
      (AdjacencyMatrix.TransitiveClosure 4 [6, 0, 0, 0]) ⟨1, 0⟩ PosetObj.new
      (AdjacencyMatrix.writeToGraph 4 (AdjacencyMatrix.TransitiveClosure 4 [6, 0, 0, 0]))).graph ∧
    (reorderGraphCanonically ⟨4, 4, 5⟩ [6, 0, 0, 0]
      (AdjacencyMatrix.TransitiveClosure 4 [6, 0, 0, 0]) ⟨1, 0⟩ PosetObj.new
      (AdjacencyMatrix.writeToGraph 4
        (AdjacencyMatrix.TransitiveClosure 4 [6, 0, 0, 0]))).uniqueGraph = true :=
  ⟨by decide,
    canonical_dual ⟨4, 4, 5⟩ [6, 0, 0, 0] ⟨1, 0⟩ PosetObj.new PosetObj.new
      (by decide!) (by decide!) (by decide!) (by decide) (by decide) (by decide)
      (by
        intro u v hu hv huv
        have hu4 : u < 4 := hu
        have hv4 : v < 4 := hv
        have h3 : 3 ≤ u ∨ 3 ≤ v := huv
        show AdjacencyMatrix.get [6, 0, 0, 0] u v = true ↔
          (1 ≤ 0 ∧ u = 3 ∧ v = 3 + 1) ∨ (0 = 2 ∧ u = 3 + 2 ∧ v = 3 + 3)
        interval_cases u <;> interval_cases v <;> first | omega | decide)
      (by decide!),
    by decide!⟩



/-- The lambda `checkChild` classifies a child as the specification resolves it. -/
theorem checkChild_eq_resolution (cfg : NCT) (childLayerCompleteAbove : Nat)
    (childMapBW : PosetMap) (childMapOld : OldGenMap) (child : AnnotatedPosetObj)
    (linExt : Nat) :
    checkChild cfg childLayerCompleteAbove childMapBW childMapOld child linExt =
      childResolution cfg childLayerCompleteAbove childMapBW childMapOld child linExt := by
  unfold checkChild childResolution
  simp only
  cases hold : childMapOld.find cfg child with
  | none =>
    by_cases hl : linExt ≥ childLayerCompleteAbove
    · rw [if_pos hl, if_pos hl]
      cases hbw : childMapBW.find cfg child with
      | none => simp
      | some si =>
        obtain ⟨shard, index⟩ := si
        simp only
        split_ifs <;> simp_all
    · rw [if_neg hl, if_neg hl]
      simp
  | some r =>
    by_cases hl : linExt ≥ childLayerCompleteAbove
    · rw [if_pos hl, if_pos hl]
      cases hbw : childMapBW.find cfg child with
      | none => simp
      | some si =>
        obtain ⟨shard, index⟩ := si
        simp only
        split_ifs <;> simp_all
    · rw [if_neg hl, if_neg hl]
      simp only [Option.map_some']
      split_ifs <;> simp_all

/-- The control flow of `exploreComparison` classifies a comparison as the specification
does and enters the children that are not yet known. -/
theorem comparisonVerdict_eq_class (cfg : NCT) (parentC : Nat) (childLayerCompleteAbove : Nat)
    (childMapBW : PosetMap) (childMapOld : OldGenMap) (parent : AnnotatedPosetObj)
    (c : ComparisonTuple) :
    comparisonVerdict cfg parentC childLayerCompleteAbove childMapBW childMapOld parent c =
      comparisonClass cfg parentC childLayerCompleteAbove childMapBW childMapOld parent c := by
  unfold comparisonVerdict verdictSecond comparisonClass childClass
  simp only [← checkChild_eq_resolution]
  generalize isEasilySortableLinExt (remainingComparisonsChild cfg parentC) c.lin1 = e1
  generalize isEasilySortableLinExt (remainingComparisonsChild cfg parentC) c.lin2 = e2
  generalize (ExpandedPosetChild.ofParent cfg parent.poset parent.info c.lin1 c.k1
    c.k2).isEasilySortableUnrelatedPairs cfg (remainingComparisonsChild cfg parentC) = u1
  generalize (ExpandedPosetChild.ofParent cfg parent.poset parent.info c.lin2 c.k2
    c.k1).isEasilySortableUnrelatedPairs cfg (remainingComparisonsChild cfg parentC) = u2
  generalize checkChild cfg childLayerCompleteAbove childMapBW childMapOld
    ((ExpandedPosetChild.ofParent cfg parent.poset parent.info c.lin1 c.k1 c.k2).getHandle cfg)
    c.lin1 = ck1
  generalize checkChild cfg childLayerCompleteAbove childMapBW childMapOld
    ((ExpandedPosetChild.ofParent cfg parent.poset parent.info c.lin2 c.k2 c.k1).getHandle cfg)
    c.lin2 = ck2
  generalize c.singletonComp = sc
  cases e1 <;> cases e2 <;> cases sc <;> cases u1 <;> cases u2 <;> cases ck1 <;> cases ck2 <;>
    simp


/-- C22: in phase 1, `processPoset` sets an `UNFINISHED` parent to `NO` if its `linExt`
exceeds `2·limit` or if every feasible comparison is classified `UNSORTABLE` (a child is
resolved `NO`), sets it to `YES` when one comparison has both children resolved sortable, and
otherwise leaves it `UNFINISHED` and appends an edge list with its size cell and exactly one
pair of child positions per `INDETERMINATE` comparison, in their order, the pair being
degenerate when only one child is not yet known.  The classification `comparisonClass` is
that of the specification, from the resolution of the children in the BW map and the old-gen
map; the control flow of `exploreComparison` computes it, and the lambda `checkChild`
resolves a child as `childResolution` does: a BW or old-gen record resolved `YES` makes the
child sortable, one resolved `NO` makes it unsortable, and a child with
`linExt ≥ childLayerCompleteAbove` that is missing from the BW map is classified unsortable.
The call fails only when an entry into the child map fails. -/
theorem processPoset_phase1_spec (cfg : NCT) (sp : SearchParams) (parentC limit : Nat)
    (childLayerCompleteAbove : Nat) (childMapBW : PosetMap) (childMapOld : OldGenMap)
    (s : Phase1) (entryIdx linExt : Nat) (table : Nat → Nat → Nat)
    (parent : AnnotatedPosetObj) (comps : List ComparisonTuple)
    (hparent : parent = s.posetList.getD entryIdx AnnotatedPosetObj.new)
    (hcomps : comps = enumerateComparisons cfg parent.info table limit)
    (hidx : entryIdx < s.posetList.length)
    (hU : statusAt s.posetList entryIdx = SortableStatus.UNFINISHED)
    (hcalc : calculateLinExtensionsSingleton cfg sp.allocatedMemorySize sp.scratch
      s.linExtTable parent.poset parent.info parentC true false = some (linExt, table)) :
    (linExt > (limit * 2) % 2 ^ linExtTBits cfg.MAXN →
      ∃ s', processPoset cfg sp parentC limit childLayerCompleteAbove childMapBW childMapOld
          s entryIdx = some s' ∧
        statusAt s'.posetList entryIdx = SortableStatus.NO ∧ s'.edgeList = s.edgeList) ∧
    (¬ linExt > (limit * 2) % 2 ^ linExtTBits cfg.MAXN →
      (insertAll cfg sp
        { posetList := s.posetList, childMap := s.childMap, localEdgeList := [0] }
        ((comps.takeWhile (fun c => decide ((comparisonClass cfg parentC
          childLayerCompleteAbove childMapBW childMapOld parent c).1 ≠
            ComparisonStatus.SORTABLE))).map
          (fun c => (comparisonClass cfg parentC childLayerCompleteAbove childMapBW
            childMapOld parent c).2)) = none →
        processPoset cfg sp parentC limit childLayerCompleteAbove childMapBW childMapOld
          s entryIdx = none) ∧
      ∀ st, insertAll cfg sp
        { posetList := s.posetList, childMap := s.childMap, localEdgeList := [0] }
        ((comps.takeWhile (fun c => decide ((comparisonClass cfg parentC
          childLayerCompleteAbove childMapBW childMapOld parent c).1 ≠
            ComparisonStatus.SORTABLE))).map
          (fun c => (comparisonClass cfg parentC childLayerCompleteAbove childMapBW
            childMapOld parent c).2)) = some st →
        ∃ s', processPoset cfg sp parentC limit childLayerCompleteAbove childMapBW childMapOld
            s entryIdx = some s' ∧
          ((∃ c ∈ comps, (comparisonClass cfg parentC childLayerCompleteAbove childMapBW
              childMapOld parent c).1 = ComparisonStatus.SORTABLE) →
            statusAt s'.posetList entryIdx = SortableStatus.YES ∧ s'.edgeList = s.edgeList) ∧
          ((∀ c ∈ comps, (comparisonClass cfg parentC childLayerCompleteAbove childMapBW
              childMapOld parent c).1 = ComparisonStatus.UNSORTABLE) →
            statusAt s'.posetList entryIdx = SortableStatus.NO ∧ s'.edgeList = s.edgeList) ∧
          ((∀ c ∈ comps, (comparisonClass cfg parentC childLayerCompleteAbove childMapBW
              childMapOld parent c).1 ≠ ComparisonStatus.SORTABLE) →
            (∃ c ∈ comps, (comparisonClass cfg parentC childLayerCompleteAbove childMapBW
              childMapOld parent c).1 = ComparisonStatus.INDETERMINATE) →
            statusAt s'.posetList entryIdx = SortableStatus.UNFINISHED ∧
            (s'.posetList.getD entryIdx AnnotatedPosetObj.new).elIndex = s.edgeList.length ∧
            ∃ pairs : List (Nat × Nat),
              s'.edgeList = s.edgeList ++
                (2 * pairs.length) :: pairs.flatMap (fun ab => [ab.1, ab.2]) ∧
              List.Forall₂ (fun c ab =>
                  (comparisonClass cfg parentC childLayerCompleteAbove childMapBW
                    childMapOld parent c).2.length = 1 → ab.1 = ab.2)
                (comps.filter (fun c => decide ((comparisonClass cfg parentC
                  childLayerCompleteAbove childMapBW childMapOld parent c).1 =
                    ComparisonStatus.INDETERMINATE))) pairs)) ∧
    (∀ c, comparisonVerdict cfg parentC childLayerCompleteAbove childMapBW childMapOld parent c =
      comparisonClass cfg parentC childLayerCompleteAbove childMapBW childMapOld parent c) ∧
    (∀ child lin,
      checkChild cfg childLayerCompleteAbove childMapBW childMapOld child lin =
        childResolution cfg childLayerCompleteAbove childMapBW childMapOld child lin) ∧
    (∀ child lin, lin ≥ childLayerCompleteAbove →
      (childMapBW.find cfg child = none →
        checkChild cfg childLayerCompleteAbove childMapBW childMapOld child lin =
          ComparisonStatus.UNSORTABLE) ∧
      (∀ shard index, childMapBW.find cfg child = some (shard, index) →
        (((childMapBW.Scontainers.getD shard []).getD index PosetObj.new).status =
            SortableStatus.YES →
          checkChild cfg childLayerCompleteAbove childMapBW childMapOld child lin =
            ComparisonStatus.SORTABLE) ∧
        (((childMapBW.Scontainers.getD shard []).getD index PosetObj.new).status =
            SortableStatus.NO →
          checkChild cfg childLayerCompleteAbove childMapBW childMapOld child lin =
            ComparisonStatus.UNSORTABLE))) ∧
    (∀ child lin r, lin < childLayerCompleteAbove → childMapOld.find cfg child = some r →
      (r.status = SortableStatus.YES →
        checkChild cfg childLayerCompleteAbove childMapBW childMapOld child lin =
          ComparisonStatus.SORTABLE) ∧
      (r.status = SortableStatus.NO →
        checkChild cfg childLayerCompleteAbove childMapBW childMapOld child lin =
          ComparisonStatus.UNSORTABLE)) ∧
    (∀ child lin, lin < childLayerCompleteAbove → childMapOld.find cfg child = none →
      checkChild cfg childLayerCompleteAbove childMapBW childMapOld child lin =
        ComparisonStatus.INDETERMINATE) := by
  have h := phase1_verdict_spec cfg sp parentC limit childLayerCompleteAbove childMapBW
    childMapOld s entryIdx linExt table parent comps hparent hcomps hidx hU hcalc
  simp only [comparisonVerdict_eq_class] at h
  refine ⟨h.1, h.2.1, fun c => comparisonVerdict_eq_class _ _ _ _ _ _ c,
    fun child lin => checkChild_eq_resolution _ _ _ _ child lin, ?_, ?_, ?_⟩
  · intro child lin hl
    refine ⟨fun hf => h.2.2 child lin hl hf, fun shard index hf => ⟨fun hs => ?_, fun hs => ?_⟩⟩
    · unfold checkChild
      simp only
      rw [if_pos hl, hf]
      simp only
      rw [hs]
      rfl
    · unfold checkChild
      simp only
      rw [if_pos hl, hf]
      simp only
      rw [hs]
      rfl
  · intro child lin r hl hf
    have hl' : ¬ lin ≥ childLayerCompleteAbove := by omega
    refine ⟨fun hs => ?_, fun hs => ?_⟩
    · unfold checkChild
      simp only
      rw [if_neg hl', hf]
      simp only
      rw [hs]
      rfl
    · unfold checkChild
      simp only
      rw [if_neg hl', hf]
      simp only
      rw [hs]
      rfl
  · intro child lin hl hf
    have hl' : ¬ lin ≥ childLayerCompleteAbove := by omega
    unfold checkChild
    simp only
    rw [if_neg hl', hf]


theorem processPoset_phase1_spec_witness :
    (checkChild ⟨4, 4, 5⟩ (2 ^ 64 - 1) (PosetMap.new 1 993) sampleOldGenFour sampleChildFour 12 =
      ComparisonStatus.SORTABLE) ∧
    (∃ s', processPoset ⟨4, 4, 5⟩ (defaultParams ⟨4, 4, 5⟩ 84) 0 16 (2 ^ 64 - 1)
        (PosetMap.new 1 993) sampleOldGenFour samplePhase1Four 0 = some s' ∧
      statusAt s'.posetList 0 = SortableStatus.YES) ∧
    (∃ s', processPoset ⟨4, 4, 5⟩ (defaultParams ⟨4, 4, 5⟩ 84) 0 16 (2 ^ 64 - 1)
        (PosetMap.new 1 993) (OldGenMap.new 1 (fun _ => PosetObj.new)) samplePhase1Four 0 =
          some s' ∧
      statusAt s'.posetList 0 = SortableStatus.UNFINISHED ∧
      ∃ pairs : List (Nat × Nat),
        s'.edgeList = samplePhase1Four.edgeList ++
          (2 * pairs.length) :: pairs.flatMap (fun ab => [ab.1, ab.2])) ∧
    (processPoset ⟨4, 4, 5⟩ (defaultParams ⟨4, 4, 5⟩ 84) 0 16 (2 ^ 64 - 1)
        (PosetMap.new 1 993) (OldGenMap.new 1 (fun _ => PosetObj.new)) samplePhase1Four 0).map
      (fun s => s.edgeList) = some [0, 2, 1, 1] :=
  ⟨by decide!,
    match ((processPoset_phase1_spec ⟨4, 4, 5⟩ (defaultParams ⟨4, 4, 5⟩ 84) 0 16 (2 ^ 64 - 1)
      (PosetMap.new 1 993) sampleOldGenFour samplePhase1Four 0 sampleCalcFour.1
      sampleCalcFour.2 _ _ rfl rfl (by decide) (by decide)
      (eq_some_getD _ (0, fun _ _ => 0) (by decide!))).2.1 (by decide!)).2 _
      (eq_some_getD _
        { posetList := [], childMap := PosetMapExt.new 1 1 (fun _ => false),
          localEdgeList := [] } (by decide!)) with
    | ⟨s', hs, hyes, _⟩ => ⟨s', hs, (hyes ⟨⟨0, 1, 12, 12, true⟩, by decide!, by decide!⟩).1⟩,
    match ((processPoset_phase1_spec ⟨4, 4, 5⟩ (defaultParams ⟨4, 4, 5⟩ 84) 0 16 (2 ^ 64 - 1)
      (PosetMap.new 1 993) (OldGenMap.new 1 (fun _ => PosetObj.new)) samplePhase1Four 0
      sampleCalcFour.1 sampleCalcFour.2 _ _ rfl rfl (by decide) (by decide)
      (eq_some_getD _ (0, fun _ _ => 0) (by decide!))).2.1 (by decide!)).2 _
      (eq_some_getD _
        { posetList := [], childMap := PosetMapExt.new 1 1 (fun _ => false),
          localEdgeList := [] } (by decide!)) with
    | ⟨s', hs, _, _, hunf⟩ =>
      match hunf (by decide!) ⟨⟨0, 1, 12, 12, true⟩, by decide!, by decide!⟩ with
      | ⟨h1, _, pairs, h3, _⟩ => ⟨s', hs, h1, pairs, h3⟩,
    by decide!⟩
